import Mathlib

/-!
# Gaffer animation curves: a shallow embedding of `src/Gaffer/Animation.cpp`

Keys are heap objects with identity; a curve (`CurvePlug`) holds two intrusive
containers of keys, the active keys `m_keys` (an ordered set keyed by time) and
the inactive keys `m_inactiveKeys` (an ordered multiset keyed by time).  The
embedding keeps that shape: a `Heap` maps key addresses to `Key` records and
curve addresses to `CurvePlug` records whose containers are lists of key
addresses in iteration order.

Times and values are `float`/`double` in the source.  Here they range over an
arbitrary linearly ordered field `α` (exact arithmetic); every definition is
executable at `α = ℚ`.
-/

namespace Animation

/-- Address of a `Key` object. -/
abbrev KeyId := Nat

/-- Address of a `CurvePlug` object. -/
abbrev CurveId := Nat

/-- The enum `Animation::Interpolation`. -/
inductive Interpolation where
  | Constant
  | ConstantNext
  | Linear
  | Cubic
  | Bezier
  deriving DecidableEq

/-- The enum `Animation::Direction`. -/
inductive Direction where
  | In
  | Out
  deriving DecidableEq

/-- State of an `Animation::Tangent`: the cached span `m_dt`, `m_dv` and the raw
`m_slope`, `m_scale`.  The owning key and the direction are given by the field
of `Key` that holds the tangent. -/
structure Tangent (α : Type) where
  m_dt : α
  m_dv : α
  m_slope : α
  m_scale : α

/-- State of an `Animation::Key`. -/
structure Key (α : Type) where
  m_parent : Option CurveId
  m_in : Tangent α
  m_out : Tangent α
  m_time : α
  m_value : α
  m_interpolator : Interpolation
  m_active : Bool

/-- State of an `Animation::CurvePlug`: both containers in iteration order. -/
structure CurvePlug where
  m_keys : List KeyId
  m_inactiveKeys : List KeyId

/-- The object heap: all keys, all curves, and the number of `Key` objects
constructed so far (`new Key` takes the next unused address). -/
structure Heap (α : Type) where
  key : KeyId → Key α
  curve : CurveId → CurvePlug
  keyCount : Nat

/-- Functions of the C++ standard library that the source calls and that have no
exact counterpart in a field: `std::sqrt` and
`std::numeric_limits<double>::epsilon()`. -/
structure Numeric (α : Type) where
  sqrt : α → α
  epsilon : α

section Containers

variable {α : Type} [LinearOrderedField α]

/-- Modelled from the spec: the container types `Keys` and `InactiveKeys` are
declared in `Animation.h`, which is not among the sources; the spec describes
them as an ordered set and an ordered multiset of keys sorted by time.
`lower_bound tk t l` is the part of `l` from the first key whose time is not
less than `t` (the empty list stands for `end()`). -/
def lower_bound (tk : KeyId → α) (t : α) : List KeyId → List KeyId
  | [] => []
  | x :: xs => if tk x < t then lower_bound tk t xs else x :: xs

/-- Modelled from the spec: `upper_bound tk t l` is the part of `l` from the
first key whose time is greater than `t`. -/
def upper_bound (tk : KeyId → α) (t : α) : List KeyId → List KeyId
  | [] => []
  | x :: xs => if t < tk x then x :: xs else upper_bound tk t xs

/-- Modelled from the spec: the keys that precede the `lower_bound` position,
so that `std::prev( lower_bound )` is the last of them. -/
def before_lower_bound (tk : KeyId → α) (t : α) : List KeyId → List KeyId
  | [] => []
  | x :: xs => if tk x < t then x :: before_lower_bound tk t xs else []

/-- Modelled from the spec: `find` of an ordered container, the first key at
`lower_bound` when its time is not greater than `t`. -/
def find (tk : KeyId → α) (t : α) (l : List KeyId) : Option KeyId :=
  match lower_bound tk t l with
  | [] => none
  | x :: _ => if t < tk x then none else some x

/-- Modelled from the spec: `insert` of the ordered set `Keys`; a key whose time
is already present is not inserted. -/
def insert_unique (tk : KeyId → α) (k : KeyId) : List KeyId → List KeyId
  | [] => [k]
  | x :: xs =>
    if tk x < tk k then x :: insert_unique tk k xs
    else if tk k < tk x then k :: x :: xs
    else x :: xs

/-- Modelled from the spec: `insert_before( lower_bound( t ), k )` of the ordered
multiset `InactiveKeys`. -/
def insert_before_lower_bound (tk : KeyId → α) (t : α) (k : KeyId) : List KeyId → List KeyId
  | [] => [k]
  | x :: xs => if tk x < t then x :: insert_before_lower_bound tk t k xs else k :: x :: xs

/-- Modelled from the spec: `replace_node( iterator_to( old ), new )`, which puts
`new` in the position of `old` without re-sorting. -/
def replace_node (old new : KeyId) : List KeyId → List KeyId
  | [] => []
  | x :: xs => if x = old then new :: xs else x :: replace_node old new xs

/-- The element that follows `k` in iteration order (`++iterator_to( k )`). -/
def nextIn (k : KeyId) : List KeyId → Option KeyId
  | [] => none
  | x :: xs => if x = k then xs.head? else nextIn k xs

/-- The element that precedes `k` in iteration order (`--iterator_to( k )`). -/
def prevIn (k : KeyId) : List KeyId → Option KeyId
  | [] => none
  | [_] => none
  | x :: y :: rest => if x = k then none else if y = k then some x else prevIn k (y :: rest)

end Containers

section HeapAccess

variable {α : Type}

/-- Time of the key at address `k`. -/
def Heap.time (h : Heap α) (k : KeyId) : α := (h.key k).m_time

/-- Overwrite the key at address `k`. -/
def Heap.setKey (h : Heap α) (k : KeyId) (v : Key α) : Heap α :=
  { h with key := Function.update h.key k v }

/-- Assign the active container of curve `c`. -/
def Heap.setKeys (h : Heap α) (c : CurveId) (l : List KeyId) : Heap α :=
  { h with curve := Function.update h.curve c { h.curve c with m_keys := l } }

/-- Assign the inactive container of curve `c`. -/
def Heap.setInactiveKeys (h : Heap α) (c : CurveId) (l : List KeyId) : Heap α :=
  { h with curve := Function.update h.curve c { h.curve c with m_inactiveKeys := l } }

/-- Assignment `key->m_active = b`. -/
def Heap.setActive (h : Heap α) (k : KeyId) (b : Bool) : Heap α :=
  h.setKey k { h.key k with m_active := b }

/-- Assignment `key->m_parent = p`. -/
def Heap.setParent (h : Heap α) (k : KeyId) (p : Option CurveId) : Heap α :=
  h.setKey k { h.key k with m_parent := p }

/-- Assignment `key->m_time = t`. -/
def Heap.setTime (h : Heap α) (k : KeyId) (t : α) : Heap α :=
  h.setKey k { h.key k with m_time := t }

/-- Assignment `key->m_value = v`. -/
def Heap.setValue (h : Heap α) (k : KeyId) (v : α) : Heap α :=
  h.setKey k { h.key k with m_value := v }

/-- `Key::Dispose`: clears the parent and the active flag (the reference count is
not modelled). -/
def Key.Dispose (h : Heap α) (k : KeyId) : Heap α :=
  h.setKey k { h.key k with m_parent := none, m_active := false }

/-- `Key::nextKey`. -/
def Key.nextKey (h : Heap α) (k : KeyId) : Option KeyId :=
  match (h.key k).m_parent with
  | some c => if (h.key k).m_active then nextIn k (h.curve c).m_keys else none
  | none => none

/-- `Key::prevKey`. -/
def Key.prevKey (h : Heap α) (k : KeyId) : Option KeyId :=
  match (h.key k).m_parent with
  | some c => if (h.key k).m_active then prevIn k (h.curve c).m_keys else none
  | none => none

/-- `CurvePlug::firstKey`. -/
def CurvePlug.firstKey (h : Heap α) (c : CurveId) : Option KeyId :=
  (h.curve c).m_keys.head?

/-- `CurvePlug::finalKey`. -/
def CurvePlug.finalKey (h : Heap α) (c : CurveId) : Option KeyId :=
  (h.curve c).m_keys.getLast?

end HeapAccess

section Interpolators

variable {α : Type} [LinearOrderedField α]

/-- `Imath::clamp`. -/
def clamp (a l h : α) : α := if a < l then l else if a > h then h else a

/-- `std::copysign` in exact arithmetic: the magnitude of `x` with the sign of
`y` (a zero `y` counts as positive). -/
def copysign (x y : α) : α := if y < 0 then -|x| else |x|

/-- `std::fma`. -/
def fma (a b c : α) : α := a * b + c

/-- `maxScale` of the anonymous namespace. -/
def maxScale (ν : Numeric α) (slope : α) : α := ν.sqrt (fma slope slope 1)

/-- `Interpolator::Hint::UseSlope`. -/
def Hint.UseSlope : Nat := 1

/-- `Interpolator::Hint::UseScale`. -/
def Hint.UseScale : Nat := 2

/-- `Interpolator::getHints`, as passed to the base constructor by the five
interpolators. -/
def Interpolator.getHints : Interpolation → Nat
  | .Bezier => Hint.UseSlope ||| Hint.UseScale
  | .Cubic => Hint.UseSlope
  | .Linear => 0
  | .ConstantNext => 0
  | .Constant => 0

/-- `Interpolator::getDefault`: the front of the container, the Bezier
interpolator. -/
def Interpolator.getDefault : Interpolation := .Bezier

/-- `Tangent::slopeIsConstrained` for the tangent of key `k` in direction `d`.
The source dereferences `prevKey()` without a test; a linked key that is not
the first key always has one, and the embedding answers `false` otherwise. -/
def Tangent.slopeIsConstrained (h : Heap α) (k : KeyId) (d : Direction) : Bool :=
  match (h.key k).m_parent with
  | none => false
  | some c =>
    if !(h.key k).m_active then false
    else match d with
      | .Out => decide (CurvePlug.finalKey h c ≠ some k) &&
          (Interpolator.getHints (h.key k).m_interpolator &&& Hint.UseSlope == 0)
      | .In => decide (CurvePlug.firstKey h c ≠ some k) &&
          (match Key.prevKey h k with
           | some kp => Interpolator.getHints (h.key kp).m_interpolator &&& Hint.UseSlope == 0
           | none => false)

/-- `Tangent::scaleIsConstrained`. -/
def Tangent.scaleIsConstrained (h : Heap α) (k : KeyId) (d : Direction) : Bool :=
  match (h.key k).m_parent with
  | none => false
  | some c =>
    if !(h.key k).m_active then false
    else match d with
      | .Out => decide (CurvePlug.finalKey h c ≠ some k) &&
          (Interpolator.getHints (h.key k).m_interpolator &&& Hint.UseScale == 0)
      | .In => decide (CurvePlug.firstKey h c ≠ some k) &&
          (match Key.prevKey h k with
           | some kp => Interpolator.getHints (h.key kp).m_interpolator &&& Hint.UseScale == 0
           | none => false)

/-- `Key::tangent( direction )`. -/
def Key.tangent (k : Key α) : Direction → Tangent α
  | .In => k.m_in
  | .Out => k.m_out

/-- The interpolator a constrained tangent delegates to: the key's own for the
out tangent, the previous key's for the in tangent. -/
def Tangent.interpolator (h : Heap α) (k : KeyId) : Direction → Interpolation
  | .Out => (h.key k).m_interpolator
  | .In =>
    match Key.prevKey h k with
    | some kp => (h.key kp).m_interpolator
    | none => (h.key k).m_interpolator

/-- `Interpolator::effectiveSlope`: overridden by the linear interpolator only. -/
def Interpolator.effectiveSlope (i : Interpolation) (dt dv : α) : α :=
  match i with
  | .Linear => dv / dt
  | _ => 0

/-- `Tangent::getSlope`. -/
def Tangent.getSlope (h : Heap α) (k : KeyId) (d : Direction) : α :=
  if Tangent.slopeIsConstrained h k d then
    Interpolator.effectiveSlope (Tangent.interpolator h k d)
      ((h.key k).tangent d).m_dt ((h.key k).tangent d).m_dv
  else ((h.key k).tangent d).m_slope

/-- `InterpolatorCubic::clampSlope`. -/
def clampSlope (slope : α) : α := clamp slope (-1000000000) 1000000000

/-- `Interpolator::effectiveScale`: overridden by the cubic interpolator only. -/
def Interpolator.effectiveScale (ν : Numeric α) (i : Interpolation) (h : Heap α) (k : KeyId)
    (d : Direction) (dt : α) : α :=
  match i with
  | .Cubic => (1 / 3) * maxScale ν (clampSlope (Tangent.getSlope h k d * dt) / dt)
  | _ => 0

/-- `Tangent::getScale`. -/
def Tangent.getScale (ν : Numeric α) (h : Heap α) (k : KeyId) (d : Direction) : α :=
  if Tangent.scaleIsConstrained h k d then
    Interpolator.effectiveScale ν (Tangent.interpolator h k d) h k d ((h.key k).tangent d).m_dt
  else ((h.key k).tangent d).m_scale

/-- `Tangent::getPosition( relative )`, as the pair `(x, y)`. -/
def Tangent.getPosition (ν : Numeric α) (h : Heap α) (k : KeyId) (d : Direction)
    (relative : Bool) : α × α :=
  let m_dt := ((h.key k).tangent d).m_dt
  let p : α × α :=
    if m_dt ≠ 0 then
      let slope := Tangent.getSlope h k d
      let scale := Tangent.getScale ν h k d
      let q : α × α :=
        if |slope| < 1 then
          let s := slope
          let x := min ((scale * m_dt) / ν.sqrt (fma s s 1)) m_dt
          (x, x * s)
        else
          let s := 1 / slope
          let y := copysign ((scale * m_dt) / ν.sqrt (fma s s 1)) s
          (min (y * s) m_dt, y)
      match d with
      | .In => (if q.1 ≠ 0 then -q.1 else q.1, if q.2 ≠ 0 then -q.2 else q.2)
      | .Out => q
    else (0, 0)
  if !relative then (p.1 + (h.key k).m_time, p.2 + (h.key k).m_value) else p

/-- The Newton-Raphson loop of `InterpolatorBezier::solveForTime`, with the
number of iterations left as the first argument. -/
def solveForTimeLoop (ν : Numeric α) (a_t bt ct at3 bt2 time : α) : Nat → α → α → α → α
  | 0, _, _, s => s
  | n + 1, sl, sh, s =>
    let f := fma s (fma s (fma s a_t bt) ct) (-time)
    let df := fma s (fma s at3 bt2) ct
    if |f| < ν.epsilon then s
    else
      let sl := if f < 0 then s else sl
      let sh := if f < 0 then sh else s
      let step : α × α :=
        if df = 0 then (1 / 2 * (sh - sl), sl + 1 / 2 * (sh - sl))
        else
          let ds := f / df
          if s - ds ≤ sl ∨ s - ds ≥ sh then (1 / 2 * (sh - sl), sl + 1 / 2 * (sh - sl))
          else (ds, s - ds)
      if |step.1| < ν.epsilon then step.2
      else solveForTimeLoop ν a_t bt ct at3 bt2 time n sl sh step.2

/-- `InterpolatorBezier::solveForTime`. -/
def solveForTime (ν : Numeric α) (tl th time : α) : Except String α :=
  if time ≤ 0 then pure 0
  else if time ≥ 1 then pure 1
  else
    let th3 := th + th + th
    let ct := tl + tl + tl
    let a_t := ct - th3 + 1
    let bt := th3 - ct - ct
    let bt2 := bt + bt
    let at3 := a_t + a_t + a_t
    let discriminant := bt2 * bt2 - 4 * at3 * ct
    let multiple : Bool :=
      if discriminant > 1 / 10000000000000 then
        let q := -(1 / 2) * (bt2 + copysign (ν.sqrt discriminant) bt2)
        let s1 := q / at3
        let s2 := ct / q
        decide ((0 < s1 ∧ s1 < 1) ∨ (0 < s2 ∧ s2 < 1))
      else false
    if multiple then
      throw "Animation : Bezier interpolation mode : curve segment has multiple values for given time."
    else pure (solveForTimeLoop ν a_t bt ct at3 bt2 time 10 0 1 time)

/-- `InterpolatorBezier::evaluate`. -/
def InterpolatorBezier.evaluate (ν : Numeric α) (h : Heap α) (keyLo keyHi : KeyId)
    (time dt : α) : Except String α :=
  let tl := Tangent.getPosition ν h keyLo .Out false
  let th := Tangent.getPosition ν h keyHi .In false
  match solveForTime ν
      (clamp ((tl.1 - (h.key keyLo).m_time) / dt) 0 1)
      (clamp ((th.1 - (h.key keyHi).m_time) / dt + 1) 0 1) time with
  | .error e => .error e
  | .ok s =>
    let valueLo := (h.key keyLo).m_value
    let valueHi := (h.key keyHi).m_value
    let tl3 := tl.2 + tl.2 + tl.2
    let th3 := th.2 + th.2 + th.2
    let vl3 := valueLo + valueLo + valueLo
    let av := tl3 - th3 + valueHi - valueLo
    let bv := th3 + vl3 - tl3 - tl3
    let cv := tl3 - vl3
    let dv := valueLo
    .ok (fma s (fma s (fma s av bv) cv) dv)

/-- `InterpolatorCubic::evaluate` (with `computeCoeffs` inlined). -/
def InterpolatorCubic.evaluate (h : Heap α) (keyLo keyHi : KeyId) (time dt : α) : α :=
  let dv := (h.key keyHi).m_value - (h.key keyLo).m_value
  let sl := clampSlope (Tangent.getSlope h keyLo .Out * dt)
  let sh := clampSlope (Tangent.getSlope h keyHi .In * dt)
  let a := sl + sh - dv - dv
  let b := dv + dv + dv - sl - sl - sh
  let c := sl
  let d := (h.key keyLo).m_value
  fma time (fma time (fma time a b) c) d

/-- `InterpolatorLinear::evaluate`. -/
def InterpolatorLinear.evaluate (h : Heap α) (keyLo keyHi : KeyId) (time : α) : α :=
  (h.key keyLo).m_value * (1 - time) + (h.key keyHi).m_value * time

/-- `InterpolatorConstant::evaluate`. -/
def InterpolatorConstant.evaluate (h : Heap α) (keyLo : KeyId) : α := (h.key keyLo).m_value

/-- `InterpolatorConstantNext::evaluate`. -/
def InterpolatorConstantNext.evaluate (h : Heap α) (keyHi : KeyId) : α := (h.key keyHi).m_value

/-- Virtual dispatch of `Interpolator::evaluate` on the interpolation mode. -/
def Interpolator.evaluate (ν : Numeric α) (h : Heap α) (i : Interpolation) (keyLo keyHi : KeyId)
    (time dt : α) : Except String α :=
  match i with
  | .Constant => .ok (InterpolatorConstant.evaluate h keyLo)
  | .ConstantNext => .ok (InterpolatorConstantNext.evaluate h keyHi)
  | .Linear => .ok (InterpolatorLinear.evaluate h keyLo keyHi time)
  | .Cubic => .ok (InterpolatorCubic.evaluate h keyLo keyHi time dt)
  | .Bezier => InterpolatorBezier.evaluate ν h keyLo keyHi time dt

/-- `CurvePlug::evaluate`.  The result is an error exactly when the Bezier
interpolator throws. -/
def CurvePlug.evaluate (ν : Numeric α) (h : Heap α) (c : CurveId) (time : α) : Except String α :=
  match (h.curve c).m_keys with
  | [] => .ok 0
  | k0 :: ks =>
    match lower_bound h.time time (k0 :: ks) with
    | [] => .ok (h.key ((k0 :: ks).getLast (List.cons_ne_nil k0 ks))).m_value
    | hi :: _ =>
      match (before_lower_bound h.time time (k0 :: ks)).getLast? with
      | none => .ok (h.key hi).m_value
      | some lo =>
        if (h.key hi).m_time = time then .ok (h.key hi).m_value
        else
          let dt := (h.key lo).m_out.m_dt
          let nt := clamp ((time - (h.key lo).m_time) / dt) 0 1
          Interpolator.evaluate ν h (h.key lo).m_interpolator lo hi nt dt

end Interpolators

section Closures

variable {α : Type} [LinearOrderedField α]

/-- `Tangent::update` for the tangent of key `k` in direction `d`: recompute the
cached span from the neighbouring key. -/
def Tangent.update (h : Heap α) (k : KeyId) (d : Direction) : Heap α :=
  let key := h.key k
  let span : α × α :=
    match key.m_parent with
    | none => (0, 0)
    | some _ =>
      match d with
      | .In =>
        match Key.prevKey h k with
        | some kp => (key.m_time - (h.key kp).m_time, key.m_value - (h.key kp).m_value)
        | none => (0, 0)
      | .Out =>
        match Key.nextKey h k with
        | some kn => ((h.key kn).m_time - key.m_time, (h.key kn).m_value - key.m_value)
        | none => (0, 0)
  match d with
  | .In => h.setKey k { key with m_in := { key.m_in with m_dt := span.1, m_dv := span.2 } }
  | .Out => h.setKey k { key with m_out := { key.m_out with m_dt := span.1, m_dv := span.2 } }

/-- The statement `if( k ){ k->tangent( d ).update(); }` for a possibly null
key pointer. -/
def Tangent.updateIf (h : Heap α) (k : Option KeyId) (d : Direction) : Heap α :=
  match k with
  | some x => Tangent.update h x d
  | none => h

/-- `Key::throwIfStateNotAsExpected`. -/
def Key.throwIfStateNotAsExpected (h : Heap α) (k : KeyId) (curve : Option CurveId)
    (active : Bool) (time : α) : Except String Unit :=
  if (h.key k).m_parent ≠ curve then throw "Key parent changed outside undo system."
  else if (h.key k).m_active ≠ active then throw "Key active changed outside undo system."
  else if (h.key k).m_time ≠ time then throw "Key time changed outside undo system."
  else pure ()

/-- The statement `if( k ) k->throwIfStateNotAsExpected( ... );` for a possibly
null key pointer. -/
def Key.throwIfStateNotAsExpectedIf (h : Heap α) (k : Option KeyId) (curve : Option CurveId)
    (active : Bool) (time : α) : Except String Unit :=
  match k with
  | some x => Key.throwIfStateNotAsExpected h x curve active time
  | none => pure ()

/-- The structural part of the Do closure of `Key::setTime` (what runs between
the state checks and the tangent updates). -/
def setTimeDoLink (curve : CurveId) (time : α) (active : Bool) (key : KeyId)
    (clashingKey clashingInactiveKey : Option KeyId) (h : Heap α) : Heap α :=
  let h1 :=
    if !active then
      h.setInactiveKeys curve ((h.curve curve).m_inactiveKeys.erase key)
    else
      match clashingInactiveKey with
      | some ci =>
        let a := h.setInactiveKeys curve ((h.curve curve).m_inactiveKeys.erase ci)
        let b := a.setKeys curve (replace_node key ci (a.curve curve).m_keys)
        b.setActive ci true
      | none => h.setKeys curve ((h.curve curve).m_keys.erase key)
  let h2 := (h1.setTime key time).setActive key true
  match clashingKey with
  | some ck =>
    let a := h2.setKeys curve (replace_node ck key (h2.curve curve).m_keys)
    let b := a.setInactiveKeys curve
      (insert_before_lower_bound a.time (a.key key).m_time ck (a.curve curve).m_inactiveKeys)
    b.setActive ck false
  | none => h2.setKeys curve (insert_unique h2.time key (h2.curve curve).m_keys)

/-- The Do closure of `Key::setTime`, with its captured variables as arguments. -/
def setTimeDo (curve : CurveId) (time previousTime : α) (active : Bool) (key : KeyId)
    (clashingKey clashingInactiveKey : Option KeyId) (h : Heap α) : Except String (Heap α) := do
  Key.throwIfStateNotAsExpected h key (some curve) active previousTime
  Key.throwIfStateNotAsExpectedIf h clashingInactiveKey (some curve) false previousTime
  Key.throwIfStateNotAsExpectedIf h clashingKey (some curve) true time
  let kpn := Key.nextKey h key
  let kpp := Key.prevKey h key
  let h3 := setTimeDoLink curve time active key clashingKey clashingInactiveKey h
  let h4 := Tangent.update h3 key .Out
  let h5 := Tangent.update h4 key .In
  let h6 :=
    match clashingInactiveKey with
    | some ci => Tangent.update (Tangent.update h5 ci .In) ci .Out
    | none => Tangent.updateIf (Tangent.updateIf h5 kpn .In) kpp .Out
  match clashingKey with
  | some _ => pure h6
  | none =>
    let kn := Key.nextKey h6 key
    let h7 := if kn ≠ kpn ∨ clashingInactiveKey.isSome then Tangent.updateIf h6 kn .In else h6
    let kp := Key.prevKey h7 key
    let h8 := if kp ≠ kpp ∨ clashingInactiveKey.isSome then Tangent.updateIf h7 kp .Out else h7
    pure h8

/-- The structural part of the Undo closure of `Key::setTime`. -/
def setTimeUndoLink (curve : CurveId) (previousTime : α) (active : Bool) (key : KeyId)
    (clashingKey clashingInactiveKey : Option KeyId) (h : Heap α) : Heap α :=
  let h1 :=
    match clashingKey with
    | some ck =>
      let a := h.setInactiveKeys curve ((h.curve curve).m_inactiveKeys.erase ck)
      let b := a.setKeys curve (replace_node key ck (a.curve curve).m_keys)
      b.setActive ck true
    | none => h.setKeys curve ((h.curve curve).m_keys.erase key)
  let h2 := (h1.setTime key previousTime).setActive key active
  if !(h2.key key).m_active then
    h2.setInactiveKeys curve
      (insert_before_lower_bound h2.time (h2.key key).m_time key (h2.curve curve).m_inactiveKeys)
  else
    match clashingInactiveKey with
    | some ci =>
      let a := h2.setKeys curve (replace_node ci key (h2.curve curve).m_keys)
      let b := a.setInactiveKeys curve
        (insert_before_lower_bound a.time (a.key key).m_time ci (a.curve curve).m_inactiveKeys)
      b.setActive ci false
    | none => h2.setKeys curve (insert_unique h2.time key (h2.curve curve).m_keys)

/-- The Undo closure of `Key::setTime`, with its captured variables as
arguments. -/
def setTimeUndo (curve : CurveId) (time previousTime : α) (active : Bool) (key : KeyId)
    (clashingKey clashingInactiveKey : Option KeyId) (h : Heap α) : Except String (Heap α) := do
  Key.throwIfStateNotAsExpected h key (some curve) true time
  Key.throwIfStateNotAsExpectedIf h clashingKey (some curve) false time
  Key.throwIfStateNotAsExpectedIf h clashingInactiveKey (some curve) true previousTime
  let kpn := Key.nextKey h key
  let kpp := Key.prevKey h key
  let h3 := setTimeUndoLink curve previousTime active key clashingKey clashingInactiveKey h
  let h4 := if active then Tangent.update (Tangent.update h3 key .In) key .Out else h3
  let h5 :=
    match clashingKey with
    | some ck => Tangent.update (Tangent.update h4 ck .In) ck .Out
    | none => Tangent.updateIf (Tangent.updateIf h4 kpn .In) kpp .Out
  match clashingInactiveKey with
  | some _ => pure h5
  | none =>
    let kn := Key.nextKey h5 key
    let h6 := if kn ≠ kpn ∨ clashingKey.isSome then Tangent.updateIf h5 kn .In else h5
    let kp := Key.prevKey h6 key
    let h7 := if kp ≠ kpp ∨ clashingKey.isSome then Tangent.updateIf h6 kp .Out else h6
    pure h7

/-- The structural part of the Do closure of `CurvePlug::addKey`. -/
def addKeyDoLink (this : CurveId) (key : KeyId) (clashingKey : Option KeyId) (time : α)
    (h : Heap α) : Heap α :=
  let h1 :=
    match clashingKey with
    | some ck =>
      let a := h.setKeys this (replace_node ck key (h.curve this).m_keys)
      let b := a.setInactiveKeys this
        (insert_before_lower_bound a.time time ck (a.curve this).m_inactiveKeys)
      b.setActive ck false
    | none => h.setKeys this (insert_unique h.time key (h.curve this).m_keys)
  (h1.setParent key (some this)).setActive key true

/-- The Do closure of `CurvePlug::addKey`, with its captured variables as
arguments. -/
def addKeyDo (this : CurveId) (key : KeyId) (clashingKey : Option KeyId) (time : α)
    (h : Heap α) : Except String (Heap α) := do
  Key.throwIfStateNotAsExpected h key none false time
  Key.throwIfStateNotAsExpectedIf h clashingKey (some this) true time
  let h2 := addKeyDoLink this key clashingKey time h
  let h3 := Tangent.update (Tangent.update h2 key .In) key .Out
  match clashingKey with
  | some _ => pure h3
  | none =>
    let h4 := Tangent.updateIf h3 (Key.nextKey h3 key) .In
    pure (Tangent.updateIf h4 (Key.prevKey h4 key) .Out)

/-- The structural part of the Undo closure of `CurvePlug::addKey`. -/
def addKeyUndoLink (this : CurveId) (key : KeyId) (clashingKey : Option KeyId)
    (h : Heap α) : Heap α :=
  match clashingKey with
  | some ck =>
    let a := h.setInactiveKeys this ((h.curve this).m_inactiveKeys.erase ck)
    let b := a.setKeys this (replace_node key ck (a.curve this).m_keys)
    (Key.Dispose b key).setActive ck true
  | none => Key.Dispose (h.setKeys this ((h.curve this).m_keys.erase key)) key

/-- The Undo closure of `CurvePlug::addKey`, with its captured variables as
arguments. -/
def addKeyUndo (this : CurveId) (key : KeyId) (clashingKey : Option KeyId) (time : α)
    (h : Heap α) : Except String (Heap α) := do
  Key.throwIfStateNotAsExpected h key (some this) true time
  Key.throwIfStateNotAsExpectedIf h clashingKey (some this) false time
  let kn := Key.nextKey h key
  let kp := Key.prevKey h key
  let h2 := addKeyUndoLink this key clashingKey h
  let h3 := Tangent.update (Tangent.update h2 key .In) key .Out
  match clashingKey with
  | some ck => pure (Tangent.update (Tangent.update h3 ck .In) ck .Out)
  | none => pure (Tangent.updateIf (Tangent.updateIf h3 kn .In) kp .Out)

/-- The structural part of the Do closure of `CurvePlug::removeKey`. -/
def removeKeyDoLink (this : CurveId) (key : KeyId) (clashingKey : Option KeyId) (active : Bool)
    (h : Heap α) : Heap α :=
  if !active then
    Key.Dispose (h.setInactiveKeys this ((h.curve this).m_inactiveKeys.erase key)) key
  else
    match clashingKey with
    | some ck =>
      let a := h.setInactiveKeys this ((h.curve this).m_inactiveKeys.erase ck)
      let b := a.setKeys this (replace_node key ck (a.curve this).m_keys)
      (Key.Dispose b key).setActive ck true
    | none => Key.Dispose (h.setKeys this ((h.curve this).m_keys.erase key)) key

/-- The Do closure of `CurvePlug::removeKey`, with its captured variables as
arguments. -/
def removeKeyDo (this : CurveId) (key : KeyId) (clashingKey : Option KeyId) (active : Bool)
    (time : α) (h : Heap α) : Except String (Heap α) := do
  Key.throwIfStateNotAsExpected h key (some this) active time
  Key.throwIfStateNotAsExpectedIf h clashingKey (some this) false time
  let kn := Key.nextKey h key
  let kp := Key.prevKey h key
  let h2 := removeKeyDoLink this key clashingKey active h
  let h3 := Tangent.update (Tangent.update h2 key .In) key .Out
  match clashingKey with
  | some ck => pure (Tangent.update (Tangent.update h3 ck .In) ck .Out)
  | none => pure (Tangent.updateIf (Tangent.updateIf h3 kn .In) kp .Out)

/-- The structural part of the Undo closure of `CurvePlug::removeKey`. -/
def removeKeyUndoLink (this : CurveId) (key : KeyId) (clashingKey : Option KeyId) (active : Bool)
    (time : α) (h : Heap α) : Heap α :=
  let h1 :=
    if !active then
      h.setInactiveKeys this
        (insert_before_lower_bound h.time time key (h.curve this).m_inactiveKeys)
    else
      match clashingKey with
      | some ck =>
        let a := h.setKeys this (replace_node ck key (h.curve this).m_keys)
        let b := a.setInactiveKeys this
          (insert_before_lower_bound a.time time ck (a.curve this).m_inactiveKeys)
        b.setActive ck false
      | none => h.setKeys this (insert_unique h.time key (h.curve this).m_keys)
  (h1.setParent key (some this)).setActive key active

/-- The Undo closure of `CurvePlug::removeKey`, with its captured variables as
arguments. -/
def removeKeyUndo (this : CurveId) (key : KeyId) (clashingKey : Option KeyId) (active : Bool)
    (time : α) (h : Heap α) : Except String (Heap α) := do
  Key.throwIfStateNotAsExpected h key none false time
  Key.throwIfStateNotAsExpectedIf h clashingKey (some this) true time
  let h2 := removeKeyUndoLink this key clashingKey active time h
  let h3 := if active then Tangent.update (Tangent.update h2 key .In) key .Out else h2
  match clashingKey with
  | some _ => pure h3
  | none =>
    let h4 := Tangent.updateIf h3 (Key.nextKey h3 key) .In
    pure (Tangent.updateIf h4 (Key.prevKey h4 key) .Out)

/-- The Do closure of `Key::setValue` (the Undo closure is the same code with the
previous value). -/
def setValueDo (key : KeyId) (value : α) (h : Heap α) : Heap α :=
  let h1 := h.setValue key value
  let h2 := Tangent.update (Tangent.update h1 key .Out) key .In
  let h3 := Tangent.updateIf h2 (Key.nextKey h2 key) .In
  Tangent.updateIf h3 (Key.prevKey h3 key) .Out

/-- The Do closure of `Key::setInterpolation` (the Undo closure is the same
code with the previous interpolator). -/
def setInterpolationDo (key : KeyId) (interpolator : Interpolation) (h : Heap α) : Heap α :=
  h.setKey key { h.key key with m_interpolator := interpolator }

/-- Assignment to the tangent of a key in direction `d` (the tangent objects are
the members `m_in` and `m_out` of the key). -/
def Key.setTangent (k : Key α) (d : Direction) (t : Tangent α) : Key α :=
  match d with
  | .In => { k with m_in := t }
  | .Out => { k with m_out := t }

/-- The Do closure of `Tangent::setSlope` for the tangent of `key` in direction
`d`: it assigns `m_slope` and `m_scale` (the Undo closure is the same code with
the previous slope and scale). -/
def setSlopeDo (key : KeyId) (d : Direction) (slope scale : α) (h : Heap α) : Heap α :=
  h.setKey key ((h.key key).setTangent d
    { (h.key key).tangent d with m_slope := slope, m_scale := scale })

/-- The Do closure of `Tangent::setScale`: it assigns `m_scale` (the Undo
closure is the same code with the previous scale). -/
def setScaleDo (key : KeyId) (d : Direction) (scale : α) (h : Heap α) : Heap α :=
  h.setKey key ((h.key key).setTangent d { (h.key key).tangent d with m_scale := scale })

end Closures

section Api

variable {α : Type} [LinearOrderedField α]

/-- A recorded unit of work: the captured variables of one Do/Undo closure pair
handed to `Action::enact`. -/
inductive Action (α : Type) where
  | setTime (curve : CurveId) (time previousTime : α) (active : Bool) (key : KeyId)
      (clashingKey clashingInactiveKey : Option KeyId)
  | setValue (key : KeyId) (value previousValue : α)
  | setInterpolation (key : KeyId) (interpolator previousInterpolator : Interpolation)
  | addKey (this : CurveId) (key : KeyId) (clashingKey : Option KeyId) (time : α)
  | removeKey (this : CurveId) (key : KeyId) (clashingKey : Option KeyId) (active : Bool)
      (time : α)
  | setSlope (key : KeyId) (direction : Direction) (slope scale previousSlope previousScale : α)
  | setScale (key : KeyId) (direction : Direction) (scale previousScale : α)

/-- Run the Do closure of a recorded action. -/
def Action.doFn : Action α → Heap α → Except String (Heap α)
  | .setTime curve time previousTime active key ck ci =>
    setTimeDo curve time previousTime active key ck ci
  | .setValue key value _ => fun h => pure (setValueDo key value h)
  | .setInterpolation key interpolator _ => fun h => pure (setInterpolationDo key interpolator h)
  | .addKey this key ck time => addKeyDo this key ck time
  | .removeKey this key ck active time => removeKeyDo this key ck active time
  | .setSlope key d slope scale _ _ => fun h => pure (setSlopeDo key d slope scale h)
  | .setScale key d scale _ => fun h => pure (setScaleDo key d scale h)

/-- Run the Undo closure of a recorded action. -/
def Action.undoFn : Action α → Heap α → Except String (Heap α)
  | .setTime curve time previousTime active key ck ci =>
    setTimeUndo curve time previousTime active key ck ci
  | .setValue key _ previousValue => fun h => pure (setValueDo key previousValue h)
  | .setInterpolation key _ previousInterpolator =>
    fun h => pure (setInterpolationDo key previousInterpolator h)
  | .addKey this key ck time => addKeyUndo this key ck time
  | .removeKey this key ck active time => removeKeyUndo this key ck active time
  | .setSlope key d _ _ previousSlope previousScale =>
    fun h => pure (setSlopeDo key d previousSlope previousScale h)
  | .setScale key d _ previousScale => fun h => pure (setScaleDo key d previousScale h)

/-- The heap together with the undo queue of the script that owns the curves. -/
structure Script (α : Type) where
  heap : Heap α
  undoQueue : List (Action α)

/-- Modelled from the spec: `Action::enact` is declared in `Gaffer/Action.h`,
which is not among the sources.  The spec says the log calls the Do closure
exactly once at submission and may call the Undo closure later, in strict LIFO
order.  A closure that throws leaves heap and queue as they were. -/
def Action.enact (a : Action α) (w : Script α) : Except String (Script α) :=
  match a.doFn w.heap with
  | .ok h => .ok { heap := h, undoQueue := a :: w.undoQueue }
  | .error e => .error e

/-- Modelled from the spec: undo of the most recent recorded action (see
`Action.enact`). -/
def Script.undo (w : Script α) : Except String (Script α) :=
  match w.undoQueue with
  | [] => throw "Nothing to undo"
  | a :: rest =>
    match a.undoFn w.heap with
    | .ok h => .ok { heap := h, undoQueue := rest }
    | .error e => .error e

/-- `Animation::defaultSlope`. -/
def defaultSlope : α := 0

/-- `Animation::defaultScale`. -/
def defaultScale : α := 1 / 3

/-- The constructor `Key::Key`, allocating the next unused address; the two
tangent constructors clamp the scale to `[0, maxScale( slope )]`. -/
def Key.new (ν : Numeric α) (h : Heap α) (time value : α) (interpolation : Interpolation)
    (inSlope inScale outSlope outScale : α) : Heap α × KeyId :=
  let k : Key α :=
    { m_parent := none
      m_in := { m_dt := 0, m_dv := 0, m_slope := inSlope,
                m_scale := clamp inScale 0 (maxScale ν inSlope) }
      m_out := { m_dt := 0, m_dv := 0, m_slope := outSlope,
                 m_scale := clamp outScale 0 (maxScale ν outSlope) }
      m_time := time
      m_value := value
      m_interpolator := interpolation
      m_active := false }
  ({ h with key := Function.update h.key h.keyCount k, keyCount := h.keyCount + 1 }, h.keyCount)

/-- `CurvePlug::getKey`. -/
def CurvePlug.getKey (h : Heap α) (c : CurveId) (time : α) : Option KeyId :=
  find h.time time (h.curve c).m_keys

/-- `CurvePlug::hasKey`. -/
def CurvePlug.hasKey (h : Heap α) (c : CurveId) (time : α) : Bool :=
  (CurvePlug.getKey h c time).isSome

/-- `Key::setTime`: the new script state and the returned clashing key. -/
def Key.setTime (w : Script α) (key : KeyId) (time : α) : Except String (Script α × Option KeyId) :=
  if time = (w.heap.key key).m_time then pure (w, none)
  else
    match (w.heap.key key).m_parent with
    | some curve =>
      let clashingKey := CurvePlug.getKey w.heap curve time
      let clashingInactiveKey :=
        if (w.heap.key key).m_active then
          find w.heap.time (w.heap.key key).m_time (w.heap.curve curve).m_inactiveKeys
        else none
      match Action.enact (.setTime curve time (w.heap.key key).m_time (w.heap.key key).m_active
          key clashingKey clashingInactiveKey) w with
      | .ok w1 => .ok (w1, clashingKey)
      | .error e => .error e
    | none => pure ({ w with heap := w.heap.setTime key time }, none)

/-- `Key::setValue`. -/
def Key.setValue (w : Script α) (key : KeyId) (value : α) : Except String (Script α) :=
  if value = (w.heap.key key).m_value then pure w
  else
    match (w.heap.key key).m_parent with
    | some _ => Action.enact (.setValue key value (w.heap.key key).m_value) w
    | none => pure { w with heap := w.heap.setValue key value }

/-- `Key::setInterpolation`. -/
def Key.setInterpolation (w : Script α) (key : KeyId) (interpolation : Interpolation) :
    Except String (Script α) :=
  if interpolation = (w.heap.key key).m_interpolator then pure w
  else
    match (w.heap.key key).m_parent with
    | some _ =>
      Action.enact (.setInterpolation key interpolation (w.heap.key key).m_interpolator) w
    | none => pure { w with heap := setInterpolationDo key interpolation w.heap }

/-- `Tangent::setSlope( slope, force )` for the tangent of `key` in direction
`d`; `setSlope( slope )` is the call with `force = false`. -/
def Tangent.setSlope (ν : Numeric α) (w : Script α) (key : KeyId) (d : Direction) (slope : α)
    (force : Bool) : Except String (Script α) :=
  if !force && Tangent.slopeIsConstrained w.heap key d then pure w
  else if ((w.heap.key key).tangent d).m_slope = slope then pure w
  else
    let scale := min ((w.heap.key key).tangent d).m_scale (maxScale ν slope)
    match (w.heap.key key).m_parent with
    | some _ =>
      Action.enact (.setSlope key d slope scale ((w.heap.key key).tangent d).m_slope
        ((w.heap.key key).tangent d).m_scale) w
    | none => pure { w with heap := setSlopeDo key d slope scale w.heap }

/-- `Tangent::setScale( scale, force )` for the tangent of `key` in direction
`d`; `setScale( scale )` is the call with `force = false`. -/
def Tangent.setScale (ν : Numeric α) (w : Script α) (key : KeyId) (d : Direction) (scale : α)
    (force : Bool) : Except String (Script α) :=
  if !force && Tangent.scaleIsConstrained w.heap key d then pure w
  else
    let scale := clamp scale 0 (maxScale ν ((w.heap.key key).tangent d).m_slope)
    if ((w.heap.key key).tangent d).m_scale = scale then pure w
    else
      match (w.heap.key key).m_parent with
      | some _ => Action.enact (.setScale key d scale ((w.heap.key key).tangent d).m_scale) w
      | none => pure { w with heap := setScaleDo key d scale w.heap }

/-- `CurvePlug::removeKey`. -/
def CurvePlug.removeKey (w : Script α) (this : CurveId) (key : KeyId) : Except String (Script α) :=
  if (w.heap.key key).m_parent ≠ some this then throw "Key is not a child"
  else
    let time := (w.heap.key key).m_time
    let clashingKey :=
      if (w.heap.key key).m_active then
        find w.heap.time (w.heap.key key).m_time (w.heap.curve this).m_inactiveKeys
      else none
    Action.enact (.removeKey this key clashingKey (w.heap.key key).m_active time) w

/-- `CurvePlug::addKey`: the new script state and the returned clashing key. -/
def CurvePlug.addKey (w : Script α) (this : CurveId) (key : KeyId) (removeActiveClashing : Bool) :
    Except String (Script α × Option KeyId) :=
  let clashingKey := CurvePlug.getKey w.heap this (w.heap.key key).m_time
  if clashingKey = some key then pure (w, none)
  else do
    let w1 ←
      match (w.heap.key key).m_parent with
      | some p => CurvePlug.removeKey w p key
      | none => pure w
    let time := (w1.heap.key key).m_time
    let w2 ← Action.enact (.addKey this key clashingKey time) w1
    match clashingKey with
    | some ck =>
      if removeActiveClashing then do
        let w3 ← CurvePlug.removeKey w2 this ck
        pure (w3, clashingKey)
      else pure (w2, clashingKey)
    | none => pure (w2, clashingKey)

/-- `CurvePlug::removeInactiveKeys`: the loop visits the inactive keys in
iteration order, advancing the iterator before each removal. -/
def CurvePlug.removeInactiveKeys (w : Script α) (this : CurveId) : Except String (Script α) :=
  (w.heap.curve this).m_inactiveKeys.foldlM (fun s k => CurvePlug.removeKey s this k) w

/-- The first block of `CurvePlug::insertKeyInternal` ("find span keys for
time"): the values of `key`, `lo` and `hi` it leaves. -/
def CurvePlug.insertKeySpan (h : Heap α) (this : CurveId) (time : α) :
    Option KeyId × Option KeyId × Option KeyId :=
  match lower_bound h.time time (h.curve this).m_keys with
  | hi :: _ =>
    if (h.key hi).m_time = time then (some hi, none, some hi)
    else
      match (before_lower_bound h.time time (h.curve this).m_keys).getLast? with
      | some lo =>
        if (h.key lo).m_time = time then (some lo, some lo, some hi)
        else (none, some lo, some hi)
      | none => (none, none, some hi)
  | [] => (none, CurvePlug.finalKey h this, none)

/-- The block "get interpolator" of `CurvePlug::insertKeyInternal`. -/
def CurvePlug.insertKeyInterpolator (h : Heap α) (this : CurveId) (lo : Option KeyId) :
    Interpolation :=
  match lo with
  | some l => (h.key l).m_interpolator
  | none =>
    match CurvePlug.firstKey h this with
    | some kf => (h.key kf).m_interpolator
    | none => Interpolator.getDefault

/-- `CurvePlug::insertKeyInternal`, with the optional value as an `Option`.
The default arguments of the `Key` constructor and of `addKey` are declared in
the missing header; the tangent defaults are `defaultSlope`, `defaultScale`, and
`addKey` cannot meet a clashing key here. -/
def CurvePlug.insertKeyInternal (ν : Numeric α) (w : Script α) (this : CurveId) (time : α)
    (value : Option α) : Except String (Script α × Option KeyId) :=
  let span := CurvePlug.insertKeySpan w.heap this time
  let lo := span.2.1
  let hi := span.2.2
  match span.1 with
  | some key =>
    match value with
    | some v => do
      let w1 ← Key.setValue w key v
      pure (w1, some key)
    | none => pure (w, some key)
  | none =>
    if !(lo.isSome && hi.isSome) && value.isNone then pure (w, none)
    else
      let created := Key.new ν w.heap time (value.getD 0)
        (CurvePlug.insertKeyInterpolator w.heap this lo)
        defaultSlope defaultScale defaultSlope defaultScale
      let w1 : Script α := { w with heap := created.1 }
      let key := created.2
      do
        let bisect ←
          if lo.isSome && hi.isSome then
            match value with
            | none => pure true
            | some v => do
              let e ← CurvePlug.evaluate ν w1.heap this time
              pure (decide (e = v))
          else pure false
        if bisect then do
          let e ← CurvePlug.evaluate ν w1.heap this time
          let w2 : Script α := { w1 with heap := w1.heap.setValue key e }
          let r ← CurvePlug.addKey w2 this key false
          pure (r.1, some key)
        else do
          let r ← CurvePlug.addKey w1 this key false
          pure (r.1, some key)

/-- `CurvePlug::insertKey( time )`. -/
def CurvePlug.insertKey (ν : Numeric α) (w : Script α) (this : CurveId) (time : α) :
    Except String (Script α × Option KeyId) :=
  CurvePlug.insertKeyInternal ν w this time none

/-- `CurvePlug::insertKey( time, value )`. -/
def CurvePlug.insertKeyValue (ν : Numeric α) (w : Script α) (this : CurveId) (time value : α) :
    Except String (Script α × Option KeyId) :=
  CurvePlug.insertKeyInternal ν w this time (some value)

end Api

section Invariants

variable {α : Type} [LinearOrderedField α]

/-- Linkage and ordering of all curves: both containers of every curve are
sorted by time (the active one strictly), the inactive container has no
repeated key, a key is in the active container of `c` iff its parent is `c`
and it is active, in the inactive container of `c` iff its parent is `c` and
it is inactive, and an unparented key is inactive. -/
structure Linked (h : Heap α) : Prop where
  sorted : ∀ c, ((h.curve c).m_keys.map h.time).Pairwise (· < ·)
  sortedInactive : ∀ c, ((h.curve c).m_inactiveKeys.map h.time).Pairwise (· ≤ ·)
  nodupInactive : ∀ c, (h.curve c).m_inactiveKeys.Nodup
  mem_keys : ∀ c k,
    (k ∈ (h.curve c).m_keys ↔ (h.key k).m_parent = some c ∧ (h.key k).m_active = true)
  mem_inactiveKeys : ∀ c k,
    (k ∈ (h.curve c).m_inactiveKeys ↔ (h.key k).m_parent = some c ∧ (h.key k).m_active = false)
  unparented : ∀ k, (h.key k).m_parent = none → (h.key k).m_active = false

/-- The state in the middle of a closure: as `Linked`, but the key `e` is in no
container and its fields are unconstrained. -/
structure LinkedExcept (h : Heap α) (e : KeyId) : Prop where
  sorted : ∀ c, ((h.curve c).m_keys.map h.time).Pairwise (· < ·)
  sortedInactive : ∀ c, ((h.curve c).m_inactiveKeys.map h.time).Pairwise (· ≤ ·)
  nodupInactive : ∀ c, (h.curve c).m_inactiveKeys.Nodup
  not_mem_keys : ∀ c, e ∉ (h.curve c).m_keys
  not_mem_inactiveKeys : ∀ c, e ∉ (h.curve c).m_inactiveKeys
  mem_keys : ∀ c k, k ≠ e →
    (k ∈ (h.curve c).m_keys ↔ (h.key k).m_parent = some c ∧ (h.key k).m_active = true)
  mem_inactiveKeys : ∀ c k, k ≠ e →
    (k ∈ (h.curve c).m_inactiveKeys ↔ (h.key k).m_parent = some c ∧ (h.key k).m_active = false)
  unparented : ∀ k, k ≠ e → (h.key k).m_parent = none → (h.key k).m_active = false

/-- The state of a key that passes `throwIfStateNotAsExpected`. -/
def Key.StateIs (h : Heap α) (k : KeyId) (p : Option CurveId) (a : Bool) (t : α) : Prop :=
  (h.key k).m_parent = p ∧ (h.key k).m_active = a ∧ (h.key k).m_time = t

/-- The same for a possibly null key pointer. -/
def Key.StateIsIf (h : Heap α) (k : Option KeyId) (p : Option CurveId) (a : Bool) (t : α) :
    Prop :=
  ∀ x, k = some x → Key.StateIs h x p a t

/-- The unlink step shared by the closures: take `key` out of the container of
curve `c` that holds it; when `key` is active and `u` is an inactive key of the
same time, `u` takes over the slot of `key` and becomes active. -/
def unlink (c : CurveId) (active : Bool) (key : KeyId) (u : Option KeyId) (h : Heap α) : Heap α :=
  if !active then h.setInactiveKeys c ((h.curve c).m_inactiveKeys.erase key)
  else
    match u with
    | some ci =>
      let a := h.setInactiveKeys c ((h.curve c).m_inactiveKeys.erase ci)
      let b := a.setKeys c (replace_node key ci (a.curve c).m_keys)
      b.setActive ci true
    | none => h.setKeys c ((h.curve c).m_keys.erase key)

/-- The link step shared by the closures: put `key`, whose fields are already
set, into the inactive container of curve `c`, or into the active container,
in the slot of the active key `u` of the same time (which becomes inactive) or
else at its sorted position. -/
def link (c : CurveId) (active : Bool) (key : KeyId) (u : Option KeyId) (h : Heap α) : Heap α :=
  if !active then
    h.setInactiveKeys c
      (insert_before_lower_bound h.time (h.time key) key (h.curve c).m_inactiveKeys)
  else
    match u with
    | some ck =>
      let a := h.setKeys c (replace_node ck key (h.curve c).m_keys)
      let b := a.setInactiveKeys c
        (insert_before_lower_bound a.time (a.time key) ck (a.curve c).m_inactiveKeys)
      b.setActive ck false
    | none => h.setKeys c (insert_unique h.time key (h.curve c).m_keys)

/-- A well-formed heap: linked, and no key beyond the allocation counter is
parented. -/
structure Heap.WF (h : Heap α) : Prop where
  linked : Linked h
  fresh : ∀ k, h.keyCount ≤ k → (h.key k).m_parent = none

/-- A key without its cached spans. -/
def Key.core (k : Key α) : Key α :=
  { k with m_in := { k.m_in with m_dt := 0, m_dv := 0 },
           m_out := { k.m_out with m_dt := 0, m_dv := 0 } }

/-- A heap without the cached spans of its tangents. -/
def Heap.core (h : Heap α) : Heap α := { h with key := fun k => (h.key k).core }

/-- Two heaps agree on what the closures of a later undo depend on: the active
containers, the parent and active flag of every key, and the time of every
parented key. -/
structure Agree (a b : Heap α) : Prop where
  keyCount : a.keyCount ≤ b.keyCount
  keys : ∀ c, (a.curve c).m_keys = (b.curve c).m_keys
  parent : ∀ k, (a.key k).m_parent = (b.key k).m_parent
  active : ∀ k, (a.key k).m_active = (b.key k).m_active
  time : ∀ k, (a.key k).m_parent ≠ none → (a.key k).m_time = (b.key k).m_time

/-- The captured variables of an action are consistent with the heap it is
submitted in: a null clashing key means that the target time slot is free, a
time change is a real change, and the key is allocated. -/
def Action.Sound (h : Heap α) : Action α → Prop
  | .setTime curve time previousTime _ _ clashingKey _ =>
    time ≠ previousTime ∧
      (clashingKey = none → ∀ y ∈ (h.curve curve).m_keys, h.time y ≠ time)
  | .setValue _ _ _ => True
  | .setInterpolation _ _ _ => True
  | .addKey this key clashingKey time =>
    key < h.keyCount ∧ (clashingKey = none → ∀ y ∈ (h.curve this).m_keys, h.time y ≠ time)
  | .removeKey _ _ _ _ _ => True
  | .setSlope _ _ _ _ _ _ => True
  | .setScale _ _ _ _ => True

/-- The undo queue is consistent with the heap: the heap agrees with the one
left by the Do closure of the most recent action, run from a well-formed heap
with which the rest of the queue is consistent. -/
def Valid : List (Action α) → Heap α → Prop
  | [], _ => True
  | a :: rest, h =>
    ∃ h0 h1, Heap.WF h0 ∧ Valid rest h0 ∧ Action.Sound h0 a ∧ a.doFn h0 = .ok h1 ∧ Agree h1 h

/-- The initial heap: no key constructed, every curve empty. -/
def Heap.init : Heap α :=
  { key := fun _ =>
      { m_parent := none
        m_in := { m_dt := 0, m_dv := 0, m_slope := 0, m_scale := 0 }
        m_out := { m_dt := 0, m_dv := 0, m_slope := 0, m_scale := 0 }
        m_time := 0
        m_value := 0
        m_interpolator := Interpolator.getDefault
        m_active := false }
    curve := fun _ => { m_keys := [], m_inactiveKeys := [] }
    keyCount := 0 }

/-- The initial script: the initial heap and an empty undo queue. -/
def Script.init : Script α := { heap := Heap.init, undoQueue := [] }

/-- The script states reachable from empty curves by constructing keys, by the
mutating methods of `Key`, `Tangent` and `CurvePlug` on constructed keys, and by
undo.  A call that throws makes no step. -/
inductive Reachable (ν : Numeric α) : Script α → Prop
  | init : Reachable ν Script.init
  | newKey {w : Script α} (time value : α) (interpolation : Interpolation)
      (inSlope inScale outSlope outScale : α) :
      Reachable ν w →
      Reachable ν { w with heap := (Key.new ν w.heap time value interpolation
        inSlope inScale outSlope outScale).1 }
  | setTime {w w1 : Script α} (key : KeyId) (time : α) (r : Option KeyId) :
      Reachable ν w → key < w.heap.keyCount → Key.setTime w key time = .ok (w1, r) →
      Reachable ν w1
  | setValue {w w1 : Script α} (key : KeyId) (value : α) :
      Reachable ν w → key < w.heap.keyCount → Key.setValue w key value = .ok w1 →
      Reachable ν w1
  | setInterpolation {w w1 : Script α} (key : KeyId) (interpolation : Interpolation) :
      Reachable ν w → key < w.heap.keyCount →
      Key.setInterpolation w key interpolation = .ok w1 → Reachable ν w1
  | setSlope {w w1 : Script α} (key : KeyId) (direction : Direction) (slope : α) (force : Bool) :
      Reachable ν w → key < w.heap.keyCount →
      Tangent.setSlope ν w key direction slope force = .ok w1 → Reachable ν w1
  | setScale {w w1 : Script α} (key : KeyId) (direction : Direction) (scale : α) (force : Bool) :
      Reachable ν w → key < w.heap.keyCount →
      Tangent.setScale ν w key direction scale force = .ok w1 → Reachable ν w1
  | addKey {w w1 : Script α} (this : CurveId) (key : KeyId) (removeActiveClashing : Bool)
      (r : Option KeyId) :
      Reachable ν w → key < w.heap.keyCount →
      CurvePlug.addKey w this key removeActiveClashing = .ok (w1, r) → Reachable ν w1
  | removeKey {w w1 : Script α} (this : CurveId) (key : KeyId) :
      Reachable ν w → key < w.heap.keyCount → CurvePlug.removeKey w this key = .ok w1 →
      Reachable ν w1
  | insertKey {w w1 : Script α} (this : CurveId) (time : α) (value : Option α)
      (r : Option KeyId) :
      Reachable ν w → CurvePlug.insertKeyInternal ν w this time value = .ok (w1, r) →
      Reachable ν w1
  | removeInactiveKeys {w w1 : Script α} (this : CurveId) :
      Reachable ν w → CurvePlug.removeInactiveKeys w this = .ok w1 → Reachable ν w1
  | undo {w w1 : Script α} :
      Reachable ν w → Script.undo w = .ok w1 → Reachable ν w1

end Invariants

section LinkSteps

variable {α : Type} [LinearOrderedField α]

/-- The active container after the unlink step. -/
def unlinkKeys (a : Bool) (key : KeyId) (u : Option KeyId) (l : List KeyId) : List KeyId :=
  if a then
    match u with
    | some ci => replace_node key ci l
    | none => l.erase key
  else l

/-- The active container after the link step. -/
def linkKeys (tk : KeyId → α) (a : Bool) (key : KeyId) (u : Option KeyId) (l : List KeyId) :
    List KeyId :=
  if a then
    match u with
    | some ck => replace_node ck key l
    | none => insert_unique tk key l
  else l

end LinkSteps

section LinkStepsInactive

variable {α : Type} [LinearOrderedField α]

/-- The inactive container after the unlink step. -/
def unlinkInactiveKeys (a : Bool) (key : KeyId) (u : Option KeyId) (m : List KeyId) :
    List KeyId :=
  if a then
    match u with
    | some ci => m.erase ci
    | none => m
  else m.erase key

/-- The inactive container after the link step. -/
def linkInactiveKeys (tk : KeyId → α) (a : Bool) (key : KeyId) (u : Option KeyId)
    (m : List KeyId) : List KeyId :=
  if a then
    match u with
    | some ck => insert_before_lower_bound tk (tk key) ck m
    | none => m
  else insert_before_lower_bound tk (tk key) key m

end LinkStepsInactive

section SameLinksDef

variable {α : Type} [LinearOrderedField α]

/-- Two heaps with the same containers, allocation counter, and the same
parent, active flag and time for every key. -/
structure SameLinks (a b : Heap α) : Prop where
  curve : a.curve = b.curve
  keyCount : a.keyCount = b.keyCount
  parent : ∀ k, (a.key k).m_parent = (b.key k).m_parent
  active : ∀ k, (a.key k).m_active = (b.key k).m_active
  time : a.time = b.time

end SameLinksDef

section ScriptInvariant

variable {α : Type} [LinearOrderedField α]

/-- The invariant of a script state: the heap is well-formed and the undo queue
is consistent with it. -/
structure Script.Inv (w : Script α) : Prop where
  wf : Heap.WF w.heap
  valid : Valid w.undoQueue w.heap

end ScriptInvariant

section SpanCache

variable {α : Type} [LinearOrderedField α]

/-- The span width that belongs in the out tangent of the active key `k` of
curve `c`: the time to the next active key, or zero for the final key. -/
def expectedOutDt (h : Heap α) (c : CurveId) (k : KeyId) : α :=
  match nextIn k (h.curve c).m_keys with
  | some n => h.time n - h.time k
  | none => 0

/-- Every active key caches the right span width in its out tangent. -/
def SpanOut (h : Heap α) : Prop :=
  ∀ c k, k ∈ (h.curve c).m_keys → (h.key k).m_out.m_dt = expectedOutDt h c k

/-- The span width that `Tangent::update` stores in the out tangent of `k`. -/
def spanOutDt (h : Heap α) (k : KeyId) : α :=
  match (h.key k).m_parent with
  | none => 0
  | some _ =>
    match Key.nextKey h k with
    | some kn => (h.key kn).m_time - (h.key k).m_time
    | none => 0

/-- The out tangent of `k` caches what `Tangent::update` would store. -/
def OutOK (h : Heap α) (k : KeyId) : Prop := (h.key k).m_out.m_dt = spanOutDt h k

/-- From `a` to `b` the cached out span and its expected value change only for
the keys in `s`. -/
def OutStable (a b : Heap α) (s : KeyId → Prop) : Prop :=
  ∀ c x, x ∈ (b.curve c).m_keys → ¬ s x →
    x ∈ (a.curve c).m_keys ∧ expectedOutDt b c x = expectedOutDt a c x ∧
      (b.key x).m_out.m_dt = (a.key x).m_out.m_dt

/-- `Upd s a b`: `b` comes from `a` by tangent updates, among them an update of
the out tangent of every key in `s`. -/
inductive Upd : (KeyId → Prop) → Heap α → Heap α → Prop
  | refl (h : Heap α) : Upd (fun _ => False) h h
  | update {s : KeyId → Prop} {a b : Heap α} (k : KeyId) (d : Direction) :
      Upd s a b → Upd (fun x => s x ∨ (x = k ∧ d = .Out)) a (Tangent.update b k d)
  | weaken {s t : KeyId → Prop} {a b : Heap α} :
      Upd s a b → (∀ x, t x → s x) → Upd t a b

end SpanCache

section Examples

variable {α : Type} [LinearOrderedField α]

/-- The script state after a call that returns nothing: the new state, or the
unchanged state when the call throws. -/
def Script.after {α : Type} (w : Script α) (r : Except String (Script α)) : Script α :=
  match r with
  | .ok w1 => w1
  | .error _ => w

/-- The script state after a call that returns a key pointer: the new state, or
the unchanged state when the call throws. -/
def Script.afterRet {α : Type} (w : Script α) (r : Except String (Script α × Option KeyId)) :
    Script α :=
  match r with
  | .ok p => p.1
  | .error _ => w

/-- The result of a closure, or the unchanged heap when the closure throws. -/
def Heap.after {α : Type} (h : Heap α) (r : Except String (Heap α)) : Heap α :=
  match r with
  | .ok h1 => h1
  | .error _ => h

/-- Rational arithmetic for the worked examples.  The square root is replaced by
an upper bound (it only limits tangent scales, and its argument is at least
one). -/
def exampleNumeric : Numeric ℚ := { sqrt := fun x => x, epsilon := 1 / 1000000 }

/-- Curve 0 with one key: key 0 at time 0 with value 0. -/
def exOne : Script ℚ :=
  Script.afterRet Script.init (CurvePlug.insertKeyValue exampleNumeric Script.init 0 0 0)

/-- Curve 0 with two keys: key 0 at (0, 0) and key 1 at (1, 10). -/
def exTwo : Script ℚ :=
  Script.afterRet exOne (CurvePlug.insertKeyValue exampleNumeric exOne 0 1 10)

/-- The two keys (0, 0) and (1, 10), the first with Linear interpolation. -/
def exLinear : Script ℚ := Script.after exTwo (Key.setInterpolation exTwo 0 .Linear)

/-- The two keys (0, 0) and (1, 10), the first with Constant interpolation. -/
def exConstant : Script ℚ := Script.after exTwo (Key.setInterpolation exTwo 0 .Constant)

/-- The two keys (0, 0) and (1, 10), the first with ConstantNext interpolation. -/
def exConstantNext : Script ℚ :=
  Script.after exTwo (Key.setInterpolation exTwo 0 .ConstantNext)

/-- The two keys after `key0.setTime( 1 )`: key 0 is active at time 1 and key 1
is inactive at time 1. -/
def exClash : Script ℚ := Script.afterRet exTwo (Key.setTime exTwo 0 1)

/-- The state `exClash` after `removeInactiveKeys()`. -/
def exClashCleaned : Script ℚ := Script.after exClash (CurvePlug.removeInactiveKeys exClash 0)

/-- Curve 0 with three keys: (0, 0), (1, 10) and key 2 at (2, 20). -/
def exThree : Script ℚ :=
  Script.afterRet exTwo (CurvePlug.insertKeyValue exampleNumeric exTwo 0 2 20)

/-- The three keys after `key1.setTime( 0 )`: key 0 is inactive at time 0. -/
def exStackOne : Script ℚ := Script.afterRet exThree (Key.setTime exThree 1 0)

/-- Then after `key2.setTime( 0 )`: key 2 is active at time 0 and the inactive
keys of time 0 are key 1, key 0, in that order. -/
def exStack : Script ℚ := Script.afterRet exStackOne (Key.setTime exStackOne 2 0)

/-- The heap after the Do closure of `key0.setTime( 5 )` in `exStack`. -/
def exStackDo : Heap ℚ :=
  Heap.after exStack.heap (setTimeDo 0 5 0 false 0 none none exStack.heap)

/-- The heap after the Undo closure of the same `key0.setTime( 5 )`. -/
def exStackUndo : Heap ℚ :=
  Heap.after exStackDo (setTimeUndo 0 5 0 false 0 none none exStackDo)

/-- The two keys (0, 0) and (1, 10) on curve 0 and an unparented key 2 at
(1, 7). -/
def exSpare : Script ℚ :=
  { exTwo with heap := (Key.new exampleNumeric exTwo.heap 1 7 .Linear 0 0 0 0).1 }

end Examples

section SameButDef

variable {α : Type} [LinearOrderedField α]

/-- Two heaps that differ at most in the key `n`, which is in no active
container, and in the allocation counter. -/
structure SameBut (n : KeyId) (a b : Heap α) : Prop where
  curve : a.curve = b.curve
  key : ∀ x, x ≠ n → a.key x = b.key x
  free : ∀ c, n ∉ (a.curve c).m_keys

end SameButDef

section TangentRange

variable {α : Type} [LinearOrderedField α]

/-- The stored scale of a tangent lies in `[0, maxScale( slope )]` for its
stored slope. -/
def Tangent.ScaleInRange (ν : Numeric α) (t : Tangent α) : Prop :=
  0 ≤ t.m_scale ∧ t.m_scale ≤ maxScale ν t.m_slope

/-- Every tangent of every key of the heap has its stored scale in range. -/
def Heap.ScalesInRange (ν : Numeric α) (h : Heap α) : Prop :=
  ∀ k d, Tangent.ScaleInRange ν ((h.key k).tangent d)

end TangentRange

section MoreExamples

/-- The heap after the Do closure of `removeKey( key0 )` in `exStack`. -/
def exStackRemoved : Heap ℚ :=
  Heap.after exStack.heap (removeKeyDo 0 0 none false 0 exStack.heap)

/-- The heap after the Undo closure of the same `removeKey( key0 )`. -/
def exStackRestored : Heap ℚ :=
  Heap.after exStackRemoved (removeKeyUndo 0 0 none false 0 exStackRemoved)

/-- A script with one unparented key 0 at (0, 0) whose out tangent is
constructed with slope 3/4 and scale 5/4, the largest scale for that slope
(`sqrt( 1 + 9/16 ) = 5/4`; the example arithmetic bounds it by 25/16, so the
constructor stores 5/4 either way). -/
def exTangentKey : Script ℚ :=
  { Script.init with
    heap := (Key.new exampleNumeric Script.init.heap 0 0 .Bezier 0 0 (3 / 4) (5 / 4)).1 }

/-- Then after `curve0.addKey( key0 )`. -/
def exTangentAdded : Script ℚ :=
  Script.afterRet exTangentKey (CurvePlug.addKey exTangentKey 0 0 false)

/-- Then after `key0.tangentOut().setScale( 1/2 )`, a recorded call. -/
def exTangentScaled : Script ℚ :=
  Script.after exTangentAdded (Tangent.setScale exampleNumeric exTangentAdded 0 .Out (1 / 2) false)

/-- Then after `curve0.removeKey( key0 )`. -/
def exTangentRemoved : Script ℚ :=
  Script.after exTangentScaled (CurvePlug.removeKey exTangentScaled 0 0)

/-- Then after `key0.tangentOut().setSlope( 0 )` on the unparented key, a call
that is not recorded. -/
def exTangentSloped : Script ℚ :=
  Script.after exTangentRemoved
    (Tangent.setSlope exampleNumeric exTangentRemoved 0 .Out 0 false)

/-- Then after undo of the `removeKey`. -/
def exTangentBack : Script ℚ := Script.after exTangentSloped (Script.undo exTangentSloped)

/-- Then after undo of the `setScale`. -/
def exTangentUndone : Script ℚ := Script.after exTangentBack (Script.undo exTangentBack)

end MoreExamples

section Lookups

variable {α : Type} [LinearOrderedField α]

/-- `CurvePlug::closestKey( time )`.  `rightIt == m_keys.begin()` holds when no
key precedes the `lower_bound` position, and `std::prev( rightIt )` is the last
key that precedes it. -/
def CurvePlug.closestKey (h : Heap α) (c : CurveId) (time : α) : Option KeyId :=
  match (h.curve c).m_keys with
  | [] => none
  | k0 :: ks =>
    match lower_bound h.time time (k0 :: ks) with
    | [] => some ((k0 :: ks).getLast (List.cons_ne_nil k0 ks))
    | rightIt :: _ =>
      if (h.key rightIt).m_time = time ∨ before_lower_bound h.time time (k0 :: ks) = [] then
        some rightIt
      else
        match (before_lower_bound h.time time (k0 :: ks)).getLast? with
        | some leftIt =>
          if |time - (h.key leftIt).m_time| < |time - (h.key rightIt).m_time| then some leftIt
          else some rightIt
        | none => some rightIt

/-- `CurvePlug::closestKey( time, maxDistance )`. -/
def CurvePlug.closestKeyWithin (h : Heap α) (c : CurveId) (time maxDistance : α) :
    Option KeyId :=
  match CurvePlug.closestKey h c time with
  | none => none
  | some candidate =>
    if |(h.key candidate).m_time - time| > maxDistance then none else some candidate

/-- `CurvePlug::previousKey( time )`. -/
def CurvePlug.previousKey (h : Heap α) (c : CurveId) (time : α) : Option KeyId :=
  (before_lower_bound h.time time (h.curve c).m_keys).getLast?

/-- `CurvePlug::nextKey( time )`. -/
def CurvePlug.nextKey (h : Heap α) (c : CurveId) (time : α) : Option KeyId :=
  (upper_bound h.time time (h.curve c).m_keys).head?

end Lookups

section InterpolatorObjects

variable {α : Type} [LinearOrderedField α]

/-- An `Animation::Interpolator` object: the members `m_interpolation` and
`m_hints` that the base constructor sets. -/
structure Interpolator where
  m_interpolation : Interpolation
  m_hints : Nat
  deriving DecidableEq

/-- `Interpolator::getInterpolation`. -/
def Interpolator.getInterpolation (i : Interpolator) : Interpolation := i.m_interpolation

/-- The default of the `hints` argument of the base constructor,
`explicit Interpolator( Animation::Interpolation interpolation, unsigned hints = 0 )`:
an interpolator that passes no hints advertises none. -/
def Interpolator.defaultHints : Nat := 0

/-- The constructor `InterpolatorConstant()`. -/
def InterpolatorConstant.new : Interpolator :=
  { m_interpolation := .Constant, m_hints := Interpolator.defaultHints }

/-- The constructor `InterpolatorConstantNext()`. -/
def InterpolatorConstantNext.new : Interpolator :=
  { m_interpolation := .ConstantNext, m_hints := Interpolator.defaultHints }

/-- The constructor `InterpolatorLinear()`. -/
def InterpolatorLinear.new : Interpolator :=
  { m_interpolation := .Linear, m_hints := Interpolator.defaultHints }

/-- The constructor `InterpolatorCubic()`. -/
def InterpolatorCubic.new : Interpolator :=
  { m_interpolation := .Cubic, m_hints := Hint.UseSlope }

/-- The constructor `InterpolatorBezier()`. -/
def InterpolatorBezier.new : Interpolator :=
  { m_interpolation := .Bezier, m_hints := Hint.UseSlope ||| Hint.UseScale }

/-- `Interpolator::get()`: the static container of the five interpolators. -/
def Interpolator.container : List Interpolator :=
  [InterpolatorBezier.new, InterpolatorCubic.new, InterpolatorLinear.new,
    InterpolatorConstantNext.new, InterpolatorConstant.new]

/-- `Interpolator::getDefault()` as an object: the front of the container. -/
def Interpolator.getDefaultInterpolator : Interpolator :=
  Interpolator.container.head (List.cons_ne_nil _ _)

/-- `Interpolator::get( interpolation )`.  The argument is a value of the enum
type: `some m` for the enumerator `m`, `none` for a value that is none of the
five enumerators (which a cast can produce). -/
def Interpolator.get (interpolation : Option Interpolation) : Interpolator :=
  match Interpolator.container.find?
      (fun interpolator => decide (some interpolator.getInterpolation = interpolation)) with
  | some it => it
  | none => Interpolator.getDefaultInterpolator

/-- `Animation::defaultInterpolation`. -/
def defaultInterpolation : Interpolation :=
  Interpolator.getDefaultInterpolator.getInterpolation

/-- `Key::getInterpolation`: the mode of the interpolator the key points to (the
member `m_interpolator` of the embedding holds that mode). -/
def Key.getInterpolation (h : Heap α) (k : KeyId) : Interpolation := (h.key k).m_interpolator

/-- The constructor `Key::Key` for an arbitrary value of the enum type: the
member `m_interpolator` is initialised with `Interpolator::get( interpolation )`. -/
def Key.newOfValue (ν : Numeric α) (h : Heap α) (time value : α)
    (interpolation : Option Interpolation) (inSlope inScale outSlope outScale : α) :
    Heap α × KeyId :=
  Key.new ν h time value (Interpolator.get interpolation).getInterpolation
    inSlope inScale outSlope outScale

end InterpolatorObjects

section Effects

variable {α : Type} [LinearOrderedField α]

/-- A sequence of statements run against the mutable heap: it maps the heap at
entry to the heap at exit, together with the value returned or the exception
thrown.  When a statement throws, the heap stays as the statements before it
left it. -/
def Effect (α β : Type) : Type := Heap α → Heap α × Except String β

/-- The empty sequence, returning `x`. -/
def Effect.pure {α β : Type} (x : β) : Effect α β := fun h => (h, .ok x)

/-- Sequencing: the second part runs on the heap the first part left, unless the
first part throws. -/
def Effect.bind {α β γ : Type} (m : Effect α β) (f : β → Effect α γ) : Effect α γ :=
  fun h =>
    match m h with
    | (h1, .ok x) => f x h1
    | (h1, .error e) => (h1, .error e)

instance {α : Type} : Monad (Effect α) where
  pure := Effect.pure
  bind := Effect.bind

/-- A call that reads the heap and may throw. -/
def Effect.check {α : Type} (f : Heap α → Except String Unit) : Effect α Unit :=
  fun h => (h, f h)

/-- An expression that reads the heap. -/
def Effect.read {α β : Type} (f : Heap α → β) : Effect α β := fun h => (h, .ok (f h))

/-- Statements that change the heap and cannot throw. -/
def Effect.assign {α : Type} (f : Heap α → Heap α) : Effect α Unit := fun h => (f h, .ok ())

/-- The Do closure of `Key::setTime`, statement by statement on the mutable
heap. -/
def setTimeDoEffect (curve : CurveId) (time previousTime : α) (active : Bool) (key : KeyId)
    (clashingKey clashingInactiveKey : Option KeyId) : Effect α Unit := do
  Effect.check fun h => Key.throwIfStateNotAsExpected h key (some curve) active previousTime
  Effect.check fun h =>
    Key.throwIfStateNotAsExpectedIf h clashingInactiveKey (some curve) false previousTime
  Effect.check fun h => Key.throwIfStateNotAsExpectedIf h clashingKey (some curve) true time
  let kpn ← Effect.read fun h => Key.nextKey h key
  let kpp ← Effect.read fun h => Key.prevKey h key
  Effect.assign (setTimeDoLink curve time active key clashingKey clashingInactiveKey)
  Effect.assign fun h => Tangent.update h key .Out
  Effect.assign fun h => Tangent.update h key .In
  match clashingInactiveKey with
  | some ci => Effect.assign fun h => Tangent.update (Tangent.update h ci .In) ci .Out
  | none => Effect.assign fun h => Tangent.updateIf (Tangent.updateIf h kpn .In) kpp .Out
  match clashingKey with
  | some _ => pure ()
  | none => do
    let kn ← Effect.read fun h => Key.nextKey h key
    if kn ≠ kpn ∨ clashingInactiveKey.isSome then
      Effect.assign fun h => Tangent.updateIf h kn .In
    let kp ← Effect.read fun h => Key.prevKey h key
    if kp ≠ kpp ∨ clashingInactiveKey.isSome then
      Effect.assign fun h => Tangent.updateIf h kp .Out

/-- The Undo closure of `Key::setTime`, statement by statement on the mutable
heap. -/
def setTimeUndoEffect (curve : CurveId) (time previousTime : α) (active : Bool) (key : KeyId)
    (clashingKey clashingInactiveKey : Option KeyId) : Effect α Unit := do
  Effect.check fun h => Key.throwIfStateNotAsExpected h key (some curve) true time
  Effect.check fun h => Key.throwIfStateNotAsExpectedIf h clashingKey (some curve) false time
  Effect.check fun h =>
    Key.throwIfStateNotAsExpectedIf h clashingInactiveKey (some curve) true previousTime
  let kpn ← Effect.read fun h => Key.nextKey h key
  let kpp ← Effect.read fun h => Key.prevKey h key
  Effect.assign (setTimeUndoLink curve previousTime active key clashingKey clashingInactiveKey)
  if active then
    Effect.assign fun h => Tangent.update (Tangent.update h key .In) key .Out
  match clashingKey with
  | some ck => Effect.assign fun h => Tangent.update (Tangent.update h ck .In) ck .Out
  | none => Effect.assign fun h => Tangent.updateIf (Tangent.updateIf h kpn .In) kpp .Out
  match clashingInactiveKey with
  | some _ => pure ()
  | none => do
    let kn ← Effect.read fun h => Key.nextKey h key
    if kn ≠ kpn ∨ clashingKey.isSome then
      Effect.assign fun h => Tangent.updateIf h kn .In
    let kp ← Effect.read fun h => Key.prevKey h key
    if kp ≠ kpp ∨ clashingKey.isSome then
      Effect.assign fun h => Tangent.updateIf h kp .Out

/-- The Do closure of `CurvePlug::addKey`, statement by statement on the mutable
heap. -/
def addKeyDoEffect (this : CurveId) (key : KeyId) (clashingKey : Option KeyId) (time : α) :
    Effect α Unit := do
  Effect.check fun h => Key.throwIfStateNotAsExpected h key none false time
  Effect.check fun h => Key.throwIfStateNotAsExpectedIf h clashingKey (some this) true time
  Effect.assign (addKeyDoLink this key clashingKey time)
  Effect.assign fun h => Tangent.update (Tangent.update h key .In) key .Out
  match clashingKey with
  | some _ => pure ()
  | none => do
    Effect.assign fun h => Tangent.updateIf h (Key.nextKey h key) .In
    Effect.assign fun h => Tangent.updateIf h (Key.prevKey h key) .Out

/-- The Undo closure of `CurvePlug::addKey`, statement by statement on the
mutable heap. -/
def addKeyUndoEffect (this : CurveId) (key : KeyId) (clashingKey : Option KeyId) (time : α) :
    Effect α Unit := do
  Effect.check fun h => Key.throwIfStateNotAsExpected h key (some this) true time
  Effect.check fun h => Key.throwIfStateNotAsExpectedIf h clashingKey (some this) false time
  let kn ← Effect.read fun h => Key.nextKey h key
  let kp ← Effect.read fun h => Key.prevKey h key
  Effect.assign (addKeyUndoLink this key clashingKey)
  Effect.assign fun h => Tangent.update (Tangent.update h key .In) key .Out
  match clashingKey with
  | some ck => Effect.assign fun h => Tangent.update (Tangent.update h ck .In) ck .Out
  | none => Effect.assign fun h => Tangent.updateIf (Tangent.updateIf h kn .In) kp .Out

/-- The Do closure of `CurvePlug::removeKey`, statement by statement on the
mutable heap. -/
def removeKeyDoEffect (this : CurveId) (key : KeyId) (clashingKey : Option KeyId)
    (active : Bool) (time : α) : Effect α Unit := do
  Effect.check fun h => Key.throwIfStateNotAsExpected h key (some this) active time
  Effect.check fun h => Key.throwIfStateNotAsExpectedIf h clashingKey (some this) false time
  let kn ← Effect.read fun h => Key.nextKey h key
  let kp ← Effect.read fun h => Key.prevKey h key
  Effect.assign (removeKeyDoLink this key clashingKey active)
  Effect.assign fun h => Tangent.update (Tangent.update h key .In) key .Out
  match clashingKey with
  | some ck => Effect.assign fun h => Tangent.update (Tangent.update h ck .In) ck .Out
  | none => Effect.assign fun h => Tangent.updateIf (Tangent.updateIf h kn .In) kp .Out

/-- The Undo closure of `CurvePlug::removeKey`, statement by statement on the
mutable heap. -/
def removeKeyUndoEffect (this : CurveId) (key : KeyId) (clashingKey : Option KeyId)
    (active : Bool) (time : α) : Effect α Unit := do
  Effect.check fun h => Key.throwIfStateNotAsExpected h key none false time
  Effect.check fun h => Key.throwIfStateNotAsExpectedIf h clashingKey (some this) true time
  Effect.assign (removeKeyUndoLink this key clashingKey active time)
  if active then
    Effect.assign fun h => Tangent.update (Tangent.update h key .In) key .Out
  match clashingKey with
  | some _ => pure ()
  | none => do
    Effect.assign fun h => Tangent.updateIf h (Key.nextKey h key) .In
    Effect.assign fun h => Tangent.updateIf h (Key.prevKey h key) .Out

/-- The statement sequence `m` checks before it changes anything: when `expected`
holds it returns, and otherwise it throws and leaves the heap exactly as it
found it; `f`, the same closure as a function to `Except`, returns the same
heap or throws the same error. -/
def Effect.ChecksFirst (m : Effect α Unit) (f : Heap α → Except String (Heap α))
    (expected : Prop) (h : Heap α) : Prop :=
  (expected → ∃ h1, m h = (h1, .ok ()) ∧ f h = .ok h1) ∧
  (¬ expected → ∃ e, m h = (h, .error e) ∧ f h = .error e)

end Effects

section LookupExamples

/-- Curve 0 with two keys: key 0 at (0, 0) and key 1 at (2, 20). -/
def exTie : Script ℚ :=
  Script.afterRet exOne (CurvePlug.insertKeyValue exampleNumeric exOne 0 2 20)

end LookupExamples

section Positions

variable {α : Type} [LinearOrderedField α]

/-- `Imath::V2d::length` for the pair `(x, y)`: the square root of `x² + y²`
(Imath is an external library; its guard against underflow is not modelled). -/
def V2d.length (ν : Numeric α) (p : α × α) : α := ν.sqrt (p.1 * p.1 + p.2 * p.2)

set_option linter.unusedVariables false in
/-- `slopeFromPosition` of the anonymous namespace.  The result is `none` where
the source returns plus or minus infinity (`position.x` is zero and
`position.y` is not), a slope that a field does not represent; the direction
only decides the sign of that infinity. -/
def slopeFromPosition (position : α × α) (direction : Direction) : Option α :=
  if position.1 = 0 then
    if position.2 = 0 then some 0
    else none
  else some (position.2 / position.1)

/-- `Tangent::positionToRelative` for the tangent of key `k` in direction `d`:
the converted position. -/
def Tangent.positionToRelative (h : Heap α) (k : KeyId) (d : Direction) (position : α × α)
    (relative : Bool) : α × α :=
  let p : α × α :=
    if !relative then (position.1 - (h.key k).m_time, position.2 - (h.key k).m_value)
    else position
  match d with
  | .In => (min p.1 0, p.2)
  | .Out => (max p.1 0, p.2)

/-- `Tangent::setPosition( pos, relative )` for the tangent of `key` in
direction `d`.  The result is `none` when `slopeFromPosition` is infinite. -/
def Tangent.setPosition (ν : Numeric α) (w : Script α) (key : KeyId) (d : Direction)
    (pos : α × α) (relative : Bool) : Option (Except String (Script α)) :=
  if ((w.heap.key key).tangent d).m_dt = 0 then some (pure w)
  else
    let position := Tangent.positionToRelative w.heap key d pos relative
    match slopeFromPosition position d with
    | none => none
    | some slope =>
      some (do
        let w1 ← Tangent.setSlope ν w key d slope false
        Tangent.setScale ν w1 key d
          (V2d.length ν position / ((w1.heap.key key).tangent d).m_dt) false)

end Positions

section SolverStep

variable {α : Type} [LinearOrderedField α]

/-- One pass through the body of the Newton-Raphson loop of
`InterpolatorBezier::solveForTime` that does not leave at the first `break`:
the bracket `(sl, sh)` it leaves, the step `ds` and the new parameter `s`. -/
def solveForTimeStep (a_t bt ct at3 bt2 time sl sh s : α) : α × α × α × α :=
  let f := fma s (fma s (fma s a_t bt) ct) (-time)
  let df := fma s (fma s at3 bt2) ct
  let sl := if f < 0 then s else sl
  let sh := if f < 0 then sh else s
  let step : α × α :=
    if df = 0 then (1 / 2 * (sh - sl), sl + 1 / 2 * (sh - sl))
    else
      let ds := f / df
      if s - ds ≤ sl ∨ s - ds ≥ sh then (1 / 2 * (sh - sl), sl + 1 / 2 * (sh - sl))
      else (ds, s - ds)
  (sl, sh, step.1, step.2)

end SolverStep

section SpanCacheIn

variable {α : Type} [LinearOrderedField α]

/-- The span width that belongs in the in tangent of the active key `k` of
curve `c`: the time from the previous active key, or zero for the first key. -/
def expectedInDt (h : Heap α) (c : CurveId) (k : KeyId) : α :=
  match prevIn k (h.curve c).m_keys with
  | some p => h.time k - h.time p
  | none => 0

/-- Every active key caches the right span width in its in tangent. -/
def SpanIn (h : Heap α) : Prop :=
  ∀ c k, k ∈ (h.curve c).m_keys → (h.key k).m_in.m_dt = expectedInDt h c k

/-- The span width that `Tangent::update` stores in the in tangent of `k`. -/
def spanInDt (h : Heap α) (k : KeyId) : α :=
  match (h.key k).m_parent with
  | none => 0
  | some _ =>
    match Key.prevKey h k with
    | some kp => (h.key k).m_time - (h.key kp).m_time
    | none => 0

/-- The in tangent of `k` caches what `Tangent::update` would store. -/
def InOK (h : Heap α) (k : KeyId) : Prop := (h.key k).m_in.m_dt = spanInDt h k

/-- From `a` to `b` the cached in span and its expected value change only for
the keys in `s`. -/
def InStable (a b : Heap α) (s : KeyId → Prop) : Prop :=
  ∀ c x, x ∈ (b.curve c).m_keys → ¬ s x →
    x ∈ (a.curve c).m_keys ∧ expectedInDt b c x = expectedInDt a c x ∧
      (b.key x).m_in.m_dt = (a.key x).m_in.m_dt

/-- `UpdIn s a b`: `b` comes from `a` by tangent updates, among them an update
of the in tangent of every key in `s`. -/
inductive UpdIn : (KeyId → Prop) → Heap α → Heap α → Prop
  | refl (h : Heap α) : UpdIn (fun _ => False) h h
  | update {s : KeyId → Prop} {a b : Heap α} (k : KeyId) (d : Direction) :
      UpdIn s a b → UpdIn (fun x => s x ∨ (x = k ∧ d = .In)) a (Tangent.update b k d)
  | weaken {s t : KeyId → Prop} {a b : Heap α} :
      UpdIn s a b → (∀ x, t x → s x) → UpdIn t a b

/-- The value difference that belongs in the out tangent of the active key `k`
of curve `c`: the value of the next active key less its own, or zero for the
final key. -/
def expectedOutDv (h : Heap α) (c : CurveId) (k : KeyId) : α :=
  match nextIn k (h.curve c).m_keys with
  | some n => (h.key n).m_value - (h.key k).m_value
  | none => 0

/-- The value difference that belongs in the in tangent of the active key `k`
of curve `c`: its value less that of the previous active key, or zero for the
first key. -/
def expectedInDv (h : Heap α) (c : CurveId) (k : KeyId) : α :=
  match prevIn k (h.curve c).m_keys with
  | some p => (h.key k).m_value - (h.key p).m_value
  | none => 0

end SpanCacheIn

section CacheExamples

/-- The state `exSpare` after `curve0.addKey( key2 )`: key 2 at (1, 7) is
active in the slot of key 1, and key 1 is inactive. -/
def exSpareAdded : Script ℚ := Script.afterRet exSpare (CurvePlug.addKey exSpare 0 2 false)

/-- The state `exSpare` after `curve0.addKey( key2, true )`: key 2 is active in
the slot of key 1, and key 1 is removed from the curve. -/
def exSpareSwapped : Script ℚ := Script.afterRet exSpare (CurvePlug.addKey exSpare 0 2 true)

/-- The keys (0, 0) and (2, 20), the first with Cubic interpolation. -/
def exCubic : Script ℚ := Script.after exTie (Key.setInterpolation exTie 0 .Cubic)

/-- Then after `key0.tangentOut().setSlope( 1e9 )`. -/
def exSteep : Script ℚ :=
  Script.after exCubic (Tangent.setSlope exampleNumeric exCubic 0 .Out 1000000000 false)

end CacheExamples

section RoundedRoot

variable {α : Type} [LinearOrderedField α]

/-- The time polynomial `t( s ) = a(t) s³ + b(t) s² + c(t) s` of a Bezier segment
that `InterpolatorBezier::solveForTime` inverts, with the coefficients it
computes from the control times `tl` and `th`. -/
def timeCubic (tl th s : α) : α :=
  let th3 := th + th + th
  let ct := tl + tl + tl
  let a_t := ct - th3 + 1
  let bt := th3 - ct - ct
  fma s (fma s (fma s a_t bt) ct) 0

/-- The message of a thrown exception, if the call throws. -/
def Except.messageOf {β : Type} : Except String β → Option String
  | .error e => some e
  | .ok _ => none

/-- The integer square root by bisection on the bits below `2 ^ i`: `r` plus the
largest sum `j` of those bits with `(r + j)² ≤ n`. -/
def isqrtBits (n : Nat) : Nat → Nat → Nat
  | 0, r => r
  | i + 1, r => if (r + 2 ^ i) * (r + 2 ^ i) ≤ n then isqrtBits n i (r + 2 ^ i) else isqrtBits n i r

/-- The position of the highest set bit of `n` (0 for `n < 2`), with the number
of halvings left as the first argument. -/
def log2Steps : Nat → Nat → Nat
  | 0, _ => 0
  | f + 1, n => if n < 2 then 0 else log2Steps f (n / 2) + 1

/-- The power `2 ^ e` for an integer exponent. -/
def twoPow (e : Int) : ℚ :=
  if 0 ≤ e then ((2 ^ e.toNat : Nat) : ℚ) else 1 / ((2 ^ (-e).toNat : Nat) : ℚ)

/-- `std::sqrt` on doubles in the normal range: the square root rounded to 53
significant bits, to nearest with ties to even (IEEE 754 requires the correctly
rounded result).  With `E` the exponent of the root (`4 ^ E ≤ x < 4 ^ (E + 1)`)
the significand is the integer nearest to the root of `y = x * 4 ^ (52 - E)`,
which lies in `[2 ^ 52, 2 ^ 53]`. -/
def sqrtDouble (x : ℚ) : ℚ :=
  if x ≤ 0 then 0
  else
    let E0 : Int := ((log2Steps x.num.toNat x.num.toNat : Int) - (log2Steps x.den x.den : Int)) / 2
    let E : Int := if twoPow (2 * E0) ≤ x then E0 else E0 - 1
    let y : ℚ := x * twoPow (2 * (52 - E))
    let r : Nat := isqrtBits (y.num / (y.den : Int)).toNat 53 0
    let half : ℚ := ((4 * r * r + 4 * r + 1 : Nat) : ℚ)
    let m : Nat :=
      if half < 4 * y then r + 1
      else if 4 * y < half then r
      else if r % 2 = 0 then r else r + 1
    (m : ℚ) * twoPow (E - 52)

/-- Rational arithmetic with the square root of IEEE 754 doubles: `std::sqrt`
rounds to 53 significant bits and `epsilon()` is `2 ^ -52`; sums, products and
quotients stay exact. -/
def doubleNumeric : Numeric ℚ := { sqrt := sqrtDouble, epsilon := 1 / 4503599627370496 }

/-- Curve 0 with one key, key 0 at (0, 0), built with `doubleNumeric`. -/
def exRoundOne : Script ℚ :=
  Script.afterRet Script.init (CurvePlug.insertKeyValue doubleNumeric Script.init 0 0 0)

/-- Curve 0 with the Bezier keys (0, 0) and (1, 10) and the default tangents,
built with `doubleNumeric`. -/
def exRoundTwo : Script ℚ :=
  Script.afterRet exRoundOne (CurvePlug.insertKeyValue doubleNumeric exRoundOne 0 1 10)

/-- The state `exRoundTwo` after `key0.tangentOut().setScale( 0.15 )`. -/
def exRoundOut : Script ℚ :=
  Script.after exRoundTwo (Tangent.setScale doubleNumeric exRoundTwo 0 .Out (3 / 20) false)

/-- The state `exRoundOut` after `key1.tangentIn().setScale( 0 )`: the Bezier
keys (0, 0) and (1, 10) with slopes 0, the out tangent of the first with scale
3/20 and the in tangent of the second with scale 0. -/
def exRounded : Script ℚ :=
  Script.after exRoundOut (Tangent.setScale doubleNumeric exRoundOut 1 .In 0 false)

end RoundedRoot

section ValueCache

variable {α : Type} [LinearOrderedField α]

/-- The value difference that `Tangent::update` stores in the out tangent of
`k`. -/
def spanOutDv (h : Heap α) (k : KeyId) : α :=
  match (h.key k).m_parent with
  | none => 0
  | some _ =>
    match Key.nextKey h k with
    | some kn => (h.key kn).m_value - (h.key k).m_value
    | none => 0

/-- The out tangent of `k` caches the value difference that `Tangent::update`
would store. -/
def OutDvOK (h : Heap α) (k : KeyId) : Prop := (h.key k).m_out.m_dv = spanOutDv h k

/-- The value difference that `Tangent::update` stores in the in tangent of
`k`. -/
def spanInDv (h : Heap α) (k : KeyId) : α :=
  match (h.key k).m_parent with
  | none => 0
  | some _ =>
    match Key.prevKey h k with
    | some kp => (h.key k).m_value - (h.key kp).m_value
    | none => 0

/-- The in tangent of `k` caches the value difference that `Tangent::update`
would store. -/
def InDvOK (h : Heap α) (k : KeyId) : Prop := (h.key k).m_in.m_dv = spanInDv h k

/-- The cached out value differences are carried from the heap `h` to the heap
`h1`: an active key of `h1` has the right value difference in its out tangent
if it had the right one in `h` in case it was active there, unless its next key
has been replaced in its slot by another key of the same time with another
value. -/
def OutDvCarried (h h1 : Heap α) : Prop :=
  ∀ c x, x ∈ (h1.curve c).m_keys →
    (x ∈ (h.curve c).m_keys → (h.key x).m_out.m_dv = expectedOutDv h c x) →
    (∀ n n1, nextIn x (h.curve c).m_keys = some n → nextIn x (h1.curve c).m_keys = some n1 →
      n ≠ n1 → h.time n = h1.time n1 → (h.key n).m_value = (h1.key n1).m_value) →
    (h1.key x).m_out.m_dv = expectedOutDv h1 c x

/-- The cached in value differences are carried from the heap `h` to the heap
`h1`: an active key of `h1` has the right value difference in its in tangent if
it had the right one in `h` in case it was active there, unless its previous key
has been replaced in its slot by another key of the same time with another
value. -/
def InDvCarried (h h1 : Heap α) : Prop :=
  ∀ c x, x ∈ (h1.curve c).m_keys →
    (x ∈ (h.curve c).m_keys → (h.key x).m_in.m_dv = expectedInDv h c x) →
    (∀ p p1, prevIn x (h.curve c).m_keys = some p → prevIn x (h1.curve c).m_keys = some p1 →
      p ≠ p1 → h.time p = h1.time p1 → (h.key p).m_value = (h1.key p1).m_value) →
    (h1.key x).m_in.m_dv = expectedInDv h1 c x

/-- From `a` to `b` the cached out value difference and its expected value
change only for the keys in `s` and for the keys whose next key is replaced in
its slot by a key of another value. -/
def OutDvStable (a b : Heap α) (s : KeyId → Prop) : Prop :=
  ∀ c x, x ∈ (b.curve c).m_keys → ¬ s x →
    (∀ n n1, nextIn x (a.curve c).m_keys = some n → nextIn x (b.curve c).m_keys = some n1 →
      n ≠ n1 → a.time n = b.time n1 → (a.key n).m_value = (b.key n1).m_value) →
    x ∈ (a.curve c).m_keys ∧ expectedOutDv b c x = expectedOutDv a c x ∧
      (b.key x).m_out.m_dv = (a.key x).m_out.m_dv

/-- From `a` to `b` the cached in value difference and its expected value change
only for the keys in `s` and for the keys whose previous key is replaced in its
slot by a key of another value. -/
def InDvStable (a b : Heap α) (s : KeyId → Prop) : Prop :=
  ∀ c x, x ∈ (b.curve c).m_keys → ¬ s x →
    (∀ p p1, prevIn x (a.curve c).m_keys = some p → prevIn x (b.curve c).m_keys = some p1 →
      p ≠ p1 → a.time p = b.time p1 → (a.key p).m_value = (b.key p1).m_value) →
    x ∈ (a.curve c).m_keys ∧ expectedInDv b c x = expectedInDv a c x ∧
      (b.key x).m_in.m_dv = (a.key x).m_in.m_dv

/-- The heap `b` has the tangents and the value of every key of `a`. -/
def SameCaches (a b : Heap α) : Prop :=
  ∀ x, (b.key x).m_in = (a.key x).m_in ∧ (b.key x).m_out = (a.key x).m_out ∧
    (b.key x).m_value = (a.key x).m_value

end ValueCache

section ValueCacheExamples

/-- The state `exThree` after `curve0.removeKey( key1 )`: the keys (0, 0) and
(2, 20) remain. -/
def exThreeRemoved : Script ℚ := Script.after exThree (CurvePlug.removeKey exThree 0 1)

end ValueCacheExamples

section StaleExamples

/-- The state `exSpare` after `key0.setInterpolation( Linear )`. -/
def exStaleLinear : Script ℚ := Script.after exSpare (Key.setInterpolation exSpare 0 .Linear)

/-- Then after `curve0.addKey( key2 )`: key 2 at (1, 7) takes the slot of key 1
at (1, 10), and the out tangent of key 0 still caches `dv = 10`. -/
def exStaleSwapped : Script ℚ :=
  Script.afterRet exStaleLinear (CurvePlug.addKey exStaleLinear 0 2 false)

/-- Then with a newly constructed key 3 at (1/2, 3), not yet added to a curve. -/
def exStale : Script ℚ :=
  { exStaleSwapped with
    heap := (Key.new exampleNumeric exStaleSwapped.heap (1 / 2) 3 .Linear 0 0 0 0).1 }

/-- The heap after the Do closure of `curve0.addKey( key3 )` in `exStale`. -/
def exStaleDo : Heap ℚ := Heap.after exStale.heap (addKeyDo 0 3 none (1 / 2) exStale.heap)

/-- The heap after the Undo closure of that `addKey`. -/
def exStaleUndo : Heap ℚ := Heap.after exStaleDo (addKeyUndo 0 3 none (1 / 2) exStaleDo)

end StaleExamples

/-! ## Lemmas and theorems -/

set_option linter.unusedSectionVars false
set_option linter.unusedVariables false
set_option linter.unnecessarySeqFocus false

section Proofs

variable {α : Type} [LinearOrderedField α]

/-! ### Ordered containers -/

theorem replace_node_eq_map (old new : KeyId) (l : List KeyId) (hnd : l.Nodup) :
    replace_node old new l = l.map (fun x => if x = old then new else x) := by
  induction l with
  | nil => rfl
  | cons x xs ih =>
    rw [List.nodup_cons] at hnd
    by_cases hx : x = old
    · subst hx
      have : xs.map (fun y => if y = x then new else y) = xs := by
        conv_rhs => rw [← List.map_id xs]
        apply List.map_congr_left
        intro y hy
        have : y ≠ x := fun e => hnd.1 (e ▸ hy)
        simp [this]
      simp [replace_node, this]
    · simp [replace_node, hx, ih hnd.2]

theorem replace_node_of_not_mem (old new : KeyId) (l : List KeyId) (h : old ∉ l) :
    replace_node old new l = l := by
  induction l with
  | nil => rfl
  | cons x xs ih =>
    simp only [List.mem_cons, not_or] at h
    simp [replace_node, Ne.symm h.1, ih h.2]

theorem mem_replace_node {old new x : KeyId} {l : List KeyId} (hnd : l.Nodup) (ho : old ∈ l) :
    x ∈ replace_node old new l ↔ x = new ∨ (x ∈ l ∧ x ≠ old) := by
  rw [replace_node_eq_map old new l hnd, List.mem_map]
  constructor
  · rintro ⟨y, hy, rfl⟩
    by_cases h : y = old
    · simp [h]
    · simp [h, hy]
  · rintro (rfl | ⟨hx, hne⟩)
    · exact ⟨old, ho, by simp⟩
    · exact ⟨x, hx, by simp [hne]⟩

theorem replace_node_replace_node (old new : KeyId) (l : List KeyId) (hn : new ∉ l) :
    replace_node new old (replace_node old new l) = l := by
  induction l with
  | nil => rfl
  | cons x xs ih =>
    simp only [List.mem_cons, not_or] at hn
    by_cases hx : x = old
    · subst hx; simp [replace_node]
    · simp [replace_node, hx, Ne.symm hn.1, ih hn.2]

theorem map_replace_node {β : Type} (f g : KeyId → β) {old new : KeyId} {l : List KeyId}
    (hnd : l.Nodup) (hnew : g new = f old) (hrest : ∀ x ∈ l, x ≠ old → g x = f x) :
    (replace_node old new l).map g = l.map f := by
  rw [replace_node_eq_map old new l hnd, List.map_map]
  apply List.map_congr_left
  intro x hx
  by_cases h : x = old
  · simp [h, hnew]
  · simp [h, hrest x hx h]

theorem nodup_of_sorted_map (tk : KeyId → α) {l : List KeyId}
    (h : (l.map tk).Pairwise (· < ·)) : l.Nodup := by
  have : (l.map tk).Nodup := h.imp (fun hab => ne_of_lt hab)
  exact List.Nodup.of_map tk this

theorem time_injOn_of_sorted (tk : KeyId → α) {l : List KeyId}
    (h : (l.map tk).Pairwise (· < ·)) {x y : KeyId} (hx : x ∈ l) (hy : y ∈ l)
    (hxy : tk x = tk y) : x = y := by
  have hnd : (l.map tk).Nodup := h.imp (fun hab => ne_of_lt hab)
  exact List.inj_on_of_nodup_map hnd hx hy hxy

theorem mem_insert_unique (tk : KeyId → α) {k x : KeyId} {l : List KeyId}
    (hfree : ∀ y ∈ l, tk y ≠ tk k) : x ∈ insert_unique tk k l ↔ x = k ∨ x ∈ l := by
  induction l with
  | nil => simp [insert_unique]
  | cons a as ih =>
    have ha := hfree a (List.mem_cons_self _ _)
    have ih2 := ih (fun y hy => hfree y (List.mem_cons_of_mem _ hy))
    unfold insert_unique
    split_ifs with h1 h2
    · simp only [List.mem_cons, ih2]; tauto
    · simp only [List.mem_cons]
    · exact absurd (le_antisymm (not_lt.mp h2) (not_lt.mp h1)) ha

theorem sorted_insert_unique (tk : KeyId → α) (k : KeyId) {l : List KeyId}
    (hs : (l.map tk).Pairwise (· < ·)) (hfree : ∀ y ∈ l, tk y ≠ tk k) :
    ((insert_unique tk k l).map tk).Pairwise (· < ·) := by
  induction l with
  | nil => simp [insert_unique]
  | cons a as ih =>
    have ha := hfree a (List.mem_cons_self _ _)
    have hfree2 : ∀ y ∈ as, tk y ≠ tk k := fun y hy => hfree y (List.mem_cons_of_mem _ hy)
    simp only [List.map_cons, List.pairwise_cons, List.mem_map, forall_exists_index, and_imp,
      forall_apply_eq_imp_iff₂] at hs
    unfold insert_unique
    split_ifs with h1 h2
    · simp only [List.map_cons, List.pairwise_cons, List.mem_map, forall_exists_index, and_imp,
        forall_apply_eq_imp_iff₂]
      refine ⟨fun y hy => ?_, ih hs.2 hfree2⟩
      rcases (mem_insert_unique tk hfree2).1 hy with rfl | hy
      · exact h1
      · exact hs.1 y hy
    · simp only [List.map_cons, List.pairwise_cons, List.mem_cons, List.mem_map,
        forall_exists_index, and_imp, forall_apply_eq_imp_iff₂, forall_eq_or_imp]
      exact ⟨⟨h2, fun y hy => lt_trans h2 (hs.1 y hy)⟩, hs.1, hs.2⟩
    · exact absurd (le_antisymm (not_lt.mp h2) (not_lt.mp h1)) ha

theorem erase_insert_unique (tk : KeyId → α) {k : KeyId} {l : List KeyId}
    (hk : k ∉ l) (hfree : ∀ y ∈ l, tk y ≠ tk k) : (insert_unique tk k l).erase k = l := by
  induction l with
  | nil => simp [insert_unique]
  | cons a as ih =>
    have ha := hfree a (List.mem_cons_self _ _)
    simp only [List.mem_cons, not_or] at hk
    unfold insert_unique
    split_ifs with h1 h2
    · rw [List.erase_cons_tail (by simpa using Ne.symm hk.1),
        ih hk.2 (fun y hy => hfree y (List.mem_cons_of_mem _ hy))]
    · simp
    · exact absurd (le_antisymm (not_lt.mp h2) (not_lt.mp h1)) ha

theorem insert_unique_erase (tk : KeyId → α) {k : KeyId} {l : List KeyId}
    (hs : (l.map tk).Pairwise (· < ·)) (hk : k ∈ l) : insert_unique tk k (l.erase k) = l := by
  induction l with
  | nil => simp at hk
  | cons a as ih =>
    simp only [List.map_cons, List.pairwise_cons, List.mem_map, forall_exists_index, and_imp,
      forall_apply_eq_imp_iff₂] at hs
    by_cases hak : a = k
    · subst hak
      rw [List.erase_cons_head]
      cases as with
      | nil => simp [insert_unique]
      | cons b bs =>
        have hb := hs.1 b (List.mem_cons_self _ _)
        simp [insert_unique, hb, not_lt_of_lt hb]
    · have hk2 : k ∈ as := by
        rcases List.mem_cons.1 hk with h | h
        · exact absurd h.symm hak
        · exact h
      rw [List.erase_cons_tail (by simpa using hak)]
      simp [insert_unique, hs.1 k hk2, ih hs.2 hk2]

theorem insert_unique_congr (tk tk2 : KeyId → α) (k : KeyId) (l : List KeyId)
    (hl : ∀ x ∈ l, tk x = tk2 x) (hk : tk k = tk2 k) :
    insert_unique tk k l = insert_unique tk2 k l := by
  induction l with
  | nil => rfl
  | cons a as ih =>
    simp only [insert_unique, hl a (List.mem_cons_self _ _), hk,
      ih (fun x hx => hl x (List.mem_cons_of_mem _ hx))]

theorem mem_insert_before_lower_bound (tk : KeyId → α) (t : α) {k x : KeyId} {l : List KeyId} :
    x ∈ insert_before_lower_bound tk t k l ↔ x = k ∨ x ∈ l := by
  induction l with
  | nil => simp [insert_before_lower_bound]
  | cons a as ih =>
    unfold insert_before_lower_bound
    split_ifs with h1
    · simp only [List.mem_cons, ih]; tauto
    · simp only [List.mem_cons]

theorem perm_insert_before_lower_bound (tk : KeyId → α) (t : α) (k : KeyId) (l : List KeyId) :
    (insert_before_lower_bound tk t k l).Perm (k :: l) := by
  induction l with
  | nil => simp [insert_before_lower_bound]
  | cons a as ih =>
    unfold insert_before_lower_bound
    split_ifs with h1
    · exact (List.Perm.cons a ih).trans (List.Perm.swap k a as)
    · exact List.Perm.refl _

theorem nodup_insert_before_lower_bound (tk : KeyId → α) (t : α) {k : KeyId} {l : List KeyId}
    (hk : k ∉ l) (hnd : l.Nodup) : (insert_before_lower_bound tk t k l).Nodup :=
  (perm_insert_before_lower_bound tk t k l).nodup_iff.2 (List.nodup_cons.2 ⟨hk, hnd⟩)

theorem sorted_insert_before_lower_bound (tk : KeyId → α) {k : KeyId} {l : List KeyId}
    (hs : (l.map tk).Pairwise (· ≤ ·)) :
    ((insert_before_lower_bound tk (tk k) k l).map tk).Pairwise (· ≤ ·) := by
  induction l with
  | nil => simp [insert_before_lower_bound]
  | cons a as ih =>
    simp only [List.map_cons, List.pairwise_cons, List.mem_map, forall_exists_index, and_imp,
      forall_apply_eq_imp_iff₂] at hs
    unfold insert_before_lower_bound
    split_ifs with h1
    · simp only [List.map_cons, List.pairwise_cons, List.mem_map, forall_exists_index, and_imp,
        forall_apply_eq_imp_iff₂]
      refine ⟨fun y hy => ?_, ih hs.2⟩
      rcases (mem_insert_before_lower_bound tk (tk k)).1 hy with rfl | hy
      · exact le_of_lt h1
      · exact hs.1 y hy
    · simp only [List.map_cons, List.pairwise_cons, List.mem_cons, List.mem_map,
        forall_exists_index, and_imp, forall_apply_eq_imp_iff₂, forall_eq_or_imp]
      have h2 := not_lt.mp h1
      exact ⟨⟨h2, fun y hy => le_trans h2 (hs.1 y hy)⟩, hs.1, hs.2⟩

theorem erase_insert_before_lower_bound (tk : KeyId → α) (t : α) {k : KeyId} {l : List KeyId}
    (hk : k ∉ l) : (insert_before_lower_bound tk t k l).erase k = l := by
  induction l with
  | nil => simp [insert_before_lower_bound]
  | cons a as ih =>
    simp only [List.mem_cons, not_or] at hk
    unfold insert_before_lower_bound
    split_ifs with h1
    · rw [List.erase_cons_tail (by simpa using Ne.symm hk.1), ih hk.2]
    · simp

theorem insert_before_lower_bound_congr (tk tk2 : KeyId → α) (t : α) (k : KeyId) (l : List KeyId)
    (hl : ∀ x ∈ l, tk x = tk2 x) :
    insert_before_lower_bound tk t k l = insert_before_lower_bound tk2 t k l := by
  induction l with
  | nil => rfl
  | cons a as ih =>
    simp only [insert_before_lower_bound, hl a (List.mem_cons_self _ _),
      ih (fun x hx => hl x (List.mem_cons_of_mem _ hx))]

theorem lower_bound_sublist (tk : KeyId → α) (t : α) (l : List KeyId) :
    ∀ x ∈ lower_bound tk t l, x ∈ l := by
  induction l with
  | nil => simp [lower_bound]
  | cons a as ih =>
    unfold lower_bound
    split_ifs with h1
    · intro x hx; exact List.mem_cons_of_mem _ (ih x hx)
    · intro x hx; exact hx

theorem lower_bound_head_not_lt (tk : KeyId → α) (t : α) (l : List KeyId) {x : KeyId}
    {r : List KeyId} (h : lower_bound tk t l = x :: r) : ¬ tk x < t := by
  induction l with
  | nil => simp [lower_bound] at h
  | cons a as ih =>
    unfold lower_bound at h
    split_ifs at h with h1
    · exact ih h
    · cases h; exact h1

theorem find_some (tk : KeyId → α) (t : α) (l : List KeyId) {x : KeyId}
    (h : find tk t l = some x) : x ∈ l ∧ tk x = t := by
  unfold find at h
  split at h
  · cases h
  · rename_i y r heq
    split_ifs at h with h1
    cases h
    refine ⟨lower_bound_sublist tk t l _ (by rw [heq]; exact List.mem_cons_self _ _), ?_⟩
    exact le_antisymm (not_lt.mp h1) (not_lt.mp (lower_bound_head_not_lt tk t l heq))

theorem find_none (tk : KeyId → α) (t : α) {l : List KeyId}
    (hs : (l.map tk).Pairwise (· ≤ ·)) (h : find tk t l = none) : ∀ x ∈ l, tk x ≠ t := by
  induction l with
  | nil => simp
  | cons a as ih =>
    simp only [List.map_cons, List.pairwise_cons, List.mem_map, forall_exists_index, and_imp,
      forall_apply_eq_imp_iff₂] at hs
    unfold find lower_bound at h
    split_ifs at h with h1
    · intro x hx
      rcases List.mem_cons.1 hx with rfl | hx
      · exact ne_of_lt h1
      · exact ih hs.2 (by unfold find; exact h) x hx
    · simp only at h
      split_ifs at h with h2
      intro x hx
      rcases List.mem_cons.1 hx with rfl | hx
      · exact ne_of_gt h2
      · exact ne_of_gt (lt_of_lt_of_le h2 (hs.1 x hx))

theorem sorted_le_of_lt {l : List α} (h : l.Pairwise (· < ·)) : l.Pairwise (· ≤ ·) :=
  h.imp (fun hab => le_of_lt hab)

/-! ### Heap updates and the relaxed linkage invariant -/

@[simp] theorem Heap.setKey_key (h : Heap α) (k x : KeyId) (v : Key α) :
    (h.setKey k v).key x = if x = k then v else h.key x := by
  simp [Heap.setKey, Function.update_apply]

@[simp] theorem Heap.setKey_curve (h : Heap α) (k : KeyId) (v : Key α) :
    (h.setKey k v).curve = h.curve := rfl

@[simp] theorem Heap.setKey_keyCount (h : Heap α) (k : KeyId) (v : Key α) :
    (h.setKey k v).keyCount = h.keyCount := rfl

@[simp] theorem Heap.setKeys_key (h : Heap α) (c : CurveId) (l : List KeyId) :
    (h.setKeys c l).key = h.key := rfl

@[simp] theorem Heap.setKeys_keyCount (h : Heap α) (c : CurveId) (l : List KeyId) :
    (h.setKeys c l).keyCount = h.keyCount := rfl

@[simp] theorem Heap.setInactiveKeys_key (h : Heap α) (c : CurveId) (l : List KeyId) :
    (h.setInactiveKeys c l).key = h.key := rfl

@[simp] theorem Heap.setInactiveKeys_keyCount (h : Heap α) (c : CurveId) (l : List KeyId) :
    (h.setInactiveKeys c l).keyCount = h.keyCount := rfl

@[simp] theorem Heap.setKeys_time (h : Heap α) (c : CurveId) (l : List KeyId) :
    (h.setKeys c l).time = h.time := rfl

@[simp] theorem Heap.setInactiveKeys_time (h : Heap α) (c : CurveId) (l : List KeyId) :
    (h.setInactiveKeys c l).time = h.time := rfl

theorem Heap.setKeys_curve (h : Heap α) (c x : CurveId) (l : List KeyId) :
    (h.setKeys c l).curve x = if x = c then { h.curve c with m_keys := l } else h.curve x := by
  simp [Heap.setKeys, Function.update_apply]

theorem Heap.setInactiveKeys_curve (h : Heap α) (c x : CurveId) (l : List KeyId) :
    (h.setInactiveKeys c l).curve x =
      if x = c then { h.curve c with m_inactiveKeys := l } else h.curve x := by
  simp [Heap.setInactiveKeys, Function.update_apply]

@[simp] theorem Heap.keys_setKeys (h : Heap α) (c x : CurveId) (l : List KeyId) :
    ((h.setKeys c l).curve x).m_keys = if x = c then l else (h.curve x).m_keys := by
  rw [Heap.setKeys_curve]; split_ifs <;> rfl

@[simp] theorem Heap.inactiveKeys_setKeys (h : Heap α) (c x : CurveId) (l : List KeyId) :
    ((h.setKeys c l).curve x).m_inactiveKeys = (h.curve x).m_inactiveKeys := by
  rw [Heap.setKeys_curve]; split_ifs with hx
  · subst hx; rfl
  · rfl

@[simp] theorem Heap.keys_setInactiveKeys (h : Heap α) (c x : CurveId) (l : List KeyId) :
    ((h.setInactiveKeys c l).curve x).m_keys = (h.curve x).m_keys := by
  rw [Heap.setInactiveKeys_curve]; split_ifs with hx
  · subst hx; rfl
  · rfl

@[simp] theorem Heap.inactiveKeys_setInactiveKeys (h : Heap α) (c x : CurveId) (l : List KeyId) :
    ((h.setInactiveKeys c l).curve x).m_inactiveKeys =
      if x = c then l else (h.curve x).m_inactiveKeys := by
  rw [Heap.setInactiveKeys_curve]; split_ifs <;> rfl

theorem Heap.time_setKey (h : Heap α) (k x : KeyId) (v : Key α) :
    (h.setKey k v).time x = if x = k then v.m_time else h.time x := by
  simp only [Heap.time, Heap.setKey_key]; split_ifs <;> rfl

theorem Heap.time_setKey_same (h : Heap α) (k : KeyId) (v : Key α) (hv : v.m_time = h.time k) :
    (h.setKey k v).time = h.time := by
  funext x
  rw [Heap.time_setKey]
  split_ifs with hx
  · rw [hx, hv]
  · rfl

theorem map_time_setKey (h : Heap α) (e : KeyId) (v : Key α) (l : List KeyId) (he : e ∉ l) :
    l.map (h.setKey e v).time = l.map h.time := by
  apply List.map_congr_left
  intro x hx
  have : x ≠ e := fun hxe => he (hxe ▸ hx)
  simp [Heap.time_setKey, this]

@[simp] theorem Heap.setActive_curve (h : Heap α) (k : KeyId) (b : Bool) :
    (h.setActive k b).curve = h.curve := rfl

@[simp] theorem Heap.setActive_time (h : Heap α) (k : KeyId) (b : Bool) :
    (h.setActive k b).time = h.time :=
  Heap.time_setKey_same h k _ rfl

@[simp] theorem Heap.setParent_curve (h : Heap α) (k : KeyId) (p : Option CurveId) :
    (h.setParent k p).curve = h.curve := rfl

@[simp] theorem Heap.setParent_time (h : Heap α) (k : KeyId) (p : Option CurveId) :
    (h.setParent k p).time = h.time :=
  Heap.time_setKey_same h k _ rfl

@[simp] theorem Heap.setTime_curve (h : Heap α) (k : KeyId) (t : α) :
    (h.setTime k t).curve = h.curve := rfl

theorem LinkedExcept.setKey {h : Heap α} {e : KeyId} (hl : LinkedExcept h e) (v : Key α) :
    LinkedExcept (h.setKey e v) e where
  sorted c := by
    simpa [map_time_setKey h e v _ (hl.not_mem_keys c)] using hl.sorted c
  sortedInactive c := by
    simpa [map_time_setKey h e v _ (hl.not_mem_inactiveKeys c)] using hl.sortedInactive c
  nodupInactive c := hl.nodupInactive c
  not_mem_keys c := hl.not_mem_keys c
  not_mem_inactiveKeys c := hl.not_mem_inactiveKeys c
  mem_keys c k hk := by simpa [hk] using hl.mem_keys c k hk
  mem_inactiveKeys c k hk := by simpa [hk] using hl.mem_inactiveKeys c k hk
  unparented k hk := by simpa [hk] using hl.unparented k hk

theorem Linked.except {h : Heap α} (hl : Linked h) {e : KeyId}
    (hp : (h.key e).m_parent = none) : LinkedExcept h e where
  sorted := hl.sorted
  sortedInactive := hl.sortedInactive
  nodupInactive := hl.nodupInactive
  not_mem_keys c := by rw [hl.mem_keys]; simp [hp]
  not_mem_inactiveKeys c := by rw [hl.mem_inactiveKeys]; simp [hp]
  mem_keys c k _ := hl.mem_keys c k
  mem_inactiveKeys c k _ := hl.mem_inactiveKeys c k
  unparented k _ := hl.unparented k

theorem LinkedExcept.toLinked {h : Heap α} {e : KeyId} (hl : LinkedExcept h e)
    (hp : (h.key e).m_parent = none) (ha : (h.key e).m_active = false) : Linked h where
  sorted := hl.sorted
  sortedInactive := hl.sortedInactive
  nodupInactive := hl.nodupInactive
  mem_keys c k := by
    by_cases hk : k = e
    · subst hk; simp [hp, hl.not_mem_keys c]
    · exact hl.mem_keys c k hk
  mem_inactiveKeys c k := by
    by_cases hk : k = e
    · subst hk; simp [hp, hl.not_mem_inactiveKeys c]
    · exact hl.mem_inactiveKeys c k hk
  unparented k hpk := by
    by_cases hk : k = e
    · subst hk; exact ha
    · exact hl.unparented k hk hpk

theorem Linked.nodup {h : Heap α} (hl : Linked h) (c : CurveId) : (h.curve c).m_keys.Nodup :=
  nodup_of_sorted_map h.time (hl.sorted c)

theorem LinkedExcept.nodupKeys {h : Heap α} {e : KeyId} (hl : LinkedExcept h e) (c : CurveId) :
    (h.curve c).m_keys.Nodup :=
  nodup_of_sorted_map h.time (hl.sorted c)

/-- Removing an inactive key from the inactive container. -/
theorem Linked.unlinkInactive {h : Heap α} (hl : Linked h) {c : CurveId} {key : KeyId}
    (hp : (h.key key).m_parent = some c) (ha : (h.key key).m_active = false) :
    LinkedExcept (h.setInactiveKeys c ((h.curve c).m_inactiveKeys.erase key)) key := by
  refine ⟨?_, ?_, ?_, ?_, ?_, ?_, ?_, ?_⟩
  · intro c'; simpa using hl.sorted c'
  · intro c'
    simp only [Heap.setInactiveKeys_time, Heap.inactiveKeys_setInactiveKeys]
    split_ifs with hc
    · exact (hl.sortedInactive c).sublist ((List.erase_sublist _ _).map _)
    · exact hl.sortedInactive c'
  · intro c'
    simp only [Heap.inactiveKeys_setInactiveKeys]
    split_ifs with hc
    · exact (hl.nodupInactive c).erase _
    · exact hl.nodupInactive c'
  · intro c'
    simp [hl.mem_keys, ha]
  · intro c'
    simp only [Heap.inactiveKeys_setInactiveKeys]
    split_ifs with hc
    · exact (hl.nodupInactive c).not_mem_erase
    · rw [hl.mem_inactiveKeys]; simp [hp, Ne.symm hc]
  · intro c' k hk
    simpa using hl.mem_keys c' k
  · intro c' k hk
    simp only [Heap.inactiveKeys_setInactiveKeys, Heap.setInactiveKeys_key]
    split_ifs with hc
    · subst hc; rw [List.mem_erase_of_ne hk]; exact hl.mem_inactiveKeys c' k
    · exact hl.mem_inactiveKeys c' k
  · intro k hk
    simpa using hl.unparented k

/-- Removing an active key from the active container. -/
theorem Linked.unlinkActive {h : Heap α} (hl : Linked h) {c : CurveId} {key : KeyId}
    (hp : (h.key key).m_parent = some c) (ha : (h.key key).m_active = true) :
    LinkedExcept (h.setKeys c ((h.curve c).m_keys.erase key)) key := by
  refine ⟨?_, ?_, ?_, ?_, ?_, ?_, ?_, ?_⟩
  · intro c'
    simp only [Heap.setKeys_time, Heap.keys_setKeys]
    split_ifs with hc
    · exact (hl.sorted c).sublist ((List.erase_sublist _ _).map _)
    · exact hl.sorted c'
  · intro c'; simpa using hl.sortedInactive c'
  · intro c'; simpa using hl.nodupInactive c'
  · intro c'
    simp only [Heap.keys_setKeys]
    split_ifs with hc
    · exact (hl.nodup c).not_mem_erase
    · rw [hl.mem_keys]; simp [hp, Ne.symm hc]
  · intro c'
    simp [hl.mem_inactiveKeys, ha]
  · intro c' k hk
    simp only [Heap.keys_setKeys, Heap.setKeys_key]
    split_ifs with hc
    · subst hc; rw [List.mem_erase_of_ne hk]; exact hl.mem_keys c' k
    · exact hl.mem_keys c' k
  · intro c' k hk
    simpa using hl.mem_inactiveKeys c' k
  · intro k hk
    simpa using hl.unparented k

/-- Replacing an active key by an inactive key of the same time, which becomes
active. -/
theorem Linked.promote {h : Heap α} (hl : Linked h) {c : CurveId} {key ci : KeyId}
    (hp : (h.key key).m_parent = some c) (ha : (h.key key).m_active = true)
    (hpi : (h.key ci).m_parent = some c) (hai : (h.key ci).m_active = false)
    (ht : h.time ci = h.time key) :
    LinkedExcept (((h.setInactiveKeys c ((h.curve c).m_inactiveKeys.erase ci)).setKeys c
      (replace_node key ci ((h.setInactiveKeys c
        ((h.curve c).m_inactiveKeys.erase ci)).curve c).m_keys)).setActive ci true) key := by
  have hne : ci ≠ key := by rintro rfl; rw [ha] at hai; cases hai
  have hkey : key ∈ (h.curve c).m_keys := (hl.mem_keys c key).2 ⟨hp, ha⟩
  have hci : ci ∉ (h.curve c).m_keys := by rw [hl.mem_keys]; simp [hai]
  simp only [Heap.keys_setInactiveKeys]
  refine ⟨?_, ?_, ?_, ?_, ?_, ?_, ?_, ?_⟩
  · intro c'
    simp only [Heap.setActive_time, Heap.setActive_curve, Heap.setKeys_time, Heap.keys_setKeys,
      Heap.setInactiveKeys_time, Heap.keys_setInactiveKeys]
    split_ifs with hc
    · rw [map_replace_node h.time h.time (hl.nodup c) ht (fun _ _ _ => rfl)]
      exact hl.sorted c
    · exact hl.sorted c'
  · intro c'
    simp only [Heap.setActive_time, Heap.setActive_curve, Heap.setKeys_time,
      Heap.inactiveKeys_setKeys, Heap.setInactiveKeys_time, Heap.inactiveKeys_setInactiveKeys]
    split_ifs with hc
    · exact (hl.sortedInactive c).sublist ((List.erase_sublist _ _).map _)
    · exact hl.sortedInactive c'
  · intro c'
    simp only [Heap.setActive_curve, Heap.inactiveKeys_setKeys,
      Heap.inactiveKeys_setInactiveKeys]
    split_ifs with hc
    · exact (hl.nodupInactive c).erase _
    · exact hl.nodupInactive c'
  · intro c'
    simp only [Heap.setActive_curve, Heap.keys_setKeys, Heap.keys_setInactiveKeys]
    split_ifs with hc
    · rw [mem_replace_node (hl.nodup c) hkey]
      simp [Ne.symm hne]
    · rw [hl.mem_keys]; simp [hp, Ne.symm hc]
  · intro c'
    simp only [Heap.setActive_curve, Heap.inactiveKeys_setKeys,
      Heap.inactiveKeys_setInactiveKeys]
    split_ifs with hc
    · intro hmem
      have := List.mem_of_mem_erase hmem
      rw [hl.mem_inactiveKeys] at this
      rw [ha] at this; cases this.2
    · rw [hl.mem_inactiveKeys]; simp [ha]
  · intro c' k hk
    simp only [Heap.setActive_curve, Heap.keys_setKeys, Heap.setActive, Heap.setKey_key,
      Heap.setKeys_key, Heap.setInactiveKeys_key]
    by_cases hkc : k = ci
    · subst hkc
      by_cases hc : c' = c
      · subst hc; simp [mem_replace_node (hl.nodup c') hkey, hpi]
      · simp [hc, hpi, hl.mem_keys c' k, hai, Ne.symm hc]
    · by_cases hc : c' = c
      · subst hc
        simp [hkc, mem_replace_node (hl.nodup c') hkey, hk, hl.mem_keys c' k]
      · simp [hc, hkc, hl.mem_keys c' k]
  · intro c' k hk
    simp only [Heap.setActive_curve, Heap.inactiveKeys_setKeys,
      Heap.inactiveKeys_setInactiveKeys, Heap.setActive, Heap.setKey_key,
      Heap.setKeys_key, Heap.setInactiveKeys_key]
    by_cases hkc : k = ci
    · subst hkc
      by_cases hc : c' = c
      · subst hc; simp [(hl.nodupInactive c').not_mem_erase]
      · simp [hc, hl.mem_inactiveKeys c' k, hpi, Ne.symm hc]
    · by_cases hc : c' = c
      · subst hc
        simp [hkc, List.mem_erase_of_ne hkc, hl.mem_inactiveKeys c' k]
      · simp [hc, hkc, hl.mem_inactiveKeys c' k]
  · intro k hk
    simp only [Heap.setActive, Heap.setKey_key, Heap.setKeys_key, Heap.setInactiveKeys_key]
    by_cases hkc : k = ci
    · subst hkc; simp [hpi]
    · simpa [hkc] using hl.unparented k

/-! ### Linking a key into a container -/

/-- Linking the exempt key into the active container at a free time slot. -/
theorem LinkedExcept.linkActive {h : Heap α} {key : KeyId} (hl : LinkedExcept h key)
    (c : CurveId) (v : Key α) (hvt : v.m_time = h.time key) (hvp : v.m_parent = some c)
    (hva : v.m_active = true) (hfree : ∀ y ∈ (h.curve c).m_keys, h.time y ≠ h.time key) :
    Linked ((h.setKeys c (insert_unique h.time key (h.curve c).m_keys)).setKey key v) := by
  have htime : ((h.setKeys c (insert_unique h.time key (h.curve c).m_keys)).setKey key v).time
      = h.time := Heap.time_setKey_same _ _ _ hvt
  refine ⟨?_, ?_, ?_, ?_, ?_, ?_⟩
  · intro c'
    rw [htime]
    simp only [Heap.setKey_curve, Heap.keys_setKeys]
    split_ifs with hc
    · exact sorted_insert_unique h.time key (hl.sorted c) hfree
    · exact hl.sorted c'
  · intro c'
    rw [htime]
    simpa using hl.sortedInactive c'
  · intro c'
    simpa using hl.nodupInactive c'
  · intro c' k
    simp only [Heap.setKey_curve, Heap.keys_setKeys, Heap.setKey_key, Heap.setKeys_key]
    by_cases hk : k = key
    · subst hk
      by_cases hc : c' = c
      · subst hc; simp [hvp, hva, mem_insert_unique h.time hfree]
      · simp [hc, hvp, hl.not_mem_keys c', Ne.symm hc]
    · by_cases hc : c' = c
      · subst hc; simp [hk, mem_insert_unique h.time hfree, hl.mem_keys c' k hk]
      · simp [hc, hk, hl.mem_keys c' k hk]
  · intro c' k
    simp only [Heap.setKey_curve, Heap.inactiveKeys_setKeys, Heap.setKey_key, Heap.setKeys_key]
    by_cases hk : k = key
    · subst hk
      simp [hva, hl.not_mem_inactiveKeys c']
    · simp [hk, hl.mem_inactiveKeys c' k hk]
  · intro k
    simp only [Heap.setKey_key, Heap.setKeys_key]
    by_cases hk : k = key
    · simp [hk, hvp]
    · simpa [hk] using hl.unparented k hk

/-- Linking the exempt key into the inactive container. -/
theorem LinkedExcept.linkInactive {h : Heap α} {key : KeyId} (hl : LinkedExcept h key)
    (c : CurveId) (v : Key α) (hvt : v.m_time = h.time key) (hvp : v.m_parent = some c)
    (hva : v.m_active = false) :
    Linked ((h.setInactiveKeys c (insert_before_lower_bound h.time (h.time key) key
      (h.curve c).m_inactiveKeys)).setKey key v) := by
  have htime : ((h.setInactiveKeys c (insert_before_lower_bound h.time (h.time key) key
      (h.curve c).m_inactiveKeys)).setKey key v).time = h.time :=
    Heap.time_setKey_same _ _ _ hvt
  refine ⟨?_, ?_, ?_, ?_, ?_, ?_⟩
  · intro c'
    rw [htime]
    simpa using hl.sorted c'
  · intro c'
    rw [htime]
    simp only [Heap.setKey_curve, Heap.inactiveKeys_setInactiveKeys]
    split_ifs with hc
    · exact sorted_insert_before_lower_bound h.time (hl.sortedInactive c)
    · exact hl.sortedInactive c'
  · intro c'
    simp only [Heap.setKey_curve, Heap.inactiveKeys_setInactiveKeys]
    split_ifs with hc
    · exact nodup_insert_before_lower_bound h.time _ (hl.not_mem_inactiveKeys c)
        (hl.nodupInactive c)
    · exact hl.nodupInactive c'
  · intro c' k
    simp only [Heap.setKey_curve, Heap.keys_setInactiveKeys, Heap.setKey_key,
      Heap.setInactiveKeys_key]
    by_cases hk : k = key
    · subst hk
      simp [hva, hl.not_mem_keys c']
    · simp [hk, hl.mem_keys c' k hk]
  · intro c' k
    simp only [Heap.setKey_curve, Heap.inactiveKeys_setInactiveKeys, Heap.setKey_key,
      Heap.setInactiveKeys_key]
    by_cases hk : k = key
    · subst hk
      by_cases hc : c' = c
      · subst hc; simp [hvp, hva, mem_insert_before_lower_bound]
      · simp [hc, hvp, hl.not_mem_inactiveKeys c', Ne.symm hc]
    · by_cases hc : c' = c
      · subst hc
        simp [hk, mem_insert_before_lower_bound, hl.mem_inactiveKeys c' k hk]
      · simp [hc, hk, hl.mem_inactiveKeys c' k hk]
  · intro k
    simp only [Heap.setKey_key, Heap.setInactiveKeys_key]
    by_cases hk : k = key
    · simp [hk, hvp]
    · simpa [hk] using hl.unparented k hk

/-- Linking the exempt key into the active container in place of the active key
`ck` of the same time, which becomes inactive. -/
theorem LinkedExcept.demote {h : Heap α} {key ck : KeyId} (hl : LinkedExcept h key)
    (c : CurveId) (v : Key α) (hvt : v.m_time = h.time key) (hvp : v.m_parent = some c)
    (hva : v.m_active = true) (hne : ck ≠ key)
    (hpc : (h.key ck).m_parent = some c) (hac : (h.key ck).m_active = true)
    (htc : h.time ck = h.time key) :
    Linked (((((h.setKeys c (replace_node ck key (h.curve c).m_keys)).setInactiveKeys c
      (insert_before_lower_bound h.time (h.time key) ck (h.curve c).m_inactiveKeys)).setActive
        ck false)).setKey key v) := by
  have hck : ck ∈ (h.curve c).m_keys := (hl.mem_keys c ck hne).2 ⟨hpc, hac⟩
  have hcki : ck ∉ (h.curve c).m_inactiveKeys := by
    rw [hl.mem_inactiveKeys c ck hne]; simp [hac]
  have htime : (((((h.setKeys c (replace_node ck key (h.curve c).m_keys)).setInactiveKeys c
      (insert_before_lower_bound h.time (h.time key) ck (h.curve c).m_inactiveKeys)).setActive
        ck false)).setKey key v).time = h.time := by
    rw [Heap.time_setKey_same _ _ _ (by simpa using hvt)]
    simp
  refine ⟨?_, ?_, ?_, ?_, ?_, ?_⟩
  · intro c'
    rw [htime]
    simp only [Heap.setKey_curve, Heap.setActive_curve, Heap.keys_setInactiveKeys,
      Heap.keys_setKeys]
    split_ifs with hc
    · rw [map_replace_node h.time h.time (hl.nodupKeys c) htc.symm (fun _ _ _ => rfl)]
      exact hl.sorted c
    · exact hl.sorted c'
  · intro c'
    rw [htime]
    simp only [Heap.setKey_curve, Heap.setActive_curve, Heap.inactiveKeys_setInactiveKeys,
      Heap.inactiveKeys_setKeys]
    split_ifs with hc
    · rw [← htc]
      exact sorted_insert_before_lower_bound h.time (hl.sortedInactive c)
    · exact hl.sortedInactive c'
  · intro c'
    simp only [Heap.setKey_curve, Heap.setActive_curve, Heap.inactiveKeys_setInactiveKeys,
      Heap.inactiveKeys_setKeys]
    split_ifs with hc
    · exact nodup_insert_before_lower_bound h.time _ hcki (hl.nodupInactive c)
    · exact hl.nodupInactive c'
  · intro c' k
    simp only [Heap.setKey_curve, Heap.setActive_curve, Heap.keys_setInactiveKeys,
      Heap.keys_setKeys, Heap.setKey_key, Heap.setActive, Heap.setInactiveKeys_key,
      Heap.setKeys_key]
    by_cases hk : k = key
    · subst hk
      by_cases hc : c' = c
      · subst hc; simp [hvp, hva, mem_replace_node (hl.nodupKeys c') hck]
      · simp [hc, hvp, hl.not_mem_keys c', Ne.symm hc]
    · by_cases hkc : k = ck
      · subst hkc
        by_cases hc : c' = c
        · subst hc; simp [hk, mem_replace_node (hl.nodupKeys c') hck]
        · simp [hc, hk, hl.mem_keys c' k hk, hpc, Ne.symm hc]
      · by_cases hc : c' = c
        · subst hc
          simp [hk, hkc, mem_replace_node (hl.nodupKeys c') hck, hl.mem_keys c' k hk]
        · simp [hc, hk, hkc, hl.mem_keys c' k hk]
  · intro c' k
    simp only [Heap.setKey_curve, Heap.setActive_curve, Heap.inactiveKeys_setInactiveKeys,
      Heap.inactiveKeys_setKeys, Heap.setKey_key, Heap.setActive, Heap.setInactiveKeys_key,
      Heap.setKeys_key]
    by_cases hk : k = key
    · subst hk
      by_cases hc : c' = c
      · subst hc
        simp [hva, mem_insert_before_lower_bound, hl.not_mem_inactiveKeys c', Ne.symm hne]
      · simp [hc, hva, hl.not_mem_inactiveKeys c']
    · by_cases hkc : k = ck
      · subst hkc
        by_cases hc : c' = c
        · subst hc; simp [hk, mem_insert_before_lower_bound, hpc]
        · simp [hc, hk, hl.mem_inactiveKeys c' k hk, hpc, Ne.symm hc, hac]
      · by_cases hc : c' = c
        · subst hc
          simp [hk, hkc, mem_insert_before_lower_bound, hl.mem_inactiveKeys c' k hk]
        · simp [hc, hk, hkc, hl.mem_inactiveKeys c' k hk]
  · intro k
    simp only [Heap.setKey_key, Heap.setActive, Heap.setInactiveKeys_key, Heap.setKeys_key]
    by_cases hk : k = key
    · simp [hk, hvp]
    · by_cases hkc : k = ck
      · subst hkc; simp [hk, hpc]
      · simpa [hk, hkc] using hl.unparented k hk

/-! ### Normal forms of the structural parts of the closures -/

theorem Heap.setKey_self (h : Heap α) (k : KeyId) : h.setKey k (h.key k) = h := by
  cases h
  simp [Heap.setKey]

@[simp] theorem Heap.setKey_setKey (h : Heap α) (k : KeyId) (v v2 : Key α) :
    (h.setKey k v).setKey k v2 = h.setKey k v2 := by
  simp [Heap.setKey]

theorem setTimeDoLink_eq (curve : CurveId) (time : α) (active : Bool) (key : KeyId)
    (ck ci : Option KeyId) (h : Heap α) :
    setTimeDoLink curve time active key ck ci h =
      link curve true key ck (((unlink curve active key ci h).setTime key time).setActive
        key true) := rfl

theorem setTimeUndoLink_eq (curve : CurveId) (previousTime : α) (active : Bool) (key : KeyId)
    (ck ci : Option KeyId) (h : Heap α) :
    setTimeUndoLink curve previousTime active key ck ci h =
      link curve active key ci (((unlink curve true key ck h).setTime key previousTime).setActive
        key active) := by
  have fact : ∀ Y : Heap α, ((Y.setActive key active).key key).m_active = active := by
    intro Y; simp [Heap.setActive]
  simp only [setTimeUndoLink, link, fact]
  rfl

theorem addKeyDoLink_eq (this : CurveId) (key : KeyId) (ck : Option KeyId) (h : Heap α) :
    addKeyDoLink this key ck (h.time key) h =
      ((link this true key ck h).setParent key (some this)).setActive key true := rfl

theorem addKeyUndoLink_eq (this : CurveId) (key : KeyId) (ck : Option KeyId) (h : Heap α)
    (hne : ck ≠ some key) :
    addKeyUndoLink this key ck h = Key.Dispose (unlink this true key ck h) key := by
  cases ck with
  | none => rfl
  | some x =>
    have hx : key ≠ x := fun e => hne (by rw [e])
    simp only [addKeyUndoLink, unlink, Key.Dispose, Heap.setActive, Heap.setKey, Bool.not_true,
      Bool.false_eq_true, if_false, Heap.setKeys, Heap.setInactiveKeys]
    congr 1
    funext k
    simp only [Function.update_apply]
    by_cases h1 : k = x
    · subst h1; simp [Ne.symm hx, hx]
    · by_cases h2 : k = key
      · subst h2; simp [h1, hx]
      · simp [h1, h2]

theorem removeKeyDoLink_eq (this : CurveId) (key : KeyId) (ck : Option KeyId) (active : Bool)
    (h : Heap α) (hne : ck ≠ some key) :
    removeKeyDoLink this key ck active h = Key.Dispose (unlink this active key ck h) key := by
  cases active with
  | false => rfl
  | true => exact addKeyUndoLink_eq this key ck h hne

theorem removeKeyUndoLink_eq (this : CurveId) (key : KeyId) (ck : Option KeyId) (active : Bool)
    (h : Heap α) :
    removeKeyUndoLink this key ck active (h.time key) h =
      ((link this active key ck h).setParent key (some this)).setActive key active := rfl

theorem Linked.unlink_except {h : Heap α} (hl : Linked h) {c : CurveId} {a : Bool} {key : KeyId}
    {u : Option KeyId} (hp : (h.key key).m_parent = some c) (ha : (h.key key).m_active = a)
    (hu : a = true → Key.StateIsIf h u (some c) false (h.time key)) :
    LinkedExcept (unlink c a key u h) key := by
  cases a with
  | false => exact hl.unlinkInactive hp ha
  | true =>
    cases u with
    | none => exact hl.unlinkActive hp ha
    | some ci =>
      obtain ⟨hpi, hai, hti⟩ := hu rfl ci rfl
      exact hl.promote hp ha hpi hai hti

theorem LinkedExcept.link_linked {h : Heap α} {key : KeyId} (hl : LinkedExcept h key) (c : CurveId)
    (a : Bool) (u : Option KeyId) (v : Key α) (hvt : v.m_time = h.time key)
    (hvp : v.m_parent = some c) (hva : v.m_active = a)
    (hu : a = true → Key.StateIsIf h u (some c) true (h.time key))
    (hne : a = true → u ≠ some key)
    (hfree : a = true → u = none → ∀ y ∈ (h.curve c).m_keys, h.time y ≠ h.time key) :
    Linked ((link c a key u h).setKey key v) := by
  cases a with
  | false => exact hl.linkInactive c v hvt hvp hva
  | true =>
    cases u with
    | none => exact hl.linkActive c v hvt hvp hva (hfree rfl rfl)
    | some ck =>
      obtain ⟨hpc, hac, htc⟩ := hu rfl ck rfl
      have hne2 : ck ≠ key := fun e => hne rfl (by rw [e])
      have := hl.demote c v hvt hvp hva hne2 hpc hac htc
      simpa [Animation.link] using this

@[simp] theorem unlink_keys (c x : CurveId) (a : Bool) (key : KeyId) (u : Option KeyId)
    (h : Heap α) :
    ((unlink c a key u h).curve x).m_keys =
      if x = c then unlinkKeys a key u (h.curve c).m_keys else (h.curve x).m_keys := by
  cases a <;> cases u <;> simp [unlink, unlinkKeys] <;> split_ifs with hx <;> simp [hx]

@[simp] theorem unlink_parent (c : CurveId) (a : Bool) (key : KeyId) (u : Option KeyId)
    (h : Heap α) (k : KeyId) : ((unlink c a key u h).key k).m_parent = (h.key k).m_parent := by
  cases a <;> cases u <;> simp [unlink, Heap.setActive] <;> split_ifs with hx <;> simp [hx]

@[simp] theorem unlink_time (c : CurveId) (a : Bool) (key : KeyId) (u : Option KeyId)
    (h : Heap α) : (unlink c a key u h).time = h.time := by
  cases a <;> cases u <;> simp [unlink]

@[simp] theorem unlink_keyCount (c : CurveId) (a : Bool) (key : KeyId) (u : Option KeyId)
    (h : Heap α) : (unlink c a key u h).keyCount = h.keyCount := by
  cases a <;> cases u <;> simp [unlink, Heap.setActive]

@[simp] theorem unlink_key_time (c : CurveId) (a : Bool) (key : KeyId) (u : Option KeyId)
    (h : Heap α) (k : KeyId) : ((unlink c a key u h).key k).m_time = (h.key k).m_time :=
  congrFun (unlink_time c a key u h) k

theorem unlink_active (c : CurveId) (a : Bool) (key : KeyId) (u : Option KeyId)
    (h : Heap α) (k : KeyId) :
    ((unlink c a key u h).key k).m_active =
      if a = true ∧ u = some k then true else (h.key k).m_active := by
  cases a with
  | false => simp [unlink]
  | true =>
    cases u with
    | none => simp [unlink]
    | some ci =>
      by_cases hk : ci = k
      · subst hk; simp [unlink, Heap.setActive]
      · have hk2 : k ≠ ci := fun e => hk e.symm
        simp [unlink, Heap.setActive, hk, hk2]

theorem unlink_key_of_ne (c : CurveId) (a : Bool) (key : KeyId) (u : Option KeyId)
    (h : Heap α) (k : KeyId) (hk : u ≠ some k) : (unlink c a key u h).key k = h.key k := by
  cases a <;> cases u <;> simp [unlink, Heap.setActive]
  intro e; exact absurd (by rw [e]) hk

@[simp] theorem link_keys (c x : CurveId) (a : Bool) (key : KeyId) (u : Option KeyId)
    (h : Heap α) :
    ((link c a key u h).curve x).m_keys =
      if x = c then linkKeys h.time a key u (h.curve c).m_keys else (h.curve x).m_keys := by
  cases a <;> cases u <;> simp [link, linkKeys] <;> split_ifs with hx <;> simp [hx]

@[simp] theorem link_parent (c : CurveId) (a : Bool) (key : KeyId) (u : Option KeyId)
    (h : Heap α) (k : KeyId) : ((link c a key u h).key k).m_parent = (h.key k).m_parent := by
  cases a <;> cases u <;> simp [link, Heap.setActive] <;> split_ifs with hx <;> simp [hx]

@[simp] theorem link_time (c : CurveId) (a : Bool) (key : KeyId) (u : Option KeyId)
    (h : Heap α) : (link c a key u h).time = h.time := by
  cases a <;> cases u <;> simp [link]

@[simp] theorem link_keyCount (c : CurveId) (a : Bool) (key : KeyId) (u : Option KeyId)
    (h : Heap α) : (link c a key u h).keyCount = h.keyCount := by
  cases a <;> cases u <;> simp [link, Heap.setActive]

@[simp] theorem link_key_time (c : CurveId) (a : Bool) (key : KeyId) (u : Option KeyId)
    (h : Heap α) (k : KeyId) : ((link c a key u h).key k).m_time = (h.key k).m_time :=
  congrFun (link_time c a key u h) k

theorem link_active (c : CurveId) (a : Bool) (key : KeyId) (u : Option KeyId)
    (h : Heap α) (k : KeyId) :
    ((link c a key u h).key k).m_active =
      if a = true ∧ u = some k then false else (h.key k).m_active := by
  cases a with
  | false => simp [Animation.link]
  | true =>
    cases u with
    | none => simp [Animation.link]
    | some ci =>
      by_cases hk : ci = k
      · subst hk; simp [Animation.link, Heap.setActive]
      · have hk2 : k ≠ ci := fun e => hk e.symm
        simp [Animation.link, Heap.setActive, hk, hk2]

theorem link_key_of_ne (c : CurveId) (a : Bool) (key : KeyId) (u : Option KeyId)
    (h : Heap α) (k : KeyId) (hk : u ≠ some k) : (link c a key u h).key k = h.key k := by
  cases a <;> cases u <;> simp [link, Heap.setActive]
  intro e; exact absurd (by rw [e]) hk

/-! ### State checks and tangent updates of the closures -/

theorem throwIfStateNotAsExpected_eq (h : Heap α) (k : KeyId) (p : Option CurveId) (a : Bool)
    (t : α) : (∃ e, Key.throwIfStateNotAsExpected h k p a t = .error e ∧ ¬ Key.StateIs h k p a t) ∨
      (Key.throwIfStateNotAsExpected h k p a t = .ok () ∧ Key.StateIs h k p a t) := by
  unfold Key.throwIfStateNotAsExpected Key.StateIs
  split_ifs with h1 h2 h3
  · exact Or.inl ⟨_, rfl, fun hh => h1 hh.1⟩
  · exact Or.inl ⟨_, rfl, fun hh => h2 hh.2.1⟩
  · exact Or.inl ⟨_, rfl, fun hh => h3 hh.2.2⟩
  · exact Or.inr ⟨rfl, not_not.mp h1, not_not.mp h2, not_not.mp h3⟩

theorem throwIfStateNotAsExpectedIf_eq (h : Heap α) (k : Option KeyId) (p : Option CurveId)
    (a : Bool) (t : α) :
    (∃ e, Key.throwIfStateNotAsExpectedIf h k p a t = .error e ∧ ¬ Key.StateIsIf h k p a t) ∨
      (Key.throwIfStateNotAsExpectedIf h k p a t = .ok () ∧ Key.StateIsIf h k p a t) := by
  cases k with
  | none => exact Or.inr ⟨rfl, fun x hx => by cases hx⟩
  | some x =>
    rcases throwIfStateNotAsExpected_eq h x p a t with ⟨e, he, hn⟩ | ⟨he, hs⟩
    · exact Or.inl ⟨e, he, fun hh => hn (hh x rfl)⟩
    · exact Or.inr ⟨he, fun y hy => by cases hy; exact hs⟩

/-- Removing the cached spans commutes with a tangent update. -/
@[simp] theorem update_core (h : Heap α) (k : KeyId) (d : Direction) :
    (Tangent.update h k d).core = h.core := by
  cases d <;>
  · simp only [Tangent.update, Heap.core, Heap.setKey]
    congr 1
    funext x
    by_cases hx : x = k
    · subst hx; simp [Key.core]
    · simp [hx]

@[simp] theorem updateIf_core (h : Heap α) (k : Option KeyId) (d : Direction) :
    (Tangent.updateIf h k d).core = h.core := by
  cases k <;> simp [Tangent.updateIf]

theorem setTimeDo_ok {curve : CurveId} {time previousTime : α} {active : Bool} {key : KeyId}
    {ck ci : Option KeyId} {h h1 : Heap α}
    (hdo : setTimeDo curve time previousTime active key ck ci h = .ok h1) :
    Key.StateIs h key (some curve) active previousTime ∧
    Key.StateIsIf h ci (some curve) false previousTime ∧
    Key.StateIsIf h ck (some curve) true time ∧
    h1.core = (setTimeDoLink curve time active key ck ci h).core := by
  unfold setTimeDo at hdo
  rcases throwIfStateNotAsExpected_eq h key (some curve) active previousTime with
    ⟨e, he, _⟩ | ⟨he1, hs1⟩
  · rw [he] at hdo; cases hdo
  rcases throwIfStateNotAsExpectedIf_eq h ci (some curve) false previousTime with
    ⟨e, he, _⟩ | ⟨he2, hs2⟩
  · rw [he1, he] at hdo; cases hdo
  rcases throwIfStateNotAsExpectedIf_eq h ck (some curve) true time with
    ⟨e, he, _⟩ | ⟨he3, hs3⟩
  · rw [he1, he2, he] at hdo; cases hdo
  rw [he1, he2, he3] at hdo
  refine ⟨hs1, hs2, hs3, ?_⟩
  cases ck <;> cases ci <;> simp [bind, Except.bind, pure, Except.pure] at hdo <;>
    subst hdo <;> (try split_ifs) <;> simp

theorem setTimeDo_succeeds {curve : CurveId} {time previousTime : α} {active : Bool}
    {key : KeyId} {ck ci : Option KeyId} {h : Heap α}
    (h1 : Key.StateIs h key (some curve) active previousTime)
    (h2 : Key.StateIsIf h ci (some curve) false previousTime)
    (h3 : Key.StateIsIf h ck (some curve) true time) :
    ∃ h', setTimeDo curve time previousTime active key ck ci h = .ok h' := by
  unfold setTimeDo
  rcases throwIfStateNotAsExpected_eq h key (some curve) active previousTime with
    ⟨e, he, hn⟩ | ⟨he1, hs1⟩
  · exact absurd h1 hn
  rcases throwIfStateNotAsExpectedIf_eq h ci (some curve) false previousTime with
    ⟨e, he, hn⟩ | ⟨he2, hs2⟩
  · exact absurd h2 hn
  rcases throwIfStateNotAsExpectedIf_eq h ck (some curve) true time with
    ⟨e, he, hn⟩ | ⟨he3, hs3⟩
  · exact absurd h3 hn
  rw [he1, he2, he3]
  cases ck <;> simp [bind, Except.bind, pure, Except.pure]

theorem setTimeUndo_ok {curve : CurveId} {time previousTime : α} {active : Bool} {key : KeyId}
    {ck ci : Option KeyId} {h h1 : Heap α}
    (hdo : setTimeUndo curve time previousTime active key ck ci h = .ok h1) :
    Key.StateIs h key (some curve) true time ∧
    Key.StateIsIf h ck (some curve) false time ∧
    Key.StateIsIf h ci (some curve) true previousTime ∧
    h1.core = (setTimeUndoLink curve previousTime active key ck ci h).core := by
  unfold setTimeUndo at hdo
  rcases throwIfStateNotAsExpected_eq h key (some curve) true time with
    ⟨e, he, _⟩ | ⟨he1, hs1⟩
  · rw [he] at hdo; cases hdo
  rcases throwIfStateNotAsExpectedIf_eq h ck (some curve) false time with
    ⟨e, he, _⟩ | ⟨he2, hs2⟩
  · rw [he1, he] at hdo; cases hdo
  rcases throwIfStateNotAsExpectedIf_eq h ci (some curve) true previousTime with
    ⟨e, he, _⟩ | ⟨he3, hs3⟩
  · rw [he1, he2, he] at hdo; cases hdo
  rw [he1, he2, he3] at hdo
  refine ⟨hs1, hs2, hs3, ?_⟩
  cases ck <;> cases ci <;> cases active <;>
    simp [bind, Except.bind, pure, Except.pure] at hdo <;>
    subst hdo <;> (try split_ifs) <;> simp

theorem setTimeUndo_succeeds {curve : CurveId} {time previousTime : α} {active : Bool}
    {key : KeyId} {ck ci : Option KeyId} {h : Heap α}
    (h1 : Key.StateIs h key (some curve) true time)
    (h2 : Key.StateIsIf h ck (some curve) false time)
    (h3 : Key.StateIsIf h ci (some curve) true previousTime) :
    ∃ h', setTimeUndo curve time previousTime active key ck ci h = .ok h' := by
  unfold setTimeUndo
  rcases throwIfStateNotAsExpected_eq h key (some curve) true time with
    ⟨e, he, hn⟩ | ⟨he1, hs1⟩
  · exact absurd h1 hn
  rcases throwIfStateNotAsExpectedIf_eq h ck (some curve) false time with
    ⟨e, he, hn⟩ | ⟨he2, hs2⟩
  · exact absurd h2 hn
  rcases throwIfStateNotAsExpectedIf_eq h ci (some curve) true previousTime with
    ⟨e, he, hn⟩ | ⟨he3, hs3⟩
  · exact absurd h3 hn
  rw [he1, he2, he3]
  cases ci <;> simp [bind, Except.bind, pure, Except.pure]

theorem addKeyDo_ok {this : CurveId} {key : KeyId} {ck : Option KeyId} {time : α}
    {h h1 : Heap α} (hdo : addKeyDo this key ck time h = .ok h1) :
    Key.StateIs h key none false time ∧
    Key.StateIsIf h ck (some this) true time ∧
    h1.core = (addKeyDoLink this key ck time h).core := by
  unfold addKeyDo at hdo
  rcases throwIfStateNotAsExpected_eq h key none false time with ⟨e, he, _⟩ | ⟨he1, hs1⟩
  · rw [he] at hdo; cases hdo
  rcases throwIfStateNotAsExpectedIf_eq h ck (some this) true time with
    ⟨e, he, _⟩ | ⟨he2, hs2⟩
  · rw [he1, he] at hdo; cases hdo
  rw [he1, he2] at hdo
  refine ⟨hs1, hs2, ?_⟩
  cases ck <;> simp [bind, Except.bind, pure, Except.pure] at hdo <;> subst hdo <;> simp

theorem addKeyDo_succeeds {this : CurveId} {key : KeyId} {ck : Option KeyId} {time : α}
    {h : Heap α} (h1 : Key.StateIs h key none false time)
    (h2 : Key.StateIsIf h ck (some this) true time) :
    ∃ h', addKeyDo this key ck time h = .ok h' := by
  unfold addKeyDo
  rcases throwIfStateNotAsExpected_eq h key none false time with ⟨e, he, hn⟩ | ⟨he1, hs1⟩
  · exact absurd h1 hn
  rcases throwIfStateNotAsExpectedIf_eq h ck (some this) true time with
    ⟨e, he, hn⟩ | ⟨he2, hs2⟩
  · exact absurd h2 hn
  rw [he1, he2]
  cases ck <;> simp [bind, Except.bind, pure, Except.pure]

theorem addKeyUndo_ok {this : CurveId} {key : KeyId} {ck : Option KeyId} {time : α}
    {h h1 : Heap α} (hdo : addKeyUndo this key ck time h = .ok h1) :
    Key.StateIs h key (some this) true time ∧
    Key.StateIsIf h ck (some this) false time ∧
    h1.core = (addKeyUndoLink this key ck h).core := by
  unfold addKeyUndo at hdo
  rcases throwIfStateNotAsExpected_eq h key (some this) true time with ⟨e, he, _⟩ | ⟨he1, hs1⟩
  · rw [he] at hdo; cases hdo
  rcases throwIfStateNotAsExpectedIf_eq h ck (some this) false time with
    ⟨e, he, _⟩ | ⟨he2, hs2⟩
  · rw [he1, he] at hdo; cases hdo
  rw [he1, he2] at hdo
  refine ⟨hs1, hs2, ?_⟩
  cases ck <;> simp [bind, Except.bind, pure, Except.pure] at hdo <;> subst hdo <;> simp

theorem addKeyUndo_succeeds {this : CurveId} {key : KeyId} {ck : Option KeyId} {time : α}
    {h : Heap α} (h1 : Key.StateIs h key (some this) true time)
    (h2 : Key.StateIsIf h ck (some this) false time) :
    ∃ h', addKeyUndo this key ck time h = .ok h' := by
  unfold addKeyUndo
  rcases throwIfStateNotAsExpected_eq h key (some this) true time with ⟨e, he, hn⟩ | ⟨he1, hs1⟩
  · exact absurd h1 hn
  rcases throwIfStateNotAsExpectedIf_eq h ck (some this) false time with
    ⟨e, he, hn⟩ | ⟨he2, hs2⟩
  · exact absurd h2 hn
  rw [he1, he2]
  cases ck <;> simp [bind, Except.bind, pure, Except.pure]

theorem removeKeyDo_ok {this : CurveId} {key : KeyId} {ck : Option KeyId} {active : Bool}
    {time : α} {h h1 : Heap α} (hdo : removeKeyDo this key ck active time h = .ok h1) :
    Key.StateIs h key (some this) active time ∧
    Key.StateIsIf h ck (some this) false time ∧
    h1.core = (removeKeyDoLink this key ck active h).core := by
  unfold removeKeyDo at hdo
  rcases throwIfStateNotAsExpected_eq h key (some this) active time with
    ⟨e, he, _⟩ | ⟨he1, hs1⟩
  · rw [he] at hdo; cases hdo
  rcases throwIfStateNotAsExpectedIf_eq h ck (some this) false time with
    ⟨e, he, _⟩ | ⟨he2, hs2⟩
  · rw [he1, he] at hdo; cases hdo
  rw [he1, he2] at hdo
  refine ⟨hs1, hs2, ?_⟩
  cases ck <;> simp [bind, Except.bind, pure, Except.pure] at hdo <;> subst hdo <;> simp

theorem removeKeyDo_succeeds {this : CurveId} {key : KeyId} {ck : Option KeyId} {active : Bool}
    {time : α} {h : Heap α} (h1 : Key.StateIs h key (some this) active time)
    (h2 : Key.StateIsIf h ck (some this) false time) :
    ∃ h', removeKeyDo this key ck active time h = .ok h' := by
  unfold removeKeyDo
  rcases throwIfStateNotAsExpected_eq h key (some this) active time with
    ⟨e, he, hn⟩ | ⟨he1, hs1⟩
  · exact absurd h1 hn
  rcases throwIfStateNotAsExpectedIf_eq h ck (some this) false time with
    ⟨e, he, hn⟩ | ⟨he2, hs2⟩
  · exact absurd h2 hn
  rw [he1, he2]
  cases ck <;> simp [bind, Except.bind, pure, Except.pure]

theorem removeKeyUndo_ok {this : CurveId} {key : KeyId} {ck : Option KeyId} {active : Bool}
    {time : α} {h h1 : Heap α} (hdo : removeKeyUndo this key ck active time h = .ok h1) :
    Key.StateIs h key none false time ∧
    Key.StateIsIf h ck (some this) true time ∧
    h1.core = (removeKeyUndoLink this key ck active time h).core := by
  unfold removeKeyUndo at hdo
  rcases throwIfStateNotAsExpected_eq h key none false time with ⟨e, he, _⟩ | ⟨he1, hs1⟩
  · rw [he] at hdo; cases hdo
  rcases throwIfStateNotAsExpectedIf_eq h ck (some this) true time with
    ⟨e, he, _⟩ | ⟨he2, hs2⟩
  · rw [he1, he] at hdo; cases hdo
  rw [he1, he2] at hdo
  refine ⟨hs1, hs2, ?_⟩
  cases ck <;> cases active <;>
    simp [bind, Except.bind, pure, Except.pure] at hdo <;> subst hdo <;> simp

theorem removeKeyUndo_succeeds {this : CurveId} {key : KeyId} {ck : Option KeyId}
    {active : Bool} {time : α} {h : Heap α} (h1 : Key.StateIs h key none false time)
    (h2 : Key.StateIsIf h ck (some this) true time) :
    ∃ h', removeKeyUndo this key ck active time h = .ok h' := by
  unfold removeKeyUndo
  rcases throwIfStateNotAsExpected_eq h key none false time with ⟨e, he, hn⟩ | ⟨he1, hs1⟩
  · exact absurd h1 hn
  rcases throwIfStateNotAsExpectedIf_eq h ck (some this) true time with
    ⟨e, he, hn⟩ | ⟨he2, hs2⟩
  · exact absurd h2 hn
  rw [he1, he2]
  cases ck <;> simp [bind, Except.bind, pure, Except.pure]

theorem core_eq_curve {a b : Heap α} (hc : a.core = b.core) : a.curve = b.curve :=
  (congrArg Heap.curve hc : a.core.curve = b.core.curve)

theorem core_eq_keyCount {a b : Heap α} (hc : a.core = b.core) : a.keyCount = b.keyCount :=
  (congrArg Heap.keyCount hc : a.core.keyCount = b.core.keyCount)

theorem core_eq_key {a b : Heap α} (hc : a.core = b.core) (k : KeyId) :
    (a.key k).core = (b.key k).core :=
  congrFun (congrArg Heap.key hc) k

theorem core_eq_parent {a b : Heap α} (hc : a.core = b.core) (k : KeyId) :
    (a.key k).m_parent = (b.key k).m_parent :=
  (congrArg Key.m_parent (core_eq_key hc k) : (a.key k).core.m_parent = (b.key k).core.m_parent)

theorem core_eq_active {a b : Heap α} (hc : a.core = b.core) (k : KeyId) :
    (a.key k).m_active = (b.key k).m_active :=
  (congrArg Key.m_active (core_eq_key hc k) : (a.key k).core.m_active = (b.key k).core.m_active)

theorem core_eq_time {a b : Heap α} (hc : a.core = b.core) : a.time = b.time := by
  funext k
  exact (congrArg Key.m_time (core_eq_key hc k) : (a.key k).core.m_time = (b.key k).core.m_time)

theorem core_eq_value {a b : Heap α} (hc : a.core = b.core) (k : KeyId) :
    (a.key k).m_value = (b.key k).m_value :=
  (congrArg Key.m_value (core_eq_key hc k) : (a.key k).core.m_value = (b.key k).core.m_value)

theorem core_eq_interpolator {a b : Heap α} (hc : a.core = b.core) (k : KeyId) :
    (a.key k).m_interpolator = (b.key k).m_interpolator :=
  (congrArg Key.m_interpolator (core_eq_key hc k) : (a.key k).core.m_interpolator = (b.key k).core.m_interpolator)

theorem Linked.of_core_eq {a b : Heap α} (hc : a.core = b.core) (hl : Linked a) : Linked b := by
  have h1 := core_eq_curve hc
  have h2 := core_eq_time hc
  refine ⟨?_, ?_, ?_, ?_, ?_, ?_⟩
  · intro c; rw [← h1, ← h2]; exact hl.sorted c
  · intro c; rw [← h1, ← h2]; exact hl.sortedInactive c
  · intro c; rw [← h1]; exact hl.nodupInactive c
  · intro c k; rw [← h1, ← core_eq_parent hc, ← core_eq_active hc]; exact hl.mem_keys c k
  · intro c k; rw [← h1, ← core_eq_parent hc, ← core_eq_active hc]
    exact hl.mem_inactiveKeys c k
  · intro k; rw [← core_eq_parent hc, ← core_eq_active hc]; exact hl.unparented k

/-! ### Unlink and link are inverse -/

theorem Heap.ext_fields {a b : Heap α} (hk : ∀ k, a.key k = b.key k)
    (h1 : ∀ c, (a.curve c).m_keys = (b.curve c).m_keys)
    (h2 : ∀ c, (a.curve c).m_inactiveKeys = (b.curve c).m_inactiveKeys)
    (hn : a.keyCount = b.keyCount) : a = b := by
  cases a with
  | mk ak ac an =>
    cases b with
    | mk bk bc bn =>
      have e1 : ak = bk := funext hk
      have e2 : ac = bc := by
        funext c
        have := h1 c
        have := h2 c
        cases hac : ac c
        cases hbc : bc c
        simp_all
      simp only at hn
      subst e1 e2 hn
      rfl

@[simp] theorem unlink_inactiveKeys (c x : CurveId) (a : Bool) (key : KeyId) (u : Option KeyId)
    (h : Heap α) :
    ((unlink c a key u h).curve x).m_inactiveKeys =
      if x = c then unlinkInactiveKeys a key u (h.curve c).m_inactiveKeys
      else (h.curve x).m_inactiveKeys := by
  cases a <;> cases u <;> simp [unlink, unlinkInactiveKeys] <;> split_ifs with hx <;> simp [hx]

@[simp] theorem link_inactiveKeys (c x : CurveId) (a : Bool) (key : KeyId) (u : Option KeyId)
    (h : Heap α) :
    ((Animation.link c a key u h).curve x).m_inactiveKeys =
      if x = c then linkInactiveKeys h.time a key u (h.curve c).m_inactiveKeys
      else (h.curve x).m_inactiveKeys := by
  cases a <;> cases u <;> simp [Animation.link, linkInactiveKeys] <;>
    split_ifs with hx <;> simp [hx]

theorem unlink_key (c : CurveId) (a : Bool) (key : KeyId) (u : Option KeyId)
    (h : Heap α) (k : KeyId) :
    (unlink c a key u h).key k =
      if a = true ∧ u = some k then { h.key k with m_active := true } else h.key k := by
  cases a with
  | false => simp [unlink]
  | true =>
    cases u with
    | none => simp [unlink]
    | some ci =>
      by_cases hk : ci = k
      · subst hk; simp [unlink, Heap.setActive]
      · have hk2 : k ≠ ci := fun e => hk e.symm
        simp [unlink, Heap.setActive, hk, hk2]

theorem link_key (c : CurveId) (a : Bool) (key : KeyId) (u : Option KeyId)
    (h : Heap α) (k : KeyId) :
    (Animation.link c a key u h).key k =
      if a = true ∧ u = some k then { h.key k with m_active := false } else h.key k := by
  cases a with
  | false => simp [Animation.link]
  | true =>
    cases u with
    | none => simp [Animation.link]
    | some ci =>
      by_cases hk : ci = k
      · subst hk; simp [Animation.link, Heap.setActive]
      · have hk2 : k ≠ ci := fun e => hk e.symm
        simp [Animation.link, Heap.setActive, hk, hk2]

theorem Key.eta_active (k : Key α) (b : Bool) (hb : k.m_active = b) :
    { k with m_active := b } = k := by
  cases k; simp_all

theorem mem_replace_node_imp {old new x : KeyId} {l : List KeyId}
    (hx : x ∈ replace_node old new l) : x = new ∨ x ∈ l := by
  induction l with
  | nil => simp [replace_node] at hx
  | cons a as ih =>
    unfold replace_node at hx
    split_ifs at hx with h1
    · rcases List.mem_cons.1 hx with h | h
      · exact Or.inl h
      · exact Or.inr (List.mem_cons_of_mem _ h)
    · rcases List.mem_cons.1 hx with h | h
      · exact Or.inr (h ▸ List.mem_cons_self _ _)
      · rcases ih h with h | h
        · exact Or.inl h
        · exact Or.inr (List.mem_cons_of_mem _ h)

theorem mem_unlinkKeys {a : Bool} {key y : KeyId} {u : Option KeyId} {l : List KeyId}
    (hy : y ∈ unlinkKeys a key u l) : y ∈ l ∨ u = some y := by
  cases a with
  | false => exact Or.inl hy
  | true =>
    cases u with
    | none => exact Or.inl (List.mem_of_mem_erase hy)
    | some ci =>
      rcases mem_replace_node_imp hy with h | h
      · exact Or.inr (by rw [h])
      · exact Or.inl h

/-- Unlinking right after linking gives back the heap. -/
theorem unlink_link {h : Heap α} {key : KeyId} (hl : LinkedExcept h key) (c : CurveId)
    (a : Bool) (u : Option KeyId)
    (hu : a = true → Key.StateIsIf h u (some c) true (h.time key))
    (hne : a = true → u ≠ some key)
    (hfree : a = true → u = none → ∀ y ∈ (h.curve c).m_keys, h.time y ≠ h.time key) :
    unlink c a key u (Animation.link c a key u h) = h := by
  apply Heap.ext_fields
  · intro k
    rw [unlink_key, link_key]
    split_ifs with h1
    · obtain ⟨ha, hu1⟩ := h1
      have := (hu ha k hu1).2.1
      cases hk : h.key k
      simp_all
    · rfl
  · intro x
    simp only [unlink_keys, link_keys]
    split_ifs with hx
    · subst hx
      cases a with
      | false => rfl
      | true =>
        cases u with
        | none =>
          simp only [unlinkKeys, linkKeys, if_true]
          exact erase_insert_unique h.time (hl.not_mem_keys x) (hfree rfl rfl)
        | some ck =>
          simp only [unlinkKeys, linkKeys, if_true]
          exact replace_node_replace_node ck key _ (hl.not_mem_keys x)
    · rfl
  · intro x
    simp only [unlink_inactiveKeys, link_inactiveKeys]
    split_ifs with hx
    · subst hx
      cases a with
      | false =>
        simp only [unlinkInactiveKeys, linkInactiveKeys, Bool.false_eq_true, if_false]
        exact erase_insert_before_lower_bound _ _ (hl.not_mem_inactiveKeys x)
      | true =>
        cases u with
        | none => rfl
        | some ck =>
          simp only [unlinkInactiveKeys, linkInactiveKeys, if_true]
          have hck : ck ≠ key := fun e => hne rfl (by rw [e])
          have : ck ∉ (h.curve x).m_inactiveKeys := by
            rw [hl.mem_inactiveKeys x ck hck]
            simp [(hu rfl ck rfl).2.1]
          exact erase_insert_before_lower_bound _ _ this
    · rfl
  · simp

/-- Linking right after unlinking gives back the heap, up to the position of
the re-inserted key among the inactive keys of its time. -/
theorem link_unlink {h : Heap α} (hl : Linked h) {c : CurveId} {a : Bool} {key : KeyId}
    {u : Option KeyId} (hp : (h.key key).m_parent = some c) (ha : (h.key key).m_active = a)
    (hu : a = true → Key.StateIsIf h u (some c) false (h.time key)) :
    Animation.link c a key u (unlink c a key u h) =
      h.setInactiveKeys c (linkInactiveKeys h.time a key u
        (unlinkInactiveKeys a key u (h.curve c).m_inactiveKeys)) := by
  apply Heap.ext_fields
  · intro k
    rw [link_key, unlink_key]
    simp only [Heap.setInactiveKeys_key]
    split_ifs with h1
    · obtain ⟨ha1, hu1⟩ := h1
      have := (hu ha1 k hu1).2.1
      cases hk : h.key k
      simp_all
    · rfl
  · intro x
    simp only [unlink_keys, link_keys, Heap.keys_setInactiveKeys]
    split_ifs with hx
    · subst hx
      cases a with
      | false => rfl
      | true =>
        have hkey : key ∈ (h.curve x).m_keys := (hl.mem_keys x key).2 ⟨hp, ha⟩
        cases u with
        | none =>
          simp only [unlinkKeys, linkKeys, if_true, unlink_time]
          exact insert_unique_erase h.time (hl.sorted x) hkey
        | some ci =>
          simp only [unlinkKeys, linkKeys, if_true]
          have : ci ∉ (h.curve x).m_keys := by
            rw [hl.mem_keys]; simp [(hu rfl ci rfl).2.1]
          exact replace_node_replace_node key ci _ this
    · rfl
  · intro x
    simp only [unlink_inactiveKeys, link_inactiveKeys, Heap.inactiveKeys_setInactiveKeys,
      unlink_time]
    split_ifs with hx <;> simp
  · simp

/-! ### Agreement of heaps -/

theorem Agree.refl (h : Heap α) : Agree h h :=
  ⟨le_refl _, fun _ => rfl, fun _ => rfl, fun _ => rfl, fun _ _ => rfl⟩

theorem Agree.trans {a b c : Heap α} (h1 : Agree a b) (h2 : Agree b c) : Agree a c :=
  ⟨le_trans h1.keyCount h2.keyCount, fun x => (h1.keys x).trans (h2.keys x),
    fun k => (h1.parent k).trans (h2.parent k), fun k => (h1.active k).trans (h2.active k),
    fun k hk => (h1.time k hk).trans (h2.time k (by rw [← h1.parent k]; exact hk))⟩

theorem Agree.of_same_core {a b : Heap α} (hc : a.core = b.core) : Agree a b :=
  ⟨le_of_eq (core_eq_keyCount hc), fun x => by rw [core_eq_curve hc],
    core_eq_parent hc, core_eq_active hc, fun k _ => congrFun (core_eq_time hc) k⟩

theorem Agree.unlink {a b : Heap α} (hab : Agree a b) (c : CurveId) (x : Bool) (key : KeyId)
    (u : Option KeyId) : Agree (Animation.unlink c x key u a) (Animation.unlink c x key u b) := by
  refine ⟨by simpa using hab.keyCount, ?_, ?_, ?_, ?_⟩
  · intro y; simp only [unlink_keys, hab.keys]
  · intro k; simp only [unlink_parent, hab.parent]
  · intro k; simp only [unlink_active, hab.active]
  · intro k hk
    simp only [unlink_parent] at hk
    simpa using hab.time k hk

theorem Agree.setKey_both {a b : Heap α} (hab : Agree a b) (key : KeyId) (va vb : Key α)
    (hp : va.m_parent = vb.m_parent) (hac : va.m_active = vb.m_active)
    (ht : va.m_parent ≠ none → va.m_time = vb.m_time) :
    Agree (a.setKey key va) (b.setKey key vb) := by
  refine ⟨hab.keyCount, fun y => hab.keys y, ?_, ?_, ?_⟩
  · intro k; simp only [Heap.setKey_key]; split_ifs
    · exact hp
    · exact hab.parent k
  · intro k; simp only [Heap.setKey_key]; split_ifs
    · exact hac
    · exact hab.active k
  · intro k; simp only [Heap.setKey_key]; split_ifs
    · exact ht
    · exact hab.time k

theorem linkKeys_congr (tk tk2 : KeyId → α) (x : Bool) (key : KeyId) (u : Option KeyId)
    (l : List KeyId) (hl : ∀ y ∈ l, tk y = tk2 y) (hk : tk key = tk2 key) :
    linkKeys tk x key u l = linkKeys tk2 x key u l := by
  cases x with
  | false => rfl
  | true =>
    cases u with
    | none => exact insert_unique_congr tk tk2 key l hl hk
    | some ck => rfl

theorem Agree.link {a b : Heap α} (hab : Agree a b) (c : CurveId) (x : Bool) (key : KeyId)
    (u : Option KeyId) (hpar : ∀ y ∈ (a.curve c).m_keys, (a.key y).m_parent ≠ none)
    (hkey : a.time key = b.time key) :
    Agree (Animation.link c x key u a) (Animation.link c x key u b) := by
  refine ⟨by simpa using hab.keyCount, ?_, ?_, ?_, ?_⟩
  · intro y
    simp only [link_keys, ← hab.keys]
    split_ifs with hy
    · exact linkKeys_congr _ _ _ _ _ _ (fun z hz => hab.time z (hpar z hz)) hkey
    · rfl
  · intro k; simp only [link_parent, hab.parent]
  · intro k; simp only [link_active, hab.active]
  · intro k hk
    simp only [link_parent] at hk
    simpa using hab.time k hk

theorem Agree.setInactiveKeys_right (h : Heap α) (c : CurveId) (l : List KeyId) :
    Agree h (h.setInactiveKeys c l) :=
  ⟨le_refl _, fun x => by simp, fun _ => rfl, fun _ => rfl, fun _ _ => rfl⟩

theorem Agree.wf_fresh {a b : Heap α} (hab : Agree a b)
    (hb : ∀ k, b.keyCount ≤ k → (b.key k).m_parent = none) :
    ∀ k, b.keyCount ≤ k → (a.key k).m_parent = none :=
  fun k hk => by rw [hab.parent]; exact hb k hk

theorem unlink_setKey (c : CurveId) (a : Bool) (key : KeyId) (u : Option KeyId) (h : Heap α)
    (v : Key α) (hne : u ≠ some key) :
    unlink c a key u (h.setKey key v) = (unlink c a key u h).setKey key v := by
  apply Heap.ext_fields
  · intro k
    simp only [unlink_key, Heap.setKey_key]
    by_cases hk : k = key
    · subst hk; simp [hne]
    · simp [hk]
  · intro x; simp
  · intro x; simp
  · simp

theorem link_setKey (c : CurveId) (a : Bool) (key : KeyId) (u : Option KeyId) (h : Heap α)
    (v : Key α) (hne : u ≠ some key) (hv : v.m_time = h.time key) :
    Animation.link c a key u (h.setKey key v) = (Animation.link c a key u h).setKey key v := by
  have ht : (h.setKey key v).time = h.time := Heap.time_setKey_same h key v hv
  apply Heap.ext_fields
  · intro k
    simp only [link_key, Heap.setKey_key]
    by_cases hk : k = key
    · subst hk; simp [hne]
    · simp [hk]
  · intro x; simp [ht]
  · intro x; simp [ht]
  · simp

/-- After an active key without a shadowed twin is unlinked, no remaining
active key has its time. -/
theorem Linked.slot_free {h : Heap α} (hl : Linked h) {c : CurveId} {key : KeyId}
    (hp : (h.key key).m_parent = some c) (ha : (h.key key).m_active = true) :
    ∀ y ∈ ((Animation.unlink c true key none h).curve c).m_keys, h.time y ≠ h.time key := by
  intro y hy
  simp only [unlink_keys, if_true, unlinkKeys] at hy
  have hkey : key ∈ (h.curve c).m_keys := (hl.mem_keys c key).2 ⟨hp, ha⟩
  have hy1 : y ∈ (h.curve c).m_keys := List.mem_of_mem_erase hy
  have hne : y ≠ key := fun e => (hl.nodup c).not_mem_erase (e ▸ hy)
  exact fun e => hne (time_injOn_of_sorted h.time (hl.sorted c) hy1 hkey e)

/-! ### The middle of a time change -/

theorem Heap.setTime_setActive_key (h : Heap α) (k : KeyId) (t : α) (b : Bool) (x : KeyId) :
    ((h.setTime k t).setActive k b).key x =
      if x = k then { h.key k with m_time := t, m_active := b } else h.key x := by
  by_cases hx : x = k
  · subst hx; simp [Heap.setTime, Heap.setActive]
  · simp [Heap.setTime, Heap.setActive, hx]

theorem Heap.setTime_setActive_eq (h : Heap α) (k : KeyId) (t : α) (b : Bool) :
    (h.setTime k t).setActive k b = h.setKey k { h.key k with m_time := t, m_active := b } := by
  simp [Heap.setTime, Heap.setActive]

theorem Heap.setParent_setActive_eq (h : Heap α) (k : KeyId) (p : Option CurveId) (b : Bool) :
    (h.setParent k p).setActive k b =
      h.setKey k { h.key k with m_parent := p, m_active := b } := by
  simp [Heap.setParent, Heap.setActive]

theorem Key.Dispose_eq (h : Heap α) (k : KeyId) :
    Key.Dispose h k = h.setKey k { h.key k with m_parent := none, m_active := false } := rfl

/-- The intermediate states of the structural part of a time change (the Do
closure of `setTime`, and its Undo closure with the roles of the two clashing
keys exchanged). -/
theorem retime_mid {h : Heap α} (hl : Linked h) {c : CurveId} {t p : α} {a b : Bool}
    {key : KeyId} {ut ul : Option KeyId}
    (hkey : Key.StateIs h key (some c) a p)
    (hul : a = true → Key.StateIsIf h ul (some c) false p)
    (hut : b = true → Key.StateIsIf h ut (some c) true t)
    (hne : t ≠ p)
    (hfree : b = true → ut = none →
      ∀ y ∈ ((unlink c a key ul h).curve c).m_keys, h.time y ≠ t) :
    LinkedExcept (unlink c a key ul h) key ∧
    LinkedExcept (((unlink c a key ul h).setTime key t).setActive key b) key ∧
    (b = true → Key.StateIsIf (((unlink c a key ul h).setTime key t).setActive key b) ut
      (some c) true ((((unlink c a key ul h).setTime key t).setActive key b).time key)) ∧
    (b = true → ut ≠ some key) ∧
    (b = true → ut = none →
      ∀ y ∈ ((((unlink c a key ul h).setTime key t).setActive key b).curve c).m_keys,
        (((unlink c a key ul h).setTime key t).setActive key b).time y ≠
          (((unlink c a key ul h).setTime key t).setActive key b).time key) ∧
    Linked (Animation.link c b key ut
      (((unlink c a key ul h).setTime key t).setActive key b)) := by
  obtain ⟨hp, ha, ht⟩ := hkey
  have hX0 : LinkedExcept (unlink c a key ul h) key :=
    hl.unlink_except hp ha (fun e => by rw [Heap.time, ht]; exact hul e)
  have hX1 : LinkedExcept (((unlink c a key ul h).setTime key t).setActive key b) key := by
    rw [Heap.setTime_setActive_eq]; exact hX0.setKey _
  have htk : (((unlink c a key ul h).setTime key t).setActive key b).time key = t := by
    simp [Heap.time, Heap.setTime_setActive_key]
  have hutne : b = true → ut ≠ some key := by
    intro hb e
    have := (hut hb key e).2.2
    rw [ht] at this
    exact hne this.symm
  have hut2 : b = true → Key.StateIsIf (((unlink c a key ul h).setTime key t).setActive key b)
      ut (some c) true t := by
    intro hb x hx
    have hxk : x ≠ key := fun e => hutne hb (by rw [hx, e])
    obtain ⟨q1, q2, q3⟩ := hut hb x hx
    refine ⟨?_, ?_, ?_⟩
    · simp [Heap.setTime_setActive_key, hxk, q1]
    · simp [Heap.setTime_setActive_key, hxk, unlink_active, q2]
    · simp [Heap.setTime_setActive_key, hxk, q3]
  have hfree2 : b = true → ut = none →
      ∀ y ∈ ((((unlink c a key ul h).setTime key t).setActive key b).curve c).m_keys,
        (((unlink c a key ul h).setTime key t).setActive key b).time y ≠
          (((unlink c a key ul h).setTime key t).setActive key b).time key := by
    intro hb hu y hy
    rw [htk]
    have hy0 : y ∈ ((unlink c a key ul h).curve c).m_keys := by
      simpa [Heap.setTime, Heap.setActive] using hy
    have hyk : y ≠ key := fun e => hX0.not_mem_keys c (e ▸ hy0)
    have : (((unlink c a key ul h).setTime key t).setActive key b).time y = h.time y := by
      simp [Heap.time, Heap.setTime_setActive_key, hyk]
    rw [this]
    exact hfree hb hu y hy0
  refine ⟨hX0, hX1, ?_, hutne, hfree2, ?_⟩
  · rw [htk]; exact hut2
  · have := hX1.link_linked c b ut
      ((Animation.link c b key ut (((unlink c a key ul h).setTime key t).setActive key b)).key key)
      (by simp [Heap.time])
      (by simp [Heap.setTime_setActive_key, hp])
      (by
        rw [link_active]
        have : ¬ (b = true ∧ ut = some key) := fun hh => hutne hh.1 hh.2
        simp [this, Heap.setTime_setActive_key])
      (by rw [htk]; exact hut2) hutne hfree2
    rwa [Heap.setKey_self] at this

/-! ### The closures of setTime keep the invariant -/

theorem unlink_key_self (c : CurveId) (a : Bool) (key : KeyId) (u : Option KeyId) (h : Heap α)
    (hne : u ≠ some key) : (unlink c a key u h).key key = h.key key :=
  unlink_key_of_ne c a key u h key hne

/-- The Do closure of `setTime` keeps a linked heap linked. -/
theorem setTimeDo_linked {h h1 : Heap α} (hl : Linked h) {c : CurveId} {time previousTime : α}
    {active : Bool} {key : KeyId} {ck ci : Option KeyId} (hne : time ≠ previousTime)
    (hfree : ck = none → ∀ y ∈ (h.curve c).m_keys, h.time y ≠ time)
    (hdo : setTimeDo c time previousTime active key ck ci h = .ok h1) : Linked h1 := by
  obtain ⟨S1, S2, S3, hc1⟩ := setTimeDo_ok hdo
  rw [setTimeDoLink_eq] at hc1
  have hfree1 : true = true → ck = none →
      ∀ y ∈ ((unlink c active key ci h).curve c).m_keys, h.time y ≠ time := by
    intro _ hck y hy
    simp only [unlink_keys, if_true] at hy
    rcases mem_unlinkKeys hy with hy | hy
    · exact hfree hck y hy
    · have := (S2 y hy).2.2
      rw [Heap.time, this]; exact hne.symm
  have mid := retime_mid hl S1 (fun _ => S2) (fun _ => S3) hne hfree1
  exact Linked.of_core_eq hc1.symm mid.2.2.2.2.2

/-- The state in the middle of the Undo closure of `setTime` agrees with the
state in the middle of its Do closure, and the slot that the key returns to is
free. -/
theorem setTimeUndo_mid {h0 h1 h h2 : Heap α} (hl0 : Linked h0) {c : CurveId}
    {time previousTime : α} {active : Bool} {key : KeyId} {ck ci : Option KeyId}
    (hne : time ≠ previousTime)
    (hfree : ck = none → ∀ y ∈ (h0.curve c).m_keys, h0.time y ≠ time)
    (hdo : setTimeDo c time previousTime active key ck ci h0 = .ok h1)
    (hag : Agree h1 h) (hl : Linked h)
    (hun : setTimeUndo c time previousTime active key ck ci h = .ok h2) :
    ci ≠ some key ∧
    Agree (unlink c active key ci h0)
      (((unlink c true key ck h).setTime key previousTime).setActive key active) ∧
    (active = true → ci = none →
      ∀ y ∈ ((unlink c true key ck h).curve c).m_keys, h.time y ≠ previousTime) := by
  obtain ⟨S1, S2, S3, hc1⟩ := setTimeDo_ok hdo
  obtain ⟨T1, T2, T3, hc2⟩ := setTimeUndo_ok hun
  rw [setTimeDoLink_eq] at hc1
  rw [setTimeUndoLink_eq] at hc2
  have hfree1 : true = true → ck = none →
      ∀ y ∈ ((unlink c active key ci h0).curve c).m_keys, h0.time y ≠ time := by
    intro _ hck y hy
    simp only [unlink_keys, if_true] at hy
    rcases mem_unlinkKeys hy with hy | hy
    · exact hfree hck y hy
    · have := (S2 y hy).2.2
      rw [Heap.time, this]; exact hne.symm
  obtain ⟨hX0, hX1, hut, hutne, hfree2, hX2⟩ :=
    retime_mid hl0 S1 (fun _ => S2) (fun _ => S3) hne hfree1
  -- the heaps agree after the unlink step of the Undo closure
  have hA2 : Agree (Animation.link c true key ck
      (((unlink c active key ci h0).setTime key time).setActive key true)) h :=
    (Agree.of_same_core hc1.symm).trans hag
  have hA1 := hA2.unlink c true key ck
  rw [unlink_link hX1 c true ck hut hutne hfree2] at hA1
  have hcine : ci ≠ some key := by
    intro e
    have h1 := (S2 key e).2.1
    have h2 := (T3 key e).2.1
    have h3 := T1.2.1
    rw [h3] at h2
    have q1 := S1.2.1
    have q2 := S1.2.2
    have q3 := (S2 key e).2.2
    -- the key would be inactive and active at the same time in `h0`
    rw [h1] at q1
    subst q1
    exact absurd (hl0.mem_inactiveKeys c key |>.2 ⟨S1.1, h1⟩) (by
      intro hmem
      have := (T3 key e).2.2
      have hh := T1.2.2
      rw [hh] at this
      exact hne this)
  have hk0 : (unlink c active key ci h0).key key = h0.key key :=
    unlink_key_self c active key ci h0 hcine
  have hckne : ck ≠ some key := by
    intro e
    have h1 := (T2 key e).2.1
    rw [T1.2.1] at h1
    cases h1
  have hkY : (unlink c true key ck h).key key = h.key key :=
    unlink_key_self c true key ck h hckne
  have hA0 : Agree (unlink c active key ci h0)
      (((unlink c true key ck h).setTime key previousTime).setActive key active) := by
    have := hA1.setKey_both key
      { (((unlink c active key ci h0).setTime key time).setActive key true).key key with
          m_time := previousTime, m_active := active }
      { (unlink c true key ck h).key key with m_time := previousTime, m_active := active }
      (by simp [Heap.setTime_setActive_key, hk0, hkY, S1.1, T1.1]) rfl (fun _ => rfl)
    rw [Heap.setTime_setActive_eq, Heap.setKey_setKey] at this
    rw [Heap.setTime_setActive_eq]
    have e : (unlink c active key ci h0).setKey key
        { ((unlink c active key ci h0).setKey key
            { (unlink c active key ci h0).key key with m_time := time, m_active := true }).key
              key with m_time := previousTime, m_active := active } =
        unlink c active key ci h0 := by
      conv_rhs => rw [← Heap.setKey_self (unlink c active key ci h0) key]
      congr 1
      rw [hk0]
      obtain ⟨_, q2, q3⟩ := S1
      cases hk : h0.key key
      simp_all
    rwa [e] at this
  have hpar : ∀ y ∈ ((unlink c active key ci h0).curve c).m_keys,
      ((unlink c active key ci h0).key y).m_parent ≠ none := by
    intro y hy
    have hyk : y ≠ key := fun e => hX0.not_mem_keys c (e ▸ hy)
    rw [((hX0.mem_keys c y hyk).1 hy).1]
    simp
  have hfreeU : active = true → ci = none →
      ∀ y ∈ ((unlink c true key ck h).curve c).m_keys, h.time y ≠ previousTime := by
    intro ha hci y hy
    subst ha hci
    have hy1 : y ∈ ((unlink c true key none h0).curve c).m_keys := by
      have := hA0.keys c
      simp only [Heap.setTime, Heap.setActive, Heap.setKey_curve] at this
      rw [this]; exact hy
    have hyk : y ≠ key := fun e => hX0.not_mem_keys c (e ▸ hy1)
    have h1 := Linked.slot_free hl0 S1.1 S1.2.1 y hy1
    have h2 := hA0.time y (hpar y hy1)
    simp only [unlink_key_time, Heap.setTime_setActive_key, hyk, if_false] at h2
    rw [Heap.time, ← h2]
    have := S1.2.2
    rw [Heap.time, Heap.time, this] at h1
    exact h1
  exact ⟨hcine, hA0, hfreeU⟩

/-- The Undo closure of `setTime`, run in a heap that agrees with the one its
Do closure left, keeps the heap linked and leads to a heap that agrees with the
one before the Do closure. -/
theorem setTimeUndo_linked {h0 h1 h h2 : Heap α} (hl0 : Linked h0) {c : CurveId}
    {time previousTime : α} {active : Bool} {key : KeyId} {ck ci : Option KeyId}
    (hne : time ≠ previousTime)
    (hfree : ck = none → ∀ y ∈ (h0.curve c).m_keys, h0.time y ≠ time)
    (hdo : setTimeDo c time previousTime active key ck ci h0 = .ok h1)
    (hag : Agree h1 h) (hl : Linked h)
    (hun : setTimeUndo c time previousTime active key ck ci h = .ok h2) :
    Linked h2 ∧ Agree h0 h2 := by
  obtain ⟨hcine, hA0, hfreeU⟩ := setTimeUndo_mid hl0 hne hfree hdo hag hl hun
  obtain ⟨S1, S2, S3, hc1⟩ := setTimeDo_ok hdo
  obtain ⟨T1, T2, T3, hc2⟩ := setTimeUndo_ok hun
  rw [setTimeUndoLink_eq] at hc2
  have hX0 : LinkedExcept (unlink c active key ci h0) key :=
    hl0.unlink_except S1.1 S1.2.1 (fun _ => by rw [Heap.time, S1.2.2]; exact S2)
  have hk0 : (unlink c active key ci h0).key key = h0.key key :=
    unlink_key_self c active key ci h0 hcine
  have hpar : ∀ y ∈ ((unlink c active key ci h0).curve c).m_keys,
      ((unlink c active key ci h0).key y).m_parent ≠ none := by
    intro y hy
    have hyk : y ≠ key := fun e => hX0.not_mem_keys c (e ▸ hy)
    rw [((hX0.mem_keys c y hyk).1 hy).1]
    simp
  obtain ⟨hY0, hY1, _, _, _, hY2⟩ :=
    retime_mid hl T1 (fun _ => T2) (fun _ => T3) hne.symm hfreeU
  refine ⟨Linked.of_core_eq hc2.symm hY2, ?_⟩
  have hA3 := hA0.link c active key ci hpar (by
    simp [Heap.time, Heap.setTime_setActive_key, hk0, S1.2.2])
  rw [link_unlink hl0 S1.1 S1.2.1 (fun _ => by rw [Heap.time, S1.2.2]; exact S2)] at hA3
  exact ((Agree.setInactiveKeys_right h0 c _).trans hA3).trans (Agree.of_same_core hc2.symm)

/-! ### The closures of addKey and removeKey keep the invariant -/

theorem removeKeyDoLink_eq2 (this : CurveId) (key : KeyId) (ck : Option KeyId) (active : Bool)
    (h : Heap α) (hne : active = true → ck ≠ some key) :
    removeKeyDoLink this key ck active h = Key.Dispose (unlink this active key ck h) key := by
  cases active with
  | false => rfl
  | true => exact addKeyUndoLink_eq this key ck h (hne rfl)

/-- The Do closure of `addKey` keeps a linked heap linked. -/
theorem addKeyDo_linked {h h1 : Heap α} (hl : Linked h) {this : CurveId} {key : KeyId}
    {ck : Option KeyId} {time : α}
    (hfree : ck = none → ∀ y ∈ (h.curve this).m_keys, h.time y ≠ time)
    (hdo : addKeyDo this key ck time h = .ok h1) : Linked h1 := by
  obtain ⟨S1, S2, hc1⟩ := addKeyDo_ok hdo
  obtain ⟨p1, p2, p3⟩ := S1
  have ht : time = h.time key := p3.symm
  subst ht
  rw [addKeyDoLink_eq, Heap.setParent_setActive_eq] at hc1
  have hne : ck ≠ some key := by
    intro e
    have := (S2 key e).1
    rw [p1] at this; cases this
  have := (hl.except p1).link_linked this true ck
    { (Animation.link this true key ck h).key key with m_parent := some this, m_active := true }
    (by simp [Heap.time]) rfl rfl (fun _ => S2) (fun _ => hne) (fun _ => hfree)
  exact Linked.of_core_eq hc1.symm this

/-- The Undo closure of `addKey`, run in a heap that agrees with the one its Do
closure left. -/
theorem addKeyUndo_linked {h0 h1 h h2 : Heap α} (hl0 : Linked h0) {this : CurveId}
    {key : KeyId} {ck : Option KeyId} {time : α}
    (hfree : ck = none → ∀ y ∈ (h0.curve this).m_keys, h0.time y ≠ time)
    (hdo : addKeyDo this key ck time h0 = .ok h1)
    (hag : Agree h1 h) (hl : Linked h)
    (hun : addKeyUndo this key ck time h = .ok h2) :
    Linked h2 ∧ Agree h0 h2 := by
  obtain ⟨S1, S2, hc1⟩ := addKeyDo_ok hdo
  obtain ⟨T1, T2, hc2⟩ := addKeyUndo_ok hun
  obtain ⟨p1, p2, p3⟩ := S1
  have ht : time = h0.time key := p3.symm
  subst ht
  have hne : ck ≠ some key := by
    intro e
    have := (S2 key e).1
    rw [p1] at this; cases this
  rw [addKeyDoLink_eq, Heap.setParent_setActive_eq] at hc1
  rw [addKeyUndoLink_eq this key ck h hne, Key.Dispose_eq] at hc2
  have hY : LinkedExcept (unlink this true key ck h) key :=
    hl.unlink_except T1.1 T1.2.1 (fun _ => by rw [Heap.time, T1.2.2]; exact T2)
  refine ⟨Linked.of_core_eq hc2.symm ((hY.setKey _).toLinked (by simp) (by simp)), ?_⟩
  have hA2 := ((Agree.of_same_core hc1.symm).trans hag).unlink this true key ck
  rw [unlink_setKey _ _ _ _ _ _ hne,
    unlink_link (hl0.except p1) this true ck (fun _ => S2) (fun _ => hne) (fun _ => hfree)] at hA2
  have := hA2.setKey_both key (h0.key key)
    { (unlink this true key ck h).key key with m_parent := none, m_active := false }
    p1 p2 (fun hh => absurd p1 hh)
  rw [Heap.setKey_setKey, Heap.setKey_self] at this
  exact this.trans (Agree.of_same_core hc2.symm)

/-- The Do closure of `removeKey` keeps a linked heap linked. -/
theorem removeKeyDo_linked {h h1 : Heap α} (hl : Linked h) {this : CurveId} {key : KeyId}
    {ck : Option KeyId} {active : Bool} {time : α}
    (hdo : removeKeyDo this key ck active time h = .ok h1) : Linked h1 := by
  obtain ⟨S1, S2, hc1⟩ := removeKeyDo_ok hdo
  obtain ⟨p1, p2, p3⟩ := S1
  have hne : active = true → ck ≠ some key := by
    intro ha e
    have := (S2 key e).2.1
    rw [p2, ha] at this; cases this
  rw [removeKeyDoLink_eq2 this key ck active h hne, Key.Dispose_eq] at hc1
  have hY : LinkedExcept (unlink this active key ck h) key :=
    hl.unlink_except p1 p2 (fun _ => by rw [Heap.time, p3]; exact S2)
  exact Linked.of_core_eq hc1.symm ((hY.setKey _).toLinked (by simp) (by simp))

/-- The slot that the Undo closure of `removeKey` returns the key to is free. -/
theorem removeKeyUndo_free {h0 h1 h h2 : Heap α} (hl0 : Linked h0) {this : CurveId}
    {key : KeyId} {ck : Option KeyId} {active : Bool} {time : α}
    (hdo : removeKeyDo this key ck active time h0 = .ok h1)
    (hag : Agree h1 h) (hl : Linked h)
    (hun : removeKeyUndo this key ck active time h = .ok h2) :
    active = true → ck = none →
      ∀ y ∈ (h.curve this).m_keys, h.time y ≠ h.time key := by
  obtain ⟨S1, S2, hc1⟩ := removeKeyDo_ok hdo
  obtain ⟨T1, T2, hc2⟩ := removeKeyUndo_ok hun
  obtain ⟨p1, p2, p3⟩ := S1
  obtain ⟨q1, q2, q3⟩ := T1
  have hne0 : active = true → ck ≠ some key := by
    intro ha e
    have := (S2 key e).2.1
    rw [p2, ha] at this; cases this
  have hne : ck ≠ some key := by
    intro e
    have := (T2 key e).1
    rw [q1] at this; cases this
  rw [removeKeyDoLink_eq2 this key ck active h0 hne0] at hc1
  have ht : time = h.time key := q3.symm
  rw [ht, removeKeyUndoLink_eq, Heap.setParent_setActive_eq] at hc2
  have hX0 : LinkedExcept (unlink this active key ck h0) key :=
    hl0.unlink_except p1 p2 (fun _ => by rw [Heap.time, p3]; exact S2)
  have hA1 : Agree (Key.Dispose (unlink this active key ck h0) key) h :=
    (Agree.of_same_core hc1.symm).trans hag
  have hpar : ∀ y ∈ ((Key.Dispose (unlink this active key ck h0) key).curve this).m_keys,
      ((Key.Dispose (unlink this active key ck h0) key).key y).m_parent ≠ none := by
    intro y hy
    simp only [Key.Dispose_eq, Heap.setKey_curve] at hy
    have hyk : y ≠ key := fun e => hX0.not_mem_keys this (e ▸ hy)
    simp only [Key.Dispose_eq, Heap.setKey_key, hyk, if_false]
    rw [((hX0.mem_keys this y hyk).1 hy).1]
    simp
  have hfreeU : active = true → ck = none →
      ∀ y ∈ (h.curve this).m_keys, h.time y ≠ h.time key := by
    intro ha hck y hy
    subst ha hck
    have hy1 : y ∈ ((unlink this true key none h0).curve this).m_keys := by
      have := hA1.keys this
      simp only [Key.Dispose_eq, Heap.setKey_curve] at this
      rw [this]; exact hy
    have hyk : y ≠ key := fun e => hX0.not_mem_keys this (e ▸ hy1)
    have h1 := Linked.slot_free hl0 p1 p2 y hy1
    have h2 := hA1.time y (hpar y (by simpa [Key.Dispose_eq] using hy1))
    simp only [Key.Dispose_eq, Heap.setKey_key, hyk, if_false, unlink_key_time] at h2
    rw [Heap.time, Heap.time, ← h2, q3, ← p3]
    exact h1
  exact hfreeU

/-- The Undo closure of `removeKey`, run in a heap that agrees with the one its
Do closure left. -/
theorem removeKeyUndo_linked {h0 h1 h h2 : Heap α} (hl0 : Linked h0) {this : CurveId}
    {key : KeyId} {ck : Option KeyId} {active : Bool} {time : α}
    (hdo : removeKeyDo this key ck active time h0 = .ok h1)
    (hag : Agree h1 h) (hl : Linked h)
    (hun : removeKeyUndo this key ck active time h = .ok h2) :
    Linked h2 ∧ Agree h0 h2 := by
  obtain ⟨S1, S2, hc1⟩ := removeKeyDo_ok hdo
  obtain ⟨T1, T2, hc2⟩ := removeKeyUndo_ok hun
  obtain ⟨p1, p2, p3⟩ := S1
  obtain ⟨q1, q2, q3⟩ := T1
  have hne0 : active = true → ck ≠ some key := by
    intro ha e
    have := (S2 key e).2.1
    rw [p2, ha] at this; cases this
  have hne : ck ≠ some key := by
    intro e
    have := (T2 key e).1
    rw [q1] at this; cases this
  rw [removeKeyDoLink_eq2 this key ck active h0 hne0] at hc1
  have ht : time = h.time key := q3.symm
  rw [ht, removeKeyUndoLink_eq, Heap.setParent_setActive_eq] at hc2
  have hX0 : LinkedExcept (unlink this active key ck h0) key :=
    hl0.unlink_except p1 p2 (fun _ => by rw [Heap.time, p3]; exact S2)
  have hA1 : Agree (Key.Dispose (unlink this active key ck h0) key) h :=
    (Agree.of_same_core hc1.symm).trans hag
  have hpar : ∀ y ∈ ((Key.Dispose (unlink this active key ck h0) key).curve this).m_keys,
      ((Key.Dispose (unlink this active key ck h0) key).key y).m_parent ≠ none := by
    intro y hy
    simp only [Key.Dispose_eq, Heap.setKey_curve] at hy
    have hyk : y ≠ key := fun e => hX0.not_mem_keys this (e ▸ hy)
    simp only [Key.Dispose_eq, Heap.setKey_key, hyk, if_false]
    rw [((hX0.mem_keys this y hyk).1 hy).1]
    simp
  have hfreeU := removeKeyUndo_free hl0 hdo hag hl hun
  have hL := (hl.except q1).link_linked this active ck
    { (Animation.link this active key ck h).key key with
        m_parent := some this, m_active := active }
    (by simp [Heap.time]) rfl rfl (fun _ => by rw [Heap.time, q3]; exact T2) (fun _ => hne)
    hfreeU
  refine ⟨Linked.of_core_eq hc2.symm hL, ?_⟩
  have hA2 := hA1.link this active key ck hpar (by
    simp [Heap.time, Key.Dispose_eq, unlink_key_self _ _ _ _ _ hne, p3, q3])
  rw [Key.Dispose_eq, link_setKey _ _ _ _ _ _ hne (by simp [Heap.time])] at hA2
  have hA3 := hA2.setKey_both key (h0.key key)
    { (Animation.link this active key ck h).key key with
        m_parent := some this, m_active := active }
    p1 p2 (fun _ => by simp [p3, q3])
  rw [Heap.setKey_setKey,
    link_unlink hl0 p1 p2 (fun _ => by rw [Heap.time, p3]; exact S2)] at hA3
  have e : (h0.setInactiveKeys this (linkInactiveKeys h0.time active key ck
      (unlinkInactiveKeys active key ck (h0.curve this).m_inactiveKeys))).setKey key
        (h0.key key) = h0.setInactiveKeys this (linkInactiveKeys h0.time active key ck
      (unlinkInactiveKeys active key ck (h0.curve this).m_inactiveKeys)) :=
    Heap.setKey_self (h0.setInactiveKeys this _) key
  rw [e] at hA3
  exact ((Agree.setInactiveKeys_right h0 this _).trans hA3).trans (Agree.of_same_core hc2.symm)

/-! ### Frames, value and interpolation changes -/

@[simp] theorem Heap.setTime_setActive_keyCount (h : Heap α) (k : KeyId) (t : α) (b : Bool) :
    ((h.setTime k t).setActive k b).keyCount = h.keyCount := rfl

@[simp] theorem Heap.setTime_setActive_parent (h : Heap α) (k : KeyId) (t : α) (b : Bool)
    (x : KeyId) : (((h.setTime k t).setActive k b).key x).m_parent = (h.key x).m_parent := by
  rw [Heap.setTime_setActive_key]; split_ifs with hx
  · rw [hx]
  · rfl

theorem setTimeDo_frame {c : CurveId} {time previousTime : α} {active : Bool} {key : KeyId}
    {ck ci : Option KeyId} {h h1 : Heap α}
    (hdo : setTimeDo c time previousTime active key ck ci h = .ok h1) :
    h1.keyCount = h.keyCount ∧ ∀ k, (h1.key k).m_parent = (h.key k).m_parent := by
  obtain ⟨_, _, _, hc⟩ := setTimeDo_ok hdo
  rw [setTimeDoLink_eq] at hc
  refine ⟨by rw [core_eq_keyCount hc]; simp, fun k => ?_⟩
  rw [core_eq_parent hc]; simp

theorem setTimeUndo_frame {c : CurveId} {time previousTime : α} {active : Bool} {key : KeyId}
    {ck ci : Option KeyId} {h h1 : Heap α}
    (hdo : setTimeUndo c time previousTime active key ck ci h = .ok h1) :
    h1.keyCount = h.keyCount ∧ ∀ k, (h1.key k).m_parent = (h.key k).m_parent := by
  obtain ⟨_, _, _, hc⟩ := setTimeUndo_ok hdo
  rw [setTimeUndoLink_eq] at hc
  refine ⟨by rw [core_eq_keyCount hc]; simp, fun k => ?_⟩
  rw [core_eq_parent hc]; simp

theorem addKeyDo_frame {this : CurveId} {key : KeyId} {ck : Option KeyId} {time : α}
    {h h1 : Heap α} (hdo : addKeyDo this key ck time h = .ok h1) :
    h1.keyCount = h.keyCount ∧ ∀ k, k ≠ key → (h1.key k).m_parent = (h.key k).m_parent := by
  obtain ⟨S1, _, hc⟩ := addKeyDo_ok hdo
  rw [← S1.2.2] at hc
  change h1.core = (addKeyDoLink this key ck (h.time key) h).core at hc
  rw [addKeyDoLink_eq, Heap.setParent_setActive_eq] at hc
  refine ⟨by rw [core_eq_keyCount hc]; simp, fun k hk => ?_⟩
  rw [core_eq_parent hc]; simp [hk]

theorem addKeyUndo_frame {this : CurveId} {key : KeyId} {ck : Option KeyId} {time : α}
    {h h1 : Heap α} (hdo : addKeyUndo this key ck time h = .ok h1) :
    h1.keyCount = h.keyCount ∧ (∀ k, k ≠ key → (h1.key k).m_parent = (h.key k).m_parent) ∧
      (h1.key key).m_parent = none := by
  obtain ⟨T1, T2, hc⟩ := addKeyUndo_ok hdo
  have hne : ck ≠ some key := by
    intro e
    have := (T2 key e).2.1
    rw [T1.2.1] at this; cases this
  rw [addKeyUndoLink_eq this key ck h hne, Key.Dispose_eq] at hc
  refine ⟨by rw [core_eq_keyCount hc]; simp, fun k hk => ?_, ?_⟩
  · rw [core_eq_parent hc]; simp [hk]
  · rw [core_eq_parent hc]; simp

theorem removeKeyDo_frame {this : CurveId} {key : KeyId} {ck : Option KeyId} {active : Bool}
    {time : α} {h h1 : Heap α} (hdo : removeKeyDo this key ck active time h = .ok h1) :
    h1.keyCount = h.keyCount ∧ (∀ k, k ≠ key → (h1.key k).m_parent = (h.key k).m_parent) ∧
      (h1.key key).m_parent = none ∧ h1.time = h.time ∧
      (∀ x, (x = this → active = false) → (h1.curve x).m_keys = (h.curve x).m_keys) := by
  obtain ⟨S1, S2, hc⟩ := removeKeyDo_ok hdo
  have hne : active = true → ck ≠ some key := by
    intro ha e
    have := (S2 key e).2.1
    rw [S1.2.1, ha] at this; cases this
  rw [removeKeyDoLink_eq2 this key ck active h hne, Key.Dispose_eq] at hc
  refine ⟨by rw [core_eq_keyCount hc]; simp, fun k hk => ?_, ?_, ?_, ?_⟩
  · rw [core_eq_parent hc]; simp [hk]
  · rw [core_eq_parent hc]; simp
  · rw [core_eq_time hc]
    funext k
    simp only [Heap.time, Heap.setKey_key]
    split_ifs with hk
    · subst hk; simp
    · simp
  · intro x hx
    rw [core_eq_curve hc]
    simp only [Heap.setKey_curve, unlink_keys]
    split_ifs with hxc
    · rw [hx hxc]; subst hxc; rfl
    · rfl

theorem removeKeyUndo_frame {this : CurveId} {key : KeyId} {ck : Option KeyId} {active : Bool}
    {time : α} {h h1 : Heap α} (hdo : removeKeyUndo this key ck active time h = .ok h1) :
    h1.keyCount = h.keyCount ∧ ∀ k, k ≠ key → (h1.key k).m_parent = (h.key k).m_parent := by
  obtain ⟨T1, _, hc⟩ := removeKeyUndo_ok hdo
  rw [← T1.2.2] at hc
  change h1.core = (removeKeyUndoLink this key ck active (h.time key) h).core at hc
  rw [removeKeyUndoLink_eq, Heap.setParent_setActive_eq] at hc
  refine ⟨by rw [core_eq_keyCount hc]; simp, fun k hk => ?_⟩
  rw [core_eq_parent hc]; simp [hk]

theorem SameLinks.linkedOf {a b : Heap α} (hs : SameLinks a b) (hl : Linked a) : Linked b := by
  refine ⟨?_, ?_, ?_, ?_, ?_, ?_⟩
  · intro c; rw [← hs.curve, ← hs.time]; exact hl.sorted c
  · intro c; rw [← hs.curve, ← hs.time]; exact hl.sortedInactive c
  · intro c; rw [← hs.curve]; exact hl.nodupInactive c
  · intro c k; rw [← hs.curve, ← hs.parent, ← hs.active]; exact hl.mem_keys c k
  · intro c k; rw [← hs.curve, ← hs.parent, ← hs.active]; exact hl.mem_inactiveKeys c k
  · intro k; rw [← hs.parent, ← hs.active]; exact hl.unparented k

theorem SameLinks.toAgree {a b : Heap α} (hs : SameLinks a b) : Agree a b :=
  ⟨le_of_eq hs.keyCount, fun c => by rw [hs.curve], hs.parent, hs.active,
    fun k _ => congrFun hs.time k⟩

theorem SameLinks.symm {a b : Heap α} (hs : SameLinks a b) : SameLinks b a :=
  ⟨hs.curve.symm, hs.keyCount.symm, fun k => (hs.parent k).symm, fun k => (hs.active k).symm,
    hs.time.symm⟩

theorem SameLinks.of_equal_core {a b : Heap α} (hc : a.core = b.core) : SameLinks a b :=
  ⟨core_eq_curve hc, core_eq_keyCount hc, core_eq_parent hc, core_eq_active hc,
    core_eq_time hc⟩

theorem SameLinks.wf {a b : Heap α} (hs : SameLinks a b) (hw : Heap.WF a) : Heap.WF b :=
  ⟨hs.linkedOf hw.linked, fun k hk => by
    rw [← hs.parent]; exact hw.fresh k (by rw [hs.keyCount]; exact hk)⟩

theorem update_sameLinks (h : Heap α) (k : KeyId) (d : Direction) :
    SameLinks h (Tangent.update h k d) :=
  SameLinks.of_equal_core (update_core h k d).symm

theorem updateIf_sameLinks (h : Heap α) (k : Option KeyId) (d : Direction) :
    SameLinks h (Tangent.updateIf h k d) :=
  SameLinks.of_equal_core (updateIf_core h k d).symm

theorem SameLinks.comp {a b c : Heap α} (h1 : SameLinks a b) (h2 : SameLinks b c) :
    SameLinks a c :=
  ⟨h1.curve.trans h2.curve, h1.keyCount.trans h2.keyCount,
    fun k => (h1.parent k).trans (h2.parent k), fun k => (h1.active k).trans (h2.active k),
    h1.time.trans h2.time⟩

theorem setValue_sameLinks (h : Heap α) (k : KeyId) (v : α) : SameLinks h (h.setValue k v) := by
  refine ⟨rfl, rfl, ?_, ?_, ?_⟩
  · intro x; simp only [Heap.setValue, Heap.setKey_key]; split_ifs with hx
    · rw [hx]
    · rfl
  · intro x; simp only [Heap.setValue, Heap.setKey_key]; split_ifs with hx
    · rw [hx]
    · rfl
  · exact (Heap.time_setKey_same h k { h.key k with m_value := v } rfl).symm

theorem setValueDo_sameLinks (h : Heap α) (k : KeyId) (v : α) :
    SameLinks h (setValueDo k v h) := by
  unfold setValueDo
  exact (((setValue_sameLinks h k v).comp
    ((update_sameLinks _ _ _).comp (update_sameLinks _ _ _))).comp
      (updateIf_sameLinks _ _ _)).comp (updateIf_sameLinks _ _ _)

theorem setInterpolationDo_sameLinks (h : Heap α) (k : KeyId) (i : Interpolation) :
    SameLinks h (setInterpolationDo k i h) := by
  refine ⟨rfl, rfl, ?_, ?_, ?_⟩
  · intro x; simp only [setInterpolationDo, Heap.setKey_key]; split_ifs with hx
    · rw [hx]
    · rfl
  · intro x; simp only [setInterpolationDo, Heap.setKey_key]; split_ifs with hx
    · rw [hx]
    · rfl
  · exact (Heap.time_setKey_same h k { h.key k with m_interpolator := i } rfl).symm

theorem setTangent_sameLinks (h : Heap α) (k : KeyId) (d : Direction) (t : Tangent α) :
    SameLinks h (h.setKey k ((h.key k).setTangent d t)) := by
  refine ⟨rfl, rfl, ?_, ?_, ?_⟩
  · intro x; simp only [Heap.setKey_key]; split_ifs with hx
    · rw [hx]; cases d <;> rfl
    · rfl
  · intro x; simp only [Heap.setKey_key]; split_ifs with hx
    · rw [hx]; cases d <;> rfl
    · rfl
  · exact (Heap.time_setKey_same h k _ (by cases d <;> rfl)).symm

theorem setSlopeDo_sameLinks (h : Heap α) (k : KeyId) (d : Direction) (slope scale : α) :
    SameLinks h (setSlopeDo k d slope scale h) :=
  setTangent_sameLinks h k d _

theorem setScaleDo_sameLinks (h : Heap α) (k : KeyId) (d : Direction) (scale : α) :
    SameLinks h (setScaleDo k d scale h) :=
  setTangent_sameLinks h k d _

/-! ### The script invariant under enact and undo -/

theorem Action.doFn_wf {a : Action α} {h h1 : Heap α} (hw : Heap.WF h)
    (hs : Action.Sound h a) (hdo : a.doFn h = .ok h1) : Heap.WF h1 := by
  cases a with
  | setTime c time previousTime active key ck ci =>
    simp only [Action.doFn] at hdo
    obtain ⟨hne, hfree⟩ := hs
    refine ⟨setTimeDo_linked hw.linked hne hfree hdo, fun k hk => ?_⟩
    obtain ⟨e1, e2⟩ := setTimeDo_frame hdo
    rw [e2]; exact hw.fresh k (by rw [← e1]; exact hk)
  | setValue key value previousValue =>
    simp only [Action.doFn, pure, Except.pure, Except.ok.injEq] at hdo
    subst hdo
    exact (setValueDo_sameLinks h key value).wf hw
  | setInterpolation key i p =>
    simp only [Action.doFn, pure, Except.pure, Except.ok.injEq] at hdo
    subst hdo
    exact (setInterpolationDo_sameLinks h key i).wf hw
  | addKey this key ck time =>
    simp only [Action.doFn] at hdo
    obtain ⟨hkey, hfree⟩ := hs
    refine ⟨addKeyDo_linked hw.linked hfree hdo, fun k hk => ?_⟩
    obtain ⟨e1, e2⟩ := addKeyDo_frame hdo
    rw [e1] at hk
    have hne : k ≠ key := fun e => absurd (e ▸ hk) (not_le.mpr hkey)
    rw [e2 k hne]; exact hw.fresh k hk
  | removeKey this key ck active time =>
    simp only [Action.doFn] at hdo
    refine ⟨removeKeyDo_linked hw.linked hdo, fun k hk => ?_⟩
    obtain ⟨e1, e2, e3, _⟩ := removeKeyDo_frame hdo
    by_cases hne : k = key
    · rw [hne]; exact e3
    · rw [e2 k hne]; exact hw.fresh k (by rw [← e1]; exact hk)
  | setSlope key d slope scale ps pc =>
    simp only [Action.doFn, pure, Except.pure, Except.ok.injEq] at hdo
    subst hdo
    exact (setSlopeDo_sameLinks h key d slope scale).wf hw
  | setScale key d scale pc =>
    simp only [Action.doFn, pure, Except.pure, Except.ok.injEq] at hdo
    subst hdo
    exact (setScaleDo_sameLinks h key d scale).wf hw

theorem Action.undoFn_wf {a : Action α} {h0 h1 h h2 : Heap α} (hw0 : Heap.WF h0)
    (hs : Action.Sound h0 a) (hdo : a.doFn h0 = .ok h1) (hag : Agree h1 h) (hw : Heap.WF h)
    (hun : a.undoFn h = .ok h2) : Heap.WF h2 ∧ Agree h0 h2 := by
  cases a with
  | setTime c time previousTime active key ck ci =>
    simp only [Action.doFn] at hdo
    simp only [Action.undoFn] at hun
    obtain ⟨hne, hfree⟩ := hs
    obtain ⟨r1, r2⟩ := setTimeUndo_linked hw0.linked hne hfree hdo hag hw.linked hun
    refine ⟨⟨r1, fun k hk => ?_⟩, r2⟩
    obtain ⟨e1, e2⟩ := setTimeUndo_frame hun
    rw [e2]; exact hw.fresh k (by rw [← e1]; exact hk)
  | setValue key value previousValue =>
    simp only [Action.doFn, pure, Except.pure, Except.ok.injEq] at hdo
    simp only [Action.undoFn, pure, Except.pure, Except.ok.injEq] at hun
    subst hdo hun
    refine ⟨(setValueDo_sameLinks h key previousValue).wf hw, ?_⟩
    exact ((setValueDo_sameLinks h0 key value).toAgree.trans hag).trans
      (setValueDo_sameLinks h key previousValue).toAgree
  | setInterpolation key i p =>
    simp only [Action.doFn, pure, Except.pure, Except.ok.injEq] at hdo
    simp only [Action.undoFn, pure, Except.pure, Except.ok.injEq] at hun
    subst hdo hun
    refine ⟨(setInterpolationDo_sameLinks h key p).wf hw, ?_⟩
    exact ((setInterpolationDo_sameLinks h0 key i).toAgree.trans hag).trans
      (setInterpolationDo_sameLinks h key p).toAgree
  | addKey this key ck time =>
    simp only [Action.doFn] at hdo
    simp only [Action.undoFn] at hun
    obtain ⟨hkey, hfree⟩ := hs
    obtain ⟨r1, r2⟩ := addKeyUndo_linked hw0.linked hfree hdo hag hw.linked hun
    refine ⟨⟨r1, fun k hk => ?_⟩, r2⟩
    obtain ⟨e1, e2, e3⟩ := addKeyUndo_frame hun
    by_cases hne : k = key
    · rw [hne]; exact e3
    · rw [e2 k hne]; exact hw.fresh k (by rw [← e1]; exact hk)
  | removeKey this key ck active time =>
    simp only [Action.doFn] at hdo
    simp only [Action.undoFn] at hun
    obtain ⟨r1, r2⟩ := removeKeyUndo_linked hw0.linked hdo hag hw.linked hun
    refine ⟨⟨r1, fun k hk => ?_⟩, r2⟩
    obtain ⟨e1, e2⟩ := removeKeyUndo_frame hun
    obtain ⟨S1, _, _⟩ := removeKeyDo_ok hdo
    obtain ⟨d1, _⟩ := removeKeyDo_frame hdo
    have hlt : key < h0.keyCount := by
      by_contra hcon
      have := hw0.fresh key (not_lt.mp hcon)
      rw [S1.1] at this; cases this
    have hlt2 : key < h2.keyCount := by
      rw [e1]
      exact lt_of_lt_of_le hlt (by rw [← d1]; exact hag.keyCount)
    have hne : k ≠ key := fun e => absurd (e ▸ hk) (not_le.mpr hlt2)
    rw [e2 k hne]; exact hw.fresh k (by rw [← e1]; exact hk)
  | setSlope key d slope scale ps pc =>
    simp only [Action.doFn, pure, Except.pure, Except.ok.injEq] at hdo
    simp only [Action.undoFn, pure, Except.pure, Except.ok.injEq] at hun
    subst hdo hun
    refine ⟨(setSlopeDo_sameLinks h key d ps pc).wf hw, ?_⟩
    exact ((setSlopeDo_sameLinks h0 key d slope scale).toAgree.trans hag).trans
      (setSlopeDo_sameLinks h key d ps pc).toAgree
  | setScale key d scale pc =>
    simp only [Action.doFn, pure, Except.pure, Except.ok.injEq] at hdo
    simp only [Action.undoFn, pure, Except.pure, Except.ok.injEq] at hun
    subst hdo hun
    refine ⟨(setScaleDo_sameLinks h key d pc).wf hw, ?_⟩
    exact ((setScaleDo_sameLinks h0 key d scale).toAgree.trans hag).trans
      (setScaleDo_sameLinks h key d pc).toAgree

theorem Valid.agree {q : List (Action α)} {a b : Heap α} (hv : Valid q a) (hab : Agree a b) :
    Valid q b := by
  cases q with
  | nil => trivial
  | cons x rest =>
    obtain ⟨h0, h1, w0, v0, s0, d0, a0⟩ := hv
    exact ⟨h0, h1, w0, v0, s0, d0, a0.trans hab⟩

theorem Action.enact_inv {a : Action α} {w w1 : Script α} (hi : w.Inv)
    (hs : Action.Sound w.heap a) (he : Action.enact a w = .ok w1) : w1.Inv := by
  unfold Action.enact at he
  split at he
  · rename_i h1 hdo
    simp only [Except.ok.injEq] at he
    subst he
    exact ⟨Action.doFn_wf hi.wf hs hdo,
      ⟨w.heap, h1, hi.wf, hi.valid, hs, hdo, Agree.refl h1⟩⟩
  · cases he

theorem Script.undo_inv {w w1 : Script α} (hi : w.Inv) (hu : Script.undo w = .ok w1) :
    w1.Inv := by
  unfold Script.undo at hu
  split at hu
  · cases hu
  · rename_i a rest hq
    split at hu
    · rename_i h2 hun
      simp only [Except.ok.injEq] at hu
      subst hu
      have hv := hi.valid
      rw [hq] at hv
      obtain ⟨h0, h1, w0, v0, s0, d0, a0⟩ := hv
      obtain ⟨r1, r2⟩ := Action.undoFn_wf w0 s0 d0 a0 hi.wf hun
      exact ⟨r1, v0.agree r2⟩
    · cases hu

/-! ### The methods of Key and CurvePlug keep the invariant -/

theorem find_of_mem (tk : KeyId → α) {l : List KeyId} (hs : (l.map tk).Pairwise (· < ·))
    {key : KeyId} (hk : key ∈ l) : find tk (tk key) l = some key := by
  induction l with
  | nil => simp at hk
  | cons a as ih =>
    simp only [List.map_cons, List.pairwise_cons, List.mem_map, forall_exists_index, and_imp,
      forall_apply_eq_imp_iff₂] at hs
    unfold find lower_bound
    by_cases h1 : tk a < tk key
    · simp only [h1, if_true]
      have hka : key ∈ as := by
        rcases List.mem_cons.1 hk with h | h
        · rw [h] at h1; exact absurd h1 (lt_irrefl _)
        · exact h
      have := ih hs.2 hka
      unfold find at this
      exact this
    · simp only [h1, if_false]
      have hka : key = a := by
        rcases List.mem_cons.1 hk with h | h
        · exact h
        · exact absurd (hs.1 key h) h1
      subst hka
      simp

theorem getKey_none_free {h : Heap α} (hl : Linked h) {c : CurveId} {t : α}
    (hg : CurvePlug.getKey h c t = none) : ∀ y ∈ (h.curve c).m_keys, h.time y ≠ t :=
  find_none h.time t (sorted_le_of_lt (hl.sorted c)) hg

theorem Linked.getKey_of_active {h : Heap α} (hl : Linked h) {c : CurveId} {key : KeyId}
    (hp : (h.key key).m_parent = some c) (ha : (h.key key).m_active = true) :
    CurvePlug.getKey h c (h.key key).m_time = some key :=
  find_of_mem h.time (hl.sorted c) ((hl.mem_keys c key).2 ⟨hp, ha⟩)

/-- A change to the fields of an unparented key that leaves it unparented and
inactive. -/
theorem Script.Inv.setKey_unparented {w : Script α} (hi : w.Inv) {key : KeyId} (v : Key α)
    (hp : (w.heap.key key).m_parent = none) (hvp : v.m_parent = none)
    (hva : v.m_active = false) : Script.Inv { w with heap := w.heap.setKey key v } := by
  have ha := hi.wf.linked.unparented key hp
  refine ⟨⟨((hi.wf.linked.except hp).setKey v).toLinked (by simp [hvp]) (by simp [hva]), ?_⟩, ?_⟩
  · intro k hk
    simp only [Heap.setKey_key]
    split_ifs with hx
    · exact hvp
    · exact hi.wf.fresh k hk
  · refine hi.valid.agree ⟨le_refl _, fun _ => rfl, ?_, ?_, ?_⟩
    · intro k; simp only [Heap.setKey_key]; split_ifs with hx
      · rw [hx, hp, hvp]
      · rfl
    · intro k; simp only [Heap.setKey_key]; split_ifs with hx
      · rw [hx, ha, hva]
      · rfl
    · intro k hk; simp only [Heap.setKey_key]; split_ifs with hx
      · rw [hx] at hk; exact absurd hp hk
      · rfl

theorem Key.setTime_inv {w w1 : Script α} {key : KeyId} {time : α} {r : Option KeyId}
    (hi : w.Inv) (hs : Key.setTime w key time = .ok (w1, r)) : w1.Inv := by
  unfold Key.setTime at hs
  by_cases h1 : time = (w.heap.key key).m_time
  · rw [if_pos h1] at hs
    simp only [pure, Except.pure, Except.ok.injEq, Prod.mk.injEq] at hs
    rw [← hs.1]; exact hi
  · rw [if_neg h1] at hs
    cases hp : (w.heap.key key).m_parent with
    | none =>
      simp only [hp, pure, Except.pure, Except.ok.injEq, Prod.mk.injEq] at hs
      rw [← hs.1]
      exact hi.setKey_unparented _ hp hp (hi.wf.linked.unparented key hp)
    | some curve =>
      simp only [hp] at hs
      split at hs
      · rename_i w2 he
        simp only [Except.ok.injEq, Prod.mk.injEq] at hs
        rw [← hs.1]
        exact Action.enact_inv (a := .setTime curve time _ _ key _ _) hi
          ⟨h1, fun hck => getKey_none_free hi.wf.linked hck⟩ he
      · cases hs

theorem Key.setValue_inv {w w1 : Script α} {key : KeyId} {value : α}
    (hi : w.Inv) (hs : Key.setValue w key value = .ok w1) : w1.Inv := by
  unfold Key.setValue at hs
  split_ifs at hs with h1
  · simp only [pure, Except.pure, Except.ok.injEq] at hs
    rw [← hs]; exact hi
  · split at hs
    · exact Action.enact_inv (a := .setValue key value _) hi trivial hs
    · rename_i hp
      simp only [pure, Except.pure, Except.ok.injEq] at hs
      rw [← hs]
      exact hi.setKey_unparented _ hp hp (hi.wf.linked.unparented key hp)

theorem Key.setInterpolation_inv {w w1 : Script α} {key : KeyId} {i : Interpolation}
    (hi : w.Inv) (hs : Key.setInterpolation w key i = .ok w1) : w1.Inv := by
  unfold Key.setInterpolation at hs
  split_ifs at hs with h1
  · simp only [pure, Except.pure, Except.ok.injEq] at hs
    rw [← hs]; exact hi
  · split at hs
    · exact Action.enact_inv (a := .setInterpolation key i _) hi trivial hs
    · rename_i hp
      simp only [pure, Except.pure, Except.ok.injEq] at hs
      rw [← hs]
      exact hi.setKey_unparented _ hp hp (hi.wf.linked.unparented key hp)

theorem Tangent.setSlope_inv {ν : Numeric α} {w w1 : Script α} {key : KeyId} {d : Direction}
    {slope : α} {force : Bool} (hi : w.Inv)
    (hs : Tangent.setSlope ν w key d slope force = .ok w1) : w1.Inv := by
  unfold Tangent.setSlope at hs
  split_ifs at hs with h1 h2
  · simp only [pure, Except.pure, Except.ok.injEq] at hs
    rw [← hs]; exact hi
  · simp only [pure, Except.pure, Except.ok.injEq] at hs
    rw [← hs]; exact hi
  · split at hs
    · exact Action.enact_inv (a := .setSlope key d slope _ _ _) hi trivial hs
    · rename_i hp
      simp only [pure, Except.pure, Except.ok.injEq] at hs
      rw [← hs]
      exact hi.setKey_unparented _ hp (by cases d <;> exact hp)
        (by cases d <;> exact hi.wf.linked.unparented key hp)

theorem Tangent.setScale_inv {ν : Numeric α} {w w1 : Script α} {key : KeyId} {d : Direction}
    {scale : α} {force : Bool} (hi : w.Inv)
    (hs : Tangent.setScale ν w key d scale force = .ok w1) : w1.Inv := by
  unfold Tangent.setScale at hs
  split_ifs at hs with h1
  · simp only [pure, Except.pure, Except.ok.injEq] at hs
    rw [← hs]; exact hi
  dsimp only at hs
  split_ifs at hs with h2
  · simp only [pure, Except.pure, Except.ok.injEq] at hs
    rw [← hs]; exact hi
  · split at hs
    · exact Action.enact_inv (a := .setScale key d _ _) hi trivial hs
    · rename_i hp
      simp only [pure, Except.pure, Except.ok.injEq] at hs
      rw [← hs]
      exact hi.setKey_unparented _ hp (by cases d <;> exact hp)
        (by cases d <;> exact hi.wf.linked.unparented key hp)

theorem CurvePlug.removeKey_inv {w w1 : Script α} {this : CurveId} {key : KeyId}
    (hi : w.Inv) (hs : CurvePlug.removeKey w this key = .ok w1) : w1.Inv := by
  unfold CurvePlug.removeKey at hs
  by_cases h1 : (w.heap.key key).m_parent ≠ some this
  · rw [if_pos h1] at hs; cases hs
  · rw [if_neg h1] at hs
    exact Action.enact_inv (a := .removeKey this key _ _ _) hi trivial hs

theorem CurvePlug.removeInactiveKeys_inv {w w1 : Script α} {this : CurveId}
    (hi : w.Inv) (hs : CurvePlug.removeInactiveKeys w this = .ok w1) : w1.Inv := by
  unfold CurvePlug.removeInactiveKeys at hs
  generalize (w.heap.curve this).m_inactiveKeys = l at hs
  induction l generalizing w with
  | nil =>
    simp only [List.foldlM, pure, Except.pure, Except.ok.injEq] at hs
    rw [← hs]; exact hi
  | cons a as ih =>
    simp only [List.foldlM, bind, Except.bind] at hs
    split at hs
    · cases hs
    · rename_i w2 he
      exact ih (CurvePlug.removeKey_inv hi he) hs

theorem Key.new_inv (ν : Numeric α) {w : Script α} (hi : w.Inv) (time value : α)
    (interpolation : Interpolation) (inSlope inScale outSlope outScale : α) :
    Script.Inv { w with heap := (Key.new ν w.heap time value interpolation
      inSlope inScale outSlope outScale).1 } := by
  have hp := hi.wf.fresh w.heap.keyCount (le_refl _)
  have ha := hi.wf.linked.unparented _ hp
  have hL := ((hi.wf.linked.except hp).setKey
    { m_parent := none
      m_in := { m_dt := 0, m_dv := 0, m_slope := inSlope,
                m_scale := clamp inScale 0 (maxScale ν inSlope) }
      m_out := { m_dt := 0, m_dv := 0, m_slope := outSlope,
                 m_scale := clamp outScale 0 (maxScale ν outSlope) }
      m_time := time
      m_value := value
      m_interpolator := interpolation
      m_active := false }).toLinked (by simp) (by simp)
  refine ⟨⟨⟨hL.sorted, hL.sortedInactive, hL.nodupInactive, hL.mem_keys, hL.mem_inactiveKeys,
    hL.unparented⟩, ?_⟩, ?_⟩
  · intro k hk
    have hk1 : w.heap.keyCount + 1 ≤ k := hk
    have hne : k ≠ w.heap.keyCount := by omega
    simp only [Key.new, Function.update_apply, hne, if_false]
    exact hi.wf.fresh k (by omega)
  · refine hi.valid.agree ⟨Nat.le_succ _, fun _ => rfl, ?_, ?_, ?_⟩
    · intro k
      simp only [Key.new, Function.update_apply]
      split_ifs with hx
      · rw [hx, hp]
      · rfl
    · intro k
      simp only [Key.new, Function.update_apply]
      split_ifs with hx
      · rw [hx, ha]
      · rfl
    · intro k hk
      simp only [Key.new, Function.update_apply]
      split_ifs with hx
      · rw [hx] at hk; exact absurd hp hk
      · rfl

/-! ### addKey -/

theorem Action.enact_ok {a : Action α} {w w1 : Script α} (he : Action.enact a w = .ok w1) :
    a.doFn w.heap = .ok w1.heap ∧ w1.undoQueue = a :: w.undoQueue := by
  unfold Action.enact at he
  split at he
  · rename_i h1 hdo
    simp only [Except.ok.injEq] at he
    subst he
    exact ⟨hdo, rfl⟩
  · cases he

theorem CurvePlug.removeKey_ok {w w1 : Script α} {this : CurveId} {key : KeyId}
    (hs : CurvePlug.removeKey w this key = .ok w1) :
    (w.heap.key key).m_parent = some this ∧
    Action.enact (.removeKey this key
      (if (w.heap.key key).m_active then
        find w.heap.time (w.heap.key key).m_time (w.heap.curve this).m_inactiveKeys
       else none) (w.heap.key key).m_active (w.heap.key key).m_time) w = .ok w1 := by
  unfold CurvePlug.removeKey at hs
  by_cases h1 : (w.heap.key key).m_parent ≠ some this
  · rw [if_pos h1] at hs; cases hs
  · rw [if_neg h1] at hs
    exact ⟨not_not.mp h1, hs⟩

theorem CurvePlug.removeKey_frame {w w1 : Script α} {p : CurveId} {key : KeyId}
    (hs : CurvePlug.removeKey w p key = .ok w1) :
    w1.heap.keyCount = w.heap.keyCount ∧ w1.heap.time = w.heap.time ∧
    (∀ x, (x = p → (w.heap.key key).m_active = false) →
      (w1.heap.curve x).m_keys = (w.heap.curve x).m_keys) := by
  obtain ⟨_, he⟩ := CurvePlug.removeKey_ok hs
  obtain ⟨hdo, _⟩ := Action.enact_ok he
  simp only [Action.doFn] at hdo
  obtain ⟨e1, _, _, e4, e5⟩ := removeKeyDo_frame hdo
  exact ⟨e1, e4, e5⟩

/-- The steps of a successful `addKey`. -/
theorem CurvePlug.addKey_ok {w w1 : Script α} {this : CurveId} {key : KeyId} {flag : Bool}
    {r : Option KeyId} (hs : CurvePlug.addKey w this key flag = .ok (w1, r)) :
    (CurvePlug.getKey w.heap this (w.heap.key key).m_time = some key ∧ w1 = w ∧ r = none) ∨
    (CurvePlug.getKey w.heap this (w.heap.key key).m_time ≠ some key ∧
      r = CurvePlug.getKey w.heap this (w.heap.key key).m_time ∧
      ∃ w2 w3 : Script α,
        (((w.heap.key key).m_parent = none ∧ w2 = w) ∨
          ∃ p, (w.heap.key key).m_parent = some p ∧ CurvePlug.removeKey w p key = .ok w2) ∧
        Action.enact (.addKey this key (CurvePlug.getKey w.heap this (w.heap.key key).m_time)
          (w2.heap.key key).m_time) w2 = .ok w3 ∧
        (((r = none ∨ flag = false) ∧ w1 = w3) ∨
          ∃ ck, r = some ck ∧ flag = true ∧ CurvePlug.removeKey w3 this ck = .ok w1)) := by
  unfold CurvePlug.addKey at hs
  by_cases hc : CurvePlug.getKey w.heap this (w.heap.key key).m_time = some key
  · simp only [hc, if_true, pure, Except.pure, Except.ok.injEq, Prod.mk.injEq] at hs
    exact Or.inl ⟨hc, hs.1.symm, hs.2.symm⟩
  · refine Or.inr ⟨hc, ?_⟩
    simp only [hc, if_false] at hs
    have key_step : ∀ w2 : Script α,
        (((w.heap.key key).m_parent = none ∧ w2 = w) ∨
          ∃ p, (w.heap.key key).m_parent = some p ∧ CurvePlug.removeKey w p key = .ok w2) →
        (do
          let w2 ← Action.enact (.addKey this key
            (CurvePlug.getKey w.heap this (w.heap.key key).m_time) (w2.heap.key key).m_time) w2
          match CurvePlug.getKey w.heap this (w.heap.key key).m_time with
          | some ck =>
            if flag then do
              let w3 ← CurvePlug.removeKey w2 this ck
              pure (w3, CurvePlug.getKey w.heap this (w.heap.key key).m_time)
            else pure (w2, CurvePlug.getKey w.heap this (w.heap.key key).m_time)
          | none => pure (w2, CurvePlug.getKey w.heap this (w.heap.key key).m_time)) =
            Except.ok (w1, r) →
        r = CurvePlug.getKey w.heap this (w.heap.key key).m_time ∧
        ∃ w2 w3 : Script α,
          (((w.heap.key key).m_parent = none ∧ w2 = w) ∨
            ∃ p, (w.heap.key key).m_parent = some p ∧ CurvePlug.removeKey w p key = .ok w2) ∧
          Action.enact (.addKey this key (CurvePlug.getKey w.heap this (w.heap.key key).m_time)
            (w2.heap.key key).m_time) w2 = .ok w3 ∧
          (((r = none ∨ flag = false) ∧ w1 = w3) ∨
            ∃ ck, r = some ck ∧ flag = true ∧ CurvePlug.removeKey w3 this ck = .ok w1) := by
      intro w2 hw2 hrest
      cases he : Action.enact (.addKey this key
          (CurvePlug.getKey w.heap this (w.heap.key key).m_time) (w2.heap.key key).m_time) w2 with
      | error e => rw [he] at hrest; cases hrest
      | ok w3 =>
        rw [he] at hrest
        simp only [bind, Except.bind] at hrest
        cases hck : CurvePlug.getKey w.heap this (w.heap.key key).m_time with
        | none =>
          simp only [hck, pure, Except.pure, Except.ok.injEq, Prod.mk.injEq] at hrest
          exact ⟨hrest.2.symm, w2, w3, hw2, by rw [← hck]; exact he,
            Or.inl ⟨Or.inl hrest.2.symm, hrest.1.symm⟩⟩
        | some ck =>
          simp only [hck] at hrest
          cases flag with
          | false =>
            simp only [Bool.false_eq_true, if_false, pure, Except.pure, Except.ok.injEq,
              Prod.mk.injEq] at hrest
            exact ⟨hrest.2.symm, w2, w3, hw2, by rw [← hck]; exact he,
              Or.inl ⟨Or.inr rfl, hrest.1.symm⟩⟩
          | true =>
            simp only [if_true] at hrest
            cases hr : CurvePlug.removeKey w3 this ck with
            | error e => rw [hr] at hrest; cases hrest
            | ok w4 =>
              rw [hr] at hrest
              simp only [pure, Except.pure, Except.ok.injEq, Prod.mk.injEq] at hrest
              refine ⟨hrest.2.symm, w2, w3, hw2, by rw [← hck]; exact he, Or.inr ⟨ck, ?_⟩⟩
              exact ⟨hrest.2.symm, rfl, by rw [← hrest.1]; exact hr⟩
    cases hp : (w.heap.key key).m_parent with
    | none =>
      simp only [hp] at hs
      have hh := key_step w (Or.inl ⟨hp, rfl⟩) hs
      rw [hp] at hh; exact hh
    | some p =>
      simp only [hp] at hs
      cases hr : CurvePlug.removeKey w p key with
      | error e => rw [hr] at hs; cases hs
      | ok w2 =>
        rw [hr] at hs
        have hh := key_step w2 (Or.inr ⟨p, hp, hr⟩) hs
        rw [hp] at hh; exact hh

theorem CurvePlug.addKey_inv {w w1 : Script α} {this : CurveId} {key : KeyId} {flag : Bool}
    {r : Option KeyId} (hi : w.Inv) (hk : key < w.heap.keyCount)
    (hs : CurvePlug.addKey w this key flag = .ok (w1, r)) : w1.Inv := by
  rcases CurvePlug.addKey_ok hs with ⟨_, e, _⟩ | ⟨hc, hr, w2, w3, hw2, he, hfin⟩
  · rw [e]; exact hi
  · have h2 : w2.Inv ∧ w2.heap.keyCount = w.heap.keyCount ∧ w2.heap.time = w.heap.time ∧
        (w2.heap.curve this).m_keys = (w.heap.curve this).m_keys := by
      rcases hw2 with ⟨_, e⟩ | ⟨p, hp, hrm⟩
      · rw [e]; exact ⟨hi, rfl, rfl, rfl⟩
      · obtain ⟨e1, e2, e3⟩ := CurvePlug.removeKey_frame hrm
        refine ⟨CurvePlug.removeKey_inv hi hrm, e1, e2, e3 this ?_⟩
        intro hthis
        by_contra hact
        have hact2 : (w.heap.key key).m_active = true := by
          cases hb : (w.heap.key key).m_active
          · exact absurd hb hact
          · rfl
        exact hc (hi.wf.linked.getKey_of_active (by rw [hp, hthis]) hact2)
    obtain ⟨hi2, e1, e2, e3⟩ := h2
    have hi3 : w3.Inv := by
      refine Action.enact_inv (a := .addKey this key _ _) hi2 ⟨by rw [e1]; exact hk, ?_⟩ he
      intro hck y hy
      rw [e3] at hy
      have := getKey_none_free hi.wf.linked hck y hy
      rw [e2]
      have ht : (w2.heap.key key).m_time = (w.heap.key key).m_time := congrFun e2 key
      rw [ht]; exact this
    rcases hfin with ⟨_, e⟩ | ⟨ck, _, _, hrm⟩
    · rw [e]; exact hi3
    · exact CurvePlug.removeKey_inv hi3 hrm

/-! ### insertKey and reachable states -/

theorem Key.new_fst_keyCount (ν : Numeric α) (h : Heap α) (time value : α)
    (i : Interpolation) (a b c d : α) :
    (Key.new ν h time value i a b c d).1.keyCount = h.keyCount + 1 := rfl

theorem Key.new_snd (ν : Numeric α) (h : Heap α) (time value : α)
    (i : Interpolation) (a b c d : α) :
    (Key.new ν h time value i a b c d).2 = h.keyCount := rfl

theorem Key.new_parent (ν : Numeric α) (h : Heap α) (time value : α)
    (i : Interpolation) (a b c d : α) :
    ((Key.new ν h time value i a b c d).1.key h.keyCount).m_parent = none := by
  simp [Key.new]

/-- The steps of a successful `insertKeyInternal`. -/
theorem CurvePlug.insertKeyInternal_ok (ν : Numeric α) {w w1 : Script α} {this : CurveId}
    {time : α} {value : Option α} {r : Option KeyId}
    (hs : CurvePlug.insertKeyInternal ν w this time value = .ok (w1, r)) :
    (∃ key, (CurvePlug.insertKeySpan w.heap this time).1 = some key ∧ r = some key ∧
      ((value = none ∧ w1 = w) ∨ ∃ v, value = some v ∧ Key.setValue w key v = .ok w1)) ∨
    ((CurvePlug.insertKeySpan w.heap this time).1 = none ∧ r = none ∧ w1 = w ∧ value = none ∧
      ¬ ((CurvePlug.insertKeySpan w.heap this time).2.1.isSome ∧
        (CurvePlug.insertKeySpan w.heap this time).2.2.isSome)) ∨
    ((CurvePlug.insertKeySpan w.heap this time).1 = none ∧ r = some w.heap.keyCount ∧
      ∃ (h2 : Heap α) (r2 : Option KeyId),
        (h2 = (Key.new ν w.heap time (value.getD 0)
            (CurvePlug.insertKeyInterpolator w.heap this
              (CurvePlug.insertKeySpan w.heap this time).2.1)
            defaultSlope defaultScale defaultSlope defaultScale).1 ∨
         ∃ e, CurvePlug.evaluate ν (Key.new ν w.heap time (value.getD 0)
            (CurvePlug.insertKeyInterpolator w.heap this
              (CurvePlug.insertKeySpan w.heap this time).2.1)
            defaultSlope defaultScale defaultSlope defaultScale).1 this time = .ok e ∧
          (CurvePlug.insertKeySpan w.heap this time).2.1.isSome ∧
          (CurvePlug.insertKeySpan w.heap this time).2.2.isSome ∧
          (value = none ∨ value = some e) ∧
          h2 = (Key.new ν w.heap time (value.getD 0)
            (CurvePlug.insertKeyInterpolator w.heap this
              (CurvePlug.insertKeySpan w.heap this time).2.1)
            defaultSlope defaultScale defaultSlope defaultScale).1.setValue w.heap.keyCount e) ∧
        CurvePlug.addKey { w with heap := h2 } this w.heap.keyCount false = .ok (w1, r2)) := by
  unfold CurvePlug.insertKeyInternal at hs
  dsimp only at hs
  generalize CurvePlug.insertKeySpan w.heap this time = span at hs ⊢
  obtain ⟨k, lo, hi⟩ := span
  dsimp only at hs ⊢
  generalize CurvePlug.insertKeyInterpolator w.heap this lo = interp at hs ⊢
  cases k with
  | some key =>
    left
    refine ⟨key, rfl, ?_⟩
    cases value with
    | none =>
      simp only [pure, Except.pure, Except.ok.injEq, Prod.mk.injEq] at hs
      exact ⟨hs.2.symm, Or.inl ⟨rfl, hs.1.symm⟩⟩
    | some v =>
      simp only [bind, Except.bind] at hs
      cases hv : Key.setValue w key v with
      | error e => rw [hv] at hs; cases hs
      | ok w2 =>
        rw [hv] at hs
        simp only [pure, Except.pure, Except.ok.injEq, Prod.mk.injEq] at hs
        exact ⟨hs.2.symm, Or.inr ⟨v, rfl, by rw [← hs.1]; exact hv⟩⟩
  | none =>
    right
    dsimp only at hs
    by_cases hcond : (!(lo.isSome && hi.isSome) && value.isNone) = true
    · left
      rw [if_pos hcond] at hs
      simp only [pure, Except.pure, Except.ok.injEq, Prod.mk.injEq] at hs
      simp only [Bool.and_eq_true, Bool.not_eq_true', Bool.and_eq_false_iff,
        Option.isNone_iff_eq_none] at hcond
      refine ⟨rfl, hs.2.symm, hs.1.symm, hcond.2, ?_⟩
      rintro ⟨h1, h2⟩
      rcases hcond.1 with h | h
      · rw [h1] at h; cases h
      · rw [h2] at h; cases h
    · right
      rw [if_neg hcond] at hs
      simp only [Key.new_snd] at hs
      refine ⟨rfl, ?_⟩
      generalize hnew : (Key.new ν w.heap time (value.getD 0) interp
        defaultSlope defaultScale defaultSlope defaultScale).1 = hn at hs ⊢
      by_cases hspan : (lo.isSome && hi.isSome) = true
      · rw [if_pos hspan] at hs
        have hspan2 : lo.isSome = true ∧ hi.isSome = true := by
          simpa [Bool.and_eq_true] using hspan
        cases hev : CurvePlug.evaluate ν hn this time with
        | error e =>
          cases value with
          | none =>
            simp only [bind, Except.bind, pure, Except.pure, if_true, hev] at hs
            cases hs
          | some v =>
            simp only [bind, Except.bind, pure, Except.pure, hev] at hs
            cases hs
        | ok e =>
          cases value with
          | none =>
            simp only [bind, Except.bind, pure, Except.pure, if_true, hev] at hs
            cases hadd : CurvePlug.addKey (⟨hn.setValue w.heap.keyCount e, w.undoQueue⟩ : Script α)
                this w.heap.keyCount false with
            | error x => rw [hadd] at hs; cases hs
            | ok res =>
              rw [hadd] at hs
              simp only [Except.ok.injEq, Prod.mk.injEq] at hs
              obtain ⟨w3, r3⟩ := res
              refine ⟨hs.2.symm, _, r3, Or.inr ⟨e, rfl, hspan2.1, hspan2.2, Or.inl rfl, rfl⟩, ?_⟩
              rw [hadd, ← hs.1]
          | some v =>
            simp only [bind, Except.bind, pure, Except.pure, hev] at hs
            by_cases hev2 : e = v
            · simp only [hev2, decide_True, if_true] at hs
              cases hadd : CurvePlug.addKey
                  (⟨hn.setValue w.heap.keyCount v, w.undoQueue⟩ : Script α)
                  this w.heap.keyCount false with
              | error x => rw [hadd] at hs; cases hs
              | ok res =>
                rw [hadd] at hs
                simp only [Except.ok.injEq, Prod.mk.injEq] at hs
                obtain ⟨w3, r3⟩ := res
                refine ⟨hs.2.symm, _, r3,
                  Or.inr ⟨e, rfl, hspan2.1, hspan2.2, Or.inr (by rw [hev2]), by rw [hev2]⟩, ?_⟩
                rw [hadd, ← hs.1]
            · simp only [hev2, decide_False, Bool.false_eq_true, if_false] at hs
              cases hadd : CurvePlug.addKey (⟨hn, w.undoQueue⟩ : Script α)
                  this w.heap.keyCount false with
              | error x => rw [hadd] at hs; cases hs
              | ok res =>
                rw [hadd] at hs
                simp only [Except.ok.injEq, Prod.mk.injEq] at hs
                obtain ⟨w3, r3⟩ := res
                refine ⟨hs.2.symm, _, r3, Or.inl rfl, ?_⟩
                rw [hadd, ← hs.1]
      · rw [if_neg hspan] at hs
        simp only [bind, Except.bind, pure, Except.pure, Bool.false_eq_true, if_false] at hs
        cases hadd : CurvePlug.addKey (⟨hn, w.undoQueue⟩ : Script α)
            this w.heap.keyCount false with
        | error x => rw [hadd] at hs; cases hs
        | ok res =>
          rw [hadd] at hs
          simp only [Except.ok.injEq, Prod.mk.injEq] at hs
          obtain ⟨w3, r3⟩ := res
          refine ⟨hs.2.symm, _, r3, Or.inl rfl, ?_⟩
          rw [hadd, ← hs.1]

theorem CurvePlug.insertKeyInternal_inv (ν : Numeric α) {w w1 : Script α} {this : CurveId}
    {time : α} {value : Option α} {r : Option KeyId} (hi : w.Inv)
    (hs : CurvePlug.insertKeyInternal ν w this time value = .ok (w1, r)) : w1.Inv := by
  rcases CurvePlug.insertKeyInternal_ok ν hs with
    ⟨key, _, _, ⟨_, e⟩ | ⟨v, _, hv⟩⟩ | ⟨_, _, e, _⟩ | ⟨_, _, h2, r2, hh, hadd⟩
  · rw [e]; exact hi
  · exact Key.setValue_inv hi hv
  · rw [e]; exact hi
  · have hnew := Key.new_inv ν hi time (value.getD 0)
      (CurvePlug.insertKeyInterpolator w.heap this
        (CurvePlug.insertKeySpan w.heap this time).2.1)
      defaultSlope defaultScale defaultSlope defaultScale
    rcases hh with e | ⟨e, _, _, _, _, e2⟩
    · rw [e] at hadd
      exact CurvePlug.addKey_inv hnew (by simp [Key.new]) hadd
    · rw [e2] at hadd
      refine CurvePlug.addKey_inv ?_ (by simp [Key.new, Heap.setValue]) hadd
      exact hnew.setKey_unparented _ (Key.new_parent ..) (by simp [Key.new])
        (by simp [Key.new])

/-- Every reachable script state satisfies the invariant. -/
theorem Reachable.inv {ν : Numeric α} {w : Script α} (hr : Reachable ν w) : w.Inv := by
  induction hr with
  | init =>
    refine ⟨⟨⟨?_, ?_, ?_, ?_, ?_, ?_⟩, ?_⟩, trivial⟩
    · intro c; simp [Script.init, Heap.init]
    · intro c; simp [Script.init, Heap.init]
    · intro c; simp [Script.init, Heap.init]
    · intro c k; simp [Script.init, Heap.init]
    · intro c k; simp [Script.init, Heap.init]
    · intro k _; rfl
    · intro k _; rfl
  | newKey time value interpolation a b c d _ ih => exact Key.new_inv ν ih ..
  | setTime key time r _ _ hs ih => exact Key.setTime_inv ih hs
  | setValue key value _ _ hs ih => exact Key.setValue_inv ih hs
  | setInterpolation key i _ _ hs ih => exact Key.setInterpolation_inv ih hs
  | setSlope key d slope force _ _ hs ih => exact Tangent.setSlope_inv ih hs
  | setScale key d scale force _ _ hs ih => exact Tangent.setScale_inv ih hs
  | addKey this key flag r _ hk hs ih => exact CurvePlug.addKey_inv ih hk hs
  | removeKey this key _ _ hs ih => exact CurvePlug.removeKey_inv ih hs
  | insertKey this time value r _ hs ih => exact CurvePlug.insertKeyInternal_inv ν ih hs
  | removeInactiveKeys this _ hs ih => exact CurvePlug.removeInactiveKeys_inv ih hs
  | undo _ hs ih => exact Script.undo_inv ih hs

/-! ### Neighbours in iteration order -/

theorem nextIn_mem {x y : KeyId} {l : List KeyId} (h : nextIn x l = some y) : y ∈ l := by
  induction l with
  | nil => simp [nextIn] at h
  | cons a as ih =>
    unfold nextIn at h
    split_ifs at h with h1
    · cases as with
      | nil => simp at h
      | cons b bs =>
        simp only [List.head?_cons, Option.some.injEq] at h
        rw [← h]; simp
    · exact List.mem_cons_of_mem _ (ih h)

theorem nextIn_mem_self {x y : KeyId} {l : List KeyId} (h : nextIn x l = some y) : x ∈ l := by
  induction l with
  | nil => simp [nextIn] at h
  | cons a as ih =>
    unfold nextIn at h
    split_ifs at h with h1
    · rw [h1]; simp
    · exact List.mem_cons_of_mem _ (ih h)

theorem nextIn_of_not_mem {x : KeyId} {l : List KeyId} (h : x ∉ l) : nextIn x l = none := by
  cases hn : nextIn x l with
  | none => rfl
  | some y => exact absurd (nextIn_mem_self hn) h

theorem prevIn_of_nextIn {p k : KeyId} {l : List KeyId} (hnd : l.Nodup)
    (h : nextIn p l = some k) : prevIn k l = some p := by
  induction l with
  | nil => simp [nextIn] at h
  | cons a as ih =>
    rw [List.nodup_cons] at hnd
    cases as with
    | nil =>
      unfold nextIn at h
      split_ifs at h with h1
      · simp at h
      · simp [nextIn] at h
    | cons b bs =>
      unfold nextIn at h
      split_ifs at h with h1
      · simp only [List.head?_cons, Option.some.injEq] at h
        subst h1 h
        have hne : a ≠ b := fun e => hnd.1 (by rw [e]; simp)
        simp [prevIn, hne]
      · have hk : k ∈ b :: bs := nextIn_mem h
        have hak : a ≠ k := fun e => hnd.1 (e ▸ hk)
        have hbk : b ≠ k := by
          intro e
          subst e
          -- the successor of `p` in `b :: bs` is `b`, the head: impossible without repetition
          have hp : p ∈ b :: bs := nextIn_mem_self h
          have hnd2 := hnd.2
          rw [List.nodup_cons] at hnd2
          unfold nextIn at h
          split_ifs at h with h2
          · have hb : b ∈ bs := by
              cases bs with
              | nil => simp at h
              | cons c cs =>
                simp only [List.head?_cons, Option.some.injEq] at h
                rw [← h]; simp
            exact hnd2.1 hb
          · exact hnd2.1 (nextIn_mem h)
        simp only [prevIn, hak, hbk, if_false]
        exact ih hnd.2 h

theorem head?_erase_of_ne {k : KeyId} {l : List KeyId} (h : l.head? ≠ some k) :
    (l.erase k).head? = l.head? := by
  cases l with
  | nil => rfl
  | cons a as =>
    have hak : a ≠ k := fun e => h (by rw [e]; rfl)
    rw [List.erase_cons_tail (by simpa using hak)]
    rfl

theorem nextIn_erase {x k : KeyId} {l : List KeyId} (hnd : l.Nodup) (hx : x ≠ k)
    (hp : nextIn x l ≠ some k) : nextIn x (l.erase k) = nextIn x l := by
  induction l with
  | nil => rfl
  | cons a as ih =>
    rw [List.nodup_cons] at hnd
    by_cases hak : a = k
    · subst hak
      rw [List.erase_cons_head]
      simp [nextIn, Ne.symm hx]
    · rw [List.erase_cons_tail (by simpa using hak)]
      unfold nextIn at hp ⊢
      split_ifs at hp ⊢ with h1
      · exact head?_erase_of_ne hp
      · exact ih hnd.2 hp

theorem head?_replace_node (old new : KeyId) (l : List KeyId) :
    (replace_node old new l).head? = l.head?.map (fun y => if y = old then new else y) := by
  cases l with
  | nil => rfl
  | cons a as =>
    unfold replace_node
    split_ifs with h1
    · simp [h1]
    · simp [h1]

theorem nextIn_replace_node {x old new : KeyId} {l : List KeyId} (hnd : l.Nodup)
    (hxo : x ≠ old) (hxn : x ≠ new) :
    nextIn x (replace_node old new l) =
      (nextIn x l).map (fun y => if y = old then new else y) := by
  induction l with
  | nil => rfl
  | cons a as ih =>
    rw [List.nodup_cons] at hnd
    by_cases hao : a = old
    · subst hao
      simp only [replace_node, if_true, nextIn, Ne.symm hxn, Ne.symm hxo, if_false]
      cases hn : nextIn x as with
      | none => rfl
      | some y =>
        have : y ≠ a := fun e => hnd.1 (e ▸ nextIn_mem hn)
        simp [this]
    · simp only [replace_node, hao, if_false, nextIn]
      split_ifs with h1
      · exact head?_replace_node old new as
      · exact ih hnd.2

theorem head?_insert_unique (tk : KeyId → α) (k : KeyId) (l : List KeyId) :
    (insert_unique tk k l).head? = some k ∨ (insert_unique tk k l).head? = l.head? := by
  cases l with
  | nil => left; rfl
  | cons a as =>
    unfold insert_unique
    split_ifs with h1 h2
    · right; rfl
    · left; rfl
    · right; rfl

theorem nextIn_insert_unique (tk : KeyId → α) {x k : KeyId} (l : List KeyId) (hx : x ≠ k) :
    nextIn x (insert_unique tk k l) = some k ∨
      nextIn x (insert_unique tk k l) = nextIn x l := by
  induction l with
  | nil => right; simp [insert_unique, nextIn, Ne.symm hx]
  | cons a as ih =>
    unfold insert_unique
    split_ifs with h1 h2
    · unfold nextIn
      split_ifs with h3
      · exact head?_insert_unique tk k as
      · exact ih
    · right
      simp [nextIn, Ne.symm hx]
    · right; rfl

theorem nextIn_sorted_lt (tk : KeyId → α) {x y : KeyId} {l : List KeyId}
    (hs : (l.map tk).Pairwise (· < ·)) (h : nextIn x l = some y) : tk x < tk y := by
  induction l with
  | nil => simp [nextIn] at h
  | cons a as ih =>
    simp only [List.map_cons, List.pairwise_cons, List.mem_map, forall_exists_index, and_imp,
      forall_apply_eq_imp_iff₂] at hs
    unfold nextIn at h
    split_ifs at h with h1
    · subst h1
      cases as with
      | nil => simp at h
      | cons b bs =>
        simp only [List.head?_cons, Option.some.injEq] at h
        rw [← h]; exact hs.1 b (by simp)
    · exact ih hs.2 h

/-! ### Cached span widths -/

theorem Key.nextKey_core (h : Heap α) (k : KeyId) : Key.nextKey h.core k = Key.nextKey h k := rfl

theorem Key.nextKey_of_core_eq {a b : Heap α} (hc : a.core = b.core) (k : KeyId) :
    Key.nextKey a k = Key.nextKey b k := by
  rw [← Key.nextKey_core a, ← Key.nextKey_core b, hc]

theorem Key.prevKey_core (h : Heap α) (k : KeyId) : Key.prevKey h.core k = Key.prevKey h k := rfl

theorem Key.prevKey_of_core_eq {a b : Heap α} (hc : a.core = b.core) (k : KeyId) :
    Key.prevKey a k = Key.prevKey b k := by
  rw [← Key.prevKey_core a, ← Key.prevKey_core b, hc]

theorem spanOutDt_of_core_eq {a b : Heap α} (hc : a.core = b.core) (k : KeyId) :
    spanOutDt a k = spanOutDt b k := by
  unfold spanOutDt
  rw [core_eq_parent hc, Key.nextKey_of_core_eq hc]
  have ht := core_eq_time hc
  have h1 : ∀ x, (a.key x).m_time = (b.key x).m_time := fun x => congrFun ht x
  simp only [h1]

theorem expectedOutDt_of_core_eq {a b : Heap α} (hc : a.core = b.core) (c : CurveId)
    (k : KeyId) : expectedOutDt a c k = expectedOutDt b c k := by
  unfold expectedOutDt
  rw [core_eq_curve hc, core_eq_time hc]

theorem update_out_dt_self (h : Heap α) (k : KeyId) :
    ((Tangent.update h k .Out).key k).m_out.m_dt = spanOutDt h k := by
  unfold Tangent.update spanOutDt
  simp only [Heap.setKey_key, if_true]
  cases (h.key k).m_parent with
  | none => rfl
  | some c =>
    cases Key.nextKey h k <;> rfl

theorem update_out_dt_of_ne (h : Heap α) (k x : KeyId) (d : Direction)
    (hx : x ≠ k ∨ d ≠ .Out) :
    ((Tangent.update h k d).key x).m_out.m_dt = (h.key x).m_out.m_dt := by
  by_cases hxk : x = k
  · subst hxk
    cases d with
    | In => simp [Tangent.update]
    | Out => rcases hx with h1 | h1 <;> exact absurd rfl h1
  · cases d <;> simp [Tangent.update, hxk]

theorem OutOK.update {h : Heap α} {x : KeyId} (k : KeyId) (d : Direction)
    (hx : OutOK h x ∨ (x = k ∧ d = .Out)) : OutOK (Tangent.update h k d) x := by
  unfold OutOK
  rw [spanOutDt_of_core_eq (update_core h k d)]
  by_cases hc : x = k ∧ d = .Out
  · obtain ⟨h1, h2⟩ := hc
    subst h1 h2
    exact update_out_dt_self h x
  · have hne : x ≠ k ∨ d ≠ .Out := by
      by_cases h1 : x = k
      · exact Or.inr (fun h2 => hc ⟨h1, h2⟩)
      · exact Or.inl h1
    rw [update_out_dt_of_ne h k x d hne]
    rcases hx with h1 | h1
    · exact h1
    · exact absurd h1 hc

theorem Upd.core_eq {s : KeyId → Prop} {a b : Heap α} (hu : Upd s a b) : b.core = a.core := by
  induction hu with
  | refl h => rfl
  | update k d _ ih => rw [update_core]; exact ih
  | weaken _ _ ih => exact ih

theorem Upd.outOK {s : KeyId → Prop} {a b : Heap α} (hu : Upd s a b) :
    ∀ x, OutOK a x ∨ s x → OutOK b x := by
  induction hu with
  | refl h =>
    intro x hx
    rcases hx with h1 | h1
    · exact h1
    · exact absurd h1 id
  | update k d _ ih =>
    intro x hx
    apply OutOK.update
    rcases hx with h1 | h1 | h1
    · exact Or.inl (ih x (Or.inl h1))
    · exact Or.inl (ih x (Or.inr h1))
    · exact Or.inr h1
  | weaken _ hst ih =>
    intro x hx
    rcases hx with h1 | h1
    · exact ih x (Or.inl h1)
    · exact ih x (Or.inr (hst x h1))

theorem Upd.updateIf {s : KeyId → Prop} {a b : Heap α} (hu : Upd s a b) (k : Option KeyId)
    (d : Direction) : Upd (fun x => s x ∨ (k = some x ∧ d = .Out)) a (Tangent.updateIf b k d) := by
  cases k with
  | none => exact hu.weaken (fun x hx => by simpa using hx)
  | some y =>
    refine (hu.update y d).weaken (fun x hx => ?_)
    rcases hx with h1 | ⟨h1, h2⟩
    · exact Or.inl h1
    · exact Or.inr ⟨by cases h1; rfl, h2⟩

theorem Upd.ite {s t : KeyId → Prop} {a b b2 : Heap α} (p : Prop) [Decidable p]
    (h1 : p → Upd s a b) (h2 : ¬ p → Upd t a b2) :
    Upd (fun x => (p ∧ s x) ∨ (¬ p ∧ t x)) a (if p then b else b2) := by
  by_cases hp : p
  · rw [if_pos hp]
    exact (h1 hp).weaken (fun x hx => by
      rcases hx with ⟨_, h⟩ | ⟨h, _⟩
      · exact h
      · exact absurd hp h)
  · rw [if_neg hp]
    exact (h2 hp).weaken (fun x hx => by
      rcases hx with ⟨h, _⟩ | ⟨_, h⟩
      · exact absurd h hp
      · exact h)

/-- For an active key of a linked heap, what `Tangent::update` stores is the
expected span width. -/
theorem Linked.spanOutDt_eq {h : Heap α} (hl : Linked h) {c : CurveId} {k : KeyId}
    (hk : k ∈ (h.curve c).m_keys) : spanOutDt h k = expectedOutDt h c k := by
  obtain ⟨hp, ha⟩ := (hl.mem_keys c k).1 hk
  unfold spanOutDt expectedOutDt Key.nextKey
  simp only [hp, ha, if_true]
  rfl

theorem OutStable.andThen {a b c : Heap α} {s t : KeyId → Prop} (h1 : OutStable a b s)
    (h2 : OutStable b c t) : OutStable a c (fun x => s x ∨ t x) := by
  intro cv x hx hs
  obtain ⟨q1, q2, q3⟩ := h2 cv x hx (fun h => hs (Or.inr h))
  obtain ⟨r1, r2, r3⟩ := h1 cv x q1 (fun h => hs (Or.inl h))
  exact ⟨r1, q2.trans r2, q3.trans r3⟩

theorem OutStable.weaken {a b : Heap α} {s t : KeyId → Prop} (h1 : OutStable a b s)
    (hst : ∀ x, s x → t x) : OutStable a b t :=
  fun c x hx ht => h1 c x hx (fun h => ht (hst x h))

/-- The cached spans are right after the update phase of a closure when every
key whose span changed in the structural phase is updated. -/
theorem spanOut_of_stable {h x1 h1 : Heap α} {s t : KeyId → Prop} (hs : SpanOut h)
    (hst : OutStable h x1 s) (hl : Linked x1) (hu : Upd t x1 h1)
    (hcover : ∀ c x, x ∈ (x1.curve c).m_keys → s x → t x) : SpanOut h1 := by
  intro c x hx
  have hc := hu.core_eq
  have hx1 : x ∈ (x1.curve c).m_keys := by rw [← core_eq_curve hc]; exact hx
  have hl1 : Linked h1 := Linked.of_core_eq hc.symm hl
  rw [← hl1.spanOutDt_eq hx]
  apply hu.outOK
  by_cases hsx : s x
  · exact Or.inr (hcover c x hx1 hsx)
  · left
    obtain ⟨q1, q2, q3⟩ := hst c x hx1 hsx
    unfold OutOK
    rw [hl.spanOutDt_eq hx1, q2, q3]
    exact hs c x q1

/-! ### Span widths through unlink, field assignment and link -/

theorem mem_insert_unique_imp (tk : KeyId → α) {k x : KeyId} {l : List KeyId}
    (hx : x ∈ insert_unique tk k l) : x = k ∨ x ∈ l := by
  induction l with
  | nil => simpa [insert_unique] using hx
  | cons a as ih =>
    unfold insert_unique at hx
    split_ifs at hx with h1 h2
    · rcases List.mem_cons.1 hx with h | h
      · exact Or.inr (h ▸ List.mem_cons_self _ _)
      · rcases ih h with h | h
        · exact Or.inl h
        · exact Or.inr (List.mem_cons_of_mem _ h)
    · rcases List.mem_cons.1 hx with h | h
      · exact Or.inl h
      · exact Or.inr h
    · exact Or.inr hx

theorem expectedOutDt_eq_of {a b : Heap α} {c : CurveId} {x : KeyId}
    (hx : b.time x = a.time x)
    (hn : ∀ y, nextIn x (a.curve c).m_keys = some y →
      ∃ z, nextIn x (b.curve c).m_keys = some z ∧ b.time z = a.time y)
    (hnone : nextIn x (a.curve c).m_keys = none → nextIn x (b.curve c).m_keys = none) :
    expectedOutDt b c x = expectedOutDt a c x := by
  unfold expectedOutDt
  cases ha : nextIn x (a.curve c).m_keys with
  | none => rw [hnone ha]
  | some y =>
    obtain ⟨z, hz, ht⟩ := hn y ha
    rw [hz]
    simp only [ht, hx]

theorem expectedOutDt_eq_of_same {a b : Heap α} {c : CurveId} {x : KeyId}
    (hl : (b.curve c).m_keys = (a.curve c).m_keys)
    (ht : ∀ y ∈ (a.curve c).m_keys, b.time y = a.time y) (hx : x ∈ (a.curve c).m_keys) :
    expectedOutDt b c x = expectedOutDt a c x := by
  apply expectedOutDt_eq_of (ht x hx)
  · intro y hy
    exact ⟨y, by rw [hl]; exact hy, ht y (nextIn_mem hy)⟩
  · intro hn; rw [hl]; exact hn

/-- The unlink step changes the out span of the moved key, of the promoted key
and, when the slot is vacated, of the previous key only. -/
theorem Linked.unlink_outStable {h : Heap α} (hl : Linked h) {c : CurveId} {a : Bool}
    {key : KeyId} {u : Option KeyId} (hp : (h.key key).m_parent = some c)
    (ha : (h.key key).m_active = a)
    (hu : a = true → Key.StateIsIf h u (some c) false (h.time key)) :
    OutStable h (unlink c a key u h) (fun x => x = key ∨ (a = true ∧ (u = some x ∨
      (u = none ∧ prevIn key (h.curve c).m_keys = some x)))) := by
  intro cv x hx hns
  have hxk : x ≠ key := fun e => hns (Or.inl e)
  have hxu : a = true → u ≠ some x := fun ha e => hns (Or.inr ⟨ha, Or.inl e⟩)
  have hrec : (unlink c a key u h).key x = h.key x := by
    cases a with
    | false => rfl
    | true => exact unlink_key_of_ne c true key u h x (hxu rfl)
  simp only [unlink_keys] at hx
  by_cases hcv : cv = c
  · subst hcv
    simp only [if_true] at hx
    cases a with
    | false =>
      refine ⟨hx, ?_, by rw [hrec]⟩
      exact expectedOutDt_eq_of_same (by simp [unlinkKeys]) (fun y _ => by simp) hx
    | true =>
      cases u with
      | none =>
        simp only [unlinkKeys, if_true] at hx
        have hx1 : x ∈ (h.curve cv).m_keys := List.mem_of_mem_erase hx
        refine ⟨hx1, ?_, by rw [hrec]⟩
        have hnp : nextIn x (h.curve cv).m_keys ≠ some key := by
          intro e
          exact hns (Or.inr ⟨rfl, Or.inr ⟨rfl, prevIn_of_nextIn (hl.nodup cv) e⟩⟩)
        have hne := nextIn_erase (hl.nodup cv) hxk hnp
        apply expectedOutDt_eq_of (by simp)
        · intro y hy
          exact ⟨y, by simp only [unlink_keys, if_true, unlinkKeys]; rw [hne]; exact hy,
            by simp⟩
        · intro hn
          simp only [unlink_keys, if_true, unlinkKeys]; rw [hne]; exact hn
      | some ci =>
        simp only [unlinkKeys, if_true] at hx
        have hxci : x ≠ ci := fun e => hxu rfl (by rw [e])
        have hx1 : x ∈ (h.curve cv).m_keys := by
          rcases mem_replace_node_imp hx with e | e
          · exact absurd e hxci
          · exact e
        refine ⟨hx1, ?_, by rw [hrec]⟩
        have hnr := @nextIn_replace_node x key ci _ (hl.nodup cv) hxk hxci
        have hti := (hu rfl ci rfl).2.2
        apply expectedOutDt_eq_of (by simp)
        · intro y hy
          refine ⟨if y = key then ci else y, ?_, ?_⟩
          · simp only [unlink_keys, if_true, unlinkKeys]; rw [hnr, hy]; rfl
          · simp only [unlink_time]
            split_ifs with hyk
            · rw [hyk]; exact hti
            · rfl
        · intro hn
          simp only [unlink_keys, if_true, unlinkKeys]; rw [hnr, hn]; rfl
  · simp only [hcv, if_false] at hx
    refine ⟨hx, ?_, by rw [hrec]⟩
    exact expectedOutDt_eq_of_same (by simp [hcv]) (fun y _ => by simp) hx

/-- An assignment to the fields of a key that is in no container changes no
other out span. -/
theorem LinkedExcept.setKey_outStable {h : Heap α} {key : KeyId} (hl : LinkedExcept h key)
    (v : Key α) : OutStable h (h.setKey key v) (fun x => x = key) := by
  intro cv x hx hns
  simp only [Heap.setKey_curve] at hx
  refine ⟨hx, ?_, by simp [show x ≠ key from hns]⟩
  refine expectedOutDt_eq_of_same rfl (fun y hy => ?_) hx
  have : y ≠ key := fun e => hl.not_mem_keys cv (e ▸ hy)
  simp [Heap.time_setKey, this]

/-- An assignment to the fields of a key that is in no active container changes
no out span of an active key. -/
theorem setKey_outStable_of_not_mem (h : Heap α) (key : KeyId) (v : Key α)
    (hnm : ∀ c, key ∉ (h.curve c).m_keys) :
    OutStable h (h.setKey key v) (fun _ => False) := by
  intro cv x hx _
  simp only [Heap.setKey_curve] at hx
  have hxk : x ≠ key := fun e => hnm cv (e ▸ hx)
  refine ⟨hx, ?_, by simp [hxk]⟩
  refine expectedOutDt_eq_of_same rfl (fun y hy => ?_) hx
  have : y ≠ key := fun e => hnm cv (e ▸ hy)
  simp [Heap.time_setKey, this]

/-- An assignment that keeps the time and the cached out span of a key changes
no out span. -/
theorem setKey_outStable_of_time_out (h : Heap α) (key : KeyId) (v : Key α)
    (hv : v.m_time = h.time key) (ho : v.m_out.m_dt = (h.key key).m_out.m_dt) :
    OutStable h (h.setKey key v) (fun _ => False) := by
  intro cv x hx _
  simp only [Heap.setKey_curve] at hx
  refine ⟨hx, ?_, ?_⟩
  · exact expectedOutDt_eq_of_same rfl
      (fun y _ => by rw [Heap.time_setKey_same h key v hv]) hx
  · by_cases hxk : x = key
    · subst hxk; simpa using ho
    · simp [hxk]

/-- An assignment to the fields of a key other than its time changes no other
out span. -/
theorem setKey_outStable_of_time (h : Heap α) (key : KeyId) (v : Key α)
    (hv : v.m_time = h.time key) : OutStable h (h.setKey key v) (fun x => x = key) := by
  intro cv x hx hns
  simp only [Heap.setKey_curve] at hx
  refine ⟨hx, ?_, by simp [show x ≠ key from hns]⟩
  exact expectedOutDt_eq_of_same rfl (fun y _ => by rw [Heap.time_setKey_same h key v hv]) hx

/-- The link step changes the out span of the moved key, of the demoted key and,
when the key takes a free slot, of its new previous key only. -/
theorem LinkedExcept.link_outStable {h : Heap α} {key : KeyId} (hl : LinkedExcept h key)
    (c : CurveId) (b : Bool) (u : Option KeyId)
    (hu : b = true → Key.StateIsIf h u (some c) true (h.time key))
    (hnd : ((Animation.link c b key u h).curve c).m_keys.Nodup) :
    OutStable h (Animation.link c b key u h) (fun x => x = key ∨ (b = true ∧ (u = some x ∨
      (u = none ∧ prevIn key ((Animation.link c b key u h).curve c).m_keys = some x)))) := by
  intro cv x hx hns
  have hxk : x ≠ key := fun e => hns (Or.inl e)
  have hxu : b = true → u ≠ some x := fun hb e => hns (Or.inr ⟨hb, Or.inl e⟩)
  have hrec : (Animation.link c b key u h).key x = h.key x := by
    cases b with
    | false => rfl
    | true => exact link_key_of_ne c true key u h x (hxu rfl)
  by_cases hcv : cv = c
  · subst hcv
    cases b with
    | false =>
      simp only [link_keys, if_true, linkKeys, Bool.false_eq_true, if_false] at hx
      refine ⟨hx, ?_, by rw [hrec]⟩
      exact expectedOutDt_eq_of_same (by simp [linkKeys]) (fun y _ => by simp) hx
    | true =>
      cases u with
      | none =>
        simp only [link_keys, if_true, linkKeys] at hx hnd hns
        have hx1 : x ∈ (h.curve cv).m_keys := by
          rcases mem_insert_unique_imp h.time hx with e | e
          · exact absurd e hxk
          · exact e
        refine ⟨hx1, ?_, by rw [hrec]⟩
        have hni : nextIn x (insert_unique h.time key (h.curve cv).m_keys) =
            nextIn x (h.curve cv).m_keys := by
          rcases nextIn_insert_unique h.time (k := key) (h.curve cv).m_keys hxk with e | e
          · exact absurd (Or.inr ⟨trivial, Or.inr ⟨trivial, prevIn_of_nextIn hnd e⟩⟩) hns
          · exact e
        apply expectedOutDt_eq_of (by simp)
        · intro y hy
          exact ⟨y, by simp only [link_keys, if_true, linkKeys]; rw [hni]; exact hy, by simp⟩
        · intro hn
          simp only [link_keys, if_true, linkKeys]; rw [hni]; exact hn
      | some ck =>
        simp only [link_keys, if_true, linkKeys] at hx
        have hxck : x ≠ ck := fun e => hxu rfl (by rw [e])
        have hx1 : x ∈ (h.curve cv).m_keys := by
          rcases mem_replace_node_imp hx with e | e
          · exact absurd e hxk
          · exact e
        refine ⟨hx1, ?_, by rw [hrec]⟩
        have hnr := @nextIn_replace_node x ck key _ (hl.nodupKeys cv) hxck hxk
        have htc := (hu rfl ck rfl).2.2
        apply expectedOutDt_eq_of (by simp)
        · intro y hy
          refine ⟨if y = ck then key else y, ?_, ?_⟩
          · simp only [link_keys, if_true, linkKeys]; rw [hnr, hy]; rfl
          · simp only [link_time]
            split_ifs with hyk
            · rw [hyk]; exact htc.symm
            · rfl
        · intro hn
          simp only [link_keys, if_true, linkKeys]; rw [hnr, hn]; rfl
  · simp only [link_keys, hcv, if_false] at hx
    refine ⟨hx, ?_, by rw [hrec]⟩
    exact expectedOutDt_eq_of_same (by simp [hcv]) (fun y _ => by simp) hx

/-! ### Span widths through the Do closure of setTime -/

theorem prevIn_mem_self {k x : KeyId} {l : List KeyId} (h : prevIn k l = some x) : k ∈ l := by
  induction l with
  | nil => simp [prevIn] at h
  | cons a as ih =>
    cases as with
    | nil => simp [prevIn] at h
    | cons b bs =>
      unfold prevIn at h
      split_ifs at h with h1 h2
      · rw [h2]; simp
      · exact List.mem_cons_of_mem _ (ih h)

theorem Key.prevKey_eq {h : Heap α} {key : KeyId} {c : CurveId}
    (hp : (h.key key).m_parent = some c) (ha : (h.key key).m_active = true) :
    Key.prevKey h key = prevIn key (h.curve c).m_keys := by
  unfold Key.prevKey
  simp only [hp, ha, if_true]

theorem Linked.prevKey_of_prevIn {h : Heap α} (hl : Linked h) {c : CurveId} {key x : KeyId}
    (hx : prevIn key (h.curve c).m_keys = some x) : Key.prevKey h key = some x := by
  obtain ⟨hp, ha⟩ := (hl.mem_keys c key).1 (prevIn_mem_self hx)
  rw [Key.prevKey_eq hp ha, hx]

/-- The structural phase of a closure that moves a key changes the out span of
the moved key, of the key promoted into its old slot or else its old previous
key, and of the key demoted from its new slot or else its new previous key. -/
theorem retime_outStable {h : Heap α} (hl : Linked h) {c : CurveId} {t p : α} {a b : Bool}
    {key : KeyId} {ut ul : Option KeyId}
    (hkey : Key.StateIs h key (some c) a p)
    (hul : a = true → Key.StateIsIf h ul (some c) false p)
    (hut : b = true → Key.StateIsIf h ut (some c) true t)
    (hne : t ≠ p)
    (hfree : b = true → ut = none →
      ∀ y ∈ ((unlink c a key ul h).curve c).m_keys, h.time y ≠ t) :
    OutStable h (Animation.link c b key ut (((unlink c a key ul h).setTime key t).setActive key b))
      (fun x => x = key ∨
        (a = true ∧ (ul = some x ∨ (ul = none ∧ prevIn key (h.curve c).m_keys = some x))) ∨
        (b = true ∧ (ut = some x ∨ (ut = none ∧ prevIn key ((Animation.link c b key ut
          (((unlink c a key ul h).setTime key t).setActive key b)).curve c).m_keys = some x)))) := by
  obtain ⟨hX0, hX1, hut1, _, _, hL⟩ := retime_mid hl hkey hul hut hne hfree
  obtain ⟨hp, ha, ht⟩ := hkey
  have O1 := hl.unlink_outStable (u := ul) hp ha (fun e => by rw [Heap.time, ht]; exact hul e)
  have O2 : OutStable (unlink c a key ul h) (((unlink c a key ul h).setTime key t).setActive key b)
      (fun x => x = key) := by
    rw [Heap.setTime_setActive_eq]; exact hX0.setKey_outStable _
  have O3 := hX1.link_outStable c b ut hut1 (hL.nodup c)
  refine ((O1.andThen O2).andThen O3).weaken (fun x hx => ?_)
  rcases hx with ((h1 | h1) | h1) | (h1 | h1)
  · exact Or.inl h1
  · exact Or.inr (Or.inl h1)
  · exact Or.inl h1
  · exact Or.inl h1
  · exact Or.inr (Or.inr h1)

theorem Upd.guarded {s : KeyId → Prop} {a b : Heap α} (hu : Upd s a b) (p : Prop) [Decidable p]
    (k : Option KeyId) (d : Direction) :
    Upd (fun x => s x ∨ (p ∧ k = some x ∧ d = .Out)) a
      (if p then Tangent.updateIf b k d else b) := by
  by_cases hp : p
  · rw [if_pos hp]
    exact (hu.updateIf k d).weaken (fun x hx => by
      rcases hx with h1 | h1
      · exact Or.inl h1
      · exact Or.inr h1.2)
  · rw [if_neg hp]
    exact hu.weaken (fun x hx => by
      rcases hx with h1 | h1
      · exact h1
      · exact absurd h1.1 hp)

theorem setTimeDo_upd {curve : CurveId} {time previousTime : α} {active : Bool} {key : KeyId}
    {ck ci : Option KeyId} {h h1 : Heap α}
    (hdo : setTimeDo curve time previousTime active key ck ci h = .ok h1) :
    ∃ t, Upd t (setTimeDoLink curve time active key ck ci h) h1 ∧
      ∀ x, (x = key ∨ ci = some x ∨ (ci = none ∧ Key.prevKey h key = some x) ∨
        (ck = none ∧
          Key.prevKey (setTimeDoLink curve time active key ck ci h) key = some x)) → t x := by
  unfold setTimeDo at hdo
  rcases throwIfStateNotAsExpected_eq h key (some curve) active previousTime with
    ⟨e, he, _⟩ | ⟨he1, hs1⟩
  · rw [he] at hdo; cases hdo
  rcases throwIfStateNotAsExpectedIf_eq h ci (some curve) false previousTime with
    ⟨e, he, _⟩ | ⟨he2, hs2⟩
  · rw [he1, he] at hdo; cases hdo
  rcases throwIfStateNotAsExpectedIf_eq h ck (some curve) true time with
    ⟨e, he, _⟩ | ⟨he3, hs3⟩
  · rw [he1, he2, he] at hdo; cases hdo
  rw [he1, he2, he3] at hdo
  simp only [bind, Except.bind, pure, Except.pure] at hdo
  have U5 := ((Upd.refl (setTimeDoLink curve time active key ck ci h)).update key .Out).update
    key .In
  cases ci with
  | some i =>
    have U6 := (U5.update i .In).update i .Out
    cases ck with
    | some k =>
      simp only [Except.ok.injEq] at hdo
      subst hdo
      refine ⟨_, U6, fun x hx => ?_⟩
      rcases hx with h1 | h1 | h1 | h1
      · left; left; left; right; exact ⟨h1, rfl⟩
      · right; exact ⟨by cases h1; rfl, rfl⟩
      · exact absurd h1.1 (by simp)
      · exact absurd h1.1 (by simp)
    | none =>
      simp only [Except.ok.injEq, Option.isSome_some, or_true, if_true] at hdo
      subst hdo
      have U7 := U6.updateIf (Key.nextKey (Tangent.update (Tangent.update (Tangent.update
        (Tangent.update (setTimeDoLink curve time active key none (some i) h) key .Out) key .In)
          i .In) i .Out) key) .In
      have U8 := U7.updateIf (Key.prevKey (Tangent.updateIf (Tangent.update (Tangent.update
        (Tangent.update (Tangent.update (setTimeDoLink curve time active key none (some i) h)
          key .Out) key .In) i .In) i .Out) (Key.nextKey (Tangent.update (Tangent.update
            (Tangent.update (Tangent.update (setTimeDoLink curve time active key none (some i) h)
              key .Out) key .In) i .In) i .Out) key) .In) key) .Out
      refine ⟨_, U8, fun x hx => ?_⟩
      rcases hx with h1 | h1 | h1 | h1
      · left; left; left; left; left; right; exact ⟨h1, rfl⟩
      · left; left; right; exact ⟨by cases h1; rfl, rfl⟩
      · exact absurd h1.1 (by simp)
      · right
        rw [Key.prevKey_of_core_eq U7.core_eq]
        exact ⟨h1.2, rfl⟩
  | none =>
    have U6 := (U5.updateIf (Key.nextKey h key) .In).updateIf (Key.prevKey h key) .Out
    cases ck with
    | some k =>
      simp only [Except.ok.injEq] at hdo
      subst hdo
      refine ⟨_, U6, fun x hx => ?_⟩
      rcases hx with h1 | h1 | h1 | h1
      · left; left; left; right; exact ⟨h1, rfl⟩
      · cases h1
      · right; exact ⟨h1.2, rfl⟩
      · exact absurd h1.1 (by simp)
    | none =>
      simp only [Except.ok.injEq] at hdo
      subst hdo
      refine ⟨_, (U6.guarded _ _ _).guarded _ _ _, fun x hx => ?_⟩
      have e7 : ∀ (p : Prop) [Decidable p] (k : Option KeyId),
          Key.prevKey (if p then Tangent.updateIf (Tangent.updateIf (Tangent.updateIf
            (Tangent.update (Tangent.update (setTimeDoLink curve time active key none none h)
              key .Out) key .In) (Key.nextKey h key) .In) (Key.prevKey h key) .Out) k .In
            else (Tangent.updateIf (Tangent.updateIf
            (Tangent.update (Tangent.update (setTimeDoLink curve time active key none none h)
              key .Out) key .In) (Key.nextKey h key) .In) (Key.prevKey h key) .Out)) key =
          Key.prevKey (setTimeDoLink curve time active key none none h) key :=
        fun p _ k => Key.prevKey_of_core_eq (U6.guarded p k .In).core_eq key
      simp only [e7]
      rcases hx with h1 | h1 | h1 | h1
      · left; left; left; left; left; right; exact ⟨h1, trivial⟩
      · cases h1
      · left; left; right; exact ⟨h1.2, trivial⟩
      · by_cases hq : Key.prevKey (setTimeDoLink curve time active key none none h) key =
            Key.prevKey h key
        · left; left; right; exact ⟨by rw [← hq]; exact h1.2, trivial⟩
        · right; exact ⟨Or.inl hq, h1.2, trivial⟩

/-- The Do closure of `setTime` keeps the cached out spans right. -/
theorem setTimeDo_spanOut {h h1 : Heap α} (hs : SpanOut h) (hl : Linked h) {c : CurveId}
    {time previousTime : α} {active : Bool} {key : KeyId} {ck ci : Option KeyId}
    (hne : time ≠ previousTime)
    (hfree : ck = none → ∀ y ∈ (h.curve c).m_keys, h.time y ≠ time)
    (hdo : setTimeDo c time previousTime active key ck ci h = .ok h1) : SpanOut h1 := by
  obtain ⟨S1, S2, S3, hc1⟩ := setTimeDo_ok hdo
  obtain ⟨t, hu, hcov⟩ := setTimeDo_upd hdo
  rw [setTimeDoLink_eq] at hu hcov
  have hfree1 : true = true → ck = none →
      ∀ y ∈ ((unlink c active key ci h).curve c).m_keys, h.time y ≠ time := by
    intro _ hck y hy
    simp only [unlink_keys, if_true] at hy
    rcases mem_unlinkKeys hy with hy | hy
    · exact hfree hck y hy
    · have := (S2 y hy).2.2
      rw [Heap.time, this]; exact hne.symm
  have mid := retime_mid hl S1 (fun _ => S2) (fun _ => S3) hne hfree1
  have hL := mid.2.2.2.2.2
  have O := retime_outStable hl S1 (fun _ => S2) (fun _ => S3) hne hfree1
  refine spanOut_of_stable hs O hL hu (fun cv x hx hsx => hcov x ?_)
  rcases hsx with h1 | ⟨ha, h1 | ⟨h1, h2⟩⟩ | ⟨_, h1 | ⟨h1, h2⟩⟩
  · exact Or.inl h1
  · exact Or.inr (Or.inl h1)
  · right; right; left
    subst ha
    exact ⟨h1, by rw [Key.prevKey_eq S1.1 S1.2.1]; exact h2⟩
  · exfalso
    have hact := ((hL.mem_keys cv x).1 hx).2
    rw [link_active] at hact
    simp [h1] at hact
  · right; right; right
    exact ⟨h1, hL.prevKey_of_prevIn h2⟩

/-! ### Span widths through the closures of addKey and removeKey -/

theorem addKeyDo_upd {this : CurveId} {key : KeyId} {ck : Option KeyId} {time : α}
    {h h1 : Heap α} (hdo : addKeyDo this key ck time h = .ok h1) :
    ∃ t, Upd t (addKeyDoLink this key ck time h) h1 ∧
      ∀ x, (x = key ∨
        (ck = none ∧ Key.prevKey (addKeyDoLink this key ck time h) key = some x)) → t x := by
  unfold addKeyDo at hdo
  rcases throwIfStateNotAsExpected_eq h key none false time with ⟨e, he, _⟩ | ⟨he1, hs1⟩
  · rw [he] at hdo; cases hdo
  rcases throwIfStateNotAsExpectedIf_eq h ck (some this) true time with
    ⟨e, he, _⟩ | ⟨he2, hs2⟩
  · rw [he1, he] at hdo; cases hdo
  rw [he1, he2] at hdo
  simp only [bind, Except.bind, pure, Except.pure] at hdo
  have U3 := ((Upd.refl (addKeyDoLink this key ck time h)).update key .In).update key .Out
  cases ck with
  | some k =>
    simp only [Except.ok.injEq] at hdo
    subst hdo
    refine ⟨_, U3, fun x hx => ?_⟩
    rcases hx with h1 | h1
    · right; exact ⟨h1, rfl⟩
    · exact absurd h1.1 (by simp)
  | none =>
    simp only [Except.ok.injEq] at hdo
    subst hdo
    have U4 := U3.updateIf (Key.nextKey (Tangent.update (Tangent.update
      (addKeyDoLink this key none time h) key .In) key .Out) key) .In
    refine ⟨_, U4.updateIf _ .Out, fun x hx => ?_⟩
    rcases hx with h1 | h1
    · left; left; right; exact ⟨h1, rfl⟩
    · right
      rw [Key.prevKey_of_core_eq U4.core_eq]
      exact ⟨h1.2, rfl⟩

/-- The Do closure of `addKey` keeps the cached out spans right. -/
theorem addKeyDo_spanOut {h h1 : Heap α} (hs : SpanOut h) (hl : Linked h) {this : CurveId}
    {key : KeyId} {ck : Option KeyId} {time : α}
    (hfree : ck = none → ∀ y ∈ (h.curve this).m_keys, h.time y ≠ time)
    (hdo : addKeyDo this key ck time h = .ok h1) : SpanOut h1 := by
  obtain ⟨S1, S2, hc1⟩ := addKeyDo_ok hdo
  obtain ⟨t, hu, hcov⟩ := addKeyDo_upd hdo
  obtain ⟨p1, p2, p3⟩ := S1
  have ht : time = h.time key := p3.symm
  subst ht
  rw [addKeyDoLink_eq, Heap.setParent_setActive_eq] at hc1 hu hcov
  have hne : ck ≠ some key := by
    intro e
    have := (S2 key e).1
    rw [p1] at this; cases this
  have hL := (hl.except p1).link_linked this true ck
    { (Animation.link this true key ck h).key key with m_parent := some this, m_active := true }
    (by simp [Heap.time]) rfl rfl (fun _ => S2) (fun _ => hne) (fun _ => hfree)
  have O1 := (hl.except p1).link_outStable this true ck (fun _ => S2) (by
    have := hL.nodup this
    simpa only [Heap.setKey_curve] using this)
  have O2 := setKey_outStable_of_time (Animation.link this true key ck h) key
    { (Animation.link this true key ck h).key key with m_parent := some this, m_active := true }
    (by simp [Heap.time])
  refine spanOut_of_stable hs (O1.andThen O2) hL hu (fun cv x hx hsx => hcov x ?_)
  rcases hsx with (h1 | ⟨_, h1 | ⟨h1, h2⟩⟩) | h1
  · exact Or.inl h1
  · exfalso
    have hxk : x ≠ key := fun e => hne (by rw [h1, e])
    have hact := ((hL.mem_keys cv x).1 hx).2
    simp only [Heap.setKey_key, hxk, if_false] at hact
    rw [link_active] at hact
    simp [h1] at hact
  · right
    exact ⟨h1, hL.prevKey_of_prevIn (by simpa only [Heap.setKey_curve] using h2)⟩
  · exact Or.inl h1

theorem unlinkUpd {c : CurveId} {key : KeyId} {ck : Option KeyId} {h x0 h1 : Heap α}
    (hdo : (match ck with
      | some k => (pure (Tangent.update (Tangent.update (Tangent.update (Tangent.update x0
          key .In) key .Out) k .In) k .Out) : Except String (Heap α))
      | none => pure (Tangent.updateIf (Tangent.updateIf (Tangent.update (Tangent.update x0
          key .In) key .Out) (Key.nextKey h key) .In) (Key.prevKey h key) .Out)) = .ok h1) :
    ∃ t, Upd t x0 h1 ∧
      ∀ x, (x = key ∨ ck = some x ∨ (ck = none ∧ Key.prevKey h key = some x)) → t x := by
  have U3 := ((Upd.refl x0).update key .In).update key .Out
  cases ck with
  | some k =>
    simp only [pure, Except.pure, Except.ok.injEq] at hdo
    subst hdo
    refine ⟨_, (U3.update k .In).update k .Out, fun x hx => ?_⟩
    rcases hx with h1 | h1 | h1
    · left; left; right; exact ⟨h1, rfl⟩
    · right; exact ⟨by cases h1; rfl, rfl⟩
    · exact absurd h1.1 (by simp)
  | none =>
    simp only [pure, Except.pure, Except.ok.injEq] at hdo
    subst hdo
    refine ⟨_, (U3.updateIf _ .In).updateIf _ .Out, fun x hx => ?_⟩
    rcases hx with h1 | h1 | h1
    · left; left; right; exact ⟨h1, rfl⟩
    · cases h1
    · right; exact ⟨h1.2, rfl⟩

theorem addKeyUndo_upd {this : CurveId} {key : KeyId} {ck : Option KeyId} {time : α}
    {h h1 : Heap α} (hdo : addKeyUndo this key ck time h = .ok h1) :
    ∃ t, Upd t (addKeyUndoLink this key ck h) h1 ∧
      ∀ x, (x = key ∨ ck = some x ∨ (ck = none ∧ Key.prevKey h key = some x)) → t x := by
  unfold addKeyUndo at hdo
  rcases throwIfStateNotAsExpected_eq h key (some this) true time with ⟨e, he, _⟩ | ⟨he1, hs1⟩
  · rw [he] at hdo; cases hdo
  rcases throwIfStateNotAsExpectedIf_eq h ck (some this) false time with
    ⟨e, he, _⟩ | ⟨he2, hs2⟩
  · rw [he1, he] at hdo; cases hdo
  rw [he1, he2] at hdo
  exact unlinkUpd (c := this) hdo

theorem removeKeyDo_upd {this : CurveId} {key : KeyId} {ck : Option KeyId} {active : Bool}
    {time : α} {h h1 : Heap α} (hdo : removeKeyDo this key ck active time h = .ok h1) :
    ∃ t, Upd t (removeKeyDoLink this key ck active h) h1 ∧
      ∀ x, (x = key ∨ ck = some x ∨ (ck = none ∧ Key.prevKey h key = some x)) → t x := by
  unfold removeKeyDo at hdo
  rcases throwIfStateNotAsExpected_eq h key (some this) active time with
    ⟨e, he, _⟩ | ⟨he1, hs1⟩
  · rw [he] at hdo; cases hdo
  rcases throwIfStateNotAsExpectedIf_eq h ck (some this) false time with
    ⟨e, he, _⟩ | ⟨he2, hs2⟩
  · rw [he1, he] at hdo; cases hdo
  rw [he1, he2] at hdo
  exact unlinkUpd (c := this) hdo

/-- The Do closure of `removeKey` keeps the cached out spans right. -/
theorem removeKeyDo_spanOut {h h1 : Heap α} (hs : SpanOut h) (hl : Linked h) {this : CurveId}
    {key : KeyId} {ck : Option KeyId} {active : Bool} {time : α}
    (hdo : removeKeyDo this key ck active time h = .ok h1) : SpanOut h1 := by
  obtain ⟨S1, S2, hc1⟩ := removeKeyDo_ok hdo
  obtain ⟨t, hu, hcov⟩ := removeKeyDo_upd hdo
  obtain ⟨p1, p2, p3⟩ := S1
  have hne : active = true → ck ≠ some key := by
    intro ha e
    have := (S2 key e).2.1
    rw [p2, ha] at this; cases this
  rw [removeKeyDoLink_eq2 this key ck active h hne, Key.Dispose_eq] at hc1 hu
  have hY : LinkedExcept (unlink this active key ck h) key :=
    hl.unlink_except p1 p2 (fun _ => by rw [Heap.time, p3]; exact S2)
  have hL : Linked ((unlink this active key ck h).setKey key
      { (unlink this active key ck h).key key with m_parent := none, m_active := false }) :=
    (hY.setKey _).toLinked (by simp) (by simp)
  have O1 := hl.unlink_outStable (u := ck) p1 p2 (fun _ => by rw [Heap.time, p3]; exact S2)
  have O2 := hY.setKey_outStable
    { (unlink this active key ck h).key key with m_parent := none, m_active := false }
  refine spanOut_of_stable hs (O1.andThen O2) hL hu (fun cv x hx hsx => hcov x ?_)
  rcases hsx with (h1 | ⟨ha, h1 | ⟨h1, h2⟩⟩) | h1
  · exact Or.inl h1
  · exact Or.inr (Or.inl h1)
  · right; right
    subst ha
    exact ⟨h1, by rw [Key.prevKey_eq p1 p2]; exact h2⟩
  · exact Or.inl h1

/-- The Undo closure of `addKey` keeps the cached out spans right. -/
theorem addKeyUndo_spanOut {h h1 : Heap α} (hs : SpanOut h) (hl : Linked h) {this : CurveId}
    {key : KeyId} {ck : Option KeyId} {time : α}
    (hun : addKeyUndo this key ck time h = .ok h1) : SpanOut h1 := by
  obtain ⟨T1, T2, hc1⟩ := addKeyUndo_ok hun
  obtain ⟨t, hu, hcov⟩ := addKeyUndo_upd hun
  obtain ⟨p1, p2, p3⟩ := T1
  have hne : ck ≠ some key := by
    intro e
    have := (T2 key e).2.1
    rw [p2] at this; cases this
  rw [addKeyUndoLink_eq this key ck h hne, Key.Dispose_eq] at hc1 hu
  have hY : LinkedExcept (unlink this true key ck h) key :=
    hl.unlink_except p1 p2 (fun _ => by rw [Heap.time, p3]; exact T2)
  have hL : Linked ((unlink this true key ck h).setKey key
      { (unlink this true key ck h).key key with m_parent := none, m_active := false }) :=
    (hY.setKey _).toLinked (by simp) (by simp)
  have O1 := hl.unlink_outStable (u := ck) p1 p2 (fun _ => by rw [Heap.time, p3]; exact T2)
  have O2 := hY.setKey_outStable
    { (unlink this true key ck h).key key with m_parent := none, m_active := false }
  refine spanOut_of_stable hs (O1.andThen O2) hL hu (fun cv x hx hsx => hcov x ?_)
  rcases hsx with (h1 | ⟨ha, h1 | ⟨h1, h2⟩⟩) | h1
  · exact Or.inl h1
  · exact Or.inr (Or.inl h1)
  · right; right
    exact ⟨h1, by rw [Key.prevKey_eq p1 p2]; exact h2⟩
  · exact Or.inl h1

/-! ### Span widths through the Undo closures -/

theorem Upd.ifActive {a : Heap α} (active : Bool) (key : KeyId) :
    Upd (fun x => active = true ∧ x = key) a
      (if active then Tangent.update (Tangent.update a key .In) key .Out else a) := by
  cases active with
  | false => exact (Upd.refl a).weaken (fun x hx => by simp at hx)
  | true =>
    exact (((Upd.refl a).update key .In).update key .Out).weaken (fun x hx => by
      right; exact ⟨hx.2, rfl⟩)

theorem removeKeyUndo_upd {this : CurveId} {key : KeyId} {ck : Option KeyId} {active : Bool}
    {time : α} {h h1 : Heap α} (hdo : removeKeyUndo this key ck active time h = .ok h1) :
    ∃ t, Upd t (removeKeyUndoLink this key ck active time h) h1 ∧
      ∀ x, ((active = true ∧ x = key) ∨ (ck = none ∧
        Key.prevKey (removeKeyUndoLink this key ck active time h) key = some x)) → t x := by
  unfold removeKeyUndo at hdo
  rcases throwIfStateNotAsExpected_eq h key none false time with ⟨e, he, _⟩ | ⟨he1, hs1⟩
  · rw [he] at hdo; cases hdo
  rcases throwIfStateNotAsExpectedIf_eq h ck (some this) true time with
    ⟨e, he, _⟩ | ⟨he2, hs2⟩
  · rw [he1, he] at hdo; cases hdo
  rw [he1, he2] at hdo
  simp only [bind, Except.bind, pure, Except.pure] at hdo
  have U3 : Upd (fun x => active = true ∧ x = key)
      (removeKeyUndoLink this key ck active time h) _ := Upd.ifActive active key
  cases ck with
  | some k =>
    simp only [Except.ok.injEq] at hdo
    subst hdo
    refine ⟨_, U3, fun x hx => ?_⟩
    rcases hx with h1 | h1
    · exact h1
    · exact absurd h1.1 (by simp)
  | none =>
    simp only [Except.ok.injEq] at hdo
    subst hdo
    have U4 := U3.updateIf (Key.nextKey (if active = true then Tangent.update (Tangent.update
      (removeKeyUndoLink this key none active time h) key .In) key .Out
      else removeKeyUndoLink this key none active time h) key) .In
    refine ⟨_, U4.updateIf _ .Out, fun x hx => ?_⟩
    rcases hx with h1 | h1
    · left; left; exact h1
    · right
      rw [Key.prevKey_of_core_eq U4.core_eq]
      exact ⟨h1.2, rfl⟩

/-- The Undo closure of `removeKey`, run in a heap that agrees with the one its
Do closure left, keeps the cached out spans right. -/
theorem removeKeyUndo_spanOut {h0 h1 h h2 : Heap α} (hl0 : Linked h0) {this : CurveId}
    {key : KeyId} {ck : Option KeyId} {active : Bool} {time : α}
    (hdo : removeKeyDo this key ck active time h0 = .ok h1)
    (hag : Agree h1 h) (hl : Linked h) (hs : SpanOut h)
    (hun : removeKeyUndo this key ck active time h = .ok h2) : SpanOut h2 := by
  have hfreeU := removeKeyUndo_free hl0 hdo hag hl hun
  obtain ⟨T1, T2, hc2⟩ := removeKeyUndo_ok hun
  obtain ⟨t, hu, hcov⟩ := removeKeyUndo_upd hun
  obtain ⟨q1, q2, q3⟩ := T1
  have hne : ck ≠ some key := by
    intro e
    have := (T2 key e).1
    rw [q1] at this; cases this
  have ht : time = h.time key := q3.symm
  rw [ht, removeKeyUndoLink_eq, Heap.setParent_setActive_eq] at hu hcov
  have hL := (hl.except q1).link_linked this active ck
    { (Animation.link this active key ck h).key key with
        m_parent := some this, m_active := active }
    (by simp [Heap.time]) rfl rfl (fun _ => by rw [Heap.time, q3]; exact T2) (fun _ => hne)
    hfreeU
  have O1 := (hl.except q1).link_outStable this active ck
    (fun _ => by rw [Heap.time, q3]; exact T2) (by
      have := hL.nodup this
      simpa only [Heap.setKey_curve] using this)
  have O2 := setKey_outStable_of_time (Animation.link this active key ck h) key
    { (Animation.link this active key ck h).key key with
        m_parent := some this, m_active := active }
    (by simp [Heap.time])
  have hkey : ∀ cv, key ∈ (((Animation.link this active key ck h).setKey key
      { (Animation.link this active key ck h).key key with
        m_parent := some this, m_active := active }).curve cv).m_keys → active = true := by
    intro cv hx
    have hact := ((hL.mem_keys cv key).1 hx).2
    simpa using hact
  refine spanOut_of_stable hs (O1.andThen O2) hL hu (fun cv x hx hsx => hcov x ?_)
  rcases hsx with (h1 | ⟨_, h1 | ⟨h1, h2⟩⟩) | h1
  · subst h1; exact Or.inl ⟨hkey cv hx, rfl⟩
  · exfalso
    have hxk : x ≠ key := fun e => hne (by rw [h1, e])
    have hact := ((hL.mem_keys cv x).1 hx).2
    simp only [Heap.setKey_key, hxk, if_false] at hact
    rw [link_active] at hact
    simp_all
  · right
    exact ⟨h1, hL.prevKey_of_prevIn (by simpa only [Heap.setKey_curve] using h2)⟩
  · subst h1; exact Or.inl ⟨hkey cv hx, rfl⟩

theorem setTimeUndo_upd {curve : CurveId} {time previousTime : α} {active : Bool} {key : KeyId}
    {ck ci : Option KeyId} {h h1 : Heap α}
    (hdo : setTimeUndo curve time previousTime active key ck ci h = .ok h1) :
    ∃ t, Upd t (setTimeUndoLink curve previousTime active key ck ci h) h1 ∧
      ∀ x, ((active = true ∧ x = key) ∨ ck = some x ∨
        (ck = none ∧ Key.prevKey h key = some x) ∨ (ci = none ∧
          Key.prevKey (setTimeUndoLink curve previousTime active key ck ci h) key = some x)) →
        t x := by
  unfold setTimeUndo at hdo
  rcases throwIfStateNotAsExpected_eq h key (some curve) true time with
    ⟨e, he, _⟩ | ⟨he1, hs1⟩
  · rw [he] at hdo; cases hdo
  rcases throwIfStateNotAsExpectedIf_eq h ck (some curve) false time with
    ⟨e, he, _⟩ | ⟨he2, hs2⟩
  · rw [he1, he] at hdo; cases hdo
  rcases throwIfStateNotAsExpectedIf_eq h ci (some curve) true previousTime with
    ⟨e, he, _⟩ | ⟨he3, hs3⟩
  · rw [he1, he2, he] at hdo; cases hdo
  rw [he1, he2, he3] at hdo
  simp only [bind, Except.bind, pure, Except.pure] at hdo
  have U4 : Upd (fun x => active = true ∧ x = key)
      (setTimeUndoLink curve previousTime active key ck ci h) _ := Upd.ifActive active key
  cases ck with
  | some k =>
    have U5 := (U4.update k .In).update k .Out
    cases ci with
    | some i =>
      simp only [Except.ok.injEq] at hdo
      subst hdo
      refine ⟨_, U5, fun x hx => ?_⟩
      rcases hx with h1 | h1 | h1 | h1
      · left; left; exact h1
      · right; exact ⟨by cases h1; rfl, rfl⟩
      · exact absurd h1.1 (by simp)
      · exact absurd h1.1 (by simp)
    | none =>
      simp only [Except.ok.injEq, Option.isSome_some, or_true, if_true] at hdo
      subst hdo
      have U6 := U5.updateIf (Key.nextKey (Tangent.update (Tangent.update
        (if active = true then Tangent.update (Tangent.update
          (setTimeUndoLink curve previousTime active key (some k) none h) key .In) key .Out
        else setTimeUndoLink curve previousTime active key (some k) none h) k .In) k .Out)
        key) .In
      refine ⟨_, U6.updateIf _ .Out, fun x hx => ?_⟩
      rcases hx with h1 | h1 | h1 | h1
      · left; left; left; left; exact h1
      · left; left; right; exact ⟨by cases h1; rfl, rfl⟩
      · exact absurd h1.1 (by simp)
      · right
        rw [Key.prevKey_of_core_eq U6.core_eq]
        exact ⟨h1.2, rfl⟩
  | none =>
    have U5 := (U4.updateIf (Key.nextKey h key) .In).updateIf (Key.prevKey h key) .Out
    cases ci with
    | some i =>
      simp only [Except.ok.injEq] at hdo
      subst hdo
      refine ⟨_, U5, fun x hx => ?_⟩
      rcases hx with h1 | h1 | h1 | h1
      · left; left; exact h1
      · cases h1
      · right; exact ⟨h1.2, rfl⟩
      · exact absurd h1.1 (by simp)
    | none =>
      simp only [Except.ok.injEq] at hdo
      subst hdo
      refine ⟨_, (U5.guarded _ _ _).guarded _ _ _, fun x hx => ?_⟩
      have e7 : ∀ (p : Prop) [Decidable p] (k : Option KeyId),
          Key.prevKey (if p then Tangent.updateIf (Tangent.updateIf (Tangent.updateIf
            (if active = true then Tangent.update (Tangent.update
              (setTimeUndoLink curve previousTime active key none none h) key .In) key .Out
            else setTimeUndoLink curve previousTime active key none none h)
              (Key.nextKey h key) .In) (Key.prevKey h key) .Out) k .In
            else (Tangent.updateIf (Tangent.updateIf
            (if active = true then Tangent.update (Tangent.update
              (setTimeUndoLink curve previousTime active key none none h) key .In) key .Out
            else setTimeUndoLink curve previousTime active key none none h)
              (Key.nextKey h key) .In) (Key.prevKey h key) .Out)) key =
          Key.prevKey (setTimeUndoLink curve previousTime active key none none h) key :=
        fun p _ k => Key.prevKey_of_core_eq (U5.guarded p k .In).core_eq key
      simp only [e7]
      rcases hx with h1 | h1 | h1 | h1
      · left; left; left; left; exact h1
      · cases h1
      · left; left; right; exact ⟨h1.2, trivial⟩
      · by_cases hq : Key.prevKey (setTimeUndoLink curve previousTime active key none none h)
            key = Key.prevKey h key
        · left; left; right; exact ⟨by rw [← hq]; exact h1.2, trivial⟩
        · right; exact ⟨Or.inl hq, h1.2, trivial⟩

/-- The Undo closure of `setTime`, run in a heap that agrees with the one its Do
closure left, keeps the cached out spans right. -/
theorem setTimeUndo_spanOut {h0 h1 h h2 : Heap α} (hl0 : Linked h0) {c : CurveId}
    {time previousTime : α} {active : Bool} {key : KeyId} {ck ci : Option KeyId}
    (hne : time ≠ previousTime)
    (hfree : ck = none → ∀ y ∈ (h0.curve c).m_keys, h0.time y ≠ time)
    (hdo : setTimeDo c time previousTime active key ck ci h0 = .ok h1)
    (hag : Agree h1 h) (hl : Linked h) (hs : SpanOut h)
    (hun : setTimeUndo c time previousTime active key ck ci h = .ok h2) : SpanOut h2 := by
  obtain ⟨hcine, hA0, hfreeU⟩ := setTimeUndo_mid hl0 hne hfree hdo hag hl hun
  obtain ⟨T1, T2, T3, hc2⟩ := setTimeUndo_ok hun
  obtain ⟨t, hu, hcov⟩ := setTimeUndo_upd hun
  rw [setTimeUndoLink_eq] at hu hcov
  have mid := retime_mid hl T1 (fun _ => T2) (fun _ => T3) hne.symm hfreeU
  have hL := mid.2.2.2.2.2
  have O := retime_outStable hl T1 (fun _ => T2) (fun _ => T3) hne.symm hfreeU
  have hkey : ∀ cv, key ∈ ((Animation.link c active key ci
      (((unlink c true key ck h).setTime key previousTime).setActive key active)).curve
        cv).m_keys → active = true := by
    intro cv hx
    have hact := ((hL.mem_keys cv key).1 hx).2
    rw [link_active] at hact
    split_ifs at hact with hh
    simpa [Heap.setTime_setActive_key] using hact
  refine spanOut_of_stable hs O hL hu (fun cv x hx hsx => hcov x ?_)
  rcases hsx with h1 | ⟨_, h1 | ⟨h1, h2⟩⟩ | ⟨ha, h1 | ⟨h1, h2⟩⟩
  · subst h1; exact Or.inl ⟨hkey cv hx, rfl⟩
  · exact Or.inr (Or.inl h1)
  · right; right; left
    exact ⟨h1, by rw [Key.prevKey_eq T1.1 T1.2.1]; exact h2⟩
  · exfalso
    have hact := ((hL.mem_keys cv x).1 hx).2
    rw [link_active] at hact
    simp [h1, ha] at hact
  · right; right; right
    exact ⟨h1, hL.prevKey_of_prevIn h2⟩

/-- The closure of `setValue` keeps the cached out spans right. -/
theorem setValueDo_spanOut {h : Heap α} (hs : SpanOut h) (hl : Linked h) (key : KeyId)
    (value : α) : SpanOut (setValueDo key value h) := by
  have O := setKey_outStable_of_time_out h key { h.key key with m_value := value } rfl rfl
  have hL : Linked (h.setValue key value) := (setValue_sameLinks h key value).linkedOf hl
  have U := ((((Upd.refl (h.setValue key value)).update key .Out).update key .In).updateIf
    (Key.nextKey (Tangent.update (Tangent.update (h.setValue key value) key .Out) key .In) key)
      .In).updateIf (Key.prevKey (Tangent.updateIf (Tangent.update (Tangent.update
        (h.setValue key value) key .Out) key .In) (Key.nextKey (Tangent.update (Tangent.update
          (h.setValue key value) key .Out) key .In) key) .In) key) .Out
  exact spanOut_of_stable hs O hL U (fun cv x hx hsx => absurd hsx id)

/-- The closure of `setInterpolation` keeps the cached out spans right. -/
theorem setInterpolationDo_spanOut {h : Heap α} (hs : SpanOut h) (hl : Linked h) (key : KeyId)
    (i : Interpolation) : SpanOut (setInterpolationDo key i h) := by
  have O := setKey_outStable_of_time_out h key { h.key key with m_interpolator := i } rfl rfl
  have hL : Linked (setInterpolationDo key i h) := (setInterpolationDo_sameLinks h key i).linkedOf hl
  exact spanOut_of_stable hs O hL (Upd.refl _) (fun cv x hx hsx => absurd hsx id)

/-- A change of the slope and scale of a tangent keeps the cached out spans
right. -/
theorem setTangent_spanOut {h : Heap α} (hs : SpanOut h) (hl : Linked h) (key : KeyId)
    (d : Direction) (t : Tangent α) (ht : t.m_dt = ((h.key key).tangent d).m_dt) :
    SpanOut (h.setKey key ((h.key key).setTangent d t)) := by
  have O := setKey_outStable_of_time_out h key ((h.key key).setTangent d t)
    (by cases d <;> rfl) (by cases d <;> first | rfl | exact ht)
  have hL : Linked (h.setKey key ((h.key key).setTangent d t)) :=
    (setTangent_sameLinks h key d t).linkedOf hl
  exact spanOut_of_stable hs O hL (Upd.refl _) (fun cv x hx hsx => absurd hsx id)

theorem setSlopeDo_spanOut {h : Heap α} (hs : SpanOut h) (hl : Linked h) (key : KeyId)
    (d : Direction) (slope scale : α) : SpanOut (setSlopeDo key d slope scale h) :=
  setTangent_spanOut hs hl key d _ rfl

theorem setScaleDo_spanOut {h : Heap α} (hs : SpanOut h) (hl : Linked h) (key : KeyId)
    (d : Direction) (scale : α) : SpanOut (setScaleDo key d scale h) :=
  setTangent_spanOut hs hl key d _ rfl

/-! ### Span widths in reachable states -/

theorem SpanOut.congr {a b : Heap α} (hs : SpanOut a) (hc : b.curve = a.curve)
    (hk : ∀ c x, x ∈ (a.curve c).m_keys → b.key x = a.key x) : SpanOut b := by
  intro c x hx
  rw [hc] at hx
  have e : expectedOutDt b c x = expectedOutDt a c x :=
    expectedOutDt_eq_of_same (by rw [hc])
      (fun y hy => by rw [Heap.time, Heap.time, hk c y hy]) hx
  rw [e, hk c x hx]
  exact hs c x hx

theorem SpanOut.setKey_free {h : Heap α} (hs : SpanOut h) (hl : Linked h) {key : KeyId}
    (v : Key α) (hp : (h.key key).m_parent = none) : SpanOut (h.setKey key v) := by
  refine hs.congr rfl (fun c x hx => ?_)
  have hxk : x ≠ key := by
    intro e
    have := ((hl.mem_keys c x).1 hx).1
    rw [e, hp] at this; cases this
  simp [hxk]

theorem Action.doFn_spanOut {a : Action α} {h h1 : Heap α} (hw : Heap.WF h)
    (hs : Action.Sound h a) (hsp : SpanOut h) (hdo : a.doFn h = .ok h1) : SpanOut h1 := by
  cases a with
  | setTime c time previousTime active key ck ci =>
    simp only [Action.doFn] at hdo
    exact setTimeDo_spanOut hsp hw.linked hs.1 hs.2 hdo
  | setValue key value previousValue =>
    simp only [Action.doFn, pure, Except.pure, Except.ok.injEq] at hdo
    subst hdo
    exact setValueDo_spanOut hsp hw.linked key value
  | setInterpolation key i p =>
    simp only [Action.doFn, pure, Except.pure, Except.ok.injEq] at hdo
    subst hdo
    exact setInterpolationDo_spanOut hsp hw.linked key i
  | addKey this key ck time =>
    simp only [Action.doFn] at hdo
    exact addKeyDo_spanOut hsp hw.linked hs.2 hdo
  | removeKey this key ck active time =>
    simp only [Action.doFn] at hdo
    exact removeKeyDo_spanOut hsp hw.linked hdo
  | setSlope key d slope scale ps pc =>
    simp only [Action.doFn, pure, Except.pure, Except.ok.injEq] at hdo
    subst hdo
    exact setSlopeDo_spanOut hsp hw.linked key d slope scale
  | setScale key d scale pc =>
    simp only [Action.doFn, pure, Except.pure, Except.ok.injEq] at hdo
    subst hdo
    exact setScaleDo_spanOut hsp hw.linked key d scale

theorem Action.undoFn_spanOut {a : Action α} {h0 h1 h h2 : Heap α} (hw0 : Heap.WF h0)
    (hs : Action.Sound h0 a) (hdo : a.doFn h0 = .ok h1) (hag : Agree h1 h) (hw : Heap.WF h)
    (hsp : SpanOut h) (hun : a.undoFn h = .ok h2) : SpanOut h2 := by
  cases a with
  | setTime c time previousTime active key ck ci =>
    simp only [Action.doFn] at hdo
    simp only [Action.undoFn] at hun
    exact setTimeUndo_spanOut hw0.linked hs.1 hs.2 hdo hag hw.linked hsp hun
  | setValue key value previousValue =>
    simp only [Action.undoFn, pure, Except.pure, Except.ok.injEq] at hun
    subst hun
    exact setValueDo_spanOut hsp hw.linked key previousValue
  | setInterpolation key i p =>
    simp only [Action.undoFn, pure, Except.pure, Except.ok.injEq] at hun
    subst hun
    exact setInterpolationDo_spanOut hsp hw.linked key p
  | addKey this key ck time =>
    simp only [Action.undoFn] at hun
    exact addKeyUndo_spanOut hsp hw.linked hun
  | removeKey this key ck active time =>
    simp only [Action.doFn] at hdo
    simp only [Action.undoFn] at hun
    exact removeKeyUndo_spanOut hw0.linked hdo hag hw.linked hsp hun
  | setSlope key d slope scale ps pc =>
    simp only [Action.undoFn, pure, Except.pure, Except.ok.injEq] at hun
    subst hun
    exact setSlopeDo_spanOut hsp hw.linked key d ps pc
  | setScale key d scale pc =>
    simp only [Action.undoFn, pure, Except.pure, Except.ok.injEq] at hun
    subst hun
    exact setScaleDo_spanOut hsp hw.linked key d pc

theorem Action.enact_span {a : Action α} {w w1 : Script α} (hi : w.Inv)
    (hsp : SpanOut w.heap) (hs : Action.Sound w.heap a) (he : Action.enact a w = .ok w1) :
    SpanOut w1.heap :=
  Action.doFn_spanOut hi.wf hs hsp (Action.enact_ok he).1

theorem Script.undo_span {w w1 : Script α} (hi : w.Inv) (hsp : SpanOut w.heap)
    (hu : Script.undo w = .ok w1) : SpanOut w1.heap := by
  unfold Script.undo at hu
  split at hu
  · cases hu
  · rename_i a rest hq
    split at hu
    · rename_i h2 hun
      simp only [Except.ok.injEq] at hu
      subst hu
      have hv := hi.valid
      rw [hq] at hv
      obtain ⟨h0, h1, w0, v0, s0, d0, a0⟩ := hv
      exact Action.undoFn_spanOut w0 s0 d0 a0 hi.wf hsp hun
    · cases hu

theorem Key.setTime_span {w w1 : Script α} {key : KeyId} {time : α} {r : Option KeyId}
    (hi : w.Inv) (hsp : SpanOut w.heap) (hs : Key.setTime w key time = .ok (w1, r)) :
    SpanOut w1.heap := by
  unfold Key.setTime at hs
  by_cases h1 : time = (w.heap.key key).m_time
  · rw [if_pos h1] at hs
    simp only [pure, Except.pure, Except.ok.injEq, Prod.mk.injEq] at hs
    rw [← hs.1]; exact hsp
  · rw [if_neg h1] at hs
    cases hp : (w.heap.key key).m_parent with
    | none =>
      simp only [hp, pure, Except.pure, Except.ok.injEq, Prod.mk.injEq] at hs
      rw [← hs.1]
      exact hsp.setKey_free hi.wf.linked _ hp
    | some curve =>
      simp only [hp] at hs
      split at hs
      · rename_i w2 he
        simp only [Except.ok.injEq, Prod.mk.injEq] at hs
        rw [← hs.1]
        exact Action.enact_span (a := .setTime curve time _ _ key _ _) hi hsp
          ⟨h1, fun hck => getKey_none_free hi.wf.linked hck⟩ he
      · cases hs

theorem Key.setValue_span {w w1 : Script α} {key : KeyId} {value : α}
    (hi : w.Inv) (hsp : SpanOut w.heap) (hs : Key.setValue w key value = .ok w1) :
    SpanOut w1.heap := by
  unfold Key.setValue at hs
  split_ifs at hs with h1
  · simp only [pure, Except.pure, Except.ok.injEq] at hs
    rw [← hs]; exact hsp
  · split at hs
    · exact Action.enact_span (a := .setValue key value _) hi hsp trivial hs
    · rename_i hp
      simp only [pure, Except.pure, Except.ok.injEq] at hs
      rw [← hs]
      exact hsp.setKey_free hi.wf.linked _ hp

theorem Key.setInterpolation_span {w w1 : Script α} {key : KeyId} {i : Interpolation}
    (hi : w.Inv) (hsp : SpanOut w.heap) (hs : Key.setInterpolation w key i = .ok w1) :
    SpanOut w1.heap := by
  unfold Key.setInterpolation at hs
  split_ifs at hs with h1
  · simp only [pure, Except.pure, Except.ok.injEq] at hs
    rw [← hs]; exact hsp
  · split at hs
    · exact Action.enact_span (a := .setInterpolation key i _) hi hsp trivial hs
    · rename_i hp
      simp only [pure, Except.pure, Except.ok.injEq] at hs
      rw [← hs]
      exact hsp.setKey_free hi.wf.linked _ hp

theorem Tangent.setSlope_span {ν : Numeric α} {w w1 : Script α} {key : KeyId} {d : Direction}
    {slope : α} {force : Bool} (hi : w.Inv) (hsp : SpanOut w.heap)
    (hs : Tangent.setSlope ν w key d slope force = .ok w1) : SpanOut w1.heap := by
  unfold Tangent.setSlope at hs
  split_ifs at hs with h1 h2
  · simp only [pure, Except.pure, Except.ok.injEq] at hs
    rw [← hs]; exact hsp
  · simp only [pure, Except.pure, Except.ok.injEq] at hs
    rw [← hs]; exact hsp
  · split at hs
    · exact Action.enact_span (a := .setSlope key d slope _ _ _) hi hsp trivial hs
    · rename_i hp
      simp only [pure, Except.pure, Except.ok.injEq] at hs
      rw [← hs]
      exact hsp.setKey_free hi.wf.linked _ hp

theorem Tangent.setScale_span {ν : Numeric α} {w w1 : Script α} {key : KeyId} {d : Direction}
    {scale : α} {force : Bool} (hi : w.Inv) (hsp : SpanOut w.heap)
    (hs : Tangent.setScale ν w key d scale force = .ok w1) : SpanOut w1.heap := by
  unfold Tangent.setScale at hs
  split_ifs at hs with h1
  · simp only [pure, Except.pure, Except.ok.injEq] at hs
    rw [← hs]; exact hsp
  dsimp only at hs
  split_ifs at hs with h2
  · simp only [pure, Except.pure, Except.ok.injEq] at hs
    rw [← hs]; exact hsp
  · split at hs
    · exact Action.enact_span (a := .setScale key d _ _) hi hsp trivial hs
    · rename_i hp
      simp only [pure, Except.pure, Except.ok.injEq] at hs
      rw [← hs]
      exact hsp.setKey_free hi.wf.linked _ hp

theorem CurvePlug.removeKey_span {w w1 : Script α} {this : CurveId} {key : KeyId}
    (hi : w.Inv) (hsp : SpanOut w.heap) (hs : CurvePlug.removeKey w this key = .ok w1) :
    SpanOut w1.heap := by
  unfold CurvePlug.removeKey at hs
  by_cases h1 : (w.heap.key key).m_parent ≠ some this
  · rw [if_pos h1] at hs; cases hs
  · rw [if_neg h1] at hs
    exact Action.enact_span (a := .removeKey this key _ _ _) hi hsp trivial hs

theorem CurvePlug.removeInactiveKeys_span {w w1 : Script α} {this : CurveId}
    (hi : w.Inv) (hsp : SpanOut w.heap)
    (hs : CurvePlug.removeInactiveKeys w this = .ok w1) : SpanOut w1.heap := by
  unfold CurvePlug.removeInactiveKeys at hs
  generalize (w.heap.curve this).m_inactiveKeys = l at hs
  induction l generalizing w with
  | nil =>
    simp only [List.foldlM, pure, Except.pure, Except.ok.injEq] at hs
    rw [← hs]; exact hsp
  | cons a as ih =>
    simp only [List.foldlM, bind, Except.bind] at hs
    split at hs
    · cases hs
    · rename_i w2 he
      exact ih (CurvePlug.removeKey_inv hi he) (CurvePlug.removeKey_span hi hsp he) hs

theorem Key.new_span (ν : Numeric α) {w : Script α} (hi : w.Inv) (hsp : SpanOut w.heap)
    (time value : α) (interpolation : Interpolation) (inSlope inScale outSlope outScale : α) :
    SpanOut (Key.new ν w.heap time value interpolation inSlope inScale outSlope outScale).1 := by
  have hp := hi.wf.fresh w.heap.keyCount (le_refl _)
  refine hsp.congr rfl (fun c x hx => ?_)
  have hxk : x ≠ w.heap.keyCount := by
    intro e
    have := ((hi.wf.linked.mem_keys c x).1 hx).1
    rw [e, hp] at this; cases this
  simp [Key.new, Function.update_apply, hxk]

theorem CurvePlug.addKey_span {w w1 : Script α} {this : CurveId} {key : KeyId} {flag : Bool}
    {r : Option KeyId} (hi : w.Inv) (hsp : SpanOut w.heap) (hk : key < w.heap.keyCount)
    (hs : CurvePlug.addKey w this key flag = .ok (w1, r)) : SpanOut w1.heap := by
  rcases CurvePlug.addKey_ok hs with ⟨_, e, _⟩ | ⟨hc, hr, w2, w3, hw2, he, hfin⟩
  · rw [e]; exact hsp
  · have h2 : (w2.Inv ∧ SpanOut w2.heap) ∧ w2.heap.keyCount = w.heap.keyCount ∧
        w2.heap.time = w.heap.time ∧
        (w2.heap.curve this).m_keys = (w.heap.curve this).m_keys := by
      rcases hw2 with ⟨_, e⟩ | ⟨p, hp, hrm⟩
      · rw [e]; exact ⟨⟨hi, hsp⟩, rfl, rfl, rfl⟩
      · obtain ⟨e1, e2, e3⟩ := CurvePlug.removeKey_frame hrm
        refine ⟨⟨CurvePlug.removeKey_inv hi hrm, CurvePlug.removeKey_span hi hsp hrm⟩,
          e1, e2, e3 this ?_⟩
        intro hthis
        by_contra hact
        have hact2 : (w.heap.key key).m_active = true := by
          cases hb : (w.heap.key key).m_active
          · exact absurd hb hact
          · rfl
        exact hc (hi.wf.linked.getKey_of_active (by rw [hp, hthis]) hact2)
    obtain ⟨⟨hi2, hsp2⟩, e1, e2, e3⟩ := h2
    have hsound : Action.Sound w2.heap (.addKey this key
        (CurvePlug.getKey w.heap this (w.heap.key key).m_time) (w2.heap.key key).m_time) := by
      refine ⟨by rw [e1]; exact hk, ?_⟩
      intro hck y hy
      rw [e3] at hy
      have := getKey_none_free hi.wf.linked hck y hy
      rw [e2]
      have ht : (w2.heap.key key).m_time = (w.heap.key key).m_time := congrFun e2 key
      rw [ht]; exact this
    have hi3 : w3.Inv := Action.enact_inv hi2 hsound he
    have hsp3 : SpanOut w3.heap := Action.enact_span hi2 hsp2 hsound he
    rcases hfin with ⟨_, e⟩ | ⟨ck, _, _, hrm⟩
    · rw [e]; exact hsp3
    · exact CurvePlug.removeKey_span hi3 hsp3 hrm

theorem CurvePlug.insertKeyInternal_span (ν : Numeric α) {w w1 : Script α} {this : CurveId}
    {time : α} {value : Option α} {r : Option KeyId} (hi : w.Inv) (hsp : SpanOut w.heap)
    (hs : CurvePlug.insertKeyInternal ν w this time value = .ok (w1, r)) :
    SpanOut w1.heap := by
  rcases CurvePlug.insertKeyInternal_ok ν hs with
    ⟨key, _, _, ⟨_, e⟩ | ⟨v, _, hv⟩⟩ | ⟨_, _, e, _⟩ | ⟨_, _, h2, r2, hh, hadd⟩
  · rw [e]; exact hsp
  · exact Key.setValue_span hi hsp hv
  · rw [e]; exact hsp
  · have hnew := Key.new_inv ν hi time (value.getD 0)
      (CurvePlug.insertKeyInterpolator w.heap this
        (CurvePlug.insertKeySpan w.heap this time).2.1)
      defaultSlope defaultScale defaultSlope defaultScale
    have hnsp := Key.new_span ν hi hsp time (value.getD 0)
      (CurvePlug.insertKeyInterpolator w.heap this
        (CurvePlug.insertKeySpan w.heap this time).2.1)
      defaultSlope defaultScale defaultSlope defaultScale
    rcases hh with e | ⟨e, _, _, _, _, e2⟩
    · rw [e] at hadd
      exact CurvePlug.addKey_span hnew hnsp (by simp [Key.new]) hadd
    · rw [e2] at hadd
      refine CurvePlug.addKey_span (w := ⟨_, w.undoQueue⟩) ?_ ?_
        (by simp [Key.new, Heap.setValue]) hadd
      · exact hnew.setKey_unparented _ (Key.new_parent ..) (by simp [Key.new])
          (by simp [Key.new])
      · exact hnsp.setKey_free hnew.wf.linked _ (Key.new_parent ..)

/-- In every reachable script state every active key caches in its out tangent
the time to the next active key. -/
theorem Reachable.spanOut {ν : Numeric α} {w : Script α} (hr : Reachable ν w) :
    SpanOut w.heap := by
  induction hr with
  | init => intro c k hk; simp [Script.init, Heap.init] at hk
  | newKey time value interpolation a b c d hr ih =>
    exact Key.new_span ν hr.inv ih time value interpolation a b c d
  | setTime key time r hr _ hs ih => exact Key.setTime_span hr.inv ih hs
  | setValue key value hr _ hs ih => exact Key.setValue_span hr.inv ih hs
  | setInterpolation key i hr _ hs ih => exact Key.setInterpolation_span hr.inv ih hs
  | setSlope key d slope force hr _ hs ih => exact Tangent.setSlope_span hr.inv ih hs
  | setScale key d scale force hr _ hs ih => exact Tangent.setScale_span hr.inv ih hs
  | addKey this key flag r hr hk hs ih => exact CurvePlug.addKey_span hr.inv ih hk hs
  | removeKey this key hr _ hs ih => exact CurvePlug.removeKey_span hr.inv ih hs
  | insertKey this time value r hr hs ih => exact CurvePlug.insertKeyInternal_span ν hr.inv ih hs
  | removeInactiveKeys this hr hs ih => exact CurvePlug.removeInactiveKeys_span hr.inv ih hs
  | undo hr hs ih => exact Script.undo_span hr.inv ih hs

/-! ### Evaluation -/

theorem lower_bound_of_all_lt (tk : KeyId → α) (t : α) {l : List KeyId}
    (h : ∀ x ∈ l, tk x < t) : lower_bound tk t l = [] := by
  induction l with
  | nil => rfl
  | cons a as ih =>
    unfold lower_bound
    rw [if_pos (h a (List.mem_cons_self _ _))]
    exact ih (fun x hx => h x (List.mem_cons_of_mem _ hx))

theorem before_lower_bound_of_all_lt (tk : KeyId → α) (t : α) {l : List KeyId}
    (h : ∀ x ∈ l, tk x < t) : before_lower_bound tk t l = l := by
  induction l with
  | nil => rfl
  | cons a as ih =>
    unfold before_lower_bound
    rw [if_pos (h a (List.mem_cons_self _ _)), ih (fun x hx => h x (List.mem_cons_of_mem _ hx))]

/-- In a list sorted strictly by time, `lower_bound` at the time of a member
stops at that member, and the members before it are the ones of lesser time. -/
theorem lower_bound_of_mem (tk : KeyId → α) {l : List KeyId}
    (hs : (l.map tk).Pairwise (· < ·)) {k : KeyId} (hk : k ∈ l) :
    ∃ r, lower_bound tk (tk k) l = k :: r := by
  induction l with
  | nil => simp at hk
  | cons a as ih =>
    simp only [List.map_cons, List.pairwise_cons, List.mem_map, forall_exists_index, and_imp,
      forall_apply_eq_imp_iff₂] at hs
    unfold lower_bound
    rcases List.mem_cons.1 hk with h | h
    · subst h
      rw [if_neg (lt_irrefl _)]
      exact ⟨as, rfl⟩
    · rw [if_pos (hs.1 k h)]
      exact ih hs.2 h

theorem getLast?_cons_of_getLast? {a x : KeyId} {l : List KeyId} (h : l.getLast? = some x) :
    (a :: l).getLast? = some x := by
  cases l with
  | nil => simp at h
  | cons b bs => rw [List.getLast?_cons_cons]; exact h

/-- Between two consecutive keys of a strictly sorted list, `lower_bound` stops
at the later key and the key just before that position is the earlier key. -/
theorem span_of_nextIn (tk : KeyId → α) {l : List KeyId} (hs : (l.map tk).Pairwise (· < ·))
    {lo hi : KeyId} {t : α} (hn : nextIn lo l = some hi) (h1 : tk lo < t) (h2 : t < tk hi) :
    (∃ r, lower_bound tk t l = hi :: r) ∧ (before_lower_bound tk t l).getLast? = some lo := by
  induction l with
  | nil => simp [nextIn] at hn
  | cons a as ih =>
    simp only [List.map_cons, List.pairwise_cons, List.mem_map, forall_exists_index, and_imp,
      forall_apply_eq_imp_iff₂] at hs
    unfold nextIn at hn
    by_cases ha : a = lo
    · subst ha
      rw [if_pos rfl] at hn
      cases as with
      | nil => simp at hn
      | cons b bs =>
        simp only [List.head?_cons, Option.some.injEq] at hn
        subst hn
        refine ⟨⟨bs, ?_⟩, ?_⟩
        · simp [lower_bound, h1, not_lt.mpr (le_of_lt h2)]
        · simp [before_lower_bound, h1, not_lt.mpr (le_of_lt h2)]
    · rw [if_neg ha] at hn
      have hlo : lo ∈ as := nextIn_mem_self hn
      have hat : tk a < t := lt_trans (hs.1 lo hlo) h1
      obtain ⟨⟨r, hr⟩, hb⟩ := ih hs.2 hn
      refine ⟨⟨r, ?_⟩, ?_⟩
      · unfold lower_bound; rw [if_pos hat]; exact hr
      · unfold before_lower_bound; rw [if_pos hat]
        exact getLast?_cons_of_getLast? hb

theorem getLast_mem_le (tk : KeyId → α) {l : List KeyId} (hs : (l.map tk).Pairwise (· < ·))
    (hne : l ≠ []) : ∀ x ∈ l, tk x ≤ tk (l.getLast hne) := by
  induction l with
  | nil => exact absurd rfl hne
  | cons a as ih =>
    simp only [List.map_cons, List.pairwise_cons, List.mem_map, forall_exists_index, and_imp,
      forall_apply_eq_imp_iff₂] at hs
    intro x hx
    cases as with
    | nil =>
      simp only [List.mem_singleton] at hx
      subst hx; simp
    | cons b bs =>
      rw [List.getLast_cons (List.cons_ne_nil b bs)]
      rcases List.mem_cons.1 hx with h | h
      · subst h
        exact le_of_lt (hs.1 _ (List.getLast_mem _))
      · exact ih hs.2 (List.cons_ne_nil b bs) x h

/-- `evaluate` at or before the time of the first key returns the value of the
first key. -/
theorem evaluate_le_first (ν : Numeric α) (h : Heap α) (c : CurveId) (t : α) {kf : KeyId}
    (hf : CurvePlug.firstKey h c = some kf) (ht : t ≤ h.time kf) :
    CurvePlug.evaluate ν h c t = .ok (h.key kf).m_value := by
  unfold CurvePlug.firstKey at hf
  unfold CurvePlug.evaluate
  cases hl : (h.curve c).m_keys with
  | nil => rw [hl] at hf; simp at hf
  | cons k0 ks =>
    rw [hl] at hf
    simp only [List.head?_cons, Option.some.injEq] at hf
    subst hf
    simp [lower_bound, before_lower_bound, not_lt.mpr ht]

/-- `evaluate` at the time of an active key returns the value of that key. -/
theorem evaluate_at_key (ν : Numeric α) (h : Heap α) (c : CurveId)
    (hs : ((h.curve c).m_keys.map h.time).Pairwise (· < ·)) {k : KeyId}
    (hk : k ∈ (h.curve c).m_keys) :
    CurvePlug.evaluate ν h c (h.time k) = .ok (h.key k).m_value := by
  obtain ⟨r, hr⟩ := lower_bound_of_mem h.time hs hk
  unfold CurvePlug.evaluate
  cases hl : (h.curve c).m_keys with
  | nil => rw [hl] at hk; simp at hk
  | cons k0 ks =>
    rw [hl] at hr
    simp only [hr]
    cases (before_lower_bound h.time (h.time k) (k0 :: ks)).getLast? with
    | none => rfl
    | some lo =>
      simp only
      exact if_pos rfl

/-- `evaluate` at or after the time of the final key returns the value of the
final key. -/
theorem evaluate_ge_final (ν : Numeric α) (h : Heap α) (c : CurveId) (t : α)
    (hs : ((h.curve c).m_keys.map h.time).Pairwise (· < ·)) {kl : KeyId}
    (hf : CurvePlug.finalKey h c = some kl) (ht : h.time kl ≤ t) :
    CurvePlug.evaluate ν h c t = .ok (h.key kl).m_value := by
  unfold CurvePlug.finalKey at hf
  have hmem : kl ∈ (h.curve c).m_keys := List.mem_of_getLast?_eq_some hf
  rcases eq_or_lt_of_le ht with he | hlt
  · rw [← he]; exact evaluate_at_key ν h c hs hmem
  · unfold CurvePlug.evaluate
    cases hl : (h.curve c).m_keys with
    | nil => rw [hl] at hmem; simp at hmem
    | cons k0 ks =>
      rw [hl] at hf hs
      have hlast : (k0 :: ks).getLast (List.cons_ne_nil k0 ks) = kl := by
        rw [List.getLast?_eq_getLast _ (List.cons_ne_nil k0 ks)] at hf
        exact Option.some.inj hf
      have hall : ∀ x ∈ k0 :: ks, h.time x < t := by
        intro x hx
        have := getLast_mem_le h.time hs (List.cons_ne_nil k0 ks) x hx
        rw [hlast] at this
        exact lt_of_le_of_lt this hlt
      simp only [lower_bound_of_all_lt h.time t hall]
      rw [hlast]

/-- Between two consecutive active keys `evaluate` calls the interpolator of the
earlier key with the normalised time and the cached span width. -/
theorem evaluate_between (ν : Numeric α) (h : Heap α) (c : CurveId) (t : α)
    (hs : ((h.curve c).m_keys.map h.time).Pairwise (· < ·)) {lo hi : KeyId}
    (hn : nextIn lo (h.curve c).m_keys = some hi) (h1 : h.time lo < t) (h2 : t < h.time hi) :
    CurvePlug.evaluate ν h c t =
      Interpolator.evaluate ν h (h.key lo).m_interpolator lo hi
        (clamp ((t - (h.key lo).m_time) / (h.key lo).m_out.m_dt) 0 1) (h.key lo).m_out.m_dt := by
  obtain ⟨⟨r, hr⟩, hb⟩ := span_of_nextIn h.time hs hn h1 h2
  unfold CurvePlug.evaluate
  cases hl : (h.curve c).m_keys with
  | nil => rw [hl] at hn; simp [nextIn] at hn
  | cons k0 ks =>
    rw [hl] at hr hb
    simp only [hr, hb]
    have : (h.key hi).m_time ≠ t := ne_of_gt h2
    rw [if_neg this]

theorem clamp_of_mem {a l u : α} (h1 : l ≤ a) (h2 : a ≤ u) : clamp a l u = a := by
  unfold clamp
  rw [if_neg (not_lt.mpr h1), if_neg (not_lt.mpr h2)]

/-! ### Worked examples, ordering, linkage and evaluation -/

theorem Reachable.afterRet_insertKeyValue {ν : Numeric α} {w : Script α} (hr : Reachable ν w)
    (this : CurveId) (time value : α) :
    Reachable ν (w.afterRet (CurvePlug.insertKeyValue ν w this time value)) := by
  unfold CurvePlug.insertKeyValue
  cases h : CurvePlug.insertKeyInternal ν w this time (some value) with
  | error e => exact hr
  | ok p => exact Reachable.insertKey this time (some value) p.2 hr h

theorem Reachable.afterRet_setTime {ν : Numeric α} {w : Script α} (hr : Reachable ν w)
    (key : KeyId) (time : α) (hk : key < w.heap.keyCount) :
    Reachable ν (w.afterRet (Key.setTime w key time)) := by
  cases h : Key.setTime w key time with
  | error e => exact hr
  | ok p => exact Reachable.setTime key time p.2 hr hk h

theorem Reachable.after_setInterpolation {ν : Numeric α} {w : Script α} (hr : Reachable ν w)
    (key : KeyId) (i : Interpolation) (hk : key < w.heap.keyCount) :
    Reachable ν (w.after (Key.setInterpolation w key i)) := by
  cases h : Key.setInterpolation w key i with
  | error e => exact hr
  | ok p => exact Reachable.setInterpolation key i hr hk h

theorem Reachable.after_removeInactiveKeys {ν : Numeric α} {w : Script α} (hr : Reachable ν w)
    (this : CurveId) : Reachable ν (w.after (CurvePlug.removeInactiveKeys w this)) := by
  cases h : CurvePlug.removeInactiveKeys w this with
  | error e => exact hr
  | ok p => exact Reachable.removeInactiveKeys this hr h

theorem exTwo_reachable : Reachable exampleNumeric exTwo :=
  (Reachable.init.afterRet_insertKeyValue 0 0 0).afterRet_insertKeyValue 0 1 10

theorem exLinear_reachable : Reachable exampleNumeric exLinear :=
  exTwo_reachable.after_setInterpolation 0 .Linear (by decide)

theorem exConstant_reachable : Reachable exampleNumeric exConstant :=
  exTwo_reachable.after_setInterpolation 0 .Constant (by decide)

theorem exConstantNext_reachable : Reachable exampleNumeric exConstantNext :=
  exTwo_reachable.after_setInterpolation 0 .ConstantNext (by decide)

theorem exClash_reachable : Reachable exampleNumeric exClash :=
  exTwo_reachable.afterRet_setTime 0 1 (by decide)

theorem exThree_reachable : Reachable exampleNumeric exThree :=
  exTwo_reachable.afterRet_insertKeyValue 0 2 20

theorem exStack_reachable : Reachable exampleNumeric exStack :=
  (exThree_reachable.afterRet_setTime 1 0 (by decide!)).afterRet_setTime 2 0 (by decide!)

/-- C1: in every script state reachable from empty curves (by key construction,
`addKey`, `removeKey`, `setTime`, `setValue`, `setInterpolation`, `setSlope`,
`setScale`, `insertKey`, `removeInactiveKeys` and undo) the active keys of every
curve iterate in strictly increasing time order, so two active keys of one time
are the same key. -/
theorem C1_active_keys_strictly_increasing {ν : Numeric α} {w : Script α}
    (hr : Reachable ν w) (c : CurveId) :
    ((w.heap.curve c).m_keys.map w.heap.time).Pairwise (· < ·) ∧
    ∀ a ∈ (w.heap.curve c).m_keys, ∀ b ∈ (w.heap.curve c).m_keys,
      w.heap.time a = w.heap.time b → a = b := by
  have hs := hr.inv.wf.linked.sorted c
  exact ⟨hs, fun a ha b hb hab => time_injOn_of_sorted w.heap.time hs ha hb hab⟩

/-- C1 at the curve with the two keys (0, 0) and (1, 10). -/
theorem C1_active_keys_strictly_increasing_witness :
    ((exTwo.heap.curve 0).m_keys.map exTwo.heap.time).Pairwise (· < ·) ∧
    ∀ a ∈ (exTwo.heap.curve 0).m_keys, ∀ b ∈ (exTwo.heap.curve 0).m_keys,
      exTwo.heap.time a = exTwo.heap.time b → a = b :=
  C1_active_keys_strictly_increasing exTwo_reachable 0

/-- C2: in every reachable script state, hence after every operation and every
undo, the linkage invariant holds: a key is in the active container of a curve
iff its parent is that curve and it is active, in the inactive container iff
its parent is that curve and it is inactive, no key is in both containers, and
a key in no container has a null parent and is inactive. -/
theorem C2_linkage_invariant {ν : Numeric α} {w : Script α} (hr : Reachable ν w)
    (c : CurveId) (k : KeyId) :
    (k ∈ (w.heap.curve c).m_keys ↔
      (w.heap.key k).m_parent = some c ∧ (w.heap.key k).m_active = true) ∧
    (k ∈ (w.heap.curve c).m_inactiveKeys ↔
      (w.heap.key k).m_parent = some c ∧ (w.heap.key k).m_active = false) ∧
    ¬ (k ∈ (w.heap.curve c).m_keys ∧ k ∈ (w.heap.curve c).m_inactiveKeys) ∧
    ((∀ c2, k ∉ (w.heap.curve c2).m_keys ∧ k ∉ (w.heap.curve c2).m_inactiveKeys) →
      (w.heap.key k).m_parent = none ∧ (w.heap.key k).m_active = false) := by
  have hl := hr.inv.wf.linked
  refine ⟨hl.mem_keys c k, hl.mem_inactiveKeys c k, ?_, ?_⟩
  · rintro ⟨h1, h2⟩
    have a1 := ((hl.mem_keys c k).1 h1).2
    have a2 := ((hl.mem_inactiveKeys c k).1 h2).2
    rw [a1] at a2; cases a2
  · intro hno
    have hp : (w.heap.key k).m_parent = none := by
      cases hp : (w.heap.key k).m_parent with
      | none => rfl
      | some p =>
        exfalso
        cases ha : (w.heap.key k).m_active with
        | false => exact (hno p).2 ((hl.mem_inactiveKeys p k).2 ⟨hp, ha⟩)
        | true => exact (hno p).1 ((hl.mem_keys p k).2 ⟨hp, ha⟩)
    exact ⟨hp, hl.unparented k hp⟩

/-- C2 after `key0.setTime( 1 )` on the keys (0, 0) and (1, 10), for the
displaced key 1. -/
theorem C2_linkage_invariant_witness :
    (1 ∈ (exClash.heap.curve 0).m_keys ↔
      (exClash.heap.key 1).m_parent = some 0 ∧ (exClash.heap.key 1).m_active = true) ∧
    (1 ∈ (exClash.heap.curve 0).m_inactiveKeys ↔
      (exClash.heap.key 1).m_parent = some 0 ∧ (exClash.heap.key 1).m_active = false) ∧
    ¬ (1 ∈ (exClash.heap.curve 0).m_keys ∧ 1 ∈ (exClash.heap.curve 0).m_inactiveKeys) ∧
    ((∀ c2, 1 ∉ (exClash.heap.curve c2).m_keys ∧ 1 ∉ (exClash.heap.curve c2).m_inactiveKeys) →
      (exClash.heap.key 1).m_parent = none ∧ (exClash.heap.key 1).m_active = false) :=
  C2_linkage_invariant exClash_reachable 0 1

/-- C3: in every reachable state of a curve and for every time `t`, if `t` is at
most the time of the first active key then `evaluate( t )` returns the value of
the first key, and if `t` is at least the time of the final active key then it
returns the value of the final key, whatever the interpolation modes and
tangents. -/
theorem C3_evaluate_outside_keys {ν μ : Numeric α} {w : Script α} (hr : Reachable ν w)
    (c : CurveId) (t : α) :
    (∀ kf, CurvePlug.firstKey w.heap c = some kf → t ≤ w.heap.time kf →
      CurvePlug.evaluate μ w.heap c t = .ok (w.heap.key kf).m_value) ∧
    (∀ kl, CurvePlug.finalKey w.heap c = some kl → w.heap.time kl ≤ t →
      CurvePlug.evaluate μ w.heap c t = .ok (w.heap.key kl).m_value) :=
  ⟨fun kf hf ht => evaluate_le_first μ w.heap c t hf ht,
   fun kl hf ht => evaluate_ge_final μ w.heap c t (hr.inv.wf.linked.sorted c) hf ht⟩

/-- C3 for the keys (0, 0) and (1, 10): `evaluate( -1 )` is 0 and
`evaluate( 2 )` is 10. -/
theorem C3_evaluate_outside_keys_witness :
    CurvePlug.evaluate exampleNumeric exTwo.heap 0 (-1) = .ok 0 ∧
    CurvePlug.evaluate exampleNumeric exTwo.heap 0 2 = .ok 10 :=
  ⟨(C3_evaluate_outside_keys exTwo_reachable 0 (-1)).1 0 rfl
      (by rw [show exTwo.heap.time 0 = 0 from rfl]; norm_num),
   (C3_evaluate_outside_keys exTwo_reachable 0 2).2 1 rfl
      (by rw [show exTwo.heap.time 1 = 1 from rfl]; norm_num)⟩

/-- C4: in every reachable state of a curve, `evaluate` at the time of an active
key returns the value of that key, whatever the interpolation modes and
tangents, and whatever inactive keys share that time. -/
theorem C4_evaluate_at_key {ν μ : Numeric α} {w : Script α} (hr : Reachable ν w)
    (c : CurveId) (k : KeyId) (hk : k ∈ (w.heap.curve c).m_keys) :
    CurvePlug.evaluate μ w.heap c (w.heap.time k) = .ok (w.heap.key k).m_value :=
  evaluate_at_key μ w.heap c (hr.inv.wf.linked.sorted c) hk

/-- C4 after `key0.setTime( 1 )` on the keys (0, 0) and (1, 10): key 0 is active
at time 1 with value 0, key 1 is inactive at time 1 with value 10, and
`evaluate( 1 )` is 0. -/
theorem C4_evaluate_at_key_witness :
    0 ∈ (exClash.heap.curve 0).m_keys ∧ 1 ∈ (exClash.heap.curve 0).m_inactiveKeys ∧
    exClash.heap.time 1 = exClash.heap.time 0 ∧ (exClash.heap.key 1).m_value = 10 ∧
    CurvePlug.evaluate exampleNumeric exClash.heap 0 1 = .ok 0 :=
  ⟨by decide, by decide, rfl, rfl,
    C4_evaluate_at_key exClash_reachable 0 0 (by decide)⟩

/-- C5: in every reachable state of a curve, for consecutive active keys `lo`,
`hi` where `lo` has Linear interpolation and every time `t` strictly between
them, `evaluate( t )` is `lo.value * (1 - n) + hi.value * n` with
`n = (t - lo.time) / (hi.time - lo.time)`. -/
theorem C5_evaluate_linear {ν μ : Numeric α} {w : Script α} (hr : Reachable ν w)
    (c : CurveId) (lo hi : KeyId) (t : α)
    (hn : nextIn lo (w.heap.curve c).m_keys = some hi)
    (hlin : (w.heap.key lo).m_interpolator = .Linear)
    (h1 : w.heap.time lo < t) (h2 : t < w.heap.time hi) :
    CurvePlug.evaluate μ w.heap c t =
      .ok ((w.heap.key lo).m_value *
          (1 - (t - w.heap.time lo) / (w.heap.time hi - w.heap.time lo)) +
        (w.heap.key hi).m_value *
          ((t - w.heap.time lo) / (w.heap.time hi - w.heap.time lo))) := by
  have hs := hr.inv.wf.linked.sorted c
  have hdt : (w.heap.key lo).m_out.m_dt = w.heap.time hi - w.heap.time lo := by
    rw [hr.spanOut c lo (nextIn_mem_self hn)]
    unfold expectedOutDt
    rw [hn]
  rw [evaluate_between μ w.heap c t hs hn h1 h2, hlin, hdt]
  have hpos : 0 < w.heap.time hi - w.heap.time lo := sub_pos.mpr (lt_trans h1 h2)
  have hc : clamp ((t - (w.heap.key lo).m_time) / (w.heap.time hi - w.heap.time lo)) 0 1 =
      (t - w.heap.time lo) / (w.heap.time hi - w.heap.time lo) := by
    apply clamp_of_mem
    · exact div_nonneg (le_of_lt (sub_pos.mpr h1)) (le_of_lt hpos)
    · rw [div_le_one hpos]
      exact sub_le_sub_right (le_of_lt h2) _
  simp only [Interpolator.evaluate, InterpolatorLinear.evaluate, hc]

/-- C5 for the keys (0, 0) and (1, 10) with Linear interpolation:
`evaluate( 0.5 )` is 5. -/
theorem C5_evaluate_linear_witness :
    CurvePlug.evaluate exampleNumeric exLinear.heap 0 (1 / 2) = .ok 5 := by
  have h := C5_evaluate_linear (μ := exampleNumeric) exLinear_reachable 0 0 1 (1 / 2)
    (by decide) rfl (by rw [show exLinear.heap.time 0 = 0 from rfl]; norm_num)
    (by rw [show exLinear.heap.time 1 = 1 from rfl]; norm_num)
  rw [h, show exLinear.heap.time 0 = 0 from rfl, show exLinear.heap.time 1 = 1 from rfl,
    show (exLinear.heap.key 0).m_value = 0 from rfl,
    show (exLinear.heap.key 1).m_value = 10 from rfl]
  norm_num

/-- C6: in every reachable state of a curve, for consecutive active keys `lo`,
`hi` and every time `t` strictly between them, `evaluate( t )` returns the value
of `lo` when the interpolation of `lo` is Constant and the value of `hi` when
it is ConstantNext; the interpolation of `hi` plays no part. -/
theorem C6_evaluate_constant {ν μ : Numeric α} {w : Script α} (hr : Reachable ν w)
    (c : CurveId) (lo hi : KeyId) (t : α)
    (hn : nextIn lo (w.heap.curve c).m_keys = some hi)
    (h1 : w.heap.time lo < t) (h2 : t < w.heap.time hi) :
    ((w.heap.key lo).m_interpolator = .Constant →
      CurvePlug.evaluate μ w.heap c t = .ok (w.heap.key lo).m_value) ∧
    ((w.heap.key lo).m_interpolator = .ConstantNext →
      CurvePlug.evaluate μ w.heap c t = .ok (w.heap.key hi).m_value) := by
  have hs := hr.inv.wf.linked.sorted c
  rw [evaluate_between μ w.heap c t hs hn h1 h2]
  constructor
  · intro hi1; rw [hi1]; rfl
  · intro hi1; rw [hi1]; rfl

/-- C6 for the keys (0, 0) and (1, 10): with Constant interpolation on the first
key `evaluate( 0.5 )` is 0, with ConstantNext it is 10. -/
theorem C6_evaluate_constant_witness :
    CurvePlug.evaluate exampleNumeric exConstant.heap 0 (1 / 2) = .ok 0 ∧
    CurvePlug.evaluate exampleNumeric exConstantNext.heap 0 (1 / 2) = .ok 10 :=
  ⟨(C6_evaluate_constant exConstant_reachable 0 0 1 (1 / 2) (by decide)
      (by rw [show exConstant.heap.time 0 = 0 from rfl]; norm_num)
      (by rw [show exConstant.heap.time 1 = 1 from rfl]; norm_num)).1 rfl,
   (C6_evaluate_constant exConstantNext_reachable 0 0 1 (1 / 2) (by decide)
      (by rw [show exConstantNext.heap.time 0 = 0 from rfl]; norm_num)
      (by rw [show exConstantNext.heap.time 1 = 1 from rfl]; norm_num)).2 rfl⟩

/-! ### setTime onto the time of another key -/

/-- The clashing inactive key that `Key::setTime` and `removeKey` capture. -/
theorem clashingInactive_state {h : Heap α} (hl : Linked h) {c : CurveId} {a : Bool} {p : α} :
    Key.StateIsIf h (if a = true then find h.time p (h.curve c).m_inactiveKeys else none)
      (some c) false p := by
  intro x hx
  cases a with
  | false => simp at hx
  | true =>
    simp only [if_true] at hx
    obtain ⟨hm, ht⟩ := find_some h.time p _ hx
    obtain ⟨q1, q2⟩ := (hl.mem_inactiveKeys c x).1 hm
    exact ⟨q1, q2, ht⟩

/-- The clashing active key that `Key::setTime` and `addKey` capture. -/
theorem clashingKey_state {h : Heap α} (hl : Linked h) {c : CurveId} {t : α} :
    Key.StateIsIf h (CurvePlug.getKey h c t) (some c) true t := by
  intro x hx
  obtain ⟨hm, ht⟩ := find_some h.time t _ hx
  obtain ⟨q1, q2⟩ := (hl.mem_keys c x).1 hm
  exact ⟨q1, q2, ht⟩

/-- `Key::setTime` of a parented key to a new time returns the clashing key, and
its new state is the result of the Do closure. -/
theorem Key.setTime_succeeds {w : Script α} (hl : Linked w.heap) {c : CurveId} {key : KeyId}
    {time : α} (hp : (w.heap.key key).m_parent = some c)
    (hne : time ≠ (w.heap.key key).m_time) :
    ∃ w1, Key.setTime w key time = .ok (w1, CurvePlug.getKey w.heap c time) ∧
      setTimeDo c time (w.heap.key key).m_time (w.heap.key key).m_active key
        (CurvePlug.getKey w.heap c time)
        (if (w.heap.key key).m_active = true then
          find w.heap.time (w.heap.key key).m_time (w.heap.curve c).m_inactiveKeys
         else none) w.heap = .ok w1.heap := by
  obtain ⟨h1, hdo⟩ := @setTimeDo_succeeds _ _ c time _ _ key _ _ w.heap
    ⟨hp, rfl, rfl⟩ (clashingInactive_state hl) (clashingKey_state hl)
  refine ⟨⟨h1, Action.setTime c time (w.heap.key key).m_time (w.heap.key key).m_active key
    (CurvePlug.getKey w.heap c time)
    (if (w.heap.key key).m_active = true then
      find w.heap.time (w.heap.key key).m_time (w.heap.curve c).m_inactiveKeys
     else none) :: w.undoQueue⟩, ?_, hdo⟩
  unfold Key.setTime
  rw [if_neg hne]
  simp only [hp, Action.enact, Action.doFn, hdo]

/-- C7: in every reachable state of a curve with two distinct active keys `A`
and `B`, `A.setTime( B.time )` returns `B`, leaves `A` active with the time of
`B` (so that `getKey( B.time )` is `A`), and leaves `B` parented to the curve,
inactive, in the inactive container, with its time unchanged. -/
theorem C7_setTime_onto_active_key {ν : Numeric α} {w : Script α} (hr : Reachable ν w)
    (c : CurveId) (A B : KeyId) (hA : A ∈ (w.heap.curve c).m_keys)
    (hB : B ∈ (w.heap.curve c).m_keys) (hAB : A ≠ B) :
    ∃ w1, Key.setTime w A (w.heap.time B) = .ok (w1, some B) ∧
      (w1.heap.key A).m_active = true ∧ w1.heap.time A = w.heap.time B ∧
      CurvePlug.getKey w1.heap c (w.heap.time B) = some A ∧
      (w1.heap.key B).m_parent = some c ∧ (w1.heap.key B).m_active = false ∧
      B ∈ (w1.heap.curve c).m_inactiveKeys ∧ w1.heap.time B = w.heap.time B := by
  have hl := hr.inv.wf.linked
  obtain ⟨hpA, haA⟩ := (hl.mem_keys c A).1 hA
  obtain ⟨hpB, haB⟩ := (hl.mem_keys c B).1 hB
  have hne : w.heap.time B ≠ (w.heap.key A).m_time := fun e =>
    hAB (time_injOn_of_sorted w.heap.time (hl.sorted c) hA hB e.symm)
  have hck : CurvePlug.getKey w.heap c (w.heap.time B) = some B := hl.getKey_of_active hpB haB
  obtain ⟨w1, hs, hdo⟩ := Key.setTime_succeeds hl hpA hne
  rw [hck] at hs hdo
  have hl1 : Linked w1.heap := setTimeDo_linked hl hne (fun e => by cases e) hdo
  obtain ⟨_, _, _, hc⟩ := setTimeDo_ok hdo
  rw [setTimeDoLink_eq] at hc
  have hBA : B ≠ A := fun e => hAB e.symm
  have hsBA : ¬ (some B = some A) := fun e => hBA (Option.some.inj e)
  have a1 : (w1.heap.key A).m_active = true := by
    rw [core_eq_active hc, link_active]
    simp [hsBA, Heap.setTime_setActive_key]
  have a2 : w1.heap.time A = w.heap.time B := by
    rw [core_eq_time hc, link_time]
    simp [Heap.time, Heap.setTime_setActive_key]
  have a3 : (w1.heap.key A).m_parent = some c := by
    rw [core_eq_parent hc, link_parent]
    simp [Heap.setTime_setActive_key, hpA]
  have b1 : (w1.heap.key B).m_parent = some c := by
    rw [core_eq_parent hc, link_parent]
    simp [Heap.setTime_setActive_key, hBA, hpB]
  have b2 : (w1.heap.key B).m_active = false := by
    rw [core_eq_active hc, link_active]
    simp
  have b3 : w1.heap.time B = w.heap.time B := by
    rw [core_eq_time hc, link_time]
    simp [Heap.time, Heap.setTime_setActive_key, hBA]
  refine ⟨w1, hs, a1, a2, ?_, b1, b2, (hl1.mem_inactiveKeys c B).2 ⟨b1, b2⟩, b3⟩
  have := hl1.getKey_of_active a3 a1
  rw [show (w1.heap.key A).m_time = w1.heap.time A from rfl, a2] at this
  exact this

/-- C7 for the keys (0, 0) and (1, 10): `key0.setTime( 1 )` returns key 1 and
leaves it inactive at time 1. -/
theorem C7_setTime_onto_active_key_witness :
    ∃ w1, Key.setTime exTwo 0 (exTwo.heap.time 1) = .ok (w1, some 1) ∧
      (w1.heap.key 0).m_active = true ∧ w1.heap.time 0 = exTwo.heap.time 1 ∧
      CurvePlug.getKey w1.heap 0 (exTwo.heap.time 1) = some 0 ∧
      (w1.heap.key 1).m_parent = some 0 ∧ (w1.heap.key 1).m_active = false ∧
      1 ∈ (w1.heap.curve 0).m_inactiveKeys ∧ w1.heap.time 1 = exTwo.heap.time 1 :=
  C7_setTime_onto_active_key exTwo_reachable 0 0 1 (by decide) (by decide) (by decide)

/-! ### setTime followed by removeInactiveKeys -/

theorem length_replace_node (old new : KeyId) (l : List KeyId) :
    (replace_node old new l).length = l.length := by
  induction l with
  | nil => rfl
  | cons a as ih =>
    unfold replace_node
    split_ifs with h
    · rfl
    · simp [ih]

/-- `CurvePlug::removeKey` of a key of the curve succeeds, and its new state is
the result of the Do closure. -/
theorem CurvePlug.removeKey_succeeds {w : Script α} (hl : Linked w.heap) {c : CurveId}
    {key : KeyId} (hp : (w.heap.key key).m_parent = some c) :
    ∃ w1, CurvePlug.removeKey w c key = .ok w1 ∧
      removeKeyDo c key
        (if (w.heap.key key).m_active = true then
          find w.heap.time (w.heap.key key).m_time (w.heap.curve c).m_inactiveKeys
         else none) (w.heap.key key).m_active (w.heap.key key).m_time w.heap = .ok w1.heap := by
  obtain ⟨h1, hdo⟩ := @removeKeyDo_succeeds _ _ c key _ _ _ w.heap
    ⟨hp, rfl, rfl⟩ (clashingInactive_state hl)
  refine ⟨⟨h1, Action.removeKey c key
    (if (w.heap.key key).m_active = true then
      find w.heap.time (w.heap.key key).m_time (w.heap.curve c).m_inactiveKeys
     else none) (w.heap.key key).m_active (w.heap.key key).m_time :: w.undoQueue⟩, ?_, hdo⟩
  unfold CurvePlug.removeKey
  rw [if_neg (not_not.mpr hp)]
  simp only [Action.enact, Action.doFn, hdo]

/-- C8 fails as stated: on the curve with the two active keys (0, 0) and
(1, 10), `key0.setTime( 1 )` followed by `removeInactiveKeys()` leaves one key,
not the two keys that were active at the start. -/
theorem C8_counterexample :
    (exTwo.heap.curve 0).m_keys = [0, 1] ∧ (exTwo.heap.curve 0).m_inactiveKeys = [] ∧
    Key.setTime exTwo 0 (exTwo.heap.time 1) = .ok (exClash, some 1) ∧
    CurvePlug.removeInactiveKeys exClash 0 = .ok exClashCleaned ∧
    (exClashCleaned.heap.curve 0).m_keys = [0] ∧
    (exClashCleaned.heap.curve 0).m_inactiveKeys = [] ∧
    (exClashCleaned.heap.curve 0).m_keys.length +
      (exClashCleaned.heap.curve 0).m_inactiveKeys.length ≠
        (exTwo.heap.curve 0).m_keys.length :=
  ⟨rfl, rfl, rfl, rfl, rfl, rfl, by decide⟩

/-- C8 as amended: in every reachable state of a curve whose keys are all active
(`n` of them) and for distinct active keys `A` and `B`, `A.setTime( B.time )`
followed by `removeInactiveKeys()` succeeds and leaves the curve with exactly
`n - 1` keys, all of them active: the displaced key `B` is removed. -/
theorem C8_setTime_then_removeInactiveKeys {ν : Numeric α} {w : Script α}
    (hr : Reachable ν w) (c : CurveId) (A B : KeyId)
    (hall : (w.heap.curve c).m_inactiveKeys = [])
    (hA : A ∈ (w.heap.curve c).m_keys) (hB : B ∈ (w.heap.curve c).m_keys) (hAB : A ≠ B) :
    ∃ w1 w2, Key.setTime w A (w.heap.time B) = .ok (w1, some B) ∧
      CurvePlug.removeInactiveKeys w1 c = .ok w2 ∧
      (w2.heap.curve c).m_inactiveKeys = [] ∧
      (w2.heap.curve c).m_keys.length + 1 = (w.heap.curve c).m_keys.length ∧
      (∀ k, (w2.heap.key k).m_parent = some c → (w2.heap.key k).m_active = true) ∧
      (w2.heap.key B).m_parent = none := by
  have hl := hr.inv.wf.linked
  obtain ⟨hpA, haA⟩ := (hl.mem_keys c A).1 hA
  obtain ⟨hpB, haB⟩ := (hl.mem_keys c B).1 hB
  have hne : w.heap.time B ≠ (w.heap.key A).m_time := fun e =>
    hAB (time_injOn_of_sorted w.heap.time (hl.sorted c) hA hB e.symm)
  have hck : CurvePlug.getKey w.heap c (w.heap.time B) = some B := hl.getKey_of_active hpB haB
  obtain ⟨w1, hs, hdo⟩ := Key.setTime_succeeds hl hpA hne
  have hci : (if (w.heap.key A).m_active = true then
      find w.heap.time (w.heap.key A).m_time (w.heap.curve c).m_inactiveKeys else none) =
      none := by
    rw [hall]; simp [find, lower_bound]
  rw [hck] at hs
  rw [hck, hci] at hdo
  have hl1 : Linked w1.heap := setTimeDo_linked hl hne (fun e => by cases e) hdo
  obtain ⟨_, _, _, hc⟩ := setTimeDo_ok hdo
  rw [setTimeDoLink_eq] at hc
  have hBA : B ≠ A := fun e => hAB e.symm
  have b1 : (w1.heap.key B).m_parent = some c := by
    rw [core_eq_parent hc, link_parent]
    simp [Heap.setTime_setActive_key, hBA, hpB]
  have b2 : (w1.heap.key B).m_active = false := by
    rw [core_eq_active hc, link_active]
    simp
  have hin1 : (w1.heap.curve c).m_inactiveKeys = [B] := by
    rw [core_eq_curve hc, link_inactiveKeys]
    simp [linkInactiveKeys, unlinkInactiveKeys, Heap.setTime, Heap.setActive, hall,
      insert_before_lower_bound]
  have hk1 : (w1.heap.curve c).m_keys = replace_node B A ((w.heap.curve c).m_keys.erase A) := by
    rw [core_eq_curve hc, link_keys]
    simp [linkKeys, unlinkKeys, Heap.setTime, Heap.setActive, haA]
  obtain ⟨w2, hrm, hdo2⟩ := CurvePlug.removeKey_succeeds hl1 b1
  have hl2 : Linked w2.heap := removeKeyDo_linked hl1 hdo2
  obtain ⟨_, _, e3, _, e5⟩ := removeKeyDo_frame hdo2
  obtain ⟨_, _, hc2⟩ := removeKeyDo_ok hdo2
  have hin2 : (w2.heap.curve c).m_inactiveKeys = [] := by
    rw [core_eq_curve hc2]
    simp [removeKeyDoLink, b2, Key.Dispose, Heap.setInactiveKeys, hin1]
  refine ⟨w1, w2, hs, ?_, hin2, ?_, ?_, e3⟩
  · unfold CurvePlug.removeInactiveKeys
    rw [hin1]
    simp only [List.foldlM, bind, Except.bind, hrm, pure, Except.pure]
  · rw [e5 c (fun _ => b2), hk1, length_replace_node, List.length_erase_of_mem hA]
    have : 0 < (w.heap.curve c).m_keys.length := List.length_pos_of_mem hA
    omega
  · intro k hk
    cases ha : (w2.heap.key k).m_active with
    | true => rfl
    | false =>
      have := (hl2.mem_inactiveKeys c k).2 ⟨hk, ha⟩
      rw [hin2] at this
      simp at this

/-- C8 as amended, for the keys (0, 0) and (1, 10) and `key0.setTime( 1 )`. -/
theorem C8_setTime_then_removeInactiveKeys_witness :
    ∃ w1 w2, Key.setTime exTwo 0 (exTwo.heap.time 1) = .ok (w1, some 1) ∧
      CurvePlug.removeInactiveKeys w1 0 = .ok w2 ∧
      (w2.heap.curve 0).m_inactiveKeys = [] ∧
      (w2.heap.curve 0).m_keys.length + 1 = (exTwo.heap.curve 0).m_keys.length ∧
      (∀ k, (w2.heap.key k).m_parent = some 0 → (w2.heap.key k).m_active = true) ∧
      (w2.heap.key 1).m_parent = none :=
  C8_setTime_then_removeInactiveKeys exTwo_reachable 0 0 1 rfl (by decide) (by decide)
    (by decide)

/-! ### Closures commute with dropping the cached spans -/

theorem Heap.core_time (h : Heap α) : h.core.time = h.time := rfl

theorem Heap.core_setKey (h : Heap α) (k : KeyId) (v : Key α) :
    (h.setKey k v).core = h.core.setKey k v.core := by
  apply Heap.ext_fields
  · intro x
    show ((h.setKey k v).key x).core = (h.core.setKey k v.core).key x
    simp only [Heap.setKey_key]
    split_ifs with hx
    · rfl
    · rfl
  · intro c; rfl
  · intro c; rfl
  · rfl

theorem unlink_core (c : CurveId) (a : Bool) (key : KeyId) (u : Option KeyId) (h : Heap α) :
    (unlink c a key u h).core = unlink c a key u h.core := by
  apply Heap.ext_fields
  · intro x
    show ((unlink c a key u h).key x).core = (unlink c a key u h.core).key x
    rw [unlink_key, unlink_key]
    split_ifs with hx
    · rfl
    · rfl
  · intro x
    show ((unlink c a key u h).curve x).m_keys = ((unlink c a key u h.core).curve x).m_keys
    rw [unlink_keys, unlink_keys]; rfl
  · intro x
    show ((unlink c a key u h).curve x).m_inactiveKeys =
      ((unlink c a key u h.core).curve x).m_inactiveKeys
    rw [unlink_inactiveKeys, unlink_inactiveKeys]; rfl
  · show (unlink c a key u h).keyCount = (unlink c a key u h.core).keyCount
    rw [unlink_keyCount, unlink_keyCount]; rfl

theorem link_core (c : CurveId) (a : Bool) (key : KeyId) (u : Option KeyId) (h : Heap α) :
    (Animation.link c a key u h).core = Animation.link c a key u h.core := by
  apply Heap.ext_fields
  · intro x
    show ((Animation.link c a key u h).key x).core = (Animation.link c a key u h.core).key x
    rw [link_key, link_key]
    split_ifs with hx
    · rfl
    · rfl
  · intro x
    show ((Animation.link c a key u h).curve x).m_keys =
      ((Animation.link c a key u h.core).curve x).m_keys
    rw [link_keys, link_keys]; rfl
  · intro x
    show ((Animation.link c a key u h).curve x).m_inactiveKeys =
      ((Animation.link c a key u h.core).curve x).m_inactiveKeys
    rw [link_inactiveKeys, link_inactiveKeys]; rfl
  · show (Animation.link c a key u h).keyCount = (Animation.link c a key u h.core).keyCount
    rw [link_keyCount, link_keyCount]; rfl

theorem unlink_core_congr {a b : Heap α} (hc : a.core = b.core) (c : CurveId) (f : Bool)
    (key : KeyId) (u : Option KeyId) : (unlink c f key u a).core = (unlink c f key u b).core := by
  rw [unlink_core, unlink_core, hc]

theorem link_core_congr {a b : Heap α} (hc : a.core = b.core) (c : CurveId) (f : Bool)
    (key : KeyId) (u : Option KeyId) :
    (Animation.link c f key u a).core = (Animation.link c f key u b).core := by
  rw [link_core, link_core, hc]

theorem retime_core_congr {a b : Heap α} (hc : a.core = b.core) (key : KeyId) (t : α)
    (f : Bool) :
    ((a.setTime key t).setActive key f).core = ((b.setTime key t).setActive key f).core := by
  rw [Heap.setTime_setActive_eq, Heap.setTime_setActive_eq, Heap.core_setKey, Heap.core_setKey,
    hc]
  congr 1
  have := core_eq_key hc key
  show ({ a.key key with m_time := t, m_active := f } : Key α).core =
    ({ b.key key with m_time := t, m_active := f } : Key α).core
  simp only [Key.core] at this ⊢
  simp only [Key.mk.injEq] at this ⊢
  simp_all

theorem dispose_core_congr {a b : Heap α} (hc : a.core = b.core) (key : KeyId) :
    (Key.Dispose a key).core = (Key.Dispose b key).core := by
  rw [Key.Dispose_eq, Key.Dispose_eq, Heap.core_setKey, Heap.core_setKey, hc]
  congr 1
  have := core_eq_key hc key
  show ({ a.key key with m_parent := none, m_active := false } : Key α).core =
    ({ b.key key with m_parent := none, m_active := false } : Key α).core
  simp only [Key.core] at this ⊢
  simp only [Key.mk.injEq] at this ⊢
  simp_all

/-- Re-inserting at `lower_bound` the key that `find` returns puts it back where
it was. -/
theorem insert_erase_find (tk : KeyId → α) {p : α} {x : KeyId} {l : List KeyId}
    (hs : (l.map tk).Pairwise (· ≤ ·)) (hf : find tk p l = some x) :
    insert_before_lower_bound tk p x (l.erase x) = l := by
  induction l with
  | nil => simp [find, lower_bound] at hf
  | cons a as ih =>
    simp only [List.map_cons, List.pairwise_cons, List.mem_map, forall_exists_index, and_imp,
      forall_apply_eq_imp_iff₂] at hs
    have hx := (find_some tk p _ hf).2
    by_cases h1 : tk a < p
    · have hxa : a ≠ x := fun e => by rw [e, hx] at h1; exact lt_irrefl _ h1
      have hf2 : find tk p as = some x := by
        unfold find lower_bound at hf
        rw [if_pos h1] at hf
        exact hf
      rw [List.erase_cons_tail (by simpa using hxa)]
      unfold insert_before_lower_bound
      rw [if_pos h1, ih hs.2 hf2]
    · have hxa : x = a := by
        unfold find lower_bound at hf
        rw [if_neg h1] at hf
        simp only at hf
        split_ifs at hf with h2
        exact (Option.some.inj hf).symm
      subst hxa
      rw [List.erase_cons_head]
      cases as with
      | nil => rfl
      | cons b bs =>
        unfold insert_before_lower_bound
        have : ¬ tk b < p := by
          rw [← hx]
          exact not_lt.mpr (hs.1 b (List.mem_cons_self _ _))
        rw [if_neg this]

/-! ### Do followed by Undo -/

theorem Key.StateIs.of_core {a b : Heap α} (hc : a.core = b.core) {k : KeyId}
    {p : Option CurveId} {f : Bool} {t : α} (hs : Key.StateIs b k p f t) :
    Key.StateIs a k p f t := by
  obtain ⟨h1, h2, h3⟩ := hs
  refine ⟨by rw [core_eq_parent hc]; exact h1, by rw [core_eq_active hc]; exact h2, ?_⟩
  have := congrFun (core_eq_time hc) k
  exact this.trans h3

/-- The Do closure of `setTime` followed by its Undo closure: both run, and the
heap is the prior one up to the cached spans and to the position at which the
unlinked inactive key is put back. -/
theorem setTime_do_undo {h : Heap α} (hl : Linked h) {c : CurveId} {key : KeyId} {t p : α}
    {a : Bool} {ck ci : Option KeyId}
    (S1 : Key.StateIs h key (some c) a p) (S2 : Key.StateIsIf h ci (some c) false p)
    (S3 : Key.StateIsIf h ck (some c) true t) (hne : t ≠ p)
    (hfree : ck = none → ∀ y ∈ (h.curve c).m_keys, h.time y ≠ t)
    (hci : a = false → ci = none) :
    ∃ h1 h2, setTimeDo c t p a key ck ci h = .ok h1 ∧
      setTimeUndo c t p a key ck ci h1 = .ok h2 ∧
      h2.core = (h.setInactiveKeys c (linkInactiveKeys h.time a key ci
        (unlinkInactiveKeys a key ci (h.curve c).m_inactiveKeys))).core := by
  obtain ⟨h1, hdo⟩ := setTimeDo_succeeds S1 S2 S3
  obtain ⟨_, _, _, hc1⟩ := setTimeDo_ok hdo
  rw [setTimeDoLink_eq] at hc1
  have hfree1 : true = true → ck = none →
      ∀ y ∈ ((unlink c a key ci h).curve c).m_keys, h.time y ≠ t := by
    intro _ hck y hy
    simp only [unlink_keys, if_true] at hy
    rcases mem_unlinkKeys hy with hy | hy
    · exact hfree hck y hy
    · have := (S2 y hy).2.2
      rw [Heap.time, this]; exact hne.symm
  obtain ⟨hX0, hX1, hut1, hutne, hfree2, hLX⟩ :=
    retime_mid hl S1 (fun _ => S2) (fun _ => S3) hne hfree1
  have hcine : ci ≠ some key := by
    intro e
    have h1 := (S2 key e).2.1
    rw [S1.2.1] at h1
    have := hci h1
    rw [this] at e; cases e
  have hckne : ck ≠ some key := hutne rfl
  have hk0 : (unlink c a key ci h).key key = h.key key := unlink_key_self c a key ci h hcine
  -- the state that the Undo closure meets
  have T1 : Key.StateIs h1 key (some c) true t := by
    refine Key.StateIs.of_core hc1 ⟨?_, ?_, ?_⟩
    · rw [link_parent]; simp [Heap.setTime_setActive_key, S1.1]
    · rw [link_active]; simp [hckne, Heap.setTime_setActive_key]
    · rw [link_key_time]; simp [Heap.setTime_setActive_key]
  have T2 : Key.StateIsIf h1 ck (some c) false t := by
    intro x hx
    obtain ⟨q1, q2, q3⟩ := S3 x hx
    have hxk : x ≠ key := fun e => hckne (by rw [hx, e])
    refine Key.StateIs.of_core hc1 ⟨?_, ?_, ?_⟩
    · rw [link_parent]; simp [Heap.setTime_setActive_key, hxk, q1]
    · rw [link_active]; simp [hx]
    · rw [link_key_time]; simp [Heap.setTime_setActive_key, hxk, q3]
  have T3 : Key.StateIsIf h1 ci (some c) true p := by
    intro x hx
    obtain ⟨q1, q2, q3⟩ := S2 x hx
    have hxk : x ≠ key := fun e => hcine (by rw [hx, e])
    have ha : a = true := by
      cases a with
      | true => rfl
      | false => rw [hci rfl] at hx; cases hx
    have hckx : ck ≠ some x := by
      intro e
      have := (S3 x e).2.1
      rw [q2] at this; cases this
    refine Key.StateIs.of_core hc1 ⟨?_, ?_, ?_⟩
    · rw [link_parent]; simp [Heap.setTime_setActive_key, hxk, q1]
    · rw [link_active]
      simp [hckx, Heap.setTime_setActive_key, hxk, unlink_active, ha, hx]
    · rw [link_key_time]; simp [Heap.setTime_setActive_key, hxk, q3]
  obtain ⟨h2, hun⟩ := @setTimeUndo_succeeds _ _ c t p a key ck ci h1 T1 T2 T3
  obtain ⟨_, _, _, hc2⟩ := setTimeUndo_ok hun
  rw [setTimeUndoLink_eq] at hc2
  refine ⟨h1, h2, hdo, hun, ?_⟩
  rw [hc2, link_core_congr (retime_core_congr (unlink_core_congr hc1 c true key ck) key p a)
    c a key ci, unlink_link hX1 c true ck hut1 hutne hfree2]
  have e : ((((unlink c a key ci h).setTime key t).setActive key true).setTime key p).setActive
      key a = unlink c a key ci h := by
    rw [Heap.setTime_setActive_eq, Heap.setTime_setActive_eq, Heap.setKey_setKey]
    conv_rhs => rw [← Heap.setKey_self (unlink c a key ci h) key]
    congr 1
    simp only [Heap.setKey_key, if_true]
    rw [hk0]
    obtain ⟨_, q2, q3⟩ := S1
    cases hk : h.key key
    simp_all
  rw [e, link_unlink hl S1.1 S1.2.1 (fun _ => by rw [Heap.time, S1.2.2]; exact S2)]

/-- The Do closure of `addKey` followed by its Undo closure: both run, and the
heap is the prior one up to the cached spans. -/
theorem addKey_do_undo {h : Heap α} (hl : Linked h) {c : CurveId} {key : KeyId}
    {ck : Option KeyId} (hp : (h.key key).m_parent = none)
    (S2 : Key.StateIsIf h ck (some c) true (h.time key))
    (hfree : ck = none → ∀ y ∈ (h.curve c).m_keys, h.time y ≠ h.time key) :
    ∃ h1 h2, addKeyDo c key ck (h.time key) h = .ok h1 ∧
      addKeyUndo c key ck (h.time key) h1 = .ok h2 ∧ h2.core = h.core := by
  have ha := hl.unparented key hp
  have S1 : Key.StateIs h key none false (h.time key) := ⟨hp, ha, rfl⟩
  obtain ⟨h1, hdo⟩ := addKeyDo_succeeds S1 S2
  obtain ⟨_, _, hc1⟩ := addKeyDo_ok hdo
  rw [addKeyDoLink_eq, Heap.setParent_setActive_eq] at hc1
  have hne : ck ≠ some key := by
    intro e
    have := (S2 key e).1
    rw [hp] at this; cases this
  have T1 : Key.StateIs h1 key (some c) true (h.time key) := by
    refine Key.StateIs.of_core hc1 ⟨?_, ?_, ?_⟩
    · simp
    · simp
    · simp [Heap.time]
  have T2 : Key.StateIsIf h1 ck (some c) false (h.time key) := by
    intro x hx
    obtain ⟨q1, q2, q3⟩ := S2 x hx
    have hxk : x ≠ key := fun e => hne (by rw [hx, e])
    refine Key.StateIs.of_core hc1 ⟨?_, ?_, ?_⟩
    · simp [hxk, q1]
    · simp only [Heap.setKey_key, hxk, if_false]
      rw [link_active]; simp [hx]
    · simp [hxk, q3]
  obtain ⟨h2, hun⟩ := addKeyUndo_succeeds T1 T2
  obtain ⟨_, _, hc2⟩ := addKeyUndo_ok hun
  rw [addKeyUndoLink_eq c key ck h1 hne] at hc2
  refine ⟨h1, h2, hdo, hun, ?_⟩
  rw [hc2, dispose_core_congr (unlink_core_congr hc1 c true key ck) key,
    unlink_setKey _ _ _ _ _ _ hne,
    unlink_link (hl.except hp) c true ck (fun _ => S2) (fun _ => hne) (fun _ => hfree),
    Key.Dispose_eq, Heap.setKey_setKey]
  congr 1
  conv_rhs => rw [← Heap.setKey_self h key]
  congr 1
  simp only [Heap.setKey_key, if_true]
  rw [link_key_of_ne c true key ck h key hne]
  cases hk : h.key key
  simp_all

/-! ### Round trips of setTime and addKey -/

theorem Heap.after_eq_of_succeeds (h : Heap α) {r : Except String (Heap α)}
    (hr : ∃ h1, r = .ok h1) : r = .ok (Heap.after h r) := by
  obtain ⟨h1, e⟩ := hr
  rw [e]; rfl

theorem exSpare_reachable : Reachable exampleNumeric exSpare :=
  Reachable.newKey 1 7 .Linear 0 0 0 0 exTwo_reachable

/-- C9 fails as stated: in the reachable state `exStack` the inactive keys of
time 0 are key 1, key 0 in that order; the Do closure of `key0.setTime( 5 )`
followed by its Undo closure leaves them in the order key 0, key 1. -/
theorem C9_counterexample :
    Reachable exampleNumeric exStack ∧
    (exStack.heap.key 0).m_parent = some 0 ∧ (exStack.heap.key 0).m_active = false ∧
    (exStack.heap.key 0).m_time = 0 ∧ CurvePlug.getKey exStack.heap 0 5 = none ∧
    (exStack.heap.curve 0).m_inactiveKeys = [1, 0] ∧
    setTimeDo 0 5 0 false 0 none none exStack.heap = .ok exStackDo ∧
    setTimeUndo 0 5 0 false 0 none none exStackDo = .ok exStackUndo ∧
    (exStackUndo.curve 0).m_inactiveKeys = [0, 1] ∧
    (exStackUndo.curve 0).m_inactiveKeys ≠ (exStack.heap.curve 0).m_inactiveKeys :=
  ⟨exStack_reachable, by decide!, by decide!, by decide!, by decide!, by decide!,
    Heap.after_eq_of_succeeds exStack.heap
      (setTimeDo_succeeds ⟨by decide!, by decide!, by decide!⟩ (fun x hx => by cases hx)
        (fun x hx => by cases hx)),
    Heap.after_eq_of_succeeds exStackDo
      (setTimeUndo_succeeds ⟨by decide!, by decide!, by decide!⟩ (fun x hx => by cases hx)
        (fun x hx => by cases hx)),
    by decide!, by decide!⟩

/-- C9 as amended: in every reachable state, for every parented key (active or
inactive) and every new time, the Do closure of `setTime` and then its Undo
closure both run and restore the active key sequence of every curve, the
parent, time and active flag of every key, and the inactive key sequences,
except that a moved key that was inactive is put back in front of the inactive
keys that share its time; so the inactive order is the prior one when the moved
key was active or was the first inactive key of its time. -/
theorem C9_setTime_do_undo {ν : Numeric α} {w : Script α} (hr : Reachable ν w)
    (c : CurveId) (key : KeyId) (t : α) (hp : (w.heap.key key).m_parent = some c)
    (hne : t ≠ (w.heap.key key).m_time) :
    ∃ h1 h2,
      setTimeDo c t (w.heap.key key).m_time (w.heap.key key).m_active key
        (CurvePlug.getKey w.heap c t)
        (if (w.heap.key key).m_active = true then
          find w.heap.time (w.heap.key key).m_time (w.heap.curve c).m_inactiveKeys
         else none) w.heap = .ok h1 ∧
      setTimeUndo c t (w.heap.key key).m_time (w.heap.key key).m_active key
        (CurvePlug.getKey w.heap c t)
        (if (w.heap.key key).m_active = true then
          find w.heap.time (w.heap.key key).m_time (w.heap.curve c).m_inactiveKeys
         else none) h1 = .ok h2 ∧
      (∀ x, (h2.curve x).m_keys = (w.heap.curve x).m_keys) ∧
      (∀ k, (h2.key k).m_parent = (w.heap.key k).m_parent ∧
        (h2.key k).m_time = (w.heap.key k).m_time ∧
        (h2.key k).m_active = (w.heap.key k).m_active) ∧
      (∀ x, x ≠ c → (h2.curve x).m_inactiveKeys = (w.heap.curve x).m_inactiveKeys) ∧
      (h2.curve c).m_inactiveKeys =
        (if (w.heap.key key).m_active = true then (w.heap.curve c).m_inactiveKeys
         else insert_before_lower_bound w.heap.time (w.heap.key key).m_time key
          ((w.heap.curve c).m_inactiveKeys.erase key)) ∧
      (((w.heap.key key).m_active = true ∨
          find w.heap.time (w.heap.key key).m_time (w.heap.curve c).m_inactiveKeys = some key) →
        (h2.curve c).m_inactiveKeys = (w.heap.curve c).m_inactiveKeys) := by
  have hl := hr.inv.wf.linked
  have S2 : Key.StateIsIf w.heap
      (if (w.heap.key key).m_active = true then
        find w.heap.time (w.heap.key key).m_time (w.heap.curve c).m_inactiveKeys
       else none) (some c) false (w.heap.key key).m_time := clashingInactive_state hl
  obtain ⟨h1, h2, hdo, hun, hc⟩ := setTime_do_undo hl (c := c) (t := t)
    ⟨hp, rfl, rfl⟩ S2 (clashingKey_state hl) hne
    (fun e => getKey_none_free hl e) (fun e => by simp [e])
  have hin : (h2.curve c).m_inactiveKeys =
      (if (w.heap.key key).m_active = true then (w.heap.curve c).m_inactiveKeys
       else insert_before_lower_bound w.heap.time (w.heap.key key).m_time key
        ((w.heap.curve c).m_inactiveKeys.erase key)) := by
    rw [core_eq_curve hc]
    simp only [Heap.inactiveKeys_setInactiveKeys, if_true]
    cases ha : (w.heap.key key).m_active with
    | false => simp [linkInactiveKeys, unlinkInactiveKeys, Heap.time]
    | true =>
      simp only [linkInactiveKeys, unlinkInactiveKeys, if_true]
      cases hf : find w.heap.time (w.heap.key key).m_time (w.heap.curve c).m_inactiveKeys with
      | none => rfl
      | some x => exact insert_erase_find w.heap.time (hl.sortedInactive c) hf
  refine ⟨h1, h2, hdo, hun, ?_, ?_, ?_, hin, ?_⟩
  · intro x; rw [core_eq_curve hc]; simp
  · intro k
    refine ⟨?_, ?_, ?_⟩
    · rw [core_eq_parent hc]; simp
    · have := congrFun (core_eq_time hc) k
      exact this
    · rw [core_eq_active hc]; simp
  · intro x hx; rw [core_eq_curve hc]; simp [hx]
  · intro hor
    rw [hin]
    rcases hor with ha | hf
    · rw [if_pos ha]
    · split_ifs with ha
      · rfl
      · exact insert_erase_find w.heap.time (hl.sortedInactive c) hf

/-- C9 as amended, in the state `exStack` for the inactive key 1, the first
inactive key of time 0, moved to time 5. -/
theorem C9_setTime_do_undo_witness :
    ∃ h1 h2,
      setTimeDo 0 5 (exStack.heap.key 1).m_time (exStack.heap.key 1).m_active 1
        (CurvePlug.getKey exStack.heap 0 5)
        (if (exStack.heap.key 1).m_active = true then
          find exStack.heap.time (exStack.heap.key 1).m_time (exStack.heap.curve 0).m_inactiveKeys
         else none) exStack.heap = .ok h1 ∧
      setTimeUndo 0 5 (exStack.heap.key 1).m_time (exStack.heap.key 1).m_active 1
        (CurvePlug.getKey exStack.heap 0 5)
        (if (exStack.heap.key 1).m_active = true then
          find exStack.heap.time (exStack.heap.key 1).m_time (exStack.heap.curve 0).m_inactiveKeys
         else none) h1 = .ok h2 ∧
      (∀ x, (h2.curve x).m_keys = (exStack.heap.curve x).m_keys) ∧
      (∀ k, (h2.key k).m_parent = (exStack.heap.key k).m_parent ∧
        (h2.key k).m_time = (exStack.heap.key k).m_time ∧
        (h2.key k).m_active = (exStack.heap.key k).m_active) ∧
      (∀ x, x ≠ 0 → (h2.curve x).m_inactiveKeys = (exStack.heap.curve x).m_inactiveKeys) ∧
      (h2.curve 0).m_inactiveKeys =
        (if (exStack.heap.key 1).m_active = true then (exStack.heap.curve 0).m_inactiveKeys
         else insert_before_lower_bound exStack.heap.time (exStack.heap.key 1).m_time 1
          ((exStack.heap.curve 0).m_inactiveKeys.erase 1)) ∧
      (((exStack.heap.key 1).m_active = true ∨
          find exStack.heap.time (exStack.heap.key 1).m_time
            (exStack.heap.curve 0).m_inactiveKeys = some 1) →
        (h2.curve 0).m_inactiveKeys = (exStack.heap.curve 0).m_inactiveKeys) :=
  C9_setTime_do_undo exStack_reachable 0 1 5 (by decide!) (by decide!)

/-! ### Do followed by Undo of removeKey -/

theorem reparent_core_congr {a b : Heap α} (hc : a.core = b.core) (key : KeyId)
    (p : Option CurveId) (f : Bool) :
    ((a.setParent key p).setActive key f).core = ((b.setParent key p).setActive key f).core := by
  rw [Heap.setParent_setActive_eq, Heap.setParent_setActive_eq, Heap.core_setKey,
    Heap.core_setKey, hc]
  congr 1
  have := core_eq_key hc key
  show ({ a.key key with m_parent := p, m_active := f } : Key α).core =
    ({ b.key key with m_parent := p, m_active := f } : Key α).core
  simp only [Key.core] at this ⊢
  simp only [Key.mk.injEq] at this ⊢
  simp_all

/-- The Do closure of `removeKey` followed by its Undo closure: both run, and
the heap is the prior one up to the cached spans and to the position at which
the removed inactive key is put back. -/
theorem removeKey_do_undo {h : Heap α} (hl : Linked h) {c : CurveId} {key : KeyId} {a : Bool}
    {ck : Option KeyId} (S1 : Key.StateIs h key (some c) a (h.time key))
    (S2 : Key.StateIsIf h ck (some c) false (h.time key)) (hck : a = false → ck = none) :
    ∃ h1 h2, removeKeyDo c key ck a (h.time key) h = .ok h1 ∧
      removeKeyUndo c key ck a (h.time key) h1 = .ok h2 ∧
      h2.core = (h.setInactiveKeys c (linkInactiveKeys h.time a key ck
        (unlinkInactiveKeys a key ck (h.curve c).m_inactiveKeys))).core := by
  obtain ⟨h1, hdo⟩ := removeKeyDo_succeeds S1 S2
  obtain ⟨_, _, hc1⟩ := removeKeyDo_ok hdo
  have hne : ck ≠ some key := by
    intro e
    have h1 := (S2 key e).2.1
    rw [S1.2.1] at h1
    have := hck h1
    rw [this] at e; cases e
  rw [removeKeyDoLink_eq c key ck a h hne, Key.Dispose_eq] at hc1
  have T1 : Key.StateIs h1 key none false (h.time key) := by
    refine Key.StateIs.of_core hc1 ⟨?_, ?_, ?_⟩
    · simp
    · simp
    · simp only [Heap.setKey_key, if_true]
      rw [unlink_key_of_ne c a key ck h key hne]; rfl
  have T2 : Key.StateIsIf h1 ck (some c) true (h.time key) := by
    intro x hx
    obtain ⟨q1, q2, q3⟩ := S2 x hx
    have hxk : x ≠ key := fun e => hne (by rw [hx, e])
    have ha : a = true := by
      cases a with
      | true => rfl
      | false => rw [hck rfl] at hx; cases hx
    refine Key.StateIs.of_core hc1 ⟨?_, ?_, ?_⟩
    · simp [hxk, q1]
    · simp only [Heap.setKey_key, hxk, if_false]
      rw [unlink_active]; simp [ha, hx]
    · simp [hxk, q3]
  obtain ⟨h2, hun⟩ := @removeKeyUndo_succeeds _ _ c key ck a (h.time key) h1 T1 T2
  obtain ⟨_, _, hc2⟩ := removeKeyUndo_ok hun
  have ht1 : h.time key = h1.time key := T1.2.2.symm
  have hc3 : h2.core = (removeKeyUndoLink c key ck a (h1.time key) h1).core := by
    rw [← ht1]; exact hc2
  rw [removeKeyUndoLink_eq] at hc3
  refine ⟨h1, h2, hdo, hun, ?_⟩
  rw [hc3, reparent_core_congr (link_core_congr hc1 c a key ck) key (some c) a,
    link_setKey c a key ck _ _ hne (by rw [Heap.time, unlink_key_of_ne c a key ck h key hne]),
    link_unlink hl S1.1 S1.2.1 (fun _ => S2), Heap.setParent_setActive_eq, Heap.setKey_setKey]
  congr 1
  conv_rhs => rw [← Heap.setKey_self (h.setInactiveKeys c _) key]
  congr 1
  simp only [Heap.setKey_key, if_true, Heap.setInactiveKeys_key]
  rw [unlink_key_of_ne c a key ck h key hne]
  obtain ⟨q1, q2, _⟩ := S1
  cases hk : h.key key
  simp_all

theorem Heap.setInactiveKeys_self (h : Heap α) (c : CurveId) :
    h.setInactiveKeys c (h.curve c).m_inactiveKeys = h := by
  apply Heap.ext_fields
  · intro k; rfl
  · intro x; simp
  · intro x; simp only [Heap.inactiveKeys_setInactiveKeys]; split_ifs with hx
    · rw [hx]
    · rfl
  · rfl

/-- C11 fails as stated: in the reachable state `exStack` the inactive keys of
time 0 are key 1, key 0 in that order; the Do closure of `removeKey( key0 )`
followed by its Undo closure leaves them in the order key 0, key 1. -/
theorem C11_counterexample :
    Reachable exampleNumeric exStack ∧
    (exStack.heap.key 0).m_parent = some 0 ∧ (exStack.heap.key 0).m_active = false ∧
    (exStack.heap.key 0).m_time = 0 ∧
    (exStack.heap.curve 0).m_inactiveKeys = [1, 0] ∧
    removeKeyDo 0 0 none false 0 exStack.heap = .ok exStackRemoved ∧
    removeKeyUndo 0 0 none false 0 exStackRemoved = .ok exStackRestored ∧
    (exStackRestored.curve 0).m_inactiveKeys = [0, 1] ∧
    (exStackRestored.curve 0).m_inactiveKeys ≠ (exStack.heap.curve 0).m_inactiveKeys :=
  ⟨exStack_reachable, by decide!, by decide!, by decide!, by decide!,
    Heap.after_eq_of_succeeds exStack.heap
      (removeKeyDo_succeeds ⟨by decide!, by decide!, by decide!⟩ (fun x hx => by cases hx)),
    Heap.after_eq_of_succeeds exStackRemoved
      (removeKeyUndo_succeeds ⟨by decide!, by decide!, by decide!⟩ (fun x hx => by cases hx)),
    by decide!, by decide!⟩

/-- C11 as amended: in every reachable state and for every parented key (active
or inactive), the Do closure of `removeKey` and then its Undo closure both run
and restore the active key sequence of every curve, the parent, time and active
flag of every key, and the inactive key sequences, except that a removed key
that was inactive is put back in front of the inactive keys that share its
time; so when the removed key was active or was the first inactive key of its
time the heap is the prior one up to the cached spans of the tangents. -/
theorem C11_removeKey_do_undo {ν : Numeric α} {w : Script α} (hr : Reachable ν w)
    (c : CurveId) (key : KeyId) (hp : (w.heap.key key).m_parent = some c) :
    ∃ h1 h2,
      removeKeyDo c key
        (if (w.heap.key key).m_active = true then
          find w.heap.time (w.heap.key key).m_time (w.heap.curve c).m_inactiveKeys
         else none) (w.heap.key key).m_active (w.heap.key key).m_time w.heap = .ok h1 ∧
      removeKeyUndo c key
        (if (w.heap.key key).m_active = true then
          find w.heap.time (w.heap.key key).m_time (w.heap.curve c).m_inactiveKeys
         else none) (w.heap.key key).m_active (w.heap.key key).m_time h1 = .ok h2 ∧
      (h1.key key).m_parent = none ∧
      (∀ x, (h2.curve x).m_keys = (w.heap.curve x).m_keys) ∧
      (∀ k, (h2.key k).m_parent = (w.heap.key k).m_parent ∧
        (h2.key k).m_time = (w.heap.key k).m_time ∧
        (h2.key k).m_active = (w.heap.key k).m_active) ∧
      (∀ x, x ≠ c → (h2.curve x).m_inactiveKeys = (w.heap.curve x).m_inactiveKeys) ∧
      (h2.curve c).m_inactiveKeys =
        (if (w.heap.key key).m_active = true then (w.heap.curve c).m_inactiveKeys
         else insert_before_lower_bound w.heap.time (w.heap.key key).m_time key
          ((w.heap.curve c).m_inactiveKeys.erase key)) ∧
      (((w.heap.key key).m_active = true ∨
          find w.heap.time (w.heap.key key).m_time (w.heap.curve c).m_inactiveKeys = some key) →
        h2.core = w.heap.core) := by
  have hl := hr.inv.wf.linked
  have S2 : Key.StateIsIf w.heap
      (if (w.heap.key key).m_active = true then
        find w.heap.time (w.heap.key key).m_time (w.heap.curve c).m_inactiveKeys
       else none) (some c) false (w.heap.key key).m_time := clashingInactive_state hl
  obtain ⟨h1, h2, hdo, hun, hc⟩ := @removeKey_do_undo _ _ w.heap hl c key _ _
    ⟨hp, rfl, rfl⟩ S2 (fun e => by simp [e])
  have hL : linkInactiveKeys w.heap.time (w.heap.key key).m_active key
      (if (w.heap.key key).m_active = true then
        find w.heap.time (w.heap.key key).m_time (w.heap.curve c).m_inactiveKeys
       else none)
      (unlinkInactiveKeys (w.heap.key key).m_active key
        (if (w.heap.key key).m_active = true then
          find w.heap.time (w.heap.key key).m_time (w.heap.curve c).m_inactiveKeys
         else none) (w.heap.curve c).m_inactiveKeys) =
      (if (w.heap.key key).m_active = true then (w.heap.curve c).m_inactiveKeys
       else insert_before_lower_bound w.heap.time (w.heap.key key).m_time key
        ((w.heap.curve c).m_inactiveKeys.erase key)) := by
    cases ha : (w.heap.key key).m_active with
    | false => simp [linkInactiveKeys, unlinkInactiveKeys, Heap.time]
    | true =>
      simp only [linkInactiveKeys, unlinkInactiveKeys, if_true]
      cases hf : find w.heap.time (w.heap.key key).m_time (w.heap.curve c).m_inactiveKeys with
      | none => rfl
      | some x => exact insert_erase_find w.heap.time (hl.sortedInactive c) hf
  have hin : (h2.curve c).m_inactiveKeys =
      (if (w.heap.key key).m_active = true then (w.heap.curve c).m_inactiveKeys
       else insert_before_lower_bound w.heap.time (w.heap.key key).m_time key
        ((w.heap.curve c).m_inactiveKeys.erase key)) := by
    rw [core_eq_curve hc]
    simp only [Heap.inactiveKeys_setInactiveKeys, if_true]
    exact hL
  refine ⟨h1, h2, hdo, hun, (removeKeyUndo_ok hun).1.1, ?_, ?_, ?_, hin, ?_⟩
  · intro x; rw [core_eq_curve hc]; simp
  · intro k
    refine ⟨?_, ?_, ?_⟩
    · rw [core_eq_parent hc]; simp
    · have := congrFun (core_eq_time hc) k
      exact this
    · rw [core_eq_active hc]; simp
  · intro x hx; rw [core_eq_curve hc]; simp [hx]
  · intro hor
    rw [hc]
    have hL2 : linkInactiveKeys w.heap.time (w.heap.key key).m_active key
        (if (w.heap.key key).m_active = true then
          find w.heap.time (w.heap.key key).m_time (w.heap.curve c).m_inactiveKeys
         else none)
        (unlinkInactiveKeys (w.heap.key key).m_active key
          (if (w.heap.key key).m_active = true then
            find w.heap.time (w.heap.key key).m_time (w.heap.curve c).m_inactiveKeys
           else none) (w.heap.curve c).m_inactiveKeys) = (w.heap.curve c).m_inactiveKeys := by
      rw [hL]
      rcases hor with ha | hf
      · rw [if_pos ha]
      · split_ifs with ha
        · rfl
        · exact insert_erase_find w.heap.time (hl.sortedInactive c) hf
    rw [hL2, Heap.setInactiveKeys_self]

/-- C11 as amended, in the state `exStack` for the inactive key 1, the first
inactive key of time 0. -/
theorem C11_removeKey_do_undo_witness :
    ∃ h1 h2,
      removeKeyDo 0 1
        (if (exStack.heap.key 1).m_active = true then
          find exStack.heap.time (exStack.heap.key 1).m_time (exStack.heap.curve 0).m_inactiveKeys
         else none) (exStack.heap.key 1).m_active (exStack.heap.key 1).m_time exStack.heap =
        .ok h1 ∧
      removeKeyUndo 0 1
        (if (exStack.heap.key 1).m_active = true then
          find exStack.heap.time (exStack.heap.key 1).m_time (exStack.heap.curve 0).m_inactiveKeys
         else none) (exStack.heap.key 1).m_active (exStack.heap.key 1).m_time h1 = .ok h2 ∧
      (h1.key 1).m_parent = none ∧
      (∀ x, (h2.curve x).m_keys = (exStack.heap.curve x).m_keys) ∧
      (∀ k, (h2.key k).m_parent = (exStack.heap.key k).m_parent ∧
        (h2.key k).m_time = (exStack.heap.key k).m_time ∧
        (h2.key k).m_active = (exStack.heap.key k).m_active) ∧
      (∀ x, x ≠ 0 → (h2.curve x).m_inactiveKeys = (exStack.heap.curve x).m_inactiveKeys) ∧
      (h2.curve 0).m_inactiveKeys =
        (if (exStack.heap.key 1).m_active = true then (exStack.heap.curve 0).m_inactiveKeys
         else insert_before_lower_bound exStack.heap.time (exStack.heap.key 1).m_time 1
          ((exStack.heap.curve 0).m_inactiveKeys.erase 1)) ∧
      (((exStack.heap.key 1).m_active = true ∨
          find exStack.heap.time (exStack.heap.key 1).m_time
            (exStack.heap.curve 0).m_inactiveKeys = some 1) →
        h2.core = exStack.heap.core) :=
  C11_removeKey_do_undo exStack_reachable 0 1 (by decide!)

/-! ### The error of removeKey -/

theorem throwIfStateNotAsExpected_message (h : Heap α) (k : KeyId) (p : Option CurveId)
    (a : Bool) (t : α) :
    Key.throwIfStateNotAsExpected h k p a t ≠ .error "Key is not a child" := by
  unfold Key.throwIfStateNotAsExpected
  split_ifs <;> simp [throw, throwThe, MonadExceptOf.throw, pure, Except.pure]

theorem throwIfStateNotAsExpectedIf_message (h : Heap α) (k : Option KeyId)
    (p : Option CurveId) (a : Bool) (t : α) :
    Key.throwIfStateNotAsExpectedIf h k p a t ≠ .error "Key is not a child" := by
  cases k with
  | none => simp [Key.throwIfStateNotAsExpectedIf, pure, Except.pure]
  | some x => exact throwIfStateNotAsExpected_message h x p a t

theorem removeKeyDo_message (this : CurveId) (key : KeyId) (ck : Option KeyId) (active : Bool)
    (time : α) (h : Heap α) :
    removeKeyDo this key ck active time h ≠ .error "Key is not a child" := by
  unfold removeKeyDo
  have m1 := throwIfStateNotAsExpected_message h key (some this) active time
  have m2 := throwIfStateNotAsExpectedIf_message h ck (some this) false time
  cases e1 : Key.throwIfStateNotAsExpected h key (some this) active time with
  | error e =>
    rw [e1] at m1
    simpa [bind, Except.bind] using m1
  | ok u =>
    cases e2 : Key.throwIfStateNotAsExpectedIf h ck (some this) false time with
    | error e =>
      rw [e2] at m2
      simpa [bind, Except.bind] using m2
    | ok u2 =>
      cases ck <;> simp [bind, Except.bind, pure, Except.pure]

/-- C20: `removeKey( key )` raises 'Key is not a child' exactly when the parent
of the key is not this curve, and the call then changes nothing: the test is
the first statement of the method, so the script state after the call is the
state before it. -/
theorem C20_removeKey_not_a_child (w : Script α) (this : CurveId) (key : KeyId) :
    (CurvePlug.removeKey w this key = .error "Key is not a child" ↔
      (w.heap.key key).m_parent ≠ some this) ∧
    ((w.heap.key key).m_parent ≠ some this →
      Script.after w (CurvePlug.removeKey w this key) = w) := by
  refine ⟨⟨?_, ?_⟩, ?_⟩
  · intro he hp
    unfold CurvePlug.removeKey at he
    rw [if_neg (not_not.mpr hp)] at he
    simp only [Action.enact, Action.doFn] at he
    split at he
    · cases he
    · rename_i e hdo
      simp only [Except.error.injEq] at he
      subst he
      exact removeKeyDo_message _ _ _ _ _ _ hdo
  · intro hp
    unfold CurvePlug.removeKey
    rw [if_pos hp]; rfl
  · intro hp
    unfold CurvePlug.removeKey
    rw [if_pos hp]; rfl

/-! ### insertKey at the time of an active key -/

theorem setValueDo_core (key : KeyId) (value : α) (h : Heap α) :
    (setValueDo key value h).core = (h.setValue key value).core := by
  simp [setValueDo]

/-- `Key::setValue` always returns; the key then has the value, and the
containers, the allocation counter, and the parent, active flag, time and
interpolation of every key are as before. -/
theorem Key.setValue_succeeds (w : Script α) (key : KeyId) (value : α) :
    ∃ w1, Key.setValue w key value = .ok w1 ∧ (w1.heap.key key).m_value = value ∧
      w1.heap.curve = w.heap.curve ∧ w1.heap.keyCount = w.heap.keyCount ∧
      (∀ x, x ≠ key → (w1.heap.key x).core = (w.heap.key x).core) ∧
      (∀ x, (w1.heap.key x).m_parent = (w.heap.key x).m_parent ∧
        (w1.heap.key x).m_active = (w.heap.key x).m_active ∧
        (w1.heap.key x).m_time = (w.heap.key x).m_time ∧
        (w1.heap.key x).m_interpolator = (w.heap.key x).m_interpolator) := by
  have key_fields : ∀ x, ((w.heap.setValue key value).key x).m_parent = (w.heap.key x).m_parent ∧
      ((w.heap.setValue key value).key x).m_active = (w.heap.key x).m_active ∧
      ((w.heap.setValue key value).key x).m_time = (w.heap.key x).m_time ∧
      ((w.heap.setValue key value).key x).m_interpolator = (w.heap.key x).m_interpolator := by
    intro x
    simp only [Heap.setValue, Heap.setKey_key]
    split_ifs with hx
    · subst hx; exact ⟨rfl, rfl, rfl, rfl⟩
    · exact ⟨rfl, rfl, rfl, rfl⟩
  have key_ne : ∀ x, x ≠ key → ((w.heap.setValue key value).key x) = (w.heap.key x) := by
    intro x hx
    simp [Heap.setValue, hx]
  unfold Key.setValue
  split_ifs with h1
  · exact ⟨w, rfl, h1.symm, rfl, rfl, fun _ _ => rfl, fun _ => ⟨rfl, rfl, rfl, rfl⟩⟩
  · split
    · have hc := setValueDo_core key value w.heap
      refine ⟨⟨setValueDo key value w.heap, _ :: w.undoQueue⟩, rfl, ?_, ?_, ?_, ?_, ?_⟩
      · show ((setValueDo key value w.heap).key key).m_value = value
        rw [core_eq_value hc]; simp [Heap.setValue]
      · exact (core_eq_curve hc : (setValueDo key value w.heap).curve = _)
      · exact (core_eq_keyCount hc : (setValueDo key value w.heap).keyCount = _)
      · intro x hx
        show ((setValueDo key value w.heap).key x).core = _
        rw [core_eq_key hc, key_ne x hx]
      · intro x
        show ((setValueDo key value w.heap).key x).m_parent = _ ∧
          ((setValueDo key value w.heap).key x).m_active = _ ∧
          ((setValueDo key value w.heap).key x).m_time = _ ∧
          ((setValueDo key value w.heap).key x).m_interpolator = _
        rw [core_eq_parent hc, core_eq_active hc, core_eq_interpolator hc,
          show ((setValueDo key value w.heap).key x).m_time = _ from
            congrFun (core_eq_time hc) x]
        exact key_fields x
    · refine ⟨{ w with heap := w.heap.setValue key value }, rfl, ?_, rfl, rfl, ?_, key_fields⟩
      · simp [Heap.setValue]
      · intro x hx
        show ((w.heap.setValue key value).key x).core = _
        rw [key_ne x hx]

/-- In a reachable state the span search of `insertKeyInternal` at the time of
an active key finds that key. -/
theorem insertKeySpan_of_mem {h : Heap α} (hl : Linked h) {c : CurveId} {k : KeyId}
    (hk : k ∈ (h.curve c).m_keys) :
    (CurvePlug.insertKeySpan h c (h.key k).m_time).1 = some k := by
  obtain ⟨r, hr⟩ := lower_bound_of_mem h.time (hl.sorted c) hk
  unfold CurvePlug.insertKeySpan
  rw [show (h.key k).m_time = h.time k from rfl, hr]
  simp [Heap.time]

/-- C16: on a curve of a reachable state with an active key `k` at time `t`,
`insertKey( t )` returns `k` and leaves the state as it is (no key is added);
`insertKey( t, v )` returns `k`, after it the value of `k` is `v`, no key is
constructed, and both key containers of every curve are the same, so that
neither the number of active keys nor that of inactive keys changes. -/
theorem C16_insertKey_at_existing_key {ν : Numeric α} {w : Script α} (hr : Reachable ν w)
    (c : CurveId) (k : KeyId) (v : α) (hk : k ∈ (w.heap.curve c).m_keys) :
    CurvePlug.insertKey ν w c (w.heap.key k).m_time = .ok (w, some k) ∧
    ∃ w1, CurvePlug.insertKeyValue ν w c (w.heap.key k).m_time v = .ok (w1, some k) ∧
      (w1.heap.key k).m_value = v ∧ (w1.heap.key k).m_time = (w.heap.key k).m_time ∧
      w1.heap.keyCount = w.heap.keyCount ∧ w1.heap.curve = w.heap.curve ∧
      (w1.heap.curve c).m_keys.length = (w.heap.curve c).m_keys.length ∧
      (w1.heap.curve c).m_inactiveKeys.length = (w.heap.curve c).m_inactiveKeys.length := by
  have hsp := insertKeySpan_of_mem hr.inv.wf.linked hk
  refine ⟨?_, ?_⟩
  · unfold CurvePlug.insertKey CurvePlug.insertKeyInternal
    simp only [hsp]
    rfl
  · obtain ⟨w1, hs, hv, hcurve, hcount, _, hf⟩ := Key.setValue_succeeds w k v
    refine ⟨w1, ?_, hv, (hf k).2.2.1, hcount, hcurve, by rw [hcurve], by rw [hcurve]⟩
    unfold CurvePlug.insertKeyValue CurvePlug.insertKeyInternal
    simp only [hsp, hs]
    rfl

/-- C16 on the curve with the keys (0, 0) and (1, 10), at the time of key 1. -/
theorem C16_insertKey_at_existing_key_witness :
    CurvePlug.insertKey exampleNumeric exTwo 0 (exTwo.heap.key 1).m_time = .ok (exTwo, some 1) ∧
    ∃ w1, CurvePlug.insertKeyValue exampleNumeric exTwo 0 (exTwo.heap.key 1).m_time 7 =
        .ok (w1, some 1) ∧
      (w1.heap.key 1).m_value = 7 ∧ (w1.heap.key 1).m_time = (exTwo.heap.key 1).m_time ∧
      w1.heap.keyCount = exTwo.heap.keyCount ∧ w1.heap.curve = exTwo.heap.curve ∧
      (w1.heap.curve 0).m_keys.length = (exTwo.heap.curve 0).m_keys.length ∧
      (w1.heap.curve 0).m_inactiveKeys.length = (exTwo.heap.curve 0).m_inactiveKeys.length :=
  C16_insertKey_at_existing_key exTwo_reachable 0 1 7 (by decide!)

/-! ### addKey of an unparented key -/

theorem length_insert_unique (tk : KeyId → α) {k : KeyId} {l : List KeyId}
    (hfree : ∀ y ∈ l, tk y ≠ tk k) : (insert_unique tk k l).length = l.length + 1 := by
  induction l with
  | nil => rfl
  | cons a as ih =>
    have ha := hfree a (List.mem_cons_self _ _)
    have ih2 := ih (fun y hy => hfree y (List.mem_cons_of_mem _ hy))
    unfold insert_unique
    split_ifs with h1 h2
    · simp [ih2]
    · simp
    · exact absurd (le_antisymm (not_lt.mp h2) (not_lt.mp h1)) ha

/-- `CurvePlug::addKey` of an unparented key returns the active key of the
curve at the key's time, if any; the new heap is linked and is, up to the
cached spans, the prior heap after the link step with the key parented and
active. -/
theorem CurvePlug.addKey_unparented {w : Script α} (hl : Linked w.heap) (c : CurveId)
    {key : KeyId} (hp : (w.heap.key key).m_parent = none) :
    ∃ w1, CurvePlug.addKey w c key false =
        .ok (w1, CurvePlug.getKey w.heap c (w.heap.key key).m_time) ∧
      Linked w1.heap ∧
      w1.undoQueue = Action.addKey c key (CurvePlug.getKey w.heap c (w.heap.key key).m_time)
        (w.heap.key key).m_time :: w.undoQueue ∧
      w1.heap.core =
        ((Animation.link c true key (CurvePlug.getKey w.heap c (w.heap.key key).m_time)
          w.heap).setKey key { w.heap.key key with m_parent := some c, m_active := true }).core := by
  have S2 : Key.StateIsIf w.heap (CurvePlug.getKey w.heap c (w.heap.key key).m_time) (some c)
      true (w.heap.key key).m_time := clashingKey_state hl
  have hne : CurvePlug.getKey w.heap c (w.heap.key key).m_time ≠ some key := by
    intro e
    have := (S2 key e).1
    rw [hp] at this; cases this
  have S1 : Key.StateIs w.heap key none false (w.heap.key key).m_time :=
    ⟨hp, hl.unparented key hp, rfl⟩
  obtain ⟨h1, hdo⟩ := addKeyDo_succeeds S1 S2
  have hl1 : Linked h1 := addKeyDo_linked hl (fun e => getKey_none_free hl e) hdo
  obtain ⟨_, _, hc1⟩ := addKeyDo_ok hdo
  change h1.core = (addKeyDoLink c key _ (w.heap.time key) w.heap).core at hc1
  rw [addKeyDoLink_eq, Heap.setParent_setActive_eq, link_key_of_ne c true key _ w.heap key hne]
    at hc1
  refine ⟨⟨h1, Action.addKey c key (CurvePlug.getKey w.heap c (w.heap.key key).m_time)
    (w.heap.key key).m_time :: w.undoQueue⟩, ?_, hl1, rfl, hc1⟩
  unfold CurvePlug.addKey
  simp only [hne, if_false, hp, bind, Except.bind, pure, Except.pure, Action.enact, Action.doFn,
    hdo]
  cases CurvePlug.getKey w.heap c (w.heap.key key).m_time <;> rfl

/-- C19: in a reachable state, `addKey( k )` of an unparented key `k` returns
the active key of the curve at the time of `k`, or null when there is none, and
leaves `k` parented, active, with its time, and found by `getKey` at that time.
When an active key `x` had that time, `x` is the returned key, it stays
parented to the curve, is inactive, keeps its time, is in the inactive
container, and the number of active keys is unchanged.  When no active key had
that time the call returns null and the number of active keys grows by one. -/
theorem C19_addKey_return_and_eviction {ν : Numeric α} {w : Script α} (hr : Reachable ν w)
    (c : CurveId) (k : KeyId) (hp : (w.heap.key k).m_parent = none) :
    ∃ w1, CurvePlug.addKey w c k false =
        .ok (w1, CurvePlug.getKey w.heap c (w.heap.key k).m_time) ∧
      (w1.heap.key k).m_parent = some c ∧ (w1.heap.key k).m_active = true ∧
      (w1.heap.key k).m_time = (w.heap.key k).m_time ∧
      CurvePlug.getKey w1.heap c (w.heap.key k).m_time = some k ∧
      (∀ x, x ∈ (w.heap.curve c).m_keys → (w.heap.key x).m_time = (w.heap.key k).m_time →
        CurvePlug.getKey w.heap c (w.heap.key k).m_time = some x ∧
        (w1.heap.key x).m_parent = some c ∧ (w1.heap.key x).m_active = false ∧
        (w1.heap.key x).m_time = (w.heap.key k).m_time ∧
        x ∈ (w1.heap.curve c).m_inactiveKeys ∧
        (w1.heap.curve c).m_keys.length = (w.heap.curve c).m_keys.length) ∧
      ((∀ x ∈ (w.heap.curve c).m_keys, (w.heap.key x).m_time ≠ (w.heap.key k).m_time) →
        CurvePlug.getKey w.heap c (w.heap.key k).m_time = none ∧
        (w1.heap.curve c).m_keys.length = (w.heap.curve c).m_keys.length + 1) := by
  have hl := hr.inv.wf.linked
  obtain ⟨w1, hs, hl1, _, hc⟩ := CurvePlug.addKey_unparented hl c hp
  have hkp : (w1.heap.key k).m_parent = some c := by rw [core_eq_parent hc]; simp
  have hka : (w1.heap.key k).m_active = true := by rw [core_eq_active hc]; simp
  have hkt : (w1.heap.key k).m_time = (w.heap.key k).m_time := by
    have := congrFun (core_eq_time hc) k
    simp only [Heap.time, Heap.setKey_key, if_true] at this
    exact this
  have hkeys : (w1.heap.curve c).m_keys =
      linkKeys w.heap.time true k (CurvePlug.getKey w.heap c (w.heap.key k).m_time)
        (w.heap.curve c).m_keys := by
    rw [core_eq_curve hc]; simp
  refine ⟨w1, hs, hkp, hka, hkt, ?_, ?_, ?_⟩
  · have := hl1.getKey_of_active hkp hka
    rw [hkt] at this; exact this
  · intro x hx hxt
    have hg : CurvePlug.getKey w.heap c (w.heap.key k).m_time = some x := by
      have := find_of_mem w.heap.time (hl.sorted c) hx
      rw [show w.heap.time x = (w.heap.key k).m_time from hxt] at this
      exact this
    obtain ⟨q1, q2⟩ := (hl.mem_keys c x).1 hx
    have hxk : x ≠ k := fun e => by rw [e, hp] at q1; cases q1
    have hxp : (w1.heap.key x).m_parent = some c := by
      rw [core_eq_parent hc]; simp [hxk, q1]
    have hxa : (w1.heap.key x).m_active = false := by
      rw [core_eq_active hc]
      simp only [Heap.setKey_key, hxk, if_false]
      rw [link_active]; simp [hg]
    refine ⟨hg, hxp, hxa, ?_, (hl1.mem_inactiveKeys c x).2 ⟨hxp, hxa⟩, ?_⟩
    · have := congrFun (core_eq_time hc) x
      simp only [Heap.time, Heap.setKey_key, hxk, if_false, link_key_time] at this
      rw [this]; exact hxt
    · rw [hkeys, hg]
      simp [linkKeys, length_replace_node]
  · intro hfree
    have hg : CurvePlug.getKey w.heap c (w.heap.key k).m_time = none := by
      cases hgk : CurvePlug.getKey w.heap c (w.heap.key k).m_time with
      | none => rfl
      | some x =>
        obtain ⟨hm, ht⟩ := find_some w.heap.time _ _ hgk
        exact absurd ht (hfree x hm)
    refine ⟨hg, ?_⟩
    rw [hkeys, hg]
    simp only [linkKeys, if_true]
    exact length_insert_unique w.heap.time hfree

/-- C19 for the unparented key 2 at time 1 added to the curve with the keys
(0, 0) and (1, 10): the call returns key 1, which becomes inactive. -/
theorem C19_addKey_return_and_eviction_witness :
    ∃ w1, CurvePlug.addKey exSpare 0 2 false =
        .ok (w1, CurvePlug.getKey exSpare.heap 0 (exSpare.heap.key 2).m_time) ∧
      (w1.heap.key 2).m_parent = some 0 ∧ (w1.heap.key 2).m_active = true ∧
      (w1.heap.key 2).m_time = (exSpare.heap.key 2).m_time ∧
      CurvePlug.getKey w1.heap 0 (exSpare.heap.key 2).m_time = some 2 ∧
      (∀ x, x ∈ (exSpare.heap.curve 0).m_keys →
        (exSpare.heap.key x).m_time = (exSpare.heap.key 2).m_time →
        CurvePlug.getKey exSpare.heap 0 (exSpare.heap.key 2).m_time = some x ∧
        (w1.heap.key x).m_parent = some 0 ∧ (w1.heap.key x).m_active = false ∧
        (w1.heap.key x).m_time = (exSpare.heap.key 2).m_time ∧
        x ∈ (w1.heap.curve 0).m_inactiveKeys ∧
        (w1.heap.curve 0).m_keys.length = (exSpare.heap.curve 0).m_keys.length) ∧
      ((∀ x ∈ (exSpare.heap.curve 0).m_keys,
          (exSpare.heap.key x).m_time ≠ (exSpare.heap.key 2).m_time) →
        CurvePlug.getKey exSpare.heap 0 (exSpare.heap.key 2).m_time = none ∧
        (w1.heap.curve 0).m_keys.length = (exSpare.heap.curve 0).m_keys.length + 1) :=
  C19_addKey_return_and_eviction exSpare_reachable 0 2 rfl

/-! ### Keys created by insertKey -/

theorem mem_before_lower_bound_imp (tk : KeyId → α) (t : α) {l : List KeyId} {x : KeyId}
    (hx : x ∈ before_lower_bound tk t l) : x ∈ l ∧ tk x < t := by
  induction l with
  | nil => simp [before_lower_bound] at hx
  | cons a as ih =>
    unfold before_lower_bound at hx
    split_ifs at hx with h1
    · rcases List.mem_cons.1 hx with h | h
      · subst h; exact ⟨List.mem_cons_self _ _, h1⟩
      · exact ⟨List.mem_cons_of_mem _ (ih h).1, (ih h).2⟩
    · simp at hx

theorem lower_bound_nil_imp (tk : KeyId → α) (t : α) {l : List KeyId}
    (h : lower_bound tk t l = []) : ∀ x ∈ l, tk x < t := by
  induction l with
  | nil => simp
  | cons a as ih =>
    unfold lower_bound at h
    split_ifs at h with h1
    intro x hx
    rcases List.mem_cons.1 hx with e | e
    · rw [e]; exact h1
    · exact ih h x e

/-- When no active key has the time, the span search of `insertKeyInternal`
finds no key at the time, `lo` is the last key before the `lower_bound`
position and `hi` the key at that position. -/
theorem insertKeySpan_free (h : Heap α) (c : CurveId) (t : α)
    (hfree : ∀ y ∈ (h.curve c).m_keys, (h.key y).m_time ≠ t) :
    CurvePlug.insertKeySpan h c t =
      (none, (before_lower_bound h.time t (h.curve c).m_keys).getLast?,
        (lower_bound h.time t (h.curve c).m_keys).head?) := by
  unfold CurvePlug.insertKeySpan
  cases hlb : lower_bound h.time t (h.curve c).m_keys with
  | nil =>
    simp only [List.head?_nil]
    rw [before_lower_bound_of_all_lt h.time t (lower_bound_nil_imp h.time t hlb)]
    rfl
  | cons hi r =>
    have hmem : hi ∈ (h.curve c).m_keys :=
      lower_bound_sublist h.time t _ hi (by rw [hlb]; exact List.mem_cons_self _ _)
    simp only [List.head?_cons]
    rw [if_neg (hfree hi hmem)]
    cases hb : (before_lower_bound h.time t (h.curve c).m_keys).getLast? with
    | none => rfl
    | some lo =>
      have := (mem_before_lower_bound_imp h.time t (List.mem_of_getLast?_eq_some hb)).1
      simp only
      rw [if_neg (hfree lo this)]

theorem getKey_eq_none_of_free (h : Heap α) (c : CurveId) (t : α)
    (hfree : ∀ y ∈ (h.curve c).m_keys, (h.key y).m_time ≠ t) : CurvePlug.getKey h c t = none := by
  cases hg : CurvePlug.getKey h c t with
  | none => rfl
  | some x =>
    obtain ⟨hm, ht⟩ := find_some h.time _ _ hg
    exact absurd ht (hfree x hm)

theorem Heap.WF.lt_keyCount {h : Heap α} (hw : Heap.WF h) {c : CurveId} {x : KeyId}
    (hx : x ∈ (h.curve c).m_keys) : x < h.keyCount := by
  by_contra hcon
  have := hw.fresh x (not_lt.mp hcon)
  rw [((hw.linked.mem_keys c x).1 hx).1] at this
  cases this

/-- The key that `insertKeyInternal` constructs, given the value `v`, is added
to the curve as a new active key when no active key has its time. -/
theorem CurvePlug.addKey_created (ν : Numeric α) {w : Script α} (hi : w.Inv) (c : CurveId)
    (t v0 v : α) (i : Interpolation) (a b p q : α)
    (hfree : ∀ y ∈ (w.heap.curve c).m_keys, (w.heap.key y).m_time ≠ t) :
    ∃ w1, CurvePlug.addKey
        { w with heap := (Key.new ν w.heap t v0 i a b p q).1.setValue w.heap.keyCount v }
        c w.heap.keyCount false = .ok (w1, none) ∧
      Linked w1.heap ∧
      (w1.heap.key w.heap.keyCount).m_parent = some c ∧
      (w1.heap.key w.heap.keyCount).m_active = true ∧
      (w1.heap.key w.heap.keyCount).m_time = t ∧
      (w1.heap.key w.heap.keyCount).m_value = v ∧
      (w1.heap.key w.heap.keyCount).m_interpolator = i ∧
      (∀ x, x ∈ (w1.heap.curve c).m_keys ↔ x = w.heap.keyCount ∨ x ∈ (w.heap.curve c).m_keys) ∧
      (w1.heap.curve c).m_keys.length = (w.heap.curve c).m_keys.length + 1 ∧
      (∀ x, (w1.heap.curve x).m_inactiveKeys = (w.heap.curve x).m_inactiveKeys) ∧
      (∀ x, x ≠ c → (w1.heap.curve x).m_keys = (w.heap.curve x).m_keys) ∧
      (∀ x, x ≠ w.heap.keyCount → (w1.heap.key x).core = (w.heap.key x).core) ∧
      w1.heap.keyCount = w.heap.keyCount + 1 := by
  have hnew := Key.new_inv ν hi t v0 i a b p q
  have hi2 : Script.Inv { w with heap :=
      (Key.new ν w.heap t v0 i a b p q).1.setValue w.heap.keyCount v } :=
    hnew.setKey_unparented _ (Key.new_parent ..) (by simp [Key.new]) (by simp [Key.new])
  generalize hh2 : (Key.new ν w.heap t v0 i a b p q).1.setValue w.heap.keyCount v = h2 at hi2 ⊢
  have hk2 : h2.key w.heap.keyCount =
      { m_parent := none
        m_in := { m_dt := 0, m_dv := 0, m_slope := a, m_scale := clamp b 0 (maxScale ν a) }
        m_out := { m_dt := 0, m_dv := 0, m_slope := p, m_scale := clamp q 0 (maxScale ν p) }
        m_time := t
        m_value := v
        m_interpolator := i
        m_active := false } := by
    rw [← hh2]; simp [Key.new, Heap.setValue]
  have hne2 : ∀ x, x ≠ w.heap.keyCount → h2.key x = w.heap.key x := by
    intro x hx
    rw [← hh2]; simp [Key.new, Heap.setValue, hx]
  have hcurve2 : h2.curve = w.heap.curve := by rw [← hh2]; rfl
  have hcount2 : h2.keyCount = w.heap.keyCount + 1 := by rw [← hh2]; rfl
  have hp2 : (h2.key w.heap.keyCount).m_parent = none := by rw [hk2]
  have ht2 : (h2.key w.heap.keyCount).m_time = t := by rw [hk2]
  have hmemne : ∀ y ∈ (w.heap.curve c).m_keys, y ≠ w.heap.keyCount :=
    fun y hy => ne_of_lt (hi.wf.lt_keyCount hy)
  have hfree2 : ∀ y ∈ (h2.curve c).m_keys, h2.time y ≠ h2.time w.heap.keyCount := by
    intro y hy
    rw [hcurve2] at hy
    rw [Heap.time, Heap.time, hne2 y (hmemne y hy), ht2]
    exact hfree y hy
  have hg2 : CurvePlug.getKey h2 c (h2.key w.heap.keyCount).m_time = none :=
    getKey_eq_none_of_free h2 c _ hfree2
  obtain ⟨w1, hs, hl1, _, hc⟩ :=
    CurvePlug.addKey_unparented (w := { w with heap := h2 }) hi2.wf.linked c hp2
  simp only [hg2] at hs hc
  have hkeys : (w1.heap.curve c).m_keys = insert_unique h2.time w.heap.keyCount
      (w.heap.curve c).m_keys := by
    rw [core_eq_curve hc]; simp [linkKeys, hcurve2]
  refine ⟨w1, hs, hl1, ?_, ?_, ?_, ?_, ?_, ?_, ?_, ?_, ?_, ?_, ?_⟩
  · rw [core_eq_parent hc]; simp
  · rw [core_eq_active hc]; simp
  · have := congrFun (core_eq_time hc) w.heap.keyCount
    simp only [Heap.time, Heap.setKey_key, if_true] at this
    rw [this, ht2]
  · rw [core_eq_value hc]; simp [hk2]
  · rw [core_eq_interpolator hc]; simp [hk2]
  · intro x
    rw [hkeys, mem_insert_unique h2.time (by rw [← hcurve2]; exact hfree2)]
  · rw [hkeys]
    exact length_insert_unique h2.time (by rw [← hcurve2]; exact hfree2)
  · intro x
    rw [core_eq_curve hc]; simp [linkInactiveKeys, hcurve2]
    intro e; rw [e]
  · intro x hx
    rw [core_eq_curve hc]; simp [hx, hcurve2]
  · intro x hx
    rw [core_eq_key hc]
    simp only [Heap.setKey_key, hx, if_false]
    rw [link_key_of_ne c true _ none h2 x (by simp), hne2 x hx]
  · rw [core_eq_keyCount hc]; simp [hcount2]

theorem Key.new_setValue_self (ν : Numeric α) (h : Heap α) (t v : α) (i : Interpolation)
    (a b p q : α) :
    (Key.new ν h t v i a b p q).1.setValue h.keyCount v = (Key.new ν h t v i a b p q).1 := by
  unfold Heap.setValue
  conv_rhs => rw [← Heap.setKey_self (Key.new ν h t v i a b p q).1 h.keyCount]
  congr 1
  simp [Key.new]

/-- Outside the span of the active keys `insertKeyInternal` has no `lo` or no
`hi`. -/
theorem insertKeySpan_outside (h : Heap α) (c : CurveId) (t : α)
    (hfree : ∀ y ∈ (h.curve c).m_keys, (h.key y).m_time ≠ t)
    (hout : ¬ ∃ a ∈ (h.curve c).m_keys, ∃ b ∈ (h.curve c).m_keys,
      (h.key a).m_time < t ∧ t < (h.key b).m_time) :
    ((before_lower_bound h.time t (h.curve c).m_keys).getLast?.isSome &&
      (lower_bound h.time t (h.curve c).m_keys).head?.isSome) = false := by
  cases hb : (before_lower_bound h.time t (h.curve c).m_keys).getLast? with
  | none => rfl
  | some lo =>
    cases hlb : lower_bound h.time t (h.curve c).m_keys with
    | nil => rfl
    | cons hi r =>
      exfalso
      have h1 := mem_before_lower_bound_imp h.time t (List.mem_of_getLast?_eq_some hb)
      have hmem : hi ∈ (h.curve c).m_keys :=
        lower_bound_sublist h.time t _ hi (by rw [hlb]; exact List.mem_cons_self _ _)
      have h2 := lower_bound_head_not_lt h.time t _ hlb
      exact hout ⟨lo, h1.1, hi, hmem, h1.2,
        lt_of_le_of_ne (not_lt.mp h2) (Ne.symm (hfree hi hmem))⟩

/-- C17: in a reachable state, for a time `t` at which the curve has no active
key and which is not strictly between two active keys (the curve is empty, or
`t` is before the first or after the final key), `insertKey( t )` returns null
and leaves the state as it is, and `insertKey( t, v )` returns a newly
constructed key that is parented to the curve and active, has time `t` and
value `v`, is found by `getKey( t )`, and is the one key added to the active
keys. -/
theorem C17_insertKey_outside_span {ν : Numeric α} {w : Script α} (hr : Reachable ν w)
    (c : CurveId) (t v : α)
    (hfree : ∀ y ∈ (w.heap.curve c).m_keys, (w.heap.key y).m_time ≠ t)
    (hout : ¬ ∃ a ∈ (w.heap.curve c).m_keys, ∃ b ∈ (w.heap.curve c).m_keys,
      (w.heap.key a).m_time < t ∧ t < (w.heap.key b).m_time) :
    CurvePlug.insertKey ν w c t = .ok (w, none) ∧
    ∃ w1, CurvePlug.insertKeyValue ν w c t v = .ok (w1, some w.heap.keyCount) ∧
      (w1.heap.key w.heap.keyCount).m_parent = some c ∧
      (w1.heap.key w.heap.keyCount).m_active = true ∧
      (w1.heap.key w.heap.keyCount).m_time = t ∧
      (w1.heap.key w.heap.keyCount).m_value = v ∧
      CurvePlug.getKey w1.heap c t = some w.heap.keyCount ∧
      (∀ x, x ∈ (w1.heap.curve c).m_keys ↔ x = w.heap.keyCount ∨ x ∈ (w.heap.curve c).m_keys) ∧
      (w1.heap.curve c).m_keys.length = (w.heap.curve c).m_keys.length + 1 ∧
      (∀ x, (w1.heap.curve x).m_inactiveKeys = (w.heap.curve x).m_inactiveKeys) := by
  have hsp := insertKeySpan_free w.heap c t hfree
  have hno := insertKeySpan_outside w.heap c t hfree hout
  refine ⟨?_, ?_⟩
  · unfold CurvePlug.insertKey CurvePlug.insertKeyInternal
    simp only [hsp, hno]
    rfl
  · obtain ⟨w1, hs, hl1, f1, f2, f3, f4, _, f6, f7, f8, _⟩ :=
      CurvePlug.addKey_created ν hr.inv c t v v
        (CurvePlug.insertKeyInterpolator w.heap c
          (before_lower_bound w.heap.time t (w.heap.curve c).m_keys).getLast?)
        defaultSlope defaultScale defaultSlope defaultScale hfree
    rw [Key.new_setValue_self] at hs
    refine ⟨w1, ?_, f1, f2, f3, f4, ?_, f6, f7, f8⟩
    · unfold CurvePlug.insertKeyValue CurvePlug.insertKeyInternal
      simp only [hsp, hno, Key.new_snd, Option.getD_some, Option.isNone_some, Bool.and_false,
        Bool.false_eq_true, if_false, bind, Except.bind, pure, Except.pure, hs]
    · have := hl1.getKey_of_active f1 f2
      rw [f3] at this; exact this

/-- C17 on the curve with the keys (0, 0) and (1, 10) at time 2, after the final
key. -/
theorem C17_insertKey_outside_span_witness :
    CurvePlug.insertKey exampleNumeric exTwo 0 2 = .ok (exTwo, none) ∧
    ∃ w1, CurvePlug.insertKeyValue exampleNumeric exTwo 0 2 20 =
        .ok (w1, some exTwo.heap.keyCount) ∧
      (w1.heap.key exTwo.heap.keyCount).m_parent = some 0 ∧
      (w1.heap.key exTwo.heap.keyCount).m_active = true ∧
      (w1.heap.key exTwo.heap.keyCount).m_time = 2 ∧
      (w1.heap.key exTwo.heap.keyCount).m_value = 20 ∧
      CurvePlug.getKey w1.heap 0 2 = some exTwo.heap.keyCount ∧
      (∀ x, x ∈ (w1.heap.curve 0).m_keys ↔
        x = exTwo.heap.keyCount ∨ x ∈ (exTwo.heap.curve 0).m_keys) ∧
      (w1.heap.curve 0).m_keys.length = (exTwo.heap.curve 0).m_keys.length + 1 ∧
      (∀ x, (w1.heap.curve x).m_inactiveKeys = (exTwo.heap.curve x).m_inactiveKeys) :=
  C17_insertKey_outside_span exTwo_reachable 0 2 20 (by decide!) (by decide!)

/-! ### The Bezier time solver -/

/-- The derivative of the Bezier time-cubic with control times `tl`, `th` in
`[0, 1]` has no root strictly inside `(0, 1)` unless `tl = 1` and `th = 0`. -/
theorem bezier_derivative_root {tl th s : α} (h1 : 0 ≤ tl) (h2 : tl ≤ 1) (h3 : 0 ≤ th)
    (h4 : th ≤ 1) (hs0 : 0 < s) (hs1 : s < 1)
    (hg : (9 * tl - 9 * th + 3) * s * s + (6 * th - 12 * tl) * s + 3 * tl = 0) :
    tl = 1 ∧ th = 0 := by
  have e : (9 * tl - 9 * th + 3) * s * s + (6 * th - 12 * tl) * s + 3 * tl =
      3 * ((1 - tl) * (1 - th) * (s * s) + tl * (1 - th) * ((1 - 2 * s) * (1 - 2 * s)) +
        2 * ((1 - tl) * th * (s * (1 - s))) + tl * th * ((1 - s) * (1 - s))) := by ring
  have a1 : 0 ≤ 1 - tl := sub_nonneg.mpr h2
  have a2 : 0 ≤ 1 - th := sub_nonneg.mpr h4
  have a3 : 0 < 1 - s := sub_pos.mpr hs1
  have t1 : 0 ≤ (1 - tl) * (1 - th) * (s * s) :=
    mul_nonneg (mul_nonneg a1 a2) (mul_self_nonneg s)
  have t2 : 0 ≤ tl * (1 - th) * ((1 - 2 * s) * (1 - 2 * s)) :=
    mul_nonneg (mul_nonneg h1 a2) (mul_self_nonneg _)
  have t3 : 0 ≤ (1 - tl) * th * (s * (1 - s)) :=
    mul_nonneg (mul_nonneg a1 h3) (le_of_lt (mul_pos hs0 a3))
  have t4 : 0 ≤ tl * th * ((1 - s) * (1 - s)) :=
    mul_nonneg (mul_nonneg h1 h3) (mul_self_nonneg _)
  rw [e] at hg
  have z1 : (1 - tl) * (1 - th) * (s * s) = 0 := by linarith
  have z3 : (1 - tl) * th * (s * (1 - s)) = 0 := by linarith
  have z4 : tl * th * ((1 - s) * (1 - s)) = 0 := by linarith
  have y1 : (1 - tl) * (1 - th) = 0 := by
    rcases mul_eq_zero.1 z1 with h | h
    · exact h
    · exact absurd h (ne_of_gt (mul_pos hs0 hs0))
  have y3 : (1 - tl) * th = 0 := by
    rcases mul_eq_zero.1 z3 with h | h
    · exact h
    · exact absurd h (ne_of_gt (mul_pos hs0 a3))
  have y4 : tl * th = 0 := by
    rcases mul_eq_zero.1 z4 with h | h
    · exact h
    · exact absurd h (ne_of_gt (mul_pos a3 a3))
  have hth : th = 0 := by linear_combination y3 + y4
  have htl : tl = 1 := by
    rw [hth] at y1
    linear_combination -y1
  exact ⟨htl, hth⟩

theorem copysign_mul_self (x y : α) : copysign x y * copysign x y = x * x := by
  unfold copysign
  split_ifs
  · rw [neg_mul_neg, abs_mul_abs_self]
  · rw [abs_mul_abs_self]

/-- With an exact square root, the test for multiple values in `solveForTime`
is negative for control times in `[0, 1]`. -/
theorem solveForTime_single (ν : Numeric α) (hsq : ∀ x, 0 ≤ x → ν.sqrt x * ν.sqrt x = x)
    {tl th : α} (h1 : 0 ≤ tl) (h2 : tl ≤ 1) (h3 : 0 ≤ th) (h4 : th ≤ 1)
    {A B C D q : α} (hA : A = 9 * tl - 9 * th + 3) (hB : B = 6 * th - 12 * tl)
    (hC : C = 3 * tl) (hD : D = B * B - 4 * A * C)
    (hq : q = -(1 / 2) * (B + copysign (ν.sqrt D) B)) (hpos : 0 < D) :
    ¬ ((0 < q / A ∧ q / A < 1) ∨ (0 < C / q ∧ C / q < 1)) := by
  have hr : copysign (ν.sqrt D) B * copysign (ν.sqrt D) B = D := by
    rw [copysign_mul_self, hsq D (le_of_lt hpos)]
  have hquad : q * q + B * q + A * C = 0 := by
    rw [hq]
    linear_combination (1 / 4 : α) * hr + (1 / 4 : α) * hD
  have hzero : ∀ s, 0 < s → s < 1 → A * s * s + B * s + C = 0 → False := by
    intro s s0 s1 hg
    rw [hA, hB, hC] at hg
    obtain ⟨e1, e2⟩ := bezier_derivative_root h1 h2 h3 h4 s0 s1 hg
    have : D = 0 := by
      rw [hD, hA, hB, hC, e1, e2]; norm_num
    rw [this] at hpos
    exact lt_irrefl _ hpos
  rintro (⟨s0, s1⟩ | ⟨s0, s1⟩)
  · have hA0 : A ≠ 0 := by
      intro e
      rw [e, div_zero] at s0
      exact lt_irrefl _ s0
    refine hzero (q / A) s0 s1 ?_
    have e : A * (q / A) * (q / A) + B * (q / A) + C = (q * q + B * q + A * C) / A := by
      field_simp
      ring
    rw [e, hquad, zero_div]
  · have hq0 : q ≠ 0 := by
      intro e
      rw [e, div_zero] at s0
      exact lt_irrefl _ s0
    refine hzero (C / q) s0 s1 ?_
    have e : A * (C / q) * (C / q) + B * (C / q) + C =
        C * (q * q + B * q + A * C) / (q * q) := by
      field_simp
      ring
    rw [e, hquad, mul_zero, zero_div]

/-- With an exact square root `solveForTime` returns for all control times in
`[0, 1]`. -/
theorem solveForTime_returns (ν : Numeric α) (hsq : ∀ x, 0 ≤ x → ν.sqrt x * ν.sqrt x = x)
    {tl th : α} (h1 : 0 ≤ tl) (h2 : tl ≤ 1) (h3 : 0 ≤ th) (h4 : th ≤ 1) (time : α) :
    ∃ s, solveForTime ν tl th time = .ok s := by
  unfold solveForTime
  split_ifs with c1 c2
  · exact ⟨_, rfl⟩
  · exact ⟨_, rfl⟩
  · dsimp only
    rw [if_neg]
    · exact ⟨_, rfl⟩
    · intro hm
      split_ifs at hm with c3
      have hpos : (0 : α) < (th + th + th - (tl + tl + tl) - (tl + tl + tl) +
          (th + th + th - (tl + tl + tl) - (tl + tl + tl))) *
          (th + th + th - (tl + tl + tl) - (tl + tl + tl) +
          (th + th + th - (tl + tl + tl) - (tl + tl + tl))) -
          4 * (tl + tl + tl - (th + th + th) + 1 + (tl + tl + tl - (th + th + th) + 1) +
            (tl + tl + tl - (th + th + th) + 1)) * (tl + tl + tl) :=
        lt_trans (by norm_num) c3
      have := solveForTime_single ν hsq h1 h2 h3 h4
        (A := tl + tl + tl - (th + th + th) + 1 + (tl + tl + tl - (th + th + th) + 1) +
            (tl + tl + tl - (th + th + th) + 1))
        (B := th + th + th - (tl + tl + tl) - (tl + tl + tl) +
          (th + th + th - (tl + tl + tl) - (tl + tl + tl)))
        (C := tl + tl + tl) (by ring) (by ring) (by ring) rfl rfl hpos
      exact this (of_decide_eq_true hm)

theorem clamp_mem_unit (a : α) : 0 ≤ clamp a 0 1 ∧ clamp a 0 1 ≤ 1 := by
  unfold clamp
  split_ifs with h1 h2
  · exact ⟨le_refl _, zero_le_one⟩
  · exact ⟨zero_le_one, le_refl _⟩
  · exact ⟨not_lt.mp h1, not_lt.mp h2⟩

/-- With an exact square root the Bezier interpolator returns. -/
theorem InterpolatorBezier.evaluate_bezier_returns (ν : Numeric α)
    (hsq : ∀ x, 0 ≤ x → ν.sqrt x * ν.sqrt x = x) (h : Heap α) (lo hi : KeyId) (time dt : α) :
    ∃ v, InterpolatorBezier.evaluate ν h lo hi time dt = .ok v := by
  unfold InterpolatorBezier.evaluate
  dsimp only
  obtain ⟨s, hs⟩ := solveForTime_returns ν hsq
    (clamp_mem_unit (((Tangent.getPosition ν h lo .Out false).1 - (h.key lo).m_time) / dt)).1
    (clamp_mem_unit (((Tangent.getPosition ν h lo .Out false).1 - (h.key lo).m_time) / dt)).2
    (clamp_mem_unit
      (((Tangent.getPosition ν h hi .In false).1 - (h.key hi).m_time) / dt + 1)).1
    (clamp_mem_unit
      (((Tangent.getPosition ν h hi .In false).1 - (h.key hi).m_time) / dt + 1)).2 time
  rw [hs]
  exact ⟨_, rfl⟩

/-- With an exact square root `CurvePlug::evaluate` returns. -/
theorem CurvePlug.evaluate_returns (ν : Numeric α)
    (hsq : ∀ x, 0 ≤ x → ν.sqrt x * ν.sqrt x = x) (h : Heap α) (c : CurveId) (t : α) :
    ∃ v, CurvePlug.evaluate ν h c t = .ok v := by
  unfold CurvePlug.evaluate
  split
  · exact ⟨_, rfl⟩
  · split
    · exact ⟨_, rfl⟩
    · split
      · exact ⟨_, rfl⟩
      · split_ifs with h1
        · exact ⟨_, rfl⟩
        · rename_i lo _
          dsimp only
          unfold Interpolator.evaluate
          split
          · exact ⟨_, rfl⟩
          · exact ⟨_, rfl⟩
          · exact ⟨_, rfl⟩
          · exact ⟨_, rfl⟩
          · exact InterpolatorBezier.evaluate_bezier_returns ν hsq _ _ _ _ _

/-- C13: with an exact square root, `solveForTime` does not throw for control
times `tl`, `th` in `[0, 1]` and any normalised time, because a root of the
derivative `at3 s² + bt2 s + ct` of the time-cubic strictly inside `(0, 1)`
leaves the discriminant zero; and so the Bezier interpolator, which clamps both
control times into `[0, 1]` before the call, returns a value for every pair of
keys, normalised time and span width. -/
theorem C13_bezier_monotonic_no_error (ν : Numeric α)
    (hsq : ∀ x, 0 ≤ x → ν.sqrt x * ν.sqrt x = x) (tl th time : α)
    (h1 : 0 ≤ tl) (h2 : tl ≤ 1) (h3 : 0 ≤ th) (h4 : th ≤ 1) :
    (∃ s, solveForTime ν tl th time = .ok s) ∧
    (∀ s, 0 < s → s < 1 →
      (9 * tl - 9 * th + 3) * s * s + (6 * th - 12 * tl) * s + 3 * tl = 0 →
      (6 * th - 12 * tl) * (6 * th - 12 * tl) - 4 * (9 * tl - 9 * th + 3) * (3 * tl) = 0) ∧
    ∀ (h : Heap α) (lo hi : KeyId) (nt dt : α),
      ∃ v, InterpolatorBezier.evaluate ν h lo hi nt dt = .ok v := by
  refine ⟨solveForTime_returns ν hsq h1 h2 h3 h4 time, ?_,
    fun h lo hi nt dt => InterpolatorBezier.evaluate_bezier_returns ν hsq h lo hi nt dt⟩
  intro s s0 s1 hg
  obtain ⟨e1, e2⟩ := bezier_derivative_root h1 h2 h3 h4 s0 s1 hg
  rw [e1, e2]; norm_num

/-- C13 over the real numbers with the real square root, for the control times
1/3 and 2/3 at the normalised time 1/2. -/
theorem C13_bezier_monotonic_no_error_witness :
    (∃ s, solveForTime (⟨Real.sqrt, 1 / 1000000⟩ : Numeric ℝ) (1 / 3) (2 / 3) (1 / 2) = .ok s) ∧
    (∀ s : ℝ, 0 < s → s < 1 →
      (9 * (1 / 3) - 9 * (2 / 3) + 3) * s * s + (6 * (2 / 3) - 12 * (1 / 3)) * s +
        3 * (1 / 3) = 0 →
      (6 * (2 / 3) - 12 * (1 / 3)) * (6 * (2 / 3) - 12 * (1 / 3)) -
        4 * (9 * (1 / 3) - 9 * (2 / 3) + 3) * (3 * (1 / 3)) = (0 : ℝ)) ∧
    ∀ (h : Heap ℝ) (lo hi : KeyId) (nt dt : ℝ),
      ∃ v, InterpolatorBezier.evaluate (⟨Real.sqrt, 1 / 1000000⟩ : Numeric ℝ) h lo hi nt dt =
        .ok v :=
  C13_bezier_monotonic_no_error ⟨Real.sqrt, 1 / 1000000⟩ (fun x hx => Real.mul_self_sqrt hx)
    (1 / 3) (2 / 3) (1 / 2) (by norm_num) (by norm_num) (by norm_num) (by norm_num)

theorem prevIn_mem {k x : KeyId} {l : List KeyId} (h : prevIn k l = some x) : x ∈ l := by
  induction l with
  | nil => simp [prevIn] at h
  | cons a as ih =>
    cases as with
    | nil => simp [prevIn] at h
    | cons b bs =>
      unfold prevIn at h
      split_ifs at h with h1 h2
      · simp only [Option.some.injEq] at h
        rw [← h]; simp
      · exact List.mem_cons_of_mem _ (ih h)

theorem SameBut.prevKey_same {n : KeyId} {a b : Heap α} (hs : SameBut n a b) {k : KeyId}
    (hk : k ≠ n) : Key.prevKey a k = Key.prevKey b k := by
  unfold Key.prevKey
  rw [hs.key k hk, hs.curve]

theorem SameBut.prevKey_ne {n : KeyId} {a b : Heap α} (hs : SameBut n a b) {k kp : KeyId}
    (h : Key.prevKey a k = some kp) : kp ≠ n := by
  unfold Key.prevKey at h
  split at h
  · rename_i c hp
    split_ifs at h
    intro e
    exact hs.free c (e ▸ prevIn_mem h)
  · cases h

theorem SameBut.slopeIsConstrained_same {n : KeyId} {a b : Heap α} (hs : SameBut n a b)
    {k : KeyId} (hk : k ≠ n) (d : Direction) :
    Tangent.slopeIsConstrained a k d = Tangent.slopeIsConstrained b k d := by
  have hp := hs.prevKey_same hk
  unfold Tangent.slopeIsConstrained CurvePlug.finalKey CurvePlug.firstKey
  rw [← hp, hs.key k hk, hs.curve]
  cases hpk : Key.prevKey a k with
  | none => rfl
  | some kp => simp only [hs.key kp (hs.prevKey_ne hpk)]

theorem SameBut.scaleIsConstrained_same {n : KeyId} {a b : Heap α} (hs : SameBut n a b)
    {k : KeyId} (hk : k ≠ n) (d : Direction) :
    Tangent.scaleIsConstrained a k d = Tangent.scaleIsConstrained b k d := by
  have hp := hs.prevKey_same hk
  unfold Tangent.scaleIsConstrained CurvePlug.finalKey CurvePlug.firstKey
  rw [← hp, hs.key k hk, hs.curve]
  cases hpk : Key.prevKey a k with
  | none => rfl
  | some kp => simp only [hs.key kp (hs.prevKey_ne hpk)]

theorem SameBut.interpolator_same {n : KeyId} {a b : Heap α} (hs : SameBut n a b)
    {k : KeyId} (hk : k ≠ n) (d : Direction) :
    Tangent.interpolator a k d = Tangent.interpolator b k d := by
  have hp := hs.prevKey_same hk
  unfold Tangent.interpolator
  rw [← hp, hs.key k hk]
  cases hpk : Key.prevKey a k with
  | none => rfl
  | some kp => simp only [hs.key kp (hs.prevKey_ne hpk)]

theorem SameBut.getSlope_same {n : KeyId} {a b : Heap α} (hs : SameBut n a b)
    {k : KeyId} (hk : k ≠ n) (d : Direction) :
    Tangent.getSlope a k d = Tangent.getSlope b k d := by
  unfold Tangent.getSlope
  rw [hs.slopeIsConstrained_same hk, hs.interpolator_same hk, hs.key k hk]

theorem SameBut.getScale_same (ν : Numeric α) {n : KeyId} {a b : Heap α} (hs : SameBut n a b)
    {k : KeyId} (hk : k ≠ n) (d : Direction) :
    Tangent.getScale ν a k d = Tangent.getScale ν b k d := by
  unfold Tangent.getScale Interpolator.effectiveScale
  rw [hs.scaleIsConstrained_same hk, hs.interpolator_same hk, hs.key k hk, hs.getSlope_same hk]

theorem SameBut.getPosition_same (ν : Numeric α) {n : KeyId} {a b : Heap α} (hs : SameBut n a b)
    {k : KeyId} (hk : k ≠ n) (d : Direction) (r : Bool) :
    Tangent.getPosition ν a k d r = Tangent.getPosition ν b k d r := by
  unfold Tangent.getPosition
  rw [hs.getScale_same ν hk, hs.getSlope_same hk, hs.key k hk]

theorem SameBut.interpolate_same (ν : Numeric α) {n : KeyId} {a b : Heap α} (hs : SameBut n a b)
    {lo hi : KeyId} (hlo : lo ≠ n) (hhi : hi ≠ n) (i : Interpolation) (t dt : α) :
    Interpolator.evaluate ν a i lo hi t dt = Interpolator.evaluate ν b i lo hi t dt := by
  unfold Interpolator.evaluate InterpolatorBezier.evaluate InterpolatorCubic.evaluate
    InterpolatorLinear.evaluate InterpolatorConstant.evaluate InterpolatorConstantNext.evaluate
  rw [hs.getPosition_same ν hlo, hs.getPosition_same ν hhi, hs.getSlope_same hlo,
    hs.getSlope_same hhi,
    hs.key lo hlo, hs.key hi hhi]

theorem lower_bound_congr (tk tk2 : KeyId → α) (t : α) (l : List KeyId)
    (h : ∀ x ∈ l, tk x = tk2 x) : lower_bound tk t l = lower_bound tk2 t l := by
  induction l with
  | nil => rfl
  | cons a as ih =>
    unfold lower_bound
    rw [h a (List.mem_cons_self _ _), ih (fun x hx => h x (List.mem_cons_of_mem _ hx))]

theorem before_lower_bound_congr (tk tk2 : KeyId → α) (t : α) (l : List KeyId)
    (h : ∀ x ∈ l, tk x = tk2 x) : before_lower_bound tk t l = before_lower_bound tk2 t l := by
  induction l with
  | nil => rfl
  | cons a as ih =>
    unfold before_lower_bound
    rw [h a (List.mem_cons_self _ _), ih (fun x hx => h x (List.mem_cons_of_mem _ hx))]

/-- `evaluate` does not depend on a key that is in no active container. -/
theorem SameBut.evaluate_same (ν : Numeric α) {n : KeyId} {a b : Heap α} (hs : SameBut n a b)
    (c : CurveId) (t : α) : CurvePlug.evaluate ν a c t = CurvePlug.evaluate ν b c t := by
  have hne : ∀ x ∈ (b.curve c).m_keys, x ≠ n := by
    intro x hx e
    rw [← hs.curve] at hx
    exact hs.free c (e ▸ hx)
  have htime : ∀ x ∈ (b.curve c).m_keys, a.time x = b.time x := by
    intro x hx
    rw [Heap.time, Heap.time, hs.key x (hne x hx)]
  unfold CurvePlug.evaluate
  rw [hs.curve]
  cases hl : (b.curve c).m_keys with
  | nil => rfl
  | cons k0 ks =>
    rw [hl] at hne htime
    simp only
    rw [lower_bound_congr a.time b.time t _ htime,
      before_lower_bound_congr a.time b.time t _ htime]
    have hlast : (k0 :: ks).getLast (List.cons_ne_nil k0 ks) ≠ n :=
      hne _ (List.getLast_mem _)
    cases hlb : lower_bound b.time t (k0 :: ks) with
    | nil => simp only; rw [hs.key _ hlast]
    | cons hi r =>
      have hhi : hi ≠ n :=
        hne hi (lower_bound_sublist b.time t _ hi (by rw [hlb]; exact List.mem_cons_self _ _))
      simp only
      cases hb : (before_lower_bound b.time t (k0 :: ks)).getLast? with
      | none => simp only; rw [hs.key hi hhi]
      | some lo =>
        have hlo : lo ≠ n :=
          hne lo (mem_before_lower_bound_imp b.time t (List.mem_of_getLast?_eq_some hb)).1
        simp only
        rw [hs.key hi hhi, hs.key lo hlo, hs.interpolate_same ν hlo hhi]

/-! ### insertKey between two keys -/

theorem Key.new_sameBut (ν : Numeric α) {h : Heap α} (hw : Heap.WF h) (t v : α)
    (i : Interpolation) (a b p q : α) :
    SameBut h.keyCount (Key.new ν h t v i a b p q).1 h := by
  refine ⟨rfl, ?_, ?_⟩
  · intro x hx
    simp [Key.new, hx]
  · intro c hc
    exact absurd (hw.lt_keyCount (c := c) hc) (lt_irrefl _)

/-- Strictly between two consecutive active keys there is no active key. -/
theorem free_of_nextIn (tk : KeyId → α) {l : List KeyId} (hs : (l.map tk).Pairwise (· < ·))
    {lo hi : KeyId} {t : α} (hn : nextIn lo l = some hi) (h1 : tk lo < t) (h2 : t < tk hi) :
    ∀ y ∈ l, tk y ≠ t := by
  intro y hy e
  obtain ⟨⟨r, hr⟩, _⟩ := span_of_nextIn tk hs hn h1 h2
  obtain ⟨r2, hr2⟩ := lower_bound_of_mem tk hs hy
  rw [e, hr] at hr2
  simp only [List.cons.injEq] at hr2
  rw [hr2.1, e] at h2
  exact lt_irrefl _ h2

/-- Insertion without a value strictly between two consecutive active keys:
`evaluate` returns a value, and `insertKey` constructs a key with that value and
adds it to the active keys of a heap that is linked again. -/
theorem CurvePlug.insertKey_between {ν : Numeric α} {w : Script α} (hr : Reachable ν w)
    (c : CurveId) (lo hi : KeyId) (t : α)
    (hn : nextIn lo (w.heap.curve c).m_keys = some hi)
    (h1 : (w.heap.key lo).m_time < t) (h2 : t < (w.heap.key hi).m_time)
    (hsafe : (w.heap.key lo).m_interpolator ≠ .Bezier ∨
      ∀ x, 0 ≤ x → ν.sqrt x * ν.sqrt x = x) :
    ∃ e w1, CurvePlug.evaluate ν w.heap c t = .ok e ∧
      CurvePlug.insertKey ν w c t = .ok (w1, some w.heap.keyCount) ∧
      (w1.heap.key w.heap.keyCount).m_parent = some c ∧
      (w1.heap.key w.heap.keyCount).m_active = true ∧
      (w1.heap.key w.heap.keyCount).m_time = t ∧
      (w1.heap.key w.heap.keyCount).m_value = e ∧
      (∀ x, x ∈ (w1.heap.curve c).m_keys ↔ x = w.heap.keyCount ∨ x ∈ (w.heap.curve c).m_keys) ∧
      Linked w1.heap := by
  have hl := hr.inv.wf.linked
  have hfree : ∀ y ∈ (w.heap.curve c).m_keys, (w.heap.key y).m_time ≠ t :=
    free_of_nextIn w.heap.time (hl.sorted c) hn h1 h2
  obtain ⟨⟨r, hlb⟩, hb⟩ := span_of_nextIn w.heap.time (hl.sorted c) hn h1 h2
  have hsp := insertKeySpan_free w.heap c t hfree
  rw [hlb, hb] at hsp
  have hev : ∃ e, CurvePlug.evaluate ν w.heap c t = .ok e := by
    rcases hsafe with hi1 | hsq
    · rw [evaluate_between ν w.heap c t (hl.sorted c) hn h1 h2]
      unfold Interpolator.evaluate
      split
      · exact ⟨_, rfl⟩
      · exact ⟨_, rfl⟩
      · exact ⟨_, rfl⟩
      · exact ⟨_, rfl⟩
      · rename_i hB
        exact absurd hB hi1
    · exact CurvePlug.evaluate_returns ν hsq w.heap c t
  obtain ⟨e, he⟩ := hev
  obtain ⟨w1, hs, hl1, f1, f2, f3, f4, _, f6, _⟩ :=
    CurvePlug.addKey_created ν hr.inv c t 0 e
      (CurvePlug.insertKeyInterpolator w.heap c (some lo))
      defaultSlope defaultScale defaultSlope defaultScale hfree
  have heN : CurvePlug.evaluate ν (Key.new ν w.heap t 0
      (CurvePlug.insertKeyInterpolator w.heap c (some lo))
      defaultSlope defaultScale defaultSlope defaultScale).1 c t = .ok e := by
    rw [(Key.new_sameBut ν hr.inv.wf t 0 _ _ _ _ _).evaluate_same ν c t]; exact he
  refine ⟨e, w1, he, ?_, f1, f2, f3, f4, f6, hl1⟩
  unfold CurvePlug.insertKey CurvePlug.insertKeyInternal
  simp only [hsp, List.head?_cons, Option.isSome_some, Bool.and_self, Bool.not_true,
    Option.isNone_none, Bool.false_and, Bool.false_eq_true, if_false, if_true, Key.new_snd,
    Option.getD_none, bind, Except.bind, pure, Except.pure, heN, hs]

/-! ### The interpolation of a created key -/

theorem before_lower_bound_of_none_lt (tk : KeyId → α) (t : α) {l : List KeyId}
    (hs : (l.map tk).Pairwise (· < ·)) (h : ∀ y ∈ l, ¬ tk y < t) :
    before_lower_bound tk t l = [] := by
  cases l with
  | nil => rfl
  | cons a as =>
    unfold before_lower_bound
    rw [if_neg (h a (List.mem_cons_self _ _))]

/-- In a list sorted strictly by time, the last key before the `lower_bound`
position is the latest key before the time. -/
theorem before_lower_bound_getLast (tk : KeyId → α) (t : α) {l : List KeyId}
    (hs : (l.map tk).Pairwise (· < ·)) {lo : KeyId} (hlo : lo ∈ l) (ht : tk lo < t)
    (hmax : ∀ y ∈ l, tk y < t → tk y ≤ tk lo) :
    (before_lower_bound tk t l).getLast? = some lo := by
  induction l with
  | nil => simp at hlo
  | cons a as ih =>
    simp only [List.map_cons, List.pairwise_cons, List.mem_map, forall_exists_index, and_imp,
      forall_apply_eq_imp_iff₂] at hs
    unfold before_lower_bound
    by_cases ha : tk a < t
    · rw [if_pos ha]
      rcases List.mem_cons.1 hlo with e | e
      · subst e
        have : before_lower_bound tk t as = [] := by
          apply before_lower_bound_of_none_lt tk t hs.2
          intro y hy hyt
          have h1 := hmax y (List.mem_cons_of_mem _ hy) hyt
          exact absurd (hs.1 y hy) (not_lt.mpr h1)
        rw [this]; rfl
      · exact getLast?_cons_of_getLast?
          (ih hs.2 e (fun y hy => hmax y (List.mem_cons_of_mem _ hy)))
    · exfalso
      rcases List.mem_cons.1 hlo with e | e
      · rw [e] at ht; exact ha ht
      · exact ha (lt_trans (hs.1 lo e) ht)

/-- The interpolation of a key that `insertKeyInternal` creates. -/
theorem CurvePlug.insertKeyInternal_interpolator (ν : Numeric α) {w w1 : Script α}
    (hi : w.Inv) {c : CurveId} {t : α} {value : Option α} {k : KeyId}
    (hfree : ∀ y ∈ (w.heap.curve c).m_keys, (w.heap.key y).m_time ≠ t)
    (hs : CurvePlug.insertKeyInternal ν w c t value = .ok (w1, some k)) :
    k = w.heap.keyCount ∧
    (w1.heap.key k).m_interpolator = CurvePlug.insertKeyInterpolator w.heap c
      (before_lower_bound w.heap.time t (w.heap.curve c).m_keys).getLast? := by
  have hsp := insertKeySpan_free w.heap c t hfree
  rcases CurvePlug.insertKeyInternal_ok ν hs with
    ⟨key, h1, _⟩ | ⟨_, h2, _⟩ | ⟨_, hk, h2, r2, hh, hadd⟩
  · rw [hsp] at h1; cases h1
  · cases h2
  · simp only [Option.some.injEq] at hk
    refine ⟨hk, ?_⟩
    rw [hsp] at hh
    simp only at hh
    have key_fact : ∀ v, h2 = (Key.new ν w.heap t (value.getD 0)
        (CurvePlug.insertKeyInterpolator w.heap c
          (before_lower_bound w.heap.time t (w.heap.curve c).m_keys).getLast?)
        defaultSlope defaultScale defaultSlope defaultScale).1.setValue w.heap.keyCount v →
        (w1.heap.key k).m_interpolator = CurvePlug.insertKeyInterpolator w.heap c
          (before_lower_bound w.heap.time t (w.heap.curve c).m_keys).getLast? := by
      intro v hv
      obtain ⟨w2, hs2, _, _, _, _, _, f5, _⟩ :=
        CurvePlug.addKey_created ν hi c t (value.getD 0) v
          (CurvePlug.insertKeyInterpolator w.heap c
            (before_lower_bound w.heap.time t (w.heap.curve c).m_keys).getLast?)
          defaultSlope defaultScale defaultSlope defaultScale hfree
      rw [← hv, hadd] at hs2
      simp only [Except.ok.injEq, Prod.mk.injEq] at hs2
      rw [hk, hs2.1]
      exact f5
    rcases hh with e | ⟨e, _, _, _, _, e2⟩
    · exact key_fact (value.getD 0) (by rw [Key.new_setValue_self]; exact e)
    · exact key_fact e e2

/-- C18: in a reachable state, when `insertKey` (with or without a value) at a
time `t` at which the curve has no active key returns a key, that key is newly
constructed and its interpolation is that of the latest active key before `t`
when there is one, otherwise that of the first key when the curve has keys,
otherwise the default, Bezier. -/
theorem C18_insertKey_interpolation {ν : Numeric α} {w w1 : Script α} (hr : Reachable ν w)
    (c : CurveId) (t : α) (value : Option α) (k : KeyId)
    (hfree : ∀ y ∈ (w.heap.curve c).m_keys, (w.heap.key y).m_time ≠ t)
    (hs : CurvePlug.insertKeyInternal ν w c t value = .ok (w1, some k)) :
    k = w.heap.keyCount ∧
    (∀ lo ∈ (w.heap.curve c).m_keys, (w.heap.key lo).m_time < t →
      (∀ y ∈ (w.heap.curve c).m_keys, (w.heap.key y).m_time < t →
        (w.heap.key y).m_time ≤ (w.heap.key lo).m_time) →
      (w1.heap.key k).m_interpolator = (w.heap.key lo).m_interpolator) ∧
    ((∀ y ∈ (w.heap.curve c).m_keys, ¬ (w.heap.key y).m_time < t) →
      ∀ f, CurvePlug.firstKey w.heap c = some f →
        (w1.heap.key k).m_interpolator = (w.heap.key f).m_interpolator) ∧
    ((w.heap.curve c).m_keys = [] → (w1.heap.key k).m_interpolator = .Bezier) := by
  have hl := hr.inv.wf.linked
  obtain ⟨hk, hint⟩ := CurvePlug.insertKeyInternal_interpolator ν hr.inv hfree hs
  refine ⟨hk, ?_, ?_, ?_⟩
  · intro lo hlo ht hmax
    rw [hint, before_lower_bound_getLast w.heap.time t (hl.sorted c) hlo ht hmax]
    rfl
  · intro hnone f hf
    rw [hint, before_lower_bound_of_none_lt w.heap.time t (hl.sorted c) hnone]
    simp only [List.getLast?_nil, CurvePlug.insertKeyInterpolator, hf]
  · intro hnil
    rw [hint, hnil]
    simp only [before_lower_bound, List.getLast?_nil, CurvePlug.insertKeyInterpolator,
      CurvePlug.firstKey, hnil, List.head?_nil]
    rfl

/-- C18 on the curve with the keys (0, 0) and (1, 10), the first with Linear
interpolation: the key that `insertKey( 1/2 )` creates has the interpolation of
key 0, Linear. -/
theorem C18_insertKey_interpolation_witness :
    ∃ w1 : Script ℚ,
      CurvePlug.insertKeyInternal exampleNumeric exLinear 0 (1 / 2) none = .ok (w1, some 2) ∧
      (2 = exLinear.heap.keyCount ∧
      (∀ lo ∈ (exLinear.heap.curve 0).m_keys, (exLinear.heap.key lo).m_time < 1 / 2 →
        (∀ y ∈ (exLinear.heap.curve 0).m_keys, (exLinear.heap.key y).m_time < 1 / 2 →
          (exLinear.heap.key y).m_time ≤ (exLinear.heap.key lo).m_time) →
        (w1.heap.key 2).m_interpolator = (exLinear.heap.key lo).m_interpolator) ∧
      ((∀ y ∈ (exLinear.heap.curve 0).m_keys, ¬ (exLinear.heap.key y).m_time < 1 / 2) →
        ∀ f, CurvePlug.firstKey exLinear.heap 0 = some f →
          (w1.heap.key 2).m_interpolator = (exLinear.heap.key f).m_interpolator) ∧
      ((exLinear.heap.curve 0).m_keys = [] → (w1.heap.key 2).m_interpolator = .Bezier)) ∧
      (w1.heap.key 2).m_interpolator = .Linear := by
  obtain ⟨e, w1, _, hs, _⟩ := CurvePlug.insertKey_between exLinear_reachable 0 0 1 (1 / 2)
    (by decide!) (by decide!) (by decide!) (Or.inl (by decide!))
  have hk : exLinear.heap.keyCount = 2 := by decide!
  rw [hk] at hs
  have T := C18_insertKey_interpolation exLinear_reachable 0 (1 / 2) none 2 (by decide!) hs
  refine ⟨w1, hs, T, ?_⟩
  rw [T.2.1 0 (by decide!) (by decide!) (by decide!)]
  decide!

/-! ### The range of tangent scales -/

theorem clamp_range {a l u : α} (h : l ≤ u) : l ≤ clamp a l u ∧ clamp a l u ≤ u := by
  unfold clamp
  split_ifs with h1 h2
  · exact ⟨le_refl _, h⟩
  · exact ⟨h, le_refl _⟩
  · exact ⟨not_lt.mp h1, not_lt.mp h2⟩

theorem maxScale_nonneg (ν : Numeric α) (hν : ∀ x, 0 ≤ x → 0 ≤ ν.sqrt x) (s : α) :
    0 ≤ maxScale ν s := by
  unfold maxScale fma
  exact hν _ (add_nonneg (mul_self_nonneg s) zero_le_one)

theorem Key.tangent_setTangent (k : Key α) (d e : Direction) (t : Tangent α) :
    (k.setTangent d t).tangent e = if e = d then t else k.tangent e := by
  cases d <;> cases e <;> simp [Key.setTangent, Key.tangent]

theorem setSlopeDo_tangent (key : KeyId) (d : Direction) (slope scale : α) (h : Heap α)
    (k : KeyId) (e : Direction) :
    ((setSlopeDo key d slope scale h).key k).tangent e =
      if k = key ∧ e = d then
        { (h.key key).tangent d with m_slope := slope, m_scale := scale }
      else (h.key k).tangent e := by
  unfold setSlopeDo
  simp only [Heap.setKey_key]
  by_cases hk : k = key
  · subst hk
    simp only [if_true, true_and, Key.tangent_setTangent]
  · simp [hk]

theorem setScaleDo_tangent (key : KeyId) (d : Direction) (scale : α) (h : Heap α)
    (k : KeyId) (e : Direction) :
    ((setScaleDo key d scale h).key k).tangent e =
      if k = key ∧ e = d then { (h.key key).tangent d with m_scale := scale }
      else (h.key k).tangent e := by
  unfold setScaleDo
  simp only [Heap.setKey_key]
  by_cases hk : k = key
  · subst hk
    simp only [if_true, true_and, Key.tangent_setTangent]
  · simp [hk]

/-- Assigning a slope and a scale that is in range for it keeps all scales in
range. -/
theorem setSlopeDo_range {ν : Numeric α} {h : Heap α} (hr : Heap.ScalesInRange ν h)
    (key : KeyId) (d : Direction) {slope scale : α} (h0 : 0 ≤ scale)
    (h1 : scale ≤ maxScale ν slope) : Heap.ScalesInRange ν (setSlopeDo key d slope scale h) := by
  intro k e
  rw [setSlopeDo_tangent]
  split_ifs with hc
  · exact ⟨h0, h1⟩
  · exact hr k e

/-- Assigning a scale that is in range for the stored slope keeps all scales in
range. -/
theorem setScaleDo_range {ν : Numeric α} {h : Heap α} (hr : Heap.ScalesInRange ν h)
    (key : KeyId) (d : Direction) {scale : α} (h0 : 0 ≤ scale)
    (h1 : scale ≤ maxScale ν ((h.key key).tangent d).m_slope) :
    Heap.ScalesInRange ν (setScaleDo key d scale h) := by
  intro k e
  rw [setScaleDo_tangent]
  split_ifs with hc
  · exact ⟨h0, h1⟩
  · exact hr k e

/-- `Tangent::setSlope` returns; the new state is the old one, or the Do
closure has run and, for a parented key, has been recorded with the previous
slope and scale. -/
theorem Tangent.setSlope_ok (ν : Numeric α) (w : Script α) (key : KeyId) (d : Direction)
    (slope : α) (force : Bool) :
    Tangent.setSlope ν w key d slope force = .ok w ∨
    ∃ q, Tangent.setSlope ν w key d slope force =
        .ok ⟨setSlopeDo key d slope
          (min ((w.heap.key key).tangent d).m_scale (maxScale ν slope)) w.heap, q⟩ ∧
      (q = w.undoQueue ∨
        q = Action.setSlope key d slope
          (min ((w.heap.key key).tangent d).m_scale (maxScale ν slope))
          ((w.heap.key key).tangent d).m_slope ((w.heap.key key).tangent d).m_scale ::
            w.undoQueue) := by
  unfold Tangent.setSlope
  split_ifs with h1 h2
  · exact Or.inl rfl
  · exact Or.inl rfl
  · right
    dsimp only
    split
    · exact ⟨_, rfl, Or.inr rfl⟩
    · exact ⟨_, rfl, Or.inl rfl⟩

/-- `Tangent::setScale` returns; the new state is the old one, or the Do
closure has run with the clamped scale and, for a parented key, has been
recorded with the previous scale. -/
theorem Tangent.setScale_ok (ν : Numeric α) (w : Script α) (key : KeyId) (d : Direction)
    (scale : α) (force : Bool) :
    Tangent.setScale ν w key d scale force = .ok w ∨
    ∃ q, Tangent.setScale ν w key d scale force =
        .ok ⟨setScaleDo key d
          (clamp scale 0 (maxScale ν ((w.heap.key key).tangent d).m_slope)) w.heap, q⟩ ∧
      (q = w.undoQueue ∨
        q = Action.setScale key d
          (clamp scale 0 (maxScale ν ((w.heap.key key).tangent d).m_slope))
          ((w.heap.key key).tangent d).m_scale :: w.undoQueue) := by
  unfold Tangent.setScale
  split_ifs with h1
  · exact Or.inl rfl
  · dsimp only
    split_ifs with h2
    · exact Or.inl rfl
    · right
      split
      · exact ⟨_, rfl, Or.inr rfl⟩
      · exact ⟨_, rfl, Or.inl rfl⟩

theorem Tangent.setSlope_range {ν : Numeric α} (hν : ∀ x, 0 ≤ x → 0 ≤ ν.sqrt x)
    {w : Script α} (hr : Heap.ScalesInRange ν w.heap) (key : KeyId) (d : Direction)
    (slope : α) (force : Bool) :
    ∃ w1, Tangent.setSlope ν w key d slope force = .ok w1 ∧ Heap.ScalesInRange ν w1.heap := by
  rcases Tangent.setSlope_ok ν w key d slope force with h | ⟨q, h, _⟩
  · exact ⟨w, h, hr⟩
  · refine ⟨_, h, setSlopeDo_range hr key d ?_ (min_le_right _ _)⟩
    exact le_min (hr key d).1 (maxScale_nonneg ν hν slope)

theorem Tangent.setScale_range {ν : Numeric α} (hν : ∀ x, 0 ≤ x → 0 ≤ ν.sqrt x)
    {w : Script α} (hr : Heap.ScalesInRange ν w.heap) (key : KeyId) (d : Direction)
    (scale : α) (force : Bool) :
    ∃ w1, Tangent.setScale ν w key d scale force = .ok w1 ∧ Heap.ScalesInRange ν w1.heap := by
  rcases Tangent.setScale_ok ν w key d scale force with h | ⟨q, h, _⟩
  · exact ⟨w, h, hr⟩
  · have hc := clamp_range (a := scale) (maxScale_nonneg ν hν ((w.heap.key key).tangent d).m_slope)
    exact ⟨_, h, setScaleDo_range hr key d hc.1 hc.2⟩

theorem Reachable.afterRet_addKey {ν : Numeric α} {w : Script α} (hr : Reachable ν w)
    (this : CurveId) (key : KeyId) (flag : Bool) (hk : key < w.heap.keyCount) :
    Reachable ν (w.afterRet (CurvePlug.addKey w this key flag)) := by
  cases h : CurvePlug.addKey w this key flag with
  | error e => exact hr
  | ok p => exact Reachable.addKey this key flag p.2 hr hk h

theorem Reachable.after_removeKey {ν : Numeric α} {w : Script α} (hr : Reachable ν w)
    (this : CurveId) (key : KeyId) (hk : key < w.heap.keyCount) :
    Reachable ν (w.after (CurvePlug.removeKey w this key)) := by
  cases h : CurvePlug.removeKey w this key with
  | error e => exact hr
  | ok p => exact Reachable.removeKey this key hr hk h

theorem Reachable.after_setSlope {ν : Numeric α} {w : Script α} (hr : Reachable ν w)
    (key : KeyId) (d : Direction) (slope : α) (force : Bool) (hk : key < w.heap.keyCount) :
    Reachable ν (w.after (Tangent.setSlope ν w key d slope force)) := by
  cases h : Tangent.setSlope ν w key d slope force with
  | error e => exact hr
  | ok p => exact Reachable.setSlope key d slope force hr hk h

theorem Reachable.after_setScale {ν : Numeric α} {w : Script α} (hr : Reachable ν w)
    (key : KeyId) (d : Direction) (scale : α) (force : Bool) (hk : key < w.heap.keyCount) :
    Reachable ν (w.after (Tangent.setScale ν w key d scale force)) := by
  cases h : Tangent.setScale ν w key d scale force with
  | error e => exact hr
  | ok p => exact Reachable.setScale key d scale force hr hk h

theorem Reachable.after_undo {ν : Numeric α} {w : Script α} (hr : Reachable ν w) :
    Reachable ν (w.after (Script.undo w)) := by
  cases h : Script.undo w with
  | error e => exact hr
  | ok p => exact Reachable.undo hr h

theorem exTangentUndone_reachable : Reachable exampleNumeric exTangentUndone :=
  ((((((Reachable.newKey 0 0 .Bezier 0 0 (3 / 4) (5 / 4) Reachable.init).afterRet_addKey 0 0
    false (by decide!)).after_setScale 0 .Out (1 / 2) false (by decide!)).after_removeKey 0 0
      (by decide!)).after_setSlope 0 .Out 0 false (by decide!)).after_undo).after_undo

/-- C12 fails as stated.  Key 0 is constructed with out slope 3/4 and out scale
5/4 (in range) and added to curve 0; `setScale( 1/2 )` on the parented key is
recorded with the previous scale 5/4; the key is removed from the curve;
`setSlope( 0 )` on the unparented key is not recorded and leaves slope 0, scale
1/2; undo of the removal and then undo of the `setScale` put the scale 5/4 back
beside the slope 0, whose bound is `sqrt( 1 ) = 1`.  The lengths of the undo
queue show that every call ran.  No clamp binds in the run, so it is the same
with the real square root in place of the bound of the example arithmetic. -/
theorem C12_counterexample :
    Reachable exampleNumeric exTangentUndone ∧
    ((exTangentKey.heap.key 0).m_out.m_slope = 3 / 4 ∧
      (exTangentKey.heap.key 0).m_out.m_scale = 5 / 4 ∧
      (exTangentKey.heap.key 0).m_parent = none ∧ exTangentKey.undoQueue.length = 0) ∧
    ((exTangentAdded.heap.key 0).m_parent = some 0 ∧ exTangentAdded.undoQueue.length = 1) ∧
    ((exTangentScaled.heap.key 0).m_out.m_slope = 3 / 4 ∧
      (exTangentScaled.heap.key 0).m_out.m_scale = 1 / 2 ∧
      exTangentScaled.undoQueue.length = 2) ∧
    ((exTangentRemoved.heap.key 0).m_parent = none ∧ exTangentRemoved.undoQueue.length = 3) ∧
    ((exTangentSloped.heap.key 0).m_out.m_slope = 0 ∧
      (exTangentSloped.heap.key 0).m_out.m_scale = 1 / 2 ∧
      exTangentSloped.undoQueue.length = 3) ∧
    ((exTangentBack.heap.key 0).m_parent = some 0 ∧ exTangentBack.undoQueue.length = 2) ∧
    ((exTangentUndone.heap.key 0).m_out.m_slope = 0 ∧
      (exTangentUndone.heap.key 0).m_out.m_scale = 5 / 4 ∧
      exTangentUndone.undoQueue.length = 1) ∧
    maxScale exampleNumeric (exTangentUndone.heap.key 0).m_out.m_slope = 1 ∧
    maxScale exampleNumeric (exTangentUndone.heap.key 0).m_out.m_slope <
      (exTangentUndone.heap.key 0).m_out.m_scale ∧
    Tangent.getSlope exTangentUndone.heap 0 .Out = 0 ∧
    Tangent.getScale exampleNumeric exTangentUndone.heap 0 .Out = 5 / 4 :=
  ⟨exTangentUndone_reachable,
    ⟨by decide!, by decide!, by decide!, by decide!⟩,
    ⟨by decide!, by decide!⟩,
    ⟨by decide!, by decide!, by decide!⟩,
    ⟨by decide!, by decide!⟩,
    ⟨by decide!, by decide!, by decide!⟩,
    ⟨by decide!, by decide!⟩,
    ⟨by decide!, by decide!, by decide!⟩,
    by decide!, by decide!, by decide!, by decide!⟩

/-- The constructor leaves both tangents of the new key with their scale in
range. -/
theorem Key.new_range (ν : Numeric α) (hν : ∀ x, 0 ≤ x → 0 ≤ ν.sqrt x) (h : Heap α)
    (time value : α) (i : Interpolation) (a b p q : α) (d : Direction) :
    Tangent.ScaleInRange ν
      (((Key.new ν h time value i a b p q).1.key (Key.new ν h time value i a b p q).2).tangent
        d) := by
  cases d
  · simpa [Key.new, Key.tangent, Tangent.ScaleInRange] using
      clamp_range (a := b) (maxScale_nonneg ν hν a)
  · simpa [Key.new, Key.tangent, Tangent.ScaleInRange] using
      clamp_range (a := q) (maxScale_nonneg ν hν p)

/-- C12 as amended (the square root taken to be non-negative).  The constructor
stores a scale in `[0, maxScale( slope )]`.  Each call of `setSlope` and of
`setScale`, forced or not, on a parented or an unparented key, returns and
keeps the stored scale of every tangent in that range when it was so before;
after `setScale` a tangent that is not constrained has
`getScale() ≤ sqrt( getSlope()² + 1 )`.  The Undo closure of a recorded
`setSlope` puts back the previous slope and scale and keeps the range in
whatever state it runs.  The Undo closure of a recorded `setScale` keeps the
range when the stored slope of the tangent is the one the call left. -/
theorem C12_tangent_scale_range (ν : Numeric α) (hν : ∀ x, 0 ≤ x → 0 ≤ ν.sqrt x) :
    (∀ (h : Heap α) (time value : α) (i : Interpolation) (a b p q : α) (d : Direction),
      Tangent.ScaleInRange ν
        (((Key.new ν h time value i a b p q).1.key
          (Key.new ν h time value i a b p q).2).tangent d)) ∧
    (∀ (w : Script α) (key : KeyId) (d : Direction) (slope : α) (force : Bool),
      Heap.ScalesInRange ν w.heap →
      ∃ w1, Tangent.setSlope ν w key d slope force = .ok w1 ∧ Heap.ScalesInRange ν w1.heap) ∧
    (∀ (w : Script α) (key : KeyId) (d : Direction) (scale : α) (force : Bool),
      Heap.ScalesInRange ν w.heap →
      ∃ w1, Tangent.setScale ν w key d scale force = .ok w1 ∧ Heap.ScalesInRange ν w1.heap ∧
        (Tangent.slopeIsConstrained w1.heap key d = false →
          Tangent.scaleIsConstrained w1.heap key d = false →
          Tangent.getScale ν w1.heap key d ≤
            ν.sqrt (Tangent.getSlope w1.heap key d * Tangent.getSlope w1.heap key d + 1))) ∧
    (∀ (w w1 : Script α) (key : KeyId) (d : Direction) (slope : α) (force : Bool)
      (a : Action α), Heap.ScalesInRange ν w.heap →
      Tangent.setSlope ν w key d slope force = .ok w1 → w1.undoQueue = a :: w.undoQueue →
      ∀ h, Heap.ScalesInRange ν h →
        ∃ h2, a.undoFn h = .ok h2 ∧ Heap.ScalesInRange ν h2 ∧
          ((h2.key key).tangent d).m_slope = ((w.heap.key key).tangent d).m_slope ∧
          ((h2.key key).tangent d).m_scale = ((w.heap.key key).tangent d).m_scale) ∧
    (∀ (w w1 : Script α) (key : KeyId) (d : Direction) (scale : α) (force : Bool)
      (a : Action α), Heap.ScalesInRange ν w.heap →
      Tangent.setScale ν w key d scale force = .ok w1 → w1.undoQueue = a :: w.undoQueue →
      ∀ h, Heap.ScalesInRange ν h →
        ((h.key key).tangent d).m_slope = ((w1.heap.key key).tangent d).m_slope →
        ∃ h2, a.undoFn h = .ok h2 ∧ Heap.ScalesInRange ν h2 ∧
          ((h2.key key).tangent d).m_scale = ((w.heap.key key).tangent d).m_scale) := by
  refine ⟨fun h time value i a b p q d => Key.new_range ν hν h time value i a b p q d,
    fun w key d slope force hr => Tangent.setSlope_range hν hr key d slope force, ?_, ?_, ?_⟩
  · intro w key d scale force hr
    obtain ⟨w1, hs, hr1⟩ := Tangent.setScale_range hν hr key d scale force
    refine ⟨w1, hs, hr1, fun hsl hsc => ?_⟩
    unfold Tangent.getScale Tangent.getSlope
    rw [hsl, hsc]
    simp only [Bool.false_eq_true, if_false]
    have := (hr1 key d).2
    unfold maxScale fma at this
    exact this
  · intro w w1 key d slope force a hr hs hq h hrh
    rcases Tangent.setSlope_ok ν w key d slope force with e | ⟨q, e, hq2⟩
    · rw [e] at hs
      simp only [Except.ok.injEq] at hs
      rw [← hs] at hq
      exact absurd hq.symm (List.cons_ne_self _ _)
    · rw [e] at hs
      simp only [Except.ok.injEq] at hs
      rw [← hs] at hq
      simp only at hq
      rcases hq2 with e2 | e2
      · rw [e2] at hq
        exact absurd hq.symm (List.cons_ne_self _ _)
      · rw [e2] at hq
        simp only [List.cons.injEq, and_true] at hq
        rw [← hq]
        refine ⟨_, rfl, setSlopeDo_range hrh key d (hr key d).1 (hr key d).2, ?_, ?_⟩
        · rw [setSlopeDo_tangent]; simp
        · rw [setSlopeDo_tangent]; simp
  · intro w w1 key d scale force a hr hs hq h hrh hslope
    rcases Tangent.setScale_ok ν w key d scale force with e | ⟨q, e, hq2⟩
    · rw [e] at hs
      simp only [Except.ok.injEq] at hs
      rw [← hs] at hq
      exact absurd hq.symm (List.cons_ne_self _ _)
    · rw [e] at hs
      simp only [Except.ok.injEq] at hs
      rw [← hs] at hq hslope
      simp only at hq hslope
      rw [setScaleDo_tangent] at hslope
      simp only [and_self, if_true] at hslope
      rcases hq2 with e2 | e2
      · rw [e2] at hq
        exact absurd hq.symm (List.cons_ne_self _ _)
      · rw [e2] at hq
        simp only [List.cons.injEq, and_true] at hq
        rw [← hq]
        refine ⟨_, rfl, setScaleDo_range hrh key d (hr key d).1 ?_, ?_⟩
        · rw [hslope]; exact (hr key d).2
        · rw [setScaleDo_tangent]; simp

/-- C12 as amended, for the rational arithmetic of the worked examples. -/
theorem C12_tangent_scale_range_witness :
    (∀ (h : Heap ℚ) (time value : ℚ) (i : Interpolation) (a b p q : ℚ) (d : Direction),
      Tangent.ScaleInRange exampleNumeric
        (((Key.new exampleNumeric h time value i a b p q).1.key
          (Key.new exampleNumeric h time value i a b p q).2).tangent d)) ∧
    (∀ (w : Script ℚ) (key : KeyId) (d : Direction) (slope : ℚ) (force : Bool),
      Heap.ScalesInRange exampleNumeric w.heap →
      ∃ w1, Tangent.setSlope exampleNumeric w key d slope force = .ok w1 ∧
        Heap.ScalesInRange exampleNumeric w1.heap) ∧
    (∀ (w : Script ℚ) (key : KeyId) (d : Direction) (scale : ℚ) (force : Bool),
      Heap.ScalesInRange exampleNumeric w.heap →
      ∃ w1, Tangent.setScale exampleNumeric w key d scale force = .ok w1 ∧
        Heap.ScalesInRange exampleNumeric w1.heap ∧
        (Tangent.slopeIsConstrained w1.heap key d = false →
          Tangent.scaleIsConstrained w1.heap key d = false →
          Tangent.getScale exampleNumeric w1.heap key d ≤
            exampleNumeric.sqrt
              (Tangent.getSlope w1.heap key d * Tangent.getSlope w1.heap key d + 1))) ∧
    (∀ (w w1 : Script ℚ) (key : KeyId) (d : Direction) (slope : ℚ) (force : Bool)
      (a : Action ℚ), Heap.ScalesInRange exampleNumeric w.heap →
      Tangent.setSlope exampleNumeric w key d slope force = .ok w1 →
      w1.undoQueue = a :: w.undoQueue →
      ∀ h, Heap.ScalesInRange exampleNumeric h →
        ∃ h2, a.undoFn h = .ok h2 ∧ Heap.ScalesInRange exampleNumeric h2 ∧
          ((h2.key key).tangent d).m_slope = ((w.heap.key key).tangent d).m_slope ∧
          ((h2.key key).tangent d).m_scale = ((w.heap.key key).tangent d).m_scale) ∧
    (∀ (w w1 : Script ℚ) (key : KeyId) (d : Direction) (scale : ℚ) (force : Bool)
      (a : Action ℚ), Heap.ScalesInRange exampleNumeric w.heap →
      Tangent.setScale exampleNumeric w key d scale force = .ok w1 →
      w1.undoQueue = a :: w.undoQueue →
      ∀ h, Heap.ScalesInRange exampleNumeric h →
        ((h.key key).tangent d).m_slope = ((w1.heap.key key).tangent d).m_slope →
        ∃ h2, a.undoFn h = .ok h2 ∧ Heap.ScalesInRange exampleNumeric h2 ∧
          ((h2.key key).tangent d).m_scale = ((w.heap.key key).tangent d).m_scale) :=
  C12_tangent_scale_range exampleNumeric (fun x hx => hx)

/-! ### Lookups by time -/

theorem before_append_lower_bound (tk : KeyId → α) (t : α) (l : List KeyId) :
    before_lower_bound tk t l ++ lower_bound tk t l = l := by
  induction l with
  | nil => rfl
  | cons a as ih =>
    unfold before_lower_bound lower_bound
    split_ifs with h
    · simp [ih]
    · simp

theorem lower_bound_ge (tk : KeyId → α) (t : α) {l : List KeyId}
    (hs : (l.map tk).Pairwise (· < ·)) : ∀ x ∈ lower_bound tk t l, t ≤ tk x := by
  induction l with
  | nil => intro x hx; simp [lower_bound] at hx
  | cons a as ih =>
    rw [List.map_cons, List.pairwise_cons] at hs
    intro x hx
    unfold lower_bound at hx
    split_ifs at hx with h
    · exact ih hs.2 x hx
    · rcases List.mem_cons.1 hx with e | hm
      · rw [e]; exact not_lt.1 h
      · exact le_trans (not_lt.1 h) (le_of_lt (hs.1 _ (List.mem_map_of_mem tk hm)))

theorem lower_bound_head_le (tk : KeyId → α) (t : α) {l : List KeyId}
    (hs : (l.map tk).Pairwise (· < ·)) {r : KeyId} {rest : List KeyId}
    (h : lower_bound tk t l = r :: rest) : ∀ x ∈ lower_bound tk t l, tk r ≤ tk x := by
  induction l with
  | nil => simp [lower_bound] at h
  | cons a as ih =>
    rw [List.map_cons, List.pairwise_cons] at hs
    unfold lower_bound at h ⊢
    split_ifs at h ⊢ with c
    · exact ih hs.2 h
    · intro x hx
      have e : a = r := (List.cons.inj h).1
      subst e
      rcases List.mem_cons.1 hx with e | hm
      · rw [e]
      · exact le_of_lt (hs.1 _ (List.mem_map_of_mem tk hm))

theorem before_lower_bound_sorted (tk : KeyId → α) (t : α) {l : List KeyId}
    (hs : (l.map tk).Pairwise (· < ·)) :
    ((before_lower_bound tk t l).map tk).Pairwise (· < ·) := by
  have e := before_append_lower_bound tk t l
  rw [← e, List.map_append] at hs
  exact (List.pairwise_append.1 hs).1

theorem before_lower_bound_le_last (tk : KeyId → α) (t : α) {l : List KeyId}
    (hs : (l.map tk).Pairwise (· < ·)) {lo : KeyId}
    (h : (before_lower_bound tk t l).getLast? = some lo) :
    lo ∈ before_lower_bound tk t l ∧ ∀ x ∈ before_lower_bound tk t l, tk x ≤ tk lo := by
  have hne : before_lower_bound tk t l ≠ [] := by
    intro e; rw [e] at h; simp at h
  have e : (before_lower_bound tk t l).getLast hne = lo := by
    rw [List.getLast?_eq_getLast _ hne] at h
    exact Option.some.inj h
  refine ⟨e ▸ List.getLast_mem hne, ?_⟩
  intro x hx
  rw [← e]
  exact getLast_mem_le tk (before_lower_bound_sorted tk t hs) hne x hx

/-- The last key before the `lower_bound` position is the key of greatest time
below `t`. -/
theorem before_lower_bound_getLast_iff (tk : KeyId → α) (t : α) {l : List KeyId}
    (hs : (l.map tk).Pairwise (· < ·)) (k : KeyId) :
    (before_lower_bound tk t l).getLast? = some k ↔
      k ∈ l ∧ tk k < t ∧ ∀ x ∈ l, tk x < t → tk x ≤ tk k := by
  constructor
  · intro h
    obtain ⟨hm, hmax⟩ := before_lower_bound_le_last tk t hs h
    obtain ⟨hl, hlt⟩ := mem_before_lower_bound_imp tk t hm
    refine ⟨hl, hlt, ?_⟩
    intro x hx hxt
    rw [← before_append_lower_bound tk t l] at hx
    rcases List.mem_append.1 hx with hb | ha
    · exact hmax x hb
    · exact absurd hxt (not_lt.2 (lower_bound_ge tk t hs x ha))
  · rintro ⟨hm, hlt, hmax⟩
    exact before_lower_bound_getLast tk t hs hm hlt hmax

theorem before_lower_bound_getLast_none (tk : KeyId → α) (t : α) {l : List KeyId}
    (hs : (l.map tk).Pairwise (· < ·)) :
    (before_lower_bound tk t l).getLast? = none ↔ ∀ x ∈ l, ¬ tk x < t := by
  constructor
  · intro h x hx
    have e : before_lower_bound tk t l = [] := List.getLast?_eq_none_iff.1 h
    have e2 := before_append_lower_bound tk t l
    rw [e, List.nil_append] at e2
    rw [← e2] at hx
    exact not_lt.2 (lower_bound_ge tk t hs x hx)
  · intro h
    rw [before_lower_bound_of_none_lt tk t hs h]
    rfl

/-- The first key at the `upper_bound` position is the key of least time above
`t`. -/
theorem upper_bound_head_iff (tk : KeyId → α) (t : α) {l : List KeyId}
    (hs : (l.map tk).Pairwise (· < ·)) (k : KeyId) :
    (upper_bound tk t l).head? = some k ↔
      k ∈ l ∧ t < tk k ∧ ∀ x ∈ l, t < tk x → tk k ≤ tk x := by
  induction l with
  | nil => simp [upper_bound]
  | cons a as ih =>
    rw [List.map_cons, List.pairwise_cons] at hs
    unfold upper_bound
    split_ifs with c
    · simp only [List.head?_cons, Option.some.injEq]
      constructor
      · intro e
        subst e
        refine ⟨List.mem_cons_self _ _, c, ?_⟩
        intro x hx _
        rcases List.mem_cons.1 hx with e | hm
        · rw [e]
        · exact le_of_lt (hs.1 _ (List.mem_map_of_mem tk hm))
      · rintro ⟨hm, hlt, hmin⟩
        rcases List.mem_cons.1 hm with e | hm2
        · exact e.symm
        · have h1 := hmin a (List.mem_cons_self _ _) c
          have h2 := hs.1 _ (List.mem_map_of_mem tk hm2)
          exact absurd h2 (not_lt.2 h1)
    · rw [ih hs.2]
      constructor
      · rintro ⟨hm, hlt, hmin⟩
        refine ⟨List.mem_cons_of_mem _ hm, hlt, ?_⟩
        intro x hx hxt
        rcases List.mem_cons.1 hx with e | hm2
        · rw [e] at hxt; exact absurd hxt c
        · exact hmin x hm2 hxt
      · rintro ⟨hm, hlt, hmin⟩
        rcases List.mem_cons.1 hm with e | hm2
        · rw [e] at hlt; exact absurd hlt c
        · exact ⟨hm2, hlt, fun x hx => hmin x (List.mem_cons_of_mem _ hx)⟩

theorem upper_bound_head_none (tk : KeyId → α) (t : α) (l : List KeyId) :
    (upper_bound tk t l).head? = none ↔ ∀ x ∈ l, ¬ t < tk x := by
  induction l with
  | nil => simp [upper_bound]
  | cons a as ih =>
    unfold upper_bound
    split_ifs with c
    · simp only [List.head?_cons, List.mem_cons, forall_eq_or_imp]
      constructor
      · intro e; cases e
      · intro h; exact absurd c h.1
    · rw [ih]
      simp only [List.mem_cons, forall_eq_or_imp]
      exact ⟨fun h => ⟨c, h⟩, fun h => h.2⟩

/-- What `closestKey` returns on a sorted container. -/
theorem closestKey_spec (h : Heap α) (c : CurveId) (t : α)
    (hs : ((h.curve c).m_keys.map h.time).Pairwise (· < ·)) :
    (CurvePlug.closestKey h c t = none ↔ (h.curve c).m_keys = []) ∧
    (∀ k, CurvePlug.closestKey h c t = some k →
      k ∈ (h.curve c).m_keys ∧ ∀ x ∈ (h.curve c).m_keys, |t - h.time k| ≤ |t - h.time x|) := by
  unfold CurvePlug.closestKey
  cases hk : (h.curve c).m_keys with
  | nil => simp
  | cons k0 ks =>
    rw [hk] at hs
    simp only
    cases hlb : lower_bound h.time t (k0 :: ks) with
    | nil =>
      simp only [reduceCtorEq, false_iff, not_false_eq_true, true_and, Option.some.injEq]
      intro k e
      subst e
      refine ⟨List.getLast_mem _, ?_⟩
      intro x hx
      have h1 := lower_bound_nil_imp h.time t hlb
      have h2 := getLast_mem_le h.time hs (List.cons_ne_nil k0 ks) x hx
      have h3 := h1 _ (List.getLast_mem (List.cons_ne_nil k0 ks))
      have h4 := h1 x hx
      rw [abs_of_pos (sub_pos.2 h3), abs_of_pos (sub_pos.2 h4)]
      linarith
    | cons r rest =>
      have hr : r ∈ k0 :: ks := lower_bound_sublist h.time t _ r (by rw [hlb]; simp)
      have hrt : t ≤ h.time r := not_lt.1 (lower_bound_head_not_lt h.time t _ hlb)
      have hge : ∀ x ∈ lower_bound h.time t (k0 :: ks), h.time r ≤ h.time x :=
        lower_bound_head_le h.time t hs hlb
      have happ := before_append_lower_bound h.time t (k0 :: ks)
      have hright : ∀ x ∈ lower_bound h.time t (k0 :: ks), |t - h.time r| ≤ |t - h.time x| := by
        intro x hx
        have := hge x hx
        rw [abs_of_nonpos (by linarith), abs_of_nonpos (by linarith)]
        linarith
      simp only
      split_ifs with c1
      · refine ⟨by simp, ?_⟩
        intro k e
        have e := Option.some.inj e
        subst e
        refine ⟨hr, ?_⟩
        intro x hx
        rcases c1 with c1 | c1
        · have : t - h.time r = 0 := by
            rw [show h.time r = (h.key r).m_time from rfl, c1]; ring
          rw [this, abs_zero]
          exact abs_nonneg _
        · rw [c1, List.nil_append] at happ
          rw [happ] at hright
          exact hright x hx
      · rw [not_or] at c1
        cases hgl : (before_lower_bound h.time t (k0 :: ks)).getLast? with
        | none => exact absurd (List.getLast?_eq_none_iff.1 hgl) c1.2
        | some lft =>
          obtain ⟨hm, hmax⟩ := before_lower_bound_le_last h.time t hs hgl
          obtain ⟨hml, hlt⟩ := mem_before_lower_bound_imp h.time t hm
          have hleft : ∀ x ∈ before_lower_bound h.time t (k0 :: ks),
              |t - h.time lft| ≤ |t - h.time x| := by
            intro x hx
            have := hmax x hx
            have := (mem_before_lower_bound_imp h.time t hx).2
            rw [abs_of_pos (by linarith), abs_of_pos (by linarith)]
            linarith
          simp only
          split_ifs with c2
          · refine ⟨by simp, ?_⟩
            intro k e
            have e := Option.some.inj e
            subst e
            refine ⟨hml, ?_⟩
            intro x hx
            rw [← happ] at hx
            rcases List.mem_append.1 hx with hb | ha
            · exact hleft x hb
            · exact le_trans (le_of_lt c2) (hright x ha)
          · refine ⟨by simp, ?_⟩
            intro k e
            have e := Option.some.inj e
            subst e
            refine ⟨hr, ?_⟩
            intro x hx
            rw [← happ] at hx
            rcases List.mem_append.1 hx with hb | ha
            · exact le_trans (not_lt.1 c2) (hleft x hb)
            · exact hright x ha

/-- What `closestKey` returns strictly between two adjacent keys. -/
theorem closestKey_between (h : Heap α) (c : CurveId) (t : α)
    (hs : ((h.curve c).m_keys.map h.time).Pairwise (· < ·)) {lo hi : KeyId}
    (hn : nextIn lo (h.curve c).m_keys = some hi) (h1 : h.time lo < t) (h2 : t < h.time hi) :
    CurvePlug.closestKey h c t =
      if t - h.time lo < h.time hi - t then some lo else some hi := by
  obtain ⟨⟨r, hlb⟩, hgl⟩ := span_of_nextIn h.time hs hn h1 h2
  unfold CurvePlug.closestKey
  cases hk : (h.curve c).m_keys with
  | nil => rw [hk] at hn; simp [nextIn] at hn
  | cons k0 ks =>
    rw [hk] at hlb hgl
    simp only [hlb, hgl]
    have hne : ¬ ((h.key hi).m_time = t ∨ before_lower_bound h.time t (k0 :: ks) = []) := by
      rw [not_or]
      refine ⟨fun e => ?_, fun e => ?_⟩
      · rw [show h.time hi = (h.key hi).m_time from rfl, e] at h2
        exact lt_irrefl _ h2
      · rw [e] at hgl; simp at hgl
    rw [if_neg hne]
    rw [show (h.key lo).m_time = h.time lo from rfl, show (h.key hi).m_time = h.time hi from rfl,
      abs_of_pos (sub_pos.2 h1), abs_of_neg (sub_neg.2 h2), neg_sub]

/-! ### closestKey, previousKey and nextKey -/

theorem exTie_reachable : Reachable exampleNumeric exTie :=
  (Reachable.init.afterRet_insertKeyValue 0 0 0).afterRet_insertKeyValue 0 2 20

/-- C23: on a curve whose active keys are sorted by time, `closestKey( t )` is
null iff the curve has no active key, and otherwise it is an active key whose
distance `|t - k.time|` is least among all active keys; `closestKey( t,
maxDistance )` is that same key when `|k.time - t| <= maxDistance` and null
otherwise. -/
theorem C23_closestKey_minimises_distance (h : Heap α) (c : CurveId) (t : α)
    (hs : ((h.curve c).m_keys.map h.time).Pairwise (· < ·)) :
    (CurvePlug.closestKey h c t = none ↔ (h.curve c).m_keys = []) ∧
    (∀ k, CurvePlug.closestKey h c t = some k →
      k ∈ (h.curve c).m_keys ∧
        ∀ x ∈ (h.curve c).m_keys, |t - h.time k| ≤ |t - h.time x|) ∧
    (∀ k d, CurvePlug.closestKey h c t = some k →
      CurvePlug.closestKeyWithin h c t d = if |h.time k - t| ≤ d then some k else none) ∧
    (CurvePlug.closestKey h c t = none → ∀ d, CurvePlug.closestKeyWithin h c t d = none) := by
  obtain ⟨h1, h2⟩ := closestKey_spec h c t hs
  refine ⟨h1, h2, ?_, ?_⟩
  · intro k d e
    unfold CurvePlug.closestKeyWithin
    rw [e]
    simp only [gt_iff_lt]
    by_cases hd : |h.time k - t| ≤ d
    · rw [if_pos hd]
      exact if_neg (not_lt.2 hd)
    · rw [if_neg hd]
      exact if_pos (not_le.1 hd)
  · intro e d
    unfold CurvePlug.closestKeyWithin
    rw [e]

/-- C23 for the keys at times 0, 1 and 2 and `t = 7/4`. -/
theorem C23_closestKey_minimises_distance_witness :
    (CurvePlug.closestKey exThree.heap 0 (7 / 4) = none ↔ (exThree.heap.curve 0).m_keys = []) ∧
    (∀ k, CurvePlug.closestKey exThree.heap 0 (7 / 4) = some k →
      k ∈ (exThree.heap.curve 0).m_keys ∧
        ∀ x ∈ (exThree.heap.curve 0).m_keys,
          |7 / 4 - exThree.heap.time k| ≤ |7 / 4 - exThree.heap.time x|) ∧
    (∀ k d, CurvePlug.closestKey exThree.heap 0 (7 / 4) = some k →
      CurvePlug.closestKeyWithin exThree.heap 0 (7 / 4) d =
        if |exThree.heap.time k - 7 / 4| ≤ d then some k else none) ∧
    (CurvePlug.closestKey exThree.heap 0 (7 / 4) = none →
      ∀ d, CurvePlug.closestKeyWithin exThree.heap 0 (7 / 4) d = none) :=
  C23_closestKey_minimises_distance exThree.heap 0 (7 / 4)
    (exThree_reachable.inv.wf.linked.sorted 0)

/-- C24 fails as stated: on the curve with the keys at times 0 and 2,
`closestKey( 1 )` is the key at time 2, the later of the two. -/
theorem C24_counterexample :
    (exTie.heap.curve 0).m_keys = [0, 1] ∧ exTie.heap.time 0 = 0 ∧ exTie.heap.time 1 = 2 ∧
    CurvePlug.closestKey exTie.heap 0 1 = some 1 ∧
    CurvePlug.closestKey exTie.heap 0 1 ≠ some 0 :=
  ⟨by decide!, by decide!, by decide!, by decide!, by decide!⟩

/-- C24 as amended: when `t` lies strictly between two adjacent active keys and
is equidistant from both, `closestKey( t )` is the later of the two keys (the
earlier key is returned only when it is strictly closer). -/
theorem C24_closestKey_tie_later (h : Heap α) (c : CurveId) (t : α)
    (hs : ((h.curve c).m_keys.map h.time).Pairwise (· < ·)) (lo hi : KeyId)
    (hn : nextIn lo (h.curve c).m_keys = some hi) (h1 : h.time lo < t) (h2 : t < h.time hi) :
    (t - h.time lo = h.time hi - t → CurvePlug.closestKey h c t = some hi) ∧
    (CurvePlug.closestKey h c t = some lo ↔ t - h.time lo < h.time hi - t) := by
  have e := closestKey_between h c t hs hn h1 h2
  have hne : lo ≠ hi := fun q => by
    rw [q] at h1
    exact lt_irrefl _ (lt_trans h1 h2)
  refine ⟨fun q => ?_, ?_⟩
  · rw [e, if_neg (by rw [q]; exact lt_irrefl _)]
  · rw [e]
    split_ifs with c1
    · simp [c1]
    · simp only [Option.some.injEq, c1, iff_false]
      exact fun q => hne q.symm

/-- C24 as amended, for the keys at times 0 and 2 and `t = 1`. -/
theorem C24_closestKey_tie_later_witness :
    (1 - exTie.heap.time 0 = exTie.heap.time 1 - 1 →
      CurvePlug.closestKey exTie.heap 0 1 = some 1) ∧
    (CurvePlug.closestKey exTie.heap 0 1 = some 0 ↔
      1 - exTie.heap.time 0 < exTie.heap.time 1 - 1) :=
  C24_closestKey_tie_later exTie.heap 0 1 (exTie_reachable.inv.wf.linked.sorted 0) 0 1
    (by decide!) (by decide!) (by decide!)

/-- C25: in every reachable state and for every time `t`, with or without a key
at `t`, `previousKey( t )` is the active key of greatest time strictly below
`t`, or null when there is none, and `nextKey( t )` is the active key of least
time strictly above `t`, or null when there is none; a key returned by either
has a time different from `t`, is active and is not in the inactive
container. -/
theorem C25_previousKey_nextKey_strict {ν : Numeric α} {w : Script α} (hr : Reachable ν w)
    (c : CurveId) (t : α) :
    (∀ k, CurvePlug.previousKey w.heap c t = some k ↔
      k ∈ (w.heap.curve c).m_keys ∧ w.heap.time k < t ∧
        ∀ x ∈ (w.heap.curve c).m_keys, w.heap.time x < t → w.heap.time x ≤ w.heap.time k) ∧
    (CurvePlug.previousKey w.heap c t = none ↔
      ∀ x ∈ (w.heap.curve c).m_keys, ¬ w.heap.time x < t) ∧
    (∀ k, CurvePlug.nextKey w.heap c t = some k ↔
      k ∈ (w.heap.curve c).m_keys ∧ t < w.heap.time k ∧
        ∀ x ∈ (w.heap.curve c).m_keys, t < w.heap.time x → w.heap.time k ≤ w.heap.time x) ∧
    (CurvePlug.nextKey w.heap c t = none ↔
      ∀ x ∈ (w.heap.curve c).m_keys, ¬ t < w.heap.time x) ∧
    (∀ k, CurvePlug.previousKey w.heap c t = some k ∨ CurvePlug.nextKey w.heap c t = some k →
      (w.heap.key k).m_time ≠ t ∧ (w.heap.key k).m_active = true ∧
        (w.heap.key k).m_parent = some c ∧ k ∉ (w.heap.curve c).m_inactiveKeys) := by
  have hl := hr.inv.wf.linked
  have hs := hl.sorted c
  have p1 := before_lower_bound_getLast_iff w.heap.time t hs
  have p2 := upper_bound_head_iff w.heap.time t hs
  refine ⟨p1, before_lower_bound_getLast_none w.heap.time t hs, p2,
    upper_bound_head_none w.heap.time t _, ?_⟩
  intro k hk
  have hm : k ∈ (w.heap.curve c).m_keys ∧ w.heap.time k ≠ t := by
    rcases hk with q | q
    · obtain ⟨a, b, _⟩ := (p1 k).1 q
      exact ⟨a, ne_of_lt b⟩
    · obtain ⟨a, b, _⟩ := (p2 k).1 q
      exact ⟨a, ne_of_gt b⟩
  obtain ⟨hp, ha⟩ := (hl.mem_keys c k).1 hm.1
  refine ⟨hm.2, ha, hp, fun hin => ?_⟩
  have := ((hl.mem_inactiveKeys c k).1 hin).2
  rw [ha] at this
  cases this

/-- C25 for the keys at times 0, 1 and 2 and `t = 1`, the time of a key. -/
theorem C25_previousKey_nextKey_strict_witness :
    CurvePlug.previousKey exThree.heap 0 1 = some 0 ∧
    CurvePlug.nextKey exThree.heap 0 1 = some 2 ∧
    ((∀ k, CurvePlug.previousKey exThree.heap 0 1 = some k ↔
      k ∈ (exThree.heap.curve 0).m_keys ∧ exThree.heap.time k < 1 ∧
        ∀ x ∈ (exThree.heap.curve 0).m_keys,
          exThree.heap.time x < 1 → exThree.heap.time x ≤ exThree.heap.time k) ∧
    (CurvePlug.previousKey exThree.heap 0 1 = none ↔
      ∀ x ∈ (exThree.heap.curve 0).m_keys, ¬ exThree.heap.time x < 1) ∧
    (∀ k, CurvePlug.nextKey exThree.heap 0 1 = some k ↔
      k ∈ (exThree.heap.curve 0).m_keys ∧ 1 < exThree.heap.time k ∧
        ∀ x ∈ (exThree.heap.curve 0).m_keys,
          1 < exThree.heap.time x → exThree.heap.time k ≤ exThree.heap.time x) ∧
    (CurvePlug.nextKey exThree.heap 0 1 = none ↔
      ∀ x ∈ (exThree.heap.curve 0).m_keys, ¬ 1 < exThree.heap.time x) ∧
    (∀ k, CurvePlug.previousKey exThree.heap 0 1 = some k ∨
        CurvePlug.nextKey exThree.heap 0 1 = some k →
      (exThree.heap.key k).m_time ≠ 1 ∧ (exThree.heap.key k).m_active = true ∧
        (exThree.heap.key k).m_parent = some 0 ∧ k ∉ (exThree.heap.curve 0).m_inactiveKeys)) :=
  ⟨by decide!, by decide!, C25_previousKey_nextKey_strict exThree_reachable 0 1⟩

/-! ### The interpolator objects -/

theorem Interpolator.get_enumerator (m : Interpolation) :
    (Interpolator.get (some m)).getInterpolation = m ∧
    (Interpolator.get (some m)).m_hints = Interpolator.getHints m ∧
    Interpolator.get (some m) ∈ Interpolator.container := by
  cases m <;> exact ⟨rfl, rfl, by decide⟩

theorem Key.new_key (ν : Numeric α) (h : Heap α) (time value : α) (i : Interpolation)
    (a b c d : α) :
    ((Key.new ν h time value i a b c d).1.key (Key.new ν h time value i a b c d).2).m_interpolator
      = i := by
  simp [Key.new]

/-- C26: for each of the five interpolation modes `m`, `Interpolator::get( m )`
is the interpolator of the container whose `getInterpolation()` is `m` (with the
hints of that mode), so a key constructed with mode `m` reports
`getInterpolation() = m`; for a value of the enum type that is none of the five
enumerators, `get` returns the default interpolator, which is the Bezier
interpolator, and `defaultInterpolation()` is Bezier. -/
theorem C26_interpolator_get_by_mode (ν : Numeric α) (h : Heap α) (time value : α)
    (inSlope inScale outSlope outScale : α) :
    (∀ m : Interpolation,
      (Interpolator.get (some m)).getInterpolation = m ∧
      (Interpolator.get (some m)).m_hints = Interpolator.getHints m ∧
      Interpolator.get (some m) ∈ Interpolator.container ∧
      Key.getInterpolation
        (Key.newOfValue ν h time value (some m) inSlope inScale outSlope outScale).1
        (Key.newOfValue ν h time value (some m) inSlope inScale outSlope outScale).2 = m) ∧
    Interpolator.get none = Interpolator.getDefaultInterpolator ∧
    Interpolator.getDefaultInterpolator = InterpolatorBezier.new ∧
    Interpolator.getDefaultInterpolator.getInterpolation = Interpolation.Bezier ∧
    defaultInterpolation = Interpolation.Bezier ∧
    Interpolator.getDefault = defaultInterpolation ∧
    Key.getInterpolation
      (Key.newOfValue ν h time value none inSlope inScale outSlope outScale).1
      (Key.newOfValue ν h time value none inSlope inScale outSlope outScale).2 =
        Interpolation.Bezier := by
  refine ⟨fun m => ?_, rfl, rfl, rfl, rfl, rfl, ?_⟩
  · obtain ⟨a, b, c⟩ := Interpolator.get_enumerator m
    refine ⟨a, b, c, ?_⟩
    unfold Key.getInterpolation Key.newOfValue
    rw [Key.new_key, a]
  · unfold Key.getInterpolation Key.newOfValue
    rw [Key.new_key]
    rfl

/-! ### Effective slope and scale of a tangent -/

theorem prevIn_of_not_head {k : KeyId} {l : List KeyId} (hk : k ∈ l) (hh : l.head? ≠ some k) :
    ∃ p, prevIn k l = some p := by
  induction l with
  | nil => cases hk
  | cons x xs ih =>
    have hx : x ≠ k := fun e => hh (by rw [e]; rfl)
    cases xs with
    | nil =>
      rcases List.mem_cons.1 hk with e | e
      · exact absurd e.symm hx
      · cases e
    | cons y rest =>
      unfold prevIn
      rw [if_neg hx]
      by_cases hy : y = k
      · rw [if_pos hy]; exact ⟨x, rfl⟩
      · rw [if_neg hy]
        apply ih
        · rcases List.mem_cons.1 hk with e | e
          · exact absurd e.symm hx
          · exact e
        · intro e
          exact hy (Option.some.inj e)

/-- In a linked heap an active key that is not the first key of its curve has a
previous key, which is an active key of the same curve. -/
theorem Linked.prevKey_of_not_first {h : Heap α} (hl : Linked h) {c : CurveId} {k : KeyId}
    (hp : (h.key k).m_parent = some c) (ha : (h.key k).m_active = true)
    (hf : CurvePlug.firstKey h c ≠ some k) :
    ∃ kp, Key.prevKey h k = some kp ∧ prevIn k (h.curve c).m_keys = some kp ∧
      (h.key kp).m_parent = some c ∧ (h.key kp).m_active = true ∧
      Tangent.interpolator h k .In = (h.key kp).m_interpolator := by
  have hm : k ∈ (h.curve c).m_keys := (hl.mem_keys c k).2 ⟨hp, ha⟩
  obtain ⟨kp, hkp⟩ := prevIn_of_not_head hm hf
  have e : Key.prevKey h k = some kp := by rw [Key.prevKey_eq hp ha, hkp]
  obtain ⟨q1, q2⟩ := (hl.mem_keys c kp).1 (prevIn_mem hkp)
  refine ⟨kp, e, hkp, q1, q2, ?_⟩
  simp only [Tangent.interpolator, e]

theorem hints_lack_slope (i : Interpolation) :
    Interpolator.getHints i &&& Hint.UseSlope = 0 ↔
      i = .Linear ∨ i = .Constant ∨ i = .ConstantNext := by
  cases i <;> decide

theorem hints_lack_scale (i : Interpolation) :
    Interpolator.getHints i &&& Hint.UseScale = 0 ↔
      i = .Linear ∨ i = .Constant ∨ i = .ConstantNext ∨ i = .Cubic := by
  cases i <;> decide

theorem Linked.slopeIsConstrained_iff {h : Heap α} (hl : Linked h) (k : KeyId) (d : Direction) :
    Tangent.slopeIsConstrained h k d = true ↔
      ∃ c, (h.key k).m_parent = some c ∧ (h.key k).m_active = true ∧
        (d = .Out → CurvePlug.finalKey h c ≠ some k) ∧
        (d = .In → CurvePlug.firstKey h c ≠ some k) ∧
        Interpolator.getHints (Tangent.interpolator h k d) &&& Hint.UseSlope = 0 := by
  unfold Tangent.slopeIsConstrained
  cases hp : (h.key k).m_parent with
  | none => simp
  | some c =>
    cases ha : (h.key k).m_active with
    | false => simp
    | true =>
      cases d with
      | Out =>
        constructor
        · intro q
          simp only [Bool.not_true, Bool.false_eq_true, if_false, Bool.and_eq_true,
            decide_eq_true_eq, beq_iff_eq] at q
          exact ⟨c, rfl, rfl, fun _ => q.1, (fun e => by cases e), q.2⟩
        · rintro ⟨c2, e, _, a, _, b⟩
          cases e
          simp only [Bool.not_true, Bool.false_eq_true, if_false, Bool.and_eq_true,
            decide_eq_true_eq, beq_iff_eq]
          exact ⟨a rfl, b⟩
      | In =>
        constructor
        · intro q
          simp only [Bool.not_true, Bool.false_eq_true, if_false, Bool.and_eq_true,
            decide_eq_true_eq] at q
          obtain ⟨a, b⟩ := q
          obtain ⟨kp, e, _, _, _, ei⟩ := hl.prevKey_of_not_first hp ha a
          rw [e] at b
          refine ⟨c, rfl, rfl, (fun e => by cases e), fun _ => a, ?_⟩
          rw [ei]
          exact beq_iff_eq.1 b
        · rintro ⟨c2, e, _, _, a, b⟩
          cases e
          obtain ⟨kp, e, _, _, _, ei⟩ := hl.prevKey_of_not_first hp ha (a rfl)
          simp only [Bool.not_true, Bool.false_eq_true, if_false, Bool.and_eq_true,
            decide_eq_true_eq]
          rw [e]
          rw [ei] at b
          exact ⟨a rfl, beq_iff_eq.2 b⟩

theorem Linked.scaleIsConstrained_iff {h : Heap α} (hl : Linked h) (k : KeyId) (d : Direction) :
    Tangent.scaleIsConstrained h k d = true ↔
      ∃ c, (h.key k).m_parent = some c ∧ (h.key k).m_active = true ∧
        (d = .Out → CurvePlug.finalKey h c ≠ some k) ∧
        (d = .In → CurvePlug.firstKey h c ≠ some k) ∧
        Interpolator.getHints (Tangent.interpolator h k d) &&& Hint.UseScale = 0 := by
  unfold Tangent.scaleIsConstrained
  cases hp : (h.key k).m_parent with
  | none => simp
  | some c =>
    cases ha : (h.key k).m_active with
    | false => simp
    | true =>
      cases d with
      | Out =>
        constructor
        · intro q
          simp only [Bool.not_true, Bool.false_eq_true, if_false, Bool.and_eq_true,
            decide_eq_true_eq, beq_iff_eq] at q
          exact ⟨c, rfl, rfl, fun _ => q.1, (fun e => by cases e), q.2⟩
        · rintro ⟨c2, e, _, a, _, b⟩
          cases e
          simp only [Bool.not_true, Bool.false_eq_true, if_false, Bool.and_eq_true,
            decide_eq_true_eq, beq_iff_eq]
          exact ⟨a rfl, b⟩
      | In =>
        constructor
        · intro q
          simp only [Bool.not_true, Bool.false_eq_true, if_false, Bool.and_eq_true,
            decide_eq_true_eq] at q
          obtain ⟨a, b⟩ := q
          obtain ⟨kp, e, _, _, _, ei⟩ := hl.prevKey_of_not_first hp ha a
          rw [e] at b
          refine ⟨c, rfl, rfl, (fun e => by cases e), fun _ => a, ?_⟩
          rw [ei]
          exact beq_iff_eq.1 b
        · rintro ⟨c2, e, _, _, a, b⟩
          cases e
          obtain ⟨kp, e, _, _, _, ei⟩ := hl.prevKey_of_not_first hp ha (a rfl)
          simp only [Bool.not_true, Bool.false_eq_true, if_false, Bool.and_eq_true,
            decide_eq_true_eq]
          rw [e]
          rw [ei] at b
          exact ⟨a rfl, beq_iff_eq.2 b⟩

theorem nextIn_of_not_last {k : KeyId} {l : List KeyId} (hk : k ∈ l)
    (hh : l.getLast? ≠ some k) : ∃ n, nextIn k l = some n := by
  induction l with
  | nil => cases hk
  | cons x xs ih =>
    unfold nextIn
    by_cases hx : x = k
    · rw [if_pos hx]
      cases xs with
      | nil => exact absurd (by rw [hx]; rfl) hh
      | cons y rest => exact ⟨y, rfl⟩
    · rw [if_neg hx]
      apply ih
      · rcases List.mem_cons.1 hk with e | e
        · exact absurd e.symm hx
        · exact e
      · intro e
        exact hh (getLast?_cons_of_getLast? e)

/-- In a reachable state the out tangent of an active key that is not the final
key caches the positive width of the span to the next key. -/
theorem Reachable.out_dt_pos {ν : Numeric α} {w : Script α} (hr : Reachable ν w) {c : CurveId}
    {k : KeyId} (hp : (w.heap.key k).m_parent = some c) (ha : (w.heap.key k).m_active = true)
    (hf : CurvePlug.finalKey w.heap c ≠ some k) : 0 < (w.heap.key k).m_out.m_dt := by
  have hl := hr.inv.wf.linked
  have hm : k ∈ (w.heap.curve c).m_keys := (hl.mem_keys c k).2 ⟨hp, ha⟩
  obtain ⟨n, hn⟩ := nextIn_of_not_last hm hf
  rw [hr.spanOut c k hm]
  unfold expectedOutDt
  rw [hn]
  exact sub_pos.2 (nextIn_sorted_lt w.heap.time (hl.sorted c) hn)

/-- C27: in every reachable state, a tangent is slope-constrained exactly when
its key is parented and active, is not the final key of the curve (out tangent)
or not the first key (in tangent), and the interpolator of the adjoining segment
(the key's own for the out tangent, that of the previous active key for the in
tangent) lacks the `UseSlope` hint, which is the case for Linear, Constant and
ConstantNext.  `getSlope()` is the stored slope when the tangent is not
constrained; when it is constrained, it is that interpolator's
`effectiveSlope( dt, dv )`: `dv / dt` for Linear and 0 for Constant and
ConstantNext.  `getScale()` is the same with the `UseScale` hint, which Cubic
lacks as well, and `effectiveScale`: 0 for Linear, Constant and ConstantNext. -/
theorem C27_getSlope_getScale_constrained {ν μ : Numeric α} {w : Script α}
    (hr : Reachable ν w) (k : KeyId) (d : Direction) :
    (Tangent.slopeIsConstrained w.heap k d = true ↔
      ∃ c, (w.heap.key k).m_parent = some c ∧ (w.heap.key k).m_active = true ∧
        (d = .Out → CurvePlug.finalKey w.heap c ≠ some k) ∧
        (d = .In → CurvePlug.firstKey w.heap c ≠ some k) ∧
        Interpolator.getHints (Tangent.interpolator w.heap k d) &&& Hint.UseSlope = 0) ∧
    (Tangent.scaleIsConstrained w.heap k d = true ↔
      ∃ c, (w.heap.key k).m_parent = some c ∧ (w.heap.key k).m_active = true ∧
        (d = .Out → CurvePlug.finalKey w.heap c ≠ some k) ∧
        (d = .In → CurvePlug.firstKey w.heap c ≠ some k) ∧
        Interpolator.getHints (Tangent.interpolator w.heap k d) &&& Hint.UseScale = 0) ∧
    (d = .Out → Tangent.interpolator w.heap k d = (w.heap.key k).m_interpolator) ∧
    (d = .In → ∀ c, (w.heap.key k).m_parent = some c → (w.heap.key k).m_active = true →
      CurvePlug.firstKey w.heap c ≠ some k →
      ∃ kp, Key.prevKey w.heap k = some kp ∧ prevIn k (w.heap.curve c).m_keys = some kp ∧
        (w.heap.key kp).m_parent = some c ∧ (w.heap.key kp).m_active = true ∧
        Tangent.interpolator w.heap k d = (w.heap.key kp).m_interpolator) ∧
    (∀ i, Interpolator.getHints i &&& Hint.UseSlope = 0 ↔
      i = .Linear ∨ i = .Constant ∨ i = .ConstantNext) ∧
    (∀ i, Interpolator.getHints i &&& Hint.UseScale = 0 ↔
      i = .Linear ∨ i = .Constant ∨ i = .ConstantNext ∨ i = .Cubic) ∧
    (Tangent.slopeIsConstrained w.heap k d = false →
      Tangent.getSlope w.heap k d = ((w.heap.key k).tangent d).m_slope) ∧
    (Tangent.slopeIsConstrained w.heap k d = true →
      Tangent.getSlope w.heap k d =
        Interpolator.effectiveSlope (Tangent.interpolator w.heap k d)
          ((w.heap.key k).tangent d).m_dt ((w.heap.key k).tangent d).m_dv ∧
      ((Tangent.interpolator w.heap k d = .Linear ∧
          Tangent.getSlope w.heap k d =
            ((w.heap.key k).tangent d).m_dv / ((w.heap.key k).tangent d).m_dt) ∨
        ((Tangent.interpolator w.heap k d = .Constant ∨
            Tangent.interpolator w.heap k d = .ConstantNext) ∧
          Tangent.getSlope w.heap k d = 0)) ∧
      (d = .Out → 0 < ((w.heap.key k).tangent d).m_dt)) ∧
    (Tangent.scaleIsConstrained w.heap k d = false →
      Tangent.getScale μ w.heap k d = ((w.heap.key k).tangent d).m_scale) ∧
    (Tangent.scaleIsConstrained w.heap k d = true →
      Tangent.getScale μ w.heap k d =
        Interpolator.effectiveScale μ (Tangent.interpolator w.heap k d) w.heap k d
          ((w.heap.key k).tangent d).m_dt ∧
      ((Tangent.interpolator w.heap k d = .Cubic ∧
          Tangent.getScale μ w.heap k d =
            (1 / 3) * maxScale μ
              (clampSlope (Tangent.getSlope w.heap k d * ((w.heap.key k).tangent d).m_dt) /
                ((w.heap.key k).tangent d).m_dt)) ∨
        ((Tangent.interpolator w.heap k d = .Linear ∨
            Tangent.interpolator w.heap k d = .Constant ∨
            Tangent.interpolator w.heap k d = .ConstantNext) ∧
          Tangent.getScale μ w.heap k d = 0))) := by
  have hl := hr.inv.wf.linked
  refine ⟨hl.slopeIsConstrained_iff k d, hl.scaleIsConstrained_iff k d, ?_, ?_,
    hints_lack_slope, hints_lack_scale, ?_, ?_, ?_, ?_⟩
  · intro e; subst e; rfl
  · intro e c hp ha hf
    subst e
    exact hl.prevKey_of_not_first hp ha hf
  · intro hc
    unfold Tangent.getSlope
    rw [hc]; rfl
  · intro hc
    have e : Tangent.getSlope w.heap k d =
        Interpolator.effectiveSlope (Tangent.interpolator w.heap k d)
          ((w.heap.key k).tangent d).m_dt ((w.heap.key k).tangent d).m_dv := by
      unfold Tangent.getSlope
      rw [hc]; rfl
    obtain ⟨c, hp, ha, hout, _, hh⟩ := (hl.slopeIsConstrained_iff k d).1 hc
    refine ⟨e, ?_, ?_⟩
    · rw [e]
      rcases (hints_lack_slope _).1 hh with q | q | q
      · exact Or.inl ⟨q, by rw [q]; rfl⟩
      · exact Or.inr ⟨Or.inl q, by rw [q]; rfl⟩
      · exact Or.inr ⟨Or.inr q, by rw [q]; rfl⟩
    · intro e2
      subst e2
      exact hr.out_dt_pos hp ha (hout rfl)
  · intro hc
    unfold Tangent.getScale
    rw [hc]; rfl
  · intro hc
    have e : Tangent.getScale μ w.heap k d =
        Interpolator.effectiveScale μ (Tangent.interpolator w.heap k d) w.heap k d
          ((w.heap.key k).tangent d).m_dt := by
      unfold Tangent.getScale
      rw [hc]; rfl
    obtain ⟨c, hp, ha, _, _, hh⟩ := (hl.scaleIsConstrained_iff k d).1 hc
    refine ⟨e, ?_⟩
    rw [e]
    rcases (hints_lack_scale _).1 hh with q | q | q | q
    · exact Or.inr ⟨Or.inl q, by rw [q]; rfl⟩
    · exact Or.inr ⟨Or.inr (Or.inl q), by rw [q]; rfl⟩
    · exact Or.inr ⟨Or.inr (Or.inr q), by rw [q]; rfl⟩
    · exact Or.inl ⟨q, by rw [q]; rfl⟩

/-- C27 for the keys (0, 0) and (1, 10) with Linear interpolation on the first:
the out tangent of key 0 is constrained, its effective slope is `dv / dt = 10`
and its effective scale is 0. -/
theorem C27_getSlope_getScale_constrained_witness :
    Tangent.slopeIsConstrained exLinear.heap 0 .Out = true ∧
    Tangent.interpolator exLinear.heap 0 .Out = .Linear ∧
    Tangent.getSlope exLinear.heap 0 .Out =
      (exLinear.heap.key 0).m_out.m_dv / (exLinear.heap.key 0).m_out.m_dt ∧
    Tangent.getSlope exLinear.heap 0 .Out = 10 ∧
    Tangent.getScale exampleNumeric exLinear.heap 0 .Out = 0 := by
  obtain ⟨_, _, _, _, _, _, _, hs, _, hc⟩ :=
    @C27_getSlope_getScale_constrained ℚ _ exampleNumeric exampleNumeric exLinear
      exLinear_reachable 0 .Out
  have c1 : Tangent.slopeIsConstrained exLinear.heap 0 .Out = true := by decide!
  have c2 : Tangent.scaleIsConstrained exLinear.heap 0 .Out = true := by decide!
  have i1 : Tangent.interpolator exLinear.heap 0 .Out = .Linear := by decide!
  obtain ⟨_, hcase, _⟩ := hs c1
  obtain ⟨_, hcase2⟩ := hc c2
  refine ⟨c1, i1, ?_, by decide!, ?_⟩
  · rcases hcase with ⟨_, e⟩ | ⟨q, _⟩
    · exact e
    · rw [i1] at q
      rcases q with q | q <;> cases q
  · rcases hcase2 with ⟨q, _⟩ | ⟨_, e⟩
    · rw [i1] at q
      cases q
    · exact e

/-! ### Constrained and forced tangent edits -/

/-- A slope-constrained tangent is scale-constrained. -/
theorem slopeIsConstrained_imp_scale (h : Heap α) (k : KeyId) (d : Direction)
    (hc : Tangent.slopeIsConstrained h k d = true) : Tangent.scaleIsConstrained h k d = true := by
  have key : ∀ i : Interpolation, (Interpolator.getHints i &&& Hint.UseSlope == 0) = true →
      (Interpolator.getHints i &&& Hint.UseScale == 0) = true := by
    intro i; cases i <;> decide
  unfold Tangent.slopeIsConstrained at hc
  unfold Tangent.scaleIsConstrained
  cases hp : (h.key k).m_parent with
  | none => rw [hp] at hc; simp at hc
  | some c =>
    rw [hp] at hc
    cases ha : (h.key k).m_active with
    | false => rw [ha] at hc; simp at hc
    | true =>
      rw [ha] at hc
      cases d with
      | Out =>
        simp only [Bool.not_true, Bool.false_eq_true, if_false, Bool.and_eq_true] at hc ⊢
        exact ⟨hc.1, key _ hc.2⟩
      | In =>
        simp only [Bool.not_true, Bool.false_eq_true, if_false, Bool.and_eq_true] at hc ⊢
        refine ⟨hc.1, ?_⟩
        cases hq : Key.prevKey h k with
        | none => rw [hq] at hc; simp at hc
        | some kp =>
          rw [hq] at hc
          exact key _ hc.2

theorem setSlopeDo_setSlopeDo_self (key : KeyId) (d : Direction) (slope scale : α) (h : Heap α) :
    setSlopeDo key d ((h.key key).tangent d).m_slope ((h.key key).tangent d).m_scale
      (setSlopeDo key d slope scale h) = h := by
  unfold setSlopeDo
  apply Heap.ext_fields
  · intro k
    by_cases hk : k = key
    · subst hk
      cases d <;> simp [Heap.setKey, Key.setTangent, Key.tangent]
    · simp [Heap.setKey, Function.update_noteq hk]
  · intro c; rfl
  · intro c; rfl
  · rfl


/-- C28 fails as stated: on the curve with the keys (0, 0) and (1, 10) and Linear
interpolation on the first, the out tangent of key 0 is constrained and stores
slope 0; `setScale( 5, force = true )` stores the scale 1, the largest scale for
that slope (`sqrt( 1 + 0 ) = 1`), not 5. -/
theorem C28_counterexample :
    Tangent.slopeIsConstrained exLinear.heap 0 .Out = true ∧
    Tangent.scaleIsConstrained exLinear.heap 0 .Out = true ∧
    ((exLinear.heap.key 0).tangent .Out).m_slope = 0 ∧
    maxScale exampleNumeric (0 : ℚ) = 1 ∧
    ∃ w1, Tangent.setScale exampleNumeric exLinear 0 .Out 5 true = .ok w1 ∧
      ((w1.heap.key 0).tangent .Out).m_scale = 1 ∧
      ((w1.heap.key 0).tangent .Out).m_scale ≠ 5 := by
  refine ⟨by decide!, by decide!, by decide!, by decide!, ?_⟩
  have hex : ∃ w1, Tangent.setScale exampleNumeric exLinear 0 .Out 5 true = .ok w1 := by
    rcases Tangent.setScale_ok exampleNumeric exLinear 0 .Out 5 true with e | ⟨q, e, _⟩ <;>
      exact ⟨_, e⟩
  obtain ⟨w1, e⟩ := hex
  have hw : w1 =
      Script.after exLinear (Tangent.setScale exampleNumeric exLinear 0 .Out 5 true) := by
    rw [e]; rfl
  refine ⟨w1, e, ?_⟩
  rw [hw]
  exact ⟨by decide!, by decide!⟩

/-- An effective `setSlope` to a new slope runs the Do closure with the re-clamped
scale, and records it exactly when the key is parented. -/
theorem Tangent.setSlope_effective (ν : Numeric α) (w : Script α) (key : KeyId) (d : Direction)
    (s : α) (force : Bool)
    (heff : force = true ∨ Tangent.slopeIsConstrained w.heap key d = false)
    (hne : ((w.heap.key key).tangent d).m_slope ≠ s) :
    ∃ q, Tangent.setSlope ν w key d s force =
        .ok ⟨setSlopeDo key d s (min ((w.heap.key key).tangent d).m_scale (maxScale ν s))
          w.heap, q⟩ ∧
      (∀ c, (w.heap.key key).m_parent = some c →
        q = Action.setSlope key d s (min ((w.heap.key key).tangent d).m_scale (maxScale ν s))
          ((w.heap.key key).tangent d).m_slope ((w.heap.key key).tangent d).m_scale ::
            w.undoQueue) ∧
      ((w.heap.key key).m_parent = none → q = w.undoQueue) := by
  have h1 : ¬ ((!force && Tangent.slopeIsConstrained w.heap key d) = true) := by
    rcases heff with e | e <;> simp [e]
  unfold Tangent.setSlope
  rw [if_neg h1, if_neg hne]
  dsimp only
  cases hp : (w.heap.key key).m_parent with
  | some c =>
    refine ⟨_, rfl, ?_, fun e => by cases e⟩
    intro c2 _
    rfl
  | none =>
    refine ⟨_, rfl, (fun c2 e => by cases e), fun _ => rfl⟩

/-- An effective `setScale` to a scale whose clamped value is new runs the Do
closure with the clamped scale, and records it exactly when the key is
parented. -/
theorem Tangent.setScale_effective (ν : Numeric α) (w : Script α) (key : KeyId) (d : Direction)
    (v : α) (force : Bool)
    (heff : force = true ∨ Tangent.scaleIsConstrained w.heap key d = false)
    (hne : ((w.heap.key key).tangent d).m_scale ≠
      clamp v 0 (maxScale ν ((w.heap.key key).tangent d).m_slope)) :
    ∃ q, Tangent.setScale ν w key d v force =
        .ok ⟨setScaleDo key d (clamp v 0 (maxScale ν ((w.heap.key key).tangent d).m_slope))
          w.heap, q⟩ ∧
      (∀ c, (w.heap.key key).m_parent = some c →
        q = Action.setScale key d (clamp v 0 (maxScale ν ((w.heap.key key).tangent d).m_slope))
          ((w.heap.key key).tangent d).m_scale :: w.undoQueue) ∧
      ((w.heap.key key).m_parent = none → q = w.undoQueue) := by
  have h1 : ¬ ((!force && Tangent.scaleIsConstrained w.heap key d) = true) := by
    rcases heff with e | e <;> simp [e]
  unfold Tangent.setScale
  rw [if_neg h1]
  dsimp only
  rw [if_neg hne]
  cases hp : (w.heap.key key).m_parent with
  | some c =>
    refine ⟨_, rfl, ?_, fun e => by cases e⟩
    intro c2 _
    rfl
  | none =>
    refine ⟨_, rfl, (fun c2 e => by cases e), fun _ => rfl⟩

/-- C28 as amended.  For a slope-constrained tangent (which is scale-constrained
as well) `setSlope( v )` and `setScale( v )` without force return and change
nothing, and so does `setScale( v )` without force for a scale-constrained
tangent.  With `force = true`, `setSlope( v )` stores the slope `v` (and
re-clamps the stored scale when the slope is new), while `setScale( v )` stores
`v` clamped to `[0, maxScale( slope )]`, which is `v` only when `v` is in that
range.  `setSlope` of the stored slope changes nothing; `setScale` of the stored
scale changes nothing when the stored scale is in range. -/
theorem C28_constrained_and_forced_edits (ν : Numeric α) (w : Script α) (key : KeyId)
    (d : Direction) (v : α) :
    (Tangent.slopeIsConstrained w.heap key d = true →
      Tangent.scaleIsConstrained w.heap key d = true ∧
      Tangent.setSlope ν w key d v false = .ok w ∧
      Tangent.setScale ν w key d v false = .ok w) ∧
    (Tangent.scaleIsConstrained w.heap key d = true →
      Tangent.setScale ν w key d v false = .ok w) ∧
    (∃ w1, Tangent.setSlope ν w key d v true = .ok w1 ∧
      ((w1.heap.key key).tangent d).m_slope = v ∧
      ((w1.heap.key key).tangent d).m_scale =
        if ((w.heap.key key).tangent d).m_slope = v then ((w.heap.key key).tangent d).m_scale
        else min ((w.heap.key key).tangent d).m_scale (maxScale ν v)) ∧
    (∃ w1, Tangent.setScale ν w key d v true = .ok w1 ∧
      ((w1.heap.key key).tangent d).m_slope = ((w.heap.key key).tangent d).m_slope ∧
      ((w1.heap.key key).tangent d).m_scale =
        clamp v 0 (maxScale ν ((w.heap.key key).tangent d).m_slope) ∧
      (0 ≤ v → v ≤ maxScale ν ((w.heap.key key).tangent d).m_slope →
        ((w1.heap.key key).tangent d).m_scale = v)) ∧
    (∀ force, Tangent.setSlope ν w key d ((w.heap.key key).tangent d).m_slope force = .ok w) ∧
    (∀ force, 0 ≤ ((w.heap.key key).tangent d).m_scale →
      ((w.heap.key key).tangent d).m_scale ≤ maxScale ν ((w.heap.key key).tangent d).m_slope →
      Tangent.setScale ν w key d ((w.heap.key key).tangent d).m_scale force = .ok w) := by
  have hsc : Tangent.scaleIsConstrained w.heap key d = true →
      Tangent.setScale ν w key d v false = .ok w := by
    intro hc
    unfold Tangent.setScale
    rw [if_pos (by simp [hc])]
    rfl
  refine ⟨?_, hsc, ?_, ?_, ?_, ?_⟩
  · intro hc
    refine ⟨slopeIsConstrained_imp_scale _ _ _ hc, ?_, hsc (slopeIsConstrained_imp_scale _ _ _ hc)⟩
    unfold Tangent.setSlope
    rw [if_pos (by simp [hc])]
    rfl
  · by_cases hq : ((w.heap.key key).tangent d).m_slope = v
    · refine ⟨w, ?_, hq, by rw [if_pos hq]⟩
      unfold Tangent.setSlope
      rw [if_neg (by simp), if_pos hq]
      rfl
    · obtain ⟨q, e, _⟩ := Tangent.setSlope_effective ν w key d v true (Or.inl rfl) hq
      refine ⟨_, e, ?_, ?_⟩
      · show ((((setSlopeDo key d v _ w.heap)).key key).tangent d).m_slope = v
        rw [setSlopeDo_tangent, if_pos ⟨rfl, rfl⟩]
      · rw [if_neg hq]
        show ((((setSlopeDo key d v _ w.heap)).key key).tangent d).m_scale = _
        rw [setSlopeDo_tangent, if_pos ⟨rfl, rfl⟩]
  · have hclamp : 0 ≤ v → v ≤ maxScale ν ((w.heap.key key).tangent d).m_slope →
        clamp v 0 (maxScale ν ((w.heap.key key).tangent d).m_slope) = v :=
      fun a b => clamp_of_mem a b
    by_cases hq : ((w.heap.key key).tangent d).m_scale =
        clamp v 0 (maxScale ν ((w.heap.key key).tangent d).m_slope)
    · refine ⟨w, ?_, rfl, hq, fun a b => by rw [hq]; exact hclamp a b⟩
      unfold Tangent.setScale
      rw [if_neg (by simp)]
      dsimp only
      rw [if_pos hq]
      rfl
    · obtain ⟨q, e, _⟩ := Tangent.setScale_effective ν w key d v true (Or.inl rfl) hq
      refine ⟨_, e, ?_, ?_, ?_⟩
      · show ((((setScaleDo key d _ w.heap)).key key).tangent d).m_slope = _
        rw [setScaleDo_tangent, if_pos ⟨rfl, rfl⟩]
      · show ((((setScaleDo key d _ w.heap)).key key).tangent d).m_scale = _
        rw [setScaleDo_tangent, if_pos ⟨rfl, rfl⟩]
      · intro a b
        show ((((setScaleDo key d _ w.heap)).key key).tangent d).m_scale = _
        rw [setScaleDo_tangent, if_pos ⟨rfl, rfl⟩]
        exact hclamp a b
  · intro force
    unfold Tangent.setSlope
    split_ifs with h1 h2
    · rfl
    · rfl
    · exact absurd rfl h2
  · intro force a b
    unfold Tangent.setScale
    split_ifs with h1
    · rfl
    · dsimp only
      rw [if_pos (clamp_of_mem a b).symm]
      rfl

/-- C29: for every tangent with stored slope `s0` and scale `c0`, an effective
`setSlope( s )` (forced, or on a tangent that is not slope-constrained) with
`s != s0` returns and stores the slope `s` and the scale
`min( c0, sqrt( 1 + s^2 ) )`.  For a parented key the call is recorded, and
undoing it restores the whole state, so the tangent stores exactly `(s0, c0)`
again, whatever the re-clamp did to the scale; for an unparented key the change
is made in place and nothing is recorded. -/
theorem C29_setSlope_reclamp_and_undo (ν : Numeric α) (w : Script α) (key : KeyId)
    (d : Direction) (s : α) (force : Bool)
    (heff : force = true ∨ Tangent.slopeIsConstrained w.heap key d = false)
    (hne : s ≠ ((w.heap.key key).tangent d).m_slope) :
    ∃ w1, Tangent.setSlope ν w key d s force = .ok w1 ∧
      ((w1.heap.key key).tangent d).m_slope = s ∧
      ((w1.heap.key key).tangent d).m_scale =
        min ((w.heap.key key).tangent d).m_scale (ν.sqrt (1 + s ^ 2)) ∧
      (∀ c, (w.heap.key key).m_parent = some c →
        w1.undoQueue.length = w.undoQueue.length + 1 ∧
        ∃ w2, Script.undo w1 = .ok w2 ∧ w2 = w ∧
          ((w2.heap.key key).tangent d).m_slope = ((w.heap.key key).tangent d).m_slope ∧
          ((w2.heap.key key).tangent d).m_scale = ((w.heap.key key).tangent d).m_scale) ∧
      ((w.heap.key key).m_parent = none → w1.undoQueue = w.undoQueue) := by
  obtain ⟨q, e, hq1, hq2⟩ :=
    Tangent.setSlope_effective ν w key d s force heff (fun x => hne x.symm)
  have hmax : maxScale ν s = ν.sqrt (1 + s ^ 2) := by
    unfold maxScale fma
    congr 1
    ring
  refine ⟨_, e, ?_, ?_, ?_, hq2⟩
  · show ((((setSlopeDo key d s _ w.heap)).key key).tangent d).m_slope = s
    rw [setSlopeDo_tangent, if_pos ⟨rfl, rfl⟩]
  · show ((((setSlopeDo key d s _ w.heap)).key key).tangent d).m_scale = _
    rw [setSlopeDo_tangent, if_pos ⟨rfl, rfl⟩, hmax]
  · intro c hp
    have hq := hq1 c hp
    subst hq
    refine ⟨by simp, w, ?_, rfl, rfl, rfl⟩
    simp only [Script.undo, Action.undoFn, pure, Except.pure, setSlopeDo_setSlopeDo_self]

/-- C29 for the key with out slope 3/4 and scale 5/4 on curve 0:
`setSlope( 0 )` stores slope 0 and the scale 1 (the re-clamp reduces it), and
undo restores slope 3/4 and scale 5/4. -/
theorem C29_setSlope_reclamp_and_undo_witness :
    ((exTangentAdded.heap.key 0).tangent .Out).m_slope = 3 / 4 ∧
    ((exTangentAdded.heap.key 0).tangent .Out).m_scale = 5 / 4 ∧
    min ((exTangentAdded.heap.key 0).tangent .Out).m_scale (exampleNumeric.sqrt (1 + 0 ^ 2)) = 1 ∧
    ∃ w1, Tangent.setSlope exampleNumeric exTangentAdded 0 .Out 0 false = .ok w1 ∧
      ((w1.heap.key 0).tangent .Out).m_slope = 0 ∧
      ((w1.heap.key 0).tangent .Out).m_scale =
        min ((exTangentAdded.heap.key 0).tangent .Out).m_scale
          (exampleNumeric.sqrt (1 + 0 ^ 2)) ∧
      (∀ c, (exTangentAdded.heap.key 0).m_parent = some c →
        w1.undoQueue.length = exTangentAdded.undoQueue.length + 1 ∧
        ∃ w2, Script.undo w1 = .ok w2 ∧ w2 = exTangentAdded ∧
          ((w2.heap.key 0).tangent .Out).m_slope =
            ((exTangentAdded.heap.key 0).tangent .Out).m_slope ∧
          ((w2.heap.key 0).tangent .Out).m_scale =
            ((exTangentAdded.heap.key 0).tangent .Out).m_scale) ∧
      ((exTangentAdded.heap.key 0).m_parent = none →
        w1.undoQueue = exTangentAdded.undoQueue) :=
  ⟨by decide!, by decide!, by decide!,
    C29_setSlope_reclamp_and_undo exampleNumeric exTangentAdded 0 .Out 0 false
      (Or.inr (by decide!)) (by decide!)⟩

/-! ### removeKey and removeInactiveKeys -/

/-- On a sorted container `find` returns the first key of the given time. -/
theorem find_eq_find? (tk : KeyId → α) (t : α) {l : List KeyId}
    (hs : (l.map tk).Pairwise (· ≤ ·)) :
    find tk t l = l.find? (fun y => decide (tk y = t)) := by
  induction l with
  | nil => rfl
  | cons a as ih =>
    rw [List.map_cons, List.pairwise_cons] at hs
    by_cases c : tk a < t
    · have e : find tk t (a :: as) = find tk t as := by
        have q : lower_bound tk t (a :: as) = lower_bound tk t as := by
          simp only [lower_bound, if_pos c]
        unfold find
        rw [q]
      rw [e, ih hs.2, List.find?_cons_of_neg]
      simpa using ne_of_lt c
    · have e : find tk t (a :: as) = if t < tk a then none else some a := by
        have q : lower_bound tk t (a :: as) = a :: as := by
          simp only [lower_bound, if_neg c]
        unfold find
        rw [q]
      rw [e]
      by_cases c2 : t < tk a
      · rw [if_pos c2]
        symm
        rw [List.find?_eq_none]
        intro x hx
        simp only [decide_eq_true_eq]
        rcases List.mem_cons.1 hx with q | q
        · rw [q]; exact ne_of_gt c2
        · exact ne_of_gt (lt_of_lt_of_le c2 (hs.1 _ (List.mem_map_of_mem tk q)))
      · rw [if_neg c2]
        have : tk a = t := le_antisymm (not_lt.1 c2) (not_lt.1 c)
        rw [List.find?_cons_of_pos]
        simpa using this

theorem mem_replace_node_self {old new : KeyId} {l : List KeyId} (h : old ∈ l) :
    new ∈ replace_node old new l := by
  induction l with
  | nil => cases h
  | cons a as ih =>
    unfold replace_node
    split_ifs with c
    · exact List.mem_cons_self _ _
    · rcases List.mem_cons.1 h with e | e
      · exact absurd e.symm c
      · exact List.mem_cons_of_mem _ (ih e)

/-- The state that `removeKey` of a key of the curve leaves, up to the cached
spans. -/
theorem CurvePlug.removeKey_state {w : Script α} (hl : Linked w.heap) {c : CurveId}
    {key : KeyId} (hp : (w.heap.key key).m_parent = some c) :
    ∃ w1, CurvePlug.removeKey w c key = .ok w1 ∧ Linked w1.heap ∧
      w1.undoQueue.length = w.undoQueue.length + 1 ∧
      removeKeyDo c key
        (if (w.heap.key key).m_active = true then
          find w.heap.time (w.heap.key key).m_time (w.heap.curve c).m_inactiveKeys
         else none) (w.heap.key key).m_active (w.heap.key key).m_time w.heap = .ok w1.heap ∧
      w1.heap.core = (Key.Dispose (unlink c (w.heap.key key).m_active key
        (if (w.heap.key key).m_active = true then
          find w.heap.time (w.heap.key key).m_time (w.heap.curve c).m_inactiveKeys
         else none) w.heap) key).core := by
  obtain ⟨w1, hrm, hdo⟩ := CurvePlug.removeKey_succeeds hl hp
  obtain ⟨_, _, hc⟩ := removeKeyDo_ok hdo
  obtain ⟨_, he⟩ := CurvePlug.removeKey_ok hrm
  refine ⟨w1, hrm, removeKeyDo_linked hl hdo, ?_, hdo, ?_⟩
  · rw [(Action.enact_ok he).2]; rfl
  · rw [hc, removeKeyDoLink_eq2]
    intro ha e
    rw [if_pos ha] at e
    have hm := (find_some _ _ _ e).1
    have := ((hl.mem_inactiveKeys c key).1 hm).2
    rw [ha] at this
    cases this

/-- The Do closure of `removeKey` of an inactive key changes no other key. -/
theorem removeKeyDo_inactive_key {c : CurveId} {key : KeyId} {time : α} {h h1 : Heap α}
    (hdo : removeKeyDo c key none false time h = .ok h1) :
    ∀ x, x ≠ key → h1.key x = h.key x := by
  obtain ⟨hs, _, _⟩ := removeKeyDo_ok hdo
  unfold removeKeyDo at hdo
  rcases throwIfStateNotAsExpected_eq h key (some c) false time with ⟨e, he, hn⟩ | ⟨he, _⟩
  · exact absurd hs hn
  rw [he] at hdo
  have hn : Key.nextKey h key = none := by simp [Key.nextKey, hs.1, hs.2.1]
  have hv : Key.prevKey h key = none := by simp [Key.prevKey, hs.1, hs.2.1]
  simp only [Key.throwIfStateNotAsExpectedIf, bind, Except.bind, pure, Except.pure, hn, hv,
    Tangent.updateIf, Except.ok.injEq] at hdo
  intro x hx
  rw [← hdo]
  simp [Tangent.update, removeKeyDoLink, Key.Dispose, hx]

/-- C21: in every reachable state, `removeKey( k )` of a key of the curve returns
and leaves `k` unparented and inactive.  When `k` is active and `x` is the first
inactive key at the time of `k`, `x` takes the slot of `k` in the active
container and becomes active, so that `getKey( k.time )` is `x`, the number of
active keys is unchanged and the number of inactive keys drops by one.  When
`k` is active and no inactive key is at its time, the number of active keys
drops by one and the inactive container is unchanged.  When `k` is inactive,
the active container and every other key are unchanged and `k` leaves the
inactive container.  The containers of the other curves are unchanged. -/
theorem C21_removeKey_promotes_inactive {ν : Numeric α} {w : Script α} (hr : Reachable ν w)
    (c : CurveId) (k : KeyId) (hp : (w.heap.key k).m_parent = some c) :
    ∃ w1, CurvePlug.removeKey w c k = .ok w1 ∧
      (w1.heap.key k).m_parent = none ∧ (w1.heap.key k).m_active = false ∧
      (∀ x, (w.heap.key k).m_active = true →
        (w.heap.curve c).m_inactiveKeys.find?
          (fun y => decide (w.heap.time y = w.heap.time k)) = some x →
        CurvePlug.getKey w1.heap c (w.heap.time k) = some x ∧
        (w1.heap.key x).m_active = true ∧ (w1.heap.key x).m_parent = some c ∧
        (w1.heap.curve c).m_keys = replace_node k x (w.heap.curve c).m_keys ∧
        (w1.heap.curve c).m_keys.length = (w.heap.curve c).m_keys.length ∧
        (w1.heap.curve c).m_inactiveKeys = (w.heap.curve c).m_inactiveKeys.erase x ∧
        (w1.heap.curve c).m_inactiveKeys.length + 1 =
          (w.heap.curve c).m_inactiveKeys.length) ∧
      ((w.heap.key k).m_active = true →
        (∀ y ∈ (w.heap.curve c).m_inactiveKeys, w.heap.time y ≠ w.heap.time k) →
        CurvePlug.getKey w1.heap c (w.heap.time k) = none ∧
        (w1.heap.curve c).m_keys = (w.heap.curve c).m_keys.erase k ∧
        (w1.heap.curve c).m_keys.length + 1 = (w.heap.curve c).m_keys.length ∧
        (w1.heap.curve c).m_inactiveKeys = (w.heap.curve c).m_inactiveKeys) ∧
      ((w.heap.key k).m_active = false →
        (w1.heap.curve c).m_keys = (w.heap.curve c).m_keys ∧
        (w1.heap.curve c).m_inactiveKeys = (w.heap.curve c).m_inactiveKeys.erase k ∧
        (w1.heap.curve c).m_inactiveKeys.length + 1 =
          (w.heap.curve c).m_inactiveKeys.length ∧
        ∀ x, x ≠ k → w1.heap.key x = w.heap.key x) ∧
      (∀ x, x ≠ c → w1.heap.curve x = w.heap.curve x) := by
  have hl := hr.inv.wf.linked
  obtain ⟨w1, hrm, hl1, _, hdo, hc⟩ := CurvePlug.removeKey_state hl hp
  obtain ⟨_, _, _, htime, _⟩ := removeKeyDo_frame hdo
  have hcurve : w1.heap.curve = (unlink c (w.heap.key k).m_active k
      (if (w.heap.key k).m_active = true then
        find w.heap.time (w.heap.key k).m_time (w.heap.curve c).m_inactiveKeys
       else none) w.heap).curve := by
    rw [core_eq_curve hc]; rfl
  refine ⟨w1, hrm, ?_, ?_, ?_, ?_, ?_, ?_⟩
  · rw [core_eq_parent hc]; simp [Key.Dispose]
  · rw [core_eq_active hc]; simp [Key.Dispose]
  · intro x ha hx
    have hfx : find w.heap.time (w.heap.key k).m_time (w.heap.curve c).m_inactiveKeys =
        some x := by
      rw [find_eq_find? _ _ (hl.sortedInactive c)]; exact hx
    rw [ha, if_pos rfl, hfx] at hcurve hc
    obtain ⟨hxm, hxt⟩ := find_some _ _ _ hfx
    obtain ⟨hxp, hxa⟩ := (hl.mem_inactiveKeys c x).1 hxm
    have hxk : x ≠ k := fun e => by rw [e, ha] at hxa; cases hxa
    have hkm : k ∈ (w.heap.curve c).m_keys := (hl.mem_keys c k).2 ⟨hp, ha⟩
    have a1 : (w1.heap.key x).m_active = true := by
      rw [core_eq_active hc]
      simp [Key.Dispose, hxk, unlink_active]
    have a2 : (w1.heap.key x).m_parent = some c := by
      rw [core_eq_parent hc]
      simp [Key.Dispose, hxk, hxp]
    have a3 : (w1.heap.curve c).m_keys = replace_node k x (w.heap.curve c).m_keys := by
      rw [hcurve]; simp [unlinkKeys]
    have a4 : (w1.heap.curve c).m_inactiveKeys = (w.heap.curve c).m_inactiveKeys.erase x := by
      rw [hcurve]; simp [unlinkInactiveKeys]
    refine ⟨?_, a1, a2, a3, ?_, a4, ?_⟩
    · have := hl1.getKey_of_active a2 a1
      rw [show (w1.heap.key x).m_time = w1.heap.time x from rfl, htime] at this
      rw [show w.heap.time k = w.heap.time x from hxt.symm]
      exact this
    · rw [a3, length_replace_node]
    · rw [a4, List.length_erase_of_mem hxm]
      have : 0 < (w.heap.curve c).m_inactiveKeys.length := List.length_pos_of_mem hxm
      omega
  · intro ha hfree
    have hfx : find w.heap.time (w.heap.key k).m_time (w.heap.curve c).m_inactiveKeys =
        none := by
      rw [find_eq_find? _ _ (hl.sortedInactive c), List.find?_eq_none]
      intro y hy
      simpa using hfree y hy
    rw [ha, if_pos rfl, hfx] at hcurve
    have hkm : k ∈ (w.heap.curve c).m_keys := (hl.mem_keys c k).2 ⟨hp, ha⟩
    have a3 : (w1.heap.curve c).m_keys = (w.heap.curve c).m_keys.erase k := by
      rw [hcurve]; simp [unlinkKeys]
    have a4 : (w1.heap.curve c).m_inactiveKeys = (w.heap.curve c).m_inactiveKeys := by
      rw [hcurve]; simp [unlinkInactiveKeys]
    refine ⟨?_, a3, ?_, a4⟩
    · apply getKey_eq_none_of_free
      intro y hy e
      rw [a3] at hy
      have hym : y ∈ (w.heap.curve c).m_keys := List.mem_of_mem_erase hy
      have e2 : w.heap.time y = w.heap.time k := by
        rw [← e]
        exact (congrFun htime y).symm
      have := time_injOn_of_sorted w.heap.time (hl.sorted c) hym hkm e2
      rw [this] at hy
      exact (List.Nodup.not_mem_erase (hl.nodup c)) hy
    · rw [a3, List.length_erase_of_mem hkm]
      have : 0 < (w.heap.curve c).m_keys.length := List.length_pos_of_mem hkm
      omega
  · intro ha
    rw [ha] at hcurve hdo
    simp only [Bool.false_eq_true, if_false] at hcurve hdo
    have hkm : k ∈ (w.heap.curve c).m_inactiveKeys := (hl.mem_inactiveKeys c k).2 ⟨hp, ha⟩
    have a4 : (w1.heap.curve c).m_inactiveKeys = (w.heap.curve c).m_inactiveKeys.erase k := by
      rw [hcurve]; simp [unlinkInactiveKeys]
    refine ⟨?_, a4, ?_, removeKeyDo_inactive_key hdo⟩
    · rw [hcurve]; simp [unlinkKeys]
    · rw [a4, List.length_erase_of_mem hkm]
      have : 0 < (w.heap.curve c).m_inactiveKeys.length := List.length_pos_of_mem hkm
      omega
  · intro x hx
    rw [hcurve]
    cases hcx : (unlink c (w.heap.key k).m_active k
      (if (w.heap.key k).m_active = true then
        find w.heap.time (w.heap.key k).m_time (w.heap.curve c).m_inactiveKeys
       else none) w.heap).curve x with
    | mk a b =>
      have e1 := congrArg CurvePlug.m_keys hcx
      have e2 := congrArg CurvePlug.m_inactiveKeys hcx
      simp only [unlink_keys, unlink_inactiveKeys, if_neg hx] at e1 e2
      cases hwx : w.heap.curve x with
      | mk a2 b2 =>
        rw [hwx] at e1 e2
        simp only at e1 e2
        rw [e1, e2]

/-- C21 for the curve with the active key 2 and the inactive keys 1 and 0, all
at time 0: `removeKey( key2 )` makes key 1, the first inactive key, active. -/
theorem C21_removeKey_promotes_inactive_witness :
    (exStack.heap.curve 0).m_keys = [2] ∧ (exStack.heap.curve 0).m_inactiveKeys = [1, 0] ∧
    exStack.heap.time 2 = 0 ∧ exStack.heap.time 1 = 0 ∧ exStack.heap.time 0 = 0 ∧
    ∃ w1, CurvePlug.removeKey exStack 0 2 = .ok w1 ∧
      (w1.heap.key 2).m_parent = none ∧ (w1.heap.key 2).m_active = false ∧
      CurvePlug.getKey w1.heap 0 0 = some 1 ∧ (w1.heap.key 1).m_active = true ∧
      (w1.heap.curve 0).m_keys = [1] ∧ (w1.heap.curve 0).m_inactiveKeys = [0] := by
  obtain ⟨w1, hrm, hp, ha, hfirst, _, _, _⟩ :=
    C21_removeKey_promotes_inactive exStack_reachable 0 2 (by decide!)
  obtain ⟨g, a1, _, a3, _, a4, _⟩ := hfirst 1 (by decide!) (by decide!)
  have t : exStack.heap.time 2 = 0 := by decide!
  have k1 : replace_node 2 1 (exStack.heap.curve 0).m_keys = [1] := by decide!
  have k2 : (exStack.heap.curve 0).m_inactiveKeys.erase 1 = [0] := by decide!
  rw [t] at g
  rw [k1] at a3
  rw [k2] at a4
  exact ⟨by decide!, by decide!, t, by decide!, by decide!, w1, hrm, hp, ha, g, a1, a3, a4⟩

/-- `removeInactiveKeys` on a linked heap, by induction on the inactive
container. -/
theorem removeInactiveKeys_loop (c : CurveId) :
    ∀ (l : List KeyId) (w : Script α), Linked w.heap → (w.heap.curve c).m_inactiveKeys = l →
    ∃ w1, l.foldlM (fun s k => CurvePlug.removeKey s c k) w = .ok w1 ∧ Linked w1.heap ∧
      (w1.heap.curve c).m_inactiveKeys = [] ∧
      (∀ x, (w1.heap.curve x).m_keys = (w.heap.curve x).m_keys) ∧
      (∀ x, x ≠ c → (w1.heap.curve x).m_inactiveKeys = (w.heap.curve x).m_inactiveKeys) ∧
      (∀ k, k ∉ l → w1.heap.key k = w.heap.key k) ∧
      (∀ k ∈ l, (w1.heap.key k).m_parent = none ∧ (w1.heap.key k).m_active = false) ∧
      w1.undoQueue.length = w.undoQueue.length + l.length := by
  intro l
  induction l with
  | nil =>
    intro w hl he
    exact ⟨w, rfl, hl, he, fun _ => rfl, fun _ _ => rfl, fun _ _ => rfl,
      (fun k hk => by cases hk), rfl⟩
  | cons k rest ih =>
    intro w hl he
    have hkm : k ∈ (w.heap.curve c).m_inactiveKeys := by rw [he]; exact List.mem_cons_self _ _
    obtain ⟨hp, ha⟩ := (hl.mem_inactiveKeys c k).1 hkm
    obtain ⟨w', hrm, hl', hq, hdo, hc⟩ := CurvePlug.removeKey_state hl hp
    rw [ha] at hdo hc
    simp only [Bool.false_eq_true, if_false] at hdo hc
    have hcurve : w'.heap.curve = (unlink c false k none w.heap).curve := by
      rw [core_eq_curve hc]; rfl
    have hnd : (k :: rest).Nodup := he ▸ hl.nodupInactive c
    have hkr : k ∉ rest := (List.nodup_cons.1 hnd).1
    have e1 : (w'.heap.curve c).m_inactiveKeys = rest := by
      rw [hcurve]; simp [unlinkInactiveKeys, he]
    have e2 : ∀ x, (w'.heap.curve x).m_keys = (w.heap.curve x).m_keys := by
      intro x
      rw [hcurve, unlink_keys]
      split_ifs with hx
      · rw [hx]; simp [unlinkKeys]
      · rfl
    have e3 : ∀ x, x ≠ c →
        (w'.heap.curve x).m_inactiveKeys = (w.heap.curve x).m_inactiveKeys := by
      intro x hx
      rw [hcurve, unlink_inactiveKeys, if_neg hx]
    have e4 : ∀ x, x ≠ k → w'.heap.key x = w.heap.key x := removeKeyDo_inactive_key hdo
    have e5 : (w'.heap.key k).m_parent = none ∧ (w'.heap.key k).m_active = false := by
      constructor
      · rw [core_eq_parent hc]; simp [Key.Dispose]
      · rw [core_eq_active hc]; simp [Key.Dispose]
    obtain ⟨w1, hf, hl1, i1, i2, i3, i4, i5, i6⟩ := ih w' hl' e1
    refine ⟨w1, ?_, hl1, i1, fun x => (i2 x).trans (e2 x), fun x hx => (i3 x hx).trans (e3 x hx),
      ?_, ?_, ?_⟩
    · rw [List.foldlM_cons]
      simp only [bind, Except.bind, hrm]
      exact hf
    · intro x hx
      have hxk : x ≠ k := fun e => hx (by rw [e]; exact List.mem_cons_self _ _)
      have hxr : x ∉ rest := fun e => hx (List.mem_cons_of_mem _ e)
      rw [i4 x hxr, e4 x hxk]
    · intro x hx
      rcases List.mem_cons.1 hx with e | e
      · rw [e, i4 k hkr]; exact e5
      · exact i5 x e
    · rw [i6, hq, List.length_cons]; omega

/-- C22: in every reachable state, `removeInactiveKeys()` returns, leaves the
inactive container of the curve empty, leaves the active container and every
key that was not inactive on the curve unchanged (so the active keys keep their
times, values and active flags), and leaves every previously inactive key
unparented; the other curves are unchanged. -/
theorem C22_removeInactiveKeys_clears {ν : Numeric α} {w : Script α} (hr : Reachable ν w)
    (c : CurveId) :
    ∃ w1, CurvePlug.removeInactiveKeys w c = .ok w1 ∧
      (w1.heap.curve c).m_inactiveKeys = [] ∧
      (w1.heap.curve c).m_keys = (w.heap.curve c).m_keys ∧
      (∀ k ∈ (w.heap.curve c).m_keys,
        w1.heap.key k = w.heap.key k ∧ (w1.heap.key k).m_time = (w.heap.key k).m_time ∧
        (w1.heap.key k).m_value = (w.heap.key k).m_value ∧
        (w1.heap.key k).m_active = true ∧ (w1.heap.key k).m_parent = some c) ∧
      (∀ k ∈ (w.heap.curve c).m_inactiveKeys,
        (w1.heap.key k).m_parent = none ∧ (w1.heap.key k).m_active = false) ∧
      (∀ k, k ∉ (w.heap.curve c).m_inactiveKeys → w1.heap.key k = w.heap.key k) ∧
      (∀ x, x ≠ c → w1.heap.curve x = w.heap.curve x) ∧
      w1.undoQueue.length = w.undoQueue.length + (w.heap.curve c).m_inactiveKeys.length := by
  have hl := hr.inv.wf.linked
  obtain ⟨w1, hf, hl1, i1, i2, i3, i4, i5, i6⟩ :=
    removeInactiveKeys_loop c (w.heap.curve c).m_inactiveKeys w hl rfl
  refine ⟨w1, hf, i1, i2 c, ?_, i5, i4, ?_, i6⟩
  · intro k hk
    obtain ⟨hp, ha⟩ := (hl.mem_keys c k).1 hk
    have hni : k ∉ (w.heap.curve c).m_inactiveKeys := fun hin => by
      have := ((hl.mem_inactiveKeys c k).1 hin).2
      rw [ha] at this
      cases this
    have e := i4 k hni
    rw [e]
    exact ⟨rfl, rfl, rfl, ha, hp⟩
  · intro x hx
    have e1 := i2 x
    have e2 := i3 x hx
    cases hwx : w.heap.curve x with
    | mk a b =>
      cases hw1 : w1.heap.curve x with
      | mk a2 b2 =>
        rw [hwx, hw1] at e1 e2
        simp only at e1 e2
        rw [e1, e2]

/-- C22 for the curve with the active key 2 and the inactive keys 1 and 0. -/
theorem C22_removeInactiveKeys_clears_witness :
    (exStack.heap.curve 0).m_keys = [2] ∧ (exStack.heap.curve 0).m_inactiveKeys = [1, 0] ∧
    ∃ w1, CurvePlug.removeInactiveKeys exStack 0 = .ok w1 ∧
      (w1.heap.curve 0).m_inactiveKeys = [] ∧ (w1.heap.curve 0).m_keys = [2] ∧
      w1.heap.key 2 = exStack.heap.key 2 ∧
      (w1.heap.key 1).m_parent = none ∧ (w1.heap.key 0).m_parent = none := by
  obtain ⟨w1, hf, i1, i2, i3, i4, _⟩ := C22_removeInactiveKeys_clears exStack_reachable 0
  have k1 : (exStack.heap.curve 0).m_keys = [2] := by decide!
  rw [k1] at i2
  exact ⟨k1, by decide!, w1, hf, i1, i2, (i3 2 (by decide!)).1, (i4 1 (by decide!)).1,
    (i4 0 (by decide!)).1⟩

/-! ### State checks come first -/

theorem Effect.bind_check {β : Type} (f : Heap α → Except String Unit) (g : Unit → Effect α β)
    (h : Heap α) :
    (Effect.check f >>= g) h =
      match f h with
      | .ok _ => g () h
      | .error e => (h, .error e) := by
  show Effect.bind (Effect.check f) g h = _
  unfold Effect.bind Effect.check
  cases f h <;> rfl

theorem Effect.bind_read_apply {β γ : Type} (f : Heap α → β) (g : β → Effect α γ)
    (h : Heap α) : Effect.bind (Effect.read f) g h = g (f h) h := rfl

theorem Effect.bind_assign_apply {β : Type} (f : Heap α → Heap α) (g : Unit → Effect α β)
    (h : Heap α) : Effect.bind (Effect.assign f) g h = g () (f h) := rfl

theorem Effect.bind_pure_apply {β γ : Type} (x : β) (g : β → Effect α γ) (h : Heap α) :
    Effect.bind (Effect.pure x) g h = g x h := rfl

theorem Effect.assign_apply (f : Heap α → Heap α) (h : Heap α) :
    Effect.assign f h = (f h, .ok ()) := rfl

theorem Effect.pure_unit_apply {β : Type} (x : β) (h : Heap α) :
    (Effect.pure x : Effect α β) h = (h, .ok x) := rfl

theorem Effect.ite_apply {β : Type} (c : Prop) [Decidable c] (m n : Effect α β) (h : Heap α) :
    (if c then m else n) h = if c then m h else n h := by
  split_ifs <;> rfl

theorem addKeyDoEffect_eq (this : CurveId) (key : KeyId) (ck : Option KeyId) (time : α)
    (h : Heap α) :
    addKeyDoEffect this key ck time h =
      match addKeyDo this key ck time h with
      | .ok h1 => (h1, .ok ())
      | .error e => (h, .error e) := by
  unfold addKeyDoEffect addKeyDo
  rw [Effect.bind_check]
  rcases throwIfStateNotAsExpected_eq h key none false time with ⟨e, he, _⟩ | ⟨he, _⟩
  · rw [he]; rfl
  rw [he]
  simp only [Effect.bind_check]
  rcases throwIfStateNotAsExpectedIf_eq h ck (some this) true time with ⟨e, he2, _⟩ | ⟨he2, _⟩
  · rw [he2]; rfl
  rw [he2]
  cases ck <;> rfl


theorem addKeyUndoEffect_eq (this : CurveId) (key : KeyId) (ck : Option KeyId) (time : α)
    (h : Heap α) :
    addKeyUndoEffect this key ck time h =
      match addKeyUndo this key ck time h with
      | .ok h1 => (h1, .ok ())
      | .error e => (h, .error e) := by
  unfold addKeyUndoEffect addKeyUndo
  rw [Effect.bind_check]
  rcases throwIfStateNotAsExpected_eq h key (some this) true time with ⟨e, he, _⟩ | ⟨he, _⟩
  · rw [he]; rfl
  rw [he]
  simp only [Effect.bind_check]
  rcases throwIfStateNotAsExpectedIf_eq h ck (some this) false time with ⟨e, he2, _⟩ | ⟨he2, _⟩
  · rw [he2]; rfl
  rw [he2]
  cases ck <;> rfl

theorem removeKeyDoEffect_eq (this : CurveId) (key : KeyId) (ck : Option KeyId) (active : Bool)
    (time : α) (h : Heap α) :
    removeKeyDoEffect this key ck active time h =
      match removeKeyDo this key ck active time h with
      | .ok h1 => (h1, .ok ())
      | .error e => (h, .error e) := by
  unfold removeKeyDoEffect removeKeyDo
  rw [Effect.bind_check]
  rcases throwIfStateNotAsExpected_eq h key (some this) active time with ⟨e, he, _⟩ | ⟨he, _⟩
  · rw [he]; rfl
  rw [he]
  simp only [Effect.bind_check]
  rcases throwIfStateNotAsExpectedIf_eq h ck (some this) false time with ⟨e, he2, _⟩ | ⟨he2, _⟩
  · rw [he2]; rfl
  rw [he2]
  cases ck <;> rfl

theorem removeKeyUndoEffect_eq (this : CurveId) (key : KeyId) (ck : Option KeyId)
    (active : Bool) (time : α) (h : Heap α) :
    removeKeyUndoEffect this key ck active time h =
      match removeKeyUndo this key ck active time h with
      | .ok h1 => (h1, .ok ())
      | .error e => (h, .error e) := by
  unfold removeKeyUndoEffect removeKeyUndo
  rw [Effect.bind_check]
  rcases throwIfStateNotAsExpected_eq h key none false time with ⟨e, he, _⟩ | ⟨he, _⟩
  · rw [he]; rfl
  rw [he]
  simp only [Effect.bind_check]
  rcases throwIfStateNotAsExpectedIf_eq h ck (some this) true time with ⟨e, he2, _⟩ | ⟨he2, _⟩
  · rw [he2]; rfl
  rw [he2]
  cases ck <;> cases active <;> rfl

theorem setTimeDoEffect_eq (curve : CurveId) (time previousTime : α) (active : Bool)
    (key : KeyId) (ck ci : Option KeyId) (h : Heap α) :
    setTimeDoEffect curve time previousTime active key ck ci h =
      match setTimeDo curve time previousTime active key ck ci h with
      | .ok h1 => (h1, .ok ())
      | .error e => (h, .error e) := by
  unfold setTimeDoEffect setTimeDo
  rw [Effect.bind_check]
  rcases throwIfStateNotAsExpected_eq h key (some curve) active previousTime with
    ⟨e, he, _⟩ | ⟨he, _⟩
  · rw [he]; rfl
  rw [he]
  simp only [Effect.bind_check]
  rcases throwIfStateNotAsExpectedIf_eq h ci (some curve) false previousTime with
    ⟨e, he2, _⟩ | ⟨he2, _⟩
  · rw [he2]; rfl
  rw [he2]
  simp only [Effect.bind_check]
  rcases throwIfStateNotAsExpectedIf_eq h ck (some curve) true time with ⟨e, he3, _⟩ | ⟨he3, _⟩
  · rw [he3]; rfl
  rw [he3]
  cases ck <;> cases ci <;>
    simp only [bind, Effect.bind_read_apply, Effect.bind_assign_apply, Effect.bind_pure_apply,
      Effect.assign_apply, Effect.pure_unit_apply, Effect.ite_apply, Except.bind, pure,
      Except.pure] <;>
    first
      | rfl
      | (split_ifs <;> rfl)

theorem setTimeUndoEffect_eq (curve : CurveId) (time previousTime : α) (active : Bool)
    (key : KeyId) (ck ci : Option KeyId) (h : Heap α) :
    setTimeUndoEffect curve time previousTime active key ck ci h =
      match setTimeUndo curve time previousTime active key ck ci h with
      | .ok h1 => (h1, .ok ())
      | .error e => (h, .error e) := by
  unfold setTimeUndoEffect setTimeUndo
  rw [Effect.bind_check]
  rcases throwIfStateNotAsExpected_eq h key (some curve) true time with ⟨e, he, _⟩ | ⟨he, _⟩
  · rw [he]; rfl
  rw [he]
  simp only [Effect.bind_check]
  rcases throwIfStateNotAsExpectedIf_eq h ck (some curve) false time with ⟨e, he2, _⟩ | ⟨he2, _⟩
  · rw [he2]; rfl
  rw [he2]
  simp only [Effect.bind_check]
  rcases throwIfStateNotAsExpectedIf_eq h ci (some curve) true previousTime with
    ⟨e, he3, _⟩ | ⟨he3, _⟩
  · rw [he3]; rfl
  rw [he3]
  cases ck <;> cases ci <;> cases active <;>
    simp only [bind, Effect.bind_read_apply, Effect.bind_assign_apply, Effect.bind_pure_apply,
      Effect.assign_apply, Effect.pure_unit_apply, Effect.ite_apply, Except.bind, pure,
      Except.pure] <;>
    first
      | rfl
      | (split_ifs <;> rfl)

/-- A closure whose statement sequence agrees with its `Except` form, whose
`Except` form returns whenever the recorded state is found and returns only
then, checks first. -/
theorem Effect.checksFirst_of {m : Effect α Unit} {f : Heap α → Except String (Heap α)}
    {expected : Prop} {h : Heap α}
    (heq : m h = match f h with
      | .ok h1 => (h1, .ok ())
      | .error e => (h, .error e))
    (hok : ∀ h1, f h = .ok h1 → expected) (hs : expected → ∃ h1, f h = .ok h1) :
    Effect.ChecksFirst m f expected h := by
  constructor
  · intro he
    obtain ⟨h1, e⟩ := hs he
    rw [e] at heq
    exact ⟨h1, heq, e⟩
  · intro hne
    cases hf : f h with
    | ok h1 => exact absurd (hok h1 hf) hne
    | error e =>
      rw [hf] at heq
      exact ⟨e, heq, rfl⟩

/-- C30: each of the six closures (Do and Undo of `setTime`, `addKey` and
`removeKey`), run statement by statement on the mutable heap, returns when the
key, the clashing key and the clashing inactive key all have the parent, the
active flag and the time that the transaction recorded; otherwise it throws and
the heap at exit is the heap at entry, so both containers of every curve and the
parent, active flag and time of every key are unchanged: every state check runs
before the first change. -/
theorem C30_state_checks_before_changes (h : Heap α) (curve : CurveId)
    (time previousTime : α) (active : Bool) (key : KeyId)
    (clashingKey clashingInactiveKey : Option KeyId) :
    Effect.ChecksFirst
      (setTimeDoEffect curve time previousTime active key clashingKey clashingInactiveKey)
      (setTimeDo curve time previousTime active key clashingKey clashingInactiveKey)
      (Key.StateIs h key (some curve) active previousTime ∧
        Key.StateIsIf h clashingInactiveKey (some curve) false previousTime ∧
        Key.StateIsIf h clashingKey (some curve) true time) h ∧
    Effect.ChecksFirst
      (setTimeUndoEffect curve time previousTime active key clashingKey clashingInactiveKey)
      (setTimeUndo curve time previousTime active key clashingKey clashingInactiveKey)
      (Key.StateIs h key (some curve) true time ∧
        Key.StateIsIf h clashingKey (some curve) false time ∧
        Key.StateIsIf h clashingInactiveKey (some curve) true previousTime) h ∧
    Effect.ChecksFirst (addKeyDoEffect curve key clashingKey time)
      (addKeyDo curve key clashingKey time)
      (Key.StateIs h key none false time ∧ Key.StateIsIf h clashingKey (some curve) true time)
      h ∧
    Effect.ChecksFirst (addKeyUndoEffect curve key clashingKey time)
      (addKeyUndo curve key clashingKey time)
      (Key.StateIs h key (some curve) true time ∧
        Key.StateIsIf h clashingKey (some curve) false time) h ∧
    Effect.ChecksFirst (removeKeyDoEffect curve key clashingKey active time)
      (removeKeyDo curve key clashingKey active time)
      (Key.StateIs h key (some curve) active time ∧
        Key.StateIsIf h clashingKey (some curve) false time) h ∧
    Effect.ChecksFirst (removeKeyUndoEffect curve key clashingKey active time)
      (removeKeyUndo curve key clashingKey active time)
      (Key.StateIs h key none false time ∧ Key.StateIsIf h clashingKey (some curve) true time)
      h := by
  refine ⟨?_, ?_, ?_, ?_, ?_, ?_⟩
  · exact Effect.checksFirst_of (setTimeDoEffect_eq _ _ _ _ _ _ _ h)
      (fun h1 e => by
        obtain ⟨a, b, c, _⟩ := setTimeDo_ok e
        exact ⟨a, b, c⟩)
      (fun ⟨a, b, c⟩ => setTimeDo_succeeds a b c)
  · exact Effect.checksFirst_of (setTimeUndoEffect_eq _ _ _ _ _ _ _ h)
      (fun h1 e => by
        obtain ⟨a, b, c, _⟩ := setTimeUndo_ok e
        exact ⟨a, b, c⟩)
      (fun ⟨a, b, c⟩ => setTimeUndo_succeeds a b c)
  · exact Effect.checksFirst_of (addKeyDoEffect_eq _ _ _ _ h)
      (fun h1 e => by
        obtain ⟨a, b, _⟩ := addKeyDo_ok e
        exact ⟨a, b⟩)
      (fun ⟨a, b⟩ => addKeyDo_succeeds a b)
  · exact Effect.checksFirst_of (addKeyUndoEffect_eq _ _ _ _ h)
      (fun h1 e => by
        obtain ⟨a, b, _⟩ := addKeyUndo_ok e
        exact ⟨a, b⟩)
      (fun ⟨a, b⟩ => addKeyUndo_succeeds a b)
  · exact Effect.checksFirst_of (removeKeyDoEffect_eq _ _ _ _ _ h)
      (fun h1 e => by
        obtain ⟨a, b, _⟩ := removeKeyDo_ok e
        exact ⟨a, b⟩)
      (fun ⟨a, b⟩ => removeKeyDo_succeeds a b)
  · exact Effect.checksFirst_of (removeKeyUndoEffect_eq _ _ _ _ _ h)
      (fun h1 e => by
        obtain ⟨a, b, _⟩ := removeKeyUndo_ok e
        exact ⟨a, b⟩)
      (fun ⟨a, b⟩ => removeKeyUndo_succeeds a b)

/-! ### The cubic and Bezier polynomials -/

theorem Interpolator.tangent_in_of_nextIn {h : Heap α} (hl : Linked h) {c : CurveId}
    {lo hi : KeyId} (hn : nextIn lo (h.curve c).m_keys = some hi) :
    Tangent.interpolator h hi .In = (h.key lo).m_interpolator := by
  obtain ⟨hp, ha⟩ := (hl.mem_keys c hi).1 (nextIn_mem hn)
  have e : Key.prevKey h hi = some lo := by
    rw [Key.prevKey_eq hp ha]; exact prevIn_of_nextIn (hl.nodup c) hn
  simp only [Tangent.interpolator, e]

/-- In a segment whose interpolator uses slopes, the slope of the out tangent of
the earlier key and of the in tangent of the later key is the stored one. -/
theorem Linked.getSlope_segment {h : Heap α} (hl : Linked h) {c : CurveId} {lo hi : KeyId}
    (hn : nextIn lo (h.curve c).m_keys = some hi)
    (hu : Interpolator.getHints (h.key lo).m_interpolator &&& Hint.UseSlope ≠ 0) :
    Tangent.getSlope h lo .Out = (h.key lo).m_out.m_slope ∧
      Tangent.getSlope h hi .In = (h.key hi).m_in.m_slope := by
  constructor
  · unfold Tangent.getSlope
    cases hc : Tangent.slopeIsConstrained h lo .Out with
    | false => rfl
    | true =>
      obtain ⟨_, _, _, _, _, q⟩ := (hl.slopeIsConstrained_iff lo .Out).1 hc
      exact absurd q hu
  · unfold Tangent.getSlope
    cases hc : Tangent.slopeIsConstrained h hi .In with
    | false => rfl
    | true =>
      obtain ⟨_, _, _, _, _, q⟩ := (hl.slopeIsConstrained_iff hi .In).1 hc
      rw [Interpolator.tangent_in_of_nextIn hl hn] at q
      exact absurd q hu

/-- In a segment whose interpolator uses scales, the scale of the out tangent of
the earlier key and of the in tangent of the later key is the stored one. -/
theorem Linked.getScale_segment (ν : Numeric α) {h : Heap α} (hl : Linked h) {c : CurveId}
    {lo hi : KeyId} (hn : nextIn lo (h.curve c).m_keys = some hi)
    (hu : Interpolator.getHints (h.key lo).m_interpolator &&& Hint.UseScale ≠ 0) :
    Tangent.getScale ν h lo .Out = (h.key lo).m_out.m_scale ∧
      Tangent.getScale ν h hi .In = (h.key hi).m_in.m_scale := by
  constructor
  · unfold Tangent.getScale
    cases hc : Tangent.scaleIsConstrained h lo .Out with
    | false => rfl
    | true =>
      obtain ⟨_, _, _, _, _, q⟩ := (hl.scaleIsConstrained_iff lo .Out).1 hc
      exact absurd q hu
  · unfold Tangent.getScale
    cases hc : Tangent.scaleIsConstrained h hi .In with
    | false => rfl
    | true =>
      obtain ⟨_, _, _, _, _, q⟩ := (hl.scaleIsConstrained_iff hi .In).1 hc
      rw [Interpolator.tangent_in_of_nextIn hl hn] at q
      exact absurd q hu

theorem cubic_horner (a b c d t : α) :
    fma t (fma t (fma t a b) c) d = a * t ^ 3 + b * t ^ 2 + c * t + d := by
  unfold fma; ring

/-- C35: in every reachable state, for two consecutive active keys `lo`, `hi`
where `lo` has Cubic interpolation, the interpolator called with the normalised
time `t` and the span width `dt` returns `a t³ + b t² + c t + d` with
`dv = hi.value - lo.value`, `sl = clamp( lo.out.slope * dt, -1e9, 1e9 )`,
`sh = clamp( hi.in.slope * dt, -1e9, 1e9 )` (the stored slopes, neither tangent
being constrained), `a = sl + sh - 2 dv`, `b = 3 dv - 2 sl - sh`, `c = sl` and
`d = lo.value`; and `evaluate` at a time `u` strictly between the two keys
returns that polynomial at `t = (u - lo.time) / dt` for `dt = hi.time - lo.time`. -/
theorem C35_cubic_coefficients {ν μ : Numeric α} {w : Script α} (hr : Reachable ν w)
    (c : CurveId) (lo hi : KeyId)
    (hn : nextIn lo (w.heap.curve c).m_keys = some hi)
    (hcub : (w.heap.key lo).m_interpolator = .Cubic) :
    (∀ t dt : α,
      Interpolator.evaluate μ w.heap (w.heap.key lo).m_interpolator lo hi t dt =
        .ok ((clamp ((w.heap.key lo).m_out.m_slope * dt) (-1000000000) 1000000000 +
              clamp ((w.heap.key hi).m_in.m_slope * dt) (-1000000000) 1000000000 -
              2 * ((w.heap.key hi).m_value - (w.heap.key lo).m_value)) * t ^ 3 +
          (3 * ((w.heap.key hi).m_value - (w.heap.key lo).m_value) -
              2 * clamp ((w.heap.key lo).m_out.m_slope * dt) (-1000000000) 1000000000 -
              clamp ((w.heap.key hi).m_in.m_slope * dt) (-1000000000) 1000000000) * t ^ 2 +
          clamp ((w.heap.key lo).m_out.m_slope * dt) (-1000000000) 1000000000 * t +
          (w.heap.key lo).m_value)) ∧
    ∀ u : α, w.heap.time lo < u → u < w.heap.time hi →
      CurvePlug.evaluate μ w.heap c u =
        Interpolator.evaluate μ w.heap (w.heap.key lo).m_interpolator lo hi
          ((u - w.heap.time lo) / (w.heap.time hi - w.heap.time lo))
          (w.heap.time hi - w.heap.time lo) := by
  have hl := hr.inv.wf.linked
  have hu : Interpolator.getHints (w.heap.key lo).m_interpolator &&& Hint.UseSlope ≠ 0 := by
    rw [hcub]; decide
  obtain ⟨e1, e2⟩ := hl.getSlope_segment hn hu
  constructor
  · intro t dt
    rw [hcub]
    simp only [Interpolator.evaluate, InterpolatorCubic.evaluate, clampSlope, e1, e2,
      cubic_horner]
    congr 1
    ring
  · intro u h1 h2
    have hs := hl.sorted c
    have hdt : (w.heap.key lo).m_out.m_dt = w.heap.time hi - w.heap.time lo := by
      rw [hr.spanOut c lo (nextIn_mem_self hn)]
      unfold expectedOutDt
      rw [hn]
    rw [evaluate_between μ w.heap c u hs hn h1 h2, hdt]
    have hpos : 0 < w.heap.time hi - w.heap.time lo := sub_pos.mpr (lt_trans h1 h2)
    have hc : clamp ((u - (w.heap.key lo).m_time) / (w.heap.time hi - w.heap.time lo)) 0 1 =
        (u - w.heap.time lo) / (w.heap.time hi - w.heap.time lo) := by
      apply clamp_of_mem
      · exact div_nonneg (le_of_lt (sub_pos.mpr h1)) (le_of_lt hpos)
      · rw [div_le_one hpos]
        exact sub_le_sub_right (le_of_lt h2) _
    rw [hc]

theorem exCubic_reachable : Reachable exampleNumeric exCubic :=
  exTie_reachable.after_setInterpolation 0 .Cubic (by decide!)

/-- C35 for the keys (0, 0) and (2, 20), the first with Cubic interpolation and
both stored slopes zero: the coefficients are `a = -40`, `b = 60`, `c = 0`,
`d = 0`, and `evaluate( 1/2 )` is `-40/64 + 60/16 = 25/8`. -/
theorem C35_cubic_coefficients_witness :
    nextIn 0 (exCubic.heap.curve 0).m_keys = some 1 ∧
    (exCubic.heap.key 0).m_interpolator = .Cubic ∧
    CurvePlug.evaluate exampleNumeric exCubic.heap 0 (1 / 2) = .ok (25 / 8) := by
  have hn : nextIn 0 (exCubic.heap.curve 0).m_keys = some 1 := by decide!
  have hc : (exCubic.heap.key 0).m_interpolator = .Cubic := by decide!
  obtain ⟨h1, h2⟩ := C35_cubic_coefficients (μ := exampleNumeric) exCubic_reachable 0 0 1 hn hc
  refine ⟨hn, hc, ?_⟩
  rw [h2 (1 / 2) (by decide!) (by decide!), h1]
  exact congrArg Except.ok (by decide!)

/-- C39: both polynomial interpolators return the value of the earlier key at
the normalised time 0 and the value of the later key at the normalised time 1,
for every heap, pair of keys, span width and tangents; for the Bezier
interpolator `solveForTime` yields the parameter 0 for the normalised time 0
and 1 for 1, whatever the control times, and the value polynomial
`av s³ + bv s² + cv s + dv` with the coefficients of `evaluate` is the value of
the earlier key at `s = 0` and that of the later key at `s = 1`. -/
theorem C39_interpolators_meet_keys (ν : Numeric α) (h : Heap α) (lo hi : KeyId) (dt : α) :
    InterpolatorCubic.evaluate h lo hi 0 dt = (h.key lo).m_value ∧
    InterpolatorCubic.evaluate h lo hi 1 dt = (h.key hi).m_value ∧
    Interpolator.evaluate ν h .Cubic lo hi 0 dt = .ok (h.key lo).m_value ∧
    Interpolator.evaluate ν h .Cubic lo hi 1 dt = .ok (h.key hi).m_value ∧
    (∀ tl th : α, solveForTime ν tl th 0 = .ok 0 ∧ solveForTime ν tl th 1 = .ok 1) ∧
    InterpolatorBezier.evaluate ν h lo hi 0 dt = .ok (h.key lo).m_value ∧
    InterpolatorBezier.evaluate ν h lo hi 1 dt = .ok (h.key hi).m_value ∧
    Interpolator.evaluate ν h .Bezier lo hi 0 dt = .ok (h.key lo).m_value ∧
    Interpolator.evaluate ν h .Bezier lo hi 1 dt = .ok (h.key hi).m_value := by
  have c0 : InterpolatorCubic.evaluate h lo hi 0 dt = (h.key lo).m_value := by
    simp only [InterpolatorCubic.evaluate, fma]; ring
  have c1 : InterpolatorCubic.evaluate h lo hi 1 dt = (h.key hi).m_value := by
    simp only [InterpolatorCubic.evaluate, fma]; ring
  have s0 : ∀ tl th : α, solveForTime ν tl th 0 = .ok 0 := by
    intro tl th
    unfold solveForTime
    rw [if_pos (le_refl 0)]; rfl
  have s1 : ∀ tl th : α, solveForTime ν tl th 1 = .ok 1 := by
    intro tl th
    unfold solveForTime
    rw [if_neg (by norm_num), if_pos (le_refl (1 : α))]; rfl
  have b0 : InterpolatorBezier.evaluate ν h lo hi 0 dt = .ok (h.key lo).m_value := by
    unfold InterpolatorBezier.evaluate
    simp only [s0, fma]
    congr 1; ring
  have b1 : InterpolatorBezier.evaluate ν h lo hi 1 dt = .ok (h.key hi).m_value := by
    unfold InterpolatorBezier.evaluate
    simp only [s1, fma]
    congr 1; ring
  exact ⟨c0, c1, by simp only [Interpolator.evaluate, c0], by simp only [Interpolator.evaluate, c1],
    fun tl th => ⟨s0 tl th, s1 tl th⟩, b0, b1, b0, b1⟩

/-! ### The bracket of solveForTime -/

/-- The loop of `solveForTime` with iterations left is one pass through its
body followed by the loop with one iteration fewer. -/
theorem solveForTimeLoop_succ (ν : Numeric α) (a_t bt ct at3 bt2 time : α) (n : Nat)
    (sl sh s : α) :
    solveForTimeLoop ν a_t bt ct at3 bt2 time (n + 1) sl sh s =
      if |fma s (fma s (fma s a_t bt) ct) (-time)| < ν.epsilon then s
      else if |(solveForTimeStep a_t bt ct at3 bt2 time sl sh s).2.2.1| < ν.epsilon then
        (solveForTimeStep a_t bt ct at3 bt2 time sl sh s).2.2.2
      else solveForTimeLoop ν a_t bt ct at3 bt2 time n
        (solveForTimeStep a_t bt ct at3 bt2 time sl sh s).1
        (solveForTimeStep a_t bt ct at3 bt2 time sl sh s).2.1
        (solveForTimeStep a_t bt ct at3 bt2 time sl sh s).2.2.2 := rfl

theorem solveForTimeStep_bracket (a_t bt ct at3 bt2 time : α) {sl sh s : α}
    (h1 : sl ≤ s) (h2 : s ≤ sh) :
    sl ≤ (solveForTimeStep a_t bt ct at3 bt2 time sl sh s).1 ∧
    (solveForTimeStep a_t bt ct at3 bt2 time sl sh s).1 ≤
      (solveForTimeStep a_t bt ct at3 bt2 time sl sh s).2.2.2 ∧
    (solveForTimeStep a_t bt ct at3 bt2 time sl sh s).2.2.2 ≤
      (solveForTimeStep a_t bt ct at3 bt2 time sl sh s).2.1 ∧
    (solveForTimeStep a_t bt ct at3 bt2 time sl sh s).2.1 ≤ sh := by
  unfold solveForTimeStep
  dsimp only
  split_ifs with q1 q2 q3 q4 q5 <;> refine ⟨?_, ?_, ?_, ?_⟩ <;>
    first
      | linarith
      | (push_neg at q3; linarith [q3.1, q3.2])
      | (push_neg at q5; linarith [q5.1, q5.2])

theorem solveForTimeLoop_bracket (ν : Numeric α) (a_t bt ct at3 bt2 time : α) (n : Nat) :
    ∀ sl sh s : α, sl ≤ s → s ≤ sh →
      sl ≤ solveForTimeLoop ν a_t bt ct at3 bt2 time n sl sh s ∧
        solveForTimeLoop ν a_t bt ct at3 bt2 time n sl sh s ≤ sh := by
  induction n with
  | zero => intro sl sh s h1 h2; exact ⟨h1, h2⟩
  | succ n ih =>
    intro sl sh s h1 h2
    rw [solveForTimeLoop_succ]
    obtain ⟨b1, b2, b3, b4⟩ := solveForTimeStep_bracket a_t bt ct at3 bt2 time h1 h2
    split_ifs with q1 q2
    · exact ⟨h1, h2⟩
    · exact ⟨le_trans b1 b2, le_trans b3 b4⟩
    · obtain ⟨r1, r2⟩ := ih _ _ _ b2 b3
      exact ⟨le_trans b1 r1, le_trans r2 b4⟩

/-- C37: `solveForTime` returns 0 for `time ≤ 0` and 1 for `time ≥ 1`.
Otherwise, when it does not throw, it returns the result of the loop run for at
most 10 iterations from the bracket `sl = 0`, `sh = 1` and `s = time`.  Each
pass through the loop body from a bracket `0 ≤ sl ≤ s ≤ sh ≤ 1` leaves a bracket
with `0 ≤ sl ≤ s ≤ sh ≤ 1` again (so both assertions hold), inside the previous
one; the new `s` is the midpoint of the new bracket whenever the derivative is
0 or the Newton step `s - f / df` is on or outside the new bracket, and it is
the Newton step otherwise.  So the loop returns a parameter in the bracket it
starts from, and the parameter that `solveForTime` returns lies in `[0, 1]`;
with an exact square root and control times in `[0, 1]` it does return one. -/
theorem C37_solveForTime_bracket (ν : Numeric α) (tl th time : α) :
    (time ≤ 0 → solveForTime ν tl th time = .ok 0) ∧
    (1 ≤ time → solveForTime ν tl th time = .ok 1) ∧
    (∀ r, 0 < time → time < 1 → solveForTime ν tl th time = .ok r →
      r = solveForTimeLoop ν (tl + tl + tl - (th + th + th) + 1)
        (th + th + th - (tl + tl + tl) - (tl + tl + tl)) (tl + tl + tl)
        (tl + tl + tl - (th + th + th) + 1 + (tl + tl + tl - (th + th + th) + 1) +
          (tl + tl + tl - (th + th + th) + 1))
        (th + th + th - (tl + tl + tl) - (tl + tl + tl) +
          (th + th + th - (tl + tl + tl) - (tl + tl + tl))) time 10 0 1 time) ∧
    (∀ a_t bt ct at3 bt2 sl sh s : α, 0 ≤ sl → sl ≤ s → s ≤ sh → sh ≤ 1 →
      0 ≤ (solveForTimeStep a_t bt ct at3 bt2 time sl sh s).1 ∧
      sl ≤ (solveForTimeStep a_t bt ct at3 bt2 time sl sh s).1 ∧
      (solveForTimeStep a_t bt ct at3 bt2 time sl sh s).1 ≤
        (solveForTimeStep a_t bt ct at3 bt2 time sl sh s).2.2.2 ∧
      (solveForTimeStep a_t bt ct at3 bt2 time sl sh s).2.2.2 ≤
        (solveForTimeStep a_t bt ct at3 bt2 time sl sh s).2.1 ∧
      (solveForTimeStep a_t bt ct at3 bt2 time sl sh s).2.1 ≤ sh ∧
      (solveForTimeStep a_t bt ct at3 bt2 time sl sh s).2.1 ≤ 1 ∧
      ((fma s (fma s at3 bt2) ct = 0 ∨
          s - fma s (fma s (fma s a_t bt) ct) (-time) / fma s (fma s at3 bt2) ct ≤
            (solveForTimeStep a_t bt ct at3 bt2 time sl sh s).1 ∨
          (solveForTimeStep a_t bt ct at3 bt2 time sl sh s).2.1 ≤
            s - fma s (fma s (fma s a_t bt) ct) (-time) / fma s (fma s at3 bt2) ct) →
        (solveForTimeStep a_t bt ct at3 bt2 time sl sh s).2.2.2 =
          (solveForTimeStep a_t bt ct at3 bt2 time sl sh s).1 +
            1 / 2 * ((solveForTimeStep a_t bt ct at3 bt2 time sl sh s).2.1 -
              (solveForTimeStep a_t bt ct at3 bt2 time sl sh s).1)) ∧
      (¬ (fma s (fma s at3 bt2) ct = 0 ∨
          s - fma s (fma s (fma s a_t bt) ct) (-time) / fma s (fma s at3 bt2) ct ≤
            (solveForTimeStep a_t bt ct at3 bt2 time sl sh s).1 ∨
          (solveForTimeStep a_t bt ct at3 bt2 time sl sh s).2.1 ≤
            s - fma s (fma s (fma s a_t bt) ct) (-time) / fma s (fma s at3 bt2) ct) →
        (solveForTimeStep a_t bt ct at3 bt2 time sl sh s).2.2.2 =
          s - fma s (fma s (fma s a_t bt) ct) (-time) / fma s (fma s at3 bt2) ct)) ∧
    (∀ (a_t bt ct at3 bt2 : α) (n : Nat) (sl sh s : α), 0 ≤ sl → sl ≤ s → s ≤ sh → sh ≤ 1 →
      sl ≤ solveForTimeLoop ν a_t bt ct at3 bt2 time n sl sh s ∧
        solveForTimeLoop ν a_t bt ct at3 bt2 time n sl sh s ≤ sh) ∧
    (∀ r, solveForTime ν tl th time = .ok r → 0 ≤ r ∧ r ≤ 1) ∧
    ((∀ x, 0 ≤ x → ν.sqrt x * ν.sqrt x = x) → 0 ≤ tl → tl ≤ 1 → 0 ≤ th → th ≤ 1 →
      ∃ r, solveForTime ν tl th time = .ok r ∧ 0 ≤ r ∧ r ≤ 1) := by
  have hrange : ∀ r, solveForTime ν tl th time = .ok r → 0 ≤ r ∧ r ≤ 1 := by
    intro r hr
    unfold solveForTime at hr
    by_cases q1 : time ≤ 0
    · rw [if_pos q1] at hr
      cases hr; exact ⟨le_refl 0, zero_le_one⟩
    · rw [if_neg q1] at hr
      by_cases q2 : time ≥ 1
      · rw [if_pos q2] at hr
        cases hr; exact ⟨zero_le_one, le_refl 1⟩
      · rw [if_neg q2] at hr
        dsimp only at hr
        have hb := fun a_t bt ct at3 bt2 =>
          solveForTimeLoop_bracket ν a_t bt ct at3 bt2 time 10 0 1 time (le_of_lt (not_le.1 q1))
            (le_of_lt (not_le.1 q2))
        split_ifs at hr <;> (cases hr; exact hb _ _ _ _ _)
  refine ⟨?_, ?_, ?_, ?_, ?_, hrange, ?_⟩
  · intro h
    unfold solveForTime
    rw [if_pos h]; rfl
  · intro h
    unfold solveForTime
    rw [if_neg (not_le.2 (lt_of_lt_of_le one_pos h)), if_pos h]; rfl
  · intro r h0 h1 hr
    unfold solveForTime at hr
    rw [if_neg (not_le.2 h0), if_neg (not_le.2 h1)] at hr
    dsimp only at hr
    split_ifs at hr <;> (cases hr; rfl)
  · intro a_t bt ct at3 bt2 sl sh s h0 h1 h2 h3
    obtain ⟨b1, b2, b3, b4⟩ := solveForTimeStep_bracket a_t bt ct at3 bt2 time h1 h2
    refine ⟨le_trans h0 b1, b1, b2, b3, b4, le_trans b4 h3, ?_, ?_⟩
    · intro hc
      unfold solveForTimeStep
      dsimp only
      by_cases hd : fma s (fma s at3 bt2) ct = 0
      · rw [if_pos hd]
      · rw [if_neg hd]
        have hc2 : s - fma s (fma s (fma s a_t bt) ct) (-time) / fma s (fma s at3 bt2) ct ≤
              (if fma s (fma s (fma s a_t bt) ct) (-time) < 0 then s else sl) ∨
            s - fma s (fma s (fma s a_t bt) ct) (-time) / fma s (fma s at3 bt2) ct ≥
              (if fma s (fma s (fma s a_t bt) ct) (-time) < 0 then sh else s) := by
          rcases hc with h | h | h
          · exact absurd h hd
          · exact Or.inl h
          · exact Or.inr h
        rw [if_pos hc2]
    · intro hc
      push_neg at hc
      unfold solveForTimeStep
      dsimp only
      rw [if_neg hc.1]
      have hc2 : ¬ (s - fma s (fma s (fma s a_t bt) ct) (-time) / fma s (fma s at3 bt2) ct ≤
              (if fma s (fma s (fma s a_t bt) ct) (-time) < 0 then s else sl) ∨
            s - fma s (fma s (fma s a_t bt) ct) (-time) / fma s (fma s at3 bt2) ct ≥
              (if fma s (fma s (fma s a_t bt) ct) (-time) < 0 then sh else s)) := by
        push_neg
        exact ⟨hc.2.1, hc.2.2⟩
      rw [if_neg hc2]
  · intro a_t bt ct at3 bt2 n sl sh s _ h1 h2 _
    exact solveForTimeLoop_bracket ν a_t bt ct at3 bt2 time n sl sh s h1 h2
  · intro hsq a1 a2 a3 a4
    obtain ⟨r, hr⟩ := solveForTime_returns ν hsq a1 a2 a3 a4 time
    exact ⟨r, hr, hrange r hr⟩

/-! ### Tangent positions -/

theorem fma_self_pos (s : α) : 0 < fma s s 1 := by
  unfold fma
  have := mul_self_nonneg s
  linarith

theorem copysign_mul_nonneg {m : α} (hm : 0 ≤ m) (s : α) : 0 ≤ copysign m s * s := by
  unfold copysign
  split_ifs with h
  · have : -|m| * s = |m| * (-s) := by ring
    rw [this]
    exact mul_nonneg (abs_nonneg m) (le_of_lt (neg_pos.2 h))
  · exact mul_nonneg (abs_nonneg m) (not_lt.1 h)

theorem neg_of_ne_zero_ite (a : α) : (if a ≠ 0 then -a else a) = -a := by
  split_ifs with h
  · rfl
  · push_neg at h; rw [h, neg_zero]

/-- The x-coordinate of the relative position before the direction is applied
lies in `[0, m_dt]`. -/
theorem getPosition_out_range (ν : Numeric α) (hν : ∀ x, 0 ≤ x → 0 ≤ ν.sqrt x) (h : Heap α)
    (k : KeyId) (d : Direction) (hdt : 0 < ((h.key k).tangent d).m_dt)
    (hc : 0 ≤ Tangent.getScale ν h k d) :
    (d = .Out → 0 ≤ (Tangent.getPosition ν h k d true).1 ∧
      (Tangent.getPosition ν h k d true).1 ≤ ((h.key k).tangent d).m_dt) ∧
    (d = .In → -((h.key k).tangent d).m_dt ≤ (Tangent.getPosition ν h k d true).1 ∧
      (Tangent.getPosition ν h k d true).1 ≤ 0) := by
  have hm : ∀ s : α, 0 ≤ Tangent.getScale ν h k d * ((h.key k).tangent d).m_dt /
      ν.sqrt (fma s s 1) :=
    fun s => div_nonneg (mul_nonneg hc (le_of_lt hdt)) (hν _ (le_of_lt (fma_self_pos s)))
  have hq : ∀ q : α × α, q = (if |Tangent.getSlope h k d| < 1 then
        (min (Tangent.getScale ν h k d * ((h.key k).tangent d).m_dt /
            ν.sqrt (fma (Tangent.getSlope h k d) (Tangent.getSlope h k d) 1))
            ((h.key k).tangent d).m_dt,
          min (Tangent.getScale ν h k d * ((h.key k).tangent d).m_dt /
            ν.sqrt (fma (Tangent.getSlope h k d) (Tangent.getSlope h k d) 1))
            ((h.key k).tangent d).m_dt * Tangent.getSlope h k d)
      else
        (min (copysign (Tangent.getScale ν h k d * ((h.key k).tangent d).m_dt /
            ν.sqrt (fma (1 / Tangent.getSlope h k d) (1 / Tangent.getSlope h k d) 1))
            (1 / Tangent.getSlope h k d) * (1 / Tangent.getSlope h k d))
            ((h.key k).tangent d).m_dt,
          copysign (Tangent.getScale ν h k d * ((h.key k).tangent d).m_dt /
            ν.sqrt (fma (1 / Tangent.getSlope h k d) (1 / Tangent.getSlope h k d) 1))
            (1 / Tangent.getSlope h k d))) →
      0 ≤ q.1 ∧ q.1 ≤ ((h.key k).tangent d).m_dt := by
    intro q e
    subst e
    split_ifs with hs
    · exact ⟨le_min (hm _) (le_of_lt hdt), min_le_right _ _⟩
    · exact ⟨le_min (copysign_mul_nonneg (hm _) _) (le_of_lt hdt), min_le_right _ _⟩
  have hne : ((h.key k).tangent d).m_dt ≠ 0 := ne_of_gt hdt
  constructor
  · intro e
    subst e
    unfold Tangent.getPosition
    simp only [hne, ne_eq, not_false_eq_true, if_true, Bool.not_true, Bool.false_eq_true,
      if_false]
    exact hq _ rfl
  · intro e
    subst e
    unfold Tangent.getPosition
    simp only [hne, ne_eq, not_false_eq_true, if_true, Bool.not_true, Bool.false_eq_true,
      if_false]
    have := hq _ rfl
    have e2 := neg_of_ne_zero_ite (if |Tangent.getSlope h k .In| < 1 then
        (min (Tangent.getScale ν h k .In * ((h.key k).tangent .In).m_dt /
            ν.sqrt (fma (Tangent.getSlope h k .In) (Tangent.getSlope h k .In) 1))
            ((h.key k).tangent .In).m_dt,
          min (Tangent.getScale ν h k .In * ((h.key k).tangent .In).m_dt /
            ν.sqrt (fma (Tangent.getSlope h k .In) (Tangent.getSlope h k .In) 1))
            ((h.key k).tangent .In).m_dt * Tangent.getSlope h k .In)
      else
        (min (copysign (Tangent.getScale ν h k .In * ((h.key k).tangent .In).m_dt /
            ν.sqrt (fma (1 / Tangent.getSlope h k .In) (1 / Tangent.getSlope h k .In) 1))
            (1 / Tangent.getSlope h k .In) * (1 / Tangent.getSlope h k .In))
            ((h.key k).tangent .In).m_dt,
          copysign (Tangent.getScale ν h k .In * ((h.key k).tangent .In).m_dt /
            ν.sqrt (fma (1 / Tangent.getSlope h k .In) (1 / Tangent.getSlope h k .In) 1))
            (1 / Tangent.getSlope h k .In))).1
    simp only [ne_eq] at e2
    rw [e2]
    constructor
    · linarith [this.2]
    · linarith [this.1]

theorem getPosition_of_dt_zero (ν : Numeric α) (h : Heap α) (k : KeyId) (d : Direction)
    (hdt : ((h.key k).tangent d).m_dt = 0) : Tangent.getPosition ν h k d true = (0, 0) := by
  unfold Tangent.getPosition
  simp [hdt]

theorem setPosition_of_dt_zero (ν : Numeric α) (w : Script α) (k : KeyId) (d : Direction)
    (hdt : ((w.heap.key k).tangent d).m_dt = 0) (pos : α × α) (relative : Bool) :
    Tangent.setPosition ν w k d pos relative = some (.ok w) := by
  unfold Tangent.setPosition
  rw [if_pos hdt]
  rfl

/-- C31 (the square root taken to be non-negative): for every tangent whose
cached span width `dt` is positive and whose scale `getScale()` is not negative,
the x-coordinate of `getPosition( relative = true )` lies in `[0, dt]` for an
out tangent and in `[-dt, 0]` for an in tangent, whatever the slope; when `dt`
is 0, `getPosition( relative = true )` is `(0, 0)` and `setPosition` returns
with the state unchanged, so with the same slope and scale. -/
theorem C31_handle_within_span (ν : Numeric α) (hν : ∀ x, 0 ≤ x → 0 ≤ ν.sqrt x)
    (w : Script α) (k : KeyId) (d : Direction) :
    (0 < ((w.heap.key k).tangent d).m_dt → 0 ≤ Tangent.getScale ν w.heap k d →
      (d = .Out → 0 ≤ (Tangent.getPosition ν w.heap k d true).1 ∧
        (Tangent.getPosition ν w.heap k d true).1 ≤ ((w.heap.key k).tangent d).m_dt) ∧
      (d = .In → -((w.heap.key k).tangent d).m_dt ≤ (Tangent.getPosition ν w.heap k d true).1 ∧
        (Tangent.getPosition ν w.heap k d true).1 ≤ 0)) ∧
    (((w.heap.key k).tangent d).m_dt = 0 →
      Tangent.getPosition ν w.heap k d true = (0, 0) ∧
      ∀ (pos : α × α) (relative : Bool),
        Tangent.setPosition ν w k d pos relative = some (.ok w)) :=
  ⟨fun hdt hc => getPosition_out_range ν hν w.heap k d hdt hc,
    fun hdt => ⟨getPosition_of_dt_zero ν w.heap k d hdt,
      fun pos relative => setPosition_of_dt_zero ν w k d hdt pos relative⟩⟩

/-- C31 for the keys (0, 0) and (1, 10): the out tangent of key 0 and the in
tangent of key 1 have the span width 1, and their handles have x in `[0, 1]`
and in `[-1, 0]`; the out tangent of key 1, the final key, has the span width
0, its position is `(0, 0)` and `setPosition( (1, 1) )` changes nothing. -/
theorem C31_handle_within_span_witness :
    (0 ≤ (Tangent.getPosition exampleNumeric exTwo.heap 0 .Out true).1 ∧
      (Tangent.getPosition exampleNumeric exTwo.heap 0 .Out true).1 ≤ 1) ∧
    (-1 ≤ (Tangent.getPosition exampleNumeric exTwo.heap 1 .In true).1 ∧
      (Tangent.getPosition exampleNumeric exTwo.heap 1 .In true).1 ≤ 0) ∧
    Tangent.getPosition exampleNumeric exTwo.heap 1 .Out true = (0, 0) ∧
    Tangent.setPosition exampleNumeric exTwo 1 .Out (1, 1) true = some (.ok exTwo) := by
  have h0 := (C31_handle_within_span exampleNumeric (fun x hx => hx) exTwo 0 .Out).1
    (by decide!) (by decide!)
  have h2 := (C31_handle_within_span exampleNumeric (fun x hx => hx) exTwo 1 .In).1
    (by decide!) (by decide!)
  have h1 := (C31_handle_within_span exampleNumeric (fun x hx => hx) exTwo 1 .Out).2
    (by decide!)
  have e : ((exTwo.heap.key 0).tangent .Out).m_dt = 1 := by decide!
  have e2 : ((exTwo.heap.key 1).tangent .In).m_dt = 1 := by decide!
  rw [e] at h0
  rw [e2] at h2
  exact ⟨h0.1 rfl, h2.2 rfl, h1.1, h1.2 (1, 1) true⟩

/-! ### A position converts back to its slope and scale -/

/-- An exact non-negative square root returns the non-negative root. -/
theorem Numeric.sqrt_eq_of_mul_self (ν : Numeric α)
    (hsq : ∀ x, 0 ≤ x → ν.sqrt x * ν.sqrt x = x) (hν : ∀ x, 0 ≤ x → 0 ≤ ν.sqrt x)
    {y z : α} (hz : 0 ≤ z) (e : z * z = y) : ν.sqrt y = z := by
  have hy : 0 ≤ y := by rw [← e]; exact mul_self_nonneg z
  have h1 := hsq y hy
  have h2 := hν y hy
  exact (mul_self_inj_of_nonneg h2 hz).1 (h1.trans e.symm)

theorem Numeric.sqrt_fma_pos (ν : Numeric α)
    (hsq : ∀ x, 0 ≤ x → ν.sqrt x * ν.sqrt x = x) (hν : ∀ x, 0 ≤ x → 0 ≤ ν.sqrt x) (s : α) :
    0 < ν.sqrt (fma s s 1) ∧ ν.sqrt (fma s s 1) * ν.sqrt (fma s s 1) = s * s + 1 := by
  have hp := fma_self_pos s
  have h1 := hsq _ (le_of_lt hp)
  have h2 := hν _ (le_of_lt hp)
  refine ⟨lt_of_le_of_ne h2 (fun e => ?_), by rw [h1]; rfl⟩
  rw [← e] at h1
  rw [← h1] at hp
  simp at hp

/-- The relative position `q` of a handle before the direction is applied,
for the slope `s`, the scale `c` in `(0, maxScale( s )]` and the span width
`dt > 0`: its x is positive, `q.y / q.x` is `s` and its length is `c dt`. -/
theorem position_round_trip (ν : Numeric α)
    (hsq : ∀ x, 0 ≤ x → ν.sqrt x * ν.sqrt x = x) (hν : ∀ x, 0 ≤ x → 0 ≤ ν.sqrt x)
    {s c dt : α} (hdt : 0 < dt) (hc0 : 0 < c) (hc1 : c ≤ maxScale ν s) (q : α × α)
    (hq : q = (if |s| < 1 then
        (min (c * dt / ν.sqrt (fma s s 1)) dt, min (c * dt / ν.sqrt (fma s s 1)) dt * s)
      else
        (min (copysign (c * dt / ν.sqrt (fma (1 / s) (1 / s) 1)) (1 / s) * (1 / s)) dt,
          copysign (c * dt / ν.sqrt (fma (1 / s) (1 / s) 1)) (1 / s)))) :
    0 < q.1 ∧ q.2 / q.1 = s ∧ q.1 * q.1 + q.2 * q.2 = (c * dt) * (c * dt) := by
  obtain ⟨hR, hRR⟩ := ν.sqrt_fma_pos hsq hν s
  unfold maxScale at hc1
  by_cases hs : |s| < 1
  · rw [if_pos hs] at hq
    have hx : c * dt / ν.sqrt (fma s s 1) ≤ dt := by
      rw [div_le_iff₀ hR]
      calc c * dt ≤ ν.sqrt (fma s s 1) * dt := mul_le_mul_of_nonneg_right hc1 (le_of_lt hdt)
        _ = dt * ν.sqrt (fma s s 1) := mul_comm _ _
    rw [min_eq_left hx] at hq
    have hpos : 0 < c * dt / ν.sqrt (fma s s 1) := div_pos (mul_pos hc0 hdt) hR
    subst hq
    refine ⟨hpos, ?_, ?_⟩
    · show c * dt / ν.sqrt (fma s s 1) * s / (c * dt / ν.sqrt (fma s s 1)) = s
      field_simp
    · show c * dt / ν.sqrt (fma s s 1) * (c * dt / ν.sqrt (fma s s 1)) +
        c * dt / ν.sqrt (fma s s 1) * s * (c * dt / ν.sqrt (fma s s 1) * s) = c * dt * (c * dt)
      have hne : ν.sqrt (fma s s 1) ≠ 0 := ne_of_gt hR
      field_simp
      rw [hRR]; ring
  · rw [if_neg hs] at hq
    have hs1 : 1 ≤ |s| := not_lt.1 hs
    have hs0 : s ≠ 0 := by
      intro e
      rw [e, abs_zero] at hs1
      exact absurd hs1 (by norm_num)
    obtain ⟨hR2, hRR2⟩ := ν.sqrt_fma_pos hsq hν (1 / s)
    have hm : 0 < c * dt / ν.sqrt (fma (1 / s) (1 / s) 1) := div_pos (mul_pos hc0 hdt) hR2
    have hy2 := copysign_mul_self (c * dt / ν.sqrt (fma (1 / s) (1 / s) 1)) (1 / s)
    have hys : copysign (c * dt / ν.sqrt (fma (1 / s) (1 / s) 1)) (1 / s) * (1 / s) =
        c * dt / ν.sqrt (fma (1 / s) (1 / s) 1) * |1 / s| := by
      unfold copysign
      split_ifs with h
      · rw [abs_of_pos hm, abs_of_neg h]; ring
      · rw [abs_of_pos hm, abs_of_nonneg (not_lt.1 h)]
    have hinv : 0 < |1 / s| := abs_pos.2 (one_div_ne_zero hs0)
    have hcs : c * |1 / s| ≤ ν.sqrt (fma (1 / s) (1 / s) 1) := by
      rw [mul_self_le_mul_self_iff (mul_nonneg (le_of_lt hc0) (le_of_lt hinv)) (le_of_lt hR2),
        hRR2]
      have h1 : c * c ≤ s * s + 1 := by
        rw [← hRR]
        exact mul_self_le_mul_self (le_of_lt hc0) hc1
      have h2 : |1 / s| * |1 / s| = 1 / s * (1 / s) := abs_mul_abs_self _
      have h3 : 0 ≤ 1 / s * (1 / s) := mul_self_nonneg _
      have h4 : (s * s + 1) * (1 / s * (1 / s)) = 1 / s * (1 / s) + 1 := by
        field_simp
        ring
      calc c * |1 / s| * (c * |1 / s|) = c * c * (1 / s * (1 / s)) := by rw [← h2]; ring
        _ ≤ (s * s + 1) * (1 / s * (1 / s)) := mul_le_mul_of_nonneg_right h1 h3
        _ = 1 / s * (1 / s) + 1 := h4
    have hx : copysign (c * dt / ν.sqrt (fma (1 / s) (1 / s) 1)) (1 / s) * (1 / s) ≤ dt := by
      rw [hys, div_mul_eq_mul_div, div_le_iff₀ hR2]
      calc c * dt * |1 / s| = c * |1 / s| * dt := by ring
        _ ≤ ν.sqrt (fma (1 / s) (1 / s) 1) * dt := mul_le_mul_of_nonneg_right hcs (le_of_lt hdt)
        _ = dt * ν.sqrt (fma (1 / s) (1 / s) 1) := mul_comm _ _
    rw [min_eq_left hx] at hq
    have hxpos : 0 < copysign (c * dt / ν.sqrt (fma (1 / s) (1 / s) 1)) (1 / s) * (1 / s) := by
      rw [hys]; exact mul_pos hm hinv
    have hy0 : copysign (c * dt / ν.sqrt (fma (1 / s) (1 / s) 1)) (1 / s) ≠ 0 := by
      intro e
      rw [e, zero_mul] at hxpos
      exact lt_irrefl _ hxpos
    subst hq
    refine ⟨hxpos, ?_, ?_⟩
    · show copysign (c * dt / ν.sqrt (fma (1 / s) (1 / s) 1)) (1 / s) /
        (copysign (c * dt / ν.sqrt (fma (1 / s) (1 / s) 1)) (1 / s) * (1 / s)) = s
      field_simp
    · show copysign (c * dt / ν.sqrt (fma (1 / s) (1 / s) 1)) (1 / s) * (1 / s) *
          (copysign (c * dt / ν.sqrt (fma (1 / s) (1 / s) 1)) (1 / s) * (1 / s)) +
        copysign (c * dt / ν.sqrt (fma (1 / s) (1 / s) 1)) (1 / s) *
          copysign (c * dt / ν.sqrt (fma (1 / s) (1 / s) 1)) (1 / s) = c * dt * (c * dt)
      have e1 : ∀ y : α, y * (1 / s) * (y * (1 / s)) + y * y = y * y * (1 / s * (1 / s) + 1) :=
        fun y => by ring
      rw [e1, hy2, ← hRR2]
      have hne : ν.sqrt (fma (1 / s) (1 / s) 1) ≠ 0 := ne_of_gt hR2
      field_simp

/-- `positionToRelative` of `getPosition` for a tangent with a non-zero span
width, in terms of the position `q` before the direction is applied. -/
theorem positionToRelative_getPosition (ν : Numeric α) (h : Heap α) (k : KeyId) (d : Direction)
    (relative : Bool) (hne : ((h.key k).tangent d).m_dt ≠ 0) :
    ∃ q : α × α,
      q = (if |Tangent.getSlope h k d| < 1 then
        (min (Tangent.getScale ν h k d * ((h.key k).tangent d).m_dt /
            ν.sqrt (fma (Tangent.getSlope h k d) (Tangent.getSlope h k d) 1))
            ((h.key k).tangent d).m_dt,
          min (Tangent.getScale ν h k d * ((h.key k).tangent d).m_dt /
            ν.sqrt (fma (Tangent.getSlope h k d) (Tangent.getSlope h k d) 1))
            ((h.key k).tangent d).m_dt * Tangent.getSlope h k d)
      else
        (min (copysign (Tangent.getScale ν h k d * ((h.key k).tangent d).m_dt /
            ν.sqrt (fma (1 / Tangent.getSlope h k d) (1 / Tangent.getSlope h k d) 1))
            (1 / Tangent.getSlope h k d) * (1 / Tangent.getSlope h k d))
            ((h.key k).tangent d).m_dt,
          copysign (Tangent.getScale ν h k d * ((h.key k).tangent d).m_dt /
            ν.sqrt (fma (1 / Tangent.getSlope h k d) (1 / Tangent.getSlope h k d) 1))
            (1 / Tangent.getSlope h k d))) ∧
      Tangent.positionToRelative h k d (Tangent.getPosition ν h k d relative) relative =
        match d with
        | .In => (min (-q.1) 0, -q.2)
        | .Out => (max q.1 0, q.2) := by
  refine ⟨_, rfl, ?_⟩
  unfold Tangent.positionToRelative Tangent.getPosition
  cases relative <;> cases d <;>
    simp only [hne, ne_eq, not_false_eq_true, if_true, Bool.not_true, Bool.not_false,
      Bool.false_eq_true, if_false, add_sub_cancel_right] <;>
    simp only [← ne_eq, neg_of_ne_zero_ite]

/-- C40 (with an exact, non-negative square root): for every tangent that is
neither slope- nor scale-constrained, with cached span width `dt > 0`, stored
slope `s` and stored scale `c` in `(0, maxScale( s )]`, the position that
`getPosition( relative )` returns, converted by `positionToRelative`, gives back
the pair: `slopeFromPosition` of it is `s` and its length divided by `dt` is
`c`; and `setPosition( getPosition( relative ), relative )` returns with the
state unchanged.  This holds for both directions, for both values of
`relative` and for both branches `|s| < 1` and `|s| ≥ 1`. -/
theorem C40_position_round_trip (ν : Numeric α)
    (hsq : ∀ x, 0 ≤ x → ν.sqrt x * ν.sqrt x = x) (hν : ∀ x, 0 ≤ x → 0 ≤ ν.sqrt x)
    (w : Script α) (k : KeyId) (d : Direction) (relative : Bool)
    (hcs : Tangent.slopeIsConstrained w.heap k d = false)
    (hcc : Tangent.scaleIsConstrained w.heap k d = false)
    (hdt : 0 < ((w.heap.key k).tangent d).m_dt)
    (hc0 : 0 < ((w.heap.key k).tangent d).m_scale)
    (hc1 : ((w.heap.key k).tangent d).m_scale ≤
      maxScale ν ((w.heap.key k).tangent d).m_slope) :
    slopeFromPosition (Tangent.positionToRelative w.heap k d
        (Tangent.getPosition ν w.heap k d relative) relative) d =
      some ((w.heap.key k).tangent d).m_slope ∧
    V2d.length ν (Tangent.positionToRelative w.heap k d
        (Tangent.getPosition ν w.heap k d relative) relative) /
      ((w.heap.key k).tangent d).m_dt = ((w.heap.key k).tangent d).m_scale ∧
    Tangent.setPosition ν w k d (Tangent.getPosition ν w.heap k d relative) relative =
      some (.ok w) := by
  have hne : ((w.heap.key k).tangent d).m_dt ≠ 0 := ne_of_gt hdt
  have hgs : Tangent.getSlope w.heap k d = ((w.heap.key k).tangent d).m_slope := by
    unfold Tangent.getSlope; rw [hcs]; rfl
  have hgc : Tangent.getScale ν w.heap k d = ((w.heap.key k).tangent d).m_scale := by
    unfold Tangent.getScale; rw [hcc]; rfl
  obtain ⟨q, hq, hp⟩ := positionToRelative_getPosition ν w.heap k d relative hne
  rw [hgs, hgc] at hq
  obtain ⟨q1, q2, q3⟩ := position_round_trip ν hsq hν hdt hc0 hc1 q hq
  have hpos : Tangent.positionToRelative w.heap k d
      (Tangent.getPosition ν w.heap k d relative) relative =
      match d with
      | .In => (-q.1, -q.2)
      | .Out => (q.1, q.2) := by
    rw [hp]
    cases d
    · simp only [min_eq_left (le_of_lt (neg_lt_zero.2 q1))]
    · simp only [max_eq_left (le_of_lt q1)]
  have hslope : slopeFromPosition (Tangent.positionToRelative w.heap k d
        (Tangent.getPosition ν w.heap k d relative) relative) d =
      some ((w.heap.key k).tangent d).m_slope := by
    rw [hpos]
    unfold slopeFromPosition
    cases d
    · simp only [neg_eq_zero, if_neg (ne_of_gt q1), neg_div_neg_eq, q2]
    · simp only [if_neg (ne_of_gt q1), q2]
  have hlen : V2d.length ν (Tangent.positionToRelative w.heap k d
        (Tangent.getPosition ν w.heap k d relative) relative) /
      ((w.heap.key k).tangent d).m_dt = ((w.heap.key k).tangent d).m_scale := by
    rw [hpos]
    have hroot : ν.sqrt (q.1 * q.1 + q.2 * q.2) =
        ((w.heap.key k).tangent d).m_scale * ((w.heap.key k).tangent d).m_dt :=
      ν.sqrt_eq_of_mul_self hsq hν (le_of_lt (mul_pos hc0 hdt)) q3.symm
    unfold V2d.length
    cases d
    · simp only [neg_mul_neg]
      rw [hroot]; field_simp
    · simp only
      rw [hroot]; field_simp
  refine ⟨hslope, hlen, ?_⟩
  unfold Tangent.setPosition
  rw [if_neg hne]
  simp only [hslope]
  have hs1 : Tangent.setSlope ν w k d ((w.heap.key k).tangent d).m_slope false = .ok w := by
    unfold Tangent.setSlope
    simp only [hcs, Bool.not_false, Bool.and_false, Bool.false_eq_true, if_false, if_true]
    rfl
  have hs2 : Tangent.setScale ν w k d ((w.heap.key k).tangent d).m_scale false = .ok w := by
    unfold Tangent.setScale
    simp only [hcc, Bool.not_false, Bool.and_false, Bool.false_eq_true, if_false]
    rw [clamp_of_mem (le_of_lt hc0) hc1, if_pos rfl]
    rfl
  rw [hs1]
  simp only [bind, Except.bind]
  rw [hlen, hs2]

/-- C40 over the real numbers with the real square root, for a key whose out
tangent has the span width 1, the slope 0 and the scale 1, the largest scale
for that slope. -/
theorem C40_position_round_trip_witness :
    Tangent.setPosition (⟨Real.sqrt, 1 / 1000000⟩ : Numeric ℝ)
      { heap :=
          { key := fun _ =>
              { m_parent := none
                m_in := { m_dt := 0, m_dv := 0, m_slope := 0, m_scale := 0 }
                m_out := { m_dt := 1, m_dv := 0, m_slope := 0, m_scale := 1 }
                m_time := 0
                m_value := 0
                m_interpolator := .Bezier
                m_active := false }
            curve := fun _ => { m_keys := [], m_inactiveKeys := [] }
            keyCount := 1 }
        undoQueue := [] } 0 .Out
      (Tangent.getPosition (⟨Real.sqrt, 1 / 1000000⟩ : Numeric ℝ)
        { key := fun _ =>
            { m_parent := none
              m_in := { m_dt := 0, m_dv := 0, m_slope := 0, m_scale := 0 }
              m_out := { m_dt := 1, m_dv := 0, m_slope := 0, m_scale := 1 }
              m_time := 0
              m_value := 0
              m_interpolator := .Bezier
              m_active := false }
          curve := fun _ => { m_keys := [], m_inactiveKeys := [] }
          keyCount := 1 } 0 .Out true) true =
      some (.ok
        { heap :=
            { key := fun _ =>
                { m_parent := none
                  m_in := { m_dt := 0, m_dv := 0, m_slope := 0, m_scale := 0 }
                  m_out := { m_dt := 1, m_dv := 0, m_slope := 0, m_scale := 1 }
                  m_time := 0
                  m_value := 0
                  m_interpolator := .Bezier
                  m_active := false }
              curve := fun _ => { m_keys := [], m_inactiveKeys := [] }
              keyCount := 1 }
          undoQueue := [] }) :=
  (C40_position_round_trip ⟨Real.sqrt, 1 / 1000000⟩ (fun x hx => Real.mul_self_sqrt hx)
    (fun x _ => Real.sqrt_nonneg x) _ 0 .Out true (by rfl) (by rfl)
    (by simp [Key.tangent]) (by simp [Key.tangent])
    (by simp [Key.tangent, maxScale, fma])).2.2

/-! ### What a tangent update touches -/

theorem update_key_of_ne (h : Heap α) (k : KeyId) (d : Direction) {x : KeyId} (hx : x ≠ k) :
    (Tangent.update h k d).key x = h.key x := by
  cases d <;> simp [Tangent.update, hx]

theorem updateIf_key_of_ne (h : Heap α) (k : Option KeyId) (d : Direction) {x : KeyId}
    (hx : k ≠ some x) : (Tangent.updateIf h k d).key x = h.key x := by
  cases k with
  | none => rfl
  | some y => exact update_key_of_ne h y d (fun e => hx (by rw [e]))

theorem update_in_of_out (h : Heap α) (k x : KeyId) :
    ((Tangent.update h k .Out).key x).m_in = (h.key x).m_in := by
  by_cases hx : x = k
  · subst hx; simp [Tangent.update]
  · rw [update_key_of_ne h k .Out hx]

theorem update_out_of_in (h : Heap α) (k x : KeyId) :
    ((Tangent.update h k .In).key x).m_out = (h.key x).m_out := by
  by_cases hx : x = k
  · subst hx; simp [Tangent.update]
  · rw [update_key_of_ne h k .In hx]

/-- `Tangent::update` on a key without a parent stores the span `(0, 0)`. -/
theorem update_unparented (h : Heap α) (k : KeyId) (d : Direction)
    (hp : (h.key k).m_parent = none) :
    (((Tangent.update h k d).key k).tangent d).m_dt = 0 ∧
      (((Tangent.update h k d).key k).tangent d).m_dv = 0 ∧
      (((Tangent.update h k d).key k).tangent d).m_slope = ((h.key k).tangent d).m_slope ∧
      (((Tangent.update h k d).key k).tangent d).m_scale = ((h.key k).tangent d).m_scale := by
  cases d <;> simp [Tangent.update, hp, Key.tangent]

theorem update_parent (h : Heap α) (k : KeyId) (d : Direction) (x : KeyId) :
    ((Tangent.update h k d).key x).m_parent = (h.key x).m_parent := by
  by_cases hx : x = k
  · subst hx; cases d <;> simp [Tangent.update]
  · rw [update_key_of_ne h k d hx]

theorem update_active (h : Heap α) (k : KeyId) (d : Direction) (x : KeyId) :
    ((Tangent.update h k d).key x).m_active = (h.key x).m_active := by
  by_cases hx : x = k
  · subst hx; cases d <;> simp [Tangent.update]
  · rw [update_key_of_ne h k d hx]

/-- The Do closure of `addKey` with a clashing key updates the tangents of the
added key only. -/
theorem addKeyDo_clash_eq {this : CurveId} {key ck : KeyId} {time : α} {h h1 : Heap α}
    (hdo : addKeyDo this key (some ck) time h = .ok h1) :
    h1 = Tangent.update (Tangent.update (addKeyDoLink this key (some ck) time h) key .In)
      key .Out := by
  unfold addKeyDo at hdo
  rcases throwIfStateNotAsExpected_eq h key none false time with ⟨e, he, _⟩ | ⟨he1, hs1⟩
  · rw [he] at hdo; cases hdo
  rcases throwIfStateNotAsExpectedIf_eq h (some ck) (some this) true time with
    ⟨e, he, _⟩ | ⟨he2, hs2⟩
  · rw [he1, he] at hdo; cases hdo
  rw [he1, he2] at hdo
  simp only [bind, Except.bind, pure, Except.pure, Except.ok.injEq] at hdo
  exact hdo.symm

theorem addKeyDoLink_clash_key {this : CurveId} {key ck : KeyId} {time : α} (h : Heap α)
    (hne : ck ≠ key) :
    (addKeyDoLink this key (some ck) time h).key ck = { h.key ck with m_active := false } := by
  simp [addKeyDoLink, Heap.setActive, Heap.setParent, hne]

/-- The Do closure of `removeKey` for an inactive key leaves the key without a
parent and with the cached span `(0, 0)` in both tangents. -/
theorem removeKeyDo_inactive_tangents {this : CurveId} {key : KeyId} {time : α} {h h1 : Heap α}
    (hdo : removeKeyDo this key none false time h = .ok h1) :
    (h1.key key).m_parent = none ∧
    (h1.key key).m_in.m_dt = 0 ∧ (h1.key key).m_in.m_dv = 0 ∧
    (h1.key key).m_out.m_dt = 0 ∧ (h1.key key).m_out.m_dv = 0 ∧
    (h1.key key).m_in.m_slope = (h.key key).m_in.m_slope ∧
    (h1.key key).m_in.m_scale = (h.key key).m_in.m_scale ∧
    (h1.key key).m_out.m_slope = (h.key key).m_out.m_slope ∧
    (h1.key key).m_out.m_scale = (h.key key).m_out.m_scale := by
  unfold removeKeyDo at hdo
  rcases throwIfStateNotAsExpected_eq h key (some this) false time with
    ⟨e, he, _⟩ | ⟨he1, hs1⟩
  · rw [he] at hdo; cases hdo
  rw [he1] at hdo
  have hn : Key.nextKey h key = none := by
    unfold Key.nextKey; rw [hs1.1]; simp [hs1.2.1]
  have hpv : Key.prevKey h key = none := by
    unfold Key.prevKey; rw [hs1.1]; simp [hs1.2.1]
  simp only [Key.throwIfStateNotAsExpectedIf, bind, Except.bind, pure, Except.pure, hn, hpv,
    Tangent.updateIf, Except.ok.injEq] at hdo
  subst hdo
  have hp0 : ((removeKeyDoLink this key none false h).key key).m_parent = none := by
    simp [removeKeyDoLink, Key.Dispose]
  have hk0 : ((removeKeyDoLink this key none false h).key key).m_in = (h.key key).m_in ∧
      ((removeKeyDoLink this key none false h).key key).m_out = (h.key key).m_out := by
    simp [removeKeyDoLink, Key.Dispose]
  have hp1 : ((Tangent.update (removeKeyDoLink this key none false h) key .In).key key).m_parent =
      none := by rw [update_parent]; exact hp0
  have a := update_unparented (removeKeyDoLink this key none false h) key .In hp0
  have b := update_unparented (Tangent.update (removeKeyDoLink this key none false h) key .In)
    key .Out hp1
  simp only [Key.tangent] at a b
  refine ⟨by rw [update_parent]; exact hp1, ?_, ?_, b.1, b.2.1, ?_, ?_, ?_, ?_⟩
  · rw [update_in_of_out]; exact a.1
  · rw [update_in_of_out]; exact a.2.1
  · rw [update_in_of_out, a.2.2.1, hk0.1]
  · rw [update_in_of_out, a.2.2.2, hk0.1]
  · rw [b.2.2.1, update_out_of_in, hk0.2]
  · rw [b.2.2.2, update_out_of_in, hk0.2]

/-- The call `addKey( key, removeActiveClashing )` for a key without a parent
that meets the active key `ck`. -/
theorem CurvePlug.addKey_unparented_clash (w : Script α) (c : CurveId) {key ck : KeyId}
    (flag : Bool) (hp : (w.heap.key key).m_parent = none)
    (hg : CurvePlug.getKey w.heap c (w.heap.key key).m_time = some ck) (hne : ck ≠ key) :
    CurvePlug.addKey w c key flag =
      match Action.enact (.addKey c key (some ck) (w.heap.key key).m_time) w with
      | .ok w2 =>
        if flag then
          match CurvePlug.removeKey w2 c ck with
          | .ok w3 => .ok (w3, some ck)
          | .error e => .error e
        else .ok (w2, some ck)
      | .error e => .error e := by
  unfold CurvePlug.addKey
  simp only [hg, Option.some.injEq, hne, if_false, hp, bind, Except.bind, pure, Except.pure]
  cases Action.enact (.addKey c key (some ck) (w.heap.key key).m_time) w with
  | error e => rfl
  | ok w2 =>
    simp only
    cases flag with
    | false => rfl
    | true =>
      simp only [if_true]
      cases CurvePlug.removeKey w2 c ck <;> rfl

/-- C34 fails as stated: in the state with the active keys (0, 0), (1, 10) and
the unparented key 2 at (1, 7), `addKey( key2 )` evicts key 1, which is then
inactive and still caches the span `dt = 1`, `dv = 10` in its in tangent,
whereas `Tangent::update` would store `(0, 0)` for it. -/
theorem C34_counterexample :
    CurvePlug.getKey exSpare.heap 0 (exSpare.heap.key 2).m_time = some 1 ∧
    (exSpareAdded.heap.key 1).m_parent = some 0 ∧
    (exSpareAdded.heap.key 1).m_active = false ∧
    (exSpareAdded.heap.key 1).m_in.m_dt = 1 ∧
    (exSpareAdded.heap.key 1).m_in.m_dv = 10 ∧
    ((Tangent.update exSpareAdded.heap 1 .In).key 1).m_in.m_dt = 0 ∧
    ((Tangent.update exSpareAdded.heap 1 .In).key 1).m_in.m_dv = 0 := by
  decide!

/-- C34 as amended: in a reachable state, when `addKey( k )` of an unparented
key `k` evicts the clashing active key `c`, the Do closure does not touch the
tangents of `c`: after the call `c` is inactive, still parented, and both its
tangents are exactly as before, so they keep the span they cached while `c` was
active.  With `removeActiveClashing` the call goes on to remove `c` from the
curve, and that removal leaves `c` without a parent and with the span `(0, 0)`
in both tangents, slope and scale unchanged. -/
theorem C34_evicted_key_tangents {ν : Numeric α} {w : Script α} (hr : Reachable ν w)
    (c : CurveId) (k ck : KeyId) (hp : (w.heap.key k).m_parent = none)
    (hg : CurvePlug.getKey w.heap c (w.heap.key k).m_time = some ck) :
    (∃ w1, CurvePlug.addKey w c k false = .ok (w1, some ck) ∧
      (w1.heap.key ck).m_parent = some c ∧ (w1.heap.key ck).m_active = false ∧
      (w1.heap.key ck).m_in = (w.heap.key ck).m_in ∧
      (w1.heap.key ck).m_out = (w.heap.key ck).m_out) ∧
    (∃ w1, CurvePlug.addKey w c k true = .ok (w1, some ck) ∧
      (w1.heap.key ck).m_parent = none ∧
      (w1.heap.key ck).m_in.m_dt = 0 ∧ (w1.heap.key ck).m_in.m_dv = 0 ∧
      (w1.heap.key ck).m_out.m_dt = 0 ∧ (w1.heap.key ck).m_out.m_dv = 0 ∧
      (w1.heap.key ck).m_in.m_slope = (w.heap.key ck).m_in.m_slope ∧
      (w1.heap.key ck).m_in.m_scale = (w.heap.key ck).m_in.m_scale ∧
      (w1.heap.key ck).m_out.m_slope = (w.heap.key ck).m_out.m_slope ∧
      (w1.heap.key ck).m_out.m_scale = (w.heap.key ck).m_out.m_scale) := by
  have hl := hr.inv.wf.linked
  obtain ⟨hm, _⟩ := find_some w.heap.time _ _ hg
  obtain ⟨hcp, hca⟩ := (hl.mem_keys c ck).1 hm
  have hne : ck ≠ k := fun e => by rw [e, hp] at hcp; cases hcp
  obtain ⟨w2, hs, hl2, _, _⟩ := CurvePlug.addKey_unparented hl c hp
  rw [hg] at hs
  have hs0 := hs
  rw [CurvePlug.addKey_unparented_clash w c false hp hg hne] at hs0
  cases he : Action.enact (.addKey c k (some ck) (w.heap.key k).m_time) w with
  | error e => rw [he] at hs0; cases hs0
  | ok w2' =>
    rw [he] at hs0
    simp only [Bool.false_eq_true, if_false, Except.ok.injEq, Prod.mk.injEq, and_true] at hs0
    subst hs0
    have hdo := (Action.enact_ok he).1
    simp only [Action.doFn] at hdo
    have hnf := addKeyDo_clash_eq hdo
    have hrec : w2'.heap.key ck = { w.heap.key ck with m_active := false } := by
      rw [hnf, update_key_of_ne _ _ _ hne, update_key_of_ne _ _ _ hne,
        addKeyDoLink_clash_key _ hne]
    have hcp2 : (w2'.heap.key ck).m_parent = some c := by rw [hrec]; exact hcp
    have hca2 : (w2'.heap.key ck).m_active = false := by rw [hrec]
    refine ⟨⟨w2', hs, hcp2, hca2, by rw [hrec], by rw [hrec]⟩, ?_⟩
    obtain ⟨w3, hrm, hdo3⟩ := CurvePlug.removeKey_succeeds hl2 hcp2
    simp only [hca2, Bool.false_eq_true, if_false] at hdo3
    obtain ⟨q0, q1, q2, q3, q4, q5, q6, q7, q8⟩ := removeKeyDo_inactive_tangents hdo3
    refine ⟨w3, ?_, q0, q1, q2, q3, q4, ?_, ?_, ?_, ?_⟩
    · rw [CurvePlug.addKey_unparented_clash w c true hp hg hne, he]
      simp only [if_true, hrm]
    · rw [q5, hrec]
    · rw [q6, hrec]
    · rw [q7, hrec]
    · rw [q8, hrec]

/-- C34 as amended, for the unparented key 2 at (1, 7) added onto key 1 of the
curve with the keys (0, 0) and (1, 10). -/
theorem C34_evicted_key_tangents_witness :
    (exSpare.heap.key 2).m_parent = none ∧
    CurvePlug.getKey exSpare.heap 0 (exSpare.heap.key 2).m_time = some 1 ∧
    (exSpareAdded.heap.key 1).m_in = (exSpare.heap.key 1).m_in ∧
    (exSpareSwapped.heap.key 1).m_in.m_dt = 0 := by
  have hp : (exSpare.heap.key 2).m_parent = none := by decide!
  have hg : CurvePlug.getKey exSpare.heap 0 (exSpare.heap.key 2).m_time = some 1 := by decide!
  obtain ⟨⟨w1, h1, _, _, h2, _⟩, ⟨w2, h3, _, h4, _⟩⟩ :=
    C34_evicted_key_tangents exSpare_reachable 0 2 1 hp hg
  have e1 : exSpareAdded = w1 := by unfold exSpareAdded; rw [h1]; rfl
  have e2 : exSpareSwapped = w2 := by unfold exSpareSwapped; rw [h3]; rfl
  rw [e1, e2]
  exact ⟨hp, hg, h2, h4⟩

/-! ### Previous neighbours in iteration order -/

theorem prevIn_cons (k a : KeyId) (l : List KeyId) :
    prevIn k (a :: l) =
      if a = k then none else if l.head? = some k then some a else prevIn k l := by
  cases l with
  | nil => simp [prevIn]
  | cons b bs => simp [prevIn]

theorem prevIn_of_not_mem {x : KeyId} {l : List KeyId} (h : x ∉ l) : prevIn x l = none := by
  cases hn : prevIn x l with
  | none => rfl
  | some y => exact absurd (prevIn_mem_self hn) h

theorem prevIn_of_head {x : KeyId} {l : List KeyId} (h : l.head? = some x) :
    prevIn x l = none := by
  cases l with
  | nil => rfl
  | cons a as =>
    simp only [List.head?_cons, Option.some.injEq] at h
    rw [prevIn_cons, if_pos h]

theorem nextIn_of_prevIn {p k : KeyId} {l : List KeyId} (hnd : l.Nodup)
    (h : prevIn k l = some p) : nextIn p l = some k := by
  induction l with
  | nil => simp [prevIn] at h
  | cons a as ih =>
    rw [List.nodup_cons] at hnd
    rw [prevIn_cons] at h
    split_ifs at h with h1 h2
    · simp only [Option.some.injEq] at h
      subst h
      simp only [nextIn, if_true]
      exact h2
    · have hp : p ∈ as := prevIn_mem h
      have hap : a ≠ p := fun e => hnd.1 (e ▸ hp)
      simp only [nextIn, hap, if_false]
      exact ih hnd.2 h

theorem prevIn_erase {x k : KeyId} {l : List KeyId} (hnd : l.Nodup) (hx : x ≠ k)
    (hp : prevIn x l ≠ some k) : prevIn x (l.erase k) = prevIn x l := by
  induction l with
  | nil => rfl
  | cons a as ih =>
    rw [List.nodup_cons] at hnd
    by_cases hak : a = k
    · subst hak
      rw [List.erase_cons_head]
      rw [prevIn_cons, if_neg (Ne.symm hx)] at hp ⊢
      split_ifs at hp ⊢ with h1
      · exact absurd rfl hp
      · rfl
    · rw [List.erase_cons_tail (by simpa using hak)]
      rw [prevIn_cons] at hp
      rw [prevIn_cons, prevIn_cons]
      by_cases hax : a = x
      · rw [if_pos hax, if_pos hax]
      · rw [if_neg hax] at hp
        rw [if_neg hax, if_neg hax]
        by_cases hh : as.head? = some k
        · -- the erased key heads the tail
          cases as with
          | nil => simp at hh
          | cons b bs =>
            simp only [List.head?_cons, Option.some.injEq] at hh
            subst hh
            rw [List.erase_cons_head]
            have hbx : ¬ (b :: bs).head? = some x := by
              simp only [List.head?_cons, Option.some.injEq]; exact Ne.symm hx
            rw [if_neg hbx] at hp ⊢
            rw [prevIn_cons, if_neg (Ne.symm hx)] at hp ⊢
            by_cases h2 : bs.head? = some x
            · rw [if_pos h2] at hp
              exact absurd rfl hp
            · rw [if_neg h2, if_neg h2]
        · rw [head?_erase_of_ne hh]
          split_ifs at hp ⊢ with h2
          · rfl
          · exact ih hnd.2 hp

theorem prevIn_replace_node {x old new : KeyId} {l : List KeyId} (hnd : l.Nodup)
    (hxo : x ≠ old) (hxn : x ≠ new) :
    prevIn x (replace_node old new l) =
      (prevIn x l).map (fun y => if y = old then new else y) := by
  induction l with
  | nil => rfl
  | cons a as ih =>
    rw [List.nodup_cons] at hnd
    by_cases hao : a = old
    · subst hao
      simp only [replace_node, if_true]
      rw [prevIn_cons, prevIn_cons, if_neg (Ne.symm hxn), if_neg (Ne.symm hxo)]
      split_ifs with h1
      · simp
      · cases hn : prevIn x as with
        | none => rfl
        | some y =>
          have : y ≠ a := fun e => hnd.1 (e ▸ prevIn_mem hn)
          simp [this]
    · simp only [replace_node, hao, if_false]
      rw [prevIn_cons, prevIn_cons]
      by_cases hax : a = x
      · rw [if_pos hax, if_pos hax]; rfl
      · rw [if_neg hax, if_neg hax]
        have hh : (replace_node old new as).head? = some x ↔ as.head? = some x := by
          rw [head?_replace_node]
          cases as with
          | nil => simp
          | cons b bs =>
            simp only [List.head?_cons, Option.map_some', Option.some.injEq]
            split_ifs with h2
            · constructor
              · intro e; exact absurd e.symm hxn
              · intro e; exact absurd (h2 ▸ e.symm) hxo
            · rfl
        by_cases h3 : as.head? = some x
        · rw [if_pos (hh.2 h3), if_pos h3]
          simp [hao]
        · rw [if_neg (fun e => h3 (hh.1 e)), if_neg h3]
          exact ih hnd.2

theorem prevIn_insert_unique (tk : KeyId → α) {x k : KeyId} (l : List KeyId) (hx : x ≠ k) :
    prevIn x (insert_unique tk k l) = some k ∨
      prevIn x (insert_unique tk k l) = prevIn x l := by
  induction l with
  | nil => right; simp [insert_unique, prevIn]
  | cons a as ih =>
    unfold insert_unique
    split_ifs with h1 h2
    · rw [prevIn_cons, prevIn_cons]
      by_cases hax : a = x
      · right; rw [if_pos hax, if_pos hax]
      · rw [if_neg hax, if_neg hax]
        cases as with
        | nil =>
          right
          simp [insert_unique, Ne.symm hx, prevIn]
        | cons b bs =>
          by_cases hb1 : tk b < tk k
          · have e : insert_unique tk k (b :: bs) = b :: insert_unique tk k bs := by
              simp [insert_unique, hb1]
            have hh : (insert_unique tk k (b :: bs)).head? = (b :: bs).head? := by rw [e]; rfl
            rw [hh]
            split_ifs with h3
            · right; rfl
            · exact ih
          · by_cases hb2 : tk k < tk b
            · have e : insert_unique tk k (b :: bs) = k :: b :: bs := by
                simp [insert_unique, hb1, hb2]
              rw [e]
              have hk : ¬ (k :: b :: bs).head? = some x := by
                simp only [List.head?_cons, Option.some.injEq]; exact Ne.symm hx
              rw [if_neg hk, prevIn_cons, if_neg (Ne.symm hx)]
              by_cases hbx : b = x
              · left
                rw [if_pos (by simp [hbx])]
              · right
                have h4 : ¬ (b :: bs).head? = some x := by
                  simp only [List.head?_cons, Option.some.injEq]; exact hbx
                rw [if_neg h4, if_neg h4]
            · have e : insert_unique tk k (b :: bs) = b :: bs := by
                simp [insert_unique, hb1, hb2]
              rw [e]
              right; rfl
    · rw [prevIn_cons, if_neg (Ne.symm hx)]
      by_cases hax : a = x
      · left
        rw [if_pos (by simp [hax])]
      · right
        have h4 : ¬ (a :: as).head? = some x := by
          simp only [List.head?_cons, Option.some.injEq]; exact hax
        rw [if_neg h4]
    · right; rfl

theorem Key.nextKey_eq {h : Heap α} {key : KeyId} {c : CurveId}
    (hp : (h.key key).m_parent = some c) (ha : (h.key key).m_active = true) :
    Key.nextKey h key = nextIn key (h.curve c).m_keys := by
  unfold Key.nextKey
  simp only [hp, ha, if_true]

theorem Linked.nextKey_of_nextIn {h : Heap α} (hl : Linked h) {c : CurveId} {key x : KeyId}
    (hx : nextIn key (h.curve c).m_keys = some x) : Key.nextKey h key = some x := by
  obtain ⟨hp, ha⟩ := (hl.mem_keys c key).1 (nextIn_mem_self hx)
  rw [Key.nextKey_eq hp ha, hx]

/-! ### Cached span widths of the in tangents -/

theorem spanInDt_of_core_eq {a b : Heap α} (hc : a.core = b.core) (k : KeyId) :
    spanInDt a k = spanInDt b k := by
  unfold spanInDt
  rw [core_eq_parent hc, Key.prevKey_of_core_eq hc]
  have ht := core_eq_time hc
  have h1 : ∀ x, (a.key x).m_time = (b.key x).m_time := fun x => congrFun ht x
  simp only [h1]

theorem expectedInDt_of_core_eq {a b : Heap α} (hc : a.core = b.core) (c : CurveId)
    (k : KeyId) : expectedInDt a c k = expectedInDt b c k := by
  unfold expectedInDt
  rw [core_eq_curve hc, core_eq_time hc]

theorem update_in_dt_self (h : Heap α) (k : KeyId) :
    ((Tangent.update h k .In).key k).m_in.m_dt = spanInDt h k := by
  unfold Tangent.update spanInDt
  simp only [Heap.setKey_key, if_true]
  cases (h.key k).m_parent with
  | none => rfl
  | some c =>
    cases Key.prevKey h k <;> rfl

theorem update_in_dt_of_ne (h : Heap α) (k x : KeyId) (d : Direction)
    (hx : x ≠ k ∨ d ≠ .In) :
    ((Tangent.update h k d).key x).m_in.m_dt = (h.key x).m_in.m_dt := by
  by_cases hxk : x = k
  · subst hxk
    cases d with
    | Out => simp [Tangent.update]
    | In => rcases hx with h1 | h1 <;> exact absurd rfl h1
  · cases d <;> simp [Tangent.update, hxk]

theorem InOK.update_in {h : Heap α} {x : KeyId} (k : KeyId) (d : Direction)
    (hx : InOK h x ∨ (x = k ∧ d = .In)) : InOK (Tangent.update h k d) x := by
  unfold InOK
  rw [spanInDt_of_core_eq (update_core h k d)]
  by_cases hc : x = k ∧ d = .In
  · obtain ⟨h1, h2⟩ := hc
    subst h1 h2
    exact update_in_dt_self h x
  · have hne : x ≠ k ∨ d ≠ .In := by
      by_cases h1 : x = k
      · exact Or.inr (fun h2 => hc ⟨h1, h2⟩)
      · exact Or.inl h1
    rw [update_in_dt_of_ne h k x d hne]
    rcases hx with h1 | h1
    · exact h1
    · exact absurd h1 hc

theorem UpdIn.core_eq_in {s : KeyId → Prop} {a b : Heap α} (hu : UpdIn s a b) :
    b.core = a.core := by
  induction hu with
  | refl h => rfl
  | update k d _ ih => rw [update_core]; exact ih
  | weaken _ _ ih => exact ih

theorem UpdIn.inOK {s : KeyId → Prop} {a b : Heap α} (hu : UpdIn s a b) :
    ∀ x, InOK a x ∨ s x → InOK b x := by
  induction hu with
  | refl h =>
    intro x hx
    rcases hx with h1 | h1
    · exact h1
    · exact absurd h1 id
  | update k d _ ih =>
    intro x hx
    apply InOK.update_in
    rcases hx with h1 | h1 | h1
    · exact Or.inl (ih x (Or.inl h1))
    · exact Or.inl (ih x (Or.inr h1))
    · exact Or.inr h1
  | weaken _ hst ih =>
    intro x hx
    rcases hx with h1 | h1
    · exact ih x (Or.inl h1)
    · exact ih x (Or.inr (hst x h1))

theorem UpdIn.updateIf_in {s : KeyId → Prop} {a b : Heap α} (hu : UpdIn s a b)
    (k : Option KeyId) (d : Direction) :
    UpdIn (fun x => s x ∨ (k = some x ∧ d = .In)) a (Tangent.updateIf b k d) := by
  cases k with
  | none => exact hu.weaken (fun x hx => by simpa using hx)
  | some y =>
    refine (hu.update y d).weaken (fun x hx => ?_)
    rcases hx with h1 | ⟨h1, h2⟩
    · exact Or.inl h1
    · exact Or.inr ⟨by cases h1; rfl, h2⟩

theorem UpdIn.guarded_in {s : KeyId → Prop} {a b : Heap α} (hu : UpdIn s a b) (p : Prop)
    [Decidable p] (k : Option KeyId) (d : Direction) :
    UpdIn (fun x => s x ∨ (p ∧ k = some x ∧ d = .In)) a
      (if p then Tangent.updateIf b k d else b) := by
  by_cases hp : p
  · rw [if_pos hp]
    exact (hu.updateIf_in k d).weaken (fun x hx => by
      rcases hx with h1 | h1
      · exact Or.inl h1
      · exact Or.inr h1.2)
  · rw [if_neg hp]
    exact hu.weaken (fun x hx => by
      rcases hx with h1 | h1
      · exact h1
      · exact absurd h1.1 hp)

theorem UpdIn.ifActive_in {a : Heap α} (active : Bool) (key : KeyId) :
    UpdIn (fun x => active = true ∧ x = key) a
      (if active then Tangent.update (Tangent.update a key .In) key .Out else a) := by
  cases active with
  | false => exact (UpdIn.refl a).weaken (fun x hx => by simp at hx)
  | true =>
    exact (((UpdIn.refl a).update key .In).update key .Out).weaken (fun x hx => by
      left; right; exact ⟨hx.2, rfl⟩)

/-- For an active key of a linked heap, what `Tangent::update` stores in the in
tangent is the expected span width. -/
theorem Linked.spanInDt_eq {h : Heap α} (hl : Linked h) {c : CurveId} {k : KeyId}
    (hk : k ∈ (h.curve c).m_keys) : spanInDt h k = expectedInDt h c k := by
  obtain ⟨hp, ha⟩ := (hl.mem_keys c k).1 hk
  unfold spanInDt expectedInDt Key.prevKey
  simp only [hp, ha, if_true]
  rfl

theorem InStable.andThen_in {a b c : Heap α} {s t : KeyId → Prop} (h1 : InStable a b s)
    (h2 : InStable b c t) : InStable a c (fun x => s x ∨ t x) := by
  intro cv x hx hs
  obtain ⟨q1, q2, q3⟩ := h2 cv x hx (fun h => hs (Or.inr h))
  obtain ⟨r1, r2, r3⟩ := h1 cv x q1 (fun h => hs (Or.inl h))
  exact ⟨r1, q2.trans r2, q3.trans r3⟩

theorem InStable.weaken_in {a b : Heap α} {s t : KeyId → Prop} (h1 : InStable a b s)
    (hst : ∀ x, s x → t x) : InStable a b t :=
  fun c x hx ht => h1 c x hx (fun h => ht (hst x h))

/-- The cached in spans are right after the update phase of a closure when every
key whose in span changed in the structural phase is updated. -/
theorem spanIn_of_stable {h x1 h1 : Heap α} {s t : KeyId → Prop} (hs : SpanIn h)
    (hst : InStable h x1 s) (hl : Linked x1) (hu : UpdIn t x1 h1)
    (hcover : ∀ c x, x ∈ (x1.curve c).m_keys → s x → t x) : SpanIn h1 := by
  intro c x hx
  have hc := hu.core_eq_in
  have hx1 : x ∈ (x1.curve c).m_keys := by rw [← core_eq_curve hc]; exact hx
  have hl1 : Linked h1 := Linked.of_core_eq hc.symm hl
  rw [← hl1.spanInDt_eq hx]
  apply hu.inOK
  by_cases hsx : s x
  · exact Or.inr (hcover c x hx1 hsx)
  · left
    obtain ⟨q1, q2, q3⟩ := hst c x hx1 hsx
    unfold InOK
    rw [hl.spanInDt_eq hx1, q2, q3]
    exact hs c x q1

/-! ### In spans through unlink, field assignment and link -/

theorem expectedInDt_eq_of {a b : Heap α} {c : CurveId} {x : KeyId}
    (hx : b.time x = a.time x)
    (hn : ∀ y, prevIn x (a.curve c).m_keys = some y →
      ∃ z, prevIn x (b.curve c).m_keys = some z ∧ b.time z = a.time y)
    (hnone : prevIn x (a.curve c).m_keys = none → prevIn x (b.curve c).m_keys = none) :
    expectedInDt b c x = expectedInDt a c x := by
  unfold expectedInDt
  cases ha : prevIn x (a.curve c).m_keys with
  | none => rw [hnone ha]
  | some y =>
    obtain ⟨z, hz, ht⟩ := hn y ha
    rw [hz]
    simp only [ht, hx]

theorem expectedInDt_eq_of_same {a b : Heap α} {c : CurveId} {x : KeyId}
    (hl : (b.curve c).m_keys = (a.curve c).m_keys)
    (ht : ∀ y ∈ (a.curve c).m_keys, b.time y = a.time y) (hx : x ∈ (a.curve c).m_keys) :
    expectedInDt b c x = expectedInDt a c x := by
  apply expectedInDt_eq_of (ht x hx)
  · intro y hy
    exact ⟨y, by rw [hl]; exact hy, ht y (prevIn_mem hy)⟩
  · intro hn; rw [hl]; exact hn

/-- The unlink step changes the in span of the moved key, of the promoted key
and, when the slot is vacated, of the next key only. -/
theorem Linked.unlink_inStable {h : Heap α} (hl : Linked h) {c : CurveId} {a : Bool}
    {key : KeyId} {u : Option KeyId} (hp : (h.key key).m_parent = some c)
    (ha : (h.key key).m_active = a)
    (hu : a = true → Key.StateIsIf h u (some c) false (h.time key)) :
    InStable h (unlink c a key u h) (fun x => x = key ∨ (a = true ∧ (u = some x ∨
      (u = none ∧ nextIn key (h.curve c).m_keys = some x)))) := by
  intro cv x hx hns
  have hxk : x ≠ key := fun e => hns (Or.inl e)
  have hxu : a = true → u ≠ some x := fun ha e => hns (Or.inr ⟨ha, Or.inl e⟩)
  have hrec : (unlink c a key u h).key x = h.key x := by
    cases a with
    | false => rfl
    | true => exact unlink_key_of_ne c true key u h x (hxu rfl)
  simp only [unlink_keys] at hx
  by_cases hcv : cv = c
  · subst hcv
    simp only [if_true] at hx
    cases a with
    | false =>
      refine ⟨hx, ?_, by rw [hrec]⟩
      exact expectedInDt_eq_of_same (by simp [unlinkKeys]) (fun y _ => by simp) hx
    | true =>
      cases u with
      | none =>
        simp only [unlinkKeys, if_true] at hx
        have hx1 : x ∈ (h.curve cv).m_keys := List.mem_of_mem_erase hx
        refine ⟨hx1, ?_, by rw [hrec]⟩
        have hnp : prevIn x (h.curve cv).m_keys ≠ some key := by
          intro e
          exact hns (Or.inr ⟨rfl, Or.inr ⟨rfl, nextIn_of_prevIn (hl.nodup cv) e⟩⟩)
        have hne := prevIn_erase (hl.nodup cv) hxk hnp
        apply expectedInDt_eq_of (by simp)
        · intro y hy
          exact ⟨y, by simp only [unlink_keys, if_true, unlinkKeys]; rw [hne]; exact hy,
            by simp⟩
        · intro hn
          simp only [unlink_keys, if_true, unlinkKeys]; rw [hne]; exact hn
      | some ci =>
        simp only [unlinkKeys, if_true] at hx
        have hxci : x ≠ ci := fun e => hxu rfl (by rw [e])
        have hx1 : x ∈ (h.curve cv).m_keys := by
          rcases mem_replace_node_imp hx with e | e
          · exact absurd e hxci
          · exact e
        refine ⟨hx1, ?_, by rw [hrec]⟩
        have hnr := @prevIn_replace_node x key ci _ (hl.nodup cv) hxk hxci
        have hti := (hu rfl ci rfl).2.2
        apply expectedInDt_eq_of (by simp)
        · intro y hy
          refine ⟨if y = key then ci else y, ?_, ?_⟩
          · simp only [unlink_keys, if_true, unlinkKeys]; rw [hnr, hy]; rfl
          · simp only [unlink_time]
            split_ifs with hyk
            · rw [hyk]; exact hti
            · rfl
        · intro hn
          simp only [unlink_keys, if_true, unlinkKeys]; rw [hnr, hn]; rfl
  · simp only [hcv, if_false] at hx
    refine ⟨hx, ?_, by rw [hrec]⟩
    exact expectedInDt_eq_of_same (by simp [hcv]) (fun y _ => by simp) hx

/-- An assignment to the fields of a key that is in no container changes no
other in span. -/
theorem LinkedExcept.setKey_inStable {h : Heap α} {key : KeyId} (hl : LinkedExcept h key)
    (v : Key α) : InStable h (h.setKey key v) (fun x => x = key) := by
  intro cv x hx hns
  simp only [Heap.setKey_curve] at hx
  refine ⟨hx, ?_, by simp [show x ≠ key from hns]⟩
  refine expectedInDt_eq_of_same rfl (fun y hy => ?_) hx
  have : y ≠ key := fun e => hl.not_mem_keys cv (e ▸ hy)
  simp [Heap.time_setKey, this]

/-- An assignment that keeps the time and the cached in span of a key changes
no in span. -/
theorem setKey_inStable_of_time_in (h : Heap α) (key : KeyId) (v : Key α)
    (hv : v.m_time = h.time key) (ho : v.m_in.m_dt = (h.key key).m_in.m_dt) :
    InStable h (h.setKey key v) (fun _ => False) := by
  intro cv x hx _
  simp only [Heap.setKey_curve] at hx
  refine ⟨hx, ?_, ?_⟩
  · exact expectedInDt_eq_of_same rfl
      (fun y _ => by rw [Heap.time_setKey_same h key v hv]) hx
  · by_cases hxk : x = key
    · subst hxk; simpa using ho
    · simp [hxk]

/-- An assignment to the fields of a key other than its time changes no other
in span. -/
theorem setKey_inStable_of_time (h : Heap α) (key : KeyId) (v : Key α)
    (hv : v.m_time = h.time key) : InStable h (h.setKey key v) (fun x => x = key) := by
  intro cv x hx hns
  simp only [Heap.setKey_curve] at hx
  refine ⟨hx, ?_, by simp [show x ≠ key from hns]⟩
  exact expectedInDt_eq_of_same rfl (fun y _ => by rw [Heap.time_setKey_same h key v hv]) hx

/-- The link step changes the in span of the moved key, of the demoted key and,
when the key takes a free slot, of its new next key only. -/
theorem LinkedExcept.link_inStable {h : Heap α} {key : KeyId} (hl : LinkedExcept h key)
    (c : CurveId) (b : Bool) (u : Option KeyId)
    (hu : b = true → Key.StateIsIf h u (some c) true (h.time key))
    (hnd : ((Animation.link c b key u h).curve c).m_keys.Nodup) :
    InStable h (Animation.link c b key u h) (fun x => x = key ∨ (b = true ∧ (u = some x ∨
      (u = none ∧ nextIn key ((Animation.link c b key u h).curve c).m_keys = some x)))) := by
  intro cv x hx hns
  have hxk : x ≠ key := fun e => hns (Or.inl e)
  have hxu : b = true → u ≠ some x := fun hb e => hns (Or.inr ⟨hb, Or.inl e⟩)
  have hrec : (Animation.link c b key u h).key x = h.key x := by
    cases b with
    | false => rfl
    | true => exact link_key_of_ne c true key u h x (hxu rfl)
  by_cases hcv : cv = c
  · subst hcv
    cases b with
    | false =>
      simp only [link_keys, if_true, linkKeys, Bool.false_eq_true, if_false] at hx
      refine ⟨hx, ?_, by rw [hrec]⟩
      exact expectedInDt_eq_of_same (by simp [linkKeys]) (fun y _ => by simp) hx
    | true =>
      cases u with
      | none =>
        simp only [link_keys, if_true, linkKeys] at hx hnd hns
        have hx1 : x ∈ (h.curve cv).m_keys := by
          rcases mem_insert_unique_imp h.time hx with e | e
          · exact absurd e hxk
          · exact e
        refine ⟨hx1, ?_, by rw [hrec]⟩
        have hni : prevIn x (insert_unique h.time key (h.curve cv).m_keys) =
            prevIn x (h.curve cv).m_keys := by
          rcases prevIn_insert_unique h.time (k := key) (h.curve cv).m_keys hxk with e | e
          · exact absurd (Or.inr ⟨trivial, Or.inr ⟨trivial, nextIn_of_prevIn hnd e⟩⟩) hns
          · exact e
        apply expectedInDt_eq_of (by simp)
        · intro y hy
          exact ⟨y, by simp only [link_keys, if_true, linkKeys]; rw [hni]; exact hy, by simp⟩
        · intro hn
          simp only [link_keys, if_true, linkKeys]; rw [hni]; exact hn
      | some ck =>
        simp only [link_keys, if_true, linkKeys] at hx
        have hxck : x ≠ ck := fun e => hxu rfl (by rw [e])
        have hx1 : x ∈ (h.curve cv).m_keys := by
          rcases mem_replace_node_imp hx with e | e
          · exact absurd e hxk
          · exact e
        refine ⟨hx1, ?_, by rw [hrec]⟩
        have hnr := @prevIn_replace_node x ck key _ (hl.nodupKeys cv) hxck hxk
        have htc := (hu rfl ck rfl).2.2
        apply expectedInDt_eq_of (by simp)
        · intro y hy
          refine ⟨if y = ck then key else y, ?_, ?_⟩
          · simp only [link_keys, if_true, linkKeys]; rw [hnr, hy]; rfl
          · simp only [link_time]
            split_ifs with hyk
            · rw [hyk]; exact htc.symm
            · rfl
        · intro hn
          simp only [link_keys, if_true, linkKeys]; rw [hnr, hn]; rfl
  · simp only [link_keys, hcv, if_false] at hx
    refine ⟨hx, ?_, by rw [hrec]⟩
    exact expectedInDt_eq_of_same (by simp [hcv]) (fun y _ => by simp) hx

/-- The structural phase of a closure that moves a key changes the in span of
the moved key, of the key promoted into its old slot or else its old next key,
and of the key demoted from its new slot or else its new next key. -/
theorem retime_inStable {h : Heap α} (hl : Linked h) {c : CurveId} {t p : α} {a b : Bool}
    {key : KeyId} {ut ul : Option KeyId}
    (hkey : Key.StateIs h key (some c) a p)
    (hul : a = true → Key.StateIsIf h ul (some c) false p)
    (hut : b = true → Key.StateIsIf h ut (some c) true t)
    (hne : t ≠ p)
    (hfree : b = true → ut = none →
      ∀ y ∈ ((unlink c a key ul h).curve c).m_keys, h.time y ≠ t) :
    InStable h (Animation.link c b key ut (((unlink c a key ul h).setTime key t).setActive key b))
      (fun x => x = key ∨
        (a = true ∧ (ul = some x ∨ (ul = none ∧ nextIn key (h.curve c).m_keys = some x))) ∨
        (b = true ∧ (ut = some x ∨ (ut = none ∧ nextIn key ((Animation.link c b key ut
          (((unlink c a key ul h).setTime key t).setActive key b)).curve c).m_keys = some x)))) := by
  obtain ⟨hX0, hX1, hut1, _, _, hL⟩ := retime_mid hl hkey hul hut hne hfree
  obtain ⟨hp, ha, ht⟩ := hkey
  have O1 := hl.unlink_inStable (u := ul) hp ha (fun e => by rw [Heap.time, ht]; exact hul e)
  have O2 : InStable (unlink c a key ul h) (((unlink c a key ul h).setTime key t).setActive key b)
      (fun x => x = key) := by
    rw [Heap.setTime_setActive_eq]; exact hX0.setKey_inStable _
  have O3 := hX1.link_inStable c b ut hut1 (hL.nodup c)
  refine ((O1.andThen_in O2).andThen_in O3).weaken_in (fun x hx => ?_)
  rcases hx with ((h1 | h1) | h1) | (h1 | h1)
  · exact Or.inl h1
  · exact Or.inr (Or.inl h1)
  · exact Or.inl h1
  · exact Or.inl h1
  · exact Or.inr (Or.inr h1)

/-! ### In spans through the closures -/

theorem setTimeDo_updIn {curve : CurveId} {time previousTime : α} {active : Bool} {key : KeyId}
    {ck ci : Option KeyId} {h h1 : Heap α}
    (hdo : setTimeDo curve time previousTime active key ck ci h = .ok h1) :
    ∃ t, UpdIn t (setTimeDoLink curve time active key ck ci h) h1 ∧
      ∀ x, (x = key ∨ ci = some x ∨ (ci = none ∧ Key.nextKey h key = some x) ∨
        (ck = none ∧
          Key.nextKey (setTimeDoLink curve time active key ck ci h) key = some x)) → t x := by
  unfold setTimeDo at hdo
  rcases throwIfStateNotAsExpected_eq h key (some curve) active previousTime with
    ⟨e, he, _⟩ | ⟨he1, hs1⟩
  · rw [he] at hdo; cases hdo
  rcases throwIfStateNotAsExpectedIf_eq h ci (some curve) false previousTime with
    ⟨e, he, _⟩ | ⟨he2, hs2⟩
  · rw [he1, he] at hdo; cases hdo
  rcases throwIfStateNotAsExpectedIf_eq h ck (some curve) true time with
    ⟨e, he, _⟩ | ⟨he3, hs3⟩
  · rw [he1, he2, he] at hdo; cases hdo
  rw [he1, he2, he3] at hdo
  simp only [bind, Except.bind, pure, Except.pure] at hdo
  have U5 := ((UpdIn.refl (setTimeDoLink curve time active key ck ci h)).update key .Out).update
    key .In
  cases ci with
  | some i =>
    have U6 := (U5.update i .In).update i .Out
    cases ck with
    | some k =>
      simp only [Except.ok.injEq] at hdo
      subst hdo
      refine ⟨_, U6, fun x hx => ?_⟩
      rcases hx with h1 | h1 | h1 | h1
      · left; left; right; exact ⟨h1, rfl⟩
      · left; right; exact ⟨by cases h1; rfl, rfl⟩
      · exact absurd h1.1 (by simp)
      · exact absurd h1.1 (by simp)
    | none =>
      simp only [Except.ok.injEq, Option.isSome_some, or_true, if_true] at hdo
      subst hdo
      have U7 := U6.updateIf_in (Key.nextKey (Tangent.update (Tangent.update (Tangent.update
        (Tangent.update (setTimeDoLink curve time active key none (some i) h) key .Out) key .In)
          i .In) i .Out) key) .In
      refine ⟨_, U7.updateIf_in _ .Out, fun x hx => ?_⟩
      rcases hx with h1 | h1 | h1 | h1
      · left; left; left; left; right; exact ⟨h1, rfl⟩
      · left; left; left; right; exact ⟨by cases h1; rfl, rfl⟩
      · exact absurd h1.1 (by simp)
      · left; right
        rw [Key.nextKey_of_core_eq U6.core_eq_in]
        exact ⟨h1.2, rfl⟩
  | none =>
    have U6 := (U5.updateIf_in (Key.nextKey h key) .In).updateIf_in (Key.prevKey h key) .Out
    cases ck with
    | some k =>
      simp only [Except.ok.injEq] at hdo
      subst hdo
      refine ⟨_, U6, fun x hx => ?_⟩
      rcases hx with h1 | h1 | h1 | h1
      · left; left; right; exact ⟨h1, rfl⟩
      · cases h1
      · left; right; exact ⟨h1.2, rfl⟩
      · exact absurd h1.1 (by simp)
    | none =>
      simp only [Except.ok.injEq] at hdo
      subst hdo
      refine ⟨_, (U6.guarded_in _ _ _).guarded_in _ _ _, fun x hx => ?_⟩
      have e6 := Key.nextKey_of_core_eq U6.core_eq_in key
      simp only [e6]
      rcases hx with h1 | h1 | h1 | h1
      · left; left; left; left; right; exact ⟨h1, trivial⟩
      · cases h1
      · left; left; left; right; exact ⟨h1.2, trivial⟩
      · by_cases hq : Key.nextKey (setTimeDoLink curve time active key none none h) key =
            Key.nextKey h key
        · left; left; left; right; exact ⟨by rw [← hq]; exact h1.2, trivial⟩
        · left; right; exact ⟨Or.inl hq, h1.2, trivial⟩

/-- The Do closure of `setTime` keeps the cached in spans right. -/
theorem setTimeDo_spanIn {h h1 : Heap α} (hs : SpanIn h) (hl : Linked h) {c : CurveId}
    {time previousTime : α} {active : Bool} {key : KeyId} {ck ci : Option KeyId}
    (hne : time ≠ previousTime)
    (hfree : ck = none → ∀ y ∈ (h.curve c).m_keys, h.time y ≠ time)
    (hdo : setTimeDo c time previousTime active key ck ci h = .ok h1) : SpanIn h1 := by
  obtain ⟨S1, S2, S3, hc1⟩ := setTimeDo_ok hdo
  obtain ⟨t, hu, hcov⟩ := setTimeDo_updIn hdo
  rw [setTimeDoLink_eq] at hu hcov
  have hfree1 : true = true → ck = none →
      ∀ y ∈ ((unlink c active key ci h).curve c).m_keys, h.time y ≠ time := by
    intro _ hck y hy
    simp only [unlink_keys, if_true] at hy
    rcases mem_unlinkKeys hy with hy | hy
    · exact hfree hck y hy
    · have := (S2 y hy).2.2
      rw [Heap.time, this]; exact hne.symm
  have mid := retime_mid hl S1 (fun _ => S2) (fun _ => S3) hne hfree1
  have hL := mid.2.2.2.2.2
  have O := retime_inStable hl S1 (fun _ => S2) (fun _ => S3) hne hfree1
  refine spanIn_of_stable hs O hL hu (fun cv x hx hsx => hcov x ?_)
  rcases hsx with h1 | ⟨ha, h1 | ⟨h1, h2⟩⟩ | ⟨_, h1 | ⟨h1, h2⟩⟩
  · exact Or.inl h1
  · exact Or.inr (Or.inl h1)
  · right; right; left
    subst ha
    exact ⟨h1, by rw [Key.nextKey_eq S1.1 S1.2.1]; exact h2⟩
  · exfalso
    have hact := ((hL.mem_keys cv x).1 hx).2
    rw [link_active] at hact
    simp [h1] at hact
  · right; right; right
    exact ⟨h1, hL.nextKey_of_nextIn h2⟩

theorem addKeyDo_updIn {this : CurveId} {key : KeyId} {ck : Option KeyId} {time : α}
    {h h1 : Heap α} (hdo : addKeyDo this key ck time h = .ok h1) :
    ∃ t, UpdIn t (addKeyDoLink this key ck time h) h1 ∧
      ∀ x, (x = key ∨
        (ck = none ∧ Key.nextKey (addKeyDoLink this key ck time h) key = some x)) → t x := by
  unfold addKeyDo at hdo
  rcases throwIfStateNotAsExpected_eq h key none false time with ⟨e, he, _⟩ | ⟨he1, hs1⟩
  · rw [he] at hdo; cases hdo
  rcases throwIfStateNotAsExpectedIf_eq h ck (some this) true time with
    ⟨e, he, _⟩ | ⟨he2, hs2⟩
  · rw [he1, he] at hdo; cases hdo
  rw [he1, he2] at hdo
  simp only [bind, Except.bind, pure, Except.pure] at hdo
  have U3 := ((UpdIn.refl (addKeyDoLink this key ck time h)).update key .In).update key .Out
  cases ck with
  | some k =>
    simp only [Except.ok.injEq] at hdo
    subst hdo
    refine ⟨_, U3, fun x hx => ?_⟩
    rcases hx with h1 | h1
    · left; right; exact ⟨h1, rfl⟩
    · exact absurd h1.1 (by simp)
  | none =>
    simp only [Except.ok.injEq] at hdo
    subst hdo
    have U4 := U3.updateIf_in (Key.nextKey (Tangent.update (Tangent.update
      (addKeyDoLink this key none time h) key .In) key .Out) key) .In
    refine ⟨_, U4.updateIf_in _ .Out, fun x hx => ?_⟩
    rcases hx with h1 | h1
    · left; left; left; right; exact ⟨h1, rfl⟩
    · left; right
      rw [Key.nextKey_of_core_eq U3.core_eq_in]
      exact ⟨h1.2, rfl⟩

/-- The Do closure of `addKey` keeps the cached in spans right. -/
theorem addKeyDo_spanIn {h h1 : Heap α} (hs : SpanIn h) (hl : Linked h) {this : CurveId}
    {key : KeyId} {ck : Option KeyId} {time : α}
    (hfree : ck = none → ∀ y ∈ (h.curve this).m_keys, h.time y ≠ time)
    (hdo : addKeyDo this key ck time h = .ok h1) : SpanIn h1 := by
  obtain ⟨S1, S2, hc1⟩ := addKeyDo_ok hdo
  obtain ⟨t, hu, hcov⟩ := addKeyDo_updIn hdo
  obtain ⟨p1, p2, p3⟩ := S1
  have ht : time = h.time key := p3.symm
  subst ht
  rw [addKeyDoLink_eq, Heap.setParent_setActive_eq] at hc1 hu hcov
  have hne : ck ≠ some key := by
    intro e
    have := (S2 key e).1
    rw [p1] at this; cases this
  have hL := (hl.except p1).link_linked this true ck
    { (Animation.link this true key ck h).key key with m_parent := some this, m_active := true }
    (by simp [Heap.time]) rfl rfl (fun _ => S2) (fun _ => hne) (fun _ => hfree)
  have O1 := (hl.except p1).link_inStable this true ck (fun _ => S2) (by
    have := hL.nodup this
    simpa only [Heap.setKey_curve] using this)
  have O2 := setKey_inStable_of_time (Animation.link this true key ck h) key
    { (Animation.link this true key ck h).key key with m_parent := some this, m_active := true }
    (by simp [Heap.time])
  refine spanIn_of_stable hs (O1.andThen_in O2) hL hu (fun cv x hx hsx => hcov x ?_)
  rcases hsx with (h1 | ⟨_, h1 | ⟨h1, h2⟩⟩) | h1
  · exact Or.inl h1
  · exfalso
    have hxk : x ≠ key := fun e => hne (by rw [h1, e])
    have hact := ((hL.mem_keys cv x).1 hx).2
    simp only [Heap.setKey_key, hxk, if_false] at hact
    rw [link_active] at hact
    simp [h1] at hact
  · right
    exact ⟨h1, hL.nextKey_of_nextIn (by simpa only [Heap.setKey_curve] using h2)⟩
  · exact Or.inl h1

theorem unlinkUpdIn {c : CurveId} {key : KeyId} {ck : Option KeyId} {h x0 h1 : Heap α}
    (hdo : (match ck with
      | some k => (pure (Tangent.update (Tangent.update (Tangent.update (Tangent.update x0
          key .In) key .Out) k .In) k .Out) : Except String (Heap α))
      | none => pure (Tangent.updateIf (Tangent.updateIf (Tangent.update (Tangent.update x0
          key .In) key .Out) (Key.nextKey h key) .In) (Key.prevKey h key) .Out)) = .ok h1) :
    ∃ t, UpdIn t x0 h1 ∧
      ∀ x, (x = key ∨ ck = some x ∨ (ck = none ∧ Key.nextKey h key = some x)) → t x := by
  have U3 := ((UpdIn.refl x0).update key .In).update key .Out
  cases ck with
  | some k =>
    simp only [pure, Except.pure, Except.ok.injEq] at hdo
    subst hdo
    refine ⟨_, (U3.update k .In).update k .Out, fun x hx => ?_⟩
    rcases hx with h1 | h1 | h1
    · left; left; left; right; exact ⟨h1, rfl⟩
    · left; right; exact ⟨by cases h1; rfl, rfl⟩
    · exact absurd h1.1 (by simp)
  | none =>
    simp only [pure, Except.pure, Except.ok.injEq] at hdo
    subst hdo
    refine ⟨_, (U3.updateIf_in _ .In).updateIf_in _ .Out, fun x hx => ?_⟩
    rcases hx with h1 | h1 | h1
    · left; left; left; right; exact ⟨h1, rfl⟩
    · cases h1
    · left; right; exact ⟨h1.2, rfl⟩

theorem addKeyUndo_updIn {this : CurveId} {key : KeyId} {ck : Option KeyId} {time : α}
    {h h1 : Heap α} (hdo : addKeyUndo this key ck time h = .ok h1) :
    ∃ t, UpdIn t (addKeyUndoLink this key ck h) h1 ∧
      ∀ x, (x = key ∨ ck = some x ∨ (ck = none ∧ Key.nextKey h key = some x)) → t x := by
  unfold addKeyUndo at hdo
  rcases throwIfStateNotAsExpected_eq h key (some this) true time with ⟨e, he, _⟩ | ⟨he1, hs1⟩
  · rw [he] at hdo; cases hdo
  rcases throwIfStateNotAsExpectedIf_eq h ck (some this) false time with
    ⟨e, he, _⟩ | ⟨he2, hs2⟩
  · rw [he1, he] at hdo; cases hdo
  rw [he1, he2] at hdo
  exact unlinkUpdIn (c := this) hdo

theorem removeKeyDo_updIn {this : CurveId} {key : KeyId} {ck : Option KeyId} {active : Bool}
    {time : α} {h h1 : Heap α} (hdo : removeKeyDo this key ck active time h = .ok h1) :
    ∃ t, UpdIn t (removeKeyDoLink this key ck active h) h1 ∧
      ∀ x, (x = key ∨ ck = some x ∨ (ck = none ∧ Key.nextKey h key = some x)) → t x := by
  unfold removeKeyDo at hdo
  rcases throwIfStateNotAsExpected_eq h key (some this) active time with
    ⟨e, he, _⟩ | ⟨he1, hs1⟩
  · rw [he] at hdo; cases hdo
  rcases throwIfStateNotAsExpectedIf_eq h ck (some this) false time with
    ⟨e, he, _⟩ | ⟨he2, hs2⟩
  · rw [he1, he] at hdo; cases hdo
  rw [he1, he2] at hdo
  exact unlinkUpdIn (c := this) hdo

/-- The Do closure of `removeKey` keeps the cached in spans right. -/
theorem removeKeyDo_spanIn {h h1 : Heap α} (hs : SpanIn h) (hl : Linked h) {this : CurveId}
    {key : KeyId} {ck : Option KeyId} {active : Bool} {time : α}
    (hdo : removeKeyDo this key ck active time h = .ok h1) : SpanIn h1 := by
  obtain ⟨S1, S2, hc1⟩ := removeKeyDo_ok hdo
  obtain ⟨t, hu, hcov⟩ := removeKeyDo_updIn hdo
  obtain ⟨p1, p2, p3⟩ := S1
  have hne : active = true → ck ≠ some key := by
    intro ha e
    have := (S2 key e).2.1
    rw [p2, ha] at this; cases this
  rw [removeKeyDoLink_eq2 this key ck active h hne, Key.Dispose_eq] at hc1 hu
  have hY : LinkedExcept (unlink this active key ck h) key :=
    hl.unlink_except p1 p2 (fun _ => by rw [Heap.time, p3]; exact S2)
  have hL : Linked ((unlink this active key ck h).setKey key
      { (unlink this active key ck h).key key with m_parent := none, m_active := false }) :=
    (hY.setKey _).toLinked (by simp) (by simp)
  have O1 := hl.unlink_inStable (u := ck) p1 p2 (fun _ => by rw [Heap.time, p3]; exact S2)
  have O2 := hY.setKey_inStable
    { (unlink this active key ck h).key key with m_parent := none, m_active := false }
  refine spanIn_of_stable hs (O1.andThen_in O2) hL hu (fun cv x hx hsx => hcov x ?_)
  rcases hsx with (h1 | ⟨ha, h1 | ⟨h1, h2⟩⟩) | h1
  · exact Or.inl h1
  · exact Or.inr (Or.inl h1)
  · right; right
    subst ha
    exact ⟨h1, by rw [Key.nextKey_eq p1 p2]; exact h2⟩
  · exact Or.inl h1

/-- The Undo closure of `addKey` keeps the cached in spans right. -/
theorem addKeyUndo_spanIn {h h1 : Heap α} (hs : SpanIn h) (hl : Linked h) {this : CurveId}
    {key : KeyId} {ck : Option KeyId} {time : α}
    (hun : addKeyUndo this key ck time h = .ok h1) : SpanIn h1 := by
  obtain ⟨T1, T2, hc1⟩ := addKeyUndo_ok hun
  obtain ⟨t, hu, hcov⟩ := addKeyUndo_updIn hun
  obtain ⟨p1, p2, p3⟩ := T1
  have hne : ck ≠ some key := by
    intro e
    have := (T2 key e).2.1
    rw [p2] at this; cases this
  rw [addKeyUndoLink_eq this key ck h hne, Key.Dispose_eq] at hc1 hu
  have hY : LinkedExcept (unlink this true key ck h) key :=
    hl.unlink_except p1 p2 (fun _ => by rw [Heap.time, p3]; exact T2)
  have hL : Linked ((unlink this true key ck h).setKey key
      { (unlink this true key ck h).key key with m_parent := none, m_active := false }) :=
    (hY.setKey _).toLinked (by simp) (by simp)
  have O1 := hl.unlink_inStable (u := ck) p1 p2 (fun _ => by rw [Heap.time, p3]; exact T2)
  have O2 := hY.setKey_inStable
    { (unlink this true key ck h).key key with m_parent := none, m_active := false }
  refine spanIn_of_stable hs (O1.andThen_in O2) hL hu (fun cv x hx hsx => hcov x ?_)
  rcases hsx with (h1 | ⟨ha, h1 | ⟨h1, h2⟩⟩) | h1
  · exact Or.inl h1
  · exact Or.inr (Or.inl h1)
  · right; right
    exact ⟨h1, by rw [Key.nextKey_eq p1 p2]; exact h2⟩
  · exact Or.inl h1

theorem removeKeyUndo_updIn {this : CurveId} {key : KeyId} {ck : Option KeyId} {active : Bool}
    {time : α} {h h1 : Heap α} (hdo : removeKeyUndo this key ck active time h = .ok h1) :
    ∃ t, UpdIn t (removeKeyUndoLink this key ck active time h) h1 ∧
      ∀ x, ((active = true ∧ x = key) ∨ (ck = none ∧
        Key.nextKey (removeKeyUndoLink this key ck active time h) key = some x)) → t x := by
  unfold removeKeyUndo at hdo
  rcases throwIfStateNotAsExpected_eq h key none false time with ⟨e, he, _⟩ | ⟨he1, hs1⟩
  · rw [he] at hdo; cases hdo
  rcases throwIfStateNotAsExpectedIf_eq h ck (some this) true time with
    ⟨e, he, _⟩ | ⟨he2, hs2⟩
  · rw [he1, he] at hdo; cases hdo
  rw [he1, he2] at hdo
  simp only [bind, Except.bind, pure, Except.pure] at hdo
  have U3 : UpdIn (fun x => active = true ∧ x = key)
      (removeKeyUndoLink this key ck active time h) _ := UpdIn.ifActive_in active key
  cases ck with
  | some k =>
    simp only [Except.ok.injEq] at hdo
    subst hdo
    refine ⟨_, U3, fun x hx => ?_⟩
    rcases hx with h1 | h1
    · exact h1
    · exact absurd h1.1 (by simp)
  | none =>
    simp only [Except.ok.injEq] at hdo
    subst hdo
    have U4 := U3.updateIf_in (Key.nextKey (if active = true then Tangent.update (Tangent.update
      (removeKeyUndoLink this key none active time h) key .In) key .Out
      else removeKeyUndoLink this key none active time h) key) .In
    refine ⟨_, U4.updateIf_in _ .Out, fun x hx => ?_⟩
    rcases hx with h1 | h1
    · left; left; exact h1
    · left; right
      rw [Key.nextKey_of_core_eq U3.core_eq_in]
      exact ⟨h1.2, rfl⟩

/-- The Undo closure of `removeKey`, run in a heap that agrees with the one its
Do closure left, keeps the cached in spans right. -/
theorem removeKeyUndo_spanIn {h0 h1 h h2 : Heap α} (hl0 : Linked h0) {this : CurveId}
    {key : KeyId} {ck : Option KeyId} {active : Bool} {time : α}
    (hdo : removeKeyDo this key ck active time h0 = .ok h1)
    (hag : Agree h1 h) (hl : Linked h) (hs : SpanIn h)
    (hun : removeKeyUndo this key ck active time h = .ok h2) : SpanIn h2 := by
  have hfreeU := removeKeyUndo_free hl0 hdo hag hl hun
  obtain ⟨T1, T2, hc2⟩ := removeKeyUndo_ok hun
  obtain ⟨t, hu, hcov⟩ := removeKeyUndo_updIn hun
  obtain ⟨q1, q2, q3⟩ := T1
  have hne : ck ≠ some key := by
    intro e
    have := (T2 key e).1
    rw [q1] at this; cases this
  have ht : time = h.time key := q3.symm
  rw [ht, removeKeyUndoLink_eq, Heap.setParent_setActive_eq] at hu hcov
  have hL := (hl.except q1).link_linked this active ck
    { (Animation.link this active key ck h).key key with
        m_parent := some this, m_active := active }
    (by simp [Heap.time]) rfl rfl (fun _ => by rw [Heap.time, q3]; exact T2) (fun _ => hne)
    hfreeU
  have O1 := (hl.except q1).link_inStable this active ck
    (fun _ => by rw [Heap.time, q3]; exact T2) (by
      have := hL.nodup this
      simpa only [Heap.setKey_curve] using this)
  have O2 := setKey_inStable_of_time (Animation.link this active key ck h) key
    { (Animation.link this active key ck h).key key with
        m_parent := some this, m_active := active }
    (by simp [Heap.time])
  have hkey : ∀ cv, key ∈ (((Animation.link this active key ck h).setKey key
      { (Animation.link this active key ck h).key key with
        m_parent := some this, m_active := active }).curve cv).m_keys → active = true := by
    intro cv hx
    have hact := ((hL.mem_keys cv key).1 hx).2
    simpa using hact
  refine spanIn_of_stable hs (O1.andThen_in O2) hL hu (fun cv x hx hsx => hcov x ?_)
  rcases hsx with (h1 | ⟨_, h1 | ⟨h1, h2⟩⟩) | h1
  · subst h1; exact Or.inl ⟨hkey cv hx, rfl⟩
  · exfalso
    have hxk : x ≠ key := fun e => hne (by rw [h1, e])
    have hact := ((hL.mem_keys cv x).1 hx).2
    simp only [Heap.setKey_key, hxk, if_false] at hact
    rw [link_active] at hact
    simp_all
  · right
    exact ⟨h1, hL.nextKey_of_nextIn (by simpa only [Heap.setKey_curve] using h2)⟩
  · subst h1; exact Or.inl ⟨hkey cv hx, rfl⟩

theorem setTimeUndo_updIn {curve : CurveId} {time previousTime : α} {active : Bool}
    {key : KeyId} {ck ci : Option KeyId} {h h1 : Heap α}
    (hdo : setTimeUndo curve time previousTime active key ck ci h = .ok h1) :
    ∃ t, UpdIn t (setTimeUndoLink curve previousTime active key ck ci h) h1 ∧
      ∀ x, ((active = true ∧ x = key) ∨ ck = some x ∨
        (ck = none ∧ Key.nextKey h key = some x) ∨ (ci = none ∧
          Key.nextKey (setTimeUndoLink curve previousTime active key ck ci h) key = some x)) →
        t x := by
  unfold setTimeUndo at hdo
  rcases throwIfStateNotAsExpected_eq h key (some curve) true time with
    ⟨e, he, _⟩ | ⟨he1, hs1⟩
  · rw [he] at hdo; cases hdo
  rcases throwIfStateNotAsExpectedIf_eq h ck (some curve) false time with
    ⟨e, he, _⟩ | ⟨he2, hs2⟩
  · rw [he1, he] at hdo; cases hdo
  rcases throwIfStateNotAsExpectedIf_eq h ci (some curve) true previousTime with
    ⟨e, he, _⟩ | ⟨he3, hs3⟩
  · rw [he1, he2, he] at hdo; cases hdo
  rw [he1, he2, he3] at hdo
  simp only [bind, Except.bind, pure, Except.pure] at hdo
  have U4 : UpdIn (fun x => active = true ∧ x = key)
      (setTimeUndoLink curve previousTime active key ck ci h) _ := UpdIn.ifActive_in active key
  cases ck with
  | some k =>
    have U5 := (U4.update k .In).update k .Out
    cases ci with
    | some i =>
      simp only [Except.ok.injEq] at hdo
      subst hdo
      refine ⟨_, U5, fun x hx => ?_⟩
      rcases hx with h1 | h1 | h1 | h1
      · left; left; exact h1
      · left; right; exact ⟨by cases h1; rfl, rfl⟩
      · exact absurd h1.1 (by simp)
      · exact absurd h1.1 (by simp)
    | none =>
      simp only [Except.ok.injEq, Option.isSome_some, or_true, if_true] at hdo
      subst hdo
      have U6 := U5.updateIf_in (Key.nextKey (Tangent.update (Tangent.update
        (if active = true then Tangent.update (Tangent.update
          (setTimeUndoLink curve previousTime active key (some k) none h) key .In) key .Out
        else setTimeUndoLink curve previousTime active key (some k) none h) k .In) k .Out)
        key) .In
      refine ⟨_, U6.updateIf_in _ .Out, fun x hx => ?_⟩
      rcases hx with h1 | h1 | h1 | h1
      · left; left; left; left; exact h1
      · left; left; left; right; exact ⟨by cases h1; rfl, rfl⟩
      · exact absurd h1.1 (by simp)
      · left; right
        rw [Key.nextKey_of_core_eq U5.core_eq_in]
        exact ⟨h1.2, rfl⟩
  | none =>
    have U5 := (U4.updateIf_in (Key.nextKey h key) .In).updateIf_in (Key.prevKey h key) .Out
    cases ci with
    | some i =>
      simp only [Except.ok.injEq] at hdo
      subst hdo
      refine ⟨_, U5, fun x hx => ?_⟩
      rcases hx with h1 | h1 | h1 | h1
      · left; left; exact h1
      · cases h1
      · left; right; exact ⟨h1.2, rfl⟩
      · exact absurd h1.1 (by simp)
    | none =>
      simp only [Except.ok.injEq] at hdo
      subst hdo
      refine ⟨_, (U5.guarded_in _ _ _).guarded_in _ _ _, fun x hx => ?_⟩
      have e5 := Key.nextKey_of_core_eq U5.core_eq_in key
      simp only [e5]
      rcases hx with h1 | h1 | h1 | h1
      · left; left; left; left; exact h1
      · cases h1
      · left; left; left; right; exact ⟨h1.2, trivial⟩
      · by_cases hq : Key.nextKey (setTimeUndoLink curve previousTime active key none none h)
            key = Key.nextKey h key
        · left; left; left; right; exact ⟨by rw [← hq]; exact h1.2, trivial⟩
        · left; right; exact ⟨Or.inl hq, h1.2, trivial⟩

/-- The Undo closure of `setTime`, run in a heap that agrees with the one its Do
closure left, keeps the cached in spans right. -/
theorem setTimeUndo_spanIn {h0 h1 h h2 : Heap α} (hl0 : Linked h0) {c : CurveId}
    {time previousTime : α} {active : Bool} {key : KeyId} {ck ci : Option KeyId}
    (hne : time ≠ previousTime)
    (hfree : ck = none → ∀ y ∈ (h0.curve c).m_keys, h0.time y ≠ time)
    (hdo : setTimeDo c time previousTime active key ck ci h0 = .ok h1)
    (hag : Agree h1 h) (hl : Linked h) (hs : SpanIn h)
    (hun : setTimeUndo c time previousTime active key ck ci h = .ok h2) : SpanIn h2 := by
  obtain ⟨hcine, hA0, hfreeU⟩ := setTimeUndo_mid hl0 hne hfree hdo hag hl hun
  obtain ⟨T1, T2, T3, hc2⟩ := setTimeUndo_ok hun
  obtain ⟨t, hu, hcov⟩ := setTimeUndo_updIn hun
  rw [setTimeUndoLink_eq] at hu hcov
  have mid := retime_mid hl T1 (fun _ => T2) (fun _ => T3) hne.symm hfreeU
  have hL := mid.2.2.2.2.2
  have O := retime_inStable hl T1 (fun _ => T2) (fun _ => T3) hne.symm hfreeU
  have hkey : ∀ cv, key ∈ ((Animation.link c active key ci
      (((unlink c true key ck h).setTime key previousTime).setActive key active)).curve
        cv).m_keys → active = true := by
    intro cv hx
    have hact := ((hL.mem_keys cv key).1 hx).2
    rw [link_active] at hact
    split_ifs at hact with hh
    simpa [Heap.setTime_setActive_key] using hact
  refine spanIn_of_stable hs O hL hu (fun cv x hx hsx => hcov x ?_)
  rcases hsx with h1 | ⟨_, h1 | ⟨h1, h2⟩⟩ | ⟨ha, h1 | ⟨h1, h2⟩⟩
  · subst h1; exact Or.inl ⟨hkey cv hx, rfl⟩
  · exact Or.inr (Or.inl h1)
  · right; right; left
    exact ⟨h1, by rw [Key.nextKey_eq T1.1 T1.2.1]; exact h2⟩
  · exfalso
    have hact := ((hL.mem_keys cv x).1 hx).2
    rw [link_active] at hact
    simp [h1, ha] at hact
  · right; right; right
    exact ⟨h1, hL.nextKey_of_nextIn h2⟩

/-- The closure of `setValue` keeps the cached in spans right. -/
theorem setValueDo_spanIn {h : Heap α} (hs : SpanIn h) (hl : Linked h) (key : KeyId)
    (value : α) : SpanIn (setValueDo key value h) := by
  have O := setKey_inStable_of_time_in h key { h.key key with m_value := value } rfl rfl
  have hL : Linked (h.setValue key value) := (setValue_sameLinks h key value).linkedOf hl
  have U := ((((UpdIn.refl (h.setValue key value)).update key .Out).update key .In).updateIf_in
    (Key.nextKey (Tangent.update (Tangent.update (h.setValue key value) key .Out) key .In) key)
      .In).updateIf_in (Key.prevKey (Tangent.updateIf (Tangent.update (Tangent.update
        (h.setValue key value) key .Out) key .In) (Key.nextKey (Tangent.update (Tangent.update
          (h.setValue key value) key .Out) key .In) key) .In) key) .Out
  exact spanIn_of_stable hs O hL U (fun cv x hx hsx => absurd hsx id)

/-- The closure of `setInterpolation` keeps the cached in spans right. -/
theorem setInterpolationDo_spanIn {h : Heap α} (hs : SpanIn h) (hl : Linked h) (key : KeyId)
    (i : Interpolation) : SpanIn (setInterpolationDo key i h) := by
  have O := setKey_inStable_of_time_in h key { h.key key with m_interpolator := i } rfl rfl
  have hL : Linked (setInterpolationDo key i h) := (setInterpolationDo_sameLinks h key i).linkedOf hl
  exact spanIn_of_stable hs O hL (UpdIn.refl _) (fun cv x hx hsx => absurd hsx id)

/-- A change of the slope and scale of a tangent keeps the cached in spans
right. -/
theorem setTangent_spanIn {h : Heap α} (hs : SpanIn h) (hl : Linked h) (key : KeyId)
    (d : Direction) (t : Tangent α) (ht : t.m_dt = ((h.key key).tangent d).m_dt) :
    SpanIn (h.setKey key ((h.key key).setTangent d t)) := by
  have O := setKey_inStable_of_time_in h key ((h.key key).setTangent d t)
    (by cases d <;> rfl) (by cases d <;> first | rfl | exact ht)
  have hL : Linked (h.setKey key ((h.key key).setTangent d t)) :=
    (setTangent_sameLinks h key d t).linkedOf hl
  exact spanIn_of_stable hs O hL (UpdIn.refl _) (fun cv x hx hsx => absurd hsx id)

theorem setSlopeDo_spanIn {h : Heap α} (hs : SpanIn h) (hl : Linked h) (key : KeyId)
    (d : Direction) (slope scale : α) : SpanIn (setSlopeDo key d slope scale h) :=
  setTangent_spanIn hs hl key d _ rfl

theorem setScaleDo_spanIn {h : Heap α} (hs : SpanIn h) (hl : Linked h) (key : KeyId)
    (d : Direction) (scale : α) : SpanIn (setScaleDo key d scale h) :=
  setTangent_spanIn hs hl key d _ rfl

/-! ### In spans in reachable states -/

theorem SpanIn.congr_in {a b : Heap α} (hs : SpanIn a) (hc : b.curve = a.curve)
    (hk : ∀ c x, x ∈ (a.curve c).m_keys → b.key x = a.key x) : SpanIn b := by
  intro c x hx
  rw [hc] at hx
  have e : expectedInDt b c x = expectedInDt a c x :=
    expectedInDt_eq_of_same (by rw [hc])
      (fun y hy => by rw [Heap.time, Heap.time, hk c y hy]) hx
  rw [e, hk c x hx]
  exact hs c x hx

theorem SpanIn.setKey_free_in {h : Heap α} (hs : SpanIn h) (hl : Linked h) {key : KeyId}
    (v : Key α) (hp : (h.key key).m_parent = none) : SpanIn (h.setKey key v) := by
  refine hs.congr_in rfl (fun c x hx => ?_)
  have hxk : x ≠ key := by
    intro e
    have := ((hl.mem_keys c x).1 hx).1
    rw [e, hp] at this; cases this
  simp [hxk]

theorem Action.doFn_spanIn {a : Action α} {h h1 : Heap α} (hw : Heap.WF h)
    (hs : Action.Sound h a) (hsp : SpanIn h) (hdo : a.doFn h = .ok h1) : SpanIn h1 := by
  cases a with
  | setTime c time previousTime active key ck ci =>
    simp only [Action.doFn] at hdo
    exact setTimeDo_spanIn hsp hw.linked hs.1 hs.2 hdo
  | setValue key value previousValue =>
    simp only [Action.doFn, pure, Except.pure, Except.ok.injEq] at hdo
    subst hdo
    exact setValueDo_spanIn hsp hw.linked key value
  | setInterpolation key i p =>
    simp only [Action.doFn, pure, Except.pure, Except.ok.injEq] at hdo
    subst hdo
    exact setInterpolationDo_spanIn hsp hw.linked key i
  | addKey this key ck time =>
    simp only [Action.doFn] at hdo
    exact addKeyDo_spanIn hsp hw.linked hs.2 hdo
  | removeKey this key ck active time =>
    simp only [Action.doFn] at hdo
    exact removeKeyDo_spanIn hsp hw.linked hdo
  | setSlope key d slope scale ps pc =>
    simp only [Action.doFn, pure, Except.pure, Except.ok.injEq] at hdo
    subst hdo
    exact setSlopeDo_spanIn hsp hw.linked key d slope scale
  | setScale key d scale pc =>
    simp only [Action.doFn, pure, Except.pure, Except.ok.injEq] at hdo
    subst hdo
    exact setScaleDo_spanIn hsp hw.linked key d scale

theorem Action.undoFn_spanIn {a : Action α} {h0 h1 h h2 : Heap α} (hw0 : Heap.WF h0)
    (hs : Action.Sound h0 a) (hdo : a.doFn h0 = .ok h1) (hag : Agree h1 h) (hw : Heap.WF h)
    (hsp : SpanIn h) (hun : a.undoFn h = .ok h2) : SpanIn h2 := by
  cases a with
  | setTime c time previousTime active key ck ci =>
    simp only [Action.doFn] at hdo
    simp only [Action.undoFn] at hun
    exact setTimeUndo_spanIn hw0.linked hs.1 hs.2 hdo hag hw.linked hsp hun
  | setValue key value previousValue =>
    simp only [Action.undoFn, pure, Except.pure, Except.ok.injEq] at hun
    subst hun
    exact setValueDo_spanIn hsp hw.linked key previousValue
  | setInterpolation key i p =>
    simp only [Action.undoFn, pure, Except.pure, Except.ok.injEq] at hun
    subst hun
    exact setInterpolationDo_spanIn hsp hw.linked key p
  | addKey this key ck time =>
    simp only [Action.undoFn] at hun
    exact addKeyUndo_spanIn hsp hw.linked hun
  | removeKey this key ck active time =>
    simp only [Action.doFn] at hdo
    simp only [Action.undoFn] at hun
    exact removeKeyUndo_spanIn hw0.linked hdo hag hw.linked hsp hun
  | setSlope key d slope scale ps pc =>
    simp only [Action.undoFn, pure, Except.pure, Except.ok.injEq] at hun
    subst hun
    exact setSlopeDo_spanIn hsp hw.linked key d ps pc
  | setScale key d scale pc =>
    simp only [Action.undoFn, pure, Except.pure, Except.ok.injEq] at hun
    subst hun
    exact setScaleDo_spanIn hsp hw.linked key d pc

theorem Action.enact_spanIn {a : Action α} {w w1 : Script α} (hi : w.Inv)
    (hsp : SpanIn w.heap) (hs : Action.Sound w.heap a) (he : Action.enact a w = .ok w1) :
    SpanIn w1.heap :=
  Action.doFn_spanIn hi.wf hs hsp (Action.enact_ok he).1

theorem Script.undo_spanIn {w w1 : Script α} (hi : w.Inv) (hsp : SpanIn w.heap)
    (hu : Script.undo w = .ok w1) : SpanIn w1.heap := by
  unfold Script.undo at hu
  split at hu
  · cases hu
  · rename_i a rest hq
    split at hu
    · rename_i h2 hun
      simp only [Except.ok.injEq] at hu
      subst hu
      have hv := hi.valid
      rw [hq] at hv
      obtain ⟨h0, h1, w0, v0, s0, d0, a0⟩ := hv
      exact Action.undoFn_spanIn w0 s0 d0 a0 hi.wf hsp hun
    · cases hu

theorem Key.setTime_spanIn {w w1 : Script α} {key : KeyId} {time : α} {r : Option KeyId}
    (hi : w.Inv) (hsp : SpanIn w.heap) (hs : Key.setTime w key time = .ok (w1, r)) :
    SpanIn w1.heap := by
  unfold Key.setTime at hs
  by_cases h1 : time = (w.heap.key key).m_time
  · rw [if_pos h1] at hs
    simp only [pure, Except.pure, Except.ok.injEq, Prod.mk.injEq] at hs
    rw [← hs.1]; exact hsp
  · rw [if_neg h1] at hs
    cases hp : (w.heap.key key).m_parent with
    | none =>
      simp only [hp, pure, Except.pure, Except.ok.injEq, Prod.mk.injEq] at hs
      rw [← hs.1]
      exact hsp.setKey_free_in hi.wf.linked _ hp
    | some curve =>
      simp only [hp] at hs
      split at hs
      · rename_i w2 he
        simp only [Except.ok.injEq, Prod.mk.injEq] at hs
        rw [← hs.1]
        exact Action.enact_spanIn (a := .setTime curve time _ _ key _ _) hi hsp
          ⟨h1, fun hck => getKey_none_free hi.wf.linked hck⟩ he
      · cases hs

theorem Key.setValue_spanIn {w w1 : Script α} {key : KeyId} {value : α}
    (hi : w.Inv) (hsp : SpanIn w.heap) (hs : Key.setValue w key value = .ok w1) :
    SpanIn w1.heap := by
  unfold Key.setValue at hs
  split_ifs at hs with h1
  · simp only [pure, Except.pure, Except.ok.injEq] at hs
    rw [← hs]; exact hsp
  · split at hs
    · exact Action.enact_spanIn (a := .setValue key value _) hi hsp trivial hs
    · rename_i hp
      simp only [pure, Except.pure, Except.ok.injEq] at hs
      rw [← hs]
      exact hsp.setKey_free_in hi.wf.linked _ hp

theorem Key.setInterpolation_spanIn {w w1 : Script α} {key : KeyId} {i : Interpolation}
    (hi : w.Inv) (hsp : SpanIn w.heap) (hs : Key.setInterpolation w key i = .ok w1) :
    SpanIn w1.heap := by
  unfold Key.setInterpolation at hs
  split_ifs at hs with h1
  · simp only [pure, Except.pure, Except.ok.injEq] at hs
    rw [← hs]; exact hsp
  · split at hs
    · exact Action.enact_spanIn (a := .setInterpolation key i _) hi hsp trivial hs
    · rename_i hp
      simp only [pure, Except.pure, Except.ok.injEq] at hs
      rw [← hs]
      exact hsp.setKey_free_in hi.wf.linked _ hp

theorem Tangent.setSlope_spanIn {ν : Numeric α} {w w1 : Script α} {key : KeyId} {d : Direction}
    {slope : α} {force : Bool} (hi : w.Inv) (hsp : SpanIn w.heap)
    (hs : Tangent.setSlope ν w key d slope force = .ok w1) : SpanIn w1.heap := by
  unfold Tangent.setSlope at hs
  split_ifs at hs with h1 h2
  · simp only [pure, Except.pure, Except.ok.injEq] at hs
    rw [← hs]; exact hsp
  · simp only [pure, Except.pure, Except.ok.injEq] at hs
    rw [← hs]; exact hsp
  · split at hs
    · exact Action.enact_spanIn (a := .setSlope key d slope _ _ _) hi hsp trivial hs
    · rename_i hp
      simp only [pure, Except.pure, Except.ok.injEq] at hs
      rw [← hs]
      exact hsp.setKey_free_in hi.wf.linked _ hp

theorem Tangent.setScale_spanIn {ν : Numeric α} {w w1 : Script α} {key : KeyId} {d : Direction}
    {scale : α} {force : Bool} (hi : w.Inv) (hsp : SpanIn w.heap)
    (hs : Tangent.setScale ν w key d scale force = .ok w1) : SpanIn w1.heap := by
  unfold Tangent.setScale at hs
  split_ifs at hs with h1
  · simp only [pure, Except.pure, Except.ok.injEq] at hs
    rw [← hs]; exact hsp
  dsimp only at hs
  split_ifs at hs with h2
  · simp only [pure, Except.pure, Except.ok.injEq] at hs
    rw [← hs]; exact hsp
  · split at hs
    · exact Action.enact_spanIn (a := .setScale key d _ _) hi hsp trivial hs
    · rename_i hp
      simp only [pure, Except.pure, Except.ok.injEq] at hs
      rw [← hs]
      exact hsp.setKey_free_in hi.wf.linked _ hp

theorem CurvePlug.removeKey_spanIn {w w1 : Script α} {this : CurveId} {key : KeyId}
    (hi : w.Inv) (hsp : SpanIn w.heap) (hs : CurvePlug.removeKey w this key = .ok w1) :
    SpanIn w1.heap := by
  unfold CurvePlug.removeKey at hs
  by_cases h1 : (w.heap.key key).m_parent ≠ some this
  · rw [if_pos h1] at hs; cases hs
  · rw [if_neg h1] at hs
    exact Action.enact_spanIn (a := .removeKey this key _ _ _) hi hsp trivial hs

theorem CurvePlug.removeInactiveKeys_spanIn {w w1 : Script α} {this : CurveId}
    (hi : w.Inv) (hsp : SpanIn w.heap)
    (hs : CurvePlug.removeInactiveKeys w this = .ok w1) : SpanIn w1.heap := by
  unfold CurvePlug.removeInactiveKeys at hs
  generalize (w.heap.curve this).m_inactiveKeys = l at hs
  induction l generalizing w with
  | nil =>
    simp only [List.foldlM, pure, Except.pure, Except.ok.injEq] at hs
    rw [← hs]; exact hsp
  | cons a as ih =>
    simp only [List.foldlM, bind, Except.bind] at hs
    split at hs
    · cases hs
    · rename_i w2 he
      exact ih (CurvePlug.removeKey_inv hi he) (CurvePlug.removeKey_spanIn hi hsp he) hs

theorem Key.new_spanIn (ν : Numeric α) {w : Script α} (hi : w.Inv) (hsp : SpanIn w.heap)
    (time value : α) (interpolation : Interpolation) (inSlope inScale outSlope outScale : α) :
    SpanIn (Key.new ν w.heap time value interpolation inSlope inScale outSlope outScale).1 := by
  have hp := hi.wf.fresh w.heap.keyCount (le_refl _)
  refine hsp.congr_in rfl (fun c x hx => ?_)
  have hxk : x ≠ w.heap.keyCount := by
    intro e
    have := ((hi.wf.linked.mem_keys c x).1 hx).1
    rw [e, hp] at this; cases this
  simp [Key.new, Function.update_apply, hxk]

theorem CurvePlug.addKey_spanIn {w w1 : Script α} {this : CurveId} {key : KeyId} {flag : Bool}
    {r : Option KeyId} (hi : w.Inv) (hsp : SpanIn w.heap) (hk : key < w.heap.keyCount)
    (hs : CurvePlug.addKey w this key flag = .ok (w1, r)) : SpanIn w1.heap := by
  rcases CurvePlug.addKey_ok hs with ⟨_, e, _⟩ | ⟨hc, hr, w2, w3, hw2, he, hfin⟩
  · rw [e]; exact hsp
  · have h2 : (w2.Inv ∧ SpanIn w2.heap) ∧ w2.heap.keyCount = w.heap.keyCount ∧
        w2.heap.time = w.heap.time ∧
        (w2.heap.curve this).m_keys = (w.heap.curve this).m_keys := by
      rcases hw2 with ⟨_, e⟩ | ⟨p, hp, hrm⟩
      · rw [e]; exact ⟨⟨hi, hsp⟩, rfl, rfl, rfl⟩
      · obtain ⟨e1, e2, e3⟩ := CurvePlug.removeKey_frame hrm
        refine ⟨⟨CurvePlug.removeKey_inv hi hrm, CurvePlug.removeKey_spanIn hi hsp hrm⟩,
          e1, e2, e3 this ?_⟩
        intro hthis
        by_contra hact
        have hact2 : (w.heap.key key).m_active = true := by
          cases hb : (w.heap.key key).m_active
          · exact absurd hb hact
          · rfl
        exact hc (hi.wf.linked.getKey_of_active (by rw [hp, hthis]) hact2)
    obtain ⟨⟨hi2, hsp2⟩, e1, e2, e3⟩ := h2
    have hsound : Action.Sound w2.heap (.addKey this key
        (CurvePlug.getKey w.heap this (w.heap.key key).m_time) (w2.heap.key key).m_time) := by
      refine ⟨by rw [e1]; exact hk, ?_⟩
      intro hck y hy
      rw [e3] at hy
      have := getKey_none_free hi.wf.linked hck y hy
      rw [e2]
      have ht : (w2.heap.key key).m_time = (w.heap.key key).m_time := congrFun e2 key
      rw [ht]; exact this
    have hi3 : w3.Inv := Action.enact_inv hi2 hsound he
    have hsp3 : SpanIn w3.heap := Action.enact_spanIn hi2 hsp2 hsound he
    rcases hfin with ⟨_, e⟩ | ⟨ck, _, _, hrm⟩
    · rw [e]; exact hsp3
    · exact CurvePlug.removeKey_spanIn hi3 hsp3 hrm

theorem CurvePlug.insertKeyInternal_spanIn (ν : Numeric α) {w w1 : Script α} {this : CurveId}
    {time : α} {value : Option α} {r : Option KeyId} (hi : w.Inv) (hsp : SpanIn w.heap)
    (hs : CurvePlug.insertKeyInternal ν w this time value = .ok (w1, r)) :
    SpanIn w1.heap := by
  rcases CurvePlug.insertKeyInternal_ok ν hs with
    ⟨key, _, _, ⟨_, e⟩ | ⟨v, _, hv⟩⟩ | ⟨_, _, e, _⟩ | ⟨_, _, h2, r2, hh, hadd⟩
  · rw [e]; exact hsp
  · exact Key.setValue_spanIn hi hsp hv
  · rw [e]; exact hsp
  · have hnew := Key.new_inv ν hi time (value.getD 0)
      (CurvePlug.insertKeyInterpolator w.heap this
        (CurvePlug.insertKeySpan w.heap this time).2.1)
      defaultSlope defaultScale defaultSlope defaultScale
    have hnsp := Key.new_spanIn ν hi hsp time (value.getD 0)
      (CurvePlug.insertKeyInterpolator w.heap this
        (CurvePlug.insertKeySpan w.heap this time).2.1)
      defaultSlope defaultScale defaultSlope defaultScale
    rcases hh with e | ⟨e, _, _, _, _, e2⟩
    · rw [e] at hadd
      exact CurvePlug.addKey_spanIn hnew hnsp (by simp [Key.new]) hadd
    · rw [e2] at hadd
      refine CurvePlug.addKey_spanIn (w := ⟨_, w.undoQueue⟩) ?_ ?_
        (by simp [Key.new, Heap.setValue]) hadd
      · exact hnew.setKey_unparented _ (Key.new_parent ..) (by simp [Key.new])
          (by simp [Key.new])
      · exact hnsp.setKey_free_in hnew.wf.linked _ (Key.new_parent ..)

/-- In every reachable script state every active key caches in its in tangent
the time from the previous active key. -/
theorem Reachable.spanIn {ν : Numeric α} {w : Script α} (hr : Reachable ν w) :
    SpanIn w.heap := by
  induction hr with
  | init => intro c k hk; simp [Script.init, Heap.init] at hk
  | newKey time value interpolation a b c d hr ih =>
    exact Key.new_spanIn ν hr.inv ih time value interpolation a b c d
  | setTime key time r hr _ hs ih => exact Key.setTime_spanIn hr.inv ih hs
  | setValue key value hr _ hs ih => exact Key.setValue_spanIn hr.inv ih hs
  | setInterpolation key i hr _ hs ih => exact Key.setInterpolation_spanIn hr.inv ih hs
  | setSlope key d slope force hr _ hs ih => exact Tangent.setSlope_spanIn hr.inv ih hs
  | setScale key d scale force hr _ hs ih => exact Tangent.setScale_spanIn hr.inv ih hs
  | addKey this key flag r hr hk hs ih => exact CurvePlug.addKey_spanIn hr.inv ih hk hs
  | removeKey this key hr _ hs ih => exact CurvePlug.removeKey_spanIn hr.inv ih hs
  | insertKey this time value r hr hs ih => exact CurvePlug.insertKeyInternal_spanIn ν hr.inv ih hs
  | removeInactiveKeys this hr hs ih => exact CurvePlug.removeInactiveKeys_spanIn hr.inv ih hs
  | undo hr hs ih => exact Script.undo_spanIn hr.inv ih hs

/-! ### The span of the interpolation branch -/

/-- The keys that `evaluate` finds around a time are consecutive. -/
theorem nextIn_of_span (tk : KeyId → α) {l : List KeyId} (hs : (l.map tk).Pairwise (· < ·))
    {lo hi : KeyId} {r : List KeyId} {t : α} (hlb : lower_bound tk t l = hi :: r)
    (hb : (before_lower_bound tk t l).getLast? = some lo) : nextIn lo l = some hi := by
  induction l with
  | nil => simp [lower_bound] at hlb
  | cons a as ih =>
    simp only [List.map_cons, List.pairwise_cons, List.mem_map, forall_exists_index, and_imp,
      forall_apply_eq_imp_iff₂] at hs
    unfold lower_bound at hlb
    unfold before_lower_bound at hb
    by_cases h1 : tk a < t
    · rw [if_pos h1] at hlb hb
      cases hbe : before_lower_bound tk t as with
      | nil =>
        rw [hbe] at hb
        simp only [List.getLast?_singleton, Option.some.injEq] at hb
        subst hb
        have e := before_append_lower_bound tk t as
        rw [hbe, hlb, List.nil_append] at e
        rw [← e]
        simp [nextIn]
      | cons b bs =>
        rw [hbe, List.getLast?_cons_cons] at hb
        rw [← hbe] at hb
        have hn := ih hs.2 hlb hb
        have hne : a ≠ lo := by
          intro e
          have := hs.1 lo (nextIn_mem_self hn)
          rw [e] at this
          exact lt_irrefl _ this
        simp only [nextIn, hne, if_false]
        exact hn
    · rw [if_neg h1] at hb
      simp at hb

/-- C32: in every reachable state (so after every committed `addKey`,
`removeKey`, `setTime` and `setValue`, do or undo), every active key `k` of a
curve caches in its out tangent the span width `next( k ).time - k.time` and in
its in tangent `k.time - prev( k ).time`, with 0 where that neighbour does not
exist.  Consequently, whenever `evaluate( t )` reaches its interpolation branch
(`hi` is the key at `lower_bound( t )`, `lo` the key before it and
`hi.time ≠ t`), the keys `lo`, `hi` are consecutive, the divisor `lo.out.dt` is
`hi.time - lo.time` and is strictly positive, the normalised time
`(t - lo.time) / dt` lies in `[0, 1]`, so the clamp leaves it as it is, and
`evaluate` returns what the interpolator of `lo` returns for it. -/
theorem C32_cached_span_widths {ν μ : Numeric α} {w : Script α} (hr : Reachable ν w)
    (c : CurveId) :
    (∀ k ∈ (w.heap.curve c).m_keys,
      (w.heap.key k).m_out.m_dt =
        (match nextIn k (w.heap.curve c).m_keys with
          | some n => w.heap.time n - w.heap.time k
          | none => 0) ∧
      (w.heap.key k).m_in.m_dt =
        (match prevIn k (w.heap.curve c).m_keys with
          | some p => w.heap.time k - w.heap.time p
          | none => 0)) ∧
    ∀ (t : α) (lo hi : KeyId) (r : List KeyId),
      lower_bound w.heap.time t (w.heap.curve c).m_keys = hi :: r →
      (before_lower_bound w.heap.time t (w.heap.curve c).m_keys).getLast? = some lo →
      (w.heap.key hi).m_time ≠ t →
      nextIn lo (w.heap.curve c).m_keys = some hi ∧
      (w.heap.key lo).m_out.m_dt = (w.heap.key hi).m_time - (w.heap.key lo).m_time ∧
      0 < (w.heap.key lo).m_out.m_dt ∧
      0 ≤ (t - (w.heap.key lo).m_time) / (w.heap.key lo).m_out.m_dt ∧
      (t - (w.heap.key lo).m_time) / (w.heap.key lo).m_out.m_dt ≤ 1 ∧
      CurvePlug.evaluate μ w.heap c t =
        Interpolator.evaluate μ w.heap (w.heap.key lo).m_interpolator lo hi
          ((t - (w.heap.key lo).m_time) / (w.heap.key lo).m_out.m_dt)
          (w.heap.key lo).m_out.m_dt := by
  have hl := hr.inv.wf.linked
  have hs := hl.sorted c
  refine ⟨fun k hk => ⟨hr.spanOut c k hk, hr.spanIn c k hk⟩, ?_⟩
  intro t lo hi r hlb hb hne
  have hn := nextIn_of_span w.heap.time hs hlb hb
  have h1 : w.heap.time lo < t :=
    (mem_before_lower_bound_imp w.heap.time t (List.mem_of_getLast?_eq_some hb)).2
  have h2 : t < w.heap.time hi := by
    have := lower_bound_ge w.heap.time t hs hi (by rw [hlb]; exact List.mem_cons_self _ _)
    exact lt_of_le_of_ne this (Ne.symm hne)
  have hdt : (w.heap.key lo).m_out.m_dt = (w.heap.key hi).m_time - (w.heap.key lo).m_time := by
    rw [hr.spanOut c lo (nextIn_mem_self hn)]
    unfold expectedOutDt
    rw [hn]
    rfl
  have hpos : 0 < (w.heap.key lo).m_out.m_dt := by
    rw [hdt]; exact sub_pos.mpr (lt_trans h1 h2)
  have hn0 : 0 ≤ (t - (w.heap.key lo).m_time) / (w.heap.key lo).m_out.m_dt :=
    div_nonneg (le_of_lt (sub_pos.mpr h1)) (le_of_lt hpos)
  have hn1 : (t - (w.heap.key lo).m_time) / (w.heap.key lo).m_out.m_dt ≤ 1 := by
    rw [div_le_one hpos, hdt]
    exact sub_le_sub_right (le_of_lt h2) _
  refine ⟨hn, hdt, hpos, hn0, hn1, ?_⟩
  rw [evaluate_between μ w.heap c t hs hn h1 h2, clamp_of_mem hn0 hn1]

theorem exThree_spans :
    nextIn 1 (exThree.heap.curve 0).m_keys = some 2 ∧
    prevIn 1 (exThree.heap.curve 0).m_keys = some 0 ∧
    exThree.heap.time 0 = 0 ∧ exThree.heap.time 1 = 1 ∧ exThree.heap.time 2 = 2 := by
  decide!

/-- C32 for the keys (0, 0), (1, 10) and (2, 20): key 1 caches the span width
1 in both tangents, and `evaluate( 3/2 )` interpolates between key 1 and key 2
with the divisor 1 and the normalised time 1/2. -/
theorem C32_cached_span_widths_witness :
    (exThree.heap.key 1).m_out.m_dt = 1 ∧ (exThree.heap.key 1).m_in.m_dt = 1 ∧
    CurvePlug.evaluate exampleNumeric exThree.heap 0 (3 / 2) =
      Interpolator.evaluate exampleNumeric exThree.heap (exThree.heap.key 1).m_interpolator 1 2
        ((3 / 2 - (exThree.heap.key 1).m_time) / (exThree.heap.key 1).m_out.m_dt)
        (exThree.heap.key 1).m_out.m_dt := by
  obtain ⟨h1, h2⟩ := C32_cached_span_widths (μ := exampleNumeric) exThree_reachable 0
  obtain ⟨a, b⟩ := h1 1 (by decide!)
  obtain ⟨e1, e2, t0, t1, t2⟩ := exThree_spans
  rw [e1] at a
  rw [e2] at b
  simp only [t0, t1, t2] at a b
  refine ⟨by rw [a]; norm_num, by rw [b]; norm_num, ?_⟩
  exact (h2 (3 / 2) 1 2 [] (by decide!) (by decide!) (by decide!)).2.2.2.2.2

/-! ### The effective scale of the cubic interpolator -/

theorem getLast?_ne_of_nextIn {k n : KeyId} {l : List KeyId} (hnd : l.Nodup)
    (hn : nextIn k l = some n) : l.getLast? ≠ some k := by
  induction l with
  | nil => simp [nextIn] at hn
  | cons a as ih =>
    rw [List.nodup_cons] at hnd
    unfold nextIn at hn
    split_ifs at hn with h1
    · subst h1
      cases as with
      | nil => simp at hn
      | cons b bs =>
        rw [List.getLast?_cons_cons]
        intro e
        exact hnd.1 (List.mem_of_getLast?_eq_some e)
    · cases as with
      | nil => simp [nextIn] at hn
      | cons b bs =>
        rw [List.getLast?_cons_cons]
        exact ih hnd.2 hn

theorem head?_ne_of_prevIn {k p : KeyId} {l : List KeyId} (hp : prevIn k l = some p) :
    l.head? ≠ some k := by
  intro e
  rw [prevIn_of_head e] at hp
  cases hp

/-- In a segment whose interpolator lacks the `UseScale` hint both facing
tangents are scale-constrained. -/
theorem Linked.scaleIsConstrained_segment {h : Heap α} (hl : Linked h) {c : CurveId}
    {lo hi : KeyId} (hn : nextIn lo (h.curve c).m_keys = some hi)
    (hu : Interpolator.getHints (h.key lo).m_interpolator &&& Hint.UseScale = 0) :
    Tangent.scaleIsConstrained h lo .Out = true ∧ Tangent.scaleIsConstrained h hi .In = true := by
  obtain ⟨p1, a1⟩ := (hl.mem_keys c lo).1 (nextIn_mem_self hn)
  obtain ⟨p2, a2⟩ := (hl.mem_keys c hi).1 (nextIn_mem hn)
  constructor
  · rw [hl.scaleIsConstrained_iff]
    exact ⟨c, p1, a1, fun _ => getLast?_ne_of_nextIn (hl.nodup c) hn, (fun e => by cases e), hu⟩
  · rw [hl.scaleIsConstrained_iff]
    refine ⟨c, p2, a2, (fun e => by cases e),
      fun _ => head?_ne_of_prevIn (prevIn_of_nextIn (hl.nodup c) hn), ?_⟩
    rw [Interpolator.tangent_in_of_nextIn hl hn]
    exact hu

theorem clampSlope_div_of_range {s dt : α} (hdt : dt ≠ 0) (h1 : -1000000000 ≤ s * dt)
    (h2 : s * dt ≤ 1000000000) : clampSlope (s * dt) / dt = s := by
  unfold clampSlope
  rw [clamp_of_mem h1 h2]
  field_simp

/-- The effective scale of the two facing tangents of a Cubic segment. -/
theorem Reachable.cubic_getScale {ν : Numeric α} (μ : Numeric α) {w : Script α}
    (hr : Reachable ν w) {c : CurveId} {lo hi : KeyId}
    (hn : nextIn lo (w.heap.curve c).m_keys = some hi)
    (hcub : (w.heap.key lo).m_interpolator = .Cubic) :
    Tangent.getScale μ w.heap lo .Out =
      1 / 3 * maxScale μ (clamp ((w.heap.key lo).m_out.m_slope *
        (w.heap.time hi - w.heap.time lo)) (-1000000000) 1000000000 /
          (w.heap.time hi - w.heap.time lo)) ∧
    Tangent.getScale μ w.heap hi .In =
      1 / 3 * maxScale μ (clamp ((w.heap.key hi).m_in.m_slope *
        (w.heap.time hi - w.heap.time lo)) (-1000000000) 1000000000 /
          (w.heap.time hi - w.heap.time lo)) := by
  have hl := hr.inv.wf.linked
  have hus : Interpolator.getHints (w.heap.key lo).m_interpolator &&& Hint.UseSlope ≠ 0 := by
    rw [hcub]; decide
  have huc : Interpolator.getHints (w.heap.key lo).m_interpolator &&& Hint.UseScale = 0 := by
    rw [hcub]; decide
  obtain ⟨s1, s2⟩ := hl.getSlope_segment hn hus
  obtain ⟨c1, c2⟩ := hl.scaleIsConstrained_segment hn huc
  have d1 : (w.heap.key lo).m_out.m_dt = w.heap.time hi - w.heap.time lo := by
    rw [hr.spanOut c lo (nextIn_mem_self hn)]
    unfold expectedOutDt
    rw [hn]
  have d2 : (w.heap.key hi).m_in.m_dt = w.heap.time hi - w.heap.time lo := by
    rw [hr.spanIn c hi (nextIn_mem hn)]
    unfold expectedInDt
    rw [prevIn_of_nextIn (hl.nodup c) hn]
  constructor
  · unfold Tangent.getScale
    rw [c1, if_pos rfl]
    simp only [Tangent.interpolator, hcub, Interpolator.effectiveScale, Key.tangent, s1, d1,
      clampSlope]
  · unfold Tangent.getScale
    rw [c2, if_pos rfl, Interpolator.tangent_in_of_nextIn hl hn]
    simp only [hcub, Interpolator.effectiveScale, Key.tangent, s2, d2, clampSlope]

/-- C36 fails as stated: on the curve with the keys (0, 0) and (2, 20), the
first with Cubic interpolation and the out slope 1e9, the span width is 2 and
the slope clamped to `[-1e9, 1e9]` is 1e9, but for every square root the
effective scale of the out tangent is `(1/3) sqrt( (5e8)² + 1 )`: the clamp is
applied to `slope * dt = 2e9` and the result divided by `dt`.  In the example
arithmetic, where the square root is the identity, this is not
`(1/3) sqrt( 1 + (1e9)² )`. -/
theorem C36_counterexample :
    nextIn 0 (exSteep.heap.curve 0).m_keys = some 1 ∧
    (exSteep.heap.key 0).m_interpolator = .Cubic ∧
    (exSteep.heap.key 0).m_out.m_dt = 2 ∧
    (exSteep.heap.key 0).m_out.m_slope = 1000000000 ∧
    Tangent.getSlope exSteep.heap 0 .Out = 1000000000 ∧
    clamp (Tangent.getSlope exSteep.heap 0 .Out) (-1000000000) 1000000000 = 1000000000 ∧
    (∀ μ : Numeric ℚ, Tangent.getScale μ exSteep.heap 0 .Out =
      1 / 3 * μ.sqrt (500000000 * 500000000 + 1)) ∧
    Tangent.getScale exampleNumeric exSteep.heap 0 .Out ≠
      1 / 3 * exampleNumeric.sqrt
        (1 + (clamp (Tangent.getSlope exSteep.heap 0 .Out) (-1000000000) 1000000000) ^ 2) := by
  have hn : nextIn 0 (exSteep.heap.curve 0).m_keys = some 1 := by decide!
  have hc : (exSteep.heap.key 0).m_interpolator = .Cubic := by decide!
  have hreach : Reachable exampleNumeric exSteep :=
    (exTie_reachable.after_setInterpolation 0 .Cubic (by decide!)).after_setSlope 0 .Out
      1000000000 false (by decide!)
  refine ⟨hn, hc, by decide!, by decide!, by decide!, by decide!, ?_, by decide!⟩
  intro μ
  rw [(hreach.cubic_getScale μ hn hc).1]
  have e : clamp ((exSteep.heap.key 0).m_out.m_slope *
      (exSteep.heap.time 1 - exSteep.heap.time 0)) (-1000000000) 1000000000 /
        (exSteep.heap.time 1 - exSteep.heap.time 0) = 500000000 := by decide!
  rw [e]
  rfl

/-- C36 as amended: in a reachable state, for two consecutive active keys `lo`,
`hi` where `lo` has Cubic interpolation, with `dt = hi.time - lo.time`, the
effective scale of the out tangent of `lo` and of the in tangent of `hi`, with
stored slope `s`, is `(1/3) maxScale( clamp( s dt, -1e9, 1e9 ) / dt )`: the
product `s dt` is clamped and the result divided by `dt`.  When `s dt` lies in
`[-1e9, 1e9]` this is `(1/3) sqrt( s² + 1 )`. -/
theorem C36_cubic_effective_scale {ν μ : Numeric α} {w : Script α} (hr : Reachable ν w)
    (c : CurveId) (lo hi : KeyId)
    (hn : nextIn lo (w.heap.curve c).m_keys = some hi)
    (hcub : (w.heap.key lo).m_interpolator = .Cubic) :
    Tangent.getScale μ w.heap lo .Out =
      1 / 3 * maxScale μ (clamp ((w.heap.key lo).m_out.m_slope *
        (w.heap.time hi - w.heap.time lo)) (-1000000000) 1000000000 /
          (w.heap.time hi - w.heap.time lo)) ∧
    Tangent.getScale μ w.heap hi .In =
      1 / 3 * maxScale μ (clamp ((w.heap.key hi).m_in.m_slope *
        (w.heap.time hi - w.heap.time lo)) (-1000000000) 1000000000 /
          (w.heap.time hi - w.heap.time lo)) ∧
    (-1000000000 ≤ (w.heap.key lo).m_out.m_slope * (w.heap.time hi - w.heap.time lo) →
      (w.heap.key lo).m_out.m_slope * (w.heap.time hi - w.heap.time lo) ≤ 1000000000 →
      Tangent.getScale μ w.heap lo .Out =
        1 / 3 * μ.sqrt ((w.heap.key lo).m_out.m_slope * (w.heap.key lo).m_out.m_slope + 1)) ∧
    (-1000000000 ≤ (w.heap.key hi).m_in.m_slope * (w.heap.time hi - w.heap.time lo) →
      (w.heap.key hi).m_in.m_slope * (w.heap.time hi - w.heap.time lo) ≤ 1000000000 →
      Tangent.getScale μ w.heap hi .In =
        1 / 3 * μ.sqrt ((w.heap.key hi).m_in.m_slope * (w.heap.key hi).m_in.m_slope + 1)) := by
  obtain ⟨e1, e2⟩ := hr.cubic_getScale μ hn hcub
  have hpos : w.heap.time hi - w.heap.time lo ≠ 0 :=
    ne_of_gt (sub_pos.2 (nextIn_sorted_lt w.heap.time (hr.inv.wf.linked.sorted c) hn))
  refine ⟨e1, e2, fun h1 h2 => ?_, fun h1 h2 => ?_⟩
  · rw [e1]
    have := clampSlope_div_of_range hpos h1 h2
    unfold clampSlope at this
    rw [this]; rfl
  · rw [e2]
    have := clampSlope_div_of_range hpos h1 h2
    unfold clampSlope at this
    rw [this]; rfl

/-- C36 as amended, for the keys (0, 0) and (2, 20), the first with Cubic
interpolation, both stored slopes being 0. -/
theorem C36_cubic_effective_scale_witness :
    nextIn 0 (exCubic.heap.curve 0).m_keys = some 1 ∧
    (exCubic.heap.key 0).m_interpolator = .Cubic ∧
    Tangent.getScale exampleNumeric exCubic.heap 0 .Out = 1 / 3 ∧
    Tangent.getScale exampleNumeric exCubic.heap 1 .In = 1 / 3 := by
  have hn : nextIn 0 (exCubic.heap.curve 0).m_keys = some 1 := by decide!
  have hc : (exCubic.heap.key 0).m_interpolator = .Cubic := by decide!
  obtain ⟨h1, h2, _, _⟩ :=
    C36_cubic_effective_scale (μ := exampleNumeric) exCubic_reachable 0 0 1 hn hc
  refine ⟨hn, hc, ?_, ?_⟩
  · rw [h1]; decide!
  · rw [h2]; decide!

/-! ### Cached value differences -/

theorem expectedOutDv_of_core_eq {a b : Heap α} (hc : a.core = b.core) (c : CurveId)
    (k : KeyId) : expectedOutDv a c k = expectedOutDv b c k := by
  unfold expectedOutDv
  rw [core_eq_curve hc]
  simp only [core_eq_value hc]

theorem expectedInDv_of_core_eq {a b : Heap α} (hc : a.core = b.core) (c : CurveId)
    (k : KeyId) : expectedInDv a c k = expectedInDv b c k := by
  unfold expectedInDv
  rw [core_eq_curve hc]
  simp only [core_eq_value hc]

theorem update_out_dv_active (h : Heap α) {k : KeyId} {c : CurveId}
    (hp : (h.key k).m_parent = some c) (ha : (h.key k).m_active = true) :
    ((Tangent.update h k .Out).key k).m_out.m_dv = expectedOutDv h c k := by
  unfold Tangent.update expectedOutDv
  simp only [Heap.setKey_key, if_true, hp, Key.nextKey_eq hp ha]
  cases nextIn k (h.curve c).m_keys <;> rfl

theorem update_in_dv_active (h : Heap α) {k : KeyId} {c : CurveId}
    (hp : (h.key k).m_parent = some c) (ha : (h.key k).m_active = true) :
    ((Tangent.update h k .In).key k).m_in.m_dv = expectedInDv h c k := by
  unfold Tangent.update expectedInDv
  simp only [Heap.setKey_key, if_true, hp, Key.prevKey_eq hp ha]
  cases prevIn k (h.curve c).m_keys <;> rfl

theorem updateIf_in_of_out (h : Heap α) (k : Option KeyId) (x : KeyId) :
    ((Tangent.updateIf h k .Out).key x).m_in = (h.key x).m_in := by
  cases k with
  | none => rfl
  | some y => exact update_in_of_out h y x

/-- The closure of `setValue` for an active key recomputes the cached value
differences of the key and the facing ones of its two neighbours, and touches
no other key. -/
theorem setValueDo_dv {h : Heap α} (hl : Linked h) {c : CurveId} {key : KeyId}
    (hk : key ∈ (h.curve c).m_keys) (v : α) :
    (setValueDo key v h).curve = h.curve ∧
    ((setValueDo key v h).key key).m_value = v ∧
    (∀ x, x ≠ key → ((setValueDo key v h).key x).m_value = (h.key x).m_value) ∧
    ((setValueDo key v h).key key).m_out.m_dv = expectedOutDv (setValueDo key v h) c key ∧
    ((setValueDo key v h).key key).m_in.m_dv = expectedInDv (setValueDo key v h) c key ∧
    (∀ n, nextIn key (h.curve c).m_keys = some n →
      ((setValueDo key v h).key n).m_in.m_dv = expectedInDv (setValueDo key v h) c n) ∧
    (∀ p, prevIn key (h.curve c).m_keys = some p →
      ((setValueDo key v h).key p).m_out.m_dv = expectedOutDv (setValueDo key v h) c p) ∧
    (∀ x, x ≠ key → nextIn key (h.curve c).m_keys ≠ some x →
      prevIn key (h.curve c).m_keys ≠ some x → (setValueDo key v h).key x = h.key x) := by
  obtain ⟨hp, ha⟩ := (hl.mem_keys c key).1 hk
  -- the four heaps of the closure
  have hL1 : Linked (h.setValue key v) := (setValue_sameLinks h key v).linkedOf hl
  have hc1 : (h.setValue key v).curve = h.curve := rfl
  have hp1 : ((h.setValue key v).key key).m_parent = some c := by simp [Heap.setValue, hp]
  have ha1 : ((h.setValue key v).key key).m_active = true := by simp [Heap.setValue, ha]
  have k2 : (Tangent.update (Tangent.update (h.setValue key v) key .Out) key .In).core =
      (h.setValue key v).core := by simp
  have hn2 : Key.nextKey (Tangent.update (Tangent.update (h.setValue key v) key .Out) key .In)
      key = nextIn key (h.curve c).m_keys := by
    rw [Key.nextKey_of_core_eq k2, Key.nextKey_eq hp1 ha1, hc1]
  have k3 : (Tangent.updateIf (Tangent.update (Tangent.update (h.setValue key v) key .Out)
      key .In) (nextIn key (h.curve c).m_keys) .In).core = (h.setValue key v).core := by simp
  have hp3 : Key.prevKey (Tangent.updateIf (Tangent.update (Tangent.update (h.setValue key v)
      key .Out) key .In) (nextIn key (h.curve c).m_keys) .In) key =
      prevIn key (h.curve c).m_keys := by
    rw [Key.prevKey_of_core_eq k3, Key.prevKey_eq hp1 ha1, hc1]
  have hres : setValueDo key v h =
      Tangent.updateIf (Tangent.updateIf (Tangent.update (Tangent.update (h.setValue key v)
        key .Out) key .In) (nextIn key (h.curve c).m_keys) .In)
        (prevIn key (h.curve c).m_keys) .Out := by
    unfold setValueDo
    simp only [hn2, hp3]
  have k4 : (setValueDo key v h).core = (h.setValue key v).core := by
    rw [hres]; simp
  have hnk : nextIn key (h.curve c).m_keys ≠ some key := by
    intro e
    have := nextIn_sorted_lt h.time (hl.sorted c) e
    exact lt_irrefl _ this
  have hpk : prevIn key (h.curve c).m_keys ≠ some key := by
    intro e
    have := nextIn_sorted_lt h.time (hl.sorted c) (nextIn_of_prevIn (hl.nodup c) e)
    exact lt_irrefl _ this
  refine ⟨?_, ?_, ?_, ?_, ?_, ?_, ?_, ?_⟩
  · rw [core_eq_curve k4, hc1]
  · rw [core_eq_value k4]; simp [Heap.setValue]
  · intro x hx
    rw [core_eq_value k4]; simp [Heap.setValue, hx]
  · rw [expectedOutDv_of_core_eq k4, hres, updateIf_key_of_ne _ _ _ hpk,
      updateIf_key_of_ne _ _ _ hnk, update_out_of_in]
    exact update_out_dv_active _ hp1 ha1
  · rw [expectedInDv_of_core_eq k4, hres, updateIf_in_of_out, updateIf_key_of_ne _ _ _ hnk]
    have hp2 : ((Tangent.update (h.setValue key v) key .Out).key key).m_parent = some c := by
      rw [update_parent]; exact hp1
    have ha2 : ((Tangent.update (h.setValue key v) key .Out).key key).m_active = true := by
      rw [update_active]; exact ha1
    rw [update_in_dv_active _ hp2 ha2]
    exact expectedInDv_of_core_eq (by simp) c key
  · intro n hn
    obtain ⟨pn, an⟩ := (hl.mem_keys c n).1 (nextIn_mem hn)
    have hnne : n ≠ key := fun e => hnk (by rw [hn, e])
    rw [expectedInDv_of_core_eq k4, hres, updateIf_in_of_out, hn]
    change ((Tangent.update _ n .In).key n).m_in.m_dv = _
    have hp2 : ((Tangent.update (Tangent.update (h.setValue key v) key .Out) key .In).key
        n).m_parent = some c := by
      rw [core_eq_parent k2]; simp [Heap.setValue, hnne, pn]
    have ha2 : ((Tangent.update (Tangent.update (h.setValue key v) key .Out) key .In).key
        n).m_active = true := by
      rw [core_eq_active k2]; simp [Heap.setValue, hnne, an]
    rw [update_in_dv_active _ hp2 ha2]
    exact expectedInDv_of_core_eq k2 c n
  · intro p hpp
    obtain ⟨pp, ap⟩ := (hl.mem_keys c p).1 (prevIn_mem hpp)
    have hpne : p ≠ key := fun e => hpk (by rw [hpp, e])
    rw [expectedOutDv_of_core_eq k4, hres, hpp]
    change ((Tangent.update _ p .Out).key p).m_out.m_dv = _
    have hp2 : ((Tangent.updateIf (Tangent.update (Tangent.update (h.setValue key v) key .Out)
        key .In) (nextIn key (h.curve c).m_keys) .In).key p).m_parent = some c := by
      rw [core_eq_parent k3]; simp [Heap.setValue, hpne, pp]
    have ha2 : ((Tangent.updateIf (Tangent.update (Tangent.update (h.setValue key v) key .Out)
        key .In) (nextIn key (h.curve c).m_keys) .In).key p).m_active = true := by
      rw [core_eq_active k3]; simp [Heap.setValue, hpne, ap]
    rw [update_out_dv_active _ hp2 ha2]
    exact expectedOutDv_of_core_eq k3 c p
  · intro x hx hnx hpx
    rw [hres, updateIf_key_of_ne _ _ _ hpx, updateIf_key_of_ne _ _ _ hnx,
      update_key_of_ne _ _ _ hx, update_key_of_ne _ _ _ hx]
    simp [Heap.setValue, hx]

theorem Key.setValue_parented (w : Script α) {key : KeyId} {c : CurveId} {v : α}
    (hp : (w.heap.key key).m_parent = some c) (hv : v ≠ (w.heap.key key).m_value) :
    Key.setValue w key v =
      .ok { heap := setValueDo key v w.heap
            undoQueue := Action.setValue key v (w.heap.key key).m_value :: w.undoQueue } := by
  unfold Key.setValue
  rw [if_neg hv]
  simp only [hp, Action.enact, Action.doFn, pure, Except.pure]

theorem addKeyDoLink_clash_keys (this : CurveId) (key ck : KeyId) (time : α) (h : Heap α) :
    ((addKeyDoLink this key (some ck) time h).curve this).m_keys =
      replace_node ck key (h.curve this).m_keys := by
  simp [addKeyDoLink]

theorem addKeyDoLink_clash_other (this : CurveId) (key ck : KeyId) (time : α) (h : Heap α)
    {x : KeyId} (hk : x ≠ key) (hc : x ≠ ck) :
    (addKeyDoLink this key (some ck) time h).key x = h.key x := by
  simp [addKeyDoLink, Heap.setActive, Heap.setParent, hk, hc]

theorem addKeyDoLink_clash_self (this : CurveId) (key ck : KeyId) (time : α) (h : Heap α)
    (hne : ck ≠ key) :
    (addKeyDoLink this key (some ck) time h).key key =
      { h.key key with m_parent := some this, m_active := true } := by
  simp [addKeyDoLink, Heap.setActive, Heap.setParent, hne, Ne.symm hne]

/-- `addKey` of an unparented key onto the clashing active key `ck` recomputes
the cached value differences of the added key only: every key other than the
added and the evicted one is left exactly as it was. -/
theorem CurvePlug.addKey_clash_dv {w : Script α} (hl : Linked w.heap) (c : CurveId)
    {k ck : KeyId} (hp : (w.heap.key k).m_parent = none)
    (hg : CurvePlug.getKey w.heap c (w.heap.key k).m_time = some ck) :
    ∃ w1, CurvePlug.addKey w c k false = .ok (w1, some ck) ∧
      (w1.heap.curve c).m_keys = replace_node ck k (w.heap.curve c).m_keys ∧
      (w1.heap.key k).m_out.m_dv = expectedOutDv w1.heap c k ∧
      (w1.heap.key k).m_in.m_dv = expectedInDv w1.heap c k ∧
      (∀ x, x ≠ k → x ≠ ck → w1.heap.key x = w.heap.key x) ∧
      (∀ p, prevIn ck (w.heap.curve c).m_keys = some p →
        expectedOutDv w1.heap c p = (w.heap.key k).m_value - (w.heap.key p).m_value) ∧
      (∀ n, nextIn ck (w.heap.curve c).m_keys = some n →
        expectedInDv w1.heap c n = (w.heap.key n).m_value - (w.heap.key k).m_value) := by
  obtain ⟨hm, _⟩ := find_some w.heap.time _ _ hg
  obtain ⟨hcp, hca⟩ := (hl.mem_keys c ck).1 hm
  have hne : ck ≠ k := fun e => by rw [e, hp] at hcp; cases hcp
  obtain ⟨w2, hs, hl2, _, _⟩ := CurvePlug.addKey_unparented hl c hp
  rw [hg] at hs
  have hs0 := hs
  rw [CurvePlug.addKey_unparented_clash w c false hp hg hne] at hs0
  cases he : Action.enact (.addKey c k (some ck) (w.heap.key k).m_time) w with
  | error e => rw [he] at hs0; cases hs0
  | ok w2' =>
    rw [he] at hs0
    simp only [Bool.false_eq_true, if_false, Except.ok.injEq, Prod.mk.injEq, and_true] at hs0
    subst hs0
    have hdo := (Action.enact_ok he).1
    simp only [Action.doFn] at hdo
    have hnf := addKeyDo_clash_eq hdo
    have hcore : w2'.heap.core =
        (addKeyDoLink c k (some ck) (w.heap.key k).m_time w.heap).core := by
      rw [hnf]; simp
    have hkeys : (w2'.heap.curve c).m_keys = replace_node ck k (w.heap.curve c).m_keys := by
      rw [core_eq_curve hcore, addKeyDoLink_clash_keys]
    have hself := addKeyDoLink_clash_self c k ck (w.heap.key k).m_time w.heap hne
    have hp1 : ((addKeyDoLink c k (some ck) (w.heap.key k).m_time w.heap).key k).m_parent =
        some c := by rw [hself]
    have ha1 : ((addKeyDoLink c k (some ck) (w.heap.key k).m_time w.heap).key k).m_active =
        true := by rw [hself]
    have hval : ∀ x, (w2'.heap.key x).m_value = (w.heap.key x).m_value := by
      intro x
      rw [core_eq_value hcore]
      by_cases hxk : x = k
      · rw [hxk, hself]
      · by_cases hxc : x = ck
        · rw [hxc, addKeyDoLink_clash_key _ hne]
        · rw [addKeyDoLink_clash_other c k ck _ _ hxk hxc]
    have hmemk : ∀ x ∈ (w.heap.curve c).m_keys, x ≠ k := by
      intro x hx e
      have := ((hl.mem_keys c x).1 hx).1
      rw [e, hp] at this; cases this
    refine ⟨w2', hs, hkeys, ?_, ?_, ?_, ?_, ?_⟩
    · rw [expectedOutDv_of_core_eq hcore, hnf]
      have hp2 : ((Tangent.update (addKeyDoLink c k (some ck) (w.heap.key k).m_time w.heap) k
          .In).key k).m_parent = some c := by rw [update_parent]; exact hp1
      have ha2 : ((Tangent.update (addKeyDoLink c k (some ck) (w.heap.key k).m_time w.heap) k
          .In).key k).m_active = true := by rw [update_active]; exact ha1
      rw [update_out_dv_active _ hp2 ha2]
      exact expectedOutDv_of_core_eq (by simp) c k
    · rw [expectedInDv_of_core_eq hcore, hnf, update_in_of_out]
      exact update_in_dv_active _ hp1 ha1
    · intro x hxk hxc
      rw [hnf, update_key_of_ne _ _ _ hxk, update_key_of_ne _ _ _ hxk,
        addKeyDoLink_clash_other c k ck _ _ hxk hxc]
    · intro p hpp
      have hpm := prevIn_mem hpp
      have hpk : p ≠ k := hmemk p hpm
      have hn := nextIn_of_prevIn (hl.nodup c) hpp
      have hpc : p ≠ ck := by
        intro e
        have := nextIn_sorted_lt w.heap.time (hl.sorted c) hn
        rw [e] at this
        exact lt_irrefl _ this
      have := @nextIn_replace_node p ck k _ (hl.nodup c) hpc hpk
      unfold expectedOutDv
      rw [hkeys, this, hn]
      simp only [Option.map_some', if_true, hval]
    · intro n hn
      have hnm := nextIn_mem hn
      have hnk : n ≠ k := hmemk n hnm
      have hpv := prevIn_of_nextIn (hl.nodup c) hn
      have hnc : n ≠ ck := by
        intro e
        have := nextIn_sorted_lt w.heap.time (hl.sorted c) hn
        rw [e] at this
        exact lt_irrefl _ this
      have := @prevIn_replace_node n ck k _ (hl.nodup c) hnc hnk
      unfold expectedInDv
      rw [hkeys, this, hpv]
      simp only [Option.map_some', if_true, hval]

/-- C33 fails as stated: in the state with the active keys (0, 0), (1, 10) and
the unparented key 2 at (1, 7), the committed `addKey( key2 )` puts key 2 in
the slot of key 1; afterwards the next key of key 0 is key 2, with value 7,
and key 0 still caches `dv = 10` in its out tangent. -/
theorem C33_counterexample :
    CurvePlug.addKey exSpare 0 2 false = .ok (exSpareAdded, some 1) ∧
    (exSpareAdded.heap.curve 0).m_keys = [0, 2] ∧
    nextIn 0 (exSpareAdded.heap.curve 0).m_keys = some 2 ∧
    (exSpareAdded.heap.key 2).m_value - (exSpareAdded.heap.key 0).m_value = 7 ∧
    (exSpareAdded.heap.key 0).m_out.m_dv = 10 ∧
    (exSpareAdded.heap.key 0).m_out.m_dv ≠ expectedOutDv exSpareAdded.heap 0 0 := by
  refine ⟨?_, by decide!, by decide!, by decide!, by decide!, by decide!⟩
  obtain ⟨w1, h1, _⟩ := @CurvePlug.addKey_clash_dv _ _ _ exSpare_reachable.inv.wf.linked 0
    2 1 (by decide!) (by decide!)
  have e : exSpareAdded = w1 := by unfold exSpareAdded; rw [h1]; rfl
  rw [e]; exact h1

/-! ### Sorted containers by their members -/

theorem head?_sorted_le (tk : KeyId → α) {l : List KeyId} (hs : (l.map tk).Pairwise (· < ·))
    {k : KeyId} (hk : l.head? = some k) : ∀ x ∈ l, tk k ≤ tk x := by
  cases l with
  | nil => simp at hk
  | cons a as =>
    simp only [List.head?_cons, Option.some.injEq] at hk
    subst hk
    simp only [List.map_cons, List.pairwise_cons, List.mem_map, forall_exists_index, and_imp,
      forall_apply_eq_imp_iff₂] at hs
    intro x hx
    rcases List.mem_cons.1 hx with e | e
    · rw [e]
    · exact le_of_lt (hs.1 x e)

theorem head?_sorted_of_min (tk : KeyId → α) {l : List KeyId}
    (hs : (l.map tk).Pairwise (· < ·)) {k : KeyId} (hk : k ∈ l)
    (hmin : ∀ x ∈ l, tk k ≤ tk x) : l.head? = some k := by
  cases l with
  | nil => simp at hk
  | cons a as =>
    have h1 := head?_sorted_le tk hs (k := a) rfl k hk
    have h2 := hmin a (List.mem_cons_self _ _)
    have := time_injOn_of_sorted tk hs (List.mem_cons_self a as) hk (le_antisymm h1 h2)
    rw [this]; rfl

theorem getLast?_sorted_of_max (tk : KeyId → α) {l : List KeyId}
    (hs : (l.map tk).Pairwise (· < ·)) {k : KeyId} (hk : k ∈ l)
    (hmax : ∀ x ∈ l, tk x ≤ tk k) : l.getLast? = some k := by
  have hne : l ≠ [] := fun e => by rw [e] at hk; simp at hk
  rw [List.getLast?_eq_getLast _ hne]
  have h1 := getLast_mem_le tk hs hne k hk
  have h2 := hmax _ (List.getLast_mem hne)
  rw [time_injOn_of_sorted tk hs (List.getLast_mem hne) hk (le_antisymm h2 h1)]

theorem nextIn_sorted_gap (tk : KeyId → α) {l : List KeyId}
    (hs : (l.map tk).Pairwise (· < ·)) {a b : KeyId} (hn : nextIn a l = some b) :
    ∀ x ∈ l, ¬ (tk a < tk x ∧ tk x < tk b) := by
  induction l with
  | nil => simp [nextIn] at hn
  | cons x0 xs ih =>
    have hs0 := hs
    simp only [List.map_cons, List.pairwise_cons, List.mem_map, forall_exists_index, and_imp,
      forall_apply_eq_imp_iff₂] at hs
    unfold nextIn at hn
    split_ifs at hn with h1
    · subst h1
      intro x hx hcon
      rcases List.mem_cons.1 hx with e | e
      · rw [e] at hcon; exact lt_irrefl _ hcon.1
      · have := head?_sorted_le tk hs.2 hn x e
        exact absurd hcon.2 (not_lt.2 this)
    · intro x hx hcon
      rcases List.mem_cons.1 hx with e | e
      · rw [e] at hcon
        have := hs.1 a (nextIn_mem_self hn)
        exact absurd hcon.1 (not_lt.2 (le_of_lt this))
      · exact ih hs.2 hn x e hcon

theorem nextIn_sorted_of_gap (tk : KeyId → α) {l : List KeyId}
    (hs : (l.map tk).Pairwise (· < ·)) {a b : KeyId} (ha : a ∈ l) (hb : b ∈ l)
    (hab : tk a < tk b) (hgap : ∀ x ∈ l, ¬ (tk a < tk x ∧ tk x < tk b)) :
    nextIn a l = some b := by
  have hnl : l.getLast? ≠ some a := by
    intro e
    have hne : l ≠ [] := fun e2 => by rw [e2] at ha; simp at ha
    have := getLast_mem_le tk hs hne b hb
    rw [List.getLast?_eq_getLast _ hne] at e
    rw [Option.some.inj e] at this
    exact absurd hab (not_lt.2 this)
  obtain ⟨n, hn⟩ := nextIn_of_not_last ha hnl
  have h1 := nextIn_sorted_lt tk hs hn
  have hnm := nextIn_mem hn
  rcases lt_trichotomy (tk n) (tk b) with h | h | h
  · exact absurd ⟨h1, h⟩ (hgap n hnm)
  · rw [hn, time_injOn_of_sorted tk hs hnm hb h]
  · exact absurd ⟨hab, h⟩ (nextIn_sorted_gap tk hs hn b hb)

/-! ### Evaluation of a segment in two heaps -/

theorem Key.core_fields {x y : Key α} (h : x.core = y.core) :
    x.m_parent = y.m_parent ∧ x.m_active = y.m_active ∧ x.m_time = y.m_time ∧
    x.m_value = y.m_value ∧ x.m_interpolator = y.m_interpolator ∧
    x.m_in.m_slope = y.m_in.m_slope ∧ x.m_in.m_scale = y.m_in.m_scale ∧
    x.m_out.m_slope = y.m_out.m_slope ∧ x.m_out.m_scale = y.m_out.m_scale :=
  ⟨(congrArg Key.m_parent h : x.core.m_parent = y.core.m_parent),
    (congrArg Key.m_active h : x.core.m_active = y.core.m_active),
    (congrArg Key.m_time h : x.core.m_time = y.core.m_time),
    (congrArg Key.m_value h : x.core.m_value = y.core.m_value),
    (congrArg Key.m_interpolator h : x.core.m_interpolator = y.core.m_interpolator),
    (congrArg (fun k => k.m_in.m_slope) h : x.core.m_in.m_slope = y.core.m_in.m_slope),
    (congrArg (fun k => k.m_in.m_scale) h : x.core.m_in.m_scale = y.core.m_in.m_scale),
    (congrArg (fun k => k.m_out.m_slope) h : x.core.m_out.m_slope = y.core.m_out.m_slope),
    (congrArg (fun k => k.m_out.m_scale) h : x.core.m_out.m_scale = y.core.m_out.m_scale)⟩

theorem getPosition_congr (ν : Numeric α) {a b : Heap α} {k : KeyId} {d : Direction}
    (relative : Bool)
    (h1 : ((a.key k).tangent d).m_dt = ((b.key k).tangent d).m_dt)
    (h2 : Tangent.getSlope a k d = Tangent.getSlope b k d)
    (h3 : Tangent.getScale ν a k d = Tangent.getScale ν b k d)
    (h4 : (a.key k).m_time = (b.key k).m_time) (h5 : (a.key k).m_value = (b.key k).m_value) :
    Tangent.getPosition ν a k d relative = Tangent.getPosition ν b k d relative := by
  unfold Tangent.getPosition
  rw [h1, h2, h3, h4, h5]

/-- The interpolator of a segment returns the same in two linked heaps with
right span widths in which the two keys are consecutive and agree up to their
cached spans. -/
theorem Interpolator.evaluate_segment_congr (μ : Numeric α) {a b : Heap α} (la : Linked a)
    (lb : Linked b) (oa : SpanOut a) (ob : SpanOut b) (ia : SpanIn a) (ib : SpanIn b)
    {c : CurveId} {lo hi : KeyId}
    (na : nextIn lo (a.curve c).m_keys = some hi) (nb : nextIn lo (b.curve c).m_keys = some hi)
    (clo : (a.key lo).core = (b.key lo).core) (chi : (a.key hi).core = (b.key hi).core)
    (nt dt : α) :
    Interpolator.evaluate μ a (a.key lo).m_interpolator lo hi nt dt =
      Interpolator.evaluate μ b (b.key lo).m_interpolator lo hi nt dt := by
  obtain ⟨_, _, tl, vl, il, _, _, sl, cl⟩ := Key.core_fields clo
  obtain ⟨_, _, th, vh, _, sh, ch, _, _⟩ := Key.core_fields chi
  rw [il]
  cases hi0 : (b.key lo).m_interpolator with
  | Constant => simp only [Interpolator.evaluate, InterpolatorConstant.evaluate, vl]
  | ConstantNext => simp only [Interpolator.evaluate, InterpolatorConstantNext.evaluate, vh]
  | Linear => simp only [Interpolator.evaluate, InterpolatorLinear.evaluate, vl, vh]
  | Cubic =>
    have ua : Interpolator.getHints (a.key lo).m_interpolator &&& Hint.UseSlope ≠ 0 := by
      rw [il, hi0]; decide
    have ub : Interpolator.getHints (b.key lo).m_interpolator &&& Hint.UseSlope ≠ 0 := by
      rw [hi0]; decide
    obtain ⟨a1, a2⟩ := la.getSlope_segment na ua
    obtain ⟨b1, b2⟩ := lb.getSlope_segment nb ub
    simp only [Interpolator.evaluate, InterpolatorCubic.evaluate, a1, a2, b1, b2, vl, vh, sl, sh]
  | Bezier =>
    have ua : Interpolator.getHints (a.key lo).m_interpolator &&& Hint.UseSlope ≠ 0 := by
      rw [il, hi0]; decide
    have ub : Interpolator.getHints (b.key lo).m_interpolator &&& Hint.UseSlope ≠ 0 := by
      rw [hi0]; decide
    have va : Interpolator.getHints (a.key lo).m_interpolator &&& Hint.UseScale ≠ 0 := by
      rw [il, hi0]; decide
    have vb : Interpolator.getHints (b.key lo).m_interpolator &&& Hint.UseScale ≠ 0 := by
      rw [hi0]; decide
    obtain ⟨a1, a2⟩ := la.getSlope_segment na ua
    obtain ⟨b1, b2⟩ := lb.getSlope_segment nb ub
    obtain ⟨a3, a4⟩ := la.getScale_segment μ na va
    obtain ⟨b3, b4⟩ := lb.getScale_segment μ nb vb
    have ta : a.time = fun x => (a.key x).m_time := rfl
    have d1 : ((a.key lo).tangent .Out).m_dt = ((b.key lo).tangent .Out).m_dt := by
      show (a.key lo).m_out.m_dt = (b.key lo).m_out.m_dt
      rw [oa c lo (nextIn_mem_self na), ob c lo (nextIn_mem_self nb)]
      unfold expectedOutDt
      rw [na, nb]
      simp only [Heap.time, tl, th]
    have d2 : ((a.key hi).tangent .In).m_dt = ((b.key hi).tangent .In).m_dt := by
      show (a.key hi).m_in.m_dt = (b.key hi).m_in.m_dt
      rw [ia c hi (nextIn_mem na), ib c hi (nextIn_mem nb)]
      unfold expectedInDt
      rw [prevIn_of_nextIn (la.nodup c) na, prevIn_of_nextIn (lb.nodup c) nb]
      simp only [Heap.time, tl, th]
    have p1 := getPosition_congr μ (a := a) (b := b) (k := lo) (d := .Out) false d1
      (by rw [a1, b1, sl]) (by rw [a3, b3, cl]) tl vl
    have p2 := getPosition_congr μ (a := a) (b := b) (k := hi) (d := .In) false d2
      (by rw [a2, b2, sh]) (by rw [a4, b4, ch]) th vh
    simp only [Interpolator.evaluate, InterpolatorBezier.evaluate, p1, p2, tl, th, vl, vh]

/-- Between two consecutive active keys of a linked heap with right span widths
`evaluate` calls the interpolator of the earlier key with the normalised time
and the span width. -/
theorem evaluate_span (μ : Numeric α) {h : Heap α} (hl : Linked h) (ho : SpanOut h)
    {c : CurveId} {lo hi : KeyId} (hn : nextIn lo (h.curve c).m_keys = some hi) {u : α}
    (h1 : (h.key lo).m_time < u) (h2 : u < (h.key hi).m_time) :
    CurvePlug.evaluate μ h c u =
      Interpolator.evaluate μ h (h.key lo).m_interpolator lo hi
        ((u - (h.key lo).m_time) / ((h.key hi).m_time - (h.key lo).m_time))
        ((h.key hi).m_time - (h.key lo).m_time) := by
  have hdt : (h.key lo).m_out.m_dt = (h.key hi).m_time - (h.key lo).m_time := by
    rw [ho c lo (nextIn_mem_self hn)]
    unfold expectedOutDt
    rw [hn]
    rfl
  have hpos : 0 < (h.key hi).m_time - (h.key lo).m_time := sub_pos.mpr (lt_trans h1 h2)
  rw [evaluate_between μ h c u (hl.sorted c) hn h1 h2, hdt, clamp_of_mem]
  · exact div_nonneg (le_of_lt (sub_pos.mpr h1)) (le_of_lt hpos)
  · rw [div_le_one hpos]
    exact sub_le_sub_right (le_of_lt h2) _

/-! ### Inserting a key in a linear segment -/

theorem linear_split_left {vl vh tl th t u e : α} (h1 : tl < t) (h2 : t < th)
    (he : e = vl * (1 - (t - tl) / (th - tl)) + vh * ((t - tl) / (th - tl))) :
    vl * (1 - (u - tl) / (t - tl)) + e * ((u - tl) / (t - tl)) =
      vl * (1 - (u - tl) / (th - tl)) + vh * ((u - tl) / (th - tl)) := by
  have d1 : t - tl ≠ 0 := ne_of_gt (sub_pos.2 h1)
  have d2 : th - tl ≠ 0 := ne_of_gt (sub_pos.2 (lt_trans h1 h2))
  subst he
  field_simp
  ring

theorem linear_split_right {vl vh tl th t u e : α} (h1 : tl < t) (h2 : t < th)
    (he : e = vl * (1 - (t - tl) / (th - tl)) + vh * ((t - tl) / (th - tl))) :
    e * (1 - (u - t) / (th - t)) + vh * ((u - t) / (th - t)) =
      vl * (1 - (u - tl) / (th - tl)) + vh * ((u - tl) / (th - tl)) := by
  have d1 : th - t ≠ 0 := ne_of_gt (sub_pos.2 h2)
  have d2 : th - tl ≠ 0 := ne_of_gt (sub_pos.2 (lt_trans h1 h2))
  subst he
  field_simp
  ring

/-- `insertKey( t )` strictly between two consecutive keys, the earlier with
Linear interpolation: the new key and what it leaves of the other keys. -/
theorem CurvePlug.insertKey_linear {ν : Numeric α} {w : Script α} (hr : Reachable ν w)
    (c : CurveId) (lo hi : KeyId) (t : α)
    (hn : nextIn lo (w.heap.curve c).m_keys = some hi)
    (h1 : (w.heap.key lo).m_time < t) (h2 : t < (w.heap.key hi).m_time)
    (hlin : (w.heap.key lo).m_interpolator = .Linear) :
    ∃ e w1, CurvePlug.evaluate ν w.heap c t = .ok e ∧
      CurvePlug.insertKey ν w c t = .ok (w1, some w.heap.keyCount) ∧
      (w1.heap.key w.heap.keyCount).m_time = t ∧
      (w1.heap.key w.heap.keyCount).m_value = e ∧
      (w1.heap.key w.heap.keyCount).m_interpolator = .Linear ∧
      (∀ x, x ∈ (w1.heap.curve c).m_keys ↔ x = w.heap.keyCount ∨ x ∈ (w.heap.curve c).m_keys) ∧
      (∀ x, x ≠ w.heap.keyCount → (w1.heap.key x).core = (w.heap.key x).core) := by
  have hl := hr.inv.wf.linked
  have hfree : ∀ y ∈ (w.heap.curve c).m_keys, (w.heap.key y).m_time ≠ t :=
    free_of_nextIn w.heap.time (hl.sorted c) hn h1 h2
  obtain ⟨⟨r, hlb⟩, hb⟩ := span_of_nextIn w.heap.time (hl.sorted c) hn h1 h2
  have hsp := insertKeySpan_free w.heap c t hfree
  rw [hlb, hb] at hsp
  have hev : ∃ e, CurvePlug.evaluate ν w.heap c t = .ok e := by
    rw [evaluate_between ν w.heap c t (hl.sorted c) hn h1 h2, hlin]
    exact ⟨_, rfl⟩
  obtain ⟨e, he⟩ := hev
  obtain ⟨w1, hs, hl1, f1, f2, f3, f4, f5, f6, _, _, _, f10, _⟩ :=
    CurvePlug.addKey_created ν hr.inv c t 0 e
      (CurvePlug.insertKeyInterpolator w.heap c (some lo))
      defaultSlope defaultScale defaultSlope defaultScale hfree
  have heN : CurvePlug.evaluate ν (Key.new ν w.heap t 0
      (CurvePlug.insertKeyInterpolator w.heap c (some lo))
      defaultSlope defaultScale defaultSlope defaultScale).1 c t = .ok e := by
    rw [(Key.new_sameBut ν hr.inv.wf t 0 _ _ _ _ _).evaluate_same ν c t]; exact he
  refine ⟨e, w1, he, ?_, f3, f4, by rw [f5]; exact hlin, f6, f10⟩
  unfold CurvePlug.insertKey CurvePlug.insertKeyInternal
  simp only [hsp, List.head?_cons, Option.isSome_some, Bool.and_self, Bool.not_true,
    Option.isNone_none, Bool.false_and, Bool.false_eq_true, if_false, if_true, Key.new_snd,
    Option.getD_none, bind, Except.bind, pure, Except.pure, heN, hs]

/-- C38: in every reachable state, for a time `t` strictly between two
consecutive active keys `lo`, `hi` of a curve where `lo` has Linear
interpolation, `insertKey( t )` with no explicit value returns a new key and
leaves the shape of the whole curve unchanged: for every time `u`,
`evaluate( u )` after the insertion is `evaluate( u )` before it (in exact
arithmetic). -/
theorem C38_insertKey_linear_keeps_shape {ν μ : Numeric α} {w : Script α}
    (hr : Reachable ν w) (c : CurveId) (lo hi : KeyId) (t : α)
    (hn : nextIn lo (w.heap.curve c).m_keys = some hi)
    (h1 : (w.heap.key lo).m_time < t) (h2 : t < (w.heap.key hi).m_time)
    (hlin : (w.heap.key lo).m_interpolator = .Linear) :
    ∃ w1 k, CurvePlug.insertKey ν w c t = .ok (w1, some k) ∧
      ∀ u, CurvePlug.evaluate μ w1.heap c u = CurvePlug.evaluate μ w.heap c u := by
  obtain ⟨e, w1, he, hs, f3, f4, f5, M, C⟩ := CurvePlug.insertKey_linear hr c lo hi t hn h1 h2 hlin
  refine ⟨w1, w.heap.keyCount, hs, ?_⟩
  have hr1 : Reachable ν w1 := Reachable.insertKey c t none (some w.heap.keyCount) hr hs
  have hl := hr.inv.wf.linked
  have hl1 := hr1.inv.wf.linked
  have S := hl.sorted c
  have S1 := hl1.sorted c
  have O := hr.spanOut
  have O1 := hr1.spanOut
  have hlo := nextIn_mem_self hn
  have hhi := nextIn_mem hn
  have hk : ∀ x ∈ (w.heap.curve c).m_keys, x ≠ w.heap.keyCount :=
    fun x hx => ne_of_lt (hr.inv.wf.lt_keyCount hx)
  have T : ∀ x, x ≠ w.heap.keyCount → w1.heap.time x = w.heap.time x :=
    fun x hx => (Key.core_fields (C x hx)).2.2.1
  have V : ∀ x, x ≠ w.heap.keyCount → (w1.heap.key x).m_value = (w.heap.key x).m_value :=
    fun x hx => (Key.core_fields (C x hx)).2.2.2.1
  have Tk : w1.heap.time w.heap.keyCount = t := f3
  have hmem : ∀ x ∈ (w.heap.curve c).m_keys, x ∈ (w1.heap.curve c).m_keys :=
    fun x hx => (M x).2 (Or.inr hx)
  have hkm : w.heap.keyCount ∈ (w1.heap.curve c).m_keys := (M _).2 (Or.inl rfl)
  have gap := nextIn_sorted_gap w.heap.time S hn
  have h1' : w.heap.time lo < t := h1
  have h2' : t < w.heap.time hi := h2
  -- the value of the new key
  have hev : e = (w.heap.key lo).m_value *
        (1 - (t - (w.heap.key lo).m_time) / ((w.heap.key hi).m_time - (w.heap.key lo).m_time)) +
      (w.heap.key hi).m_value *
        ((t - (w.heap.key lo).m_time) / ((w.heap.key hi).m_time - (w.heap.key lo).m_time)) := by
    rw [evaluate_span ν hl O hn h1 h2, hlin] at he
    simp only [Interpolator.evaluate, InterpolatorLinear.evaluate, Except.ok.injEq] at he
    exact he.symm
  -- the two new segments
  have N2a : nextIn lo (w1.heap.curve c).m_keys = some w.heap.keyCount := by
    apply nextIn_sorted_of_gap w1.heap.time S1 (hmem lo hlo) hkm
    · rw [T lo (hk lo hlo), Tk]; exact h1'
    · intro x hx hcon
      rcases (M x).1 hx with e1 | e1
      · rw [e1] at hcon; exact lt_irrefl _ hcon.2
      · rw [T lo (hk lo hlo), T x (hk x e1), Tk] at hcon
        exact gap x e1 ⟨hcon.1, lt_trans hcon.2 h2'⟩
  have N2b : nextIn w.heap.keyCount (w1.heap.curve c).m_keys = some hi := by
    apply nextIn_sorted_of_gap w1.heap.time S1 hkm (hmem hi hhi)
    · rw [T hi (hk hi hhi), Tk]; exact h2'
    · intro x hx hcon
      rcases (M x).1 hx with e1 | e1
      · rw [e1] at hcon; exact lt_irrefl _ hcon.1
      · rw [T hi (hk hi hhi), T x (hk x e1), Tk] at hcon
        exact gap x e1 ⟨lt_trans h1' hcon.1, hcon.2⟩
  -- every other segment stays
  have N1 : ∀ a b, nextIn a (w.heap.curve c).m_keys = some b → a ≠ lo →
      nextIn a (w1.heap.curve c).m_keys = some b := by
    intro a b hab hne
    have ha := nextIn_mem_self hab
    have hb := nextIn_mem hab
    have gab := nextIn_sorted_gap w.heap.time S hab
    apply nextIn_sorted_of_gap w1.heap.time S1 (hmem a ha) (hmem b hb)
    · rw [T a (hk a ha), T b (hk b hb)]
      exact nextIn_sorted_lt w.heap.time S hab
    · intro x hx hcon
      rw [T a (hk a ha), T b (hk b hb)] at hcon
      rcases (M x).1 hx with e1 | e1
      · rw [e1, Tk] at hcon
        have q1 : w.heap.time lo ≤ w.heap.time a := by
          by_contra hc
          exact gab lo hlo ⟨not_le.1 hc, lt_trans h1' hcon.2⟩
        have q2 : w.heap.time a ≤ w.heap.time lo := by
          by_contra hc
          exact gap a ha ⟨not_le.1 hc, lt_trans hcon.1 h2'⟩
        exact hne (time_injOn_of_sorted w.heap.time S ha hlo (le_antisymm q2 q1))
      · rw [T x (hk x e1)] at hcon
        exact gab x e1 hcon
  intro u
  cases hlb : lower_bound w.heap.time u (w.heap.curve c).m_keys with
  | nil =>
    -- after the final key
    have hall := lower_bound_nil_imp w.heap.time u hlb
    have hne : (w.heap.curve c).m_keys ≠ [] := fun e1 => by rw [e1] at hlo; simp at hlo
    have hf : CurvePlug.finalKey w.heap c =
        some ((w.heap.curve c).m_keys.getLast hne) := List.getLast?_eq_getLast _ hne
    have hlm := List.getLast_mem hne
    have hmax := getLast_mem_le w.heap.time S hne
    have hf1 : CurvePlug.finalKey w1.heap c =
        some ((w.heap.curve c).m_keys.getLast hne) := by
      apply getLast?_sorted_of_max w1.heap.time S1 (hmem _ hlm)
      intro x hx
      rw [T _ (hk _ hlm)]
      rcases (M x).1 hx with e1 | e1
      · rw [e1, Tk]; exact le_trans (le_of_lt h2') (hmax hi hhi)
      · rw [T x (hk x e1)]; exact hmax x e1
    rw [evaluate_ge_final μ w.heap c u S hf (le_of_lt (hall _ hlm)),
      evaluate_ge_final μ w1.heap c u S1 hf1
        (by rw [T _ (hk _ hlm)]; exact le_of_lt (hall _ hlm)), V _ (hk _ hlm)]
  | cons hi' r =>
    have hhm : hi' ∈ (w.heap.curve c).m_keys :=
      lower_bound_sublist w.heap.time u _ hi' (by rw [hlb]; exact List.mem_cons_self _ _)
    have hge : u ≤ w.heap.time hi' :=
      lower_bound_ge w.heap.time u S hi' (by rw [hlb]; exact List.mem_cons_self _ _)
    cases hb : (before_lower_bound w.heap.time u (w.heap.curve c).m_keys).getLast? with
    | none =>
      -- at or before the first key
      have hbe : before_lower_bound w.heap.time u (w.heap.curve c).m_keys = [] :=
        List.getLast?_eq_none_iff.1 hb
      have hlist := before_append_lower_bound w.heap.time u (w.heap.curve c).m_keys
      rw [hbe, hlb, List.nil_append] at hlist
      have hf : CurvePlug.firstKey w.heap c = some hi' := by
        unfold CurvePlug.firstKey; rw [← hlist]; rfl
      have hmin := head?_sorted_le w.heap.time S hf
      have hf1 : CurvePlug.firstKey w1.heap c = some hi' := by
        apply head?_sorted_of_min w1.heap.time S1 (hmem _ hhm)
        intro x hx
        rw [T _ (hk _ hhm)]
        rcases (M x).1 hx with e1 | e1
        · rw [e1, Tk]; exact le_trans (hmin lo hlo) (le_of_lt h1')
        · rw [T x (hk x e1)]; exact hmin x e1
      rw [evaluate_le_first μ w.heap c u hf hge,
        evaluate_le_first μ w1.heap c u hf1 (by rw [T _ (hk _ hhm)]; exact hge),
        V _ (hk _ hhm)]
    | some lo' =>
      by_cases hu : w.heap.time hi' = u
      · -- at a key
        have a1 := evaluate_at_key μ w.heap c S hhm
        have a2 := evaluate_at_key μ w1.heap c S1 (hmem _ hhm)
        rw [T _ (hk _ hhm)] at a2
        rw [hu] at a1 a2
        rw [a1, a2, V _ (hk _ hhm)]
      · have hn' := nextIn_of_span w.heap.time S hlb hb
        have hlm := nextIn_mem_self hn'
        have u1 : w.heap.time lo' < u :=
          (mem_before_lower_bound_imp w.heap.time u (List.mem_of_getLast?_eq_some hb)).2
        have u2 : u < w.heap.time hi' := lt_of_le_of_ne hge (Ne.symm hu)
        by_cases hseg : lo' = lo
        · subst hseg
          have ehi : hi' = hi := by
            rw [hn] at hn'; exact (Option.some.inj hn').symm
          subst ehi
          rw [evaluate_span μ hl O hn u1 u2, hlin]
          simp only [Interpolator.evaluate, InterpolatorLinear.evaluate]
          rcases lt_trichotomy u t with q | q | q
          · have b1 : (w1.heap.key lo').m_time < u := by
              have := T lo' (hk lo' hlo)
              simp only [Heap.time] at this
              rw [this]; exact u1
            have b2 : u < (w1.heap.key w.heap.keyCount).m_time := by rw [f3]; exact q
            rw [evaluate_span μ hl1 O1 N2a b1 b2]
            have il : (w1.heap.key lo').m_interpolator = .Linear := by
              rw [(Key.core_fields (C lo' (hk lo' hlo))).2.2.2.2.1]; exact hlin
            have tl : (w1.heap.key lo').m_time = (w.heap.key lo').m_time :=
              T lo' (hk lo' hlo)
            rw [il]
            simp only [Interpolator.evaluate, InterpolatorLinear.evaluate, f3, f4, tl,
              V lo' (hk lo' hlo)]
            exact congrArg Except.ok (linear_split_left h1 h2 hev)
          · have a2 := evaluate_at_key μ w1.heap c S1 hkm
            rw [Tk] at a2
            rw [q, a2, f4, hev]
          · have b1 : (w1.heap.key w.heap.keyCount).m_time < u := by rw [f3]; exact q
            have b2 : u < (w1.heap.key hi').m_time := by
              have := T hi' (hk hi' hhi)
              simp only [Heap.time] at this
              rw [this]; exact u2
            rw [evaluate_span μ hl1 O1 N2b b1 b2]
            have th : (w1.heap.key hi').m_time = (w.heap.key hi').m_time :=
              T hi' (hk hi' hhi)
            rw [f5]
            simp only [Interpolator.evaluate, InterpolatorLinear.evaluate, f3, f4, th,
              V hi' (hk hi' hhi)]
            exact congrArg Except.ok (linear_split_right h1 h2 hev)
        · have n1 := N1 lo' hi' hn' hseg
          have tl : (w1.heap.key lo').m_time = (w.heap.key lo').m_time := T lo' (hk lo' hlm)
          have th : (w1.heap.key hi').m_time = (w.heap.key hi').m_time := T hi' (hk hi' hhm)
          rw [evaluate_span μ hl O hn' u1 u2,
            evaluate_span μ hl1 O1 n1 (by rw [tl]; exact u1) (by rw [th]; exact u2), tl, th]
          exact Interpolator.evaluate_segment_congr μ hl1 hl O1 O hr1.spanIn hr.spanIn n1 hn'
            (C lo' (hk lo' hlm)) (C hi' (hk hi' hhm)) _ _

/-- C38 on the curve with the keys (0, 0) and (1, 10), the first with Linear
interpolation, for `insertKey( 1/2 )`. -/
theorem C38_insertKey_linear_keeps_shape_witness :
    ∃ w1 k, CurvePlug.insertKey exampleNumeric exLinear 0 (1 / 2) = .ok (w1, some k) ∧
      ∀ u, CurvePlug.evaluate exampleNumeric w1.heap 0 u =
        CurvePlug.evaluate exampleNumeric exLinear.heap 0 u :=
  C38_insertKey_linear_keeps_shape exLinear_reachable 0 0 1 (1 / 2) (by decide!) (by decide!)
    (by decide!) (by decide!)

/-! ### The Bezier solver with a rounded square root -/

theorem Except.eq_error_of_messageOf {β : Type} {x : Except String β} {e : String}
    (h : Except.messageOf x = some e) : x = .error e := by
  cases x with
  | error m =>
    simp only [Except.messageOf, Option.some.injEq] at h
    rw [h]
  | ok v => simp [Except.messageOf] at h

/-- The time-cubic of a Bezier segment with control times in `[0, 1]` is
monotonic on `[0, 1]`. -/
theorem timeCubic_monotone {tl th : α} (h1 : 0 ≤ tl) (h2 : tl ≤ 1) (h3 : 0 ≤ th) (h4 : th ≤ 1)
    {s1 s2 : α} (hs0 : 0 ≤ s1) (hs : s1 ≤ s2) (hs1 : s2 ≤ 1) :
    timeCubic tl th s1 ≤ timeCubic tl th s2 := by
  have a1 : 0 ≤ 1 - tl := sub_nonneg.mpr h2
  have a2 : 0 ≤ 1 - th := sub_nonneg.mpr h4
  have b0 : 0 ≤ s2 := le_trans hs0 hs
  have b1 : s1 ≤ 1 := le_trans hs hs1
  have c1 : 0 ≤ 1 - s1 := sub_nonneg.mpr b1
  have c2 : 0 ≤ 1 - s2 := sub_nonneg.mpr hs1
  have P1 : 0 ≤ s1 * s1 + s1 * s2 + s2 * s2 :=
    add_nonneg (add_nonneg (mul_self_nonneg _) (mul_nonneg hs0 b0)) (mul_self_nonneg _)
  have P2 : 0 ≤ (1 - 2 * s1) * (1 - 2 * s1) + (1 - 2 * s1) * (1 - 2 * s2) +
      (1 - 2 * s2) * (1 - 2 * s2) := by
    nlinarith [mul_self_nonneg ((1 - 2 * s1) + (1 - 2 * s2)), mul_self_nonneg (1 - 2 * s1),
      mul_self_nonneg (1 - 2 * s2)]
  have P3 : 0 ≤ 3 * (s1 + s2) - 2 * (s1 * s1 + s1 * s2 + s2 * s2) := by
    have e : 3 * (s1 + s2) - 2 * (s1 * s1 + s1 * s2 + s2 * s2) =
        2 * (s1 * (1 - s1)) + 2 * (s2 * (1 - s2)) + (s1 * (1 - s2) + s2 * (1 - s1)) := by ring
    rw [e]
    have := mul_nonneg hs0 c1
    have := mul_nonneg b0 c2
    have := mul_nonneg hs0 c2
    have := mul_nonneg b0 c1
    linarith
  have P4 : 0 ≤ (1 - s1) * (1 - s1) + (1 - s1) * (1 - s2) + (1 - s2) * (1 - s2) :=
    add_nonneg (add_nonneg (mul_self_nonneg _) (mul_nonneg c1 c2)) (mul_self_nonneg _)
  have e : timeCubic tl th s2 - timeCubic tl th s1 = (s2 - s1) *
      ((1 - tl) * (1 - th) * (s1 * s1 + s1 * s2 + s2 * s2) +
        tl * (1 - th) * ((1 - 2 * s1) * (1 - 2 * s1) + (1 - 2 * s1) * (1 - 2 * s2) +
          (1 - 2 * s2) * (1 - 2 * s2)) +
        (1 - tl) * th * (3 * (s1 + s2) - 2 * (s1 * s1 + s1 * s2 + s2 * s2)) +
        tl * th * ((1 - s1) * (1 - s1) + (1 - s1) * (1 - s2) + (1 - s2) * (1 - s2))) := by
    simp only [timeCubic, fma]
    ring
  have hq : 0 ≤ (1 - tl) * (1 - th) * (s1 * s1 + s1 * s2 + s2 * s2) +
        tl * (1 - th) * ((1 - 2 * s1) * (1 - 2 * s1) + (1 - 2 * s1) * (1 - 2 * s2) +
          (1 - 2 * s2) * (1 - 2 * s2)) +
        (1 - tl) * th * (3 * (s1 + s2) - 2 * (s1 * s1 + s1 * s2 + s2 * s2)) +
        tl * th * ((1 - s1) * (1 - s1) + (1 - s1) * (1 - s2) + (1 - s2) * (1 - s2)) :=
    add_nonneg (add_nonneg (add_nonneg (mul_nonneg (mul_nonneg a1 a2) P1)
      (mul_nonneg (mul_nonneg h1 a2) P2)) (mul_nonneg (mul_nonneg a1 h3) P3))
      (mul_nonneg (mul_nonneg h1 h3) P4)
  have := mul_nonneg (sub_nonneg.mpr hs) hq
  rw [← e] at this
  linarith

theorem exRounded_reachable : Reachable doubleNumeric exRounded :=
  ((((Reachable.init.afterRet_insertKeyValue 0 0 0).afterRet_insertKeyValue 0 1 10).after_setScale
    0 .Out (3 / 20) false (by decide!)).after_setScale 1 .In 0 false (by decide!))

theorem exRoundTwo_reachable : Reachable doubleNumeric exRoundTwo :=
  (Reachable.init.afterRet_insertKeyValue 0 0 0).afterRet_insertKeyValue 0 1 10

theorem solveForTime_rounded : solveForTime doubleNumeric (3 / 20) 1 (1 / 2) = .error
    "Animation : Bezier interpolation mode : curve segment has multiple values for given time." :=
  Except.eq_error_of_messageOf (by decide!)

theorem exRounded_evaluate : CurvePlug.evaluate doubleNumeric exRounded.heap 0 (1 / 2) = .error
    "Animation : Bezier interpolation mode : curve segment has multiple values for given time." :=
  Except.eq_error_of_messageOf (by decide!)

/-- With the control times 3/20 and 1 the derivative of the time-cubic is
`(1 - s) (93 s + 9) / 20`. -/
theorem timeCubic_derivative_rounded (s : ℚ) :
    (9 * (3 / 20) - 9 * 1 + 3) * s * s + (6 * 1 - 12 * (3 / 20)) * s + 3 * (3 / 20) =
      (1 - s) * (93 * s + 9) / 20 := by ring

/-- C13 fails for the program's arithmetic: with the square root rounded to 53
significant bits, `solveForTime` throws for the control times `tl = 3/20` and
`th = 1` at the normalised time 1/2, although both lie in `[0, 1]`, the
time-cubic is monotonic on `[0, 1]` and its derivative has no root strictly
inside `(0, 1)`.  The discriminant is 2601/100, its root 51/10 is rounded to
2871044762448691 / 2^49, just below, so that `s1 = q / at3` falls just below
the derivative root at `s = 1`.  These are the control times of the curve
`exRounded`, on which the Bezier interpolator therefore throws. -/
theorem C13_counterexample :
    (0 : ℚ) ≤ 3 / 20 ∧ (3 / 20 : ℚ) ≤ 1 ∧
    (∀ s1 s2 : ℚ, 0 ≤ s1 → s1 ≤ s2 → s2 ≤ 1 →
      timeCubic (3 / 20) 1 s1 ≤ timeCubic (3 / 20) 1 s2) ∧
    (∀ s : ℚ, 0 < s → s < 1 →
      (9 * (3 / 20) - 9 * 1 + 3) * s * s + (6 * 1 - 12 * (3 / 20)) * s + 3 * (3 / 20) ≠ 0) ∧
    sqrtDouble (2601 / 100) = 2871044762448691 / 562949953421312 ∧
    (2871044762448691 / 562949953421312 : ℚ) < 51 / 10 ∧
    solveForTime doubleNumeric (3 / 20) 1 (1 / 2) = .error
      "Animation : Bezier interpolation mode : curve segment has multiple values for given time." ∧
    Reachable doubleNumeric exRounded ∧
    clamp (((Tangent.getPosition doubleNumeric exRounded.heap 0 .Out false).1 -
      (exRounded.heap.key 0).m_time) / 1) 0 1 = 3 / 20 ∧
    clamp (((Tangent.getPosition doubleNumeric exRounded.heap 1 .In false).1 -
      (exRounded.heap.key 1).m_time) / 1 + 1) 0 1 = 1 ∧
    InterpolatorBezier.evaluate doubleNumeric exRounded.heap 0 1 (1 / 2) 1 = .error
      "Animation : Bezier interpolation mode : curve segment has multiple values for given time." := by
  refine ⟨by norm_num, by norm_num, ?_, ?_, by decide!, by norm_num, solveForTime_rounded,
    exRounded_reachable, by decide!, by decide!, Except.eq_error_of_messageOf (by decide!)⟩
  · intro s1 s2 h0 h h1
    exact timeCubic_monotone (by norm_num) (by norm_num) (by norm_num) (by norm_num) h0 h h1
  · intro s h0 h1
    rw [timeCubic_derivative_rounded]
    have a : 0 < 1 - s := sub_pos.mpr h1
    have b : 0 < 93 * s + 9 := by linarith
    exact ne_of_gt (div_pos (mul_pos a b) (by norm_num))

/-- Insertion without a value strictly between two consecutive active keys, in
terms of the result of `evaluate` before the call: a value makes `insertKey`
construct a key with that value and add it to the active keys of a heap that is
linked again, an error is passed on. -/
theorem CurvePlug.insertKey_between_of {ν : Numeric α} {w : Script α} (hr : Reachable ν w)
    (c : CurveId) (lo hi : KeyId) (t : α)
    (hn : nextIn lo (w.heap.curve c).m_keys = some hi)
    (h1 : (w.heap.key lo).m_time < t) (h2 : t < (w.heap.key hi).m_time) :
    (∀ e, CurvePlug.evaluate ν w.heap c t = .ok e →
      ∃ w1, CurvePlug.insertKey ν w c t = .ok (w1, some w.heap.keyCount) ∧
        (w1.heap.key w.heap.keyCount).m_parent = some c ∧
        (w1.heap.key w.heap.keyCount).m_active = true ∧
        (w1.heap.key w.heap.keyCount).m_time = t ∧
        (w1.heap.key w.heap.keyCount).m_value = e ∧
        (∀ x, x ∈ (w1.heap.curve c).m_keys ↔
          x = w.heap.keyCount ∨ x ∈ (w.heap.curve c).m_keys) ∧
        Linked w1.heap) ∧
    (∀ m, CurvePlug.evaluate ν w.heap c t = .error m →
      CurvePlug.insertKey ν w c t = .error m) := by
  have hl := hr.inv.wf.linked
  have hfree : ∀ y ∈ (w.heap.curve c).m_keys, (w.heap.key y).m_time ≠ t :=
    free_of_nextIn w.heap.time (hl.sorted c) hn h1 h2
  obtain ⟨⟨r, hlb⟩, hb⟩ := span_of_nextIn w.heap.time (hl.sorted c) hn h1 h2
  have hsp := insertKeySpan_free w.heap c t hfree
  rw [hlb, hb] at hsp
  have hsame : CurvePlug.evaluate ν (Key.new ν w.heap t 0
      (CurvePlug.insertKeyInterpolator w.heap c (some lo))
      defaultSlope defaultScale defaultSlope defaultScale).1 c t =
      CurvePlug.evaluate ν w.heap c t :=
    (Key.new_sameBut ν hr.inv.wf t 0 _ _ _ _ _).evaluate_same ν c t
  constructor
  · intro e he
    obtain ⟨w1, hs, hl1, f1, f2, f3, f4, _, f6, _⟩ :=
      CurvePlug.addKey_created ν hr.inv c t 0 e
        (CurvePlug.insertKeyInterpolator w.heap c (some lo))
        defaultSlope defaultScale defaultSlope defaultScale hfree
    have heN := hsame.trans he
    refine ⟨w1, ?_, f1, f2, f3, f4, f6, hl1⟩
    unfold CurvePlug.insertKey CurvePlug.insertKeyInternal
    simp only [hsp, List.head?_cons, Option.isSome_some, Bool.and_self, Bool.not_true,
      Option.isNone_none, Bool.false_and, Bool.false_eq_true, if_false, if_true, Key.new_snd,
      Option.getD_none, bind, Except.bind, pure, Except.pure, heN, hs]
  · intro m he
    have heN := hsame.trans he
    unfold CurvePlug.insertKey CurvePlug.insertKeyInternal
    simp only [hsp, List.head?_cons, Option.isSome_some, Bool.and_self, Bool.not_true,
      Option.isNone_none, Bool.false_and, Bool.false_eq_true, if_false, if_true, Key.new_snd,
      Option.getD_none, bind, Except.bind, pure, Except.pure, heN]

/-- Between two consecutive active keys `evaluate` returns a value when the
segment is not a Bezier segment or the square root is exact. -/
theorem CurvePlug.evaluate_between_returns {ν : Numeric α} {w : Script α} (hr : Reachable ν w)
    (c : CurveId) (lo hi : KeyId) (t : α)
    (hn : nextIn lo (w.heap.curve c).m_keys = some hi)
    (h1 : (w.heap.key lo).m_time < t) (h2 : t < (w.heap.key hi).m_time)
    (hsafe : (w.heap.key lo).m_interpolator ≠ .Bezier ∨
      ∀ x, 0 ≤ x → ν.sqrt x * ν.sqrt x = x) :
    ∃ e, CurvePlug.evaluate ν w.heap c t = .ok e := by
  obtain ⟨e, _, he, _⟩ := CurvePlug.insertKey_between hr c lo hi t hn h1 h2 hsafe
  exact ⟨e, he⟩

/-- C15 fails for the program's arithmetic: on the reachable curve `exRounded`
(Bezier keys (0, 0) and (1, 10), out scale 3/20, in scale 0) the time 1/2 lies
strictly between the two consecutive active keys, and with the square root
rounded as `std::sqrt` rounds it `insertKey( 1/2 )` returns no key: it throws
the error that `evaluate( 1/2 )` throws. -/
theorem C15_counterexample :
    Reachable doubleNumeric exRounded ∧
    nextIn 0 (exRounded.heap.curve 0).m_keys = some 1 ∧
    (exRounded.heap.key 0).m_time < 1 / 2 ∧ 1 / 2 < (exRounded.heap.key 1).m_time ∧
    CurvePlug.evaluate doubleNumeric exRounded.heap 0 (1 / 2) = .error
      "Animation : Bezier interpolation mode : curve segment has multiple values for given time." ∧
    CurvePlug.insertKey doubleNumeric exRounded 0 (1 / 2) = .error
      "Animation : Bezier interpolation mode : curve segment has multiple values for given time." :=
  ⟨exRounded_reachable, by decide!, by decide!, by decide!, exRounded_evaluate,
    Except.eq_error_of_messageOf (by decide!)⟩

/-- C15 as amended: in a reachable state, for a time `t` strictly between two
consecutive active keys `lo` and `hi` of a curve, `insertKey( t )` with no
explicit value does what `evaluate( t )` does before the call.  When
`evaluate( t )` returns a value `e`, `insertKey( t )` returns a newly
constructed key that is parented to the curve and active, has time `t` and the
value `e`, and is the one key added to the active keys, and `evaluate( t )`
after the insertion returns `e` again.  When `evaluate( t )` throws,
`insertKey( t )` throws the same error.  `evaluate( t )` returns a value when
the interpolation of `lo` is not Bezier, and for every interpolation when the
square root is exact. -/
theorem C15_insertKey_between_keys {ν : Numeric α} {w : Script α} (hr : Reachable ν w)
    (c : CurveId) (lo hi : KeyId) (t : α)
    (hn : nextIn lo (w.heap.curve c).m_keys = some hi)
    (h1 : (w.heap.key lo).m_time < t) (h2 : t < (w.heap.key hi).m_time) :
    (∀ e, CurvePlug.evaluate ν w.heap c t = .ok e →
      ∃ w1, CurvePlug.insertKey ν w c t = .ok (w1, some w.heap.keyCount) ∧
        (w1.heap.key w.heap.keyCount).m_parent = some c ∧
        (w1.heap.key w.heap.keyCount).m_active = true ∧
        (w1.heap.key w.heap.keyCount).m_time = t ∧
        (w1.heap.key w.heap.keyCount).m_value = e ∧
        (∀ x, x ∈ (w1.heap.curve c).m_keys ↔
          x = w.heap.keyCount ∨ x ∈ (w.heap.curve c).m_keys) ∧
        CurvePlug.evaluate ν w1.heap c t = .ok e) ∧
    (∀ m, CurvePlug.evaluate ν w.heap c t = .error m →
      CurvePlug.insertKey ν w c t = .error m) ∧
    (((w.heap.key lo).m_interpolator ≠ .Bezier ∨ ∀ x, 0 ≤ x → ν.sqrt x * ν.sqrt x = x) →
      ∃ e, CurvePlug.evaluate ν w.heap c t = .ok e) := by
  obtain ⟨hok, herr⟩ := CurvePlug.insertKey_between_of hr c lo hi t hn h1 h2
  refine ⟨fun e he => ?_, herr,
    fun hsafe => CurvePlug.evaluate_between_returns hr c lo hi t hn h1 h2 hsafe⟩
  obtain ⟨w1, hs, f1, f2, f3, f4, f6, hl1⟩ := hok e he
  refine ⟨w1, hs, f1, f2, f3, f4, f6, ?_⟩
  have hmem : w.heap.keyCount ∈ (w1.heap.curve c).m_keys := (f6 _).2 (Or.inl rfl)
  have hat := evaluate_at_key ν w1.heap c (hl1.sorted c) hmem
  rw [show w1.heap.time w.heap.keyCount = t from f3, f4] at hat
  exact hat

/-- C15 as amended on a Bezier segment, with the square root rounded as
`std::sqrt` rounds it: on the curve `exRoundTwo` with the Bezier keys (0, 0) and
(1, 10) and the default tangents `evaluate( 1/2 )` returns 5, and
`insertKey( 1/2 )` returns the new key 2 with the value 5. -/
theorem C15_insertKey_between_keys_witness :
    CurvePlug.evaluate doubleNumeric exRoundTwo.heap 0 (1 / 2) = .ok 5 ∧
    (exRoundTwo.heap.key 0).m_interpolator = .Bezier ∧
    ∃ w1, CurvePlug.insertKey doubleNumeric exRoundTwo 0 (1 / 2) =
        .ok (w1, some exRoundTwo.heap.keyCount) ∧
      (w1.heap.key exRoundTwo.heap.keyCount).m_parent = some 0 ∧
      (w1.heap.key exRoundTwo.heap.keyCount).m_active = true ∧
      (w1.heap.key exRoundTwo.heap.keyCount).m_time = 1 / 2 ∧
      (w1.heap.key exRoundTwo.heap.keyCount).m_value = 5 ∧
      (∀ x, x ∈ (w1.heap.curve 0).m_keys ↔
        x = exRoundTwo.heap.keyCount ∨ x ∈ (exRoundTwo.heap.curve 0).m_keys) ∧
      CurvePlug.evaluate doubleNumeric w1.heap 0 (1 / 2) = .ok 5 := by
  have he : CurvePlug.evaluate doubleNumeric exRoundTwo.heap 0 (1 / 2) = .ok 5 := by
    have h1 : Except.messageOf (CurvePlug.evaluate doubleNumeric exRoundTwo.heap 0 (1 / 2)) =
        none := by decide!
    cases hx : CurvePlug.evaluate doubleNumeric exRoundTwo.heap 0 (1 / 2) with
    | error m => rw [hx] at h1; cases h1
    | ok v =>
      have h2 : (CurvePlug.evaluate doubleNumeric exRoundTwo.heap 0 (1 / 2)).toOption =
          some 5 := by decide!
      rw [hx] at h2
      simp only [Except.toOption, Option.some.injEq] at h2
      rw [h2]
  exact ⟨he, by decide!, (C15_insertKey_between_keys exRoundTwo_reachable 0 0 1 (1 / 2)
    (by decide!) (by decide!) (by decide!)).1 5 he⟩

/-! ### Cached value differences through the tangent updates -/

theorem spanOutDv_of_core_eq {a b : Heap α} (hc : a.core = b.core) (k : KeyId) :
    spanOutDv a k = spanOutDv b k := by
  unfold spanOutDv
  rw [core_eq_parent hc, Key.nextKey_of_core_eq hc]
  simp only [core_eq_value hc]

theorem spanInDv_of_core_eq {a b : Heap α} (hc : a.core = b.core) (k : KeyId) :
    spanInDv a k = spanInDv b k := by
  unfold spanInDv
  rw [core_eq_parent hc, Key.prevKey_of_core_eq hc]
  simp only [core_eq_value hc]

theorem update_out_dv_self (h : Heap α) (k : KeyId) :
    ((Tangent.update h k .Out).key k).m_out.m_dv = spanOutDv h k := by
  unfold Tangent.update spanOutDv
  simp only [Heap.setKey_key, if_true]
  cases (h.key k).m_parent with
  | none => rfl
  | some c =>
    cases Key.nextKey h k <;> rfl

theorem update_in_dv_self (h : Heap α) (k : KeyId) :
    ((Tangent.update h k .In).key k).m_in.m_dv = spanInDv h k := by
  unfold Tangent.update spanInDv
  simp only [Heap.setKey_key, if_true]
  cases (h.key k).m_parent with
  | none => rfl
  | some c =>
    cases Key.prevKey h k <;> rfl

theorem update_out_dv_of_ne (h : Heap α) (k x : KeyId) (d : Direction)
    (hx : x ≠ k ∨ d ≠ .Out) :
    ((Tangent.update h k d).key x).m_out.m_dv = (h.key x).m_out.m_dv := by
  by_cases hxk : x = k
  · subst hxk
    cases d with
    | In => simp [Tangent.update]
    | Out => rcases hx with h1 | h1 <;> exact absurd rfl h1
  · cases d <;> simp [Tangent.update, hxk]

theorem update_in_dv_of_ne (h : Heap α) (k x : KeyId) (d : Direction)
    (hx : x ≠ k ∨ d ≠ .In) :
    ((Tangent.update h k d).key x).m_in.m_dv = (h.key x).m_in.m_dv := by
  by_cases hxk : x = k
  · subst hxk
    cases d with
    | Out => simp [Tangent.update]
    | In => rcases hx with h1 | h1 <;> exact absurd rfl h1
  · cases d <;> simp [Tangent.update, hxk]

theorem OutDvOK.update_dv {h : Heap α} {x : KeyId} (k : KeyId) (d : Direction)
    (hx : OutDvOK h x ∨ (x = k ∧ d = .Out)) : OutDvOK (Tangent.update h k d) x := by
  unfold OutDvOK
  rw [spanOutDv_of_core_eq (update_core h k d)]
  by_cases hc : x = k ∧ d = .Out
  · obtain ⟨h1, h2⟩ := hc
    subst h1 h2
    exact update_out_dv_self h x
  · have hne : x ≠ k ∨ d ≠ .Out := by
      by_cases h1 : x = k
      · exact Or.inr (fun h2 => hc ⟨h1, h2⟩)
      · exact Or.inl h1
    rw [update_out_dv_of_ne h k x d hne]
    rcases hx with h1 | h1
    · exact h1
    · exact absurd h1 hc

theorem InDvOK.update_in_dv {h : Heap α} {x : KeyId} (k : KeyId) (d : Direction)
    (hx : InDvOK h x ∨ (x = k ∧ d = .In)) : InDvOK (Tangent.update h k d) x := by
  unfold InDvOK
  rw [spanInDv_of_core_eq (update_core h k d)]
  by_cases hc : x = k ∧ d = .In
  · obtain ⟨h1, h2⟩ := hc
    subst h1 h2
    exact update_in_dv_self h x
  · have hne : x ≠ k ∨ d ≠ .In := by
      by_cases h1 : x = k
      · exact Or.inr (fun h2 => hc ⟨h1, h2⟩)
      · exact Or.inl h1
    rw [update_in_dv_of_ne h k x d hne]
    rcases hx with h1 | h1
    · exact h1
    · exact absurd h1 hc

theorem Upd.outDvOK {s : KeyId → Prop} {a b : Heap α} (hu : Upd s a b) :
    ∀ x, OutDvOK a x ∨ s x → OutDvOK b x := by
  induction hu with
  | refl h =>
    intro x hx
    rcases hx with h1 | h1
    · exact h1
    · exact absurd h1 id
  | update k d _ ih =>
    intro x hx
    apply OutDvOK.update_dv
    rcases hx with h1 | h1 | h1
    · exact Or.inl (ih x (Or.inl h1))
    · exact Or.inl (ih x (Or.inr h1))
    · exact Or.inr h1
  | weaken _ hst ih =>
    intro x hx
    rcases hx with h1 | h1
    · exact ih x (Or.inl h1)
    · exact ih x (Or.inr (hst x h1))

theorem UpdIn.inDvOK {s : KeyId → Prop} {a b : Heap α} (hu : UpdIn s a b) :
    ∀ x, InDvOK a x ∨ s x → InDvOK b x := by
  induction hu with
  | refl h =>
    intro x hx
    rcases hx with h1 | h1
    · exact h1
    · exact absurd h1 id
  | update k d _ ih =>
    intro x hx
    apply InDvOK.update_in_dv
    rcases hx with h1 | h1 | h1
    · exact Or.inl (ih x (Or.inl h1))
    · exact Or.inl (ih x (Or.inr h1))
    · exact Or.inr h1
  | weaken _ hst ih =>
    intro x hx
    rcases hx with h1 | h1
    · exact ih x (Or.inl h1)
    · exact ih x (Or.inr (hst x h1))

/-- For an active key of a linked heap, what `Tangent::update` stores is the
expected value difference. -/
theorem Linked.spanOutDv_eq {h : Heap α} (hl : Linked h) {c : CurveId} {k : KeyId}
    (hk : k ∈ (h.curve c).m_keys) : spanOutDv h k = expectedOutDv h c k := by
  obtain ⟨hp, ha⟩ := (hl.mem_keys c k).1 hk
  unfold spanOutDv expectedOutDv Key.nextKey
  simp only [hp, ha, if_true]

theorem Linked.spanInDv_eq {h : Heap α} (hl : Linked h) {c : CurveId} {k : KeyId}
    (hk : k ∈ (h.curve c).m_keys) : spanInDv h k = expectedInDv h c k := by
  obtain ⟨hp, ha⟩ := (hl.mem_keys c k).1 hk
  unfold spanInDv expectedInDv Key.prevKey
  simp only [hp, ha, if_true]

/-- The cached out value differences are carried through a closure when every
key whose value difference changed in the structural phase is updated. -/
theorem outDv_of_stable {h x1 h1 : Heap α} {s t : KeyId → Prop}
    (hst : OutDvStable h x1 s) (hl : Linked x1) (hu : Upd t x1 h1)
    (hcover : ∀ c x, x ∈ (x1.curve c).m_keys → s x → t x) : OutDvCarried h h1 := by
  intro c x hx hbefore hswap
  have hc := hu.core_eq
  have hx1 : x ∈ (x1.curve c).m_keys := by rw [← core_eq_curve hc]; exact hx
  have hl1 : Linked h1 := Linked.of_core_eq hc.symm hl
  rw [← hl1.spanOutDv_eq hx]
  apply hu.outDvOK
  by_cases hsx : s x
  · exact Or.inr (hcover c x hx1 hsx)
  · left
    have hswap1 : ∀ n n1, nextIn x (h.curve c).m_keys = some n →
        nextIn x (x1.curve c).m_keys = some n1 → n ≠ n1 → h.time n = x1.time n1 →
        (h.key n).m_value = (x1.key n1).m_value := by
      intro n n1 e1 e2 e3 e4
      rw [← core_eq_value hc n1]
      refine hswap n n1 e1 ?_ e3 ?_
      · rw [core_eq_curve hc]; exact e2
      · rw [core_eq_time hc]; exact e4
    obtain ⟨q1, q2, q3⟩ := hst c x hx1 hsx hswap1
    unfold OutDvOK
    rw [hl.spanOutDv_eq hx1, q2, q3]
    exact hbefore q1

/-- The cached in value differences are carried through a closure when every
key whose value difference changed in the structural phase is updated. -/
theorem inDv_of_stable {h x1 h1 : Heap α} {s t : KeyId → Prop}
    (hst : InDvStable h x1 s) (hl : Linked x1) (hu : UpdIn t x1 h1)
    (hcover : ∀ c x, x ∈ (x1.curve c).m_keys → s x → t x) : InDvCarried h h1 := by
  intro c x hx hbefore hswap
  have hc := hu.core_eq_in
  have hx1 : x ∈ (x1.curve c).m_keys := by rw [← core_eq_curve hc]; exact hx
  have hl1 : Linked h1 := Linked.of_core_eq hc.symm hl
  rw [← hl1.spanInDv_eq hx]
  apply hu.inDvOK
  by_cases hsx : s x
  · exact Or.inr (hcover c x hx1 hsx)
  · left
    have hswap1 : ∀ n n1, prevIn x (h.curve c).m_keys = some n →
        prevIn x (x1.curve c).m_keys = some n1 → n ≠ n1 → h.time n = x1.time n1 →
        (h.key n).m_value = (x1.key n1).m_value := by
      intro n n1 e1 e2 e3 e4
      rw [← core_eq_value hc n1]
      refine hswap n n1 e1 ?_ e3 ?_
      · rw [core_eq_curve hc]; exact e2
      · rw [core_eq_time hc]; exact e4
    obtain ⟨q1, q2, q3⟩ := hst c x hx1 hsx hswap1
    unfold InDvOK
    rw [hl.spanInDv_eq hx1, q2, q3]
    exact hbefore q1

theorem prevIn_sorted_lt (tk : KeyId → α) {x y : KeyId} {l : List KeyId}
    (hs : (l.map tk).Pairwise (· < ·)) (h : prevIn x l = some y) : tk y < tk x :=
  nextIn_sorted_lt tk hs (nextIn_of_prevIn (nodup_of_sorted_map tk hs) h)

/-- Where the structural phase of a closure leaves the expected span width of a
key as it was and changes neither tangents nor values, it leaves the expected
value difference as it was, unless the next key is replaced in its slot by a key
of another value. -/
theorem OutStable.dvStable {h x1 : Heap α} {s : KeyId → Prop} (O : OutStable h x1 s)
    (hl : Linked h) (hl1 : Linked x1) (hsame : SameCaches h x1)
    (htime : ∀ x, ¬ s x → x1.time x = h.time x) : OutDvStable h x1 s := by
  intro c x hx hsx hswap
  obtain ⟨q1, q2, q3⟩ := O c x hx hsx
  refine ⟨q1, ?_, by rw [(hsame x).2.1]⟩
  have htx := htime x hsx
  unfold expectedOutDt at q2
  unfold expectedOutDv
  cases e1 : nextIn x (x1.curve c).m_keys with
  | none =>
    cases e0 : nextIn x (h.curve c).m_keys with
    | none => rfl
    | some n =>
      exfalso
      rw [e1, e0] at q2
      have := nextIn_sorted_lt h.time (hl.sorted c) e0
      simp only at q2
      linarith
  | some n1 =>
    cases e0 : nextIn x (h.curve c).m_keys with
    | none =>
      exfalso
      rw [e1, e0] at q2
      have := nextIn_sorted_lt x1.time (hl1.sorted c) e1
      simp only at q2
      linarith
    | some n =>
      rw [e1, e0] at q2
      simp only at q2 ⊢
      have ht : h.time n = x1.time n1 := by linarith
      rw [(hsame x).2.2]
      by_cases hn : n = n1
      · subst hn
        rw [(hsame n).2.2]
      · rw [hswap n n1 e0 e1 hn ht]

theorem InStable.dvStable_in {h x1 : Heap α} {s : KeyId → Prop} (O : InStable h x1 s)
    (hl : Linked h) (hl1 : Linked x1) (hsame : SameCaches h x1)
    (htime : ∀ x, ¬ s x → x1.time x = h.time x) : InDvStable h x1 s := by
  intro c x hx hsx hswap
  obtain ⟨q1, q2, q3⟩ := O c x hx hsx
  refine ⟨q1, ?_, by rw [(hsame x).1]⟩
  have htx := htime x hsx
  unfold expectedInDt at q2
  unfold expectedInDv
  cases e1 : prevIn x (x1.curve c).m_keys with
  | none =>
    cases e0 : prevIn x (h.curve c).m_keys with
    | none => rfl
    | some n =>
      exfalso
      rw [e1, e0] at q2
      have := prevIn_sorted_lt h.time (hl.sorted c) e0
      simp only at q2
      linarith
  | some n1 =>
    cases e0 : prevIn x (h.curve c).m_keys with
    | none =>
      exfalso
      rw [e1, e0] at q2
      have := prevIn_sorted_lt x1.time (hl1.sorted c) e1
      simp only at q2
      linarith
    | some n =>
      rw [e1, e0] at q2
      simp only at q2 ⊢
      have ht : h.time n = x1.time n1 := by linarith
      rw [(hsame x).2.2]
      by_cases hn : n = n1
      · subst hn
        rw [(hsame n).2.2]
      · rw [hswap n n1 e0 e1 hn ht]

/-! ### Tangents and values through the structural phases -/

theorem SameCaches.rfl_same (h : Heap α) : SameCaches h h := fun _ => ⟨rfl, rfl, rfl⟩

theorem SameCaches.andThen_same {a b c : Heap α} (h1 : SameCaches a b) (h2 : SameCaches b c) :
    SameCaches a c :=
  fun x => ⟨(h2 x).1.trans (h1 x).1, (h2 x).2.1.trans (h1 x).2.1, (h2 x).2.2.trans (h1 x).2.2⟩

theorem unlink_sameCaches (c : CurveId) (a : Bool) (key : KeyId) (u : Option KeyId)
    (h : Heap α) : SameCaches h (unlink c a key u h) := by
  intro x
  rw [unlink_key]
  split_ifs <;> exact ⟨rfl, rfl, rfl⟩

theorem link_sameCaches (c : CurveId) (a : Bool) (key : KeyId) (u : Option KeyId)
    (h : Heap α) : SameCaches h (Animation.link c a key u h) := by
  intro x
  rw [link_key]
  split_ifs <;> exact ⟨rfl, rfl, rfl⟩

theorem setKey_sameCaches (h : Heap α) (key : KeyId) (v : Key α)
    (h1 : v.m_in = (h.key key).m_in) (h2 : v.m_out = (h.key key).m_out)
    (h3 : v.m_value = (h.key key).m_value) : SameCaches h (h.setKey key v) := by
  intro x
  rw [Heap.setKey_key]
  split_ifs with hx
  · subst hx; exact ⟨h1, h2, h3⟩
  · exact ⟨rfl, rfl, rfl⟩

theorem setKey_time_of_same (h : Heap α) (key : KeyId) (v : Key α)
    (hv : v.m_time = (h.key key).m_time) (x : KeyId) : (h.setKey key v).time x = h.time x := by
  rw [Heap.time_setKey]
  split_ifs with e
  · rw [e, hv]; rfl
  · rfl

theorem setKey_link_time (c : CurveId) (a : Bool) (key : KeyId) (u : Option KeyId)
    (h : Heap α) (v : Key α) (hv : v.m_time = ((Animation.link c a key u h).key key).m_time)
    (x : KeyId) : ((Animation.link c a key u h).setKey key v).time x = h.time x := by
  rw [setKey_time_of_same _ key v hv x, link_time]

theorem setKey_unlink_time (c : CurveId) (a : Bool) (key : KeyId) (u : Option KeyId)
    (h : Heap α) (v : Key α) (hv : v.m_time = ((unlink c a key u h).key key).m_time)
    (x : KeyId) : ((unlink c a key u h).setKey key v).time x = h.time x := by
  rw [setKey_time_of_same _ key v hv x, unlink_time]

theorem retime_sameCaches (c : CurveId) (a b : Bool) (key : KeyId) (ul ut : Option KeyId)
    (t : α) (h : Heap α) :
    SameCaches h (Animation.link c b key ut
      (((unlink c a key ul h).setTime key t).setActive key b)) := by
  refine ((unlink_sameCaches c a key ul h).andThen_same ?_).andThen_same
    (link_sameCaches c b key ut _)
  rw [Heap.setTime_setActive_eq]
  exact setKey_sameCaches _ key _ rfl rfl rfl

theorem retime_time_of_ne (c : CurveId) (a b : Bool) (key : KeyId) (ul ut : Option KeyId)
    (t : α) (h : Heap α) {x : KeyId} (hx : x ≠ key) :
    (Animation.link c b key ut
      (((unlink c a key ul h).setTime key t).setActive key b)).time x = h.time x := by
  rw [link_time, Heap.setTime_setActive_eq, Heap.time_setKey, if_neg hx, unlink_time]

/-! ### Cached value differences through the closures -/

/-- The Do closure of `setTime` carries the cached out value differences. -/
theorem setTimeDo_outDv {h h1 : Heap α} (hl : Linked h) {c : CurveId}
    {time previousTime : α} {active : Bool} {key : KeyId} {ck ci : Option KeyId}
    (hne : time ≠ previousTime)
    (hfree : ck = none → ∀ y ∈ (h.curve c).m_keys, h.time y ≠ time)
    (hdo : setTimeDo c time previousTime active key ck ci h = .ok h1) : OutDvCarried h h1 := by
  obtain ⟨S1, S2, S3, hc1⟩ := setTimeDo_ok hdo
  obtain ⟨t, hu, hcov⟩ := setTimeDo_upd hdo
  rw [setTimeDoLink_eq] at hu hcov
  have hfree1 : true = true → ck = none →
      ∀ y ∈ ((unlink c active key ci h).curve c).m_keys, h.time y ≠ time := by
    intro _ hck y hy
    simp only [unlink_keys, if_true] at hy
    rcases mem_unlinkKeys hy with hy | hy
    · exact hfree hck y hy
    · have := (S2 y hy).2.2
      rw [Heap.time, this]; exact hne.symm
  have mid := retime_mid hl S1 (fun _ => S2) (fun _ => S3) hne hfree1
  have hL := mid.2.2.2.2.2
  have O := retime_outStable hl S1 (fun _ => S2) (fun _ => S3) hne hfree1
  refine outDv_of_stable
    (O.dvStable hl hL (retime_sameCaches c active true key ci ck time h)
      (fun x hx => retime_time_of_ne c active true key ci ck time h (fun e => hx (Or.inl e))))
    hL hu (fun cv x hx hsx => hcov x ?_)
  rcases hsx with h1 | ⟨ha, h1 | ⟨h1, h2⟩⟩ | ⟨_, h1 | ⟨h1, h2⟩⟩
  · exact Or.inl h1
  · exact Or.inr (Or.inl h1)
  · right; right; left
    subst ha
    exact ⟨h1, by rw [Key.prevKey_eq S1.1 S1.2.1]; exact h2⟩
  · exfalso
    have hact := ((hL.mem_keys cv x).1 hx).2
    rw [link_active] at hact
    simp [h1] at hact
  · right; right; right
    exact ⟨h1, hL.prevKey_of_prevIn h2⟩

/-- The Do closure of `addKey` carries the cached out value differences. -/
theorem addKeyDo_outDv {h h1 : Heap α} (hl : Linked h) {this : CurveId}
    {key : KeyId} {ck : Option KeyId} {time : α}
    (hfree : ck = none → ∀ y ∈ (h.curve this).m_keys, h.time y ≠ time)
    (hdo : addKeyDo this key ck time h = .ok h1) : OutDvCarried h h1 := by
  obtain ⟨S1, S2, hc1⟩ := addKeyDo_ok hdo
  obtain ⟨t, hu, hcov⟩ := addKeyDo_upd hdo
  obtain ⟨p1, p2, p3⟩ := S1
  have ht : time = h.time key := p3.symm
  subst ht
  rw [addKeyDoLink_eq, Heap.setParent_setActive_eq] at hc1 hu hcov
  have hne : ck ≠ some key := by
    intro e
    have := (S2 key e).1
    rw [p1] at this; cases this
  have hL := (hl.except p1).link_linked this true ck
    { (Animation.link this true key ck h).key key with m_parent := some this, m_active := true }
    (by simp [Heap.time]) rfl rfl (fun _ => S2) (fun _ => hne) (fun _ => hfree)
  have O1 := (hl.except p1).link_outStable this true ck (fun _ => S2) (by
    have := hL.nodup this
    simpa only [Heap.setKey_curve] using this)
  have O2 := setKey_outStable_of_time (Animation.link this true key ck h) key
    { (Animation.link this true key ck h).key key with m_parent := some this, m_active := true }
    (by simp [Heap.time])
  refine outDv_of_stable
    ((O1.andThen O2).dvStable hl hL ((link_sameCaches this true key ck h).andThen_same (setKey_sameCaches _ key _ rfl rfl rfl))
      (fun x _ => by apply setKey_link_time; rfl))
    hL hu (fun cv x hx hsx => hcov x ?_)
  rcases hsx with (h1 | ⟨_, h1 | ⟨h1, h2⟩⟩) | h1
  · exact Or.inl h1
  · exfalso
    have hxk : x ≠ key := fun e => hne (by rw [h1, e])
    have hact := ((hL.mem_keys cv x).1 hx).2
    simp only [Heap.setKey_key, hxk, if_false] at hact
    rw [link_active] at hact
    simp [h1] at hact
  · right
    exact ⟨h1, hL.prevKey_of_prevIn (by simpa only [Heap.setKey_curve] using h2)⟩
  · exact Or.inl h1

/-- The Do closure of `removeKey` carries the cached out value differences. -/
theorem removeKeyDo_outDv {h h1 : Heap α} (hl : Linked h) {this : CurveId}
    {key : KeyId} {ck : Option KeyId} {active : Bool} {time : α}
    (hdo : removeKeyDo this key ck active time h = .ok h1) : OutDvCarried h h1 := by
  obtain ⟨S1, S2, hc1⟩ := removeKeyDo_ok hdo
  obtain ⟨t, hu, hcov⟩ := removeKeyDo_upd hdo
  obtain ⟨p1, p2, p3⟩ := S1
  have hne : active = true → ck ≠ some key := by
    intro ha e
    have := (S2 key e).2.1
    rw [p2, ha] at this; cases this
  rw [removeKeyDoLink_eq2 this key ck active h hne, Key.Dispose_eq] at hc1 hu
  have hY : LinkedExcept (unlink this active key ck h) key :=
    hl.unlink_except p1 p2 (fun _ => by rw [Heap.time, p3]; exact S2)
  have hL : Linked ((unlink this active key ck h).setKey key
      { (unlink this active key ck h).key key with m_parent := none, m_active := false }) :=
    (hY.setKey _).toLinked (by simp) (by simp)
  have O1 := hl.unlink_outStable (u := ck) p1 p2 (fun _ => by rw [Heap.time, p3]; exact S2)
  have O2 := hY.setKey_outStable
    { (unlink this active key ck h).key key with m_parent := none, m_active := false }
  refine outDv_of_stable
    ((O1.andThen O2).dvStable hl hL ((unlink_sameCaches this active key ck h).andThen_same (setKey_sameCaches _ key _ rfl rfl rfl))
      (fun x _ => by apply setKey_unlink_time; rfl))
    hL hu (fun cv x hx hsx => hcov x ?_)
  rcases hsx with (h1 | ⟨ha, h1 | ⟨h1, h2⟩⟩) | h1
  · exact Or.inl h1
  · exact Or.inr (Or.inl h1)
  · right; right
    subst ha
    exact ⟨h1, by rw [Key.prevKey_eq p1 p2]; exact h2⟩
  · exact Or.inl h1

/-- The Undo closure of `addKey` carries the cached out value differences. -/
theorem addKeyUndo_outDv {h h1 : Heap α} (hl : Linked h) {this : CurveId}
    {key : KeyId} {ck : Option KeyId} {time : α}
    (hun : addKeyUndo this key ck time h = .ok h1) : OutDvCarried h h1 := by
  obtain ⟨T1, T2, hc1⟩ := addKeyUndo_ok hun
  obtain ⟨t, hu, hcov⟩ := addKeyUndo_upd hun
  obtain ⟨p1, p2, p3⟩ := T1
  have hne : ck ≠ some key := by
    intro e
    have := (T2 key e).2.1
    rw [p2] at this; cases this
  rw [addKeyUndoLink_eq this key ck h hne, Key.Dispose_eq] at hc1 hu
  have hY : LinkedExcept (unlink this true key ck h) key :=
    hl.unlink_except p1 p2 (fun _ => by rw [Heap.time, p3]; exact T2)
  have hL : Linked ((unlink this true key ck h).setKey key
      { (unlink this true key ck h).key key with m_parent := none, m_active := false }) :=
    (hY.setKey _).toLinked (by simp) (by simp)
  have O1 := hl.unlink_outStable (u := ck) p1 p2 (fun _ => by rw [Heap.time, p3]; exact T2)
  have O2 := hY.setKey_outStable
    { (unlink this true key ck h).key key with m_parent := none, m_active := false }
  refine outDv_of_stable
    ((O1.andThen O2).dvStable hl hL ((unlink_sameCaches this true key ck h).andThen_same (setKey_sameCaches _ key _ rfl rfl rfl))
      (fun x _ => by apply setKey_unlink_time; rfl))
    hL hu (fun cv x hx hsx => hcov x ?_)
  rcases hsx with (h1 | ⟨ha, h1 | ⟨h1, h2⟩⟩) | h1
  · exact Or.inl h1
  · exact Or.inr (Or.inl h1)
  · right; right
    exact ⟨h1, by rw [Key.prevKey_eq p1 p2]; exact h2⟩
  · exact Or.inl h1

/-- The Undo closure of `removeKey`, run in a heap that agrees with the one its
Do closure left, carries the cached out value differences. -/
theorem removeKeyUndo_outDv {h0 h1 h h2 : Heap α} (hl0 : Linked h0) {this : CurveId}
    {key : KeyId} {ck : Option KeyId} {active : Bool} {time : α}
    (hdo : removeKeyDo this key ck active time h0 = .ok h1)
    (hag : Agree h1 h) (hl : Linked h)
    (hun : removeKeyUndo this key ck active time h = .ok h2) : OutDvCarried h h2 := by
  have hfreeU := removeKeyUndo_free hl0 hdo hag hl hun
  obtain ⟨T1, T2, hc2⟩ := removeKeyUndo_ok hun
  obtain ⟨t, hu, hcov⟩ := removeKeyUndo_upd hun
  obtain ⟨q1, q2, q3⟩ := T1
  have hne : ck ≠ some key := by
    intro e
    have := (T2 key e).1
    rw [q1] at this; cases this
  have ht : time = h.time key := q3.symm
  rw [ht, removeKeyUndoLink_eq, Heap.setParent_setActive_eq] at hu hcov
  have hL := (hl.except q1).link_linked this active ck
    { (Animation.link this active key ck h).key key with
        m_parent := some this, m_active := active }
    (by simp [Heap.time]) rfl rfl (fun _ => by rw [Heap.time, q3]; exact T2) (fun _ => hne)
    hfreeU
  have O1 := (hl.except q1).link_outStable this active ck
    (fun _ => by rw [Heap.time, q3]; exact T2) (by
      have := hL.nodup this
      simpa only [Heap.setKey_curve] using this)
  have O2 := setKey_outStable_of_time (Animation.link this active key ck h) key
    { (Animation.link this active key ck h).key key with
        m_parent := some this, m_active := active }
    (by simp [Heap.time])
  have hkey : ∀ cv, key ∈ (((Animation.link this active key ck h).setKey key
      { (Animation.link this active key ck h).key key with
        m_parent := some this, m_active := active }).curve cv).m_keys → active = true := by
    intro cv hx
    have hact := ((hL.mem_keys cv key).1 hx).2
    simpa using hact
  refine outDv_of_stable
    ((O1.andThen O2).dvStable hl hL ((link_sameCaches this active key ck h).andThen_same (setKey_sameCaches _ key _ rfl rfl rfl))
      (fun x _ => by apply setKey_link_time; rfl))
    hL hu (fun cv x hx hsx => hcov x ?_)
  rcases hsx with (h1 | ⟨_, h1 | ⟨h1, h2⟩⟩) | h1
  · subst h1; exact Or.inl ⟨hkey cv hx, rfl⟩
  · exfalso
    have hxk : x ≠ key := fun e => hne (by rw [h1, e])
    have hact := ((hL.mem_keys cv x).1 hx).2
    simp only [Heap.setKey_key, hxk, if_false] at hact
    rw [link_active] at hact
    simp_all
  · right
    exact ⟨h1, hL.prevKey_of_prevIn (by simpa only [Heap.setKey_curve] using h2)⟩
  · subst h1; exact Or.inl ⟨hkey cv hx, rfl⟩

/-- The Undo closure of `setTime`, run in a heap that agrees with the one its Do
closure left, carries the cached out value differences. -/
theorem setTimeUndo_outDv {h0 h1 h h2 : Heap α} (hl0 : Linked h0) {c : CurveId}
    {time previousTime : α} {active : Bool} {key : KeyId} {ck ci : Option KeyId}
    (hne : time ≠ previousTime)
    (hfree : ck = none → ∀ y ∈ (h0.curve c).m_keys, h0.time y ≠ time)
    (hdo : setTimeDo c time previousTime active key ck ci h0 = .ok h1)
    (hag : Agree h1 h) (hl : Linked h)
    (hun : setTimeUndo c time previousTime active key ck ci h = .ok h2) : OutDvCarried h h2 := by
  obtain ⟨hcine, hA0, hfreeU⟩ := setTimeUndo_mid hl0 hne hfree hdo hag hl hun
  obtain ⟨T1, T2, T3, hc2⟩ := setTimeUndo_ok hun
  obtain ⟨t, hu, hcov⟩ := setTimeUndo_upd hun
  rw [setTimeUndoLink_eq] at hu hcov
  have mid := retime_mid hl T1 (fun _ => T2) (fun _ => T3) hne.symm hfreeU
  have hL := mid.2.2.2.2.2
  have O := retime_outStable hl T1 (fun _ => T2) (fun _ => T3) hne.symm hfreeU
  have hkey : ∀ cv, key ∈ ((Animation.link c active key ci
      (((unlink c true key ck h).setTime key previousTime).setActive key active)).curve
        cv).m_keys → active = true := by
    intro cv hx
    have hact := ((hL.mem_keys cv key).1 hx).2
    rw [link_active] at hact
    split_ifs at hact with hh
    simpa [Heap.setTime_setActive_key] using hact
  refine outDv_of_stable
    (O.dvStable hl hL (retime_sameCaches c true active key ck ci previousTime h)
      (fun x hx => retime_time_of_ne c true active key ck ci previousTime h (fun e => hx (Or.inl e))))
    hL hu (fun cv x hx hsx => hcov x ?_)
  rcases hsx with h1 | ⟨_, h1 | ⟨h1, h2⟩⟩ | ⟨ha, h1 | ⟨h1, h2⟩⟩
  · subst h1; exact Or.inl ⟨hkey cv hx, rfl⟩
  · exact Or.inr (Or.inl h1)
  · right; right; left
    exact ⟨h1, by rw [Key.prevKey_eq T1.1 T1.2.1]; exact h2⟩
  · exfalso
    have hact := ((hL.mem_keys cv x).1 hx).2
    rw [link_active] at hact
    simp [h1, ha] at hact
  · right; right; right
    exact ⟨h1, hL.prevKey_of_prevIn h2⟩

/-- The Do closure of `setTime` carries the cached in value differences. -/
theorem setTimeDo_inDv {h h1 : Heap α} (hl : Linked h) {c : CurveId}
    {time previousTime : α} {active : Bool} {key : KeyId} {ck ci : Option KeyId}
    (hne : time ≠ previousTime)
    (hfree : ck = none → ∀ y ∈ (h.curve c).m_keys, h.time y ≠ time)
    (hdo : setTimeDo c time previousTime active key ck ci h = .ok h1) : InDvCarried h h1 := by
  obtain ⟨S1, S2, S3, hc1⟩ := setTimeDo_ok hdo
  obtain ⟨t, hu, hcov⟩ := setTimeDo_updIn hdo
  rw [setTimeDoLink_eq] at hu hcov
  have hfree1 : true = true → ck = none →
      ∀ y ∈ ((unlink c active key ci h).curve c).m_keys, h.time y ≠ time := by
    intro _ hck y hy
    simp only [unlink_keys, if_true] at hy
    rcases mem_unlinkKeys hy with hy | hy
    · exact hfree hck y hy
    · have := (S2 y hy).2.2
      rw [Heap.time, this]; exact hne.symm
  have mid := retime_mid hl S1 (fun _ => S2) (fun _ => S3) hne hfree1
  have hL := mid.2.2.2.2.2
  have O := retime_inStable hl S1 (fun _ => S2) (fun _ => S3) hne hfree1
  refine inDv_of_stable
    (O.dvStable_in hl hL (retime_sameCaches c active true key ci ck time h)
      (fun x hx => retime_time_of_ne c active true key ci ck time h (fun e => hx (Or.inl e))))
    hL hu (fun cv x hx hsx => hcov x ?_)
  rcases hsx with h1 | ⟨ha, h1 | ⟨h1, h2⟩⟩ | ⟨_, h1 | ⟨h1, h2⟩⟩
  · exact Or.inl h1
  · exact Or.inr (Or.inl h1)
  · right; right; left
    subst ha
    exact ⟨h1, by rw [Key.nextKey_eq S1.1 S1.2.1]; exact h2⟩
  · exfalso
    have hact := ((hL.mem_keys cv x).1 hx).2
    rw [link_active] at hact
    simp [h1] at hact
  · right; right; right
    exact ⟨h1, hL.nextKey_of_nextIn h2⟩

/-- The Do closure of `addKey` carries the cached in value differences. -/
theorem addKeyDo_inDv {h h1 : Heap α} (hl : Linked h) {this : CurveId}
    {key : KeyId} {ck : Option KeyId} {time : α}
    (hfree : ck = none → ∀ y ∈ (h.curve this).m_keys, h.time y ≠ time)
    (hdo : addKeyDo this key ck time h = .ok h1) : InDvCarried h h1 := by
  obtain ⟨S1, S2, hc1⟩ := addKeyDo_ok hdo
  obtain ⟨t, hu, hcov⟩ := addKeyDo_updIn hdo
  obtain ⟨p1, p2, p3⟩ := S1
  have ht : time = h.time key := p3.symm
  subst ht
  rw [addKeyDoLink_eq, Heap.setParent_setActive_eq] at hc1 hu hcov
  have hne : ck ≠ some key := by
    intro e
    have := (S2 key e).1
    rw [p1] at this; cases this
  have hL := (hl.except p1).link_linked this true ck
    { (Animation.link this true key ck h).key key with m_parent := some this, m_active := true }
    (by simp [Heap.time]) rfl rfl (fun _ => S2) (fun _ => hne) (fun _ => hfree)
  have O1 := (hl.except p1).link_inStable this true ck (fun _ => S2) (by
    have := hL.nodup this
    simpa only [Heap.setKey_curve] using this)
  have O2 := setKey_inStable_of_time (Animation.link this true key ck h) key
    { (Animation.link this true key ck h).key key with m_parent := some this, m_active := true }
    (by simp [Heap.time])
  refine inDv_of_stable
    ((O1.andThen_in O2).dvStable_in hl hL ((link_sameCaches this true key ck h).andThen_same (setKey_sameCaches _ key _ rfl rfl rfl))
      (fun x _ => by apply setKey_link_time; rfl))
    hL hu (fun cv x hx hsx => hcov x ?_)
  rcases hsx with (h1 | ⟨_, h1 | ⟨h1, h2⟩⟩) | h1
  · exact Or.inl h1
  · exfalso
    have hxk : x ≠ key := fun e => hne (by rw [h1, e])
    have hact := ((hL.mem_keys cv x).1 hx).2
    simp only [Heap.setKey_key, hxk, if_false] at hact
    rw [link_active] at hact
    simp [h1] at hact
  · right
    exact ⟨h1, hL.nextKey_of_nextIn (by simpa only [Heap.setKey_curve] using h2)⟩
  · exact Or.inl h1

/-- The Do closure of `removeKey` carries the cached in value differences. -/
theorem removeKeyDo_inDv {h h1 : Heap α} (hl : Linked h) {this : CurveId}
    {key : KeyId} {ck : Option KeyId} {active : Bool} {time : α}
    (hdo : removeKeyDo this key ck active time h = .ok h1) : InDvCarried h h1 := by
  obtain ⟨S1, S2, hc1⟩ := removeKeyDo_ok hdo
  obtain ⟨t, hu, hcov⟩ := removeKeyDo_updIn hdo
  obtain ⟨p1, p2, p3⟩ := S1
  have hne : active = true → ck ≠ some key := by
    intro ha e
    have := (S2 key e).2.1
    rw [p2, ha] at this; cases this
  rw [removeKeyDoLink_eq2 this key ck active h hne, Key.Dispose_eq] at hc1 hu
  have hY : LinkedExcept (unlink this active key ck h) key :=
    hl.unlink_except p1 p2 (fun _ => by rw [Heap.time, p3]; exact S2)
  have hL : Linked ((unlink this active key ck h).setKey key
      { (unlink this active key ck h).key key with m_parent := none, m_active := false }) :=
    (hY.setKey _).toLinked (by simp) (by simp)
  have O1 := hl.unlink_inStable (u := ck) p1 p2 (fun _ => by rw [Heap.time, p3]; exact S2)
  have O2 := hY.setKey_inStable
    { (unlink this active key ck h).key key with m_parent := none, m_active := false }
  refine inDv_of_stable
    ((O1.andThen_in O2).dvStable_in hl hL ((unlink_sameCaches this active key ck h).andThen_same (setKey_sameCaches _ key _ rfl rfl rfl))
      (fun x _ => by apply setKey_unlink_time; rfl))
    hL hu (fun cv x hx hsx => hcov x ?_)
  rcases hsx with (h1 | ⟨ha, h1 | ⟨h1, h2⟩⟩) | h1
  · exact Or.inl h1
  · exact Or.inr (Or.inl h1)
  · right; right
    subst ha
    exact ⟨h1, by rw [Key.nextKey_eq p1 p2]; exact h2⟩
  · exact Or.inl h1

/-- The Undo closure of `addKey` carries the cached in value differences. -/
theorem addKeyUndo_inDv {h h1 : Heap α} (hl : Linked h) {this : CurveId}
    {key : KeyId} {ck : Option KeyId} {time : α}
    (hun : addKeyUndo this key ck time h = .ok h1) : InDvCarried h h1 := by
  obtain ⟨T1, T2, hc1⟩ := addKeyUndo_ok hun
  obtain ⟨t, hu, hcov⟩ := addKeyUndo_updIn hun
  obtain ⟨p1, p2, p3⟩ := T1
  have hne : ck ≠ some key := by
    intro e
    have := (T2 key e).2.1
    rw [p2] at this; cases this
  rw [addKeyUndoLink_eq this key ck h hne, Key.Dispose_eq] at hc1 hu
  have hY : LinkedExcept (unlink this true key ck h) key :=
    hl.unlink_except p1 p2 (fun _ => by rw [Heap.time, p3]; exact T2)
  have hL : Linked ((unlink this true key ck h).setKey key
      { (unlink this true key ck h).key key with m_parent := none, m_active := false }) :=
    (hY.setKey _).toLinked (by simp) (by simp)
  have O1 := hl.unlink_inStable (u := ck) p1 p2 (fun _ => by rw [Heap.time, p3]; exact T2)
  have O2 := hY.setKey_inStable
    { (unlink this true key ck h).key key with m_parent := none, m_active := false }
  refine inDv_of_stable
    ((O1.andThen_in O2).dvStable_in hl hL ((unlink_sameCaches this true key ck h).andThen_same (setKey_sameCaches _ key _ rfl rfl rfl))
      (fun x _ => by apply setKey_unlink_time; rfl))
    hL hu (fun cv x hx hsx => hcov x ?_)
  rcases hsx with (h1 | ⟨ha, h1 | ⟨h1, h2⟩⟩) | h1
  · exact Or.inl h1
  · exact Or.inr (Or.inl h1)
  · right; right
    exact ⟨h1, by rw [Key.nextKey_eq p1 p2]; exact h2⟩
  · exact Or.inl h1

/-- The Undo closure of `removeKey`, run in a heap that agrees with the one its
Do closure left, carries the cached in value differences. -/
theorem removeKeyUndo_inDv {h0 h1 h h2 : Heap α} (hl0 : Linked h0) {this : CurveId}
    {key : KeyId} {ck : Option KeyId} {active : Bool} {time : α}
    (hdo : removeKeyDo this key ck active time h0 = .ok h1)
    (hag : Agree h1 h) (hl : Linked h)
    (hun : removeKeyUndo this key ck active time h = .ok h2) : InDvCarried h h2 := by
  have hfreeU := removeKeyUndo_free hl0 hdo hag hl hun
  obtain ⟨T1, T2, hc2⟩ := removeKeyUndo_ok hun
  obtain ⟨t, hu, hcov⟩ := removeKeyUndo_updIn hun
  obtain ⟨q1, q2, q3⟩ := T1
  have hne : ck ≠ some key := by
    intro e
    have := (T2 key e).1
    rw [q1] at this; cases this
  have ht : time = h.time key := q3.symm
  rw [ht, removeKeyUndoLink_eq, Heap.setParent_setActive_eq] at hu hcov
  have hL := (hl.except q1).link_linked this active ck
    { (Animation.link this active key ck h).key key with
        m_parent := some this, m_active := active }
    (by simp [Heap.time]) rfl rfl (fun _ => by rw [Heap.time, q3]; exact T2) (fun _ => hne)
    hfreeU
  have O1 := (hl.except q1).link_inStable this active ck
    (fun _ => by rw [Heap.time, q3]; exact T2) (by
      have := hL.nodup this
      simpa only [Heap.setKey_curve] using this)
  have O2 := setKey_inStable_of_time (Animation.link this active key ck h) key
    { (Animation.link this active key ck h).key key with
        m_parent := some this, m_active := active }
    (by simp [Heap.time])
  have hkey : ∀ cv, key ∈ (((Animation.link this active key ck h).setKey key
      { (Animation.link this active key ck h).key key with
        m_parent := some this, m_active := active }).curve cv).m_keys → active = true := by
    intro cv hx
    have hact := ((hL.mem_keys cv key).1 hx).2
    simpa using hact
  refine inDv_of_stable
    ((O1.andThen_in O2).dvStable_in hl hL ((link_sameCaches this active key ck h).andThen_same (setKey_sameCaches _ key _ rfl rfl rfl))
      (fun x _ => by apply setKey_link_time; rfl))
    hL hu (fun cv x hx hsx => hcov x ?_)
  rcases hsx with (h1 | ⟨_, h1 | ⟨h1, h2⟩⟩) | h1
  · subst h1; exact Or.inl ⟨hkey cv hx, rfl⟩
  · exfalso
    have hxk : x ≠ key := fun e => hne (by rw [h1, e])
    have hact := ((hL.mem_keys cv x).1 hx).2
    simp only [Heap.setKey_key, hxk, if_false] at hact
    rw [link_active] at hact
    simp_all
  · right
    exact ⟨h1, hL.nextKey_of_nextIn (by simpa only [Heap.setKey_curve] using h2)⟩
  · subst h1; exact Or.inl ⟨hkey cv hx, rfl⟩

/-- The Undo closure of `setTime`, run in a heap that agrees with the one its Do
closure left, carries the cached in value differences. -/
theorem setTimeUndo_inDv {h0 h1 h h2 : Heap α} (hl0 : Linked h0) {c : CurveId}
    {time previousTime : α} {active : Bool} {key : KeyId} {ck ci : Option KeyId}
    (hne : time ≠ previousTime)
    (hfree : ck = none → ∀ y ∈ (h0.curve c).m_keys, h0.time y ≠ time)
    (hdo : setTimeDo c time previousTime active key ck ci h0 = .ok h1)
    (hag : Agree h1 h) (hl : Linked h)
    (hun : setTimeUndo c time previousTime active key ck ci h = .ok h2) : InDvCarried h h2 := by
  obtain ⟨hcine, hA0, hfreeU⟩ := setTimeUndo_mid hl0 hne hfree hdo hag hl hun
  obtain ⟨T1, T2, T3, hc2⟩ := setTimeUndo_ok hun
  obtain ⟨t, hu, hcov⟩ := setTimeUndo_updIn hun
  rw [setTimeUndoLink_eq] at hu hcov
  have mid := retime_mid hl T1 (fun _ => T2) (fun _ => T3) hne.symm hfreeU
  have hL := mid.2.2.2.2.2
  have O := retime_inStable hl T1 (fun _ => T2) (fun _ => T3) hne.symm hfreeU
  have hkey : ∀ cv, key ∈ ((Animation.link c active key ci
      (((unlink c true key ck h).setTime key previousTime).setActive key active)).curve
        cv).m_keys → active = true := by
    intro cv hx
    have hact := ((hL.mem_keys cv key).1 hx).2
    rw [link_active] at hact
    split_ifs at hact with hh
    simpa [Heap.setTime_setActive_key] using hact
  refine inDv_of_stable
    (O.dvStable_in hl hL (retime_sameCaches c true active key ck ci previousTime h)
      (fun x hx => retime_time_of_ne c true active key ck ci previousTime h (fun e => hx (Or.inl e))))
    hL hu (fun cv x hx hsx => hcov x ?_)
  rcases hsx with h1 | ⟨_, h1 | ⟨h1, h2⟩⟩ | ⟨ha, h1 | ⟨h1, h2⟩⟩
  · subst h1; exact Or.inl ⟨hkey cv hx, rfl⟩
  · exact Or.inr (Or.inl h1)
  · right; right; left
    exact ⟨h1, by rw [Key.nextKey_eq T1.1 T1.2.1]; exact h2⟩
  · exfalso
    have hact := ((hL.mem_keys cv x).1 hx).2
    rw [link_active] at hact
    simp [h1, ha] at hact
  · right; right; right
    exact ⟨h1, hL.nextKey_of_nextIn h2⟩

/-! ### Cached value differences through the closures that move no key -/

/-- A step that changes no container, no value and no cached value difference
carries the cached out value differences. -/
theorem outDvCarried_of_same {h h1 : Heap α} (hc : h1.curve = h.curve)
    (hv : ∀ x, (h1.key x).m_value = (h.key x).m_value)
    (ho : ∀ c x, x ∈ (h.curve c).m_keys → (h1.key x).m_out.m_dv = (h.key x).m_out.m_dv) :
    OutDvCarried h h1 := by
  intro c x hx hb _
  rw [hc] at hx
  rw [ho c x hx, hb hx]
  unfold expectedOutDv
  rw [hc]
  simp only [hv]

theorem inDvCarried_of_same {h h1 : Heap α} (hc : h1.curve = h.curve)
    (hv : ∀ x, (h1.key x).m_value = (h.key x).m_value)
    (ho : ∀ c x, x ∈ (h.curve c).m_keys → (h1.key x).m_in.m_dv = (h.key x).m_in.m_dv) :
    InDvCarried h h1 := by
  intro c x hx hb _
  rw [hc] at hx
  rw [ho c x hx, hb hx]
  unfold expectedInDv
  rw [hc]
  simp only [hv]

theorem setInterpolationDo_outDv (h : Heap α) (key : KeyId) (i : Interpolation) :
    OutDvCarried h (setInterpolationDo key i h) := by
  refine outDvCarried_of_same rfl (fun x => ?_) (fun c x _ => ?_)
  · simp only [setInterpolationDo, Heap.setKey_key]; split_ifs with hx
    · rw [hx]
    · rfl
  · simp only [setInterpolationDo, Heap.setKey_key]; split_ifs with hx
    · rw [hx]
    · rfl

theorem setInterpolationDo_inDv (h : Heap α) (key : KeyId) (i : Interpolation) :
    InDvCarried h (setInterpolationDo key i h) := by
  refine inDvCarried_of_same rfl (fun x => ?_) (fun c x _ => ?_)
  · simp only [setInterpolationDo, Heap.setKey_key]; split_ifs with hx
    · rw [hx]
    · rfl
  · simp only [setInterpolationDo, Heap.setKey_key]; split_ifs with hx
    · rw [hx]
    · rfl

theorem setTangent_outDv (h : Heap α) (key : KeyId) (d : Direction) (t : Tangent α)
    (ht : t.m_dv = ((h.key key).tangent d).m_dv) :
    OutDvCarried h (h.setKey key ((h.key key).setTangent d t)) := by
  refine outDvCarried_of_same rfl (fun x => ?_) (fun c x _ => ?_)
  · simp only [Heap.setKey_key]; split_ifs with hx
    · rw [hx]; cases d <;> rfl
    · rfl
  · simp only [Heap.setKey_key]; split_ifs with hx
    · rw [hx]; cases d
      · rfl
      · exact ht
    · rfl

theorem setTangent_inDv (h : Heap α) (key : KeyId) (d : Direction) (t : Tangent α)
    (ht : t.m_dv = ((h.key key).tangent d).m_dv) :
    InDvCarried h (h.setKey key ((h.key key).setTangent d t)) := by
  refine inDvCarried_of_same rfl (fun x => ?_) (fun c x _ => ?_)
  · simp only [Heap.setKey_key]; split_ifs with hx
    · rw [hx]; cases d <;> rfl
    · rfl
  · simp only [Heap.setKey_key]; split_ifs with hx
    · rw [hx]; cases d
      · exact ht
      · rfl
    · rfl

/-- An assignment to a key that is in no active container carries the cached
value differences. -/
theorem setKey_free_outDv {h : Heap α} (hl : Linked h) {key : KeyId} (v : Key α)
    (hp : (h.key key).m_parent = none) : OutDvCarried h (h.setKey key v) := by
  have hfree : ∀ c x, x ∈ (h.curve c).m_keys → x ≠ key := by
    intro c x hx e
    have := ((hl.mem_keys c x).1 hx).1
    rw [e, hp] at this; cases this
  intro c x hx hb _
  simp only [Heap.setKey_curve] at hx ⊢
  have hxk := hfree c x hx
  simp only [Heap.setKey_key, hxk, if_false]
  rw [hb hx]
  unfold expectedOutDv
  simp only [Heap.setKey_curve]
  cases e : nextIn x (h.curve c).m_keys with
  | none => rfl
  | some n =>
    have hn := hfree c n (nextIn_mem e)
    simp only [Heap.setKey_key, hn, hxk, if_false]

theorem setKey_free_inDv {h : Heap α} (hl : Linked h) {key : KeyId} (v : Key α)
    (hp : (h.key key).m_parent = none) : InDvCarried h (h.setKey key v) := by
  have hfree : ∀ c x, x ∈ (h.curve c).m_keys → x ≠ key := by
    intro c x hx e
    have := ((hl.mem_keys c x).1 hx).1
    rw [e, hp] at this; cases this
  intro c x hx hb _
  simp only [Heap.setKey_curve] at hx ⊢
  have hxk := hfree c x hx
  simp only [Heap.setKey_key, hxk, if_false]
  rw [hb hx]
  unfold expectedInDv
  simp only [Heap.setKey_curve]
  cases e : prevIn x (h.curve c).m_keys with
  | none => rfl
  | some n =>
    have hn := hfree c n (prevIn_mem e)
    simp only [Heap.setKey_key, hn, hxk, if_false]

theorem OutDvCarried.rfl_out (h : Heap α) : OutDvCarried h h :=
  fun c x hx hb _ => hb hx

theorem InDvCarried.rfl_in (h : Heap α) : InDvCarried h h :=
  fun c x hx hb _ => hb hx

/-- The closure of `setValue` carries the cached out value differences: it
updates the key and its previous key. -/
theorem setValueDo_outDv {h : Heap α} (hl : Linked h) (key : KeyId) (value : α) :
    OutDvCarried h (setValueDo key value h) := by
  have hL : Linked (h.setValue key value) := (setValue_sameLinks h key value).linkedOf hl
  have U := ((((Upd.refl (h.setValue key value)).update key .Out).update key .In).updateIf
    (Key.nextKey (Tangent.update (Tangent.update (h.setValue key value) key .Out) key .In) key)
      .In).updateIf (Key.prevKey (Tangent.updateIf (Tangent.update (Tangent.update
        (h.setValue key value) key .Out) key .In) (Key.nextKey (Tangent.update (Tangent.update
          (h.setValue key value) key .Out) key .In) key) .In) key) .Out
  have hcore : (Tangent.updateIf (Tangent.update (Tangent.update
        (h.setValue key value) key .Out) key .In) (Key.nextKey (Tangent.update (Tangent.update
          (h.setValue key value) key .Out) key .In) key) .In).core = (h.setValue key value).core := by
    rw [updateIf_core, update_core, update_core]
  have hst : OutDvStable h (h.setValue key value)
      (fun x => x = key ∨ ∃ c, nextIn x (h.curve c).m_keys = some key) := by
    intro c x hx hsx _
    have hxk : x ≠ key := fun e => hsx (Or.inl e)
    have hx0 : x ∈ (h.curve c).m_keys := hx
    refine ⟨hx0, ?_, ?_⟩
    · unfold expectedOutDv
      show (match nextIn x (h.curve c).m_keys with
        | some n => ((h.setValue key value).key n).m_value - ((h.setValue key value).key x).m_value
        | none => 0) = _
      cases e : nextIn x (h.curve c).m_keys with
      | none => rfl
      | some n =>
        have hn : n ≠ key := fun e2 => hsx (Or.inr ⟨c, by rw [e, e2]⟩)
        simp only [Heap.setValue, Heap.setKey_key, hn, hxk, if_false]
    · simp only [Heap.setValue, Heap.setKey_key, hxk, if_false]
  refine outDv_of_stable hst hL U (fun c x hx hsx => ?_)
  rcases hsx with h1 | ⟨c2, h2⟩
  · left; left; left; right; exact ⟨h1, rfl⟩
  · right
    refine ⟨?_, rfl⟩
    rw [Key.prevKey_of_core_eq hcore]
    have h3 : nextIn x ((h.setValue key value).curve c2).m_keys = some key := h2
    exact hL.prevKey_of_prevIn (prevIn_of_nextIn (hL.nodup c2) h3)

/-- The closure of `setValue` carries the cached in value differences: it
updates the key and its next key. -/
theorem setValueDo_inDv {h : Heap α} (hl : Linked h) (key : KeyId) (value : α) :
    InDvCarried h (setValueDo key value h) := by
  have hL : Linked (h.setValue key value) := (setValue_sameLinks h key value).linkedOf hl
  have U := ((((UpdIn.refl (h.setValue key value)).update key .Out).update key .In).updateIf_in
    (Key.nextKey (Tangent.update (Tangent.update (h.setValue key value) key .Out) key .In) key)
      .In).updateIf_in (Key.prevKey (Tangent.updateIf (Tangent.update (Tangent.update
        (h.setValue key value) key .Out) key .In) (Key.nextKey (Tangent.update (Tangent.update
          (h.setValue key value) key .Out) key .In) key) .In) key) .Out
  have hcore : (Tangent.update (Tangent.update
        (h.setValue key value) key .Out) key .In).core = (h.setValue key value).core := by
    rw [update_core, update_core]
  have hst : InDvStable h (h.setValue key value)
      (fun x => x = key ∨ ∃ c, prevIn x (h.curve c).m_keys = some key) := by
    intro c x hx hsx _
    have hxk : x ≠ key := fun e => hsx (Or.inl e)
    have hx0 : x ∈ (h.curve c).m_keys := hx
    refine ⟨hx0, ?_, ?_⟩
    · unfold expectedInDv
      show (match prevIn x (h.curve c).m_keys with
        | some p => ((h.setValue key value).key x).m_value - ((h.setValue key value).key p).m_value
        | none => 0) = _
      cases e : prevIn x (h.curve c).m_keys with
      | none => rfl
      | some n =>
        have hn : n ≠ key := fun e2 => hsx (Or.inr ⟨c, by rw [e, e2]⟩)
        simp only [Heap.setValue, Heap.setKey_key, hn, hxk, if_false]
    · simp only [Heap.setValue, Heap.setKey_key, hxk, if_false]
  refine inDv_of_stable hst hL U (fun c x hx hsx => ?_)
  rcases hsx with h1 | ⟨c2, h2⟩
  · left; left; right; exact ⟨h1, rfl⟩
  · left; right
    refine ⟨?_, rfl⟩
    rw [Key.nextKey_of_core_eq hcore]
    have h3 : prevIn x ((h.setValue key value).curve c2).m_keys = some key := h2
    exact hL.nextKey_of_nextIn (nextIn_of_prevIn (hL.nodup c2) h3)

/-! ### Cached value differences through enact and undo -/

theorem Action.doFn_outDv {a : Action α} {h h1 : Heap α} (hw : Heap.WF h)
    (hs : Action.Sound h a) (hdo : a.doFn h = .ok h1) : OutDvCarried h h1 := by
  cases a with
  | setTime c time previousTime active key ck ci =>
    simp only [Action.doFn] at hdo
    exact setTimeDo_outDv hw.linked hs.1 hs.2 hdo
  | setValue key value previousValue =>
    simp only [Action.doFn, pure, Except.pure, Except.ok.injEq] at hdo
    subst hdo
    exact setValueDo_outDv hw.linked key value
  | setInterpolation key i p =>
    simp only [Action.doFn, pure, Except.pure, Except.ok.injEq] at hdo
    subst hdo
    exact setInterpolationDo_outDv h key i
  | addKey this key ck time =>
    simp only [Action.doFn] at hdo
    exact addKeyDo_outDv hw.linked hs.2 hdo
  | removeKey this key ck active time =>
    simp only [Action.doFn] at hdo
    exact removeKeyDo_outDv hw.linked hdo
  | setSlope key d slope scale ps pc =>
    simp only [Action.doFn, pure, Except.pure, Except.ok.injEq] at hdo
    subst hdo
    exact setTangent_outDv h key d _ rfl
  | setScale key d scale pc =>
    simp only [Action.doFn, pure, Except.pure, Except.ok.injEq] at hdo
    subst hdo
    exact setTangent_outDv h key d _ rfl

theorem Action.doFn_inDv {a : Action α} {h h1 : Heap α} (hw : Heap.WF h)
    (hs : Action.Sound h a) (hdo : a.doFn h = .ok h1) : InDvCarried h h1 := by
  cases a with
  | setTime c time previousTime active key ck ci =>
    simp only [Action.doFn] at hdo
    exact setTimeDo_inDv hw.linked hs.1 hs.2 hdo
  | setValue key value previousValue =>
    simp only [Action.doFn, pure, Except.pure, Except.ok.injEq] at hdo
    subst hdo
    exact setValueDo_inDv hw.linked key value
  | setInterpolation key i p =>
    simp only [Action.doFn, pure, Except.pure, Except.ok.injEq] at hdo
    subst hdo
    exact setInterpolationDo_inDv h key i
  | addKey this key ck time =>
    simp only [Action.doFn] at hdo
    exact addKeyDo_inDv hw.linked hs.2 hdo
  | removeKey this key ck active time =>
    simp only [Action.doFn] at hdo
    exact removeKeyDo_inDv hw.linked hdo
  | setSlope key d slope scale ps pc =>
    simp only [Action.doFn, pure, Except.pure, Except.ok.injEq] at hdo
    subst hdo
    exact setTangent_inDv h key d _ rfl
  | setScale key d scale pc =>
    simp only [Action.doFn, pure, Except.pure, Except.ok.injEq] at hdo
    subst hdo
    exact setTangent_inDv h key d _ rfl

theorem Action.undoFn_outDv {a : Action α} {h0 h1 h h2 : Heap α} (hw0 : Heap.WF h0)
    (hs : Action.Sound h0 a) (hdo : a.doFn h0 = .ok h1) (hag : Agree h1 h) (hw : Heap.WF h)
    (hun : a.undoFn h = .ok h2) : OutDvCarried h h2 := by
  cases a with
  | setTime c time previousTime active key ck ci =>
    simp only [Action.doFn] at hdo
    simp only [Action.undoFn] at hun
    exact setTimeUndo_outDv hw0.linked hs.1 hs.2 hdo hag hw.linked hun
  | setValue key value previousValue =>
    simp only [Action.undoFn, pure, Except.pure, Except.ok.injEq] at hun
    subst hun
    exact setValueDo_outDv hw.linked key previousValue
  | setInterpolation key i p =>
    simp only [Action.undoFn, pure, Except.pure, Except.ok.injEq] at hun
    subst hun
    exact setInterpolationDo_outDv h key p
  | addKey this key ck time =>
    simp only [Action.undoFn] at hun
    exact addKeyUndo_outDv hw.linked hun
  | removeKey this key ck active time =>
    simp only [Action.doFn] at hdo
    simp only [Action.undoFn] at hun
    exact removeKeyUndo_outDv hw0.linked hdo hag hw.linked hun
  | setSlope key d slope scale ps pc =>
    simp only [Action.undoFn, pure, Except.pure, Except.ok.injEq] at hun
    subst hun
    exact setTangent_outDv h key d _ rfl
  | setScale key d scale pc =>
    simp only [Action.undoFn, pure, Except.pure, Except.ok.injEq] at hun
    subst hun
    exact setTangent_outDv h key d _ rfl

theorem Action.undoFn_inDv {a : Action α} {h0 h1 h h2 : Heap α} (hw0 : Heap.WF h0)
    (hs : Action.Sound h0 a) (hdo : a.doFn h0 = .ok h1) (hag : Agree h1 h) (hw : Heap.WF h)
    (hun : a.undoFn h = .ok h2) : InDvCarried h h2 := by
  cases a with
  | setTime c time previousTime active key ck ci =>
    simp only [Action.doFn] at hdo
    simp only [Action.undoFn] at hun
    exact setTimeUndo_inDv hw0.linked hs.1 hs.2 hdo hag hw.linked hun
  | setValue key value previousValue =>
    simp only [Action.undoFn, pure, Except.pure, Except.ok.injEq] at hun
    subst hun
    exact setValueDo_inDv hw.linked key previousValue
  | setInterpolation key i p =>
    simp only [Action.undoFn, pure, Except.pure, Except.ok.injEq] at hun
    subst hun
    exact setInterpolationDo_inDv h key p
  | addKey this key ck time =>
    simp only [Action.undoFn] at hun
    exact addKeyUndo_inDv hw.linked hun
  | removeKey this key ck active time =>
    simp only [Action.doFn] at hdo
    simp only [Action.undoFn] at hun
    exact removeKeyUndo_inDv hw0.linked hdo hag hw.linked hun
  | setSlope key d slope scale ps pc =>
    simp only [Action.undoFn, pure, Except.pure, Except.ok.injEq] at hun
    subst hun
    exact setTangent_inDv h key d _ rfl
  | setScale key d scale pc =>
    simp only [Action.undoFn, pure, Except.pure, Except.ok.injEq] at hun
    subst hun
    exact setTangent_inDv h key d _ rfl

/-- Enacting a sound action carries the cached value differences. -/
theorem Action.enact_dv {a : Action α} {w w1 : Script α} (hi : w.Inv)
    (hs : Action.Sound w.heap a) (he : Action.enact a w = .ok w1) :
    OutDvCarried w.heap w1.heap ∧ InDvCarried w.heap w1.heap :=
  ⟨Action.doFn_outDv hi.wf hs (Action.enact_ok he).1,
    Action.doFn_inDv hi.wf hs (Action.enact_ok he).1⟩

/-- Undo carries the cached value differences. -/
theorem Script.undo_dv {w w1 : Script α} (hi : w.Inv) (hu : Script.undo w = .ok w1) :
    OutDvCarried w.heap w1.heap ∧ InDvCarried w.heap w1.heap := by
  unfold Script.undo at hu
  split at hu
  · cases hu
  · rename_i a rest hq
    split at hu
    · rename_i h2 hun
      simp only [Except.ok.injEq] at hu
      subst hu
      have hv := hi.valid
      rw [hq] at hv
      obtain ⟨h0, h1, w0, v0, s0, d0, a0⟩ := hv
      exact ⟨Action.undoFn_outDv w0 s0 d0 a0 hi.wf hun, Action.undoFn_inDv w0 s0 d0 a0 hi.wf hun⟩
    · cases hu

theorem Key.setTime_dv {w w1 : Script α} {key : KeyId} {time : α} {r : Option KeyId}
    (hi : w.Inv) (hs : Key.setTime w key time = .ok (w1, r)) :
    OutDvCarried w.heap w1.heap ∧ InDvCarried w.heap w1.heap := by
  unfold Key.setTime at hs
  by_cases h1 : time = (w.heap.key key).m_time
  · rw [if_pos h1] at hs
    simp only [pure, Except.pure, Except.ok.injEq, Prod.mk.injEq] at hs
    rw [← hs.1]; exact ⟨OutDvCarried.rfl_out _, InDvCarried.rfl_in _⟩
  · rw [if_neg h1] at hs
    cases hp : (w.heap.key key).m_parent with
    | none =>
      simp only [hp, pure, Except.pure, Except.ok.injEq, Prod.mk.injEq] at hs
      rw [← hs.1]
      exact ⟨setKey_free_outDv hi.wf.linked _ hp, setKey_free_inDv hi.wf.linked _ hp⟩
    | some curve =>
      simp only [hp] at hs
      split at hs
      · rename_i w2 he
        simp only [Except.ok.injEq, Prod.mk.injEq] at hs
        rw [← hs.1]
        exact Action.enact_dv (a := .setTime curve time _ _ key _ _) hi
          ⟨h1, fun hck => getKey_none_free hi.wf.linked hck⟩ he
      · cases hs

theorem Key.setValue_dv {w w1 : Script α} {key : KeyId} {value : α}
    (hi : w.Inv) (hs : Key.setValue w key value = .ok w1) :
    OutDvCarried w.heap w1.heap ∧ InDvCarried w.heap w1.heap := by
  unfold Key.setValue at hs
  split_ifs at hs with h1
  · simp only [pure, Except.pure, Except.ok.injEq] at hs
    rw [← hs]; exact ⟨OutDvCarried.rfl_out _, InDvCarried.rfl_in _⟩
  · split at hs
    · exact Action.enact_dv (a := .setValue key value _) hi trivial hs
    · rename_i hp
      simp only [pure, Except.pure, Except.ok.injEq] at hs
      rw [← hs]
      exact ⟨setKey_free_outDv hi.wf.linked _ hp, setKey_free_inDv hi.wf.linked _ hp⟩

theorem CurvePlug.removeKey_dv {w w1 : Script α} {this : CurveId} {key : KeyId}
    (hi : w.Inv) (hs : CurvePlug.removeKey w this key = .ok w1) :
    OutDvCarried w.heap w1.heap ∧ InDvCarried w.heap w1.heap := by
  unfold CurvePlug.removeKey at hs
  by_cases h1 : (w.heap.key key).m_parent ≠ some this
  · rw [if_pos h1] at hs; cases hs
  · rw [if_neg h1] at hs
    exact Action.enact_dv (a := .removeKey this key _ _ _) hi trivial hs

/-- `addKey` of an unparented key without removal of the clashing key is one
enacted action, which carries the cached value differences. -/
theorem CurvePlug.addKey_dv {w w1 : Script α} {this : CurveId} {key : KeyId}
    {r : Option KeyId} (hi : w.Inv) (hk : key < w.heap.keyCount)
    (hp : (w.heap.key key).m_parent = none)
    (hs : CurvePlug.addKey w this key false = .ok (w1, r)) :
    OutDvCarried w.heap w1.heap ∧ InDvCarried w.heap w1.heap := by
  rcases CurvePlug.addKey_ok hs with ⟨_, e, _⟩ | ⟨hc, hr, w2, w3, hw2, he, hfin⟩
  · rw [e]; exact ⟨OutDvCarried.rfl_out _, InDvCarried.rfl_in _⟩
  · have e2 : w2 = w := by
      rcases hw2 with ⟨_, e⟩ | ⟨p, hp2, _⟩
      · exact e
      · rw [hp] at hp2; cases hp2
    subst e2
    have e3 : w1 = w3 := by
      rcases hfin with ⟨_, e⟩ | ⟨ck, _, hf, _⟩
      · exact e
      · cases hf
    subst e3
    exact Action.enact_dv (a := .addKey this key _ _) hi
      ⟨hk, fun hck => getKey_none_free hi.wf.linked hck⟩ he

/-- Every `addKey` call is a sequence of at most three enacted actions
(`removeKey` from the old parent, the `addKey` action, `removeKey` of the
clashing key), each of which carries the cached value differences. -/
theorem CurvePlug.addKey_steps_dv {w w1 : Script α} {this : CurveId} {key : KeyId}
    {flag : Bool} {r : Option KeyId} (hi : w.Inv) (hk : key < w.heap.keyCount)
    (hs : CurvePlug.addKey w this key flag = .ok (w1, r)) :
    w1 = w ∨
    ∃ w2 w3 : Script α,
      (((w.heap.key key).m_parent = none ∧ w2 = w) ∨
        ∃ p, (w.heap.key key).m_parent = some p ∧ CurvePlug.removeKey w p key = .ok w2) ∧
      Action.enact (.addKey this key (CurvePlug.getKey w.heap this (w.heap.key key).m_time)
        (w2.heap.key key).m_time) w2 = .ok w3 ∧
      (((r = none ∨ flag = false) ∧ w1 = w3) ∨
        ∃ ck, r = some ck ∧ flag = true ∧ CurvePlug.removeKey w3 this ck = .ok w1) ∧
      (OutDvCarried w.heap w2.heap ∧ InDvCarried w.heap w2.heap) ∧
      (OutDvCarried w2.heap w3.heap ∧ InDvCarried w2.heap w3.heap) ∧
      (OutDvCarried w3.heap w1.heap ∧ InDvCarried w3.heap w1.heap) := by
  rcases CurvePlug.addKey_ok hs with ⟨_, e, _⟩ | ⟨hc, hr, w2, w3, hw2, he, hfin⟩
  · exact Or.inl e
  · right
    have h2 : w2.Inv ∧ w2.heap.keyCount = w.heap.keyCount ∧ w2.heap.time = w.heap.time ∧
        (w2.heap.curve this).m_keys = (w.heap.curve this).m_keys ∧
        (OutDvCarried w.heap w2.heap ∧ InDvCarried w.heap w2.heap) := by
      rcases hw2 with ⟨_, e⟩ | ⟨p, hp, hrm⟩
      · rw [e]; exact ⟨hi, rfl, rfl, rfl, OutDvCarried.rfl_out _, InDvCarried.rfl_in _⟩
      · obtain ⟨e1, e2, e3⟩ := CurvePlug.removeKey_frame hrm
        refine ⟨CurvePlug.removeKey_inv hi hrm, e1, e2, e3 this ?_,
          CurvePlug.removeKey_dv hi hrm⟩
        intro hthis
        by_contra hact
        have hact2 : (w.heap.key key).m_active = true := by
          cases hb : (w.heap.key key).m_active
          · exact absurd hb hact
          · rfl
        exact hc (hi.wf.linked.getKey_of_active (by rw [hp, hthis]) hact2)
    obtain ⟨hi2, e1, e2, e3, hd2⟩ := h2
    have hsound : Action.Sound w2.heap (.addKey this key
        (CurvePlug.getKey w.heap this (w.heap.key key).m_time) (w2.heap.key key).m_time) := by
      refine ⟨by rw [e1]; exact hk, ?_⟩
      intro hck y hy
      rw [e3] at hy
      have := getKey_none_free hi.wf.linked hck y hy
      rw [e2]
      have ht : (w2.heap.key key).m_time = (w.heap.key key).m_time := congrFun e2 key
      rw [ht]; exact this
    have hi3 : w3.Inv := Action.enact_inv hi2 hsound he
    have hd3 := Action.enact_dv hi2 hsound he
    refine ⟨w2, w3, hw2, he, hfin, hd2, hd3, ?_⟩
    rcases hfin with ⟨_, e⟩ | ⟨ck, _, _, hrm⟩
    · rw [e]; exact ⟨OutDvCarried.rfl_out _, InDvCarried.rfl_in _⟩
    · exact CurvePlug.removeKey_dv hi3 hrm

/-- C33 as amended: in a reachable state every committed operation, do or
undo, carries the cached value differences of the active keys.  After the
enactment of a recorded action (the Do closure of `setTime`, `setValue`,
`addKey`, `removeKey` and of the tangent setters), after an undo, and after the
calls `setValue`, `removeKey`, `setTime` and `addKey` of an unparented key, an
active key `x` has out `dv` equal to `next( x ).value - x.value` and in `dv`
equal to `x.value - prev( x ).value` (0 without that neighbour), provided that
it had them before in case it was active before, and except for the neighbours
of a slot whose occupant was swapped in place: the key whose next, or previous,
key was replaced by another key of the same time with another value.  Every
other `addKey` call is a sequence of at most three such steps (`removeKey` from
the old parent, the `addKey` action, `removeKey` of the clashing key).  Those
neighbours keep the `dv` computed from the old occupant: a committed
`addKey( k )` of an unparented key onto a clashing active key `ck` puts `k` in
the slot of `ck`, computes both `dv` of `k`, and leaves every key other than `k`
and `ck` exactly as it was, while the value difference that belongs in the out
tangent of the previous key `p` is now `k.value - p.value` and the one that
belongs in the in tangent of the next key `n` is `n.value - k.value`.  A
committed `setValue( v )` on an active key computes both `dv` of the key and the
facing `dv` of its two neighbours and leaves every other key as it was. -/
theorem C33_cached_value_differences {ν : Numeric α} {w : Script α} (hr : Reachable ν w) :
    (∀ a w1, Action.Sound w.heap a → Action.enact a w = .ok w1 →
      OutDvCarried w.heap w1.heap ∧ InDvCarried w.heap w1.heap) ∧
    (∀ w1, Script.undo w = .ok w1 →
      OutDvCarried w.heap w1.heap ∧ InDvCarried w.heap w1.heap) ∧
    (∀ k v w1, Key.setValue w k v = .ok w1 →
      OutDvCarried w.heap w1.heap ∧ InDvCarried w.heap w1.heap) ∧
    (∀ c k w1, CurvePlug.removeKey w c k = .ok w1 →
      OutDvCarried w.heap w1.heap ∧ InDvCarried w.heap w1.heap) ∧
    (∀ k t w1 r, Key.setTime w k t = .ok (w1, r) →
      OutDvCarried w.heap w1.heap ∧ InDvCarried w.heap w1.heap) ∧
    (∀ c k w1 r, k < w.heap.keyCount → (w.heap.key k).m_parent = none →
      CurvePlug.addKey w c k false = .ok (w1, r) →
      OutDvCarried w.heap w1.heap ∧ InDvCarried w.heap w1.heap) ∧
    (∀ c k flag w1 r, k < w.heap.keyCount → CurvePlug.addKey w c k flag = .ok (w1, r) →
      w1 = w ∨
      ∃ w2 w3 : Script α,
        (((w.heap.key k).m_parent = none ∧ w2 = w) ∨
          ∃ p, (w.heap.key k).m_parent = some p ∧ CurvePlug.removeKey w p k = .ok w2) ∧
        Action.enact (.addKey c k (CurvePlug.getKey w.heap c (w.heap.key k).m_time)
          (w2.heap.key k).m_time) w2 = .ok w3 ∧
        (((r = none ∨ flag = false) ∧ w1 = w3) ∨
          ∃ ck, r = some ck ∧ flag = true ∧ CurvePlug.removeKey w3 c ck = .ok w1) ∧
        (OutDvCarried w.heap w2.heap ∧ InDvCarried w.heap w2.heap) ∧
        (OutDvCarried w2.heap w3.heap ∧ InDvCarried w2.heap w3.heap) ∧
        (OutDvCarried w3.heap w1.heap ∧ InDvCarried w3.heap w1.heap)) ∧
    (∀ c k ck, (w.heap.key k).m_parent = none →
      CurvePlug.getKey w.heap c (w.heap.key k).m_time = some ck →
      ∃ w1, CurvePlug.addKey w c k false = .ok (w1, some ck) ∧
        (w1.heap.curve c).m_keys = replace_node ck k (w.heap.curve c).m_keys ∧
        (w1.heap.key k).m_out.m_dv = expectedOutDv w1.heap c k ∧
        (w1.heap.key k).m_in.m_dv = expectedInDv w1.heap c k ∧
        (∀ x, x ≠ k → x ≠ ck → w1.heap.key x = w.heap.key x) ∧
        (∀ p, prevIn ck (w.heap.curve c).m_keys = some p →
          expectedOutDv w1.heap c p = (w.heap.key k).m_value - (w.heap.key p).m_value) ∧
        (∀ n, nextIn ck (w.heap.curve c).m_keys = some n →
          expectedInDv w1.heap c n = (w.heap.key n).m_value - (w.heap.key k).m_value)) ∧
    (∀ c k v, k ∈ (w.heap.curve c).m_keys → v ≠ (w.heap.key k).m_value →
      ∃ w1, Key.setValue w k v = .ok w1 ∧
        (w1.heap.curve c).m_keys = (w.heap.curve c).m_keys ∧
        (w1.heap.key k).m_value = v ∧
        (w1.heap.key k).m_out.m_dv = expectedOutDv w1.heap c k ∧
        (w1.heap.key k).m_in.m_dv = expectedInDv w1.heap c k ∧
        (∀ n, nextIn k (w.heap.curve c).m_keys = some n →
          (w1.heap.key n).m_in.m_dv = expectedInDv w1.heap c n) ∧
        (∀ p, prevIn k (w.heap.curve c).m_keys = some p →
          (w1.heap.key p).m_out.m_dv = expectedOutDv w1.heap c p) ∧
        (∀ x, x ≠ k → nextIn k (w.heap.curve c).m_keys ≠ some x →
          prevIn k (w.heap.curve c).m_keys ≠ some x → w1.heap.key x = w.heap.key x)) := by
  have hi := hr.inv
  have hl := hi.wf.linked
  refine ⟨fun a w1 hs he => Action.enact_dv hi hs he, fun w1 hu => Script.undo_dv hi hu,
    fun k v w1 hs => Key.setValue_dv hi hs, fun c k w1 hs => CurvePlug.removeKey_dv hi hs,
    fun k t w1 r hs => Key.setTime_dv hi hs,
    fun c k w1 r hk hp hs => CurvePlug.addKey_dv hi hk hp hs,
    fun c k flag w1 r hk hs => CurvePlug.addKey_steps_dv hi hk hs,
    fun c k ck hp hg => CurvePlug.addKey_clash_dv hl c hp hg, ?_⟩
  intro c k v hk hv
  obtain ⟨hp, _⟩ := (hl.mem_keys c k).1 hk
  obtain ⟨q1, q2, _, q4, q5, q6, q7, q8⟩ := setValueDo_dv hl hk v
  exact ⟨_, Key.setValue_parented w hp hv, by rw [q1], q2, q4, q5, q6, q7, q8⟩

theorem exThreeRemoved_eq : CurvePlug.removeKey exThree 0 1 = .ok exThreeRemoved := by
  obtain ⟨w1, h1, _⟩ := @CurvePlug.removeKey_succeeds _ _ exThree
    exThree_reachable.inv.wf.linked 0 1 (by decide!)
  have e : exThreeRemoved = w1 := by unfold exThreeRemoved; rw [h1]; rfl
  rw [e]; exact h1

/-- C33 as amended, on the curve with the keys (0, 0), (1, 10), (2, 20): the
committed `removeKey( key1 )` leaves key 0 with the out `dv` 20 and key 2 with
the in `dv` 20, the value differences to their new neighbours. -/
theorem C33_cached_value_differences_witness :
    CurvePlug.removeKey exThree 0 1 = .ok exThreeRemoved ∧
    (exThreeRemoved.heap.curve 0).m_keys = [0, 2] ∧
    (exThreeRemoved.heap.key 0).m_out.m_dv = expectedOutDv exThreeRemoved.heap 0 0 ∧
    (exThreeRemoved.heap.key 2).m_in.m_dv = expectedInDv exThreeRemoved.heap 0 2 ∧
    expectedOutDv exThreeRemoved.heap 0 0 = 20 ∧
    expectedInDv exThreeRemoved.heap 0 2 = 20 := by
  obtain ⟨ho, hn⟩ := (C33_cached_value_differences exThree_reachable).2.2.2.1 0 1
    exThreeRemoved exThreeRemoved_eq
  refine ⟨exThreeRemoved_eq, by decide!, ?_, ?_, by decide!, by decide!⟩
  · refine ho 0 0 (by decide!) (fun _ => by decide!) ?_
    intro n n1 e1 e2 _ e4
    have a1 : nextIn 0 (exThree.heap.curve 0).m_keys = some 1 := by decide!
    have a2 : nextIn 0 (exThreeRemoved.heap.curve 0).m_keys = some 2 := by decide!
    rw [a1] at e1
    rw [a2] at e2
    cases e1
    cases e2
    exact absurd e4 (by decide!)
  · refine hn 0 2 (by decide!) (fun _ => by decide!) ?_
    intro n n1 e1 e2 _ e4
    have a1 : prevIn 2 (exThree.heap.curve 0).m_keys = some 1 := by decide!
    have a2 : prevIn 2 (exThreeRemoved.heap.curve 0).m_keys = some 0 := by decide!
    rw [a1] at e1
    rw [a2] at e2
    cases e1
    cases e2
    exact absurd e4 (by decide!)

/-! ### The tangents that the closures of addKey leave alone -/

theorem update_out_keep (h : Heap α) (k : KeyId) (d : Direction) {x : KeyId}
    (hx : x ≠ k ∨ d = .In) : ((Tangent.update h k d).key x).m_out = (h.key x).m_out := by
  rcases hx with h1 | h1
  · rw [update_key_of_ne h k d h1]
  · subst h1; exact update_out_of_in h k x

theorem update_in_keep (h : Heap α) (k : KeyId) (d : Direction) {x : KeyId}
    (hx : x ≠ k ∨ d = .Out) : ((Tangent.update h k d).key x).m_in = (h.key x).m_in := by
  rcases hx with h1 | h1
  · rw [update_key_of_ne h k d h1]
  · subst h1; exact update_in_of_out h k x

theorem updateIf_out_keep (h : Heap α) (k : Option KeyId) (d : Direction) {x : KeyId}
    (hx : k ≠ some x ∨ d = .In) : ((Tangent.updateIf h k d).key x).m_out = (h.key x).m_out := by
  cases k with
  | none => rfl
  | some y =>
    refine update_out_keep h y d ?_
    rcases hx with h1 | h1
    · exact Or.inl (fun e => h1 (by rw [e]))
    · exact Or.inr h1

theorem updateIf_in_keep (h : Heap α) (k : Option KeyId) (d : Direction) {x : KeyId}
    (hx : k ≠ some x ∨ d = .Out) : ((Tangent.updateIf h k d).key x).m_in = (h.key x).m_in := by
  cases k with
  | none => rfl
  | some y =>
    refine update_in_keep h y d ?_
    rcases hx with h1 | h1
    · exact Or.inl (fun e => h1 (by rw [e]))
    · exact Or.inr h1

/-- The heap that the Do closure of `addKey` leaves. -/
theorem addKeyDo_eq {this : CurveId} {key : KeyId} {ck : Option KeyId} {time : α}
    {h h1 : Heap α} (hdo : addKeyDo this key ck time h = .ok h1) :
    h1 = (match ck with
      | some _ => Tangent.update (Tangent.update (addKeyDoLink this key ck time h) key .In)
          key .Out
      | none =>
        Tangent.updateIf
          (Tangent.updateIf
            (Tangent.update (Tangent.update (addKeyDoLink this key ck time h) key .In) key .Out)
            (Key.nextKey (Tangent.update (Tangent.update (addKeyDoLink this key ck time h)
              key .In) key .Out) key) .In)
          (Key.prevKey (Tangent.updateIf
            (Tangent.update (Tangent.update (addKeyDoLink this key ck time h) key .In) key .Out)
            (Key.nextKey (Tangent.update (Tangent.update (addKeyDoLink this key ck time h)
              key .In) key .Out) key) .In) key) .Out) := by
  unfold addKeyDo at hdo
  rcases throwIfStateNotAsExpected_eq h key none false time with ⟨e, he, _⟩ | ⟨he1, hs1⟩
  · rw [he] at hdo; cases hdo
  rcases throwIfStateNotAsExpectedIf_eq h ck (some this) true time with
    ⟨e, he, _⟩ | ⟨he2, hs2⟩
  · rw [he1, he] at hdo; cases hdo
  rw [he1, he2] at hdo
  cases ck with
  | some k =>
    simp only [bind, Except.bind, pure, Except.pure, Except.ok.injEq] at hdo
    exact hdo.symm
  | none =>
    simp only [bind, Except.bind, pure, Except.pure, Except.ok.injEq] at hdo
    exact hdo.symm

/-- The heap that the Undo closure of `addKey` leaves. -/
theorem addKeyUndo_eq {this : CurveId} {key : KeyId} {ck : Option KeyId} {time : α}
    {h h1 : Heap α} (hun : addKeyUndo this key ck time h = .ok h1) :
    h1 = (match ck with
      | some k => Tangent.update (Tangent.update (Tangent.update (Tangent.update
          (addKeyUndoLink this key ck h) key .In) key .Out) k .In) k .Out
      | none => Tangent.updateIf (Tangent.updateIf (Tangent.update (Tangent.update
          (addKeyUndoLink this key ck h) key .In) key .Out) (Key.nextKey h key) .In)
            (Key.prevKey h key) .Out) := by
  unfold addKeyUndo at hun
  rcases throwIfStateNotAsExpected_eq h key (some this) true time with ⟨e, he, _⟩ | ⟨he1, hs1⟩
  · rw [he] at hun; cases hun
  rcases throwIfStateNotAsExpectedIf_eq h ck (some this) false time with
    ⟨e, he, _⟩ | ⟨he2, hs2⟩
  · rw [he1, he] at hun; cases hun
  rw [he1, he2] at hun
  cases ck with
  | some k =>
    simp only [bind, Except.bind, pure, Except.pure, Except.ok.injEq] at hun
    exact hun.symm
  | none =>
    simp only [bind, Except.bind, pure, Except.pure, Except.ok.injEq] at hun
    exact hun.symm

theorem addKeyDoLink_sameCaches (this : CurveId) (key : KeyId) (ck : Option KeyId) (h : Heap α) :
    SameCaches h (addKeyDoLink this key ck (h.time key) h) := by
  rw [addKeyDoLink_eq, Heap.setParent_setActive_eq]
  exact (link_sameCaches this true key ck h).andThen_same (setKey_sameCaches _ key _ rfl rfl rfl)

theorem addKeyUndoLink_sameCaches (this : CurveId) (key : KeyId) (ck : Option KeyId)
    (h : Heap α) (hne : ck ≠ some key) : SameCaches h (addKeyUndoLink this key ck h) := by
  rw [addKeyUndoLink_eq this key ck h hne, Key.Dispose_eq]
  exact (unlink_sameCaches this true key ck h).andThen_same
    (setKey_sameCaches _ key _ rfl rfl rfl)

/-- The Do closure of `addKey` leaves the out tangent of every key other than
the added key and its new previous key as it was, and the in tangent of every
key other than the added key and its new next key. -/
theorem addKeyDo_keeps {this : CurveId} {key : KeyId} {ck : Option KeyId}
    {h h1 : Heap α} (hdo : addKeyDo this key ck (h.time key) h = .ok h1) {x : KeyId}
    (hx : x ≠ key) :
    ((ck = none → Key.prevKey (addKeyDoLink this key ck (h.time key) h) key ≠ some x) →
      (h1.key x).m_out = (h.key x).m_out) ∧
    ((ck = none → Key.nextKey (addKeyDoLink this key ck (h.time key) h) key ≠ some x) →
      (h1.key x).m_in = (h.key x).m_in) := by
  have e := addKeyDo_eq hdo
  have hs := addKeyDoLink_sameCaches this key ck h x
  cases ck with
  | some k =>
    simp only at e
    subst e
    refine ⟨fun _ => ?_, fun _ => ?_⟩
    · rw [update_out_keep _ _ _ (Or.inl hx), update_out_keep _ _ _ (Or.inl hx)]; exact hs.2.1
    · rw [update_in_keep _ _ _ (Or.inl hx), update_in_keep _ _ _ (Or.inl hx)]; exact hs.1
  | none =>
    simp only at e
    subst e
    refine ⟨fun hp => ?_, fun hn => ?_⟩
    · rw [updateIf_out_keep _ _ _ (Or.inl ?_), updateIf_out_keep _ _ _ (Or.inr rfl),
        update_out_keep _ _ _ (Or.inl hx), update_out_keep _ _ _ (Or.inl hx)]
      · exact hs.2.1
      · have hc : (Tangent.updateIf (Tangent.update (Tangent.update
            (addKeyDoLink this key none (h.time key) h) key .In) key .Out)
            (Key.nextKey (Tangent.update (Tangent.update
              (addKeyDoLink this key none (h.time key) h) key .In) key .Out) key) .In).core =
            (addKeyDoLink this key none (h.time key) h).core := by
          rw [updateIf_core, update_core, update_core]
        rw [Key.prevKey_of_core_eq hc]
        exact hp rfl
    · rw [updateIf_in_keep _ _ _ (Or.inr rfl), updateIf_in_keep _ _ _ (Or.inl ?_),
        update_in_keep _ _ _ (Or.inl hx), update_in_keep _ _ _ (Or.inl hx)]
      · exact hs.1
      · have hc : (Tangent.update (Tangent.update
            (addKeyDoLink this key none (h.time key) h) key .In) key .Out).core =
            (addKeyDoLink this key none (h.time key) h).core := by
          rw [update_core, update_core]
        rw [Key.nextKey_of_core_eq hc]
        exact hn rfl

/-- The Undo closure of `addKey` leaves the out tangent of every key other than
the added key, the clashing key and the previous key of the slot as it was, and
the in tangent of every key other than the added key, the clashing key and the
next key of the slot. -/
theorem addKeyUndo_keeps {this : CurveId} {key : KeyId} {ck : Option KeyId} {time : α}
    {h h1 : Heap α} (hun : addKeyUndo this key ck time h = .ok h1) {x : KeyId}
    (hx : x ≠ key) (hck : ck ≠ some x) :
    ((ck = none → Key.prevKey h key ≠ some x) → (h1.key x).m_out = (h.key x).m_out) ∧
    ((ck = none → Key.nextKey h key ≠ some x) → (h1.key x).m_in = (h.key x).m_in) := by
  have e := addKeyUndo_eq hun
  obtain ⟨T1, T2, _⟩ := addKeyUndo_ok hun
  have hne : ck ≠ some key := by
    intro e
    have := (T2 key e).2.1
    rw [T1.2.1] at this; cases this
  have hs := addKeyUndoLink_sameCaches this key ck h hne x
  cases ck with
  | some k =>
    have hxk : x ≠ k := fun e => hck (by rw [e])
    simp only at e
    subst e
    refine ⟨fun _ => ?_, fun _ => ?_⟩
    · rw [update_out_keep _ _ _ (Or.inl hxk), update_out_keep _ _ _ (Or.inl hxk),
        update_out_keep _ _ _ (Or.inl hx), update_out_keep _ _ _ (Or.inl hx)]
      exact hs.2.1
    · rw [update_in_keep _ _ _ (Or.inl hxk), update_in_keep _ _ _ (Or.inl hxk),
        update_in_keep _ _ _ (Or.inl hx), update_in_keep _ _ _ (Or.inl hx)]
      exact hs.1
  | none =>
    simp only at e
    subst e
    refine ⟨fun hp => ?_, fun hn => ?_⟩
    · rw [updateIf_out_keep _ _ _ (Or.inl (hp rfl)), updateIf_out_keep _ _ _ (Or.inr rfl),
        update_out_keep _ _ _ (Or.inl hx), update_out_keep _ _ _ (Or.inl hx)]
      exact hs.2.1
    · rw [updateIf_in_keep _ _ _ (Or.inr rfl), updateIf_in_keep _ _ _ (Or.inl (hn rfl)),
        update_in_keep _ _ _ (Or.inl hx), update_in_keep _ _ _ (Or.inl hx)]
      exact hs.1

/-! ### The cached spans after Do and Undo of addKey -/

theorem Key.eq_of_core_of_spans {x y : Key α} (hc : x.core = y.core)
    (h1 : x.m_in.m_dt = y.m_in.m_dt) (h2 : x.m_in.m_dv = y.m_in.m_dv)
    (h3 : x.m_out.m_dt = y.m_out.m_dt) (h4 : x.m_out.m_dv = y.m_out.m_dv) : x = y := by
  obtain ⟨f1, f2, f3, f4, f5, f6, f7, f8, f9⟩ := Key.core_fields hc
  cases x with
  | mk xp xi xo xt xv xn xa =>
    cases y with
    | mk yp yi yo yt yv yn ya =>
      cases xi; cases xo; cases yi; cases yo
      simp only at f1 f2 f3 f4 f5 f6 f7 f8 f9 h1 h2 h3 h4
      subst f1 f2 f3 f4 f5 f6 f7 f8 f9 h1 h2 h3 h4
      rfl

theorem Key.prevKey_mem {h : Heap α} {k x : KeyId} (hx : Key.prevKey h k = some x) :
    ∃ c, x ∈ (h.curve c).m_keys := by
  unfold Key.prevKey at hx
  split at hx
  · rename_i c _
    split_ifs at hx
    exact ⟨c, prevIn_mem hx⟩
  · cases hx

theorem Key.nextKey_mem {h : Heap α} {k x : KeyId} (hx : Key.nextKey h k = some x) :
    ∃ c, x ∈ (h.curve c).m_keys := by
  unfold Key.nextKey at hx
  split at hx
  · rename_i c _
    split_ifs at hx
    exact ⟨c, nextIn_mem hx⟩
  · cases hx

theorem Linked.nextKey_ne_self {h : Heap α} (hl : Linked h) (k : KeyId) :
    Key.nextKey h k ≠ some k := by
  intro e
  unfold Key.nextKey at e
  split at e
  · rename_i c _
    split_ifs at e
    exact lt_irrefl _ (nextIn_sorted_lt h.time (hl.sorted c) e)
  · cases e

theorem Linked.prevKey_ne_self {h : Heap α} (hl : Linked h) (k : KeyId) :
    Key.prevKey h k ≠ some k := by
  intro e
  unfold Key.prevKey at e
  split at e
  · rename_i c _
    split_ifs at e
    exact lt_irrefl _ (prevIn_sorted_lt h.time (hl.sorted c) e)
  · cases e

/-- An active key after the Do closure of `addKey` is the added key or was
active before. -/
theorem addKeyDo_mem_keys {this : CurveId} {key : KeyId} {ck : Option KeyId}
    {h h1 : Heap α} (hdo : addKeyDo this key ck (h.time key) h = .ok h1) {c : CurveId}
    {x : KeyId} (hx : x ∈ (h1.curve c).m_keys) : x = key ∨ x ∈ (h.curve c).m_keys := by
  obtain ⟨_, _, hc⟩ := addKeyDo_ok hdo
  rw [addKeyDoLink_eq, Heap.setParent_setActive_eq] at hc
  rw [core_eq_curve hc] at hx
  simp only [Heap.setKey_curve, link_keys] at hx
  split_ifs at hx with h1
  · subst h1
    cases ck with
    | none => exact mem_insert_unique_imp h.time hx
    | some k => exact mem_replace_node_imp hx
  · exact Or.inr hx

/-- The cached spans after the Do closure of `addKey` followed by its Undo
closure: those of the added key are zero, every other key that was not active
is exactly as before, and an active key has its cached span widths as before and
each cached value difference either as before or recomputed. -/
theorem addKey_do_undo_caches {h h1 h2 : Heap α} (hl : Linked h) (hso : SpanOut h)
    (hsi : SpanIn h) {c : CurveId} {key : KeyId} {ck : Option KeyId}
    (hp : (h.key key).m_parent = none)
    (S2 : Key.StateIsIf h ck (some c) true (h.time key))
    (hfree : ck = none → ∀ y ∈ (h.curve c).m_keys, h.time y ≠ h.time key)
    (hdo : addKeyDo c key ck (h.time key) h = .ok h1)
    (hun : addKeyUndo c key ck (h.time key) h1 = .ok h2) (hc : h2.core = h.core) :
    ((h2.key key).m_in.m_dt = 0 ∧ (h2.key key).m_in.m_dv = 0 ∧
      (h2.key key).m_out.m_dt = 0 ∧ (h2.key key).m_out.m_dv = 0) ∧
    (∀ x, x ≠ key → (∀ c1, x ∉ (h.curve c1).m_keys) → h2.key x = h.key x) ∧
    (∀ c1 x, x ∈ (h.curve c1).m_keys →
      (h2.key x).m_out.m_dt = (h.key x).m_out.m_dt ∧
      (h2.key x).m_in.m_dt = (h.key x).m_in.m_dt ∧
      ((h2.key x).m_out.m_dv = (h.key x).m_out.m_dv ∨
        (h2.key x).m_out.m_dv = expectedOutDv h c1 x) ∧
      ((h2.key x).m_in.m_dv = (h.key x).m_in.m_dv ∨
        (h2.key x).m_in.m_dv = expectedInDv h c1 x)) := by
  have hl1 : Linked h1 := addKeyDo_linked hl hfree hdo
  have hl2 : Linked h2 := Linked.of_core_eq hc.symm hl
  obtain ⟨_, _, hc1⟩ := addKeyDo_ok hdo
  obtain ⟨T1, T2, hc2⟩ := addKeyUndo_ok hun
  have hne : ck ≠ some key := by
    intro e
    have := (S2 key e).1
    rw [hp] at this; cases this
  have hckmem : ∀ x, ck = some x → x ∈ (h.curve c).m_keys := by
    intro x e
    obtain ⟨q1, q2, _⟩ := S2 x e
    exact (hl.mem_keys c x).2 ⟨q1, q2⟩
  have hcoreX : (addKeyDoLink c key ck (h.time key) h).core = h1.core := hc1.symm
  have eU := addKeyUndo_eq hun
  have hnotmem : ∀ c1, key ∉ (h.curve c1).m_keys := by
    intro c1 hm
    have := ((hl.mem_keys c1 key).1 hm).1
    rw [hp] at this; cases this
  refine ⟨?_, ?_, ?_⟩
  · -- the added key
    have hpU : ((addKeyUndoLink c key ck h1).key key).m_parent = none := by
      rw [addKeyUndoLink_eq c key ck h1 hne, Key.Dispose_eq]
      simp
    have hA := update_unparented (addKeyUndoLink c key ck h1) key .In hpU
    have hpB : ((Tangent.update (addKeyUndoLink c key ck h1) key .In).key key).m_parent =
        none := by rw [update_parent]; exact hpU
    have hB := update_unparented (Tangent.update (addKeyUndoLink c key ck h1) key .In) key .Out
      hpB
    have h3 : ((Tangent.update (Tangent.update (addKeyUndoLink c key ck h1) key .In)
        key .Out).key key).m_in.m_dt = 0 ∧
        ((Tangent.update (Tangent.update (addKeyUndoLink c key ck h1) key .In)
        key .Out).key key).m_in.m_dv = 0 ∧
        ((Tangent.update (Tangent.update (addKeyUndoLink c key ck h1) key .In)
        key .Out).key key).m_out.m_dt = 0 ∧
        ((Tangent.update (Tangent.update (addKeyUndoLink c key ck h1) key .In)
        key .Out).key key).m_out.m_dv = 0 := by
      rw [update_in_of_out]
      exact ⟨hA.1, hA.2.1, hB.1, hB.2.1⟩
    cases ck with
    | some k =>
      have hkk : key ≠ k := fun e => hne (by rw [e])
      simp only at eU
      rw [eU, update_key_of_ne _ _ _ hkk, update_key_of_ne _ _ _ hkk]
      exact h3
    | none =>
      simp only at eU
      rw [eU, updateIf_key_of_ne _ _ _ (hl1.prevKey_ne_self key),
        updateIf_key_of_ne _ _ _ (hl1.nextKey_ne_self key)]
      exact h3
  · -- keys that were in no active container
    intro x hx hxm
    have hx1 : ∀ c1, x ∉ (h1.curve c1).m_keys := by
      intro c1 hm
      rcases addKeyDo_mem_keys hdo hm with e | e
      · exact hx e
      · exact hxm c1 e
    have hck : ck ≠ some x := fun e => hxm c (hckmem x e)
    have hp1 : Key.prevKey h1 key ≠ some x := by
      intro e
      obtain ⟨c1, hm⟩ := Key.prevKey_mem e
      exact hx1 c1 hm
    have hn1 : Key.nextKey h1 key ≠ some x := by
      intro e
      obtain ⟨c1, hm⟩ := Key.nextKey_mem e
      exact hx1 c1 hm
    obtain ⟨d1, d2⟩ := addKeyDo_keeps hdo hx
    obtain ⟨u1, u2⟩ := addKeyUndo_keeps hun hx hck
    have eo : (h2.key x).m_out = (h.key x).m_out := by
      rw [u1 (fun _ => hp1), d1 (fun _ => by rw [Key.prevKey_of_core_eq hcoreX]; exact hp1)]
    have ei : (h2.key x).m_in = (h.key x).m_in := by
      rw [u2 (fun _ => hn1), d2 (fun _ => by rw [Key.nextKey_of_core_eq hcoreX]; exact hn1)]
    exact Key.eq_of_core_of_spans (core_eq_key hc x) (by rw [ei]) (by rw [ei]) (by rw [eo])
      (by rw [eo])
  · -- keys that were active
    intro c1 x hxm
    have hx : x ≠ key := fun e => hnotmem c1 (e ▸ hxm)
    have hxm2 : x ∈ (h2.curve c1).m_keys := by rw [core_eq_curve hc]; exact hxm
    have hso2 : SpanOut h2 := addKeyUndo_spanOut (addKeyDo_spanOut hso hl hfree hdo) hl1 hun
    have hsi2 : SpanIn h2 := addKeyUndo_spanIn (addKeyDo_spanIn hsi hl hfree hdo) hl1 hun
    obtain ⟨d1, d2⟩ := addKeyDo_keeps hdo hx
    refine ⟨?_, ?_, ?_, ?_⟩
    · rw [hso2 c1 x hxm2, expectedOutDt_of_core_eq hc, hso c1 x hxm]
    · rw [hsi2 c1 x hxm2, expectedInDt_of_core_eq hc, hsi c1 x hxm]
    · obtain ⟨t, hu, hcov⟩ := addKeyUndo_upd hun
      by_cases hr : ck = some x ∨ (ck = none ∧ Key.prevKey h1 key = some x)
      · right
        have := hu.outDvOK x (Or.inr (hcov x (Or.inr hr)))
        unfold OutDvOK at this
        rw [this, hl2.spanOutDv_eq hxm2, expectedOutDv_of_core_eq hc]
      · left
        have hck : ck ≠ some x := fun e => hr (Or.inl e)
        have hp1 : ck = none → Key.prevKey h1 key ≠ some x := fun e1 e2 => hr (Or.inr ⟨e1, e2⟩)
        obtain ⟨u1, _⟩ := addKeyUndo_keeps hun hx hck
        rw [u1 hp1, d1 (fun e => by rw [Key.prevKey_of_core_eq hcoreX]; exact hp1 e)]
    · obtain ⟨t, hu, hcov⟩ := addKeyUndo_updIn hun
      by_cases hr : ck = some x ∨ (ck = none ∧ Key.nextKey h1 key = some x)
      · right
        have := hu.inDvOK x (Or.inr (hcov x (Or.inr hr)))
        unfold InDvOK at this
        rw [this, hl2.spanInDv_eq hxm2, expectedInDv_of_core_eq hc]
      · left
        have hck : ck ≠ some x := fun e => hr (Or.inl e)
        have hn1 : ck = none → Key.nextKey h1 key ≠ some x := fun e1 e2 => hr (Or.inr ⟨e1, e2⟩)
        obtain ⟨_, u2⟩ := addKeyUndo_keeps hun hx hck
        rw [u2 hn1, d2 (fun e => by rw [Key.nextKey_of_core_eq hcoreX]; exact hn1 e)]

/-! ### C10: Do followed by Undo of addKey and the cached spans -/

theorem exStaleLinear_reachable : Reachable exampleNumeric exStaleLinear :=
  exSpare_reachable.after_setInterpolation 0 .Linear (by decide!)

theorem exStaleSwapped_reachable : Reachable exampleNumeric exStaleSwapped :=
  exStaleLinear_reachable.afterRet_addKey 0 2 false (by decide!)

theorem exStale_reachable : Reachable exampleNumeric exStale :=
  Reachable.newKey (1 / 2) 3 .Linear 0 0 0 0 exStaleSwapped_reachable

/-- C10 fails as stated: in the reachable state `exStale` the active keys of
curve 0 are key 0 at (0, 0) and key 2 at (1, 7), key 2 having taken the slot of
a key of value 10, so that the out tangent of key 0 caches `dv = 10`; key 3 at
(1/2, 3) is unparented and clashes with no key.  The Do closure of
`addKey( key3 )` followed by its Undo closure leaves the out tangent of key 0
with `dv = 7`, and the slope of that tangent is 7 instead of 10. -/
theorem C10_counterexample :
    Reachable exampleNumeric exStale ∧
    (exStale.heap.key 3).m_parent = none ∧
    (exStale.heap.curve 0).m_keys = [0, 2] ∧
    CurvePlug.getKey exStale.heap 0 (exStale.heap.time 3) = none ∧
    addKeyDo 0 3 (CurvePlug.getKey exStale.heap 0 (exStale.heap.time 3))
      (exStale.heap.time 3) exStale.heap = .ok exStaleDo ∧
    addKeyUndo 0 3 (CurvePlug.getKey exStale.heap 0 (exStale.heap.time 3))
      (exStale.heap.time 3) exStaleDo = .ok exStaleUndo ∧
    (exStale.heap.key 0).m_out.m_dv = 10 ∧ (exStaleUndo.key 0).m_out.m_dv = 7 ∧
    Tangent.getSlope exStale.heap 0 .Out = 10 ∧ Tangent.getSlope exStaleUndo 0 .Out = 7 ∧
    exStaleUndo ≠ exStale.heap := by
  have e1 : CurvePlug.getKey exStale.heap 0 (exStale.heap.time 3) = none := by decide!
  have e2 : exStale.heap.time 3 = 1 / 2 := by decide!
  refine ⟨exStale_reachable, by decide!, by decide!, e1, ?_, ?_, by decide!, by decide!,
    by decide!, by decide!, ?_⟩
  · rw [e1, e2]
    exact Heap.after_eq_of_succeeds exStale.heap
      (addKeyDo_succeeds ⟨by decide!, by decide!, by decide!⟩ (fun x hx => by cases hx))
  · rw [e1, e2]
    exact Heap.after_eq_of_succeeds exStaleDo
      (addKeyUndo_succeeds ⟨by decide!, by decide!, by decide!⟩ (fun x hx => by cases hx))
  · intro e
    have h1 : (exStaleUndo.key 0).m_out.m_dv = (exStale.heap.key 0).m_out.m_dv := by rw [e]
    revert h1
    decide!

/-- C10 as amended: in every reachable state and for every unparented key, the
Do closure of `addKey` and then its Undo closure both run and restore the prior
state up to the cached spans of the tangents: the same active and inactive key
sequences in the same order for every curve, an evicted clashing key active
again in its slot of the active sequence, the added key unparented and inactive,
and every key with its prior parent, active flag, time, value, interpolation,
slopes and scales.  Of the cached spans, those of the added key are zero
afterwards, a key that was in no active sequence keeps all of its fields, and
an active key keeps its cached `dt` and has each cached `dv` either as before or
recomputed from its neighbour.  Hence the prior state is restored exactly when
the cached spans of the added key were zero and every active key cached the
right `dv`. -/
theorem C10_addKey_do_undo {ν : Numeric α} {w : Script α} (hr : Reachable ν w)
    (c : CurveId) (key : KeyId) (hp : (w.heap.key key).m_parent = none) :
    ∃ h1 h2,
      addKeyDo c key (CurvePlug.getKey w.heap c (w.heap.time key)) (w.heap.time key) w.heap =
        .ok h1 ∧
      addKeyUndo c key (CurvePlug.getKey w.heap c (w.heap.time key)) (w.heap.time key) h1 =
        .ok h2 ∧
      h2.curve = w.heap.curve ∧
      (h2.key key).m_parent = none ∧ (h2.key key).m_active = false ∧
      (∀ x, CurvePlug.getKey w.heap c (w.heap.time key) = some x →
        (h1.key x).m_active = false ∧ (h2.key x).m_active = true ∧
          x ∈ (h2.curve c).m_keys) ∧
      h2.core = w.heap.core ∧
      ((h2.key key).m_in.m_dt = 0 ∧ (h2.key key).m_in.m_dv = 0 ∧
        (h2.key key).m_out.m_dt = 0 ∧ (h2.key key).m_out.m_dv = 0) ∧
      (∀ x, x ≠ key → (∀ c1, x ∉ (w.heap.curve c1).m_keys) → h2.key x = w.heap.key x) ∧
      (∀ c1 x, x ∈ (w.heap.curve c1).m_keys →
        (h2.key x).m_out.m_dt = (w.heap.key x).m_out.m_dt ∧
        (h2.key x).m_in.m_dt = (w.heap.key x).m_in.m_dt ∧
        ((h2.key x).m_out.m_dv = (w.heap.key x).m_out.m_dv ∨
          (h2.key x).m_out.m_dv = expectedOutDv w.heap c1 x) ∧
        ((h2.key x).m_in.m_dv = (w.heap.key x).m_in.m_dv ∨
          (h2.key x).m_in.m_dv = expectedInDv w.heap c1 x)) ∧
      (((w.heap.key key).m_in.m_dt = 0 ∧ (w.heap.key key).m_in.m_dv = 0 ∧
          (w.heap.key key).m_out.m_dt = 0 ∧ (w.heap.key key).m_out.m_dv = 0) →
        (∀ c1 x, x ∈ (w.heap.curve c1).m_keys →
          (w.heap.key x).m_out.m_dv = expectedOutDv w.heap c1 x ∧
          (w.heap.key x).m_in.m_dv = expectedInDv w.heap c1 x) →
        h2 = w.heap) := by
  have hl := hr.inv.wf.linked
  obtain ⟨h1, h2, hdo, hun, hc⟩ := addKey_do_undo hl (c := c) hp (clashingKey_state hl)
    (fun e => getKey_none_free hl e)
  have hcurve : h2.curve = w.heap.curve := core_eq_curve hc
  obtain ⟨K1, K2, K3⟩ := addKey_do_undo_caches hl hr.spanOut hr.spanIn hp
    (clashingKey_state hl) (fun e => getKey_none_free hl e) hdo hun hc
  refine ⟨h1, h2, hdo, hun, hcurve, ?_, ?_, ?_, hc, K1, K2, K3, ?_⟩
  · rw [core_eq_parent hc]; exact hp
  · rw [core_eq_active hc]; exact hl.unparented key hp
  · intro x hx
    obtain ⟨hm, _⟩ := find_some w.heap.time _ _ hx
    obtain ⟨_, T2, _⟩ := addKeyUndo_ok hun
    refine ⟨(T2 x hx).2.1, ?_, ?_⟩
    · rw [core_eq_active hc]; exact ((hl.mem_keys c x).1 hm).2
    · rw [hcurve]; exact hm
  · intro hz hok
    refine Heap.ext_fields ?_ (fun c1 => by rw [hcurve]) (fun c1 => by rw [hcurve])
      (core_eq_keyCount hc)
    intro x
    by_cases hx : x = key
    · subst hx
      exact Key.eq_of_core_of_spans (core_eq_key hc x) (by rw [K1.1, hz.1])
        (by rw [K1.2.1, hz.2.1]) (by rw [K1.2.2.1, hz.2.2.1]) (by rw [K1.2.2.2, hz.2.2.2])
    · by_cases hm : ∃ c1, x ∈ (w.heap.curve c1).m_keys
      · obtain ⟨c1, hm⟩ := hm
        obtain ⟨q1, q2, q3, q4⟩ := K3 c1 x hm
        obtain ⟨o1, o2⟩ := hok c1 x hm
        refine Key.eq_of_core_of_spans (core_eq_key hc x) q2 ?_ q1 ?_
        · rcases q4 with e | e
          · exact e
          · rw [e, o2]
        · rcases q3 with e | e
          · exact e
          · rw [e, o1]
      · exact K2 x hx (fun c1 hm1 => hm ⟨c1, hm1⟩)

/-- C10 for the unparented key 2 at time 1 added to the curve with the keys
(0, 0) and (1, 10), where it evicts key 1. -/
theorem C10_addKey_do_undo_witness :
    ∃ h1 h2,
      addKeyDo 0 2 (CurvePlug.getKey exSpare.heap 0 (exSpare.heap.time 2))
        (exSpare.heap.time 2) exSpare.heap = .ok h1 ∧
      addKeyUndo 0 2 (CurvePlug.getKey exSpare.heap 0 (exSpare.heap.time 2))
        (exSpare.heap.time 2) h1 = .ok h2 ∧
      h2.curve = exSpare.heap.curve ∧
      (h2.key 2).m_parent = none ∧ (h2.key 2).m_active = false ∧
      (∀ x, CurvePlug.getKey exSpare.heap 0 (exSpare.heap.time 2) = some x →
        (h1.key x).m_active = false ∧ (h2.key x).m_active = true ∧
          x ∈ (h2.curve 0).m_keys) ∧
      h2.core = exSpare.heap.core ∧
      ((h2.key 2).m_in.m_dt = 0 ∧ (h2.key 2).m_in.m_dv = 0 ∧
        (h2.key 2).m_out.m_dt = 0 ∧ (h2.key 2).m_out.m_dv = 0) ∧
      (∀ x, x ≠ 2 → (∀ c1, x ∉ (exSpare.heap.curve c1).m_keys) →
        h2.key x = exSpare.heap.key x) ∧
      (∀ c1 x, x ∈ (exSpare.heap.curve c1).m_keys →
        (h2.key x).m_out.m_dt = (exSpare.heap.key x).m_out.m_dt ∧
        (h2.key x).m_in.m_dt = (exSpare.heap.key x).m_in.m_dt ∧
        ((h2.key x).m_out.m_dv = (exSpare.heap.key x).m_out.m_dv ∨
          (h2.key x).m_out.m_dv = expectedOutDv exSpare.heap c1 x) ∧
        ((h2.key x).m_in.m_dv = (exSpare.heap.key x).m_in.m_dv ∨
          (h2.key x).m_in.m_dv = expectedInDv exSpare.heap c1 x)) ∧
      (((exSpare.heap.key 2).m_in.m_dt = 0 ∧ (exSpare.heap.key 2).m_in.m_dv = 0 ∧
          (exSpare.heap.key 2).m_out.m_dt = 0 ∧ (exSpare.heap.key 2).m_out.m_dv = 0) →
        (∀ c1 x, x ∈ (exSpare.heap.curve c1).m_keys →
          (exSpare.heap.key x).m_out.m_dv = expectedOutDv exSpare.heap c1 x ∧
          (exSpare.heap.key x).m_in.m_dv = expectedInDv exSpare.heap c1 x) →
        h2 = exSpare.heap) :=
  C10_addKey_do_undo exSpare_reachable 0 2 rfl


end Proofs

end Animation
